import Mathlib

/-!
# Oblivious random permutations: a verification development

A shallow embedding of the ORP library (simulated storage server, permutation
oracle, bitonic / bucket / Melbourne / Waksman permutations) and theorems about it.

Conventions.  `uint32_t` values are natural numbers; where the source can wrap,
the arithmetic is written with an explicit `% 2 ^ 32`.  Code that can abort, read
storage that was never written, or loop for ever returns `Except Fault _`.
-/

namespace ORP

/-! ## Definitions -/

/-- `INT32_MAX` of `<cstdint>`. -/
def INT32_MAX : Nat := 2147483647

/-- `UINT32_MAX` of `<cstdint>`. -/
def UINT32_MAX : Nat := 4294967295

/-- `BYTESPERELEM` of `server.h`. -/
def BYTESPERELEM : Nat := 9

/-- The modulus of `uint32_t` arithmetic. -/
def W32 : Nat := 2 ^ 32

/-- `struct element` of `server.h`: `key` and `aux`.  The payload `value` is a blank
block that `get` allocates and `put` frees; it carries no data and is left out. -/
structure element where
  key : Nat
  aux : Nat
deriving DecidableEq, Repr

/-- `struct disk_array` of `server.h`: the file behind the two streams (its bytes and
its end-of-file position) and the declared `length`. -/
structure disk_array where
  bytes : Nat → Nat
  eof : Nat
  length : Nat

/-- `class server` of `server.h`. -/
structure server where
  num_IO : Nat
  block_size : Nat
  table : Nat → Option disk_array

/-- The eight bytes of a 64-bit word, least significant first (the layout of
`f->write((char*) &packet, sizeof(packet))` on the little-endian reference machine). -/
def le_bytes (packet : Nat) : List Nat :=
  (List.range 8).map (fun i => packet / 256 ^ i % 256)

/-- The 64-bit word that `f->read(reinterpret_cast<char*>(&output), 8)` assembles from
the eight bytes at `pos`. -/
def le_word (bytes : Nat → Nat) (pos : Nat) : Nat :=
  ((List.range 8).map (fun i => bytes (pos + i) % 256 * 256 ^ i)).sum

/-- Writing the byte list `bs` at position `pos` of a file: bytes inside the written
range are replaced, the end of file moves if the write goes past it. -/
def file_write (d : disk_array) (pos : Nat) (bs : List Nat) : disk_array :=
  { d with
    bytes := fun q => if pos ≤ q ∧ q < pos + bs.length then bs.getD (q - pos) 0 else d.bytes q
    eof := max d.eof (pos + bs.length) }

/-- The constructor `server(block_size)`. -/
def server.init (block_size : Nat) : server :=
  { num_IO := 0, block_size := block_size, table := fun _ => none }

/-- `server::create_array`: a fresh empty file of declared length `length` is bound to
`name`, whatever was bound to it before. -/
def server.create_array (s : server) (name length : Nat) : server :=
  { s with
    table := fun nm => if nm = name then some { bytes := fun _ => 0, eof := 0, length := length }
                       else s.table nm }

/-- `server::put`: the packet `aux << 32 | key` is written at byte `index * 9`
(a `uint32_t` product), followed by the newline of `std::endl`.  `none` when `name`
is not in the table (the source dereferences a null `disk_array*`). -/
def server.put (s : server) (name index : Nat) (x : element) : Option server :=
  match s.table name with
  | none => none
  | some array =>
    let packet := (x.aux * 2 ^ 32 % 2 ^ 64) ||| x.key
    let file_idx := index * BYTESPERELEM % W32
    let array1 := file_write array file_idx (le_bytes packet ++ [10])
    some { s with
           num_IO := (server.num_IO s + 1) % W32
           table := fun nm => if nm = name then some array1 else s.table nm }

/-- `server::get`: eight bytes are read at byte `index * 9`; `key` is the word masked
with `INT32_MAX`, `aux` its upper half.  The element is `none` when the array is
missing or the read runs past the end of the file (the source then returns whatever
the uninitialised `output` holds). -/
def server.get (s : server) (name index : Nat) : server × Option element :=
  let s1 := { s with num_IO := (server.num_IO s + 1) % W32 }
  match s.table name with
  | none => (s1, none)
  | some array =>
    let file_idx := index * BYTESPERELEM % W32
    if file_idx + 8 ≤ array.eof then
      let output := le_word array.bytes file_idx
      (s1, some { key := output &&& INT32_MAX, aux := output / 2 ^ 32 % W32 })
    else (s1, none)

/-- `server::reset_IO`. -/
def server.reset_IO (s : server) : server := { s with num_IO := 0 }

/-- `server::get_IO`. -/
def server.get_IO (s : server) : Nat := server.num_IO s

/-- `server::delete_array`; `none` when `i` is not in the table. -/
def server.delete_array (s : server) (i : Nat) : Option server :=
  match s.table i with
  | none => none
  | some _ => some { s with table := fun nm => if nm = i then none else s.table nm }

/-- `server::check`: the `int` index is converted to `uint32_t` for the comparison with
`length`; `none` when `name` is not in the table (null dereference). -/
def server.check (s : server) (name : Nat) (index : Int) : Option Bool :=
  match s.table name with
  | none => none
  | some array => some (decide ((index % (2 ^ 32 : Int)).toNat < array.length))

/-! ### The storage interface as the algorithms use it -/

/-- Why a run stops without a result. -/
inductive Fault where
  /-- `table[name]` holds no array: the source dereferences a null pointer. -/
  | no_array
  /-- A slot is read that was never written: the source has no failure path there, it
  builds an element from an indeterminate word and goes on.  The slot view follows such a
  run no further. -/
  | unwritten
  /-- An index outside a client-side array or vector. -/
  | out_of_bounds
  /-- The `overflow ABORT` exit of the bucket permutation. -/
  | overflow
  /-- A failed `assert`. -/
  | assertion
  /-- The loop did not finish within the fuel given. -/
  | fuel
deriving DecidableEq, Repr

/-- One operation as the storage tier observes it. -/
inductive access where
  | get (name index : Nat)
  | put (name index : Nat)
deriving DecidableEq, Repr

/-- An array at the server, slot by slot: the declared length and, for every index,
the element last written there (`none`: never written).  This is the view of
`disk_array` that `server::get` and `server::put` give while the byte offsets
`index * 9` fit in 32 bits: `cloud.views` states the correspondence with the bytes of the
file, and `views_put`, `views_get` prove that one operation at such an index keeps it.
From index `477218589` on the `uint32_t` offset wraps and the write lands on the bytes of
other slots (`server_put_wraps`); the slot view does not describe the program there. -/
structure ext_array where
  length : Nat
  slots : Nat → Option element

/-- The server as the algorithms see it through the pointer `cloud`: the I/O counter,
the table of arrays, and the sequence of `get`/`put` operations issued so far. -/
structure cloud where
  num_IO : Nat
  table : Nat → Option ext_array
  trace : List access

/-- `server::create_array`, slot view. -/
def cloud.create_array (c : cloud) (name length : Nat) : cloud :=
  { c with
    table := fun nm => if nm = name then some { length := length, slots := fun _ => none }
                       else c.table nm }

/-- `server::delete_array`, slot view. -/
def cloud.delete_array (c : cloud) (i : Nat) : Except Fault cloud :=
  match c.table i with
  | none => .error .no_array
  | some _ => .ok { c with table := fun nm => if nm = i then none else c.table nm }

/-- `server::get`, slot view: counts one I/O and returns the stored element with its
key masked by `INT32_MAX`, as the source does.  No bounds check is made.  The slot `index`
is the one the source reads when `index * 9 < 2 ^ 32` (`views_get`); the source computes
the byte offset in `uint32_t`, so that a larger index reads bytes of other slots.  On a
slot that was never written the source reads an indeterminate word and goes on; the slot
view stops with `Fault.unwritten`, and a run that returns has read written slots only. -/
def cloud.get (c : cloud) (name index : Nat) : Except Fault (element × cloud) :=
  match c.table name with
  | none => .error .no_array
  | some a =>
    match a.slots index with
    | none => .error .unwritten
    | some e =>
      .ok ({ key := e.key &&& INT32_MAX, aux := e.aux },
           { c with num_IO := (cloud.num_IO c + 1) % W32
                    trace := c.trace ++ [access.get name index] })

/-- `server::put`, slot view: counts one I/O and stores the element.  No bounds check
is made.  The slot `index` is the one the source writes when `index * 9 < 2 ^ 32`
(`views_put`); the source computes the byte offset in `uint32_t`, so that a larger index
overwrites bytes of other slots (`server_put_wraps`). -/
def cloud.put (c : cloud) (name index : Nat) (x : element) : Except Fault cloud :=
  match c.table name with
  | none => .error .no_array
  | some a =>
    .ok { c with
          num_IO := (cloud.num_IO c + 1) % W32
          table := fun nm =>
            if nm = name then
              some { a with slots := fun i => if i = index then some x else a.slots i }
            else c.table nm
          trace := c.trace ++ [access.put name index] }

/-- `server::check`, slot view (the `int` index is compared as `uint32_t`). -/
def cloud.check (c : cloud) (name : Nat) (index : Int) : Except Fault Bool :=
  match c.table name with
  | none => .error .no_array
  | some a => .ok (decide ((index % (2 ^ 32 : Int)).toNat < a.length))

/-- The element stored at `name[index]`, without any I/O. -/
def cloud.peek (c : cloud) (name index : Nat) : Option element :=
  match c.table name with
  | none => none
  | some a => a.slots index

/-- A counting loop `for (i = 0; i < n; ++i) body(i)` over a state. -/
def loop {σ : Type} (n : Nat) (body : Nat → σ → Except Fault σ) (s : σ) : Except Fault σ :=
  match n with
  | 0 => .ok s
  | m + 1 => loop m body s >>= body m

/-! ### The permutation oracle (`permutation.h`) -/

/-- `class permutation`: `size`, the array `perm` and the array `inv_perm`. -/
structure permutation where
  size : Nat
  perm : List Nat
  inv_perm : List Nat

/-- The inner loop `while (perm[count] != j) count++` of the inverse scan, on the part
of `perm` from `count` on.  Running off the array is a fault. -/
def inv_scan (j : Nat) : List Nat → Nat → Except Fault Nat
  | [], _ => .error .out_of_bounds
  | x :: rest, count => if x ≠ j then inv_scan j rest (count + 1) else .ok count

/-- The outer loop of the inverse scan: `inv_perm[j] = count` for `j` in `js`. -/
def fill_inv (perm : List Nat) : List Nat → Except Fault (List Nat)
  | [] => .ok []
  | j :: js => do
    let count ← inv_scan j perm 0
    let rest ← fill_inv perm js
    pure (count :: rest)

/-- The constructor `permutation(size)`.  `shuffle` is what `std::shuffle` does with the
engine it is given. -/
def permutation.init (size : Nat) (shuffle : List Nat → List Nat) : Except Fault permutation :=
  let perm := shuffle (List.range size)
  do
    let inv ← fill_inv perm (List.range size)
    pure { size := size, perm := perm, inv_perm := inv }

/-- `permutation::new_seed`: the stored array is shuffled again and the inverse is
recomputed. -/
def permutation.new_seed (p : permutation) (shuffle : List Nat → List Nat) :
    Except Fault permutation :=
  let perm := shuffle p.perm
  do
    let inv ← fill_inv perm (List.range p.size)
    pure { size := p.size, perm := perm, inv_perm := inv }

/-- `permutation::eval_perm`: `perm[item]`. -/
def permutation.eval_perm (p : permutation) (item : Nat) : Except Fault Nat :=
  match p.perm[item]? with
  | none => .error .out_of_bounds
  | some v => .ok v

/-- `permutation::eval_inv_perm`: `inv_perm[item]`. -/
def permutation.eval_inv_perm (p : permutation) (item : Nat) : Except Fault Nat :=
  match p.inv_perm[item]? with
  | none => .error .out_of_bounds
  | some v => .ok v

/-- `permutation::perm_size`. -/
def permutation.perm_size (p : permutation) : Nat := p.size

/-- The two lookups of an oracle are inverse to each other on `[0, size)`. -/
def permutation.inverse_ok (p : permutation) : Prop :=
  ∀ k, k < p.size →
    (p.eval_perm k >>= p.eval_inv_perm) = .ok k ∧ (p.eval_inv_perm k >>= p.eval_perm) = .ok k

/-! ### Bitonic permutation (`bitonic.cpp`) -/

/-- `class bitonic`: the oracle `pi` inherited from `ORP` and the field `size`. -/
structure bitonic where
  pi : permutation
  size : Nat

/-- The body of the innermost loop of `bitonic::permute` for one `k`. -/
def bitonic.body (b : bitonic) (arr i j k : Nat) (c : cloud) : Except Fault cloud :=
  let l := k ^^^ j
  if l > k then do
    -- retrieve elements
    let (ek, c) ← c.get arr k
    let (el, c) ← c.get arr l
    -- hash the keys
    let randk ← b.pi.eval_perm ek.key
    let randl ← b.pi.eval_perm el.key
    -- route according to the order of the hash values
    if ((i &&& k) = 0 ∧ randk > randl) ∨ ((i &&& k) ≠ 0 ∧ randk < randl) then do
      let c ← c.put arr k el
      c.put arr l ek
    else do
      let c ← c.put arr k ek
      c.put arr l el
  else pure c

/-- The loop `for (j = i/2; j > 0; j /= 2)` with the loop over `k` inside. -/
def bitonic.j_loop (b : bitonic) (arr i : Nat) : Nat → Nat → cloud → Except Fault cloud
  | 0, _, _ => .error .fuel
  | fuel + 1, j, c =>
    if j > 0 then do
      let c ← loop b.size (fun k c => b.body arr i j k c) c
      bitonic.j_loop b arr i fuel (j / 2) c
    else pure c

/-- The loop `for (i = 2; i <= size; i *= 2)`; `i` is a `uint32_t`. -/
def bitonic.i_loop (b : bitonic) (arr : Nat) : Nat → Nat → cloud → Except Fault cloud
  | 0, _, _ => .error .fuel
  | fuel + 1, i, c =>
    if i ≤ b.size then do
      let c ← b.j_loop arr i (fuel + 1) (i / 2) c
      bitonic.i_loop b arr fuel (i * 2 % W32) c
    else pure c

/-- `bitonic::permute`: the array is sorted in place, the name is returned. -/
def bitonic.permute (b : bitonic) (fuel : Nat) (arr : Nat) (c : cloud) :
    Except Fault (Nat × cloud) := do
  let c ← b.i_loop arr fuel 2 c
  pure (arr, c)

/-! ### The bitonic network as a function on arrays (used to state what the loops compute) -/

/-- The lower index of the pair that the stage with `j = 2 ^ q` compares `x` in: `x`
itself when bit `q` of `x` is clear, `x - 2 ^ q` otherwise. -/
def pair_lo (q x : Nat) : Nat := if x / 2 ^ q % 2 = 0 then x else x - 2 ^ q

/-- One pass of the `k` loop with `i = 2 ^ p` and `j = 2 ^ q`, on an array of values:
every pair `(lo, lo + 2 ^ q)` is put in ascending order when bit `p` of `lo` is clear
and in descending order otherwise. -/
def stage {α : Type} [LinearOrder α] (p q : Nat) (g : Nat → α) (x : Nat) : α :=
  let lo := pair_lo q x
  let hi := lo + 2 ^ q
  if lo / 2 ^ p % 2 = 0 then
    (if x = lo then min (g lo) (g hi) else max (g lo) (g hi))
  else
    (if x = lo then max (g lo) (g hi) else min (g lo) (g hi))

/-- The passes `j = 2 ^ (q - 1), ..., 2, 1` of phase `i = 2 ^ p`. -/
def merge_from {α : Type} [LinearOrder α] (p : Nat) : Nat → (Nat → α) → (Nat → α)
  | 0, g => g
  | q + 1, g => merge_from p q (stage p q g)

/-- The phases `i = 2, 4, ..., 2 ^ m`. -/
def phases {α : Type} [LinearOrder α] : Nat → (Nat → α) → (Nat → α)
  | 0, g => g
  | p + 1, g => merge_from (p + 1) (p + 1) (phases p g)

/-- One stage of the network on an array of elements, compared through `v`: the two
elements of a pair change places exactly when the comparator of the source swaps them. -/
def estage (v : element → Nat) (p q : Nat) (f : Nat → element) (x : Nat) : element :=
  let lo := pair_lo q x
  let hi := lo + 2 ^ q
  if (lo / 2 ^ p % 2 = 0 ∧ v (f lo) > v (f hi)) ∨ (lo / 2 ^ p % 2 ≠ 0 ∧ v (f lo) < v (f hi)) then
    (if x = lo then f hi else f lo)
  else f x

/-- The stages `q - 1, ..., 0` of phase `p` on elements. -/
def emerge_from (v : element → Nat) (p : Nat) : Nat → (Nat → element) → (Nat → element)
  | 0, f => f
  | q + 1, f => emerge_from v p q (estage v p q f)

/-- The phases `1, ..., m` on elements. -/
def ephases (v : element → Nat) : Nat → (Nat → element) → (Nat → element)
  | 0, f => f
  | p + 1, f => emerge_from v (p + 1) (p + 1) (ephases v p f)

/-- A 0-1 sequence of length `L` whose ones, or whose zeros, form an interval. -/
def bitonic01 (s : Nat → Bool) (L : Nat) : Prop :=
  (∃ a b, ∀ x, x < L → (s x = true ↔ (a ≤ x ∧ x < b))) ∨
  (∃ a b, ∀ x, x < L → (s x = false ↔ (a ≤ x ∧ x < b)))

/-- `a` before `b` in the direction `asc`. -/
def ord {α : Type} [LinearOrder α] (asc : Bool) (a b : α) : Prop :=
  if asc then a ≤ b else b ≤ a

/-- The value a comparator of direction `asc` leaves on its lower wire. -/
def dmin {α : Type} [LinearOrder α] (asc : Bool) (a b : α) : α :=
  if asc then min a b else max a b

/-- The value a comparator of direction `asc` leaves on its upper wire. -/
def dmax {α : Type} [LinearOrder α] (asc : Bool) (a b : α) : α :=
  if asc then max a b else min a b

/-- The state of a merge on the region of `2 ^ (q + d)` slots from `B`: its aligned
blocks of `2 ^ q` slots are bitonic and follow one another in the direction `asc`. -/
def merged (asc : Bool) (H : Nat → Bool) : Nat → Nat → Nat → Prop
  | 0, q, B => bitonic01 (fun x => H (B + x)) (2 ^ q)
  | d + 1, q, B =>
    merged asc H d q B ∧ merged asc H d q (B + 2 ^ (q + d)) ∧
    ∀ x y, x < 2 ^ (q + d) → y < 2 ^ (q + d) → ord asc (H (B + x)) (H (B + 2 ^ (q + d) + y))

/-- The region of `L` slots from `B` is sorted in the direction `asc`. -/
def sorted_dir {α : Type} [LinearOrder α] (asc : Bool) (H : Nat → α) (B L : Nat) : Prop :=
  ∀ x y, x ≤ y → y < L → ord asc (H (B + x)) (H (B + y))

/-- After phase `p` every aligned block of `2 ^ p` slots is sorted, upwards when its
number is even and downwards when it is odd. -/
def phase_sorted {α : Type} [LinearOrder α] (p : Nat) (G : Nat → α) : Prop :=
  ∀ B, 2 ^ p ∣ B → sorted_dir (decide (B / 2 ^ p % 2 = 0)) G B (2 ^ p)

/-- The first `n` slots of array `arr` hold the elements `f 0, ..., f (n - 1)`. -/
def cloud.holds (c : cloud) (arr n : Nat) (f : Nat → element) : Prop :=
  ∃ A, c.table arr = some A ∧ ∀ x, x < n → A.slots x = some (f x)

/-- The place `pi` assigns to an element, as a total function (`0` outside the table). -/
def permutation.place (p : permutation) (e : element) : Nat := p.perm.getD e.key 0
/-- The server as `main.cpp` hands it to an algorithm: array `0` of length `n` holds the
element with key `i` and aux `0` at index `i`, the I/O counter is reset, and the
recording of the trace starts. -/
def cloud.driver (n : Nat) : cloud :=
  { num_IO := 0
    table := fun nm =>
      if nm = 0 then
        some { length := n, slots := fun i => if i < n then some { key := i, aux := 0 } else none }
      else none
    trace := [] }

/-- The storage operations of one pass of the body of `bitonic::permute`: none when
`k ^ j <= k`, otherwise two reads and two writes whatever the comparison gives. -/
def bitonic.body_trace (arr j k : Nat) : List access :=
  if k ^^^ j > k then
    [access.get arr k, access.get arr (k ^^^ j), access.put arr k, access.put arr (k ^^^ j)]
  else []

/-! ### Bucket oblivious permutation (`bucket.cpp`) -/

/-- `class bucket`: the oracle `pi` inherited from `ORP` and the fields `size`, `Z`,
`B`, `seed`. -/
structure bucket where
  pi : permutation
  size : Nat
  Z : Nat
  B : Nat
  seed : Nat

/-- The number of significant bits of a 32-bit value: `32 - __builtin_clz(x)` for
`x > 0`. -/
def msb_of : Nat → Nat → Nat
  | 0, _ => 0
  | fuel + 1, x => if x = 0 then 0 else msb_of fuel (x / 2) + 1

/-- `bucket::get_bucket`: the slots `offset, ..., min(width + offset, B * Z) - 1` that
pass `check` are read; an element is kept unless its key is `INT32_MAX`. -/
def bucket.get_bucket (bk : bucket) (arr width offset : Nat) (c : cloud) :
    Except Fault (List element × cloud) :=
  let length := bk.B * bk.Z % W32
  let stop := min ((width + offset) % W32) length
  loop (stop - offset) (fun t (s : List element × cloud) => do
      let i := offset + t
      if (← s.2.check arr i) then
        let (e, c1) ← s.2.get arr i
        if e.key ≠ INT32_MAX then pure (s.1 ++ [e], c1) else pure (s.1, c1)
      else pure s) ([], c)

/-- `bucket::put_bucket`: abort when the bucket holds more than `Z` elements; otherwise
the elements go to `offset, offset + 1, ...` and dummies fill the slots up to
`offset + Z - 1`. -/
def bucket.put_bucket (bk : bucket) (arr offset : Nat) (buck : List element) (c : cloud) :
    Except Fault cloud :=
  let card := buck.length
  if card > bk.Z then .error .overflow
  else do
    let c ← loop card (fun i c =>
      match buck[i]? with
      | none => .error .out_of_bounds
      | some e => c.put arr ((offset + i) % W32) e) c
    loop (bk.Z - card) (fun t c =>
      c.put arr ((offset + (card + t)) % W32) { key := INT32_MAX, aux := 0 }) c

/-- `bucket::split_input_bucket`: every element whose key is not `UINT32_MAX` is
appended to `out_right` when bit `i` of `hash(key, seed) % B` is set and to
`out_left` otherwise.  The result is `(out_right, out_left)`. -/
def bucket.split_input_bucket (bk : bucket) (hash : Nat → Nat → Nat) (input : List element)
    (out_right out_left : List element) (i : Nat) : List element × List element :=
  input.foldl (fun (s : List element × List element) e =>
    if e.key ≠ UINT32_MAX then
      let tag := hash e.key bk.seed % bk.B
      if tag &&& (2 ^ i % W32) ≠ 0 then (s.1 ++ [e], s.2) else (s.1, s.2 ++ [e])
    else s) (out_right, out_left)

/-- `bucket::final_round`: both buckets are shuffled and written without padding from
index `count` on; the new count is returned. -/
def bucket.final_round (shuffle_left shuffle_right : List element → List element)
    (left right : List element) (arr count : Nat) (c : cloud) : Except Fault (Nat × cloud) := do
  let left := shuffle_left left
  let right := shuffle_right right
  let card := left.length
  let c ← loop card (fun i c =>
    match left[i]? with
    | none => .error .out_of_bounds
    | some e => c.put arr ((count + i) % W32) e) c
  let count := (count + card) % W32
  let card := right.length
  let c ← loop card (fun i c =>
    match right[i]? with
    | none => .error .out_of_bounds
    | some e => c.put arr ((count + i) % W32) e) c
  let count := (count + card) % W32
  pure (count, c)

/-- The body of the loop over `j` in `bucket::butterfly`, at level `i`.  The state is
the running `count` and the server. -/
def bucket.butterfly_body (bk : bucket) (hash : Nat → Nat → Nat)
    (shuffle : Nat → List element → List element) (arr msb i j : Nat)
    (s : Nat × cloud) : Except Fault (Nat × cloud) := do
  -- first round the input array has no dummies
  let width := if i = 0 then bk.Z / 2 else bk.Z
  let jprime := j / (2 ^ i % W32) * (2 ^ i % W32) % W32
  -- get buckets from the server
  let (in_left, c) ← bk.get_bucket arr width ((j + jprime) % W32 * width % W32) s.2
  let (in_right, c) ← bk.get_bucket arr width ((j + jprime + 2 ^ i % W32) % W32 * width % W32) c
  -- split two buckets according to random tags
  let (out_right, out_left) := bk.split_input_bucket hash in_left [] [] i
  let (out_right, out_left) := bk.split_input_bucket hash in_right out_right out_left i
  if i = (msb + W32 - 2) % W32 then
    -- dummies need to be removed and buckets shuffled
    bucket.final_round (shuffle (2 * j)) (shuffle (2 * j + 1)) out_left out_right
      ((arr + 1) % W32) s.1 c
  else do
    -- place buckets on the server
    let c ← bk.put_bucket ((arr + 1) % W32) (2 * j * bk.Z % W32) out_left c
    let c ← bk.put_bucket ((arr + 1) % W32) ((2 * j + 1) * bk.Z % W32) out_right c
    pure (s.1, c)

/-- `bucket::butterfly`.  The result is the name of the last array written and the
object with its field `B` set.  `hash` is `MurmurHash3_x86_32`, `shuffle n` the `n`-th
call of `std::shuffle` in the final round. -/
def bucket.butterfly (bk : bucket) (hash : Nat → Nat → Nat)
    (shuffle : Nat → List element → List element) (arr : Nat) (c : cloud) :
    Except Fault (Nat × bucket × cloud) := do
  -- largest power of two larger than 2n/Z
  let B0 := (2 * bk.size % W32 + bk.Z - 1) / bk.Z
  let msb := msb_of 32 B0
  -- check if B is a power of two
  let bk := { bk with B := if B0 &&& (B0 - 1) ≠ 0 then 2 ^ msb % W32 else B0 }
  let (arr, _, c) ← loop (msb - 1) (fun i (s : Nat × Nat × cloud) => do
      let arr := s.1
      let c := s.2.2.create_array ((arr + 1) % W32) (bk.B * bk.Z % W32)
      let (count, c) ← loop (bk.B / 2)
        (fun j s => bk.butterfly_body hash shuffle arr msb i j s) (s.2.1, c)
      -- increment array
      let c ← c.delete_array arr
      pure ((arr + 1) % W32, count, c)) (arr, 0, c)
  pure (arr, bk, c)

/-- The body of the loop of `bucket::rearrange`. -/
def bucket.rearrange_body (bk : bucket) (arr i : Nat) (c : cloud) : Except Fault cloud := do
  let (e, c) ← c.get arr i
  let index ← bk.pi.eval_perm e.key
  c.put ((arr + 1) % W32) index e

/-- `bucket::rearrange`. -/
def bucket.rearrange (bk : bucket) (arr : Nat) (c : cloud) : Except Fault (Nat × cloud) := do
  -- non-oblivious algorithm for applying a permutation to an array
  let c := c.create_array ((arr + 1) % W32) bk.size
  let c ← loop bk.size (bk.rearrange_body arr) c
  -- increment array
  let c ← c.delete_array arr
  pure ((arr + 1) % W32, c)

/-- `bucket::permute`. -/
def bucket.permute (bk : bucket) (hash : Nat → Nat → Nat)
    (shuffle : Nat → List element → List element) (arr : Nat) (c : cloud) :
    Except Fault (Nat × bucket × cloud) := do
  let bk := { bk with seed := (bk.seed + 2) % W32 }
  let (arr, bk, c) ← bk.butterfly hash shuffle arr c
  -- rearrange (non-obliviously) according to the input permutation.
  let (arr, c) ← bk.rearrange arr c
  pure (arr, bk, c)

/-- The oracle holding the reversal `pi(k) = n - 1 - k`, which is its own inverse. -/
def permutation.reversal (n : Nat) : permutation :=
  { size := n, perm := (List.range n).reverse, inv_perm := (List.range n).reverse }

/-! ### Melbourne shuffle (`melbshuffle.cpp`) -/

/-- `Ta` of `melbshuffle.h`. -/
def Ta : Nat := 0x10000000

/-- `Tb` of `melbshuffle.h`. -/
def Tb : Nat := 0x10000001

/-- `Tc` of `melbshuffle.h`. -/
def Tc : Nat := 0x10000002

/-- `Td` of `melbshuffle.h`. -/
def Td : Nat := 0x10000003

/-- `class melbshuffle`: the oracle `pi` inherited from `ORP` and the fields of the
class. -/
structure melbshuffle where
  pi : permutation
  p1 : Nat
  p2 : Nat
  size : Nat
  num_chunks : Nat
  num_buckets : Nat
  buckets_per_chunk : Nat
  bucket_width : Nat
  chunk_width : Nat

/-- The least `r ≥ start` with `P r`, looking at `fuel` candidates at most. -/
def least_from (P : Nat → Bool) : Nat → Nat → Nat
  | 0, r => r
  | fuel + 1, r => if P r then r else least_from P fuel (r + 1)

/-- The least `r` with `n ≤ r ^ k`: the exact value of `ceil(sqrt(n))` for `k = 2` and of
`ceil(pow(n, 0.25))` for `k = 4`. -/
def ceil_root (k n : Nat) : Nat := least_from (fun r => decide (n ≤ r ^ k)) n 0

/-- `ceil((double) a / (double) b)` for `b > 0`. -/
def ceil_div (a b : Nat) : Nat := (a + b - 1) / b

/-- The constructor `melbshuffle(cloud, size, p1, p2)`, with the square root and the
fourth root taken exactly. -/
def melbshuffle.init (pi : permutation) (size p1 p2 : Nat) : melbshuffle :=
  let num_buckets := ceil_root 2 size
  let bucket_width0 := ceil_root 2 size
  let bucket_width :=
    if (bucket_width0 * num_buckets % W32 + W32 - bucket_width0) % W32 ≥ size
    then (bucket_width0 + W32 - 1) % W32 else bucket_width0
  let num_chunks := ceil_root 4 size
  let buckets_per_chunk := ceil_div num_buckets num_chunks
  { pi := pi, p1 := p1, p2 := p2, size := size,
    num_chunks := num_chunks, num_buckets := num_buckets,
    buckets_per_chunk := buckets_per_chunk, bucket_width := bucket_width,
    chunk_width := buckets_per_chunk * bucket_width % W32 }

/-- The dummy element `new element(INT32_MAX, 0, nullptr)`. -/
def dummy : element := { key := INT32_MAX, aux := 0 }

/-- `melbshuffle::get_range`: the elements `name[offset], ..., name[offset + range - 1]`. -/
def melbshuffle.get_range (name offset range : Nat) (c : cloud) :
    Except Fault (List element × cloud) :=
  loop range (fun i (s : List element × cloud) => do
    let (e, c1) ← s.2.get name ((offset + i) % W32)
    pure (s.1 ++ [e], c1)) ([], c)

/-- `melbshuffle::put_bin`: the assertion `bin_load < max_load`, then the elements of the
bin followed by dummies up to `max_load` slots from `idx`. -/
def melbshuffle.put_bin (T idx : Nat) (bin : List element) (max_load : Nat) (c : cloud) :
    Except Fault cloud :=
  let bin_load := bin.length
  if bin_load < max_load then do
    -- place bin elements in temporary storage
    let c ← loop bin_load (fun count c =>
      match bin[count]? with
      | none => .error .out_of_bounds
      | some e => c.put T ((idx + count) % W32) e) c
    -- pad bin to max load with dummies
    loop (max_load - bin_load) (fun t c => c.put T ((idx + (bin_load + t)) % W32) dummy) c
  else .error .assertion

/-- `rev_bin[id]->push_back(e)` on the bins `rev_bin[0], ..., rev_bin[n - 1]`; an `id`
outside them is a fault (the map yields a null pointer). -/
def push_bin (rev_bin : List (List element)) (id : Nat) (e : element) :
    Except Fault (List (List element)) :=
  match rev_bin[id]? with
  | none => .error .out_of_bounds
  | some bin => .ok (rev_bin.set id (bin ++ [e]))

/-- The loop of `distribution_phase_1` that pushes the bins of one input bucket to the
temporary array: bin `i` goes to `offset + i * block_size`. -/
def melbshuffle.push_bins (T offset block_size max_load : Nat) (rev_bin : List (List element))
    (n : Nat) (c : cloud) : Except Fault cloud :=
  loop n (fun i c =>
    match rev_bin[i]? with
    | none => .error .out_of_bounds
    | some vec =>
      if vec.length < max_load then
        melbshuffle.put_bin T ((offset + i * block_size) % W32) vec max_load c
      else .error .assertion) c

/-- `melbshuffle::distribution_phase_1`. -/
def melbshuffle.distribution_phase_1 (ms : melbshuffle) (I T : Nat) (c : cloud) :
    Except Fault cloud :=
  -- maximum load of a bin
  let max_load := ms.p1 * ms.num_chunks % W32
  -- iterate through the input buckets, placing elements in the correct output chunks
  loop ms.num_buckets (fun id c => do
    let idx := id * ms.bucket_width % W32
    -- determine the length of the input bucket
    let range := if (idx + ms.bucket_width) % W32 < ms.size then ms.bucket_width
                 else (ms.size + W32 - idx) % W32
    -- retrieve the bucket
    let (bucket, c) ← melbshuffle.get_range I idx range c
    -- place elements that belong to the same output chunk in the same bin
    let rev_bin ← bucket.foldlM (fun rev_bin e => do
      let cid := (← ms.pi.eval_perm e.key) / ms.chunk_width
      push_bin rev_bin cid e) (List.replicate ms.num_chunks [])
    -- push bins to the temporary storage
    melbshuffle.push_bins T (id * max_load % W32) (ms.num_buckets * max_load % W32) max_load
      rev_bin ms.num_chunks c) c

/-- The body of the loop over `j` of `distribution_phase_2` for chunk `cid`. -/
def melbshuffle.phase_2_body (ms : melbshuffle) (T1 T2 cid j : Nat) (c : cloud) :
    Except Fault cloud := do
  let max_load1 := ms.p1 * ms.num_chunks % W32
  let max_load2 := ms.p2 * ms.num_chunks % W32
  -- number of elements (both real and dummy) in a chunk
  let chunk_card := ms.num_buckets * max_load1 % W32
  -- number of input bins retrieved on each iteration
  let num_bins := ceil_div ms.num_buckets ms.buckets_per_chunk
  let offset_bins := j * num_bins % W32
  let range := if (offset_bins + num_bins) % W32 < ms.num_buckets then num_bins
               else (ms.num_buckets + W32 - offset_bins) % W32
  let range := range * max_load1 % W32
  -- retrieve bucket (segment of bins)
  let (bucket, c) ← melbshuffle.get_range T1
    ((cid * chunk_card + offset_bins * max_load1) % W32) range c
  -- place elements in the correct bucket in the chunk
  let rev_bin ← bucket.foldlM (fun rev_bin e =>
    if e.key ≠ INT32_MAX then do
      let bid := (← ms.pi.eval_perm e.key) / ms.bucket_width % ms.buckets_per_chunk
      push_bin rev_bin bid e
    else pure rev_bin) (List.replicate ms.buckets_per_chunk [])
  -- push bins into the temporary array
  melbshuffle.push_bins T2
    ((cid * max_load2 * ms.buckets_per_chunk * ms.buckets_per_chunk + j * max_load2) % W32)
    (max_load2 * ms.buckets_per_chunk % W32) max_load2 rev_bin ms.buckets_per_chunk c

/-- `melbshuffle::distribution_phase_2`. -/
def melbshuffle.distribution_phase_2 (ms : melbshuffle) (T1 T2 : Nat) (c : cloud) :
    Except Fault cloud :=
  loop ms.num_chunks (fun cid c =>
    loop ms.buckets_per_chunk (fun j c => ms.phase_2_body T1 T2 cid j c) c) c

/-- `std::sort(catchment->begin(), catchment->end(), compare)`: by insertion, stable. -/
def sort_by_aux : List element → List element
  | [] => []
  | e :: rest => List.orderedInsert (fun x y => x.aux ≤ y.aux) e (sort_by_aux rest)

/-- `melbshuffle::put_bucket`: the first `range` elements of the sorted bucket are written
with `aux` cleared. -/
def melbshuffle.put_bucket (ms : melbshuffle) (O offset : Nat) (bucket : List element)
    (c : cloud) : Except Fault cloud :=
  -- calculate the range of the bucket
  let range := if (offset + ms.bucket_width) % W32 < ms.size then ms.bucket_width
               else (ms.size + W32 - offset) % W32
  loop range (fun i c =>
    match bucket[i]? with
    | none => .error .out_of_bounds
    | some e => c.put O ((offset + i) % W32) { e with aux := 0 }) c

/-- `melbshuffle::cleanup_phase`. -/
def melbshuffle.cleanup_phase (ms : melbshuffle) (T O : Nat) (c : cloud) : Except Fault cloud :=
  let max_load := ms.p2 * ms.num_chunks % W32
  let t2_bucket_size := ms.buckets_per_chunk * max_load % W32
  -- iterate through the buckets
  loop ms.num_buckets (fun id c => do
    -- retrieve the next bucket
    let (block, c) ← melbshuffle.get_range T (id * t2_bucket_size % W32) t2_bucket_size c
    let catchment ← block.foldlM (fun catchment e =>
      if e.key ≠ INT32_MAX then do
        -- we will utilize the auxiliary storage for sorting
        let aux ← ms.pi.eval_perm e.key
        pure (catchment ++ [{ e with aux := aux }])
      else pure catchment) []
    -- sort the bucket according to the permutation values
    let catchment := sort_by_aux catchment
    -- place the bucket in the output array
    ms.put_bucket O (id * ms.bucket_width % W32) catchment c) c

/-- `melbshuffle::shuffle_pass`. -/
def melbshuffle.shuffle_pass (ms : melbshuffle) (I T1 T2 O : Nat) (c : cloud) :
    Except Fault cloud := do
  let c ← ms.distribution_phase_1 I T1 c
  let c ← ms.distribution_phase_2 T1 T2 c
  ms.cleanup_phase T2 O c

/-- `melbshuffle::permute`.  `shuffle` is what `std::shuffle` does in `new_seed`.  The
result is the output name, the object with its reseeded oracle, and the server. -/
def melbshuffle.permute (ms : melbshuffle) (shuffle : List Nat → List Nat) (input : Nat)
    (c : cloud) : Except Fault (Nat × melbshuffle × cloud) := do
  let output := (input + 1) % W32
  -- create the temporary arrays and the output array
  let c := c.create_array Ta (ms.num_chunks * ms.chunk_width * ms.p1 % W32)
  let c := c.create_array Tb (ms.num_chunks * ms.chunk_width * ms.p2 % W32)
  let c := c.create_array output ms.size
  -- shuffle the input
  let c ← ms.shuffle_pass input Ta Tb output c
  -- delete temporary storage and the input array
  let c ← c.delete_array Ta
  let c ← c.delete_array Tb
  let c ← c.delete_array input
  let pi ← ms.pi.new_seed shuffle
  let ms := { ms with pi := pi }
  -- create temporary and output storage for the next shuffle
  let c := c.create_array Tc (ms.num_chunks * ms.chunk_width * ms.p1 % W32)
  let c := c.create_array Td (ms.num_chunks * ms.chunk_width * ms.p2 % W32)
  let output := (output + 1) % W32
  let c := c.create_array output ms.size
  let c ← ms.shuffle_pass ((output + W32 - 1) % W32) Tc Td output c
  let c ← c.delete_array Tc
  let c ← c.delete_array Td
  let c ← c.delete_array ((output + W32 - 1) % W32)
  pure (output, ms, c)

/-- The reads `name[offset], ..., name[offset + range - 1]` in order. -/
def trace_gets (name offset range : Nat) : List access :=
  (List.range range).map (fun i => access.get name ((offset + i) % W32))

/-- The writes `name[offset], ..., name[offset + range - 1]` in order. -/
def trace_puts (name offset range : Nat) : List access :=
  (List.range range).map (fun i => access.put name ((offset + i) % W32))

/-- The writes of `push_bins`: `n` bins of `max_load` slots, `block_size` apart. -/
def trace_push_bins (T offset block_size max_load n : Nat) : List access :=
  ((List.range n).map (fun i => trace_puts T ((offset + i * block_size) % W32) max_load)).flatten

/-- The storage operations of `distribution_phase_1`, from the fields other than `pi`. -/
def melbshuffle.trace_phase_1 (ms : melbshuffle) (I T : Nat) : List access :=
  ((List.range ms.num_buckets).map (fun id =>
    trace_gets I (id * ms.bucket_width % W32)
      (if (id * ms.bucket_width % W32 + ms.bucket_width) % W32 < ms.size then ms.bucket_width
       else (ms.size + W32 - id * ms.bucket_width % W32) % W32) ++
    trace_push_bins T (id * (ms.p1 * ms.num_chunks % W32) % W32)
      (ms.num_buckets * (ms.p1 * ms.num_chunks % W32) % W32) (ms.p1 * ms.num_chunks % W32)
      ms.num_chunks)).flatten

/-- The storage operations of one pass of the body of `distribution_phase_2`. -/
def melbshuffle.trace_phase_2_body (ms : melbshuffle) (T1 T2 cid j : Nat) : List access :=
  let max_load1 := ms.p1 * ms.num_chunks % W32
  let max_load2 := ms.p2 * ms.num_chunks % W32
  let chunk_card := ms.num_buckets * max_load1 % W32
  let num_bins := ceil_div ms.num_buckets ms.buckets_per_chunk
  let offset_bins := j * num_bins % W32
  let range := if (offset_bins + num_bins) % W32 < ms.num_buckets then num_bins
               else (ms.num_buckets + W32 - offset_bins) % W32
  trace_gets T1 ((cid * chunk_card + offset_bins * max_load1) % W32) (range * max_load1 % W32) ++
  trace_push_bins T2
    ((cid * max_load2 * ms.buckets_per_chunk * ms.buckets_per_chunk + j * max_load2) % W32)
    (max_load2 * ms.buckets_per_chunk % W32) max_load2 ms.buckets_per_chunk

/-- The storage operations of `distribution_phase_2`. -/
def melbshuffle.trace_phase_2 (ms : melbshuffle) (T1 T2 : Nat) : List access :=
  ((List.range ms.num_chunks).map (fun cid =>
    ((List.range ms.buckets_per_chunk).map (fun j =>
      ms.trace_phase_2_body T1 T2 cid j)).flatten)).flatten

/-- The storage operations of `cleanup_phase`. -/
def melbshuffle.trace_cleanup (ms : melbshuffle) (T O : Nat) : List access :=
  ((List.range ms.num_buckets).map (fun id =>
    trace_gets T (id * (ms.buckets_per_chunk * (ms.p2 * ms.num_chunks % W32) % W32) % W32)
      (ms.buckets_per_chunk * (ms.p2 * ms.num_chunks % W32) % W32) ++
    trace_puts O (id * ms.bucket_width % W32)
      (if (id * ms.bucket_width % W32 + ms.bucket_width) % W32 < ms.size then ms.bucket_width
       else (ms.size + W32 - id * ms.bucket_width % W32) % W32))).flatten

/-- The storage operations of `shuffle_pass`. -/
def melbshuffle.trace_pass (ms : melbshuffle) (I T1 T2 O : Nat) : List access :=
  ms.trace_phase_1 I T1 ++ ms.trace_phase_2 T1 T2 ++ ms.trace_cleanup T2 O
/-- The oracle holding the identity `pi(k) = k`. -/
def permutation.identity (n : Nat) : permutation :=
  { size := n, perm := List.range n, inv_perm := List.range n }

/-! ### Waksman permutation (`waksman.h`, `waksman.cpp`) -/

/-- `PERSIST` of `waksman.h`. -/
def PERSIST : Bool := true

/-- `SWAP` of `waksman.h`. -/
def SWAP : Bool := false

/-- `struct ext_data` of `waksman.h`. -/
structure ext_data where
  cur : Nat
  tar : Nat
  cur_setting : Bool

/-- `ext_data::configure`. -/
def ext_data.configure (d : ext_data) : ext_data :=
  { d with cur_setting := decide (decide (d.cur % 2 = d.tar % 2) = d.cur_setting) }

/-- `ext_data::update_index`; `tar - 1` is a `uint32_t` difference. -/
def ext_data.update_index (d : ext_data) : ext_data :=
  { d with cur := if d.tar % 2 = 0 then (d.tar + 1) % W32 else (d.tar + W32 - 1) % W32 }

/-- `class perm_node` of `waksman.h`.  `null` is the null pointer; `entry` and `exit` are
empty while the source holds null bitvectors. -/
inductive perm_node where
  | null : perm_node
  | node (parent : perm_node) (depth : Nat) (is_left_child : Bool) (offset size : Nat)
      (entry exit : List Bool) : perm_node

/-- `node->parent`. -/
def perm_node.parent : perm_node → perm_node
  | .null => .null
  | .node p _ _ _ _ _ _ => p

/-- `node->depth`. -/
def perm_node.depth : perm_node → Nat
  | .null => 0
  | .node _ d _ _ _ _ _ => d

/-- `node->is_left_child`. -/
def perm_node.is_left_child : perm_node → Bool
  | .null => false
  | .node _ _ l _ _ _ _ => l

/-- `node->offset`. -/
def perm_node.offset : perm_node → Nat
  | .null => 0
  | .node _ _ _ o _ _ _ => o

/-- `node->size`. -/
def perm_node.size : perm_node → Nat
  | .null => 0
  | .node _ _ _ _ s _ _ => s

/-- `node->entry`. -/
def perm_node.entry : perm_node → List Bool
  | .null => []
  | .node _ _ _ _ _ e _ => e

/-- `node->exit`. -/
def perm_node.exit : perm_node → List Bool
  | .null => []
  | .node _ _ _ _ _ _ x => x

/-- Whether the pointer is null. -/
def perm_node.is_null : perm_node → Bool
  | .null => true
  | .node _ _ _ _ _ _ _ => false

/-- The node with its two bitvectors replaced (`node->entry = entry; node->exit = exit`). -/
def perm_node.with_switches (n : perm_node) (entry exit : List Bool) : perm_node :=
  match n with
  | .null => .null
  | .node p d l o s _ _ => .node p d l o s entry exit

/-- `bitvec->at(i)`. -/
def bv_at (bv : List Bool) (i : Nat) : Except Fault Bool :=
  match bv[i]? with
  | none => .error .out_of_bounds
  | some b => .ok b

/-- `bitvec->at(i) = b`. -/
def bv_set (bv : List Bool) (i : Nat) (b : Bool) : Except Fault (List Bool) :=
  if i < bv.length then .ok (bv.set i b) else .error .out_of_bounds

/-- `class waksman`: the oracle `pi` inherited from `ORP` and the fields of the class
(`skip_indices` is threaded through the functions that use it). -/
structure waksman where
  pi : permutation
  length : Nat
  leaf_size : Nat
  temp1 : Nat
  temp2 : Nat
  temp3 : Nat
  skip_array : Nat

/-- The loop of `waksman::next_null` on the part of the bitvector from `index` on. -/
def next_null_scan : List Bool → Nat → Nat
  | [], index => index
  | b :: rest, index => if b then next_null_scan rest (index + 1) else index

/-- `waksman::next_null`. -/
def waksman.next_null (bitvec : List Bool) (index : Nat) : Nat :=
  if index = bitvec.length then bitvec.length
  else next_null_scan (bitvec.drop (index + 1)) (index + 1)

/-- `waksman::eval_pi`. -/
def waksman.eval_pi (w : waksman) : perm_node → Nat → Except Fault Nat
  | .null, _ => .error .no_array
  | .node parent _ is_left_child _ _ _ _, key =>
    match parent with
    | .null =>
      -- at the root node, apply input permutation function
      w.pi.eval_perm key
    | .node _ _ _ _ _ pentry _ => do
      -- get the switch value of the element
      let term ← bv_at pentry key
      if is_left_child then
        if term = PERSIST then do
          let v ← waksman.eval_pi w parent (2 * key); pure (v / 2)
        else do
          let v ← waksman.eval_pi w parent (2 * key + 1); pure (v / 2)
      else
        if term = SWAP then do
          let v ← waksman.eval_pi w parent (2 * key); pure (v / 2)
        else do
          let v ← waksman.eval_pi w parent (2 * key + 1); pure (v / 2)

/-- `waksman::eval_inv_pi`. -/
def waksman.eval_inv_pi (w : waksman) : perm_node → Nat → Except Fault Nat
  | .null, _ => .error .no_array
  | .node parent _ is_left_child _ _ _ _, key =>
    match parent with
    | .null =>
      -- at the root node, apply input inverse permutation function
      w.pi.eval_inv_perm key
    | .node _ _ _ _ _ _ pexit => do
      -- get the switch value of the element
      let setting ← bv_at pexit key
      if is_left_child then
        if setting = PERSIST then do
          let v ← waksman.eval_inv_pi w parent (2 * key); pure (v / 2)
        else do
          let v ← waksman.eval_inv_pi w parent (2 * key + 1); pure (v / 2)
      else
        if setting = SWAP then do
          let v ← waksman.eval_inv_pi w parent (2 * key); pure (v / 2)
        else do
          let v ← waksman.eval_inv_pi w parent (2 * key + 1); pure (v / 2)

/-- `waksman::set_switch`.  The result is the data, the reserve, the settings and the
`is_set` bitvector. -/
def waksman.set_switch (data : ext_data) (res : Nat) (settings is_set : List Bool) :
    Except Fault (ext_data × Nat × List Bool × List Bool) := do
  -- is the target node set
  if !(← bv_at is_set (data.tar / 2)) then
    -- configure entry node to the corresponding exit node
    let data := data.configure
    let settings ← bv_set settings (data.tar / 2) data.cur_setting
    -- node is now set
    let is_set ← bv_set is_set (data.tar / 2) true
    -- move to the neighbour index of the current entry node
    let data1 := data.update_index
    -- check if the reserve entry node has been set
    if res = data.tar / 2 then
      pure (data1, waksman.next_null is_set res, settings, is_set)
    else pure (data1, res, settings, is_set)
  else
    -- entry node is set; use reserve node
    let data := { data with cur := 2 * res % W32, cur_setting := PERSIST }
    let settings ← bv_set settings (data.cur / 2) data.cur_setting
    let is_set ← bv_set is_set (data.cur / 2) true
    -- find next reserve
    pure (data, waksman.next_null is_set res, settings, is_set)

/-- The local variables of `waksman::set_exterior`. -/
structure ext_state where
  data : ext_data
  res_entry : Nat
  res_exit : Nat
  entry : List Bool
  exit : List Bool
  switch_set_entry : List Bool
  switch_set_exit : List Bool
  inv : Bool

/-- One pass of the `while` loop of `set_exterior`. -/
def waksman.set_exterior_step (w : waksman) (node : perm_node) (s : ext_state) :
    Except Fault ext_state := do
  if s.inv then
    -- moving from exit switch to entry switch
    let tar ← w.eval_inv_pi node s.data.cur
    let (data, res, settings, is_set) ←
      waksman.set_switch { s.data with tar := tar } s.res_entry s.entry s.switch_set_entry
    pure { s with data := data, res_entry := res, entry := settings,
                  switch_set_entry := is_set, inv := !s.inv }
  else
    -- moving from entry switch to exit switch
    let tar ← w.eval_pi node s.data.cur
    let (data, res, settings, is_set) ←
      waksman.set_switch { s.data with tar := tar } s.res_exit s.exit s.switch_set_exit
    pure { s with data := data, res_exit := res, exit := settings,
                  switch_set_exit := is_set, inv := !s.inv }

/-- `waksman::set_exterior`: the node with its `entry` and `exit` bitvectors set. -/
def waksman.set_exterior (w : waksman) (node : perm_node) : Except Fault perm_node := do
  let num_switch := (node.size + 1) / 2
  let blank := List.replicate num_switch false
  let (s0, count) ←
    if node.size % 2 = 1 then do
      -- network has odd size: the bottom input and output wires are already "set"
      let exit ← bv_set blank (num_switch - 1) SWAP
      let entry ← bv_set blank (num_switch - 1) SWAP
      let switch_set_entry ← bv_set blank (num_switch - 1) true
      pure (({ data := { cur := (node.size + W32 - 1) % W32, tar := 0, cur_setting := SWAP },
               res_entry := 0, res_exit := 0, entry := entry, exit := exit,
               switch_set_entry := switch_set_entry, switch_set_exit := blank,
               inv := true } : ext_state), 1)
    else do
      -- network has even size: arbitrarily set a switch in the exterior
      let exit ← bv_set blank (num_switch - 1) PERSIST
      pure (({ data := { cur := (node.size + W32 - 1) % W32, tar := 0, cur_setting := PERSIST },
               res_entry := 0, res_exit := 0, entry := blank, exit := exit,
               switch_set_entry := blank, switch_set_exit := blank,
               inv := true } : ext_state), 0)
  let switch_set_exit ← bv_set s0.switch_set_exit (num_switch - 1) true
  let s0 := { s0 with switch_set_exit := switch_set_exit }
  let count := count + 1
  -- begin traversal of the bipartite graph
  let s ← loop (2 * num_switch - count) (fun _ s => w.set_exterior_step node s) s0
  pure (node.with_switches s.entry s.exit)
/-- The other of `temp1`, `temp2`: `(dest == temp1) ? temp2 : temp1`. -/
def waksman.flip (w : waksman) (a : Nat) : Nat := if a = w.temp1 then w.temp2 else w.temp1

/-- `waksman::route_wire`; the recursion is on `size`, which at least halves, so `fuel`
steps are given. -/
def waksman.route_wire (w : waksman) : Nat → element → Nat → Nat → Nat → Nat → cloud →
    Except Fault cloud
  | 0, _, _, _, _, _, _ => .error .fuel
  | fuel + 1, element, size, perm_value, index, dest, c =>
    -- if node is even or a leaf, place element in the current level
    if size % 2 = 0 ∨ size = 3 then c.put dest index element
    else
      -- compute the value of the exit switch that is mapped to the input wire
      let exit_switch := if perm_value % 2 = 1 then PERSIST else SWAP
      let dest := w.flip dest
      -- add exit switch to auxiliary information
      let element := { element with aux := (element.aux * 2 % W32) ||| exit_switch.toNat }
      waksman.route_wire w fuel element ((size + 1) / 2) (perm_value / 2) index dest c

/-- `waksman::get_update_elem`. -/
def waksman.get_update_elem (w : waksman) (node : perm_node) (source index : Nat) (c : cloud) :
    Except Fault (element × cloud) := do
  let (elem, c) ← c.get source ((node.offset + index) % W32)
  -- add exit settings to auxiliary information
  let setting ← bv_at node.exit ((← w.eval_pi node index) / 2)
  pure ({ elem with aux := (elem.aux * 2 % W32) ||| setting.toNat }, c)

/-- `waksman::route_switch_cp`. -/
def waksman.route_switch_cp (w : waksman) (node : perm_node) (source dest index : Nat)
    (c : cloud) : Except Fault cloud := do
  -- retrieve elements from the server
  let (u_even, c) ← w.get_update_elem node source (2 * index % W32) c
  let (u_odd, c) ← w.get_update_elem node source ((2 * index + 1) % W32) c
  -- apply switch and route along wires
  if (← bv_at node.entry index) = PERSIST then do
    let c ← c.put dest ((node.offset + index) % W32) u_even
    c.put dest ((node.offset + node.size / 2 + index) % W32) u_odd
  else do
    let c ← c.put dest ((node.offset + index) % W32) u_odd
    c.put dest ((node.offset + node.size / 2 + index) % W32) u_even

/-- `waksman::route_internal_node_cp`. -/
def waksman.route_internal_node_cp (w : waksman) (node : perm_node) (source dest : Nat)
    (c : cloud) : Except Fault cloud := do
  let num_switches := (node.size + 1) / 2
  let size := node.size
  -- in all cases routing for the first (num_switches-2) switches is identical
  let c ← loop ((num_switches + W32 - 2) % W32) (fun i c => w.route_switch_cp node source dest i c) c
  -- routing of remaining switches depends on the parities of current and children node sizes
  if size % 2 = 0 then do
    -- node is even
    let c ← w.route_switch_cp node source dest ((num_switches + W32 - 2) % W32) c
    if (size / 2) % 2 = 1 then do
      -- children are odd: elements skip levels along a wire
      let (e1, c) ← w.get_update_elem node source ((size + W32 - 2) % W32) c
      let (e2, c) ← w.get_update_elem node source ((size + W32 - 1) % W32) c
      let v1 ← w.eval_pi node ((size + W32 - 2) % W32)
      let v2 ← w.eval_pi node ((size + W32 - 1) % W32)
      if (← bv_at node.entry ((num_switches + W32 - 1) % W32)) = PERSIST then do
        let c ← w.route_wire 33 e1 (size / 2) (v1 / 2)
          ((node.offset + num_switches + W32 - 1) % W32) dest c
        w.route_wire 33 e2 (size / 2) (v2 / 2) ((node.offset + size + W32 - 1) % W32) dest c
      else do
        let c ← w.route_wire 33 e2 (size / 2) (v2 / 2)
          ((node.offset + num_switches + W32 - 1) % W32) dest c
        w.route_wire 33 e1 (size / 2) (v1 / 2) ((node.offset + size + W32 - 1) % W32) dest c
    else
      -- children are even
      w.route_switch_cp node source dest ((num_switches + W32 - 1) % W32) c
  else do
    -- node is odd
    let c ←
      if (size / 2) % 2 = 1 then do
        -- left child is odd
        let (e1, c) ← w.get_update_elem node source ((size + W32 - 3) % W32) c
        let (e2, c) ← w.get_update_elem node source ((size + W32 - 2) % W32) c
        if (← bv_at node.entry ((num_switches + W32 - 2) % W32)) = PERSIST then do
          let v1 ← w.eval_pi node ((size + W32 - 3) % W32)
          let c ← w.route_wire 33 e1 (size / 2) (v1 / 2)
            ((node.offset + num_switches + W32 - 2) % W32) dest c
          c.put dest ((node.offset + size + W32 - 2) % W32) e2
        else do
          let c ← c.put dest ((node.offset + size + W32 - 2) % W32) e1
          let v2 ← w.eval_pi node ((size + W32 - 2) % W32)
          w.route_wire 33 e2 (size / 2) (v2 / 2)
            ((node.offset + num_switches + W32 - 2) % W32) dest c
      else
        -- right child is odd: element on bottom wire has been previously routed.
        w.route_switch_cp node source dest ((num_switches + W32 - 2) % W32) c
    -- we have to retrieve the wire if the node is the parent
    if node.parent.is_null then do
      let (e1, c) ← w.get_update_elem node source ((size + W32 - 1) % W32) c
      let v1 ← w.eval_pi node ((size + W32 - 1) % W32)
      w.route_wire 33 e1 ((size + 1) / 2) (v1 / 2) ((node.offset + size + W32 - 1) % W32) dest c
    else pure c

/-- `skip_indices[index]`, then `skip_indices[index]++`. -/
def skip_take (skip_indices : List Nat) (index : Nat) : Except Fault (Nat × List Nat) :=
  match skip_indices[index]? with
  | none => .error .out_of_bounds
  | some v => .ok (v, skip_indices.set index ((v + 1) % W32))

/-- The stop point of `waksman::skip_fn`: the settings of the skipped levels are shifted
out of `aux` and the element is appended to the segment of its destination level. -/
def waksman.skip_put (w : waksman) (element : element) (offset index : Nat)
    (s : List Nat × cloud) : Except Fault (List Nat × cloud) := do
  let (v, skip_indices) ← skip_take s.1 index
  let c ← s.2.put w.skip_array ((offset + v) % W32)
    { element with aux := element.aux / 2 ^ (index + 1) }
  pure (skip_indices, c)

/-- `waksman::skip_fn`; the recursion follows the parent pointers. -/
def waksman.skip_fn (w : waksman) : perm_node → element → Nat → Nat → List Nat × cloud →
    Except Fault (List Nat × cloud)
  | .null, _, _, _, _ => .error .no_array
  | .node parent _ is_left_child _ _ _ _, element, offset, index, s =>
    match parent with
    | .null => .error .no_array
    | .node grand _ p_is_left_child _ p_size _ _ =>
      if !grand.is_null then
        -- grandparent is a node: check cardinality of grandparent
        if grand.size % 2 = 0 then
          if p_size % 2 = 1 then
            -- this is the OO case (parent and parent's sibling are odd)
            waksman.skip_fn w parent element (offset / 2) (index + 1) s
          else
            -- this is the EE case
            if is_left_child then w.skip_put element offset index s
            else waksman.skip_fn w parent element (offset / 2) (index + 1) s
        else
          if p_is_left_child || is_left_child then w.skip_put element offset index s
          else waksman.skip_fn w parent element (offset / 2) (index + 1) s
      else
        -- parent is the root
        w.skip_put element offset index s

/-- `waksman::route_element`. -/
def waksman.route_element (w : waksman) (node : perm_node) (elem : element) (offset value : Nat)
    (s : List Nat × cloud) : Except Fault (List Nat × cloud) := do
  if node.parent.is_null then .error .no_array
  else
    -- does the element skip a level?
    let even_parent := node.parent.size % 2 = 0
    let skip := value = (node.size + W32 - 1) % W32 ∧ (even_parent ∨ node.is_left_child = false)
    if skip then
      -- element skips a level
      w.skip_fn node elem (w.length / 2) 0 s
    else do
      -- otherwise element goes to the next level
      let c ← s.2.put w.temp3 ((offset + value * 2) % W32) elem
      pure (s.1, c)

/-- `waksman::route_leaf`. -/
def waksman.route_leaf (w : waksman) (node : perm_node) (source : Nat)
    (s : List Nat × cloud) : Except Fault (List Nat × cloud) := do
  if node.parent.is_null then .error .no_array
  else
    -- the orientation of the leaf determines the offset in the output array
    let offset := if node.is_left_child then node.parent.offset
                  else (node.parent.offset + 1) % W32
    -- route each element in the leaf
    loop node.size (fun i s => do
      let (e, c) ← s.2.get source ((node.offset + i) % W32)
      let v ← w.eval_pi node i
      w.route_element node e offset v (s.1, c)) s

/-- `waksman::configuration_phase`; the recursion is on the size of the node, `fuel`
bounds its depth. -/
def waksman.configuration_phase (w : waksman) : Nat → perm_node → Nat → List Nat × cloud →
    Except Fault (List Nat × cloud)
  | 0, _, _, _ => .error .fuel
  | fuel + 1, node, source_array, s =>
    let size := node.size
    -- at each level the procedure alternates between temporary arrays
    let target_array := w.flip source_array
    if size ≤ w.leaf_size then
      -- leaf node reached
      w.route_leaf node source_array s
    else do
      -- set the exterior switches
      let node ← w.set_exterior node
      -- route elements in the node
      let c ← w.route_internal_node_cp node source_array target_array s.2
      -- recurse according to a preorder traversal
      let left := perm_node.node node (node.depth + 1) true node.offset (size / 2) [] []
      let s ← waksman.configuration_phase w fuel left target_array (s.1, c)
      let right := perm_node.node node (node.depth + 1) false ((node.offset + size / 2) % W32)
        (size / 2 + size % 2) [] []
      waksman.configuration_phase w fuel right target_array s
/-- `waksman::apply_switch`. -/
def waksman.apply_switch (v_top v_bottom : element) (dest : Nat) (node : perm_node)
    (switch_num : Nat) (c : cloud) : Except Fault cloud := do
  -- get the switch setting from the element auxiliary information.
  let persist := v_top.aux % 2 = 1
  -- update auxiliary information to remove the value of the current switch
  let v_top := { v_top with aux := v_top.aux / 2 }
  let v_bottom := { v_bottom with aux := v_bottom.aux / 2 }
  -- calculate the index in the destination array (follow the network wires!)
  let top_index :=
    if node.parent.is_null then 2 * switch_num % W32
    else if node.is_left_child then (node.parent.offset + 4 * switch_num) % W32
    else (node.parent.offset + 4 * switch_num + 1) % W32
  let bottom_index :=
    if node.parent.is_null then (top_index + 1) % W32 else (top_index + 2) % W32
  -- apply the switch
  if persist then do
    let c ← c.put dest top_index v_top
    c.put dest bottom_index v_bottom
  else do
    let c ← c.put dest top_index v_bottom
    c.put dest bottom_index v_top

/-- `waksman::route_switch_erp`, the overload that reads both elements from `source`. -/
def waksman.route_switch_erp (source dest index : Nat) (node : perm_node) (switch_num : Nat)
    (c : cloud) : Except Fault cloud := do
  -- retrieve elements
  let (v_top, c) ← c.get source index
  let (v_bottom, c) ← c.get source ((index + 1) % W32)
  -- apply switch and place in the next level
  waksman.apply_switch v_top v_bottom dest node switch_num c

/-- `waksman::route_switch_erp`, the overload whose top wire comes from the skip array. -/
def waksman.route_switch_erp_skip (w : waksman) (source dest source_i skip_i : Nat)
    (node : perm_node) (switch_num : Nat) (c : cloud) : Except Fault cloud := do
  -- the top wire is retrieved from the skip array
  let (v_top, c) ← c.get w.skip_array skip_i
  let (v_bottom, c) ← c.get source source_i
  -- apply switch and place in the next level
  waksman.apply_switch v_top v_bottom dest node switch_num c

/-- `waksman::complete_bottom_wires`. -/
def waksman.complete_bottom_wires (w : waksman) (dest skip_index : Nat) (c : cloud) :
    Except Fault cloud := do
  -- retrieve elements from the skip array and place in the output array
  let (top_wire, c) ← c.get w.skip_array skip_index
  if w.length % 2 = 1 then
    -- odd case
    c.put dest ((w.length + W32 - 1) % W32) top_wire
  else do
    -- even case
    let (bottom_wire, c) ← c.get w.skip_array ((skip_index + 1) % W32)
    let c ← c.put dest ((w.length + W32 - 2) % W32) top_wire
    c.put dest ((w.length + W32 - 1) % W32) bottom_wire

/-- `waksman::route_internal_node_erp`: the new skip index and the server. -/
def waksman.route_internal_node_erp (w : waksman) (node : perm_node) (source dest skip_index : Nat)
    (c : cloud) : Except Fault (Nat × cloud) := do
  let num_switches := (node.size + 1) / 2
  -- for determining the parity of the left child of the node
  let size_left := node.size / 2
  -- if we are at the root node, retrieve required elements from the skip array
  let c ← if node.parent.is_null then w.complete_bottom_wires dest (skip_index / 2) c else pure c
  let source_index := node.offset
  if node.size ≤ w.leaf_size * 2 % W32 then do
    -- parents of leaf nodes contain no skip elements
    let c ← loop ((num_switches + W32 - 1) % W32) (fun i c =>
      waksman.route_switch_erp source dest ((source_index + 2 * i) % W32) node i c) c
    pure (skip_index, c)
  else do
    -- else, the bottom switches contain elements that skipped from the configuration phase
    -- route the non-skip elements first
    let n3 := (num_switches + W32 - 3) % W32
    let n2 := (num_switches + W32 - 2) % W32
    let c ← loop n3 (fun i c =>
      waksman.route_switch_erp source dest ((source_index + 2 * i) % W32) node i c) c
    let source_index := (source_index + 2 * n3) % W32
    -- The indices of the skip elements depend on the parity of the node
    if node.size % 2 = 0 then do
      let c ← waksman.route_switch_erp source dest source_index node n3 c
      let source_index := (source_index + 2) % W32
      if size_left % 2 = 1 then do
        -- both children are odd: no skip elements to retrieve
        let c ← waksman.route_switch_erp source dest source_index node n2 c
        pure (skip_index, c)
      else do
        -- both children are even
        let c ← waksman.route_switch_erp w.skip_array dest skip_index node n2 c
        pure ((skip_index + 2) % W32, c)
    else
      if size_left % 2 = 1 then do
        -- left child odd
        let c ← waksman.route_switch_erp source dest source_index node n3 c
        let c ← waksman.route_switch_erp w.skip_array dest skip_index node n2 c
        pure ((skip_index + 2) % W32, c)
      else do
        let c ← w.route_switch_erp_skip source dest ((source_index + 1) % W32) skip_index node n3 c
        let c ← w.route_switch_erp_skip source dest ((source_index + 3) % W32)
          ((skip_index + 1) % W32) node n2 c
        pure ((skip_index + 2) % W32, c)

/-- `waksman::preorder_trav`; `fuel` bounds the depth of the recursion. -/
def waksman.preorder_trav (w : waksman) : Nat → perm_node → Nat → Nat → Nat → Nat → cloud →
    Except Fault (Nat × cloud)
  | 0, _, _, _, _, _, _ => .error .fuel
  | fuel + 1, node, depth, source, dest, skip_index, c =>
    if node.depth = depth then
      -- Route the elements through the exit switches of the subnetwork.
      w.route_internal_node_erp node source dest skip_index c
    else do
      -- internal node
      let size := node.size
      -- initialise left and right children and continue the traversal
      let left := perm_node.node node (node.depth + 1) true node.offset (size / 2) [] []
      let (skip_index, c) ← waksman.preorder_trav w fuel left depth source dest skip_index c
      let right := perm_node.node node (node.depth + 1) false ((node.offset + size / 2) % W32)
        (size / 2 + size % 2) [] []
      waksman.preorder_trav w fuel right depth source dest skip_index c

/-- The loop `while (size > leaf_size) { tree_height++; size /= 2; }`. -/
def waksman.tree_height (leaf_size : Nat) : Nat → Nat → Nat
  | 0, _ => 0
  | fuel + 1, size => if size > leaf_size then waksman.tree_height leaf_size fuel (size / 2) + 1 else 0

/-- The loop `for (int i = tree_height; i > 0; i--)` of `empty_road_phase`: the final
`source` and the server. -/
def waksman.erp_loop (w : waksman) (root : perm_node) : Nat → Nat → Nat → Nat → cloud →
    Except Fault (Nat × cloud)
  | 0, source, _, _, c => .ok (source, c)
  | i + 1, source, dest, skip_index, c => do
    -- for each height i perform a pre-order traversal of depth i
    let (_, c) ← w.preorder_trav (i + 2) root (i + 1) source dest skip_index c
    -- alternate the temporary arrays
    let source1 := if source = w.temp1 then w.temp3 else w.temp1
    -- get offset for the skip elements of the next level
    waksman.erp_loop w root i source1 source (skip_index / 2) c

/-- `waksman::empty_road_phase`. -/
def waksman.empty_road_phase (w : waksman) (c : cloud) : Except Fault (Nat × cloud) :=
  -- initialise the root node for traversal
  let root := perm_node.node .null 1 true 0 w.length [] []
  -- calculate the tree height
  let tree_height := waksman.tree_height w.leaf_size 33 w.length
  -- perform a reverse level-order traversal
  w.erp_loop root tree_height w.temp3 w.temp1 w.length c

/-- `waksman::permute`: the fields set at the start of the call, then the two phases and
the deletion of the arrays that are not returned. -/
def waksman.permute (pi : permutation) (length : Nat) (name : Nat) (c : cloud) :
    Except Fault (Nat × cloud) := do
  -- allocate temporary storage
  let temp1 := name
  let temp2 := (name + 1) % W32
  let c := c.create_array temp2 length
  let temp3 := (name + 2) % W32
  let c := c.create_array temp3 length
  let skip_array := (name + 3) % W32
  let c := c.create_array skip_array length
  -- determine the size of a leaf
  let msb := msb_of 32 (length ||| 1)
  let mask := (2 ^ (msb - 1) % W32) ||| (2 ^ (msb - 2) % W32)
  let leaf_size := if length > mask then 4 else 3
  let w : waksman := { pi := pi, length := length, leaf_size := leaf_size, temp1 := temp1,
                       temp2 := temp2, temp3 := temp3, skip_array := skip_array }
  -- determine the number of levels in the network
  let num_levels := 2 * (msb_of 32 (length / 2) - 1)
  let skip_indices := List.replicate (num_levels / 2) 0
  -- create root node of the permutation tree
  let root := perm_node.node .null 1 true 0 length [] []
  let (_, c) ← w.configuration_phase 34 root temp1 (skip_indices, c)
  let (output, c) ← w.empty_road_phase c
  -- delete unused arrays
  let c ← c.delete_array skip_array
  let c ← c.delete_array temp2
  let c ← if output = temp1 then c.delete_array temp3 else c.delete_array temp1
  pure (output, c)

/-! ### Melbourne shuffle: the contents of the temporary arrays -/

/-- The call returns with a result satisfying `Q`, or stops on a failed `assert`; no
other fault occurs. -/
def post {α : Type} (x : Except Fault α) (Q : α → Prop) : Prop :=
  x = .error .assertion ∨ ∃ a, x = .ok a ∧ Q a

/-- The element as `server::get` hands it out: the key masked with `INT32_MAX`. -/
def mask_key (e : element) : element := { key := e.key &&& INT32_MAX, aux := e.aux }

/-- The slots `T[a], T[a + 1], ...` hold the elements of the list `L`. -/
def cloud.seg (c : cloud) (T a : Nat) (L : List element) : Prop :=
  ∀ i, i < L.length → c.peek T (a + i) = L[i]?

/-- The array `T` exists at the server. -/
def cloud.has (c : cloud) (T : Nat) : Prop := (c.table T).isSome = true

/-- Between `c` and `c1` only the array `T` changed, and it still exists. -/
def cloud.only (c1 c : cloud) (T : Nat) : Prop :=
  (∀ U, U ≠ T → c1.table U = c.table U) ∧ (c.has T → c1.has T)

/-- A bin padded with dummies to `max_load` slots. -/
def pad (max_load : Nat) (bin : List element) : List element :=
  bin ++ List.replicate (max_load - bin.length) dummy

/-- The conditions on the geometry of a `melbshuffle` object under which no 32-bit
quantity of a pass wraps around: they hold for the object the constructor builds when the
size is below `2 ^ 31` and the two temporary arrays have less than `2 ^ 32` slots. -/
structure melbshuffle.fits (ms : melbshuffle) : Prop where
  size_lt : ms.size < 2 ^ 31
  bw_pos : 0 < ms.bucket_width
  cover : ms.size ≤ ms.num_buckets * ms.bucket_width
  last : (ms.num_buckets - 1) * ms.bucket_width < ms.size
  width : ms.num_buckets * ms.bucket_width < W32
  cw_eq : ms.chunk_width = ms.buckets_per_chunk * ms.bucket_width
  bpc_pos : 0 < ms.buckets_per_chunk
  chunks : ms.num_buckets ≤ ms.num_chunks * ms.buckets_per_chunk
  segs : (ms.buckets_per_chunk - 1) * ceil_div ms.num_buckets ms.buckets_per_chunk
    ≤ ms.num_buckets
  t1 : ms.num_chunks * ms.num_buckets * (ms.p1 * ms.num_chunks) < W32
  t2 : ms.num_chunks * ms.buckets_per_chunk * ms.buckets_per_chunk *
    (ms.p2 * ms.num_chunks) < W32

/-- The elements of input bucket `id` that `pi` sends to chunk `cid`: the bin that
`distribution_phase_1` builds for them. -/
def melbshuffle.bin1 (ms : melbshuffle) (X : List element) (cid id : Nat) : List element :=
  ((X.drop (id * ms.bucket_width)).take ms.bucket_width).filter
    (fun e => decide (ms.pi.place e / ms.chunk_width = cid))

/-- The bins of chunk `cid` that iteration `j` of `distribution_phase_2` reads, without
their dummies. -/
def melbshuffle.grp (ms : melbshuffle) (X : List element) (cid j : Nat) : List element :=
  let num_bins := ceil_div ms.num_buckets ms.buckets_per_chunk
  let range := if j * num_bins + num_bins < ms.num_buckets then num_bins
               else ms.num_buckets - j * num_bins
  ((List.range range).map (fun t => ms.bin1 X cid (j * num_bins + t))).flatten

/-- The bin that iteration `j` of `distribution_phase_2` builds in chunk `cid` for the
bucket `bid` of the chunk. -/
def melbshuffle.bin2 (ms : melbshuffle) (X : List element) (cid j bid : Nat) : List element :=
  (ms.grp X cid j).filter (fun e => decide (e.key ≠ INT32_MAX) &&
    decide (ms.pi.place e / ms.bucket_width % ms.buckets_per_chunk = bid))

/-- The elements that `pi` sends to output bucket `g`, in input order. -/
def melbshuffle.catchment (ms : melbshuffle) (X : List element) (g : Nat) : List element :=
  X.filter (fun e => decide (ms.pi.place e / ms.bucket_width = g))

/-- The first lines of `bucket::butterfly`: `B = ceil(2*size/(double)Z)`, `msb` the number
of significant bits of that value, and `B = 1u << msb` when it is not a power of two.  The
result is the object with `B` set, and `msb`. -/
def bucket.set_B (bk : bucket) : bucket × Nat :=
  let B0 := (2 * bk.size % W32 + bk.Z - 1) / bk.Z
  let msb := msb_of 32 B0
  -- check if B is a power of two
  ({ bk with B := if B0 &&& (B0 - 1) ≠ 0 then 2 ^ msb % W32 else B0 }, msb)

/-- `bucket::put_bucket` with the vector `buck` as the call leaves it: after the uploads
the source ends with `buck->clear()`. -/
def bucket.put_bucket_buck (bk : bucket) (arr offset : Nat) (buck : List element) (c : cloud) :
    Except Fault (List element × cloud) := do
  let c ← bk.put_bucket arr offset buck c
  -- buck->clear()
  pure ([], c)

/-- Between `c` and `c1` the same arrays exist, and the arrays whose name does not satisfy
`P` are unchanged. -/
def cloud.keeps (c1 c : cloud) (P : Nat → Prop) : Prop :=
  (∀ U, c1.has U ↔ c.has U) ∧ ∀ U, ¬ P U → c1.table U = c.table U

/-- The number of switches of a stage of a network of size `s`: `ceil(s / 2)`. -/
def nsw (s : Nat) : Nat := (s + 1) / 2

/-- Whether wire `z` of a stage with the settings `bv` is joined to the left (upper)
subnetwork: the even wire of a `PERSIST` switch and the odd wire of a `SWAP` switch. -/
def goes_left (bv : List Bool) (z : Nat) : Bool := bv.getD (z / 2) false == decide (z % 2 = 0)

/-- The wire of the stage with settings `bv` that is joined to wire `j` of the left
(`left = true`) or right subnetwork. -/
def stage_wire (bv : List Bool) (left : Bool) (j : Nat) : Nat :=
  if bv.getD j false = left then 2 * j else 2 * j + 1

/-- The settings that `set_exterior` must produce for a node: both bitvectors have one
entry per switch, the pseudo-switch of the bottom wire of an odd node is `SWAP` on both
sides, the last exit switch of an even node is `PERSIST`, and every input wire is joined to
the subnetwork to which the output wire of its target is joined. -/
def waksman.valid (w : waksman) (N : perm_node) : Prop :=
  N.entry.length = nsw N.size ∧ N.exit.length = nsw N.size ∧
  (N.size % 2 = 1 → N.entry.getD (nsw N.size - 1) false = false ∧
    N.exit.getD (nsw N.size - 1) false = false) ∧
  (N.size % 2 = 0 → N.exit.getD (nsw N.size - 1) false = true) ∧
  ∀ x, x < N.size → ∃ y, w.eval_pi N x = .ok y ∧ goes_left N.entry x = goes_left N.exit y

/-- The local subpermutation of a node and its inverse are defined on `[0, size)` and
inverse to each other. -/
def waksman.bij (w : waksman) (N : perm_node) : Prop :=
  (∀ i, i < N.size → ∃ v, w.eval_pi N i = .ok v ∧ v < N.size ∧ w.eval_inv_pi N v = .ok i) ∧
  (∀ v, v < N.size → ∃ i, w.eval_inv_pi N v = .ok i ∧ i < N.size ∧ w.eval_pi N i = .ok v)

/-- The nodes of the permutation tree of a call, with the switches of all their ancestors
set: the root, and the two children that `configuration_phase` creates under a node that
is not a leaf. -/
inductive waksman.wf (w : waksman) : perm_node → Prop
  | root (e x : List Bool) : waksman.wf w (.node .null 1 true 0 w.length e x)
  | left (P : perm_node) (e x : List Bool) : waksman.wf w P → w.valid P →
      w.leaf_size < P.size →
      waksman.wf w (.node P (P.depth + 1) true P.offset (P.size / 2) e x)
  | right (P : perm_node) (e x : List Bool) : waksman.wf w P → w.valid P →
      w.leaf_size < P.size →
      waksman.wf w (.node P (P.depth + 1) false ((P.offset + P.size / 2) % W32)
        (P.size / 2 + P.size % 2) e x)

/-- The oracle of the call: its table is a permutation of `[0, length)` and its two
lookups are inverse to each other. -/
def waksman.good_pi (w : waksman) : Prop :=
  w.pi.size = w.length ∧ w.pi.perm.Perm (List.range w.length) ∧ w.pi.inverse_ok

/-- The other wire of the switch of wire `z`. -/
def twin (z : Nat) : Nat := if z % 2 = 0 then z + 1 else z - 1

/-- The reserve index of `set_exterior`: every switch below it is set and it is not (when
there is one left). -/
def res_ok (bv : List Bool) (res : Nat) : Prop :=
  (∀ i, i < res → bv.getD i false = true) ∧ (res < bv.length → bv.getD res false = false) ∧
  res ≤ bv.length

/-- The state of the traversal of `set_exterior` seen from the side `A` on which the
current wire `cur` lies (`B` is the other side, `F` leads from `A` to `B`, `G` back): the
wires of the switches that are set are matched by `F` and `G` among themselves with equal
sides, except for `cur` and for the other open end `o` of the path walked (on side `A`
when `oA`), whose sides are related as the parity of the path requires. -/
structure walk_inv (s : Nat) (F G : Nat → Except Fault Nat) (A setA B setB : List Bool)
    (cur : Nat) (cs : Bool) (oA : Bool) (o : Nat) : Prop where
  lenA : A.length = nsw s
  lenSA : setA.length = nsw s
  lenB : B.length = nsw s
  lenSB : setB.length = nsw s
  cur_lt : cur < s
  cur_set : setA.getD (cur / 2) false = true
  cur_cs : cs = A.getD (cur / 2) false
  o_lt : o < s
  o_set : if oA = true then (setA.getD (o / 2) false = true ∧ o ≠ cur)
          else setB.getD (o / 2) false = true
  fwd : ∀ x, x < s → setA.getD (x / 2) false = true → x ≠ cur → ¬ (oA = true ∧ x = o) →
    ∃ y, F x = .ok y ∧ y < s ∧ setB.getD (y / 2) false = true ∧ ¬ (oA = false ∧ y = o) ∧
      goes_left A x = goes_left B y
  bwd : ∀ y, y < s → setB.getD (y / 2) false = true → ¬ (oA = false ∧ y = o) →
    ∃ x, G y = .ok x ∧ x < s ∧ setA.getD (x / 2) false = true ∧ x ≠ cur ∧
      ¬ (oA = true ∧ x = o) ∧ goes_left A x = goes_left B y
  par : if oA = true then goes_left A cur ≠ goes_left A o
        else goes_left A cur = goes_left B o

/-- The two maps of a stage are defined on `[0, s)` and inverse to each other. -/
def inv_pair (s : Nat) (F G : Nat → Except Fault Nat) : Prop :=
  (∀ i, i < s → ∃ v, F i = .ok v ∧ v < s ∧ G v = .ok i) ∧
  (∀ v, v < s → ∃ i, G v = .ok i ∧ i < s ∧ F i = .ok v)

/-- The invariant of the loop of `set_exterior` after `k` passes, for a node of size `s`
whose loop starts with `c0` switches set. -/
def ext_inv (w : waksman) (N : perm_node) (s c0 k : Nat) (st : ext_state) : Prop :=
  st.inv = decide (k % 2 = 0) ∧
  (∃ oA o,
    if st.inv = true then
      walk_inv s (w.eval_inv_pi N) (w.eval_pi N) st.exit st.switch_set_exit st.entry
        st.switch_set_entry st.data.cur st.data.cur_setting oA o
    else
      walk_inv s (w.eval_pi N) (w.eval_inv_pi N) st.entry st.switch_set_entry st.exit
        st.switch_set_exit st.data.cur st.data.cur_setting oA o) ∧
  res_ok st.switch_set_entry st.res_entry ∧ res_ok st.switch_set_exit st.res_exit ∧
  st.switch_set_entry.count true + st.switch_set_exit.count true = c0 + k ∧
  (if st.inv = true then st.switch_set_entry.count true + (2 - c0) = st.switch_set_exit.count true
   else st.switch_set_entry.count true + (2 - c0) = st.switch_set_exit.count true + 1) ∧
  (s % 2 = 1 → st.switch_set_entry.getD (nsw s - 1) false = true ∧
    st.switch_set_exit.getD (nsw s - 1) false = true ∧
    st.entry.getD (nsw s - 1) false = false ∧ st.exit.getD (nsw s - 1) false = false) ∧
  (s % 2 = 0 → st.switch_set_exit.getD (nsw s - 1) false = true ∧
    st.exit.getD (nsw s - 1) false = true)

/-- The nodes that `configuration_phase` visits in a call of `permute`: the root, and under
every visited node that is not a leaf the two children created after `set_exterior` has
set its switches. -/
inductive waksman.reach (w : waksman) : perm_node → Prop
  | root : waksman.reach w (.node .null 1 true 0 w.length [] [])
  | left (P P1 : perm_node) : waksman.reach w P → w.leaf_size < P.size →
      w.set_exterior P = .ok P1 →
      waksman.reach w (.node P1 (P1.depth + 1) true P1.offset (P.size / 2) [] [])
  | right (P P1 : perm_node) : waksman.reach w P → w.leaf_size < P.size →
      w.set_exterior P = .ok P1 →
      waksman.reach w (.node P1 (P1.depth + 1) false ((P1.offset + P.size / 2) % W32)
        (P.size / 2 + P.size % 2) [] [])

/-- Between `c` and `c1` exactly `k` storage operations were issued: the trace is `k`
entries longer and the 32-bit I/O counter has advanced by `k`. -/
def cloud.io_adv (c1 c : cloud) (k : Nat) : Prop :=
  c1.trace.length = c.trace.length + k ∧
  cloud.num_IO c1 % W32 = (cloud.num_IO c + k) % W32

/-- The fields of the object as the first lines of `waksman::permute` set them: the four
array names and the size of a leaf. -/
def waksman.init (pi : permutation) (length name : Nat) : waksman :=
  -- determine the size of a leaf
  let msb := msb_of 32 (length ||| 1)
  let mask := (2 ^ (msb - 1) % W32) ||| (2 ^ (msb - 2) % W32)
  { pi := pi, length := length, leaf_size := if length > mask then 4 else 3, temp1 := name,
    temp2 := (name + 1) % W32, temp3 := (name + 2) % W32, skip_array := (name + 3) % W32 }

/-- What `waksman::permute` does with the object once its fields are set: the three arrays
are created, the two phases run, and the arrays that are not returned are deleted. -/
def waksman.run (w : waksman) (c : cloud) : Except Fault (Nat × cloud) := do
  let c := c.create_array w.temp2 w.length
  let c := c.create_array w.temp3 w.length
  let c := c.create_array w.skip_array w.length
  -- determine the number of levels in the network
  let num_levels := 2 * (msb_of 32 (w.length / 2) - 1)
  let skip_indices := List.replicate (num_levels / 2) 0
  -- create root node of the permutation tree
  let root := perm_node.node .null 1 true 0 w.length [] []
  let (_, c) ← w.configuration_phase 34 root w.temp1 (skip_indices, c)
  let (output, c) ← w.empty_road_phase c
  -- delete unused arrays
  let c ← c.delete_array w.skip_array
  let c ← c.delete_array w.temp2
  let c ← if output = w.temp1 then c.delete_array w.temp3 else c.delete_array w.temp1
  pure (output, c)

/-- In the tree that splits a node of size `s > ls` into children of sizes `floor(s / 2)`
and `ceil(s / 2)`, every leaf (a node of size at most `ls`) under a node of size `s` lies
exactly `h` levels below it. -/
def uni (ls : Nat) : Nat → Nat → Prop
  | 0, s => 2 ≤ s ∧ s ≤ ls
  | h + 1, s => ls < s ∧ uni ls h (s / 2) ∧ uni ls h (s / 2 + s % 2)

/-- From `c` to `c1` the same arrays exist at the server. -/
def cloud.same_arrays (c c1 : cloud) : Prop := ∀ U, c1.has U ↔ c.has U

/-- The value of `eval_pi` as a total function (`0` where the source faults). -/
def waksman.ev (w : waksman) (N : perm_node) (x : Nat) : Nat :=
  match w.eval_pi N x with
  | .ok v => v
  | .error _ => 0

/-- The value of `eval_inv_pi` as a total function (`0` where the source faults). -/
def waksman.evi (w : waksman) (N : perm_node) (y : Nat) : Nat :=
  match w.eval_inv_pi N y with
  | .ok v => v
  | .error _ => 0

/-- The node as `configuration_phase` continues with it after `set_exterior`. -/
def waksman.sw (w : waksman) (N : perm_node) : perm_node :=
  match w.set_exterior N with
  | .ok M => M
  | .error _ => N

/-- The left child that `configuration_phase` creates under a node. -/
def waksman.lch (w : waksman) (N : perm_node) : perm_node :=
  .node (w.sw N) ((w.sw N).depth + 1) true (w.sw N).offset (N.size / 2) [] []

/-- The right child that `configuration_phase` creates under a node. -/
def waksman.rch (w : waksman) (N : perm_node) : perm_node :=
  .node (w.sw N) ((w.sw N).depth + 1) false (((w.sw N).offset + N.size / 2) % W32)
    (N.size / 2 + N.size % 2) [] []

/-- The input wire of the whole network from which input wire `j` of a node is reached. -/
def src : perm_node → Nat → Nat
  | .null, j => j
  | .node parent _ l _ _ _ _, j =>
    match parent with
    | .null => j
    | .node _ _ _ _ _ pe _ => src parent (stage_wire pe l j)

/-- The auxiliary information of the element that arrives on input wire `j` of a node: one
exit setting for every ancestor, the one of the parent in the lowest bit. -/
def waksman.auxv (w : waksman) : perm_node → Nat → Nat
  | .null, _ => 0
  | .node parent _ l _ _ _ _, j =>
    match parent with
    | .null => 0
    | .node _ _ _ _ _ pe px =>
      2 * waksman.auxv w parent (stage_wire pe l j) +
        (px.getD (w.ev parent (stage_wire pe l j) / 2) false).toNat

/-- The element on input wire `j` of a node, for the keys `key0` of the input array. -/
def waksman.inE (w : waksman) (key0 : Nat → Nat) (N : perm_node) (j : Nat) : element :=
  { key := key0 (src N j), aux := w.auxv N j }

/-- The element on output wire `y` of a node, after the exit switch of the node. -/
def waksman.outE (w : waksman) (key0 : Nat → Nat) (N : perm_node) (y : Nat) : element :=
  w.inE key0 N (w.evi N y)

/-- The conditions on the fields of a `waksman` object under which a call is analysed:
the oracle is a permutation of `[0, length)` with its inverse, the length fits in 31 bits,
the leaf size is `3` or `4`, and the four array names differ. -/
structure waksman.env (w : waksman) : Prop where
  pi_ok : w.good_pi
  len_lt : w.length < 2 ^ 31
  leaf_ge : 3 ≤ w.leaf_size
  leaf_le : w.leaf_size ≤ 4
  t12 : w.temp1 ≠ w.temp2
  t13 : w.temp1 ≠ w.temp3
  t23 : w.temp2 ≠ w.temp3
  t1s : w.temp1 ≠ w.skip_array
  t2s : w.temp2 ≠ w.skip_array
  t3s : w.temp3 ≠ w.skip_array

/-- A node of the permutation tree, `h` levels above the leaves, in a tree whose leaves
have depth `H`. -/
structure waksman.node_ok (w : waksman) (H : Nat) (N : perm_node) (h : Nat) : Prop where
  wf : w.wf N
  uni : uni w.leaf_size h N.size
  fit : N.offset + N.size ≤ w.length
  dep : N.depth + h = H

/-- The call returns, with a result that satisfies `Q`. -/
def ret {α : Type} (x : Except Fault α) (Q : α → Prop) : Prop := ∃ a, x = .ok a ∧ Q a

/-- From `c` to `c1` the same arrays exist, and the slots outside `W` hold what they
held. -/
structure cloud.chg (c c1 : cloud) (W : Nat → Nat → Prop) : Prop where
  has : ∀ U, c1.has U ↔ c.has U
  peek : ∀ U j, ¬ W U j → c1.peek U j = c.peek U j

/-- The four arrays of the object exist at the server. -/
def waksman.live (w : waksman) (c : cloud) : Prop :=
  c.has w.temp1 ∧ c.has w.temp2 ∧ c.has w.temp3 ∧ c.has w.skip_array

/-- The array from which the configuration phase reads the inputs of the nodes of depth
`d`: `temp1` at the root, then alternating with `temp2`. -/
def waksman.arr (w : waksman) (d : Nat) : Nat := if d % 2 = 1 then w.temp1 else w.temp2

/-- What `get_update_elem` and `route_wire` do to the auxiliary information: one setting
is shifted in. -/
def pushE (e : element) (b : Bool) : element :=
  { e with aux := (e.aux * 2 % W32) ||| b.toNat }

/-- The element with `k` settings shifted out of its auxiliary information. -/
def shiftE (e : element) (k : Nat) : element := { e with aux := e.aux / 2 ^ k }

/-- Input wire `j` of the node is stored in its place: slot `offset + j` of the array of
the node's depth holds an element that `get` returns as `inE`. -/
def waksman.inp (w : waksman) (key0 : Nat → Nat) (N : perm_node) (j : Nat) (c : cloud) : Prop :=
  ∃ e, c.peek (w.arr N.depth) (N.offset + j) = some e ∧ mask_key e = w.inE key0 N j

/-- The last input wire of a node `h` levels above the leaves is stored where `route_wire`
leaves it: in its place when the node has even size or is a leaf, and otherwise where the
last input wire of the right child is stored. -/
def waksman.fwdP (w : waksman) (key0 : Nat → Nat) (c : cloud) : Nat → perm_node → Prop
  | 0, N => w.inp key0 N (N.size - 1) c
  | h + 1, N =>
    if N.size % 2 = 0 then w.inp key0 N (N.size - 1) c else waksman.fwdP w key0 c h (w.rch N)

/-- The inputs of a node as the configuration phase finds them. -/
def waksman.pre (w : waksman) (key0 : Nat → Nat) (c : cloud) (h : Nat) (N : perm_node) : Prop :=
  (∀ j, j + 1 < N.size → w.inp key0 N j c) ∧
  if N.parent.is_null then w.inp key0 N (N.size - 1) c else w.fwdP key0 c h N

/-- The slot of the array of the level above in which output wire `y` of a node is
stored: the outputs of the two children of a node are interleaved. -/
def pos (N : perm_node) (y : Nat) : Nat :=
  if N.parent.is_null then y
  else N.parent.offset + 2 * y + (if N.is_left_child then 0 else 1)

/-- The test of `route_element` for the last output of a leaf: the element skips a level
when the parent has even size or the leaf is a right child. -/
def skipcond (N : perm_node) : Prop := N.parent.size % 2 = 0 ∨ N.is_left_child = false

instance skipcond_dec (N : perm_node) : Decidable (skipcond N) := by
  unfold skipcond
  exact inferInstance

/-- The number of outputs of a node that are stored in the array of the level above (the
others skip levels through the skip array): all of them at the root, all but the last
switch at an inner node, and all or all but the last at a leaf. -/
def nreg (h : Nat) (N : perm_node) : Nat :=
  if N.parent.is_null then N.size
  else if h = 0 then (if skipcond N then N.size - 1 else N.size)
  else (if N.size % 2 = 0 then N.size - 2 else N.size - 1)

/-- The number of times `skip_fn` calls itself before it stores the element. -/
def rise : perm_node → Nat
  | .null => 0
  | .node parent _ l _ _ _ _ =>
    match parent with
    | .null => 0
    | .node grand _ pl _ ps _ _ =>
      if !grand.is_null then
        if grand.size % 2 = 0 then
          if ps % 2 = 1 then rise parent + 1
          else if l then 0 else rise parent + 1
        else
          if pl || l then 0 else rise parent + 1
      else 0

/-- The elements that the leaves below a node (`h` levels above the leaves) append to
segment `k` of the skip array, in the order of the configuration phase. -/
def waksman.em (w : waksman) (key0 : Nat → Nat) : Nat → perm_node → Nat → List element
  | 0, N, k =>
    if skipcond N ∧ rise N = k then [shiftE (w.outE key0 N (N.size - 1)) (k + 1)] else []
  | h + 1, N, k => waksman.em w key0 h (w.lch N) k ++ waksman.em w key0 h (w.rch N) k

/-- The outputs of the nodes `g` levels below a node (itself `h` levels above the leaves)
are stored in array `A`. -/
def waksman.outs (w : waksman) (key0 : Nat → Nat) (A : Nat) (c : cloud) :
    Nat → Nat → perm_node → Prop
  | 0, h, M => ∀ y, y < nreg h M → c.peek A (pos M y) = some (w.outE key0 M y)
  | g + 1, h, M =>
    waksman.outs w key0 A c g (h - 1) (w.lch M) ∧ waksman.outs w key0 A c g (h - 1) (w.rch M)

/-- The slots in which the outputs of the nodes `g` levels below a node are stored. -/
def waksman.wrg (w : waksman) : Nat → Nat → perm_node → Nat → Prop
  | 0, h, M, j => ∃ y, y < nreg h M ∧ j = pos M y
  | g + 1, h, M, j => waksman.wrg w g (h - 1) (w.lch M) j ∨ waksman.wrg w g (h - 1) (w.rch M) j

/-- The node as the empty-road phase builds it: without settings, along the whole chain of
parents. -/
def bare : perm_node → perm_node
  | .null => .null
  | .node p d l o s _ _ => .node (bare p) d l o s [] []

/-- The first slot of segment `k` of the skip array. -/
def waksman.seg_base (w : waksman) (k : Nat) : Nat := w.length / 2 ^ (k + 1)

/-- What `get_update_elem` returns for input wire `x` of a node: the element on the wire
with the setting of its exit switch shifted in. -/
def waksman.gu (w : waksman) (key0 : Nat → Nat) (P : perm_node) (x : Nat) : element :=
  pushE (w.inE key0 P x) (P.exit.getD (w.ev P x / 2) false)

/-- The left child of a node whose switches are set. -/
def lc (P : perm_node) : perm_node :=
  .node P (P.depth + 1) true P.offset (P.size / 2) [] []

/-- The right child of a node whose switches are set. -/
def rc (P : perm_node) : perm_node :=
  .node P (P.depth + 1) false ((P.offset + P.size / 2) % W32) (P.size / 2 + P.size % 2) [] []

/-- The state of `route_internal_node_cp` after the first `k` switches of the entry stage:
the first `k` input wires of both children are stored in their places, and only these
slots of the array of the children were written. -/
def waksman.done (w : waksman) (key0 : Nat → Nat) (P : perm_node) (c c1 : cloud) (k : Nat) :
    Prop :=
  c.chg c1 (fun U j => U = w.arr (P.depth + 1) ∧
    (P.offset ≤ j ∧ j < P.offset + k ∨
      P.offset + P.size / 2 ≤ j ∧ j < P.offset + P.size / 2 + k)) ∧
  ∀ i, i < k → w.inp key0 (lc P) i c1 ∧ w.inp key0 (rc P) i c1

/-- What `route_internal_node_cp` achieves at a node `h + 1` levels above the leaves: the
inputs of both children are where the configuration phase expects them, and only slots of
the node in `temp1` and `temp2` were written (not the last one if the node has odd size and
is not the root). -/
def waksman.cp_post (w : waksman) (key0 : Nat → Nat) (h : Nat) (P : perm_node)
    (c c1 : cloud) : Prop :=
  c.chg c1 (fun U j => (U = w.temp1 ∨ U = w.temp2) ∧ P.offset ≤ j ∧
    j < P.offset + P.size ∧
    (P.parent.is_null = false → P.size % 2 = 1 → j ≠ P.offset + P.size - 1)) ∧
  w.pre key0 c1 h (lc P) ∧ w.pre key0 c1 h (rc P)

/-- The state of `route_internal_node_cp` at a node of odd size before the last input wire
is looked at: all inputs of the children but the last one of the right child are where
the configuration phase expects them, and the last slot of the node was not written. -/
def waksman.cp_mid (w : waksman) (key0 : Nat → Nat) (h : Nat) (P : perm_node)
    (c c1 : cloud) : Prop :=
  c.chg c1 (fun U j => (U = w.temp1 ∨ U = w.temp2) ∧ P.offset ≤ j ∧
    j + 1 < P.offset + P.size) ∧
  (∀ j, j + 1 < P.size / 2 → w.inp key0 (lc P) j c1) ∧
  w.fwdP key0 c1 h (lc P) ∧
  ∀ j, j + 1 < P.size / 2 + P.size % 2 → w.inp key0 (rc P) j c1

/-- What the configuration phase of the subtree of a node (`h` levels above the leaves)
achieves, from the skip indices `sk` and the server `c`: the outputs of the leaves are in
`temp3` or appended to the segments of the skip array, the skip indices have advanced, and
nothing else was written outside the slots of the node in `temp1` and `temp2`. -/
def waksman.cps (w : waksman) (key0 : Nat → Nat) (h : Nat) (N : perm_node) (sk : List Nat)
    (c : cloud) (r : List Nat × cloud) : Prop :=
  c.chg r.2 (fun U j =>
    ((U = w.temp1 ∨ U = w.temp2) ∧ N.offset ≤ j ∧ j < N.offset + N.size) ∨
    (U = w.temp3 ∧ w.wrg h h N j) ∨
    (U = w.skip_array ∧ ∃ k t, t < (w.em key0 h N k).length ∧
      j = w.seg_base k + sk.getD k 0 + t)) ∧
  w.outs key0 w.temp3 r.2 h h N ∧
  r.1.length = sk.length ∧
  (∀ k, r.1.getD k 0 = sk.getD k 0 + (w.em key0 h N k).length) ∧
  ∀ k t, t < (w.em key0 h N k).length →
    r.2.peek w.skip_array (w.seg_base k + sk.getD k 0 + t) = (w.em key0 h N k)[t]?

/-- Room in the skip array for what the subtree of a node appends. -/
def waksman.room (w : waksman) (key0 : Nat → Nat) (h : Nat) (N : perm_node) (sk : List Nat) :
    Prop :=
  ∀ k, w.em key0 h N k ≠ [] →
    k < sk.length ∧ w.seg_base k + sk.getD k 0 + (w.em key0 h N k).length ≤ w.length / 2 ^ k

/-- The state of `route_leaf` after the first `k` inputs of the leaf. -/
def waksman.leaf_inv (w : waksman) (key0 : Nat → Nat) (N : perm_node) (sk : List Nat)
    (c : cloud) (k : Nat) (r : List Nat × cloud) : Prop :=
  c.chg r.2 (fun U j =>
    (U = w.temp3 ∧ ∃ i, i < k ∧ w.ev N i < nreg 0 N ∧ j = pos N (w.ev N i)) ∨
    (U = w.skip_array ∧ skipcond N ∧ w.evi N (N.size - 1) < k ∧
      j = w.seg_base (rise N) + sk.getD (rise N) 0)) ∧
  (∀ i, i < k → w.ev N i < nreg 0 N →
    r.2.peek w.temp3 (pos N (w.ev N i)) = some (w.inE key0 N i)) ∧
  r.1 = (if skipcond N ∧ w.evi N (N.size - 1) < k then
    sk.set (rise N) ((sk.getD (rise N) 0 + 1) % W32) else sk) ∧
  (skipcond N → w.evi N (N.size - 1) < k →
    r.2.peek w.skip_array (w.seg_base (rise N) + sk.getD (rise N) 0) =
      some (shiftE (w.outE key0 N (N.size - 1)) (rise N + 1)))

/-- The segment of the skip array to which the last output of a node (`h` levels above the
leaves) goes, if it goes to the skip array. -/
def last_seg (h : Nat) (M : perm_node) : Option Nat :=
  if skipcond M then some (h + rise M) else if h = 0 then none else some (h - 1)

/-- The outputs `y < n` of a node are stored in `dest`, and nothing else was written since
`c`. -/
def waksman.erp_inv (w : waksman) (key0 : Nat → Nat) (dest : Nat) (N : perm_node) (c : cloud)
    (n : Nat) (c1 : cloud) : Prop :=
  c.chg c1 (fun U j => U = dest ∧ ∃ y, y < n ∧ j = pos N y) ∧
  ∀ y, y < n → c1.peek dest (pos N y) = some (w.outE key0 N y)

/-- The elements that the nodes `t` levels above the leaves, in the subtree of a node `hM`
levels above the leaves, take from the skip array, in the order of the traversal. -/
def waksman.skl (w : waksman) (key0 : Nat → Nat) (t hM : Nat) (M : perm_node) : List element :=
  if 2 ≤ t then w.em key0 hM M (t - 2) else []

/-- The root node that `permute` and `empty_road_phase` create. -/
def waksman.root (w : waksman) : perm_node := .node .null 1 true 0 w.length [] []

/-- A server on which array `0` holds elements with the given keys and `aux = 0`, in the
order of the list. -/
def cloud.of_keys (keys : List Nat) : cloud :=
  { num_IO := 0
    table := fun nm =>
      if nm = 0 then
        some { length := keys.length,
               slots := fun i => keys[i]?.map (fun k => { key := k, aux := 0 }) }
      else none
    trace := [] }

/-- The first lines of `waksman::set_exterior`, before the traversal: the initial state
and the value of `count` when the `while` loop starts. -/
def waksman.set_exterior_start (node : perm_node) : Except Fault (ext_state × Nat) := do
  let num_switch := (node.size + 1) / 2
  let blank := List.replicate num_switch false
  let (s0, count) ←
    if node.size % 2 = 1 then do
      -- network has odd size: the bottom input and output wires are already "set"
      let exit ← bv_set blank (num_switch - 1) SWAP
      let entry ← bv_set blank (num_switch - 1) SWAP
      let switch_set_entry ← bv_set blank (num_switch - 1) true
      pure (({ data := { cur := (node.size + W32 - 1) % W32, tar := 0, cur_setting := SWAP },
               res_entry := 0, res_exit := 0, entry := entry, exit := exit,
               switch_set_entry := switch_set_entry, switch_set_exit := blank,
               inv := true } : ext_state), 1)
    else do
      -- network has even size: arbitrarily set a switch in the exterior
      let exit ← bv_set blank (num_switch - 1) PERSIST
      pure (({ data := { cur := (node.size + W32 - 1) % W32, tar := 0, cur_setting := PERSIST },
               res_entry := 0, res_exit := 0, entry := blank, exit := exit,
               switch_set_entry := blank, switch_set_exit := blank,
               inv := true } : ext_state), 0)
  let switch_set_exit ← bv_set s0.switch_set_exit (num_switch - 1) true
  pure ({ s0 with switch_set_exit := switch_set_exit }, count + 1)

/-- The number of switches that are set in a state of `set_exterior`. -/
def ext_state.num_set (st : ext_state) : Nat :=
  st.switch_set_entry.count true + st.switch_set_exit.count true

/-- The number of consecutive odd sizes other than `3` at the start of the sequence
`size, ceil(size / 2), ceil(ceil(size / 2) / 2), ...`; `fuel` bounds the length of the
sequence that is looked at. -/
def odd_run : Nat → Nat → Nat
  | 0, _ => 0
  | fuel + 1, size => if size % 2 = 0 ∨ size = 3 then 0 else odd_run fuel ((size + 1) / 2) + 1

/-- The bits that `t` steps push, as a number: step `j` pushes the parity of
`floor(value / 2 ^ j)`, and each later step shifts it one place to the left. -/
def wire_bits (value : Nat) : Nat → Nat
  | 0 => 0
  | t + 1 => (value % 2) * 2 ^ t + wire_bits (value / 2) t

/-- `jprime = j / (1u << i) * (1u << i)` of `bucket::butterfly`. -/
def butterfly_jprime (i j : Nat) : Nat := j / (2 ^ i % W32) * (2 ^ i % W32) % W32

/-- The number `j + jprime` of the bucket that pass `j` of level `i` reads as `in_left`. -/
def butterfly_left (i j : Nat) : Nat := (j + butterfly_jprime i j) % W32

/-- The number `j + jprime + (1u << i)` of the bucket that pass `j` of level `i` reads as
`in_right`. -/
def butterfly_right (i j : Nat) : Nat := (j + butterfly_jprime i j + 2 ^ i % W32) % W32

/-- The value of `offset_bins` in pass `j` of the loop over the sub-segments of a chunk in
`distribution_phase_2`: it starts at `0` and `num_bins` is added at the end of every pass. -/
def melbshuffle.offset_bins (ms : melbshuffle) (j : Nat) : Nat :=
  j * ceil_div ms.num_buckets ms.buckets_per_chunk % W32

/-- The number of bins `range` of pass `j` in `distribution_phase_2`, before it is multiplied
by `max_load1`: `(offset_bins + num_bins < num_buckets) ? num_bins :
(num_buckets - offset_bins)`. -/
def melbshuffle.seg_bins (ms : melbshuffle) (j : Nat) : Nat :=
  if (ms.offset_bins j + ceil_div ms.num_buckets ms.buckets_per_chunk) % W32 < ms.num_buckets
  then ceil_div ms.num_buckets ms.buckets_per_chunk
  else (ms.num_buckets + W32 - ms.offset_bins j) % W32

/-- The nodes on which `skip_fn` is called once it is called on a node: the node itself
and, where the call continues with the parent, the nodes of that call. -/
def skip_chain : perm_node → List perm_node
  | .null => [.null]
  | .node parent d l o sz en ex =>
    .node parent d l o sz en ex ::
      match parent with
      | .null => []
      | .node grand _ pl _ ps _ _ =>
        if !grand.is_null then
          if grand.size % 2 = 0 then
            if ps % 2 = 1 then skip_chain parent
            else if l then [] else skip_chain parent
          else
            if pl || l then [] else skip_chain parent
        else []

/-- The array that a storage operation names. -/
def access.name : access → Nat
  | .get nm _ => nm
  | .put nm _ => nm

/-- The index of a storage operation. -/
def access.index : access → Nat
  | .get _ i => i
  | .put _ i => i

/-- The byte offset `index * BYTESPERELEM` of the operation fits in the `uint32_t file_idx`
of `server::get` and `server::put`: the operation addresses the slot it names. -/
def access.fits (a : access) : Prop := a.index * BYTESPERELEM < W32

/-- The 64-bit word `packet` that `server::put` writes for an element. -/
def element.packet (x : element) : Nat := (x.aux * 2 ^ 32 % 2 ^ 64) ||| x.key

/-- The slot view `c` describes the server `s`: the same I/O counter, the same names with
the same declared lengths, and every slot `i` that `c` holds and whose byte offset `i * 9`
fits in 32 bits is stored in the file of `s`: the eight bytes at `i * 9` lie before the end
of the file and are the packet of the element, whose `key` and `aux` are 32-bit values. -/
def cloud.views (c : cloud) (s : server) : Prop :=
  cloud.num_IO c = server.num_IO s ∧
  ∀ name,
    (c.table name = none ↔ s.table name = none) ∧
    ∀ a d, c.table name = some a → s.table name = some d →
      a.length = d.length ∧
      ∀ i e, i * BYTESPERELEM < W32 → a.slots i = some e →
        e.key < 2 ^ 32 ∧ e.aux < 2 ^ 32 ∧ i * BYTESPERELEM + 8 ≤ d.eof ∧
        le_word d.bytes (i * BYTESPERELEM) = e.packet

/-- A relation between two states of the server that holds from every state to itself, is
transitive, and holds across every `get` and every `put` that returns. -/
structure storage_rel (R : cloud → cloud → Prop) : Prop where
  refl : ∀ c, R c c
  trans : ∀ c c1 c2, R c c1 → R c1 c2 → R c c2
  get : ∀ c c1 name index e, c.get name index = .ok (e, c1) → R c c1
  put : ∀ c c1 name index x, c.put name index x = .ok c1 → R c c1

/-- From `c` to `c1` no slot was emptied, and every storage operation issued in between
addresses a slot that is written in `c1`. -/
def cloud.marks (c c1 : cloud) : Prop :=
  (∀ U j, (c.peek U j).isSome = true → (c1.peek U j).isSome = true) ∧
  ∃ ops, c1.trace = c.trace ++ ops ∧
    ∀ a, a ∈ ops → (c1.peek a.name a.index).isSome = true

/-! ## Theorems -/

theorem le_word_le_bytes (f : Nat → Nat) (pos packet : Nat) (hp : packet < 2 ^ 64)
    (hf : ∀ i, i < 8 → f (pos + i) = (le_bytes packet).getD i 0) :
    le_word f pos = packet := by
  have h0 := hf 0 (by omega); have h1 := hf 1 (by omega); have h2 := hf 2 (by omega)
  have h3 := hf 3 (by omega); have h4 := hf 4 (by omega); have h5 := hf 5 (by omega)
  have h6 := hf 6 (by omega); have h7 := hf 7 (by omega)
  simp [le_bytes, List.range_succ, List.getD] at h0 h1 h2 h3 h4 h5 h6 h7
  simp only [le_word, List.range_succ, List.range_zero, List.map_append, List.map_cons,
    List.map_nil, List.sum_append, List.sum_cons, List.sum_nil, List.nil_append]
  simp only [Nat.add_zero] at *
  rw [h0, h1, h2, h3, h4, h5, h6, h7]
  norm_num
  omega

theorem le_bytes_length (p : Nat) : (le_bytes p).length = 8 := by
  simp [le_bytes]

/-- What `get` returns right after `put` at the same place: the key reduced modulo
`2 ^ 31`, the aux unchanged. -/
theorem server_get_put_same (s s1 : server) (name index : Nat) (x : element)
    (hk : x.key < 2 ^ 32) (ha : x.aux < 2 ^ 32)
    (h : s.put name index x = some s1) :
    (s1.get name index).2 = some { key := x.key % 2 ^ 31, aux := x.aux } := by
  unfold server.put at h
  cases ht : s.table name with
  | none => simp [ht] at h
  | some array =>
    simp only [ht, Option.some.injEq] at h
    subst h
    have hpk : x.aux * 2 ^ 32 % 2 ^ 64 ||| x.key = 2 ^ 32 * x.aux + x.key := by
      rw [Nat.mod_eq_of_lt (by omega), Nat.mul_comm]
      exact (Nat.mul_add_lt_is_or hk x.aux).symm
    have hlt : 2 ^ 32 * x.aux + x.key < 2 ^ 64 := by omega
    simp only [server.get, if_true, file_write, List.length_append, le_bytes_length,
      List.length_singleton]
    rw [if_pos (by omega)]
    have hw : le_word (fun q => if index * BYTESPERELEM % W32 ≤ q ∧
        q < index * BYTESPERELEM % W32 + (8 + 1) then
          (le_bytes (x.aux * 2 ^ 32 % 2 ^ 64 ||| x.key) ++ [10]).getD
            (q - index * BYTESPERELEM % W32) 0
        else array.bytes q) (index * BYTESPERELEM % W32) = 2 ^ 32 * x.aux + x.key := by
      apply le_word_le_bytes _ _ _ hlt
      intro i hi
      rw [if_pos (by omega), hpk]
      have : index * BYTESPERELEM % W32 + i - index * BYTESPERELEM % W32 = i := by omega
      rw [this]
      simp only [List.getD_eq_getElem?_getD]
      rw [List.getElem?_append_left (by rw [le_bytes_length]; exact hi)]
    simp only [hw]
    have hm : INT32_MAX = 2 ^ 31 - 1 := by decide
    rw [hm, Nat.and_pow_two_sub_one_eq_mod]
    congr 2
    · omega
    · simp only [W32]; omega

/-- C10 (failing input).  On a fresh one-slot array, `put` of the element with key
`0x80000000` and aux `0` at index `0` succeeds, and the `get` that follows returns key
`0`, not the key that was stored: `get` masks the word with `INT32_MAX`, so bit 31 of
every key is lost. -/
theorem server_roundtrip_drops_bit31 :
    (((server.init 800).create_array 0 1).put 0 0 { key := 2147483648, aux := 0 }).map
      (fun s1 => (s1.get 0 0).2) = some (some { key := 0, aux := 0 }) := by
  decide

/-! ### The permutation oracle -/

theorem inv_scan_eq (j : Nat) (l : List Nat) (count : Nat) (h : j ∈ l) :
    inv_scan j l count = .ok (count + l.indexOf j) := by
  induction l generalizing count with
  | nil => simp at h
  | cons x rest ih =>
    unfold inv_scan
    by_cases hx : x = j
    · subst hx
      simp
    · have hm : j ∈ rest := by
        rcases List.mem_cons.mp h with h1 | h1
        · exact absurd h1.symm hx
        · exact h1
      rw [if_pos hx, ih (count + 1) hm, List.indexOf_cons_ne _ hx]
      congr 1
      omega

theorem fill_inv_eq (perm js : List Nat) (h : ∀ j ∈ js, j ∈ perm) :
    fill_inv perm js = .ok (js.map (fun j => perm.indexOf j)) := by
  induction js with
  | nil => rfl
  | cons j js ih =>
    have h1 : j ∈ perm := h j (List.mem_cons_self _ _)
    have h2 : ∀ j ∈ js, j ∈ perm := fun a ha => h a (List.mem_cons_of_mem _ ha)
    simp only [fill_inv, inv_scan_eq j perm 0 h1, ih h2, Nat.zero_add, List.map_cons]
    rfl

theorem inverse_ok_of_perm (size : Nat) (perm : List Nat) (h : perm.Perm (List.range size)) :
    fill_inv perm (List.range size) = .ok ((List.range size).map (fun j => perm.indexOf j)) ∧
    permutation.inverse_ok
      { size := size, perm := perm, inv_perm := (List.range size).map (fun j => perm.indexOf j) } := by
  have hmem : ∀ j, j ∈ perm ↔ j < size := fun j => by rw [h.mem_iff, List.mem_range]
  have hlen : perm.length = size := by rw [h.length_eq, List.length_range]
  have hnd : perm.Nodup := h.nodup_iff.mpr (List.nodup_range size)
  refine ⟨fill_inv_eq _ _ (fun j hj => (hmem j).mpr (List.mem_range.mp hj)), ?_⟩
  intro k hk
  have hk : k < size := hk
  have hkl : k < perm.length := by omega
  have hv : perm[k] < size := (hmem _).mp (List.getElem_mem _)
  have hik : perm.indexOf k < perm.length := List.indexOf_lt_length.mpr ((hmem k).mpr hk)
  constructor
  · simp only [permutation.eval_perm, List.getElem?_eq_getElem hkl, bind, Except.bind,
      permutation.eval_inv_perm]
    rw [List.getElem?_eq_getElem (by simpa using hv)]
    simp only [List.getElem_map, List.getElem_range]
    rw [List.indexOf_getElem hnd k hkl]
  · simp only [permutation.eval_inv_perm, bind, Except.bind]
    rw [List.getElem?_eq_getElem (by simpa using hk)]
    simp only [List.getElem_map, List.getElem_range, permutation.eval_perm]
    rw [List.getElem?_eq_getElem hik, List.getElem_indexOf hik]

/-- C9.  For a shuffle that permutes its range: the constructor returns an oracle whose
`perm` is a permutation of `[0, size)` and whose lookups are mutually inverse on
`[0, size)`; and `new_seed` on any oracle whose `perm` is a permutation of `[0, size)`
returns an oracle of the same size with the same two properties.  So the inverse law
holds after construction and after every `new_seed`. -/
theorem permutation_inverse (size : Nat) (shuffle : List Nat → List Nat)
    (hs : ∀ l, (shuffle l).Perm l) :
    (∃ p, permutation.init size shuffle = .ok p ∧ p.size = size ∧
        p.perm.Perm (List.range size) ∧ p.inverse_ok) ∧
    (∀ p : permutation, p.size = size → p.perm.Perm (List.range size) →
      ∃ q, p.new_seed shuffle = .ok q ∧ q.size = size ∧
        q.perm.Perm (List.range size) ∧ q.inverse_ok) := by
  constructor
  · have hp := hs (List.range size)
    obtain ⟨h1, h2⟩ := inverse_ok_of_perm size _ hp
    refine ⟨_, ?_, rfl, hp, h2⟩
    simp only [permutation.init, h1]
    rfl
  · intro p hsz hperm
    have hp := (hs p.perm).trans hperm
    obtain ⟨h1, h2⟩ := inverse_ok_of_perm size _ hp
    refine ⟨_, ?_, rfl, hp, h2⟩
    simp only [permutation.new_seed, hsz, h1]
    rfl

theorem permutation_inverse_witness :
    (∃ p, permutation.init 3 List.reverse = .ok p ∧ p.size = 3 ∧
        p.perm.Perm (List.range 3) ∧ p.inverse_ok) ∧
    (∀ p : permutation, p.size = 3 → p.perm.Perm (List.range 3) →
      ∃ q, p.new_seed List.reverse = .ok q ∧ q.size = 3 ∧
        q.perm.Perm (List.range 3) ∧ q.inverse_ok) :=
  permutation_inverse 3 List.reverse (fun l => List.reverse_perm l)

/-! ### The bitonic network sorts -/

theorem interval_normal (P : Nat → Prop) (L a b : Nat)
    (hab : ∀ x, x < L → (P x ↔ (a ≤ x ∧ x < b))) :
    ∃ a1 b1, a1 ≤ b1 ∧ b1 ≤ L ∧ ∀ x, x < L → (P x ↔ (a1 ≤ x ∧ x < b1)) := by
  refine ⟨min a (min b L), min b L, by omega, by omega, fun x hx => ?_⟩
  rw [hab x hx]
  omega

theorem half_min_bitonic (s : Nat → Bool) (h : Nat) (hs : bitonic01 s (2 * h)) :
    bitonic01 (fun x => min (s x) (s (x + h))) h := by
  rcases hs with ⟨a, b, hab⟩ | ⟨a0, b0, hab0⟩
  · left
    refine ⟨a, b - h, fun x hx => ?_⟩
    have h1 := hab x (by omega)
    have h2 := hab (x + h) (by omega)
    cases hsx : s x <;> cases hsy : s (x + h) <;> simp [hsx, hsy] at h1 h2 ⊢ <;> omega
  · obtain ⟨a, b, hle, hbL, hab⟩ := interval_normal _ _ _ _ hab0
    by_cases hc : a + h ≤ b
    · right
      refine ⟨0, h, fun x hx => ?_⟩
      have h1 := hab x (by omega)
      have h2 := hab (x + h) (by omega)
      cases hsx : s x <;> cases hsy : s (x + h) <;> simp [hsx, hsy] at h1 h2 ⊢ <;> omega
    · by_cases ha : h ≤ a
      · right
        refine ⟨a - h, b - h, fun x hx => ?_⟩
        have h1 := hab x (by omega)
        have h2 := hab (x + h) (by omega)
        cases hsx : s x <;> cases hsy : s (x + h) <;> simp [hsx, hsy] at h1 h2 ⊢ <;> omega
      · by_cases hb : h ≤ b
        · left
          refine ⟨b - h, a, fun x hx => ?_⟩
          have h1 := hab x (by omega)
          have h2 := hab (x + h) (by omega)
          cases hsx : s x <;> cases hsy : s (x + h) <;> simp [hsx, hsy] at h1 h2 ⊢ <;> omega
        · right
          refine ⟨a, b, fun x hx => ?_⟩
          have h1 := hab x (by omega)
          have h2 := hab (x + h) (by omega)
          cases hsx : s x <;> cases hsy : s (x + h) <;> simp [hsx, hsy] at h1 h2 ⊢ <;> omega

theorem bitonic01_not (s : Nat → Bool) (L : Nat) (hs : bitonic01 s L) :
    bitonic01 (fun x => !(s x)) L := by
  rcases hs with ⟨a, b, hab⟩ | ⟨a, b, hab⟩
  · right
    exact ⟨a, b, fun x hx => by simpa using hab x hx⟩
  · left
    exact ⟨a, b, fun x hx => by simpa using hab x hx⟩

theorem half_max_bitonic (s : Nat → Bool) (h : Nat) (hs : bitonic01 s (2 * h)) :
    bitonic01 (fun x => max (s x) (s (x + h))) h := by
  have h1 := bitonic01_not _ _ (half_min_bitonic _ h (bitonic01_not s _ hs))
  have : (fun x => !(min (!(s x)) (!(s (x + h))))) = (fun x => max (s x) (s (x + h))) := by
    funext x
    cases s x <;> cases s (x + h) <;> rfl
  rw [this] at h1
  exact h1

theorem half_min_le_max (s : Nat → Bool) (h : Nat) (hs : bitonic01 s (2 * h))
    (x y : Nat) (hx : x < h) (hy : y < h) :
    min (s x) (s (x + h)) ≤ max (s y) (s (y + h)) := by
  have key : ∀ a b, (∀ x, x < 2 * h → ((s x = true ↔ (a ≤ x ∧ x < b)))) ∨
      (∀ x, x < 2 * h → ((s x = false ↔ (a ≤ x ∧ x < b)))) →
      min (s x) (s (x + h)) ≤ max (s y) (s (y + h)) := by
    intro a b hab
    rcases hab with hab | hab
    all_goals
      have h1 := hab x (by omega)
      have h2 := hab (x + h) (by omega)
      have h3 := hab y (by omega)
      have h4 := hab (y + h) (by omega)
      cases hsx : s x <;> cases hsy : s (x + h) <;> cases hsz : s y <;> cases hsw : s (y + h) <;>
        simp [hsx, hsy, hsz, hsw] at h1 h2 h3 h4 ⊢ <;> omega
  rcases hs with ⟨a, b, hab⟩ | ⟨a, b, hab⟩
  · exact key a b (Or.inl hab)
  · exact key a b (Or.inr hab)

theorem bitonic01_congr (s t : Nat → Bool) (L : Nat) (h : ∀ x, x < L → s x = t x)
    (hs : bitonic01 s L) : bitonic01 t L := by
  rcases hs with ⟨a, b, hab⟩ | ⟨a, b, hab⟩
  · exact Or.inl ⟨a, b, fun x hx => by rw [← h x hx]; exact hab x hx⟩
  · exact Or.inr ⟨a, b, fun x hx => by rw [← h x hx]; exact hab x hx⟩

theorem half_dmin_bitonic (asc : Bool) (s : Nat → Bool) (h : Nat) (hs : bitonic01 s (2 * h)) :
    bitonic01 (fun x => dmin asc (s x) (s (x + h))) h := by
  cases asc
  · exact half_max_bitonic s h hs
  · exact half_min_bitonic s h hs

theorem half_dmax_bitonic (asc : Bool) (s : Nat → Bool) (h : Nat) (hs : bitonic01 s (2 * h)) :
    bitonic01 (fun x => dmax asc (s x) (s (x + h))) h := by
  cases asc
  · exact half_min_bitonic s h hs
  · exact half_max_bitonic s h hs

theorem half_dmin_ord_dmax (asc : Bool) (s : Nat → Bool) (h : Nat) (hs : bitonic01 s (2 * h))
    (x y : Nat) (hx : x < h) (hy : y < h) :
    ord asc (dmin asc (s x) (s (x + h))) (dmax asc (s y) (s (y + h))) := by
  cases asc
  · exact half_min_le_max s h hs y x hy hx
  · exact half_min_le_max s h hs x y hx hy

/-! Index arithmetic of one stage on an aligned block. -/

theorem div_pow_lower (q B r : Nat) (hB : 2 ^ (q + 1) ∣ B) (hr : r < 2 ^ q) :
    (B + r) / 2 ^ q % 2 = 0 := by
  obtain ⟨c, rfl⟩ := hB
  have : 2 ^ (q + 1) * c + r = 2 ^ q * (2 * c) + r := by rw [pow_succ]; ring
  rw [this, Nat.mul_add_div (by positivity), Nat.div_eq_of_lt hr]
  omega

theorem div_pow_upper (q B r : Nat) (hB : 2 ^ (q + 1) ∣ B) (hr : r < 2 ^ q) :
    (B + 2 ^ q + r) / 2 ^ q % 2 = 1 := by
  obtain ⟨c, rfl⟩ := hB
  have : 2 ^ (q + 1) * c + 2 ^ q + r = 2 ^ q * (2 * c + 1) + r := by rw [pow_succ]; ring
  rw [this, Nat.mul_add_div (by positivity), Nat.div_eq_of_lt hr]
  omega

theorem pair_lo_lower (q B r : Nat) (hB : 2 ^ (q + 1) ∣ B) (hr : r < 2 ^ q) :
    pair_lo q (B + r) = B + r := by
  simp [pair_lo, div_pow_lower q B r hB hr]

theorem pair_lo_upper (q B r : Nat) (hB : 2 ^ (q + 1) ∣ B) (hr : r < 2 ^ q) :
    pair_lo q (B + 2 ^ q + r) = B + r := by
  simp only [pair_lo, div_pow_upper q B r hB hr]
  simp
  omega

theorem stage_lower {α : Type} [LinearOrder α] (p q : Nat) (g : Nat → α) (asc : Bool)
    (B r : Nat) (hB : 2 ^ (q + 1) ∣ B) (hr : r < 2 ^ q)
    (hdir : (B + r) / 2 ^ p % 2 = 0 ↔ asc = true) :
    stage p q g (B + r) = dmin asc (g (B + r)) (g (B + r + 2 ^ q)) := by
  simp only [stage, pair_lo_lower q B r hB hr, if_true, dmin]
  cases asc
  · have : ¬ (B + r) / 2 ^ p % 2 = 0 := by simpa using hdir
    simp [this]
  · have : (B + r) / 2 ^ p % 2 = 0 := by simpa using hdir
    simp [this]

theorem stage_upper {α : Type} [LinearOrder α] (p q : Nat) (g : Nat → α) (asc : Bool)
    (B r : Nat) (hB : 2 ^ (q + 1) ∣ B) (hr : r < 2 ^ q)
    (hdir : (B + r) / 2 ^ p % 2 = 0 ↔ asc = true) :
    stage p q g (B + 2 ^ q + r) = dmax asc (g (B + r)) (g (B + r + 2 ^ q)) := by
  have hne : ¬ (B + 2 ^ q + r = B + r) := by
    have : 0 < 2 ^ q := by positivity
    omega
  simp only [stage, pair_lo_upper q B r hB hr, dmax, if_neg hne]
  cases asc
  · have : ¬ (B + r) / 2 ^ p % 2 = 0 := by simpa using hdir
    simp [this]
  · have : (B + r) / 2 ^ p % 2 = 0 := by simpa using hdir
    simp [this]

theorem stage_choice {α : Type} [LinearOrder α] (p q : Nat) (g : Nat → α) (X : Nat) :
    stage p q g X = g (pair_lo q X) ∨ stage p q g X = g (pair_lo q X + 2 ^ q) := by
  simp only [stage]
  split_ifs
  · exact min_choice _ _
  · exact max_choice _ _
  · exact max_choice _ _
  · exact min_choice _ _

theorem dvd_half (k B : Nat) (hB : 2 ^ (k + 1) ∣ B) : 2 ^ k ∣ B :=
  Dvd.dvd.trans ⟨2, by rw [pow_succ]⟩ hB

theorem dvd_half_add (k B : Nat) (hB : 2 ^ (k + 1) ∣ B) : 2 ^ k ∣ B + 2 ^ k :=
  Dvd.dvd.add (dvd_half k B hB) (dvd_refl _)

theorem stage_in_region {α : Type} [LinearOrder α] (p q : Nat) (g : Nat → α) (d : Nat) :
    ∀ B, 2 ^ (q + 1 + d) ∣ B → ∀ x, x < 2 ^ (q + 1 + d) →
      ∃ y, y < 2 ^ (q + 1 + d) ∧ stage p q g (B + x) = g (B + y) := by
  induction d with
  | zero =>
    intro B hB x hx
    simp only [Nat.add_zero] at hB hx ⊢
    have h2 : 2 ^ (q + 1) = 2 * 2 ^ q := by rw [pow_succ]; ring
    by_cases hlt : x < 2 ^ q
    · have hl := pair_lo_lower q B x hB hlt
      rcases stage_choice p q g (B + x) with h | h
      · exact ⟨x, hx, by rw [h, hl]⟩
      · exact ⟨x + 2 ^ q, by omega, by rw [h, hl]; congr 1; omega⟩
    · obtain ⟨r, rfl⟩ : ∃ r, x = 2 ^ q + r := ⟨x - 2 ^ q, by omega⟩
      have hr : r < 2 ^ q := by omega
      have hl := pair_lo_upper q B r hB hr
      rcases stage_choice p q g (B + 2 ^ q + r) with h | h
      · exact ⟨r, by omega, by rw [← Nat.add_assoc, h, hl]⟩
      · exact ⟨2 ^ q + r, hx, by rw [← Nat.add_assoc, h, hl]; congr 1; omega⟩
  | succ d ih =>
    intro B hB x hx
    have h2 : 2 ^ (q + 1 + (d + 1)) = 2 * 2 ^ (q + 1 + d) := by
      rw [← Nat.add_assoc, pow_succ]; ring
    rw [← Nat.add_assoc] at hB
    by_cases hlt : x < 2 ^ (q + 1 + d)
    · obtain ⟨y, hy, he⟩ := ih B (dvd_half _ B hB) x hlt
      exact ⟨y, by omega, he⟩
    · obtain ⟨r, rfl⟩ : ∃ r, x = 2 ^ (q + 1 + d) + r := ⟨x - 2 ^ (q + 1 + d), by omega⟩
      obtain ⟨y, hy, he⟩ := ih (B + 2 ^ (q + 1 + d)) (dvd_half_add _ B hB) r (by omega)
      exact ⟨2 ^ (q + 1 + d) + y, by omega, by rw [← Nat.add_assoc, he, Nat.add_assoc]⟩

theorem stage_merged (p q : Nat) (asc : Bool) (H : Nat → Bool) (d : Nat) :
    ∀ B, 2 ^ (q + 1 + d) ∣ B →
      (∀ x, x < 2 ^ (q + 1 + d) → ((B + x) / 2 ^ p % 2 = 0 ↔ asc = true)) →
      merged asc H d (q + 1) B → merged asc (stage p q H) (d + 1) q B := by
  induction d with
  | zero =>
    intro B hB hdir hm
    simp only [Nat.add_zero] at hB hdir
    have h2 : 2 ^ (q + 1) = 2 * 2 ^ q := by rw [pow_succ]; ring
    simp only [merged, Nat.add_zero] at hm ⊢
    rw [h2] at hm
    have hlo : ∀ x, x < 2 ^ q → stage p q H (B + x) =
        dmin asc (H (B + x)) (H (B + (x + 2 ^ q))) := fun x hx => by
      rw [stage_lower p q H asc B x hB hx (hdir x (by omega)), Nat.add_assoc]
    have hhi : ∀ x, x < 2 ^ q → stage p q H (B + 2 ^ q + x) =
        dmax asc (H (B + x)) (H (B + (x + 2 ^ q))) := fun x hx => by
      rw [stage_upper p q H asc B x hB hx (hdir x (by omega)), Nat.add_assoc]
    refine ⟨?_, ?_, ?_⟩
    · exact bitonic01_congr _ _ _ (fun x hx => (hlo x hx).symm)
        (half_dmin_bitonic asc (fun x => H (B + x)) (2 ^ q) hm)
    · exact bitonic01_congr _ _ _ (fun x hx => (hhi x hx).symm)
        (half_dmax_bitonic asc (fun x => H (B + x)) (2 ^ q) hm)
    · intro x y hx hy
      rw [hlo x hx, hhi y hy]
      exact half_dmin_ord_dmax asc (fun x => H (B + x)) (2 ^ q) hm x y hx hy
  | succ d ih =>
    intro B hB hdir hm
    have h2 : 2 ^ (q + 1 + (d + 1)) = 2 * 2 ^ (q + 1 + d) := by
      rw [← Nat.add_assoc, pow_succ]; ring
    have h3 : q + (d + 1) = q + 1 + d := by omega
    rw [← Nat.add_assoc] at hB
    obtain ⟨hm1, hm2, hm3⟩ := hm
    refine ⟨?_, ?_, ?_⟩
    · exact ih B (dvd_half _ B hB) (fun x hx => hdir x (by omega)) hm1
    · rw [h3]
      refine ih _ (dvd_half_add _ B hB) (fun x hx => ?_) hm2
      rw [Nat.add_assoc]
      exact hdir _ (by omega)
    · rw [h3]
      intro x y hx hy
      obtain ⟨x1, hx1, ex⟩ := stage_in_region p q H d B (dvd_half _ B hB) x hx
      obtain ⟨y1, hy1, ey⟩ := stage_in_region p q H d _ (dvd_half_add _ B hB) y hy
      rw [ex, ey]
      exact hm3 x1 y1 hx1 hy1

theorem merge_from_merged (p : Nat) (asc : Bool) (q : Nat) :
    ∀ (d : Nat) (H : Nat → Bool) (B : Nat), 2 ^ (q + d) ∣ B →
      (∀ x, x < 2 ^ (q + d) → ((B + x) / 2 ^ p % 2 = 0 ↔ asc = true)) →
      merged asc H d q B → merged asc (merge_from p q H) (d + q) 0 B := by
  induction q with
  | zero =>
    intro d H B _ _ hm
    simpa [merge_from] using hm
  | succ q ih =>
    intro d H B hB hdir hm
    have e1 : q + 1 + d = q + (d + 1) := by omega
    have e2 : d + (q + 1) = d + 1 + q := by omega
    rw [e1] at hB hdir
    rw [merge_from, e2]
    refine ih (d + 1) _ B hB hdir ?_
    rw [← e1] at hB hdir
    exact stage_merged p q asc H d B hB hdir hm

theorem ord_refl {α : Type} [LinearOrder α] (asc : Bool) (a : α) : ord asc a a := by
  cases asc <;> simp [ord]

theorem merged_sorted (asc : Bool) (H : Nat → Bool) (d : Nat) :
    ∀ B, merged asc H d 0 B → sorted_dir asc H B (2 ^ d) := by
  induction d with
  | zero =>
    intro B _ x y hxy hy
    have hx0 : x = 0 := by simp at hy; omega
    have hy0 : y = 0 := by simp at hy; omega
    subst hx0; subst hy0
    exact ord_refl asc _
  | succ d ih =>
    intro B hm x y hxy hy
    obtain ⟨h1, h2, h3⟩ := hm
    simp only [Nat.zero_add] at h2 h3
    have h2p : 2 ^ (d + 1) = 2 * 2 ^ d := by rw [pow_succ]; ring
    by_cases hyl : y < 2 ^ d
    · exact ih B h1 x y hxy hyl
    · obtain ⟨y1, rfl⟩ : ∃ r, y = 2 ^ d + r := ⟨y - 2 ^ d, by omega⟩
      by_cases hxl : x < 2 ^ d
      · rw [← Nat.add_assoc]
        exact h3 x y1 hxl (by omega)
      · obtain ⟨x1, rfl⟩ : ∃ r, x = 2 ^ d + r := ⟨x - 2 ^ d, by omega⟩
        rw [← Nat.add_assoc, ← Nat.add_assoc]
        exact ih _ h2 x1 y1 (by omega) (by omega)

theorem mono_threshold (s : Nat → Bool) (h : Nat)
    (hs : ∀ x y, x ≤ y → y < h → s x ≤ s y) :
    ∃ a, a ≤ h ∧ ∀ x, x < h → (s x = true ↔ a ≤ x) := by
  induction h with
  | zero => exact ⟨0, le_refl _, fun x hx => absurd hx (by omega)⟩
  | succ h ih =>
    obtain ⟨a, ha, hrec⟩ := ih (fun x y hxy hy => hs x y hxy (by omega))
    cases hsh : s h
    · refine ⟨h + 1, le_refl _, fun x hx => ?_⟩
      have := hs x h (by omega) (by omega)
      rw [hsh] at this
      have hx0 : s x = false := by
        cases hsx : s x
        · rfl
        · rw [hsx] at this; exact absurd this (by decide)
      simp [hx0]
      omega
    · refine ⟨a, by omega, fun x hx => ?_⟩
      by_cases hxh : x < h
      · exact hrec x hxh
      · have : x = h := by omega
        subst this
        simp [hsh, ha]

theorem anti_threshold (s : Nat → Bool) (h : Nat)
    (hs : ∀ x y, x ≤ y → y < h → s y ≤ s x) :
    ∃ c, c ≤ h ∧ ∀ x, x < h → (s x = true ↔ x < c) := by
  obtain ⟨a, ha, hrec⟩ := mono_threshold (fun x => !(s x)) h (fun x y hxy hy => by
    have := hs x y hxy hy
    show (!(s x)) ≤ (!(s y))
    cases hsx : s x <;> cases hsy : s y <;> rw [hsx, hsy] at this <;>
      first | decide | exact absurd this (by decide))
  refine ⟨a, ha, fun x hx => ?_⟩
  have := hrec x hx
  cases hsx : s x <;> simp [hsx] at this ⊢ <;> omega

theorem block_bitonic (p : Nat) (G : Nat → Bool) (hG : phase_sorted p G) (B : Nat)
    (hB : 2 ^ (p + 1) ∣ B) : bitonic01 (fun x => G (B + x)) (2 ^ (p + 1)) := by
  have h2p : 2 ^ (p + 1) = 2 * 2 ^ p := by rw [pow_succ]; ring
  have hpos : 0 < 2 ^ p := by positivity
  have hlo := hG B (dvd_half p B hB)
  have hhi := hG (B + 2 ^ p) (dvd_half_add p B hB)
  have e1 : B / 2 ^ p % 2 = 0 := by simpa using div_pow_lower p B 0 hB hpos
  have e2 : (B + 2 ^ p) / 2 ^ p % 2 = 1 := by simpa using div_pow_upper p B 0 hB hpos
  simp only [e1, e2, decide_True, sorted_dir, ord, if_true] at hlo hhi
  simp only [show decide (1 = 0) = false from rfl] at hhi
  obtain ⟨a, ha, hA⟩ := mono_threshold (fun x => G (B + x)) (2 ^ p) hlo
  obtain ⟨c, hc, hC⟩ := anti_threshold (fun x => G (B + 2 ^ p + x)) (2 ^ p) (by simpa using hhi)
  left
  refine ⟨a, 2 ^ p + c, fun x hx => ?_⟩
  by_cases hxl : x < 2 ^ p
  · rw [hA x hxl]; omega
  · obtain ⟨r, rfl⟩ : ∃ r, x = 2 ^ p + r := ⟨x - 2 ^ p, by omega⟩
    have := hC r (by omega)
    simp only [← Nat.add_assoc]
    rw [this]; omega

theorem div_block (p B x : Nat) (hB : 2 ^ p ∣ B) (hx : x < 2 ^ p) :
    (B + x) / 2 ^ p = B / 2 ^ p := by
  obtain ⟨c, rfl⟩ := hB
  rw [Nat.mul_add_div (by positivity), Nat.div_eq_of_lt hx, Nat.mul_div_cancel_left _ (by positivity)]
  rfl

theorem phase_step (p : Nat) (G : Nat → Bool) (hG : phase_sorted p G) :
    phase_sorted (p + 1) (merge_from (p + 1) (p + 1) G) := by
  intro B hB
  have hm : merged (decide (B / 2 ^ (p + 1) % 2 = 0)) G 0 (p + 1) B :=
    block_bitonic p G hG B hB
  have := merge_from_merged (p + 1) (decide (B / 2 ^ (p + 1) % 2 = 0)) (p + 1) 0 G B
    (by simpa using hB) (fun x hx => by
      rw [div_block (p + 1) B x hB (by simpa using hx)]
      simp) hm
  have h2 := merged_sorted _ _ _ B this
  simpa using h2

theorem phases_sorted01 (m : Nat) (g : Nat → Bool) : phase_sorted m (phases m g) := by
  induction m with
  | zero =>
    intro B _ x y hxy hy
    have hx0 : x = 0 := by simp at hy; omega
    have hy0 : y = 0 := by simp at hy; omega
    subst hx0; subst hy0
    exact ord_refl _ _
  | succ m ih => exact phase_step m _ ih

theorem xor_one_eq (a : Nat) : a ^^^ 1 = if a % 2 = 0 then a + 1 else a - 1 := by
  have h1 : (a ^^^ 1) / 2 = a / 2 := by rw [Nat.xor_div_two]; simp
  have h2 := @Nat.xor_mod_two_eq_one a 1
  split_ifs with h <;> omega

theorem xor_two_pow_decomp (q a r : Nat) (hr : r < 2 ^ q) :
    (2 ^ q * a + r) ^^^ 2 ^ q = 2 ^ q * (a ^^^ 1) + r := by
  apply Nat.eq_of_testBit_eq
  intro i
  rw [Nat.testBit_xor, Nat.testBit_mul_pow_two_add a hr, Nat.testBit_mul_pow_two_add _ hr,
    Nat.testBit_two_pow]
  by_cases hi : i < q
  · have : ¬ q = i := by omega
    simp [hi, this]
  · rw [if_neg hi, if_neg hi, Nat.testBit_xor]
    congr 1
    have : (1 : Nat) = 2 ^ 0 := rfl
    rw [this, Nat.testBit_two_pow]
    simp only [decide_eq_decide]
    omega

theorem xor_two_pow (k q : Nat) :
    k ^^^ 2 ^ q = if k / 2 ^ q % 2 = 0 then k + 2 ^ q else k - 2 ^ q := by
  have hpos : 0 < 2 ^ q := by positivity
  have hk := Nat.div_add_mod k (2 ^ q)
  have hr := Nat.mod_lt k hpos
  conv_lhs => rw [← hk]
  rw [xor_two_pow_decomp q _ _ hr, xor_one_eq]
  split_ifs with h
  · rw [Nat.mul_add, Nat.mul_one]
    generalize 2 ^ q * (k / 2 ^ q) = m at hk ⊢
    generalize k % 2 ^ q = r at hk hr ⊢
    omega
  · have h1 : 1 ≤ k / 2 ^ q := by
      generalize k / 2 ^ q = a at h
      omega
    obtain ⟨c, hc⟩ : ∃ c, k / 2 ^ q = c + 1 := ⟨k / 2 ^ q - 1, by omega⟩
    rw [hc] at hk ⊢
    rw [Nat.mul_add, Nat.mul_one] at hk
    simp only [Nat.add_sub_cancel]
    generalize 2 ^ q * c = m at hk ⊢
    generalize k % 2 ^ q = r at hk hr ⊢
    omega

theorem two_pow_and_eq_zero (p k : Nat) : 2 ^ p &&& k = 0 ↔ k / 2 ^ p % 2 = 0 := by
  constructor
  · intro h
    have h1 : (2 ^ p &&& k).testBit p = false := by rw [h]; simp
    rw [Nat.testBit_and, Nat.testBit_two_pow_self, Bool.true_and, Nat.testBit_to_div_mod] at h1
    have := of_decide_eq_false h1
    omega
  · intro h
    apply Nat.eq_of_testBit_eq
    intro i
    rw [Nat.testBit_and, Nat.testBit_two_pow, Nat.zero_testBit]
    by_cases hi : p = i
    · subst hi
      rw [Nat.testBit_to_div_mod]
      simp [h]
    · simp [hi]

/-! The 0-1 principle: a stage commutes with monotone maps. -/

theorem stage_map {α β : Type} [LinearOrder α] [LinearOrder β] (φ : α → β) (hφ : Monotone φ)
    (p q : Nat) (g : Nat → α) (x : Nat) :
    φ (stage p q g x) = stage p q (fun y => φ (g y)) x := by
  simp only [stage]
  split_ifs <;> first | exact hφ.map_min | exact hφ.map_max

theorem merge_from_map {α β : Type} [LinearOrder α] [LinearOrder β] (φ : α → β)
    (hφ : Monotone φ) (p q : Nat) :
    ∀ (g : Nat → α) (x : Nat),
      φ (merge_from p q g x) = merge_from p q (fun y => φ (g y)) x := by
  induction q with
  | zero => intro g x; rfl
  | succ q ih =>
    intro g x
    simp only [merge_from]
    rw [ih]
    congr 1
    funext y
    exact stage_map φ hφ p q g y

theorem phases_map {α β : Type} [LinearOrder α] [LinearOrder β] (φ : α → β)
    (hφ : Monotone φ) (m : Nat) :
    ∀ (g : Nat → α) (x : Nat), φ (phases m g x) = phases m (fun y => φ (g y)) x := by
  induction m with
  | zero => intro g x; rfl
  | succ m ih =>
    intro g x
    simp only [phases]
    rw [merge_from_map φ hφ]
    congr 1
    funext y
    exact ih g y

/-- The network of `m` phases sorts the first `2 ^ m` slots of any array of numbers. -/
theorem phases_sorted (m : Nat) (g : Nat → Nat) (x y : Nat) (hxy : x ≤ y) (hy : y < 2 ^ m) :
    phases m g x ≤ phases m g y := by
  by_contra hlt
  have hlt : phases m g y < phases m g x := Nat.lt_of_not_le hlt
  let φ : Nat → Bool := fun v => decide (phases m g x ≤ v)
  have hφ : Monotone φ := by
    intro a b hab
    simp only [φ]
    by_cases h : phases m g x ≤ a
    · have : phases m g x ≤ b := le_trans h hab
      simp [h, this]
    · simp [h]
  have hs := phases_sorted01 m (fun z => φ (g z)) 0 (dvd_zero _) x y hxy hy
  simp only [Nat.zero_div, Nat.zero_mod, decide_True, ord, if_true, Nat.zero_add] at hs
  rw [← phases_map φ hφ, ← phases_map φ hφ] at hs
  have h1 : φ (phases m g x) = true := by simp [φ]
  have h2 : φ (phases m g y) = false := by simp [φ]; omega
  rw [h1, h2] at hs
  exact absurd hs (by decide)

/-! Pairs of one stage. -/

theorem pow_le_of_div_odd (q x : Nat) (h : ¬ x / 2 ^ q % 2 = 0) : 2 ^ q ≤ x := by
  by_contra hlt
  rw [Nat.div_eq_of_lt (Nat.lt_of_not_le hlt)] at h
  exact h rfl

theorem div_add_pow (q x : Nat) : (x + 2 ^ q) / 2 ^ q = x / 2 ^ q + 1 :=
  Nat.add_div_right x (by positivity)

theorem div_sub_pow (q x : Nat) (h : 2 ^ q ≤ x) : (x - 2 ^ q) / 2 ^ q + 1 = x / 2 ^ q := by
  rw [← div_add_pow, Nat.sub_add_cancel h]

theorem pair_lo_le (q x : Nat) : pair_lo q x ≤ x := by
  unfold pair_lo
  split_ifs
  · exact le_refl _
  · exact Nat.sub_le _ _

theorem pair_lo_even (q x : Nat) : pair_lo q x / 2 ^ q % 2 = 0 := by
  unfold pair_lo
  split_ifs with h
  · exact h
  · have := div_sub_pow q x (pow_le_of_div_odd q x h)
    generalize (x - 2 ^ q) / 2 ^ q = a at this ⊢
    generalize x / 2 ^ q = b at this h
    omega

theorem pair_lo_cases (q x : Nat) : x = pair_lo q x ∨ x = pair_lo q x + 2 ^ q := by
  unfold pair_lo
  split_ifs with h
  · exact Or.inl rfl
  · have := pow_le_of_div_odd q x h
    right; omega

theorem pair_lo_self (q k : Nat) (h : k / 2 ^ q % 2 = 0) : pair_lo q k = k := by
  simp [pair_lo, h]

theorem pair_lo_add (q k : Nat) (h : k / 2 ^ q % 2 = 0) : pair_lo q (k + 2 ^ q) = k := by
  have : ¬ (k + 2 ^ q) / 2 ^ q % 2 = 0 := by
    rw [div_add_pow]
    generalize k / 2 ^ q = a at h ⊢
    omega
  unfold pair_lo
  rw [if_neg this]
  omega

theorem pair_lo_idem (q x : Nat) : pair_lo q (pair_lo q x) = pair_lo q x :=
  pair_lo_self q _ (pair_lo_even q x)

theorem pair_lo_hi (q x : Nat) : pair_lo q (pair_lo q x + 2 ^ q) = pair_lo q x :=
  pair_lo_add q _ (pair_lo_even q x)

theorem v_estage (v : element → Nat) (p q : Nat) (f : Nat → element) (x : Nat) :
    v (estage v p q f x) = stage p q (fun y => v (f y)) x := by
  have hpos : 0 < 2 ^ q := by positivity
  rcases pair_lo_cases q x with h | h
  · simp only [estage, stage, ← h, if_true]
    by_cases hd : x / 2 ^ p % 2 = 0
    · simp only [hd, true_and, not_true_eq_false, false_and, or_false, if_true, ne_eq]
      by_cases hc : v (f x) > v (f (x + 2 ^ q))
      · rw [if_pos hc, min_eq_right (le_of_lt hc)]
      · rw [if_neg hc, min_eq_left (by omega)]
    · simp only [hd, false_and, false_or, if_false, ne_eq, not_false_eq_true, true_and]
      by_cases hc : v (f x) < v (f (x + 2 ^ q))
      · rw [if_pos hc, max_eq_right (le_of_lt hc)]
      · rw [if_neg hc, max_eq_left (by omega)]
  · have hne : ¬ x = pair_lo q x := by omega
    simp only [estage, stage, if_neg hne]
    rw [← h]
    by_cases hd : pair_lo q x / 2 ^ p % 2 = 0
    · simp only [hd, true_and, not_true_eq_false, false_and, or_false, if_true, ne_eq]
      by_cases hc : v (f (pair_lo q x)) > v (f x)
      · rw [if_pos hc, max_eq_left (le_of_lt hc)]
      · rw [if_neg hc, max_eq_right (by omega)]
    · simp only [hd, false_and, false_or, if_false, ne_eq, not_false_eq_true, true_and]
      by_cases hc : v (f (pair_lo q x)) < v (f x)
      · rw [if_pos hc, min_eq_left (le_of_lt hc)]
      · rw [if_neg hc, min_eq_right (by omega)]

theorem v_emerge_from (v : element → Nat) (p q : Nat) :
    ∀ (f : Nat → element) (x : Nat),
      v (emerge_from v p q f x) = merge_from p q (fun y => v (f y)) x := by
  induction q with
  | zero => intro f x; rfl
  | succ q ih =>
    intro f x
    simp only [emerge_from, merge_from]
    rw [ih]
    congr 1
    funext y
    exact v_estage v p q f y

theorem v_ephases (v : element → Nat) (m : Nat) :
    ∀ (f : Nat → element) (x : Nat), v (ephases v m f x) = phases m (fun y => v (f y)) x := by
  induction m with
  | zero => intro f x; rfl
  | succ m ih =>
    intro f x
    simp only [ephases, phases]
    rw [v_emerge_from v]
    congr 1
    funext y
    exact ih f y

/-! ### The loops of `bitonic::permute` compute the network -/

theorem loop_inv {σ : Type} (Inv : Nat → σ → Prop) (body : Nat → σ → Except Fault σ) (n : Nat)
    (s : σ) (h0 : Inv 0 s)
    (hstep : ∀ k s, k < n → Inv k s → ∃ s1, body k s = .ok s1 ∧ Inv (k + 1) s1) :
    ∃ s1, loop n body s = .ok s1 ∧ Inv n s1 := by
  induction n with
  | zero => exact ⟨s, rfl, h0⟩
  | succ n ih =>
    obtain ⟨s1, h1, i1⟩ := ih (fun k s hk hi => hstep k s (by omega) hi)
    obtain ⟨s2, h2, i2⟩ := hstep n s1 (by omega) i1
    refine ⟨s2, ?_, i2⟩
    simp only [loop, h1]
    exact h2

theorem mask_small (k : Nat) (h : k < 2 ^ 31) : k &&& INT32_MAX = k := by
  have : INT32_MAX = 2 ^ 31 - 1 := by decide
  rw [this]
  exact Nat.and_pow_two_sub_one_of_lt_two_pow h

theorem cloud_get_holds (c : cloud) (arr n : Nat) (f : Nat → element) (k : Nat)
    (hc : c.holds arr n f) (hk : k < n) (hkey : (f k).key < 2 ^ 31) :
    ∃ c1, c.get arr k = .ok (f k, c1) ∧ c1.holds arr n f ∧
      c1.trace = c.trace ++ [access.get arr k] ∧
      cloud.num_IO c1 = (cloud.num_IO c + 1) % W32 := by
  obtain ⟨A, hA, hs⟩ := hc
  exact ⟨{ c with num_IO := (cloud.num_IO c + 1) % W32,
                  trace := c.trace ++ [access.get arr k] },
    by simp only [cloud.get, hA, hs k hk, mask_small _ hkey], ⟨A, hA, hs⟩, rfl, rfl⟩

theorem cloud_put_holds (c : cloud) (arr n : Nat) (f : Nat → element) (k : Nat) (e : element)
    (hc : c.holds arr n f) :
    ∃ c1, c.put arr k e = .ok c1 ∧ c1.holds arr n (fun x => if x = k then e else f x) ∧
      c1.trace = c.trace ++ [access.put arr k] ∧
      cloud.num_IO c1 = (cloud.num_IO c + 1) % W32 := by
  obtain ⟨A, hA, hs⟩ := hc
  refine ⟨{ c with
            num_IO := (cloud.num_IO c + 1) % W32,
            table := fun nm =>
              if nm = arr then
                some { A with slots := fun i => if i = k then some e else A.slots i }
              else c.table nm,
            trace := c.trace ++ [access.put arr k] }, by simp only [cloud.put, hA],
          ⟨{ A with slots := fun i => if i = k then some e else A.slots i }, by simp,
            fun x hx => ?_⟩, rfl, rfl⟩
  by_cases h : x = k
  · simp [h]
  · simp [h, hs x hx]

theorem eval_perm_place (p : permutation) (e : element) (h : e.key < p.perm.length) :
    p.eval_perm e.key = .ok (p.place e) := by
  simp [permutation.eval_perm, permutation.place, List.getElem?_eq_getElem h, List.getD,
    List.getElem?_eq_getElem h]
theorem holds_congr (c : cloud) (arr n : Nat) (f g : Nat → element)
    (h : ∀ x, x < n → f x = g x) (hc : c.holds arr n f) : c.holds arr n g := by
  obtain ⟨A, hA, hs⟩ := hc
  exact ⟨A, hA, fun x hx => by rw [← h x hx]; exact hs x hx⟩

theorem bitonic_body_run (b : bitonic) (arr p q k : Nat) (c : cloud) (g : Nat → element)
    (hn : b.size ≤ 2 ^ 31) (hlen : b.size ≤ b.pi.perm.length)
    (hc : c.holds arr b.size g) (hv : ∀ x, x < b.size → (g x).key < b.size)
    (hk : k < b.size) (hl : k / 2 ^ q % 2 = 0 → k + 2 ^ q < b.size) :
    ∃ c1, b.body arr (2 ^ p) (2 ^ q) k c = .ok c1 ∧
      c1.holds arr b.size (fun x =>
        if k / 2 ^ q % 2 = 0 then
          (if x = k + 2 ^ q then
            (if (k / 2 ^ p % 2 = 0 ∧ b.pi.place (g k) > b.pi.place (g (k + 2 ^ q))) ∨
                (k / 2 ^ p % 2 ≠ 0 ∧ b.pi.place (g k) < b.pi.place (g (k + 2 ^ q)))
             then g k else g (k + 2 ^ q))
          else if x = k then
            (if (k / 2 ^ p % 2 = 0 ∧ b.pi.place (g k) > b.pi.place (g (k + 2 ^ q))) ∨
                (k / 2 ^ p % 2 ≠ 0 ∧ b.pi.place (g k) < b.pi.place (g (k + 2 ^ q)))
             then g (k + 2 ^ q) else g k)
          else g x)
        else g x) := by
  have hpos : 0 < 2 ^ q := by positivity
  by_cases hbit : k / 2 ^ q % 2 = 0
  · have hl := hl hbit
    have hx : k ^^^ 2 ^ q = k + 2 ^ q := by rw [xor_two_pow, if_pos hbit]
    have hgt : k + 2 ^ q > k := by omega
    have hk1 : (g k).key < 2 ^ 31 := by have := hv k hk; omega
    have hk2 : (g (k + 2 ^ q)).key < 2 ^ 31 := by have := hv _ hl; omega
    obtain ⟨c1, g1, hc1, -, -⟩ := cloud_get_holds c arr b.size g k hc hk hk1
    obtain ⟨c2, g2, hc2, -, -⟩ := cloud_get_holds c1 arr b.size g (k + 2 ^ q) hc1 hl hk2
    have e1 := eval_perm_place b.pi (g k) (by have := hv k hk; omega)
    have e2 := eval_perm_place b.pi (g (k + 2 ^ q)) (by have := hv _ hl; omega)
    simp only [bitonic.body, hx, if_pos hgt, g1, g2, e1, e2, bind, Except.bind, if_pos hbit,
      two_pow_and_eq_zero, ne_eq]
    split_ifs with hsw
    · obtain ⟨c3, h3, hh3, -, -⟩ := cloud_put_holds c2 arr b.size g k (g (k + 2 ^ q)) hc2
      obtain ⟨c4, h4, hh4, -, -⟩ := cloud_put_holds c3 arr b.size _ (k + 2 ^ q) (g k) hh3
      rw [h3]
      exact ⟨c4, h4, hh4⟩
    · obtain ⟨c3, h3, hh3, -, -⟩ := cloud_put_holds c2 arr b.size g k (g k) hc2
      obtain ⟨c4, h4, hh4, -, -⟩ := cloud_put_holds c3 arr b.size _ (k + 2 ^ q) (g (k + 2 ^ q)) hh3
      rw [h3]
      exact ⟨c4, h4, hh4⟩
  · have hx : k ^^^ 2 ^ q = k - 2 ^ q := by rw [xor_two_pow, if_neg hbit]
    have hgt : ¬ (k - 2 ^ q > k) := by omega
    simp only [bitonic.body, hx, if_neg hgt, if_neg hbit]
    exact ⟨c, rfl, hc⟩
theorem pair_hi_lt (m q x : Nat) (hq : q < m) (hx : x < 2 ^ m) : pair_lo q x + 2 ^ q < 2 ^ m := by
  have hle := pair_lo_le q x
  have hev := pair_lo_even q x
  have hdm := Nat.div_add_mod (pair_lo q x) (2 ^ q)
  have hr := Nat.mod_lt (pair_lo q x) (show 0 < 2 ^ q by positivity)
  obtain ⟨e, he⟩ : ∃ e, m = q + 1 + e := ⟨m - q - 1, by omega⟩
  have hpow : 2 ^ m = 2 ^ q * (2 * 2 ^ e) := by rw [he, pow_add, pow_succ]; ring
  have ha : pair_lo q x / 2 ^ q < 2 * 2 ^ e := by
    rw [Nat.div_lt_iff_lt_mul (by positivity), Nat.mul_comm, ← hpow]
    omega
  generalize pair_lo q x / 2 ^ q = a at hev hdm ha
  generalize pair_lo q x % 2 ^ q = r at hdm hr
  have h2 : a + 2 ≤ 2 * 2 ^ e := by omega
  have h3 := Nat.mul_le_mul_left (2 ^ q) h2
  rw [← hpow, Nat.mul_add] at h3
  omega

theorem estage_choice (v : element → Nat) (p q : Nat) (f : Nat → element) (x : Nat) :
    estage v p q f x = f (pair_lo q x) ∨ estage v p q f x = f (pair_lo q x + 2 ^ q) := by
  simp only [estage]
  by_cases h1 : (pair_lo q x / 2 ^ p % 2 = 0 ∧
      v (f (pair_lo q x)) > v (f (pair_lo q x + 2 ^ q))) ∨
      (pair_lo q x / 2 ^ p % 2 ≠ 0 ∧ v (f (pair_lo q x)) < v (f (pair_lo q x + 2 ^ q)))
  · rw [if_pos h1]
    by_cases h2 : x = pair_lo q x
    · rw [if_pos h2]; exact Or.inr rfl
    · rw [if_neg h2]; exact Or.inl rfl
  · rw [if_neg h1]
    rcases pair_lo_cases q x with h | h
    · exact Or.inl (by rw [← h])
    · exact Or.inr (by rw [← h])

theorem bitonic_stage_run (b : bitonic) (arr p q m : Nat) (c : cloud) (f : Nat → element)
    (hsize : b.size = 2 ^ m) (hq : q < m) (hm : m ≤ 31) (hlen : b.size ≤ b.pi.perm.length)
    (hc : c.holds arr b.size f) (hv : ∀ x, x < b.size → (f x).key < b.size) :
    ∃ c1, loop b.size (fun k c => b.body arr (2 ^ p) (2 ^ q) k c) c = .ok c1 ∧
      c1.holds arr b.size (estage b.pi.place p q f) := by
  have hpos : 0 < 2 ^ q := by positivity
  have hn : b.size ≤ 2 ^ 31 := by
    rw [hsize]; exact Nat.pow_le_pow_right (by omega) hm
  obtain ⟨c1, h1, hinv⟩ := loop_inv
    (fun k c => c.holds arr b.size
      (fun x => if pair_lo q x < k then estage b.pi.place p q f x else f x))
    (fun k c => b.body arr (2 ^ p) (2 ^ q) k c) b.size c
    (holds_congr c arr b.size f _ (fun x _ => by simp) hc)
    (fun k s hk hs => by
      have hvg : ∀ x, x < b.size →
          ((fun x => if pair_lo q x < k then estage b.pi.place p q f x else f x) x).key
            < b.size := by
        intro x hx
        have hlo : pair_lo q x < b.size := lt_of_le_of_lt (pair_lo_le q x) hx
        have hhi : pair_lo q x + 2 ^ q < b.size := by
          rw [hsize] at hx ⊢; exact pair_hi_lt m q x hq hx
        simp only
        split_ifs
        · rcases estage_choice b.pi.place p q f x with h | h <;> rw [h]
          · exact hv _ hlo
          · exact hv _ hhi
        · exact hv x hx
      have hl : k / 2 ^ q % 2 = 0 → k + 2 ^ q < b.size := fun hb => by
        have := pair_hi_lt m q k hq (by rw [← hsize]; exact hk)
        rw [pair_lo_self q k hb, ← hsize] at this
        exact this
      obtain ⟨s1, hs1, hh⟩ := bitonic_body_run b arr p q k s _ hn hlen hs hvg hk hl
      refine ⟨s1, hs1, holds_congr s1 arr b.size _ _ (fun x _ => ?_) hh⟩
      by_cases hbit : k / 2 ^ q % 2 = 0
      · have hlk := pair_lo_self q k hbit
        have hlk2 := pair_lo_add q k hbit
        simp only [if_pos hbit, hlk, hlk2, lt_irrefl, if_false]
        by_cases hx1 : x = k + 2 ^ q
        · subst hx1
          have hne : ¬ (k + 2 ^ q = k) := by omega
          simp only [if_true, hlk2, Nat.lt_succ_self, estage, if_neg hne]
        · by_cases hx2 : x = k
          · subst hx2
            simp only [if_neg hx1, if_true, hlk, Nat.lt_succ_self, estage]
          · simp only [if_neg hx1, if_neg hx2]
            have hne : pair_lo q x ≠ k := by
              intro he
              rcases pair_lo_cases q x with h | h
              · exact hx2 (by rw [h, he])
              · exact hx1 (by rw [h, he])
            have : (pair_lo q x < k + 1) ↔ (pair_lo q x < k) := by omega
            simp only [this]
      · simp only [if_neg hbit]
        have hne : pair_lo q x ≠ k := by
          intro he
          exact hbit (by rw [← he]; exact pair_lo_even q x)
        have : (pair_lo q x < k + 1) ↔ (pair_lo q x < k) := by omega
        simp only [this])
  refine ⟨c1, h1, holds_congr c1 arr b.size _ _ (fun x hx => ?_) hinv⟩
  have := pair_lo_le q x
  show (if pair_lo q x < b.size then estage b.pi.place p q f x else f x) = _
  rw [if_pos (by omega)]
theorem estage_mem (v : element → Nat) (p q m : Nat) (f : Nat → element) (hq : q < m)
    (x : Nat) (hx : x < 2 ^ m) : ∃ y, y < 2 ^ m ∧ estage v p q f x = f y := by
  rcases estage_choice v p q f x with h | h
  · exact ⟨_, lt_of_le_of_lt (pair_lo_le q x) hx, h⟩
  · exact ⟨_, pair_hi_lt m q x hq hx, h⟩

theorem estage_surj (v : element → Nat) (p q m : Nat) (f : Nat → element) (hq : q < m)
    (x : Nat) (hx : x < 2 ^ m) : ∃ y, y < 2 ^ m ∧ estage v p q f y = f x := by
  have hpos : 0 < 2 ^ q := by positivity
  by_cases h1 : (pair_lo q x / 2 ^ p % 2 = 0 ∧
      v (f (pair_lo q x)) > v (f (pair_lo q x + 2 ^ q))) ∨
      (pair_lo q x / 2 ^ p % 2 ≠ 0 ∧ v (f (pair_lo q x)) < v (f (pair_lo q x + 2 ^ q)))
  · rcases pair_lo_cases q x with h | h
    · refine ⟨pair_lo q x + 2 ^ q, pair_hi_lt m q x hq hx, ?_⟩
      have hne : ¬ (pair_lo q x + 2 ^ q = pair_lo q x) := by omega
      simp only [estage, pair_lo_hi, if_pos h1, if_neg hne]
      rw [← h]
    · refine ⟨pair_lo q x, lt_of_le_of_lt (pair_lo_le q x) hx, ?_⟩
      simp only [estage, pair_lo_idem, if_pos h1, if_true]
      rw [← h]
  · exact ⟨x, hx, by simp only [estage, if_neg h1]⟩

theorem emerge_from_mem (v : element → Nat) (p m q : Nat) (hq : q ≤ m) :
    ∀ (f : Nat → element) (x : Nat), x < 2 ^ m → ∃ y, y < 2 ^ m ∧ emerge_from v p q f x = f y := by
  induction q with
  | zero => intro f x hx; exact ⟨x, hx, rfl⟩
  | succ q ih =>
    intro f x hx
    obtain ⟨y, hy, e1⟩ := ih (by omega) (estage v p q f) x hx
    obtain ⟨z, hz, e2⟩ := estage_mem v p q m f (by omega) y hy
    exact ⟨z, hz, by rw [emerge_from, e1, e2]⟩

theorem emerge_from_surj (v : element → Nat) (p m q : Nat) (hq : q ≤ m) :
    ∀ (f : Nat → element) (x : Nat), x < 2 ^ m → ∃ y, y < 2 ^ m ∧ emerge_from v p q f y = f x := by
  induction q with
  | zero => intro f x hx; exact ⟨x, hx, rfl⟩
  | succ q ih =>
    intro f x hx
    obtain ⟨y, hy, e1⟩ := estage_surj v p q m f (by omega) x hx
    obtain ⟨z, hz, e2⟩ := ih (by omega) (estage v p q f) y hy
    exact ⟨z, hz, by rw [emerge_from, e2, e1]⟩

theorem ephases_mem (v : element → Nat) (m p : Nat) (hp : p ≤ m) :
    ∀ (f : Nat → element) (x : Nat), x < 2 ^ m → ∃ y, y < 2 ^ m ∧ ephases v p f x = f y := by
  induction p with
  | zero => intro f x hx; exact ⟨x, hx, rfl⟩
  | succ p ih =>
    intro f x hx
    obtain ⟨y, hy, e1⟩ := emerge_from_mem v (p + 1) m (p + 1) hp (ephases v p f) x hx
    obtain ⟨z, hz, e2⟩ := ih (by omega) f y hy
    exact ⟨z, hz, by rw [ephases, e1, e2]⟩

theorem ephases_surj (v : element → Nat) (m p : Nat) (hp : p ≤ m) :
    ∀ (f : Nat → element) (x : Nat), x < 2 ^ m → ∃ y, y < 2 ^ m ∧ ephases v p f y = f x := by
  induction p with
  | zero => intro f x hx; exact ⟨x, hx, rfl⟩
  | succ p ih =>
    intro f x hx
    obtain ⟨y, hy, e1⟩ := ih (by omega) f x hx
    obtain ⟨z, hz, e2⟩ := emerge_from_surj v (p + 1) m (p + 1) hp (ephases v p f) y hy
    exact ⟨z, hz, by rw [ephases, e2, e1]⟩

theorem bitonic_j_loop_run (b : bitonic) (arr p m : Nat) (hsize : b.size = 2 ^ m) (hm : m ≤ 31)
    (hlen : b.size ≤ b.pi.perm.length) (q : Nat) :
    ∀ (fuel : Nat) (c : cloud) (f : Nat → element), q < m → q + 2 ≤ fuel →
      c.holds arr b.size f → (∀ x, x < b.size → (f x).key < b.size) →
      ∃ c1, b.j_loop arr (2 ^ p) fuel (2 ^ q) c = .ok c1 ∧
        c1.holds arr b.size (emerge_from b.pi.place p (q + 1) f) := by
  induction q with
  | zero =>
    intro fuel c f hq hfuel hc hv
    obtain ⟨F, rfl⟩ : ∃ F, fuel = F + 2 := ⟨fuel - 2, by omega⟩
    obtain ⟨c1, h1, hh⟩ := bitonic_stage_run b arr p 0 m c f hsize hq hm hlen hc hv
    refine ⟨c1, ?_, hh⟩
    simp only [bitonic.j_loop, pow_zero, Nat.lt_irrefl, gt_iff_lt, Nat.zero_lt_one, if_true,
      bind, Except.bind]
    simp only [pow_zero] at h1
    rw [h1]
    simp [bitonic.j_loop]
    rfl
  | succ q ih =>
    intro fuel c f hq hfuel hc hv
    obtain ⟨F, rfl⟩ : ∃ F, fuel = F + 1 := ⟨fuel - 1, by omega⟩
    obtain ⟨c1, h1, hh⟩ := bitonic_stage_run b arr p (q + 1) m c f hsize hq hm hlen hc hv
    have hv1 : ∀ x, x < b.size → (estage b.pi.place p (q + 1) f x).key < b.size := by
      intro x hx
      rw [hsize] at hx
      obtain ⟨y, hy, e⟩ := estage_mem b.pi.place p (q + 1) m f hq x hx
      rw [e]
      exact hv y (by rw [hsize]; exact hy)
    obtain ⟨c2, h2, hh2⟩ := ih F c1 _ (by omega) (by omega) hh hv1
    refine ⟨c2, ?_, hh2⟩
    have hpos : 2 ^ (q + 1) > 0 := by positivity
    have hhalf : 2 ^ (q + 1) / 2 = 2 ^ q := by rw [pow_succ]; omega
    simp only [bitonic.j_loop, if_pos hpos, bind, Except.bind, h1, hhalf]
    exact h2
theorem bitonic_i_loop_run (b : bitonic) (arr m : Nat) (hsize : b.size = 2 ^ m) (hm : m ≤ 30)
    (hlen : b.size ≤ b.pi.perm.length) (f0 : Nat → element)
    (hv : ∀ x, x < b.size → (f0 x).key < b.size) (d : Nat) :
    ∀ (p fuel : Nat) (c : cloud), p + d = m → 2 * m + 1 ≤ fuel + p →
      c.holds arr b.size (ephases b.pi.place p f0) →
      ∃ c1, b.i_loop arr fuel (2 ^ (p + 1)) c = .ok c1 ∧
        c1.holds arr b.size (ephases b.pi.place m f0) := by
  induction d with
  | zero =>
    intro p fuel c hp hfuel hc
    have hpm : p = m := by omega
    subst hpm
    obtain ⟨F, rfl⟩ : ∃ F, fuel = F + 1 := ⟨fuel - 1, by omega⟩
    have hgt : ¬ (2 ^ (p + 1) ≤ b.size) := by
      rw [hsize, pow_succ]
      have : 0 < 2 ^ p := by positivity
      omega
    exact ⟨c, by simp only [bitonic.i_loop, if_neg hgt]; rfl, hc⟩
  | succ d ih =>
    intro p fuel c hp hfuel hc
    obtain ⟨F, rfl⟩ : ∃ F, fuel = F + 1 := ⟨fuel - 1, by omega⟩
    have hle : 2 ^ (p + 1) ≤ b.size := by
      rw [hsize]; exact Nat.pow_le_pow_right (by omega) (by omega)
    have hhalf : 2 ^ (p + 1) / 2 = 2 ^ p := by rw [pow_succ]; omega
    have hvp : ∀ x, x < b.size → (ephases b.pi.place p f0 x).key < b.size := by
      intro x hx
      rw [hsize] at hx
      obtain ⟨y, hy, e⟩ := ephases_mem b.pi.place m p (by omega) f0 x hx
      rw [e]
      exact hv y (by rw [hsize]; exact hy)
    obtain ⟨c1, h1, hh1⟩ := bitonic_j_loop_run b arr (p + 1) m hsize (by omega) hlen p (F + 1) c
      _ (by omega) (by omega) hc hvp
    obtain ⟨c2, h2, hh2⟩ := ih (p + 1) F c1 (by omega) (by omega) hh1
    refine ⟨c2, ?_, hh2⟩
    have hdbl : 2 ^ (p + 1) * 2 % W32 = 2 ^ (p + 1 + 1) := by
      rw [← pow_succ]
      apply Nat.mod_eq_of_lt
      have : 2 ^ (p + 1 + 1) ≤ 2 ^ 31 := Nat.pow_le_pow_right (by omega) (by omega)
      simp only [W32]
      omega
    simp only [bitonic.i_loop, if_pos hle, bind, Except.bind, hhalf, h1, hdbl]
    exact h2

theorem bitonic_permute_run (b : bitonic) (arr m : Nat) (hsize : b.size = 2 ^ m) (hm : m ≤ 30)
    (hlen : b.size ≤ b.pi.perm.length) (f : Nat → element)
    (hv : ∀ x, x < b.size → (f x).key < b.size) (fuel : Nat) (hfuel : 2 * m + 1 ≤ fuel)
    (c : cloud) (hc : c.holds arr b.size f) :
    ∃ c1, b.permute fuel arr c = .ok (arr, c1) ∧
      c1.holds arr b.size (ephases b.pi.place m f) := by
  obtain ⟨c1, h1, hh⟩ := bitonic_i_loop_run b arr m hsize hm hlen f hv m 0 fuel c (by omega)
    (by omega) hc
  refine ⟨c1, ?_, hh⟩
  simp only [Nat.zero_add, pow_one] at h1
  simp only [bitonic.permute, h1, bind, Except.bind]
  rfl

theorem sorted_onto_id (n : Nat) (w : Nat → Nat)
    (hmono : ∀ x y, x ≤ y → y < n → w x ≤ w y)
    (honto : ∀ t, t < n → ∃ y, y < n ∧ w y = t) :
    ∀ y, y < n → w y = y := by
  have hsub : List.range n ⊆ (List.range n).map w := by
    intro t ht
    obtain ⟨y, hy, e⟩ := honto t (List.mem_range.mp ht)
    exact List.mem_map.mpr ⟨y, List.mem_range.mpr hy, e⟩
  have hperm : (List.range n).Perm ((List.range n).map w) :=
    (List.subperm_of_subset (List.nodup_range n) hsub).perm_of_length_le (by simp)
  have hs1 : ((List.range n).map w).Sorted (· ≤ ·) := by
    rw [List.Sorted, List.pairwise_map, List.pairwise_iff_getElem]
    intro i j hi hj hij
    simp only [List.getElem_range]
    simp only [List.length_range] at hi hj
    exact hmono i j (by omega) hj
  have hs2 : (List.range n).Sorted (· ≤ ·) := by
    rw [List.Sorted, List.pairwise_iff_getElem]
    intro i j hi hj hij
    simp only [List.getElem_range]
    omega
  have heq := List.eq_of_perm_of_sorted hperm hs2 hs1
  intro y hy
  have := congrArg (fun l => l[y]?) heq
  simp only [List.getElem?_range hy, List.getElem?_map, Option.map_some'] at this
  exact (Option.some.inj this).symm
theorem driver_holds (n : Nat) : (cloud.driver n).holds 0 n (fun x => { key := x, aux := 0 }) :=
  ⟨{ length := n, slots := fun i => if i < n then some { key := i, aux := 0 } else none },
    by simp [cloud.driver], fun x hx => by simp [hx]⟩

/-- The slot view alone, with no bound on the byte offset of a slot.  For `size = 2 ^ m` (with `m ≤ 30`, so that keys pass `get` unmasked and `i *= 2`
does not wrap), an oracle whose table is a permutation of `[0, size)`, and an array
whose first `size` slots hold elements with distinct keys in `[0, size)`:
`bitonic::permute` returns (any fuel from `2 m + 1` on), it returns the name it was
given, and afterwards every input element is at the index `pi` gives its key, and
every slot `t < size` holds an element whose key `pi` sends to `t`. -/
theorem bitonic_sorts_slots (m : Nat) (hm : m ≤ 30) (b : bitonic) (hsize : b.size = 2 ^ m)
    (hpi : b.pi.perm.Perm (List.range (2 ^ m)))
    (arr : Nat) (c : cloud) (f : Nat → element) (hc : c.holds arr (2 ^ m) f)
    (hrange : ∀ x, x < 2 ^ m → (f x).key < 2 ^ m)
    (hdist : ∀ x y, x < 2 ^ m → y < 2 ^ m → (f x).key = (f y).key → x = y)
    (fuel : Nat) (hfuel : 2 * m + 1 ≤ fuel) :
    ∃ c1, b.permute fuel arr c = .ok (arr, c1) ∧
      (∀ x, x < 2 ^ m → ∃ t, b.pi.eval_perm (f x).key = .ok t ∧ t < 2 ^ m ∧
        c1.peek arr t = some (f x)) ∧
      (∀ t, t < 2 ^ m → ∃ e, c1.peek arr t = some e ∧ b.pi.eval_perm e.key = .ok t) := by
  have hlen : b.pi.perm.length = 2 ^ m := by rw [hpi.length_eq, List.length_range]
  rw [← hsize] at hc hrange
  obtain ⟨c1, hrun, A, hA, hslots⟩ := bitonic_permute_run b arr m hsize hm (by omega) f hrange
    fuel hfuel c hc
  rw [hsize] at hrange hslots
  -- the keys of the input are exactly `0, ..., 2 ^ m - 1`
  have hkeys : ((List.range (2 ^ m)).map (fun x => (f x).key)).Perm (List.range (2 ^ m)) := by
    apply (List.subperm_of_subset _ _).perm_of_length_le (by simp)
    · exact List.Nodup.map_on
        (fun x hx y hy h => hdist x y (List.mem_range.mp hx) (List.mem_range.mp hy) h)
        (List.nodup_range _)
    · intro k hk
      obtain ⟨x, hx, rfl⟩ := List.mem_map.mp hk
      exact List.mem_range.mpr (hrange x (List.mem_range.mp hx))
  have hplace : ∀ e : element, e.key < 2 ^ m →
      b.pi.eval_perm e.key = .ok (b.pi.place e) := fun e he =>
    eval_perm_place b.pi e (by omega)
  -- every place below `2 ^ m` is the place of some input element
  have honto : ∀ t, t < 2 ^ m → ∃ y, y < 2 ^ m ∧ b.pi.place (ephases b.pi.place m f y) = t := by
    intro t ht
    have ht1 : t ∈ b.pi.perm := hpi.mem_iff.mpr (List.mem_range.mpr ht)
    obtain ⟨k, hk, hkt⟩ := List.getElem_of_mem ht1
    have hk1 : k ∈ (List.range (2 ^ m)).map (fun x => (f x).key) :=
      hkeys.mem_iff.mpr (List.mem_range.mpr (by omega))
    obtain ⟨x, hx, hxk⟩ := List.mem_map.mp hk1
    obtain ⟨y, hy, e⟩ := ephases_surj b.pi.place m m (le_refl _) f x (List.mem_range.mp hx)
    refine ⟨y, hy, ?_⟩
    rw [e]
    simp only [permutation.place]
    rw [hxk, List.getD_eq_getElem?_getD, List.getElem?_eq_getElem hk, hkt]
    rfl
  have hid := sorted_onto_id (2 ^ m) (fun y => b.pi.place (ephases b.pi.place m f y))
    (fun x y hxy hy => by
      simp only [v_ephases]
      exact phases_sorted m _ x y hxy hy) honto
  have hpeek : ∀ t, t < 2 ^ m → c1.peek arr t = some (ephases b.pi.place m f t) := fun t ht => by
    simp only [cloud.peek, hA, hslots t ht]
  refine ⟨c1, hrun, fun x hx => ?_, fun t ht => ?_⟩
  · obtain ⟨y, hy, e⟩ := ephases_surj b.pi.place m m (le_refl _) f x hx
    have h1 := hid y hy
    simp only [e] at h1
    refine ⟨b.pi.place (f x), hplace _ (hrange x hx), by omega, ?_⟩
    rw [h1, hpeek y hy, e]
  · obtain ⟨x, hx, e⟩ := ephases_mem b.pi.place m m (le_refl _) f t ht
    refine ⟨_, hpeek t ht, ?_⟩
    rw [e, hplace _ (hrange x hx), ← e]
    exact congrArg _ (hid t ht)

/-! ### The access trace of `bitonic::permute` -/

theorem cloud_get_trace (c c1 : cloud) (name index : Nat) (e : element)
    (h : c.get name index = .ok (e, c1)) : c1.trace = c.trace ++ [access.get name index] := by
  unfold cloud.get at h
  split at h
  · exact absurd h (by simp)
  · split at h
    · exact absurd h (by simp)
    · simp only [Except.ok.injEq, Prod.mk.injEq] at h
      rw [← h.2]

theorem cloud_put_trace (c c1 : cloud) (name index : Nat) (e : element)
    (h : c.put name index e = .ok c1) : c1.trace = c.trace ++ [access.put name index] := by
  unfold cloud.put at h
  split at h
  · exact absurd h (by simp)
  · simp only [Except.ok.injEq] at h
    rw [← h]

theorem bitonic_body_trace (b : bitonic) (arr i j k : Nat) (c c1 : cloud)
    (h : b.body arr i j k c = .ok c1) : c1.trace = c.trace ++ bitonic.body_trace arr j k := by
  unfold bitonic.body at h
  unfold bitonic.body_trace
  by_cases hgt : k ^^^ j > k
  · simp only [if_pos hgt] at h ⊢
    simp only [bind, Except.bind] at h
    cases h1 : c.get arr k with
    | error e => rw [h1] at h; exact absurd h (by simp)
    | ok r1 =>
      obtain ⟨ek, ca⟩ := r1
      rw [h1] at h
      simp only at h
      cases h2 : ca.get arr (k ^^^ j) with
      | error e => rw [h2] at h; exact absurd h (by simp)
      | ok r2 =>
        obtain ⟨el, cb⟩ := r2
        rw [h2] at h
        simp only at h
        cases h3 : b.pi.eval_perm ek.key with
        | error e => rw [h3] at h; exact absurd h (by simp)
        | ok randk =>
          rw [h3] at h
          simp only at h
          cases h4 : b.pi.eval_perm el.key with
          | error e => rw [h4] at h; exact absurd h (by simp)
          | ok randl =>
            rw [h4] at h
            simp only at h
            have t1 := cloud_get_trace _ _ _ _ _ h1
            have t2 := cloud_get_trace _ _ _ _ _ h2
            split at h
            · cases h5 : cb.put arr k el with
              | error e => rw [h5] at h; exact absurd h (by simp)
              | ok cc =>
                rw [h5] at h
                simp only at h
                have t3 := cloud_put_trace _ _ _ _ _ h5
                have t4 := cloud_put_trace _ _ _ _ _ h
                rw [t4, t3, t2, t1]
                simp
            · cases h5 : cb.put arr k ek with
              | error e => rw [h5] at h; exact absurd h (by simp)
              | ok cc =>
                rw [h5] at h
                simp only at h
                have t3 := cloud_put_trace _ _ _ _ _ h5
                have t4 := cloud_put_trace _ _ _ _ _ h
                rw [t4, t3, t2, t1]
                simp
  · simp only [if_neg hgt] at h ⊢
    simp only [pure, Except.pure, Except.ok.injEq] at h
    rw [← h]
    simp
theorem loop_trace (T : Nat → List access) (body : Nat → cloud → Except Fault cloud)
    (hbody : ∀ k c c1, body k c = .ok c1 → c1.trace = c.trace ++ T k) (n : Nat) :
    ∀ c c1, loop n body c = .ok c1 → c1.trace = c.trace ++ ((List.range n).map T).flatten := by
  induction n with
  | zero =>
    intro c c1 h
    simp only [loop, Except.ok.injEq] at h
    simp [h]
  | succ n ih =>
    intro c c1 h
    simp only [loop, bind, Except.bind] at h
    cases h1 : loop n body c with
    | error e => rw [h1] at h; exact absurd h (by simp)
    | ok c2 =>
      rw [h1] at h
      simp only at h
      rw [hbody n c2 c1 h, ih c c2 h1, List.range_succ]
      simp

theorem bitonic_j_loop_rel (b1 b2 : bitonic) (hs : b1.size = b2.size) (arr i : Nat)
    (fuel1 : Nat) :
    ∀ (fuel2 j : Nat) (c1 c2 d1 d2 : cloud),
      b1.j_loop arr i fuel1 j c1 = .ok d1 → b2.j_loop arr i fuel2 j c2 = .ok d2 →
      ∃ t, d1.trace = c1.trace ++ t ∧ d2.trace = c2.trace ++ t := by
  induction fuel1 with
  | zero => intro fuel2 j c1 c2 d1 d2 h1; exact absurd h1 (by simp [bitonic.j_loop])
  | succ fuel1 ih =>
    intro fuel2 j c1 c2 d1 d2 h1 h2
    cases fuel2 with
    | zero => exact absurd h2 (by simp [bitonic.j_loop])
    | succ fuel2 =>
      simp only [bitonic.j_loop] at h1 h2
      by_cases hj : j > 0
      · simp only [if_pos hj, bind, Except.bind] at h1 h2
        cases k1 : loop b1.size (fun k c => b1.body arr i j k c) c1 with
        | error e => rw [k1] at h1; exact absurd h1 (by simp)
        | ok e1 =>
          cases k2 : loop b2.size (fun k c => b2.body arr i j k c) c2 with
          | error e => rw [k2] at h2; exact absurd h2 (by simp)
          | ok e2 =>
            rw [k1] at h1
            rw [k2] at h2
            simp only at h1 h2
            have t1 := loop_trace (bitonic.body_trace arr j) _
              (fun k c c1 h => bitonic_body_trace b1 arr i j k c c1 h) _ _ _ k1
            have t2 := loop_trace (bitonic.body_trace arr j) _
              (fun k c c1 h => bitonic_body_trace b2 arr i j k c c1 h) _ _ _ k2
            obtain ⟨t, r1, r2⟩ := ih fuel2 (j / 2) e1 e2 d1 d2 h1 h2
            refine ⟨((List.range b1.size).map (bitonic.body_trace arr j)).flatten ++ t, ?_, ?_⟩
            · rw [r1, t1, List.append_assoc]
            · rw [r2, t2, hs, List.append_assoc]
      · simp only [if_neg hj, pure, Except.pure, Except.ok.injEq] at h1 h2
        exact ⟨[], by simp [h1], by simp [h2]⟩

theorem bitonic_i_loop_rel (b1 b2 : bitonic) (hs : b1.size = b2.size) (arr : Nat)
    (fuel1 : Nat) :
    ∀ (fuel2 i : Nat) (c1 c2 d1 d2 : cloud),
      b1.i_loop arr fuel1 i c1 = .ok d1 → b2.i_loop arr fuel2 i c2 = .ok d2 →
      ∃ t, d1.trace = c1.trace ++ t ∧ d2.trace = c2.trace ++ t := by
  induction fuel1 with
  | zero => intro fuel2 i c1 c2 d1 d2 h1; exact absurd h1 (by simp [bitonic.i_loop])
  | succ fuel1 ih =>
    intro fuel2 i c1 c2 d1 d2 h1 h2
    cases fuel2 with
    | zero => exact absurd h2 (by simp [bitonic.i_loop])
    | succ fuel2 =>
      simp only [bitonic.i_loop] at h1 h2
      by_cases hi : i ≤ b1.size
      · have hi2 : i ≤ b2.size := by omega
        simp only [if_pos hi, if_pos hi2, bind, Except.bind] at h1 h2
        cases k1 : b1.j_loop arr i (fuel1 + 1) (i / 2) c1 with
        | error e => rw [k1] at h1; exact absurd h1 (by simp)
        | ok e1 =>
          cases k2 : b2.j_loop arr i (fuel2 + 1) (i / 2) c2 with
          | error e => rw [k2] at h2; exact absurd h2 (by simp)
          | ok e2 =>
            rw [k1] at h1
            rw [k2] at h2
            simp only at h1 h2
            obtain ⟨t, r1, r2⟩ := bitonic_j_loop_rel b1 b2 hs arr i _ _ _ _ _ _ _ k1 k2
            obtain ⟨u, s1, s2⟩ := ih fuel2 _ e1 e2 d1 d2 h1 h2
            exact ⟨t ++ u, by rw [s1, r1, List.append_assoc], by rw [s2, r2, List.append_assoc]⟩
      · have hi2 : ¬ i ≤ b2.size := by omega
        simp only [if_neg hi, if_neg hi2, pure, Except.pure, Except.ok.injEq] at h1 h2
        exact ⟨[], by simp [h1], by simp [h2]⟩

/-- Any two runs of `bitonic::permute` on arrays of the same size and name that both
return have issued the same storage operations, whatever the oracles and the stored
elements are. -/
theorem bitonic_permute_rel (b1 b2 : bitonic) (hs : b1.size = b2.size) (arr : Nat)
    (fuel1 fuel2 : Nat) (c1 c2 d1 d2 : cloud) (o1 o2 : Nat)
    (h1 : b1.permute fuel1 arr c1 = .ok (o1, d1))
    (h2 : b2.permute fuel2 arr c2 = .ok (o2, d2)) :
    ∃ t, d1.trace = c1.trace ++ t ∧ d2.trace = c2.trace ++ t := by
  simp only [bitonic.permute, bind, Except.bind] at h1 h2
  cases k1 : b1.i_loop arr fuel1 2 c1 with
  | error e => rw [k1] at h1; exact absurd h1 (by simp)
  | ok e1 =>
    cases k2 : b2.i_loop arr fuel2 2 c2 with
    | error e => rw [k2] at h2; exact absurd h2 (by simp)
    | ok e2 =>
      rw [k1] at h1
      rw [k2] at h2
      simp only [pure, Except.pure, Except.ok.injEq, Prod.mk.injEq] at h1 h2
      rw [← h1.2, ← h2.2]
      exact bitonic_i_loop_rel b1 b2 hs arr _ _ _ _ _ _ _ k1 k2

/-- The slot view alone, with no bound on the byte offset of a slot.  For `size = 2 ^ m` (`m ≤ 30`) and an array name there is one sequence `t` of
storage operations such that every run of `bitonic::permute` on an array whose first
`size` slots hold elements with keys below `size`, with any oracle table of at least
`size` entries, returns and has appended exactly `t` to the trace: the operations
depend neither on the permutation nor on the stored elements. -/
theorem bitonic_trace_slots (m : Nat) (hm : m ≤ 30) (arr : Nat) :
    ∃ t : List access, ∀ (b : bitonic) (c : cloud) (f : Nat → element) (fuel : Nat),
      b.size = 2 ^ m → 2 ^ m ≤ b.pi.perm.length → c.holds arr (2 ^ m) f →
      (∀ x, x < 2 ^ m → (f x).key < 2 ^ m) → 2 * m + 1 ≤ fuel →
      ∃ c1, b.permute fuel arr c = .ok (arr, c1) ∧ c1.trace = c.trace ++ t := by
  have hpos : 0 < 2 ^ m := by positivity
  obtain ⟨d0, run0, -⟩ := bitonic_permute_run
    { pi := { size := 2 ^ m, perm := List.range (2 ^ m), inv_perm := [] }, size := 2 ^ m }
    arr m rfl hm (by simp) (fun _ => { key := 0, aux := 0 }) (fun _ _ => hpos)
    (2 * m + 1) (le_refl _)
    { num_IO := 0
      table := fun _ => some { length := 2 ^ m, slots := fun _ => some { key := 0, aux := 0 } }
      trace := [] }
    ⟨_, rfl, fun _ _ => rfl⟩
  refine ⟨d0.trace, fun b c f fuel hsize hlen hc hv hfuel => ?_⟩
  rw [← hsize] at hc hv hlen
  obtain ⟨c1, run1, -⟩ := bitonic_permute_run b arr m hsize hm hlen f hv fuel hfuel c hc
  refine ⟨c1, run1, ?_⟩
  obtain ⟨t, r1, r2⟩ := bitonic_permute_rel b _ hsize arr _ _ _ _ _ _ _ _ run1 run0
  simp only [List.nil_append] at r2
  rw [r1, r2]

/-! ### Bucket permutation: the rearrange pass -/

theorem succ_name_ne (arr : Nat) : (arr + 1) % W32 ≠ arr := by
  simp only [W32]
  omega

theorem place_inj (p : permutation) (hnd : p.perm.Nodup) (e1 e2 : element)
    (h1 : e1.key < p.perm.length) (h2 : e2.key < p.perm.length)
    (h : p.place e1 = p.place e2) : e1.key = e2.key := by
  simp only [permutation.place, List.getD_eq_getElem?_getD, List.getElem?_eq_getElem h1,
    List.getElem?_eq_getElem h2, Option.getD_some] at h
  exact (List.Nodup.getElem_inj_iff hnd).mp h

theorem place_lt (p : permutation) (n : Nat) (hpi : p.perm.Perm (List.range n)) (e : element)
    (h : e.key < n) : p.place e < n := by
  have hlen : p.perm.length = n := by rw [hpi.length_eq, List.length_range]
  have h1 : e.key < p.perm.length := by omega
  simp only [permutation.place, List.getD_eq_getElem?_getD, List.getElem?_eq_getElem h1,
    Option.getD_some]
  exact List.mem_range.mp (hpi.mem_iff.mp (List.getElem_mem _))

/-- The slot view alone, with no bound on the byte offset of a slot.  For an array `arr` whose first `size` slots hold elements with distinct keys
in `[0, size)` (`size ≤ 2 ^ 31`) and an oracle whose table is a permutation of
`[0, size)`: `bucket::rearrange` returns the name `arr + 1` (modulo `2 ^ 32`); that
array has declared length `size` and holds every input element `e` at index
`pi(e.key)`; `arr` is deleted; the operations issued are, for `i = 0, 1, ...`, a read
of `arr[i]` followed by a write to `(arr + 1)[pi(key_i)]`; and the indices written
are a permutation of `[0, size)`, so every slot is written exactly once. -/
theorem rearrange_slots (bk : bucket) (arr : Nat) (c : cloud) (f : Nat → element)
    (hpi : bk.pi.perm.Perm (List.range bk.size)) (hn : bk.size ≤ 2 ^ 31)
    (hc : c.holds arr bk.size f)
    (hrange : ∀ x, x < bk.size → (f x).key < bk.size)
    (hdist : ∀ x y, x < bk.size → y < bk.size → (f x).key = (f y).key → x = y) :
    ∃ c1 A, bk.rearrange arr c = .ok ((arr + 1) % W32, c1) ∧
      c1.table ((arr + 1) % W32) = some A ∧ A.length = bk.size ∧
      (∀ x, x < bk.size → ∃ t, bk.pi.eval_perm (f x).key = .ok t ∧ t < bk.size ∧
        A.slots t = some (f x)) ∧
      c1.table arr = none ∧
      c1.trace = c.trace ++ ((List.range bk.size).map (fun i =>
        [access.get arr i, access.put ((arr + 1) % W32) (bk.pi.place (f i))])).flatten ∧
      ((List.range bk.size).map (fun i => bk.pi.place (f i))).Perm (List.range bk.size) := by
  have hlen : bk.pi.perm.length = bk.size := by rw [hpi.length_eq, List.length_range]
  have hnd : bk.pi.perm.Nodup := hpi.nodup_iff.mpr (List.nodup_range _)
  have hne := succ_name_ne arr
  have hinj : ∀ x y, x < bk.size → y < bk.size → bk.pi.place (f x) = bk.pi.place (f y) →
      x = y := fun x y hx hy h =>
    hdist x y hx hy (place_inj bk.pi hnd _ _ (by have := hrange x hx; omega)
      (by have := hrange y hy; omega) h)
  obtain ⟨A0, hA0, hs0⟩ := hc
  obtain ⟨c1, hloop, hh, ⟨A, hA, hAl, hAs⟩, htr⟩ := loop_inv
    (fun i (s : cloud) => s.holds arr bk.size f ∧
      (∃ A, s.table ((arr + 1) % W32) = some A ∧ A.length = bk.size ∧
        ∀ x, x < i → A.slots (bk.pi.place (f x)) = some (f x)) ∧
      s.trace = c.trace ++ ((List.range i).map (fun i =>
        [access.get arr i, access.put ((arr + 1) % W32) (bk.pi.place (f i))])).flatten)
    (bk.rearrange_body arr) bk.size (c.create_array ((arr + 1) % W32) bk.size)
    ⟨⟨A0, by simp [cloud.create_array, hA0, Ne.symm hne], hs0⟩,
      ⟨{ length := bk.size, slots := fun _ => none }, by simp [cloud.create_array], rfl,
        fun x hx => absurd hx (by omega)⟩,
      by simp [cloud.create_array]⟩
    (fun i s hi ⟨hs, ⟨A, hA, hAl, hAs⟩, htr⟩ => by
      obtain ⟨s1, g1, hs1, t1, -⟩ := cloud_get_holds s arr bk.size f i hs hi
        (by have := hrange i hi; omega)
      have e1 := eval_perm_place bk.pi (f i) (by have := hrange i hi; omega)
      have hA1 : s1.table ((arr + 1) % W32) = some A := by
        simp only [cloud.get] at g1
        obtain ⟨B, hB, hBs⟩ := hs
        simp only [hB, hBs i hi, Except.ok.injEq, Prod.mk.injEq] at g1
        rw [← g1.2]
        exact hA
      refine ⟨{ s1 with
          num_IO := (cloud.num_IO s1 + 1) % W32,
          table := fun nm =>
            if nm = (arr + 1) % W32 then
              some { A with slots := fun t =>
                if t = bk.pi.place (f i) then some (f i) else A.slots t }
            else s1.table nm,
          trace := s1.trace ++ [access.put ((arr + 1) % W32) (bk.pi.place (f i))] }, ?_, ?_, ?_, ?_⟩
      · simp only [bucket.rearrange_body, g1, e1, bind, Except.bind, cloud.put, hA1]
      · obtain ⟨B, hB, hBs⟩ := hs1
        exact ⟨B, by simp [Ne.symm hne, hB], hBs⟩
      · refine ⟨{ A with slots := fun t =>
            if t = bk.pi.place (f i) then some (f i) else A.slots t }, by simp, hAl,
          fun x hx => ?_⟩
        by_cases hxi : x = i
        · subst hxi; simp
        · have : bk.pi.place (f x) ≠ bk.pi.place (f i) := fun h =>
            hxi (hinj x i (by omega) hi h)
          simp only [this, if_false]
          exact hAs x (by omega)
      · simp only [t1, htr, List.range_succ, List.map_append, List.flatten_append,
          List.map_cons, List.map_nil, List.flatten_cons, List.flatten_nil, List.append_nil,
          List.append_assoc, List.cons_append, List.nil_append])
  obtain ⟨B, hB, hBs⟩ := hh
  refine ⟨{ c1 with table := fun nm => if nm = arr then none else c1.table nm }, A, ?_, ?_, hAl,
    ?_, ?_, htr, ?_⟩
  · simp only [bucket.rearrange, bind, Except.bind, hloop, cloud.delete_array, hB]
    rfl
  · simp [hne, hA]
  · intro x hx
    exact ⟨_, eval_perm_place bk.pi (f x) (by have := hrange x hx; omega),
      place_lt bk.pi bk.size hpi _ (hrange x hx), hAs x hx⟩
  · simp
  · apply (List.subperm_of_subset _ _).perm_of_length_le (by simp)
    · exact List.Nodup.map_on
        (fun x hx y hy h => hinj x y (List.mem_range.mp hx) (List.mem_range.mp hy) h)
        (List.nodup_range _)
    · intro t ht
      obtain ⟨x, hx, rfl⟩ := List.mem_map.mp ht
      exact List.mem_range.mpr (place_lt bk.pi bk.size hpi _ (hrange x (List.mem_range.mp hx)))

/-! ### The access trace of the Melbourne shuffle -/

theorem loop_trace_gen {σ : Type} (tr : σ → List access) (T : Nat → List access)
    (body : Nat → σ → Except Fault σ)
    (hbody : ∀ k s s1, body k s = .ok s1 → tr s1 = tr s ++ T k) (n : Nat) :
    ∀ s s1, loop n body s = .ok s1 → tr s1 = tr s ++ ((List.range n).map T).flatten := by
  induction n with
  | zero =>
    intro s s1 h
    simp only [loop, Except.ok.injEq] at h
    simp [h]
  | succ n ih =>
    intro s s1 h
    simp only [loop, bind, Except.bind] at h
    cases h1 : loop n body s with
    | error e => rw [h1] at h; exact absurd h (by simp)
    | ok s2 =>
      rw [h1] at h
      simp only at h
      rw [hbody n s2 s1 h, ih s s2 h1, List.range_succ]
      simp

theorem flatten_singletons {α : Type} (g : Nat → α) (n : Nat) :
    ((List.range n).map (fun i => [g i])).flatten = (List.range n).map g := by
  induction n with
  | zero => rfl
  | succ n ih => simp [List.range_succ, ih]

theorem get_range_trace (name offset range : Nat) (c c1 : cloud) (X : List element)
    (h : melbshuffle.get_range name offset range c = .ok (X, c1)) :
    c1.trace = c.trace ++ trace_gets name offset range := by
  have := loop_trace_gen (fun (s : List element × cloud) => s.2.trace)
    (fun i => [access.get name ((offset + i) % W32)]) _ (fun k s s1 hb => by
      simp only [bind, Except.bind] at hb
      cases hg : s.2.get name ((offset + k) % W32) with
      | error e => rw [hg] at hb; exact absurd hb (by simp)
      | ok r =>
        rw [hg] at hb
        simp only [pure, Except.pure, Except.ok.injEq] at hb
        rw [← hb]
        exact cloud_get_trace _ _ _ _ _ hg) range _ _ h
  rw [flatten_singletons] at this
  exact this

theorem loop_put_some_trace (T : Nat) (pos : Nat → Nat) (bin : List element) (n : Nat)
    (c c1 : cloud)
    (h : loop n (fun count c =>
      match bin[count]? with
      | none => .error .out_of_bounds
      | some e => c.put T (pos count) e) c = .ok c1) :
    c1.trace = c.trace ++ (List.range n).map (fun i => access.put T (pos i)) := by
  have := loop_trace_gen (fun (s : cloud) => s.trace) (fun i => [access.put T (pos i)]) _
    (fun k s s1 hb => by
      cases hg : bin[k]? with
      | none => rw [hg] at hb; exact absurd hb (by simp)
      | some e =>
        rw [hg] at hb
        exact cloud_put_trace _ _ _ _ _ hb) n _ _ h
  rw [flatten_singletons] at this
  exact this

theorem loop_put_const_trace (T : Nat) (pos : Nat → Nat) (e : element) (n : Nat)
    (c c1 : cloud) (h : loop n (fun t c => c.put T (pos t) e) c = .ok c1) :
    c1.trace = c.trace ++ (List.range n).map (fun i => access.put T (pos i)) := by
  have := loop_trace_gen (fun (s : cloud) => s.trace) (fun i => [access.put T (pos i)]) _
    (fun k s s1 hb => cloud_put_trace _ _ _ _ _ hb) n _ _ h
  rw [flatten_singletons] at this
  exact this

theorem range_split_map {α : Type} (g : Nat → α) (a b : Nat) :
    (List.range a).map g ++ (List.range b).map (fun t => g (a + t)) =
      (List.range (a + b)).map g := by
  induction b with
  | zero => simp
  | succ b ih =>
    rw [List.range_succ, List.map_append, ← List.append_assoc, ih, ← Nat.add_assoc,
      List.range_succ, List.map_append]
    rfl

theorem put_bin_trace (T idx : Nat) (bin : List element) (max_load : Nat) (c c1 : cloud)
    (h : melbshuffle.put_bin T idx bin max_load c = .ok c1) :
    c1.trace = c.trace ++ trace_puts T idx max_load := by
  unfold melbshuffle.put_bin at h
  simp only at h
  by_cases hlt : bin.length < max_load
  · rw [if_pos hlt] at h
    simp only [bind, Except.bind] at h
    cases h1 : loop bin.length (fun count c =>
        match bin[count]? with
        | none => .error .out_of_bounds
        | some e => c.put T ((idx + count) % W32) e) c with
    | error e => rw [h1] at h; exact absurd h (by simp)
    | ok c2 =>
      rw [h1] at h
      simp only at h
      have t1 := loop_put_some_trace T (fun i => (idx + i) % W32) bin _ _ _ h1
      have t2 := loop_put_const_trace T (fun t => (idx + (bin.length + t)) % W32) dummy _ _ _ h
      rw [t2, t1, List.append_assoc]
      congr 1
      have := range_split_map (fun i => access.put T ((idx + i) % W32)) bin.length
        (max_load - bin.length)
      rw [this, show bin.length + (max_load - bin.length) = max_load by omega]
      rfl
  · rw [if_neg hlt] at h
    exact absurd h (by simp)

theorem push_bins_trace (T offset block_size max_load : Nat) (rev_bin : List (List element))
    (n : Nat) (c c1 : cloud)
    (h : melbshuffle.push_bins T offset block_size max_load rev_bin n c = .ok c1) :
    c1.trace = c.trace ++ trace_push_bins T offset block_size max_load n := by
  exact loop_trace_gen (fun (s : cloud) => s.trace)
    (fun i => trace_puts T ((offset + i * block_size) % W32) max_load) _
    (fun k s s1 hb => by
      cases hg : rev_bin[k]? with
      | none => rw [hg] at hb; exact absurd hb (by simp)
      | some vec =>
        rw [hg] at hb
        simp only at hb
        split at hb
        · exact put_bin_trace _ _ _ _ _ _ hb
        · exact absurd hb (by simp)) n _ _ h
theorem phase_1_trace (ms : melbshuffle) (I T : Nat) (c c1 : cloud)
    (h : ms.distribution_phase_1 I T c = .ok c1) :
    c1.trace = c.trace ++ ms.trace_phase_1 I T := by
  unfold melbshuffle.distribution_phase_1 at h
  exact loop_trace_gen (fun (s : cloud) => s.trace) _ _
    (fun id s s1 hb => by
      simp only [bind, Except.bind] at hb
      split at hb
      · exact absurd hb (by simp)
      · rename_i r hg
        obtain ⟨bucket, s2⟩ := r
        simp only at hb
        split at hb
        · exact absurd hb (by simp)
        · rename_i rev_bin hf
          show s1.trace = s.trace ++ _
          rw [push_bins_trace _ _ _ _ _ _ _ _ hb, get_range_trace _ _ _ _ _ _ hg,
            List.append_assoc]) ms.num_buckets _ _ h

theorem phase_2_body_trace (ms : melbshuffle) (T1 T2 cid j : Nat) (c c1 : cloud)
    (h : ms.phase_2_body T1 T2 cid j c = .ok c1) :
    c1.trace = c.trace ++ ms.trace_phase_2_body T1 T2 cid j := by
  unfold melbshuffle.phase_2_body at h
  simp only [bind, Except.bind] at h
  split at h
  · exact absurd h (by simp)
  · rename_i r hg
    obtain ⟨bucket, s2⟩ := r
    simp only at h
    split at h
    · exact absurd h (by simp)
    · rename_i rev_bin hf
      rw [push_bins_trace _ _ _ _ _ _ _ _ h, get_range_trace _ _ _ _ _ _ hg,
        List.append_assoc]
      rfl

theorem phase_2_trace (ms : melbshuffle) (T1 T2 : Nat) (c c1 : cloud)
    (h : ms.distribution_phase_2 T1 T2 c = .ok c1) :
    c1.trace = c.trace ++ ms.trace_phase_2 T1 T2 := by
  unfold melbshuffle.distribution_phase_2 at h
  exact loop_trace_gen (fun (s : cloud) => s.trace) _ _
    (fun cid s s1 hb =>
      loop_trace_gen (fun (s : cloud) => s.trace) _ _
        (fun j s s1 hb => phase_2_body_trace ms T1 T2 cid j s s1 hb)
        ms.buckets_per_chunk _ _ hb) ms.num_chunks _ _ h

theorem melb_put_bucket_trace (ms : melbshuffle) (O offset : Nat) (bucket : List element)
    (c c1 : cloud) (h : ms.put_bucket O offset bucket c = .ok c1) :
    c1.trace = c.trace ++ trace_puts O offset
      (if (offset + ms.bucket_width) % W32 < ms.size then ms.bucket_width
       else (ms.size + W32 - offset) % W32) := by
  unfold melbshuffle.put_bucket at h
  have := loop_trace_gen (fun (s : cloud) => s.trace)
    (fun i => [access.put O ((offset + i) % W32)]) _
    (fun k s s1 hb => by
      cases hg : bucket[k]? with
      | none => rw [hg] at hb; exact absurd hb (by simp)
      | some e =>
        rw [hg] at hb
        exact cloud_put_trace _ _ _ _ _ hb) _ _ _ h
  rw [flatten_singletons] at this
  exact this

theorem cleanup_trace (ms : melbshuffle) (T O : Nat) (c c1 : cloud)
    (h : ms.cleanup_phase T O c = .ok c1) :
    c1.trace = c.trace ++ ms.trace_cleanup T O := by
  unfold melbshuffle.cleanup_phase at h
  exact loop_trace_gen (fun (s : cloud) => s.trace) _ _
    (fun id s s1 hb => by
      simp only [bind, Except.bind] at hb
      split at hb
      · exact absurd hb (by simp)
      · rename_i r hg
        obtain ⟨block, s2⟩ := r
        simp only at hb
        split at hb
        · exact absurd hb (by simp)
        · rename_i catchment hf
          show s1.trace = s.trace ++ _
          rw [melb_put_bucket_trace _ _ _ _ _ _ hb, get_range_trace _ _ _ _ _ _ hg,
            List.append_assoc]) ms.num_buckets _ _ h

theorem shuffle_pass_trace (ms : melbshuffle) (I T1 T2 O : Nat) (c c1 : cloud)
    (h : ms.shuffle_pass I T1 T2 O c = .ok c1) :
    c1.trace = c.trace ++ ms.trace_pass I T1 T2 O := by
  unfold melbshuffle.shuffle_pass at h
  simp only [bind, Except.bind] at h
  split at h
  · exact absurd h (by simp)
  · rename_i c2 h1
    split at h
    · exact absurd h (by simp)
    · rename_i c3 h2
      rw [cleanup_trace ms _ _ _ _ h, phase_2_trace ms _ _ _ _ h2, phase_1_trace ms _ _ _ _ h1]
      simp [melbshuffle.trace_pass, List.append_assoc]

/-- Whether a run returned. -/
theorem ok_of_to_bool {ε α : Type} (x : Except ε α) (h : x.toBool = true) : ∃ a, x = .ok a := by
  cases x with
  | error e => exact absurd h (by simp [Except.toBool])
  | ok a => exact ⟨a, rfl⟩

/-- C8.  Two runs of `shuffle_pass` with the same `size`, `p1`, `p2` (hence the same
derived fields) and the same array names, but with different oracles and on whatever
server states, that both return (no assertion fired, no fault) have issued the same
sequence of storage operations. -/
theorem melbourne_oblivious (ms : melbshuffle) (pi2 : permutation) (I T1 T2 O : Nat)
    (c1 c2 d1 d2 : cloud)
    (h1 : ms.shuffle_pass I T1 T2 O c1 = .ok d1)
    (h2 : melbshuffle.shuffle_pass { ms with pi := pi2 } I T1 T2 O c2 = .ok d2) :
    ∃ t, d1.trace = c1.trace ++ t ∧ d2.trace = c2.trace ++ t :=
  ⟨ms.trace_pass I T1 T2 O, shuffle_pass_trace ms _ _ _ _ _ _ h1,
    shuffle_pass_trace { ms with pi := pi2 } _ _ _ _ _ _ h2⟩
theorem melbourne_oblivious_witness :
    ∃ d1 d2 t,
      (melbshuffle.init (permutation.reversal 4) 4 2 2).shuffle_pass 0 Ta Tb 1
        ((((cloud.driver 4).create_array Ta 16).create_array Tb 16).create_array 1 4) = .ok d1 ∧
      (melbshuffle.init (permutation.identity 4) 4 2 2).shuffle_pass 0 Ta Tb 1
        ((((cloud.driver 4).create_array Ta 16).create_array Tb 16).create_array 1 4) = .ok d2 ∧
      d1.trace = [] ++ t ∧ d2.trace = [] ++ t := by
  obtain ⟨d1, h1⟩ := ok_of_to_bool
    ((melbshuffle.init (permutation.reversal 4) 4 2 2).shuffle_pass 0 Ta Tb 1
      ((((cloud.driver 4).create_array Ta 16).create_array Tb 16).create_array 1 4)) rfl
  obtain ⟨d2, h2⟩ := ok_of_to_bool
    ((melbshuffle.init (permutation.identity 4) 4 2 2).shuffle_pass 0 Ta Tb 1
      ((((cloud.driver 4).create_array Ta 16).create_array Tb 16).create_array 1 4)) rfl
  obtain ⟨t, a, b⟩ := melbourne_oblivious (melbshuffle.init (permutation.reversal 4) 4 2 2)
    (permutation.identity 4) 0 Ta Tb 1 _ _ d1 d2 h1 h2
  exact ⟨d1, d2, t, h1, h2, a, b⟩

/-! ### Waksman permutation: the reversal of eight keys -/

/-- C2.  `n = 8`, keys `0..7` at indices `0..7` of array `0`, `pi` the reversal
`pi(k) = 7 - k`: `waksman::permute` returns (the array named `2`), and the returned
array holds the key `k` at index `7 - k` for every `k` in `[0, 8)`, with the auxiliary
word back at `0`. -/
theorem waksman_reverse_eight :
    (waksman.permute (permutation.reversal 8) 8 0 (cloud.driver 8)).map
      (fun r => (r.1, (List.range 8).map (fun k => r.2.peek r.1 (7 - k))))
      = .ok (2, (List.range 8).map (fun k => some { key := k, aux := 0 })) := by
  rfl

/-! ### Melbourne shuffle: every element reaches the place of its key -/

theorem post_bind {α β : Type} (x : Except Fault α) (f : α → Except Fault β)
    (Q : α → Prop) (R : β → Prop) (hx : post x Q) (hf : ∀ a, Q a → post (f a) R) :
    post (x >>= f) R := by
  rcases hx with hx | ⟨a, hx, hq⟩
  · left; rw [hx]; rfl
  · rw [hx]; exact hf a hq

theorem post_ok {α : Type} (a : α) (Q : α → Prop) (h : Q a) : post (Except.ok a) Q :=
  Or.inr ⟨a, rfl, h⟩

theorem post_of_ok {α : Type} (x : Except Fault α) (Q : α → Prop)
    (h : ∃ a, x = .ok a ∧ Q a) : post x Q := Or.inr h

theorem post_mono {α : Type} (x : Except Fault α) (Q R : α → Prop) (hx : post x Q)
    (h : ∀ a, Q a → R a) : post x R := by
  rcases hx with hx | ⟨a, hx, hq⟩
  · exact Or.inl hx
  · exact Or.inr ⟨a, hx, h a hq⟩

theorem loop_post {σ : Type} (Inv : Nat → σ → Prop) (body : Nat → σ → Except Fault σ) (n : Nat)
    (s : σ) (h0 : Inv 0 s)
    (hstep : ∀ k s, k < n → Inv k s → post (body k s) (Inv (k + 1))) :
    post (loop n body s) (Inv n) := by
  induction n with
  | zero => exact Or.inr ⟨s, rfl, h0⟩
  | succ n ih =>
    have h1 := ih (fun k s hk hi => hstep k s (by omega) hi)
    show post (loop n body s >>= body n) _
    exact post_bind _ _ _ _ h1 (fun a ha => hstep n a (by omega) ha)

theorem only_refl (c : cloud) (T : Nat) : c.only c T := ⟨fun _ _ => rfl, fun h => h⟩

theorem only_trans (c2 c1 c : cloud) (T : Nat) (h2 : c2.only c1 T) (h1 : c1.only c T) :
    c2.only c T :=
  ⟨fun U hU => (h2.1 U hU).trans (h1.1 U hU), fun h => h2.2 (h1.2 h)⟩

theorem only_of_table (c1 c : cloud) (T : Nat) (h : c1.table = c.table) : c1.only c T :=
  ⟨fun U _ => by rw [h], fun hh => by unfold cloud.has at *; rw [h]; exact hh⟩

theorem peek_of_table (c1 c : cloud) (T : Nat) (h : c1.table T = c.table T) (i : Nat) :
    c1.peek T i = c.peek T i := by
  unfold cloud.peek; rw [h]

theorem has_of_table (c1 c : cloud) (T : Nat) (h : c1.table T = c.table T) :
    c1.has T ↔ c.has T := by
  unfold cloud.has; rw [h]

theorem seg_of_table (c1 c : cloud) (T : Nat) (h : c1.table T = c.table T) (a : Nat)
    (L : List element) (hs : c.seg T a L) : c1.seg T a L := by
  intro i hi
  rw [peek_of_table c1 c T h]
  exact hs i hi

theorem cloud_get_peek (c : cloud) (T i : Nat) (e : element) (h : c.peek T i = some e) :
    ∃ c1, c.get T i = .ok (mask_key e, c1) ∧ c1.table = c.table := by
  unfold cloud.peek at h
  unfold cloud.get
  cases hT : c.table T with
  | none => rw [hT] at h; exact absurd h (by simp)
  | some A =>
    rw [hT] at h
    simp only at h ⊢
    rw [h]
    exact ⟨_, rfl, rfl⟩

theorem cloud_put_peek (c : cloud) (T i : Nat) (x : element) (h : c.has T) :
    ∃ c1, c.put T i x = .ok c1 ∧ c1.only c T ∧
      ∀ j, c1.peek T j = if j = i then some x else c.peek T j := by
  unfold cloud.has at h
  unfold cloud.put
  cases hT : c.table T with
  | none => rw [hT] at h; exact absurd h (by simp)
  | some A =>
    simp only
    refine ⟨_, rfl, ⟨fun U hU => by simp [hU], fun _ => by simp [cloud.has]⟩, fun j => ?_⟩
    simp only [cloud.peek, hT, if_true]

theorem get_range_spec (name off : Nat) (L : List element) (c : cloud)
    (hseg : c.seg name off L) (hov : off + L.length ≤ W32) :
    ∃ c1, melbshuffle.get_range name off L.length c = .ok (L.map mask_key, c1) ∧
      c1.table = c.table := by
  unfold melbshuffle.get_range
  obtain ⟨s1, h1, hi1, hi2⟩ := loop_inv
    (fun k (s : List element × cloud) => s.1 = (L.take k).map mask_key ∧ s.2.table = c.table)
    (fun i (s : List element × cloud) => do
      let (e, c1) ← s.2.get name ((off + i) % W32)
      pure (s.1 ++ [e], c1)) L.length ([], c) ⟨by simp, rfl⟩
    (fun k s hk hi => by
      obtain ⟨hi1, hi2⟩ := hi
      have hp : s.2.peek name (off + k) = some (L.get ⟨k, hk⟩) := by
        rw [peek_of_table s.2 c name (by rw [hi2]), hseg k hk]
        simp
      obtain ⟨c1, hg, ht⟩ := cloud_get_peek s.2 name (off + k) _ hp
      have hm : (off + k) % W32 = off + k := Nat.mod_eq_of_lt (by omega)
      refine ⟨(s.1 ++ [mask_key (L.get ⟨k, hk⟩)], c1), ?_, ?_, ?_⟩
      · simp only [hm, hg, bind, Except.bind, pure, Except.pure]
      · simp only [hi1]
        rw [List.take_succ, List.map_append]
        simp [List.getElem?_eq_getElem hk]
      · exact ht.trans hi2)
  refine ⟨s1.2, ?_, hi2⟩
  rw [h1]
  simp only [List.take_length] at hi1
  rw [← hi1]

theorem loop_puts (T a n : Nat) (body : Nat → cloud → Except Fault cloud) (val : Nat → element)
    (hbody : ∀ k c, k < n → body k c = c.put T (a + k) (val k)) (c : cloud) (hT : c.has T) :
    ∃ c1, loop n body c = .ok c1 ∧ c1.only c T ∧
      ∀ j, c1.peek T j = if a ≤ j ∧ j < a + n then some (val (j - a)) else c.peek T j := by
  obtain ⟨c1, h1, hi1, hi2⟩ := loop_inv
    (fun k (c1 : cloud) => c1.only c T ∧
      ∀ j, c1.peek T j = if a ≤ j ∧ j < a + k then some (val (j - a)) else c.peek T j)
    body n c ⟨only_refl c T, fun j => by rw [if_neg (by omega)]⟩
    (fun k s hk hi => by
      obtain ⟨hi1, hi2⟩ := hi
      obtain ⟨c2, hp, ho, hq⟩ := cloud_put_peek s T (a + k) (val k) (hi1.2 hT)
      refine ⟨c2, by rw [hbody k s hk]; exact hp, only_trans _ _ _ _ ho hi1, fun j => ?_⟩
      rw [hq j, hi2 j]
      by_cases hj : j = a + k
      · subst hj
        simp
      · rw [if_neg hj]
        by_cases h1 : a ≤ j ∧ j < a + k
        · rw [if_pos h1, if_pos ⟨h1.1, by omega⟩]
        · rw [if_neg h1, if_neg (by omega)])
  exact ⟨c1, h1, hi1, hi2⟩

theorem pad_length (ml : Nat) (bin : List element) (h : bin.length ≤ ml) :
    (pad ml bin).length = ml := by
  simp [pad]; omega

theorem pad_getElem (ml : Nat) (bin : List element) (i : Nat) (hi : i < ml)
    (h : bin.length ≤ ml) :
    (pad ml bin)[i]? = some (if i < bin.length then bin.getD i dummy else dummy) := by
  unfold pad
  by_cases hlt : i < bin.length
  · rw [if_pos hlt, List.getElem?_append_left hlt]
    simp [List.getD, List.getElem?_eq_getElem hlt]
  · rw [if_neg hlt, List.getElem?_append_right (by omega)]
    rw [List.getElem?_replicate]
    rw [if_pos (by omega)]

theorem put_bin_spec (T idx : Nat) (bin : List element) (ml : Nat) (c : cloud)
    (hT : c.has T) (hov : idx + ml ≤ W32) :
    post (melbshuffle.put_bin T idx bin ml c) (fun c1 =>
      bin.length < ml ∧ c1.only c T ∧ c1.seg T idx (pad ml bin) ∧
      ∀ j, (j < idx ∨ idx + ml ≤ j) → c1.peek T j = c.peek T j) := by
  unfold melbshuffle.put_bin
  simp only
  by_cases hlt : bin.length < ml
  · rw [if_pos hlt]
    right
    obtain ⟨c1, h1, ho1, hp1⟩ := loop_puts T idx bin.length
      (fun count c =>
        match bin[count]? with
        | none => .error .out_of_bounds
        | some e => c.put T ((idx + count) % W32) e) (fun k => bin.getD k dummy)
      (fun k c hk => by
        simp only [List.getElem?_eq_getElem hk, List.getD, Option.getD_some]
        rw [Nat.mod_eq_of_lt (by omega)]
        simp [List.getElem?_eq_getElem hk]) c hT
    obtain ⟨c2, h2, ho2, hp2⟩ := loop_puts T (idx + bin.length) (ml - bin.length)
      (fun t c => c.put T ((idx + (bin.length + t)) % W32) dummy) (fun _ => dummy)
      (fun k c hk => by
        simp only
        rw [Nat.mod_eq_of_lt (by omega), Nat.add_assoc]) c1 (ho1.2 hT)
    refine ⟨c2, ?_, hlt, only_trans _ _ _ _ ho2 ho1, ?_, ?_⟩
    · simp only [bind, Except.bind]
      split
      · rename_i err heq
        have e : Except.error err = Except.ok c1 := heq.symm.trans h1
        cases e
      · rename_i v heq
        have e : Except.ok v = Except.ok c1 := heq.symm.trans h1
        cases e
        exact h2
    · intro i hi
      rw [pad_length ml bin (by omega)] at hi
      rw [pad_getElem ml bin i hi (by omega), hp2, hp1]
      by_cases hlt2 : i < bin.length
      · rw [if_neg (by omega), if_pos (by omega), if_pos hlt2]
        congr 2
        omega
      · rw [if_pos (by omega), if_neg hlt2]
    · intro j hj
      rw [hp2, hp1, if_neg (by omega), if_neg (by omega)]
  · rw [if_neg hlt]
    left
    rfl

theorem push_bins_spec (T off block ml : Nat) (rb : List (List element)) (n : Nat) (c : cloud)
    (hT : c.has T) (hlen : n ≤ rb.length) (hblock : ml ≤ block)
    (hov : ∀ i, i < n → off + i * block + ml ≤ W32) :
    post (melbshuffle.push_bins T off block ml rb n c) (fun c1 =>
      c1.only c T ∧ (∀ i, i < n → (rb.getD i []).length < ml) ∧
      (∀ i, i < n → c1.seg T (off + i * block) (pad ml (rb.getD i []))) ∧
      ∀ j, (∀ i, i < n → j < off + i * block ∨ off + i * block + ml ≤ j) →
        c1.peek T j = c.peek T j) := by
  unfold melbshuffle.push_bins
  refine post_mono _ _ _ (loop_post
    (fun k (c1 : cloud) => k ≤ n ∧ c1.only c T ∧ (∀ i, i < k → (rb.getD i []).length < ml) ∧
      (∀ i, i < k → c1.seg T (off + i * block) (pad ml (rb.getD i []))) ∧
      ∀ j, (∀ i, i < k → j < off + i * block ∨ off + i * block + ml ≤ j) →
        c1.peek T j = c.peek T j) _ n c
    ⟨Nat.zero_le _, only_refl c T, fun i hi => absurd hi (by omega),
      fun i hi => absurd hi (by omega), fun j _ => rfl⟩
    (fun k s hk hi => ?_)) (fun a ha => ha.2)
  obtain ⟨_, ho, hl, hs, hf⟩ := hi
  have hk2 : k < rb.length := by omega
  simp only [List.getElem?_eq_getElem hk2]
  have hgd : rb.getD k [] = rb[k] := by simp [List.getD, List.getElem?_eq_getElem hk2]
  by_cases hlt : rb[k].length < ml
  · rw [if_pos hlt]
    have hm : (off + k * block) % W32 = off + k * block :=
      Nat.mod_eq_of_lt (by have := hov k hk; omega)
    rw [hm]
    refine post_mono _ _ _ (put_bin_spec T (off + k * block) rb[k] ml s (ho.2 hT)
      (hov k hk)) (fun c2 h2 => ?_)
    obtain ⟨_, ho2, hs2, hf2⟩ := h2
    refine ⟨by omega, only_trans _ _ _ _ ho2 ho, ?_, ?_, ?_⟩
    · intro i hi
      by_cases hik : i = k
      · subst hik; rw [hgd]; exact hlt
      · exact hl i (by omega)
    · intro i hi
      by_cases hik : i = k
      · subst hik; rw [hgd]; exact hs2
      · have hi2 : i < k := by omega
        intro t ht
        have hll := hl i hi2
        rw [pad_length ml _ (by omega)] at ht
        have hb : (i + 1) * block ≤ k * block := Nat.mul_le_mul_right _ (by omega)
        rw [Nat.add_mul, Nat.one_mul] at hb
        rw [hf2 _ (Or.inl (by omega))]
        have := hs i hi2 t (by rw [pad_length ml _ (by omega)]; exact ht)
        exact this
    · intro j hj
      rw [hf2 j (hj k (by omega))]
      exact hf j (fun i hi => hj i (by omega))
  · rw [if_neg hlt]
    left
    rfl

theorem push_bin_ok (rb : List (List element)) (id : Nat) (e : element) (h : id < rb.length) :
    push_bin rb id e = .ok (rb.set id (rb.getD id [] ++ [e])) := by
  unfold push_bin
  simp [List.getElem?_eq_getElem h, List.getD]

theorem foldlM_bins (m : Nat)
    (step : List (List element) → element → Except Fault (List (List element)))
    (keep : element → Bool) (d : element → Nat) (bucket : List element)
    (hstep : ∀ rb e, rb.length = m → e ∈ bucket →
      step rb e = if keep e then push_bin rb (d e) e else .ok rb)
    (hd : ∀ e, e ∈ bucket → keep e = true → d e < m) :
    ∀ init : List (List element), init.length = m →
      bucket.foldlM step init = .ok ((List.range m).map (fun b =>
        init.getD b [] ++ bucket.filter (fun e => keep e && decide (d e = b)))) := by
  induction bucket with
  | nil =>
    intro init hlen
    simp only [List.foldlM, List.filter_nil, List.append_nil, pure, Except.pure]
    congr 1
    apply List.ext_getElem
    · simp [hlen]
    · intro i h1 h2
      simp [List.getD, List.getElem?_eq_getElem h1]
  | cons e rest ih =>
    intro init hlen
    simp only [List.foldlM]
    rw [hstep init e hlen (List.mem_cons_self _ _)]
    have ih2 := ih (fun rb x hl hx => hstep rb x hl (List.mem_cons_of_mem _ hx))
      (fun x hx => hd x (List.mem_cons_of_mem _ hx))
    by_cases hk : keep e = true
    · have hde := hd e (List.mem_cons_self _ _) hk
      rw [if_pos hk, push_bin_ok init (d e) e (by omega)]
      simp only [bind, Except.bind]
      rw [ih2 _ (by simp [hlen])]
      congr 1
      apply List.map_congr_left
      intro b hb
      rw [List.mem_range] at hb
      simp only [List.filter_cons, hk, Bool.true_and]
      by_cases hb2 : d e = b
      · subst hb2
        simp [List.getD, List.getElem?_set, hlen, hde]
      · simp only [hb2, decide_False]
        simp only [List.getD_eq_getElem?_getD]
        rw [List.getElem?_set_ne hb2]
        simp
    · rw [if_neg hk]
      simp only [bind, Except.bind]
      rw [ih2 init hlen]
      congr 1
      apply List.map_congr_left
      intro b hb
      simp [List.filter_cons, hk]

theorem flatten_buckets (X : List element) (w k : Nat) :
    ((List.range k).map (fun id => (X.drop (id * w)).take w)).flatten = X.take (k * w) := by
  induction k with
  | zero => simp
  | succ k ih =>
    rw [List.range_succ, List.map_append, List.flatten_append, ih]
    simp only [List.map_cons, List.map_nil, List.flatten_cons, List.flatten_nil,
      List.append_nil]
    rw [Nat.succ_mul, List.take_add]

theorem filter_pad (ml : Nat) (bin : List element) (q : element → Bool)
    (hd : q dummy = false) : (pad ml bin).filter q = bin.filter q := by
  unfold pad
  rw [List.filter_append]
  have : (List.replicate (ml - bin.length) dummy).filter q = [] := by
    rw [List.filter_eq_nil_iff]
    intro a ha
    rw [List.eq_of_mem_replicate ha, hd]
    simp
  rw [this, List.append_nil]

theorem seg_drop_take (c : cloud) (T : Nat) (X : List element) (a w : Nat)
    (h : c.seg T 0 X) : c.seg T a ((X.drop a).take w) := by
  intro i hi
  simp only [List.length_take, List.length_drop] at hi
  rw [List.getElem?_take_of_lt (by omega), List.getElem?_drop]
  have := h (a + i) (by omega)
  rw [Nat.zero_add] at this
  exact this

theorem map_mask_id (L : List element) (h : ∀ e, e ∈ L → e.key < 2 ^ 31) :
    L.map mask_key = L := by
  conv_rhs => rw [← List.map_id L]
  apply List.map_congr_left
  intro e he
  simp only [mask_key, id]
  rw [mask_small e.key (h e he)]

theorem block_disjoint (A B ml t : Nat) (h : A ≠ B) (ht : t < ml) :
    A * ml + t < B * ml ∨ B * ml + ml ≤ A * ml + t := by
  rcases Nat.lt_or_gt_of_ne h with h1 | h1
  · left
    have : (A + 1) * ml ≤ B * ml := Nat.mul_le_mul_right _ (by omega)
    rw [Nat.add_mul, Nat.one_mul] at this
    omega
  · right
    have : (B + 1) * ml ≤ A * ml := Nat.mul_le_mul_right _ (by omega)
    rw [Nat.add_mul, Nat.one_mul] at this
    omega

theorem getD_map_range {α : Type} (F : Nat → List α) (m i : Nat) (h : i < m) :
    ((List.range m).map F).getD i [] = F i := by
  simp [List.getD_eq_getElem?_getD, List.getElem?_map, List.getElem?_range h]

theorem ok_bind {α β : Type} (a : α) (f : α → Except Fault β) :
    (Except.ok a >>= f) = f a := rfl

theorem fits_nb_pos (ms : melbshuffle) (hg : ms.fits) : 0 < ms.num_buckets := by
  rcases Nat.eq_zero_or_pos ms.num_buckets with h | h
  · have h1 := hg.cover
    have h2 := hg.last
    rw [h] at h1 h2
    simp at h1 h2
    omega
  · exact h

theorem fits_nc_pos (ms : melbshuffle) (hg : ms.fits) : 0 < ms.num_chunks := by
  rcases Nat.eq_zero_or_pos ms.num_chunks with h | h
  · have h1 := hg.chunks
    have h2 := fits_nb_pos ms hg
    rw [h] at h1
    simp at h1
    omega
  · exact h

theorem fits_ml1 (ms : melbshuffle) (hg : ms.fits) :
    ms.p1 * ms.num_chunks % W32 = ms.p1 * ms.num_chunks := by
  apply Nat.mod_eq_of_lt
  calc ms.p1 * ms.num_chunks ≤ ms.num_chunks * ms.num_buckets * (ms.p1 * ms.num_chunks) :=
        Nat.le_mul_of_pos_left _ (Nat.mul_pos (fits_nc_pos ms hg) (fits_nb_pos ms hg))
    _ < W32 := hg.t1

theorem fits_ml2 (ms : melbshuffle) (hg : ms.fits) :
    ms.p2 * ms.num_chunks % W32 = ms.p2 * ms.num_chunks := by
  apply Nat.mod_eq_of_lt
  calc ms.p2 * ms.num_chunks
      ≤ ms.num_chunks * ms.buckets_per_chunk * ms.buckets_per_chunk *
          (ms.p2 * ms.num_chunks) :=
        Nat.le_mul_of_pos_left _ (Nat.mul_pos (Nat.mul_pos (fits_nc_pos ms hg) hg.bpc_pos)
          hg.bpc_pos)
    _ < W32 := hg.t2

theorem phase_1_spec (ms : melbshuffle) (I T : Nat) (X : List element) (c : cloud)
    (hg : ms.fits) (hIT : I ≠ T) (hI : c.seg I 0 X) (hX : X.length = ms.size)
    (hkey : ∀ e, e ∈ X → e.key < ms.pi.perm.length ∧ e.key < 2 ^ 31 ∧ ms.pi.place e < ms.size)
    (hT : c.has T) :
    post (ms.distribution_phase_1 I T c) (fun c1 =>
      c1.only c T ∧ ∀ cid id, cid < ms.num_chunks → id < ms.num_buckets →
        (ms.bin1 X cid id).length < ms.p1 * ms.num_chunks ∧
        c1.seg T ((cid * ms.num_buckets + id) * (ms.p1 * ms.num_chunks))
          (pad (ms.p1 * ms.num_chunks) (ms.bin1 X cid id))) := by
  unfold melbshuffle.distribution_phase_1
  simp only [fits_ml1 ms hg]
  refine loop_post (fun k (c1 : cloud) =>
      c1.only c T ∧ ∀ cid id, cid < ms.num_chunks → id < k →
        (ms.bin1 X cid id).length < ms.p1 * ms.num_chunks ∧
        c1.seg T ((cid * ms.num_buckets + id) * (ms.p1 * ms.num_chunks))
          (pad (ms.p1 * ms.num_chunks) (ms.bin1 X cid id))) _ _ c
    ⟨only_refl c T, fun cid id _ h => absurd h (by omega)⟩ (fun id s hid hi => ?_)
  obtain ⟨ho, hs⟩ := hi
  have hnb := hg.width
  have hidw : (id + 1) * ms.bucket_width ≤ ms.num_buckets * ms.bucket_width :=
    Nat.mul_le_mul_right _ (by omega)
  rw [Nat.add_mul, Nat.one_mul] at hidw
  have hm1 : id * ms.bucket_width % W32 = id * ms.bucket_width :=
    Nat.mod_eq_of_lt (by omega)
  have hm2 : (id * ms.bucket_width + ms.bucket_width) % W32
      = id * ms.bucket_width + ms.bucket_width := Nat.mod_eq_of_lt (by omega)
  simp only [hm1, hm2]
  have hlast : id * ms.bucket_width ≤ (ms.num_buckets - 1) * ms.bucket_width :=
    Nat.mul_le_mul_right _ (by omega)
  have hl := hg.last
  have hsz := hg.size_lt
  have hLlen : ((X.drop (id * ms.bucket_width)).take ms.bucket_width).length =
      (if id * ms.bucket_width + ms.bucket_width < ms.size then ms.bucket_width
       else (ms.size + W32 - id * ms.bucket_width) % W32) := by
    simp only [List.length_take, List.length_drop, hX]
    have hW : W32 = 4294967296 := by decide
    split
    · omega
    · rw [show ms.size + W32 - id * ms.bucket_width = (ms.size - id * ms.bucket_width) + W32
        by omega, Nat.add_mod_right, Nat.mod_eq_of_lt (by omega)]
      omega
  rw [← hLlen]
  have hsI : s.seg I (id * ms.bucket_width) ((X.drop (id * ms.bucket_width)).take
      ms.bucket_width) :=
    seg_drop_take s I X _ _ (seg_of_table s c I (ho.1 I hIT) 0 X hI)
  obtain ⟨c1, hgr, htab⟩ := get_range_spec I (id * ms.bucket_width) _ s hsI (by
    have hW : W32 = 4294967296 := by decide
    simp only [List.length_take, List.length_drop, hX]
    omega)
  rw [hgr]
  have hmem : ∀ e, e ∈ (X.drop (id * ms.bucket_width)).take ms.bucket_width → e ∈ X :=
    fun e he => List.mem_of_mem_drop (List.mem_of_mem_take he)
  rw [map_mask_id _ (fun e he => (hkey e (hmem e he)).2.1), ok_bind]
  dsimp only
  refine post_bind _ _ (fun rb => rb = (List.range ms.num_chunks).map (fun b =>
    ms.bin1 X b id)) _ (Or.inr ⟨_, foldlM_bins ms.num_chunks _ (fun _ => true)
      (fun e => ms.pi.place e / ms.chunk_width) _ ?_ ?_ _ (by simp), ?_⟩) ?_
  · intro rb e hrb he
    rw [eval_perm_place _ _ (hkey e (hmem e he)).1, ok_bind, if_pos rfl]
  · intro e he _
    have h3 := (hkey e (hmem e he)).2.2
    have h4 := hg.cover
    have h5 := hg.chunks
    rw [hg.cw_eq]
    apply Nat.div_lt_of_lt_mul
    calc ms.pi.place e < ms.size := h3
      _ ≤ ms.num_buckets * ms.bucket_width := h4
      _ ≤ ms.num_chunks * ms.buckets_per_chunk * ms.bucket_width :=
        Nat.mul_le_mul_right _ h5
      _ = ms.buckets_per_chunk * ms.bucket_width * ms.num_chunks := by ring
  · apply List.map_congr_left
    intro b hb
    rw [List.mem_range] at hb
    simp [melbshuffle.bin1, List.getD_eq_getElem?_getD, List.getElem?_replicate, hb]
  · intro rb hrb
    subst hrb
    have ht1 := hg.t1
    have hnbp := fits_nb_pos ms hg
    have hncp := fits_nc_pos ms hg
    have hblk : ∀ i, i < ms.num_chunks →
        id * (ms.p1 * ms.num_chunks) + i * (ms.num_buckets * (ms.p1 * ms.num_chunks)) +
          ms.p1 * ms.num_chunks ≤ W32 := by
      intro i hi
      have h1 : (i * ms.num_buckets + id + 1) * (ms.p1 * ms.num_chunks) ≤
          ms.num_chunks * ms.num_buckets * (ms.p1 * ms.num_chunks) := by
        apply Nat.mul_le_mul_right
        have : (i + 1) * ms.num_buckets ≤ ms.num_chunks * ms.num_buckets :=
          Nat.mul_le_mul_right _ (by omega)
        rw [Nat.add_mul, Nat.one_mul] at this
        omega
      have h2 : (i * ms.num_buckets + id + 1) * (ms.p1 * ms.num_chunks) =
          id * (ms.p1 * ms.num_chunks) + i * (ms.num_buckets * (ms.p1 * ms.num_chunks)) +
          ms.p1 * ms.num_chunks := by ring
      omega
    have hm3 : id * (ms.p1 * ms.num_chunks) % W32 = id * (ms.p1 * ms.num_chunks) := by
      apply Nat.mod_eq_of_lt
      have := hblk 0 hncp
      have hp : 0 < ms.p1 * ms.num_chunks ∨ ms.p1 * ms.num_chunks = 0 := by omega
      rcases hp with hp | hp
      · omega
      · rw [hp]; simp; decide
    have hm4 : ms.num_buckets * (ms.p1 * ms.num_chunks) % W32 =
        ms.num_buckets * (ms.p1 * ms.num_chunks) := by
      apply Nat.mod_eq_of_lt
      calc ms.num_buckets * (ms.p1 * ms.num_chunks)
          ≤ ms.num_chunks * (ms.num_buckets * (ms.p1 * ms.num_chunks)) :=
            Nat.le_mul_of_pos_left _ hncp
        _ = ms.num_chunks * ms.num_buckets * (ms.p1 * ms.num_chunks) := by ring
        _ < W32 := ht1
    rw [hm3, hm4]
    have hc1T : c1.has T := (has_of_table c1 s T (by rw [htab])).mpr (ho.2 hT)
    refine post_mono _ _ _ (push_bins_spec T _ _ _ _ ms.num_chunks c1 hc1T (by simp)
      (Nat.le_mul_of_pos_left _ hnbp) hblk) (fun c2 h2 => ?_)
    obtain ⟨ho2, hl2, hs2, hf2⟩ := h2
    refine ⟨only_trans _ _ _ _ ho2 (only_trans _ _ _ _ (only_of_table c1 s T htab) ho), ?_⟩
    intro cid id1 hcid hid1
    by_cases hid2 : id1 = id
    · subst hid2
      have := hs2 cid hcid
      have hl3 := hl2 cid hcid
      rw [getD_map_range _ _ _ hcid] at this hl3
      rw [show (cid * ms.num_buckets + id1) * (ms.p1 * ms.num_chunks) =
        id1 * (ms.p1 * ms.num_chunks) + cid * (ms.num_buckets * (ms.p1 * ms.num_chunks))
        by ring]
      exact ⟨hl3, this⟩
    · refine ⟨(hs cid id1 hcid (by omega)).1, ?_⟩
      intro t ht
      have hprev := (hs cid id1 hcid (by omega)).2 t ht
      rw [← hprev, hf2, peek_of_table c1 s T (by rw [htab])]
      intro i hi
      have hne : cid * ms.num_buckets + id1 ≠ i * ms.num_buckets + id := by
        intro heq
        have h1 : (id1 + cid * ms.num_buckets) % ms.num_buckets = id1 := by
          rw [Nat.add_mul_mod_self_right, Nat.mod_eq_of_lt (by omega)]
        have h2 : (id + i * ms.num_buckets) % ms.num_buckets = id := by
          rw [Nat.add_mul_mod_self_right, Nat.mod_eq_of_lt (by omega)]
        rw [Nat.add_comm] at heq
        rw [heq, Nat.add_comm, h2] at h1
        exact hid2 h1.symm
      have hlen := ht
      rw [pad_length _ _ (Nat.le_of_lt (hs cid id1 hcid (by omega)).1)] at hlen
      have := block_disjoint _ _ (ms.p1 * ms.num_chunks) t hne hlen
      rw [show id * (ms.p1 * ms.num_chunks) + i * (ms.num_buckets * (ms.p1 * ms.num_chunks))
        = (i * ms.num_buckets + id) * (ms.p1 * ms.num_chunks) by ring]
      exact this

theorem seg_append (c : cloud) (T a : Nat) (L1 L2 : List element) (h1 : c.seg T a L1)
    (h2 : c.seg T (a + L1.length) L2) : c.seg T a (L1 ++ L2) := by
  intro i hi
  rw [List.length_append] at hi
  by_cases hlt : i < L1.length
  · rw [List.getElem?_append_left hlt]
    exact h1 i hlt
  · rw [List.getElem?_append_right (by omega)]
    have := h2 (i - L1.length) (by omega)
    rw [← this]
    congr 1
    omega

theorem flatten_length_const (F : Nat → List element) (ml r : Nat)
    (h : ∀ t, t < r → (F t).length = ml) :
    ((List.range r).map F).flatten.length = r * ml := by
  induction r with
  | zero => simp
  | succ r ih =>
    rw [List.range_succ, List.map_append, List.flatten_append, List.length_append,
      ih (fun t ht => h t (by omega))]
    simp [h r (by omega), Nat.succ_mul]

theorem seg_flatten (c : cloud) (T base ml r : Nat) (F : Nat → List element)
    (hlen : ∀ t, t < r → (F t).length = ml)
    (h : ∀ t, t < r → c.seg T (base + t * ml) (F t)) :
    c.seg T base ((List.range r).map F).flatten := by
  induction r with
  | zero => intro i hi; simp at hi
  | succ r ih =>
    rw [List.range_succ, List.map_append, List.flatten_append]
    apply seg_append
    · exact ih (fun t ht => hlen t (by omega)) (fun t ht => h t (by omega))
    · rw [flatten_length_const F ml r (fun t ht => hlen t (by omega))]
      simp only [List.map_cons, List.map_nil, List.flatten_cons, List.flatten_nil,
        List.append_nil]
      exact h r (by omega)

theorem filter_flatten_pad (F : Nat → List element) (ml r : Nat) (q : element → Bool)
    (hd : q dummy = false) :
    (((List.range r).map (fun t => pad ml (F t))).flatten).filter q =
      (((List.range r).map F).flatten).filter q := by
  induction r with
  | zero => simp
  | succ r ih =>
    simp only [List.range_succ, List.map_append, List.flatten_append, List.filter_append, ih,
      List.map_cons, List.map_nil, List.flatten_cons, List.flatten_nil, List.append_nil,
      filter_pad ml (F r) q hd]

theorem mem_flatten_range (F : Nat → List element) (r : Nat) (e : element)
    (h : e ∈ ((List.range r).map F).flatten) : ∃ t, t < r ∧ e ∈ F t := by
  rw [List.mem_flatten] at h
  obtain ⟨l, hl, he⟩ := h
  rw [List.mem_map] at hl
  obtain ⟨t, ht, rfl⟩ := hl
  exact ⟨t, List.mem_range.mp ht, he⟩

theorem mem_pad (ml : Nat) (bin : List element) (e : element) (h : e ∈ pad ml bin) :
    e ∈ bin ∨ e = dummy := by
  unfold pad at h
  rw [List.mem_append] at h
  rcases h with h | h
  · exact Or.inl h
  · exact Or.inr (List.eq_of_mem_replicate h)

theorem mem_bin1 (ms : melbshuffle) (X : List element) (cid id : Nat) (e : element)
    (h : e ∈ ms.bin1 X cid id) : e ∈ X := by
  unfold melbshuffle.bin1 at h
  exact List.mem_of_mem_drop (List.mem_of_mem_take (List.mem_of_mem_filter h))

theorem fits_nb_lt (ms : melbshuffle) (hg : ms.fits) : ms.num_buckets < 2 ^ 31 := by
  have h1 := hg.last
  have h2 := hg.size_lt
  have h3 : (ms.num_buckets - 1) * 1 ≤ (ms.num_buckets - 1) * ms.bucket_width :=
    Nat.mul_le_mul_left _ hg.bw_pos
  omega

theorem ceil_div_mul_ge (a b : Nat) (hb : 0 < b) : a ≤ b * ceil_div a b := by
  unfold ceil_div
  have h1 := Nat.div_add_mod (a + b - 1) b
  have h2 := Nat.mod_lt (a + b - 1) hb
  generalize (a + b - 1) / b = q at *
  generalize (a + b - 1) % b = r at *
  generalize b * q = bq at *
  omega

theorem ceil_div_le (a b : Nat) (hb : 0 < b) : ceil_div a b ≤ a := by
  unfold ceil_div
  rcases Nat.eq_zero_or_pos a with h | h
  · subst h
    simp only [Nat.zero_add]
    exact Nat.le_of_eq (Nat.div_eq_of_lt (by omega))
  · calc (a + b - 1) / b ≤ (a * b) / b := by
          apply Nat.div_le_div_right
          have : a + b ≤ a * b + 1 := by
            have h1 : (a - 1) * (b - 1) + a + b = a * b + 1 := by
              obtain ⟨a1, rfl⟩ : ∃ a1, a = a1 + 1 := ⟨a - 1, by omega⟩
              obtain ⟨b1, rfl⟩ : ∃ b1, b = b1 + 1 := ⟨b - 1, by omega⟩
              simp only [Nat.add_sub_cancel]
              ring
            omega
          omega
      _ = a := Nat.mul_div_cancel _ hb

theorem phase_2_body_spec (ms : melbshuffle) (T1 T2 : Nat) (X : List element) (cid j : Nat)
    (c : cloud) (hg : ms.fits) (hlen : ms.pi.perm.length = ms.size)
    (hkey : ∀ e, e ∈ X → e.key < ms.size)
    (hcid : cid < ms.num_chunks) (hj : j < ms.buckets_per_chunk)
    (h1 : ∀ id, id < ms.num_buckets →
      (ms.bin1 X cid id).length < ms.p1 * ms.num_chunks ∧
      c.seg T1 ((cid * ms.num_buckets + id) * (ms.p1 * ms.num_chunks))
        (pad (ms.p1 * ms.num_chunks) (ms.bin1 X cid id)))
    (hT2 : c.has T2) :
    post (ms.phase_2_body T1 T2 cid j c) (fun c1 =>
      c1.only c T2 ∧
      (∀ bid, bid < ms.buckets_per_chunk →
        (ms.bin2 X cid j bid).length < ms.p2 * ms.num_chunks ∧
        c1.seg T2 (((cid * ms.buckets_per_chunk + bid) * ms.buckets_per_chunk + j) *
          (ms.p2 * ms.num_chunks)) (pad (ms.p2 * ms.num_chunks) (ms.bin2 X cid j bid))) ∧
      ∀ A t, t < ms.p2 * ms.num_chunks →
        (∀ bid, bid < ms.buckets_per_chunk →
          A ≠ (cid * ms.buckets_per_chunk + bid) * ms.buckets_per_chunk + j) →
        c1.peek T2 (A * (ms.p2 * ms.num_chunks) + t) =
          c.peek T2 (A * (ms.p2 * ms.num_chunks) + t)) := by
  unfold melbshuffle.phase_2_body
  have hW : W32 = 4294967296 := by decide
  have hnbp := fits_nb_pos ms hg
  have hncp := fits_nc_pos ms hg
  have hnbl := fits_nb_lt ms hg
  have hbpc := hg.bpc_pos
  have ht1 := hg.t1
  have ht2 := hg.t2
  have hcc : ms.num_buckets * (ms.p1 * ms.num_chunks) % W32 =
      ms.num_buckets * (ms.p1 * ms.num_chunks) := by
    apply Nat.mod_eq_of_lt
    calc ms.num_buckets * (ms.p1 * ms.num_chunks)
        ≤ ms.num_chunks * (ms.num_buckets * (ms.p1 * ms.num_chunks)) :=
          Nat.le_mul_of_pos_left _ hncp
      _ = ms.num_chunks * ms.num_buckets * (ms.p1 * ms.num_chunks) := by ring
      _ < W32 := ht1
  have haj : j * ceil_div ms.num_buckets ms.buckets_per_chunk ≤ ms.num_buckets :=
    Nat.le_trans (Nat.mul_le_mul_right _ (by omega)) hg.segs
  have hnbin := ceil_div_le ms.num_buckets ms.buckets_per_chunk hbpc
  have hm1 : j * ceil_div ms.num_buckets ms.buckets_per_chunk % W32 =
      j * ceil_div ms.num_buckets ms.buckets_per_chunk := Nat.mod_eq_of_lt (by omega)
  have hm2 : (j * ceil_div ms.num_buckets ms.buckets_per_chunk +
      ceil_div ms.num_buckets ms.buckets_per_chunk) % W32 =
      j * ceil_div ms.num_buckets ms.buckets_per_chunk +
      ceil_div ms.num_buckets ms.buckets_per_chunk := Nat.mod_eq_of_lt (by omega)
  have hm3 : (ms.num_buckets + W32 - j * ceil_div ms.num_buckets ms.buckets_per_chunk) % W32
      = ms.num_buckets - j * ceil_div ms.num_buckets ms.buckets_per_chunk := by
    rw [show ms.num_buckets + W32 - j * ceil_div ms.num_buckets ms.buckets_per_chunk =
      (ms.num_buckets - j * ceil_div ms.num_buckets ms.buckets_per_chunk) + W32 by omega,
      Nat.add_mod_right, Nat.mod_eq_of_lt (by omega)]
  simp only [fits_ml1 ms hg, fits_ml2 ms hg, hcc, hm1, hm2, hm3]
  have hr : (if j * ceil_div ms.num_buckets ms.buckets_per_chunk +
        ceil_div ms.num_buckets ms.buckets_per_chunk < ms.num_buckets
      then ceil_div ms.num_buckets ms.buckets_per_chunk
      else ms.num_buckets - j * ceil_div ms.num_buckets ms.buckets_per_chunk) +
      j * ceil_div ms.num_buckets ms.buckets_per_chunk ≤ ms.num_buckets := by
    split <;> omega
  generalize hrdef : (if j * ceil_div ms.num_buckets ms.buckets_per_chunk +
        ceil_div ms.num_buckets ms.buckets_per_chunk < ms.num_buckets
      then ceil_div ms.num_buckets ms.buckets_per_chunk
      else ms.num_buckets - j * ceil_div ms.num_buckets ms.buckets_per_chunk) = r at hr ⊢
  generalize hadef : j * ceil_div ms.num_buckets ms.buckets_per_chunk = a at hr haj hrdef ⊢
  -- the segment of bins read from `T1`
  have hbound : (cid * ms.num_buckets + a + r) * (ms.p1 * ms.num_chunks) < W32 := by
    have h2 : cid * ms.num_buckets + a + r ≤ ms.num_chunks * ms.num_buckets := by
      have : (cid + 1) * ms.num_buckets ≤ ms.num_chunks * ms.num_buckets :=
        Nat.mul_le_mul_right _ (by omega)
      rw [Nat.add_mul, Nat.one_mul] at this
      omega
    exact Nat.lt_of_le_of_lt (Nat.mul_le_mul_right _ h2) ht1
  have hoff : (cid * (ms.num_buckets * (ms.p1 * ms.num_chunks)) +
      a * (ms.p1 * ms.num_chunks)) % W32 =
      (cid * ms.num_buckets + a) * (ms.p1 * ms.num_chunks) := by
    rw [show cid * (ms.num_buckets * (ms.p1 * ms.num_chunks)) + a * (ms.p1 * ms.num_chunks) =
      (cid * ms.num_buckets + a) * (ms.p1 * ms.num_chunks) by ring]
    apply Nat.mod_eq_of_lt
    refine Nat.lt_of_le_of_lt (Nat.mul_le_mul_right _ ?_) hbound
    omega
  have hrm : r * (ms.p1 * ms.num_chunks) % W32 = r * (ms.p1 * ms.num_chunks) := by
    apply Nat.mod_eq_of_lt
    refine Nat.lt_of_le_of_lt (Nat.mul_le_mul_right _ ?_) hbound
    omega
  rw [hoff, hrm]
  have hpl : ∀ t, t < r →
      (pad (ms.p1 * ms.num_chunks) (ms.bin1 X cid (a + t))).length = ms.p1 * ms.num_chunks :=
    fun t ht => pad_length _ _ (Nat.le_of_lt (h1 (a + t) (by omega)).1)
  have hLlen := flatten_length_const
    (fun t => pad (ms.p1 * ms.num_chunks) (ms.bin1 X cid (a + t))) _ r hpl
  have hseg : c.seg T1 ((cid * ms.num_buckets + a) * (ms.p1 * ms.num_chunks))
      ((List.range r).map (fun t =>
        pad (ms.p1 * ms.num_chunks) (ms.bin1 X cid (a + t)))).flatten := by
    apply seg_flatten _ _ _ (ms.p1 * ms.num_chunks) _ _ hpl
    intro t ht
    have := (h1 (a + t) (by omega)).2
    rw [show (cid * ms.num_buckets + a) * (ms.p1 * ms.num_chunks) + t * (ms.p1 * ms.num_chunks)
      = (cid * ms.num_buckets + (a + t)) * (ms.p1 * ms.num_chunks) by ring]
    exact this
  obtain ⟨c1, hgr, htab⟩ := get_range_spec T1 _ _ c hseg (by
    rw [hLlen]
    have : (cid * ms.num_buckets + a) * (ms.p1 * ms.num_chunks) + r * (ms.p1 * ms.num_chunks)
      = (cid * ms.num_buckets + a + r) * (ms.p1 * ms.num_chunks) := by ring
    omega)
  rw [hLlen] at hgr
  rw [hgr, ok_bind]
  dsimp only
  have hdk : dummy.key = INT32_MAX := rfl
  have hI : INT32_MAX = 2147483647 := by decide
  have hsz := hg.size_lt
  have hmemL : ∀ e, e ∈ ((List.range r).map (fun t =>
      pad (ms.p1 * ms.num_chunks) (ms.bin1 X cid (a + t)))).flatten → e ∈ X ∨ e = dummy := by
    intro e he
    obtain ⟨t, _, he2⟩ := mem_flatten_range _ _ _ he
    rcases mem_pad _ _ _ he2 with h | h
    · exact Or.inl (mem_bin1 ms X cid _ e h)
    · exact Or.inr h
  rw [map_mask_id _ (fun e he => by
    rcases hmemL e he with h | h
    · have := hkey e h; omega
    · rw [h, hdk, hI]; decide)]
  refine post_bind _ _ (fun rb => rb = (List.range ms.buckets_per_chunk).map (fun b =>
    ms.bin2 X cid j b)) _ (Or.inr ⟨_, foldlM_bins ms.buckets_per_chunk _
      (fun e => decide (e.key ≠ INT32_MAX))
      (fun e => ms.pi.place e / ms.bucket_width % ms.buckets_per_chunk) _ ?_ ?_ _ (by simp),
      ?_⟩) ?_
  · intro rb e hrb he
    by_cases hk : e.key = INT32_MAX
    · simp [hk]
      rfl
    · have hk2 : decide (e.key ≠ INT32_MAX) = true := by simp [hk]
      rw [if_pos hk, if_pos hk2]
      rcases hmemL e he with h | h
      · rw [eval_perm_place _ _ (by rw [hlen]; exact hkey e h), ok_bind]
      · rw [h] at hk; exact absurd hdk hk
  · intro e _ _
    exact Nat.mod_lt _ hbpc
  · apply List.map_congr_left
    intro b hb
    rw [List.mem_range] at hb
    rw [filter_flatten_pad (fun t => ms.bin1 X cid (a + t)) _ r _ (by simp [hdk])]
    simp only [melbshuffle.bin2, melbshuffle.grp, hadef, hrdef]
    simp [List.getD_eq_getElem?_getD, List.getElem?_replicate, hb]
  · intro rb hrb
    subst hrb
    have hidx : ∀ i, i < ms.buckets_per_chunk →
        ((cid * ms.buckets_per_chunk + i) * ms.buckets_per_chunk + j + 1) *
          (ms.p2 * ms.num_chunks) ≤ W32 := by
      intro i hi
      have h2 : (cid * ms.buckets_per_chunk + i) * ms.buckets_per_chunk + j + 1 ≤
          ms.num_chunks * ms.buckets_per_chunk * ms.buckets_per_chunk := by
        have e1 : (cid * ms.buckets_per_chunk + i + 1) * ms.buckets_per_chunk ≤
            ms.num_chunks * ms.buckets_per_chunk * ms.buckets_per_chunk := by
          apply Nat.mul_le_mul_right
          have : (cid + 1) * ms.buckets_per_chunk ≤ ms.num_chunks * ms.buckets_per_chunk :=
            Nat.mul_le_mul_right _ (by omega)
          rw [Nat.add_mul, Nat.one_mul] at this
          omega
        rw [Nat.add_mul (cid * ms.buckets_per_chunk + i), Nat.one_mul] at e1
        omega
      exact Nat.le_of_lt (Nat.lt_of_le_of_lt (Nat.mul_le_mul_right _ h2) ht2)
    have hoff2 : (cid * (ms.p2 * ms.num_chunks) * ms.buckets_per_chunk * ms.buckets_per_chunk +
        j * (ms.p2 * ms.num_chunks)) % W32 =
        cid * (ms.p2 * ms.num_chunks) * ms.buckets_per_chunk * ms.buckets_per_chunk +
        j * (ms.p2 * ms.num_chunks) := by
      apply Nat.mod_eq_of_lt
      have := hidx 0 hbpc
      have e : ((cid * ms.buckets_per_chunk + 0) * ms.buckets_per_chunk + j + 1) *
          (ms.p2 * ms.num_chunks) =
          cid * (ms.p2 * ms.num_chunks) * ms.buckets_per_chunk * ms.buckets_per_chunk +
          j * (ms.p2 * ms.num_chunks) + ms.p2 * ms.num_chunks := by ring
      rcases Nat.eq_zero_or_pos (ms.p2 * ms.num_chunks) with hz | hz
      · rw [hz]; simp; decide
      · omega
    have hblk2 : ms.p2 * ms.num_chunks * ms.buckets_per_chunk % W32 =
        ms.p2 * ms.num_chunks * ms.buckets_per_chunk := by
      apply Nat.mod_eq_of_lt
      calc ms.p2 * ms.num_chunks * ms.buckets_per_chunk
          ≤ ms.num_chunks * ms.buckets_per_chunk *
            (ms.p2 * ms.num_chunks * ms.buckets_per_chunk) :=
            Nat.le_mul_of_pos_left _ (Nat.mul_pos hncp hbpc)
        _ = ms.num_chunks * ms.buckets_per_chunk * ms.buckets_per_chunk *
            (ms.p2 * ms.num_chunks) := by ring
        _ < W32 := ht2
    rw [hoff2, hblk2]
    have hc1T : c1.has T2 := (has_of_table c1 c T2 (by rw [htab])).mpr hT2
    have hconv : ∀ i, cid * (ms.p2 * ms.num_chunks) * ms.buckets_per_chunk *
        ms.buckets_per_chunk + j * (ms.p2 * ms.num_chunks) +
        i * (ms.p2 * ms.num_chunks * ms.buckets_per_chunk) =
        ((cid * ms.buckets_per_chunk + i) * ms.buckets_per_chunk + j) *
          (ms.p2 * ms.num_chunks) := by
      intro i; ring
    refine post_mono _ _ _ (push_bins_spec T2 _ _ _ _ ms.buckets_per_chunk c1 hc1T (by simp)
      (Nat.le_mul_of_pos_right _ hbpc) (fun i hi => by
        rw [hconv i]
        have := hidx i hi
        rw [Nat.add_mul _ 1, Nat.one_mul] at this
        exact this)) (fun c2 h2 => ?_)
    obtain ⟨ho2, hl2, hs2, hf2⟩ := h2
    refine ⟨only_trans _ _ _ _ ho2 (only_of_table c1 c T2 htab), ?_, ?_⟩
    · intro bid hbid
      have h3 := hl2 bid hbid
      have h4 := hs2 bid hbid
      rw [getD_map_range _ _ _ hbid] at h3 h4
      rw [hconv bid] at h4
      exact ⟨h3, h4⟩
    · intro A t ht hA
      rw [hf2, peek_of_table c1 c T2 (by rw [htab])]
      intro i hi
      rw [hconv i]
      exact block_disjoint _ _ _ t (hA i hi) ht

theorem idx_inj (b i1 j1 i2 j2 : Nat) (h1 : j1 < b) (h2 : j2 < b)
    (h : i1 * b + j1 = i2 * b + j2) : i1 = i2 ∧ j1 = j2 := by
  have e1 : (j1 + i1 * b) % b = j1 := by
    rw [Nat.add_mul_mod_self_right, Nat.mod_eq_of_lt h1]
  have e2 : (j2 + i2 * b) % b = j2 := by
    rw [Nat.add_mul_mod_self_right, Nat.mod_eq_of_lt h2]
  have hj : j1 = j2 := by
    rw [← e1, ← e2, Nat.add_comm j1, Nat.add_comm j2, h]
  subst hj
  have hb : 0 < b := by omega
  have := Nat.add_right_cancel h
  exact ⟨Nat.eq_of_mul_eq_mul_right hb this, rfl⟩

theorem phase_2_spec (ms : melbshuffle) (T1 T2 : Nat) (X : List element) (c : cloud)
    (hg : ms.fits) (hT : T1 ≠ T2) (hlen : ms.pi.perm.length = ms.size)
    (hkey : ∀ e, e ∈ X → e.key < ms.size)
    (h1 : ∀ cid id, cid < ms.num_chunks → id < ms.num_buckets →
      (ms.bin1 X cid id).length < ms.p1 * ms.num_chunks ∧
      c.seg T1 ((cid * ms.num_buckets + id) * (ms.p1 * ms.num_chunks))
        (pad (ms.p1 * ms.num_chunks) (ms.bin1 X cid id)))
    (hT2 : c.has T2) :
    post (ms.distribution_phase_2 T1 T2 c) (fun c1 =>
      c1.only c T2 ∧
      ∀ cid j bid, cid < ms.num_chunks → j < ms.buckets_per_chunk →
        bid < ms.buckets_per_chunk →
        (ms.bin2 X cid j bid).length < ms.p2 * ms.num_chunks ∧
        c1.seg T2 (((cid * ms.buckets_per_chunk + bid) * ms.buckets_per_chunk + j) *
          (ms.p2 * ms.num_chunks)) (pad (ms.p2 * ms.num_chunks) (ms.bin2 X cid j bid))) := by
  unfold melbshuffle.distribution_phase_2
  refine post_mono _ _ _ (loop_post (fun k (c1 : cloud) =>
      c1.only c T2 ∧
      ∀ cid j bid, (cid < k ∧ j < ms.buckets_per_chunk) → bid < ms.buckets_per_chunk →
        (ms.bin2 X cid j bid).length < ms.p2 * ms.num_chunks ∧
        c1.seg T2 (((cid * ms.buckets_per_chunk + bid) * ms.buckets_per_chunk + j) *
          (ms.p2 * ms.num_chunks)) (pad (ms.p2 * ms.num_chunks) (ms.bin2 X cid j bid)))
    _ ms.num_chunks c ⟨only_refl c T2, fun cid j bid h => absurd h.1 (by omega)⟩
    (fun cid s hcid hi => ?_)) (fun c1 h => ⟨h.1, fun cid j bid h1 h2 h3 => h.2 cid j bid ⟨h1, h2⟩ h3⟩)
  refine post_mono _ _ _ (loop_post (fun k (c1 : cloud) =>
      c1.only c T2 ∧
      ∀ cid1 j bid, (cid1 < cid ∧ j < ms.buckets_per_chunk ∨ cid1 = cid ∧ j < k) →
        bid < ms.buckets_per_chunk →
        (ms.bin2 X cid1 j bid).length < ms.p2 * ms.num_chunks ∧
        c1.seg T2 (((cid1 * ms.buckets_per_chunk + bid) * ms.buckets_per_chunk + j) *
          (ms.p2 * ms.num_chunks)) (pad (ms.p2 * ms.num_chunks) (ms.bin2 X cid1 j bid)))
    _ ms.buckets_per_chunk s ⟨hi.1, fun cid1 j bid h hb => by
      rcases h with h | h
      · exact hi.2 cid1 j bid h hb
      · exact absurd h.2 (by omega)⟩
    (fun j s2 hj hi2 => ?_)) (fun c1 h => ⟨h.1, fun cid1 j bid h1 h2 => h.2 cid1 j bid (by
      rcases Nat.lt_or_ge cid1 cid with h3 | h3
      · exact Or.inl ⟨h3, h1.2⟩
      · exact Or.inr ⟨by omega, h1.2⟩) h2⟩)
  obtain ⟨ho, hs⟩ := hi2
  refine post_mono _ _ _ (phase_2_body_spec ms T1 T2 X cid j s2 hg hlen hkey hcid hj
    (fun id hid => ⟨(h1 cid id hcid hid).1,
      seg_of_table s2 c T1 (ho.1 T1 hT) _ _ (h1 cid id hcid hid).2⟩) (ho.2 hT2))
    (fun c3 h3 => ?_)
  obtain ⟨ho3, hs3, hf3⟩ := h3
  refine ⟨only_trans _ _ _ _ ho3 ho, ?_⟩
  intro cid1 j1 bid h hb
  by_cases hsame : cid1 = cid ∧ j1 = j
  · obtain ⟨rfl, rfl⟩ := hsame
    exact hs3 bid hb
  · have hold := hs cid1 j1 bid (by
      rcases h with h | h
      · exact Or.inl h
      · refine Or.inr ⟨h.1, ?_⟩
        have : j1 ≠ j := fun e => hsame ⟨h.1, e⟩
        omega) hb
    refine ⟨hold.1, ?_⟩
    intro t ht
    rw [← hold.2 t ht]
    rw [pad_length _ _ (Nat.le_of_lt hold.1)] at ht
    apply hf3 _ t ht
    intro bid2 hbid2 heq
    have hj1 : j1 < ms.buckets_per_chunk := by
      rcases h with h | h
      · exact h.2
      · omega
    obtain ⟨e1, e2⟩ := idx_inj _ _ _ _ _ hj1 hj heq
    obtain ⟨e3, _⟩ := idx_inj _ _ _ _ _ hb hbid2 e1
    exact hsame ⟨e3, e2⟩

theorem flatten_range_split {α : Type} (G : Nat → List α) (a b : Nat) :
    ((List.range a).map G).flatten ++ ((List.range b).map (fun t => G (a + t))).flatten =
      ((List.range (a + b)).map G).flatten := by
  rw [← List.flatten_append, range_split_map]

theorem flatten_groups {α : Type} (G : Nat → List α) (nbins nb : Nat) (k : Nat)
    (hk : (k - 1) * nbins ≤ nb) :
    ((List.range k).map (fun j =>
      ((List.range (if j * nbins + nbins < nb then nbins else nb - j * nbins)).map
        (fun t => G (j * nbins + t))).flatten)).flatten =
      ((List.range (min (k * nbins) nb)).map G).flatten := by
  induction k with
  | zero => simp
  | succ k ih =>
    have hk1 : k * nbins ≤ nb := by simpa using hk
    have hk2 : (k - 1) * nbins ≤ nb :=
      Nat.le_trans (Nat.mul_le_mul_right _ (Nat.sub_le _ _)) hk1
    rw [List.range_succ, List.map_append, List.flatten_append, ih hk2]
    simp only [List.map_cons, List.map_nil, List.flatten_cons, List.flatten_nil,
      List.append_nil]
    rw [Nat.min_eq_left hk1, flatten_range_split]
    congr 3
    rw [Nat.succ_mul]
    split <;> omega

theorem filter_flatten_map {α : Type} (p : α → Bool) (F : Nat → List α) (r : Nat) :
    ((List.range r).map (fun t => (F t).filter p)).flatten =
      (((List.range r).map F).flatten).filter p := by
  induction r with
  | zero => simp
  | succ r ih =>
    simp only [List.range_succ, List.map_append, List.flatten_append, List.filter_append, ih,
      List.map_cons, List.map_nil, List.flatten_cons, List.flatten_nil, List.append_nil]

theorem bin1_flatten (ms : melbshuffle) (X : List element) (cid : Nat)
    (hX : X.length ≤ ms.num_buckets * ms.bucket_width) :
    ((List.range ms.num_buckets).map (fun id => ms.bin1 X cid id)).flatten =
      X.filter (fun e => decide (ms.pi.place e / ms.chunk_width = cid)) := by
  unfold melbshuffle.bin1
  rw [filter_flatten_map _ (fun id => (X.drop (id * ms.bucket_width)).take ms.bucket_width),
    flatten_buckets, List.take_of_length_le hX]

theorem grp_flatten (ms : melbshuffle) (X : List element) (cid : Nat) (hg : ms.fits)
    (hX : X.length = ms.size) :
    ((List.range ms.buckets_per_chunk).map (fun j => ms.grp X cid j)).flatten =
      X.filter (fun e => decide (ms.pi.place e / ms.chunk_width = cid)) := by
  unfold melbshuffle.grp
  simp only
  rw [flatten_groups (fun id => ms.bin1 X cid id) _ _ _ hg.segs,
    Nat.min_eq_right (ceil_div_mul_ge _ _ hg.bpc_pos),
    bin1_flatten ms X cid (by rw [hX]; exact hg.cover)]

theorem bin2_flatten (ms : melbshuffle) (X : List element) (g : Nat) (hg : ms.fits)
    (hX : X.length = ms.size) (hkey : ∀ e, e ∈ X → e.key < ms.size) :
    ((List.range ms.buckets_per_chunk).map (fun j =>
      ms.bin2 X (g / ms.buckets_per_chunk) j (g % ms.buckets_per_chunk))).flatten =
      ms.catchment X g := by
  unfold melbshuffle.bin2
  rw [filter_flatten_map _ (fun j => ms.grp X (g / ms.buckets_per_chunk) j),
    grp_flatten ms X _ hg hX, List.filter_filter]
  unfold melbshuffle.catchment
  apply List.filter_congr
  intro e he
  have h1 := hkey e he
  have h2 := hg.size_lt
  have hI : INT32_MAX = 2147483647 := by decide
  have hk : e.key ≠ INT32_MAX := by omega
  rw [hg.cw_eq, Nat.mul_comm ms.buckets_per_chunk, ← Nat.div_div_eq_div_mul]
  simp only [hk, ne_eq, not_false_eq_true, decide_True, Bool.true_and]
  generalize ms.pi.place e / ms.bucket_width = q
  have e1 := Nat.div_add_mod q ms.buckets_per_chunk
  have e2 := Nat.div_add_mod g ms.buckets_per_chunk
  by_cases hq : q = g
  · subst hq; simp
  · have : ¬ (q % ms.buckets_per_chunk = g % ms.buckets_per_chunk ∧
        q / ms.buckets_per_chunk = g / ms.buckets_per_chunk) := by
      intro ⟨h3, h4⟩
      rw [h3, h4] at e1
      exact hq (e1.symm.trans e2)
    simp only [hq, decide_False]
    rw [Bool.and_eq_false_iff]
    by_cases h5 : q % ms.buckets_per_chunk = g % ms.buckets_per_chunk
    · right
      simp only [decide_eq_false_iff_not]
      intro h6
      exact this ⟨h5, h6⟩
    · left
      simp [h5]

theorem div_eq_iff_block (v bw g : Nat) (hbw : 0 < bw) :
    v / bw = g ↔ g * bw ≤ v ∧ v < g * bw + bw := by
  constructor
  · intro h
    subst h
    have h1 := Nat.div_add_mod v bw
    have h2 := Nat.mod_lt v hbw
    rw [Nat.mul_comm] at h1
    omega
  · intro ⟨h1, h2⟩
    apply Nat.div_eq_of_lt_le
    · exact h1
    · rw [Nat.succ_mul]; exact h2

theorem filter_div_range (n bw g : Nat) (hbw : 0 < bw) :
    (List.range n).filter (fun v => decide (v / bw = g)) =
      List.range' (g * bw) (min bw (n - g * bw)) := by
  apply List.eq_of_perm_of_sorted (r := fun a b => a < b)
  · rw [List.perm_ext_iff_of_nodup ((List.nodup_range n).filter _) (List.nodup_range' _ _)]
    intro a
    simp only [List.mem_filter, List.mem_range, decide_eq_true_eq, List.mem_range'_1,
      div_eq_iff_block a bw g hbw]
    omega
  · exact (List.sorted_lt_range n).filter _
  · exact List.pairwise_lt_range' _ _

theorem place_map_perm (p : permutation) (n : Nat) (X : List element)
    (hpi : p.perm.Perm (List.range n))
    (hX : (X.map (fun e => e.key)).Perm (List.range n)) :
    (X.map (fun e => p.place e)).Perm (List.range n) := by
  have hlen : p.perm.length = n := by rw [hpi.length_eq, List.length_range]
  have h1 : X.map (fun e => p.place e) = (X.map (fun e => e.key)).map (fun k => p.perm.getD k 0) := by
    rw [List.map_map]
    rfl
  rw [h1]
  refine (hX.map _).trans ?_
  have h2 : (List.range n).map (fun k => p.perm.getD k 0) = p.perm := by
    apply List.ext_getElem
    · simp [hlen]
    · intro i h3 h4
      simp only [List.length_map, List.length_range] at h3
      simp [List.getD_eq_getElem?_getD, List.getElem?_eq_getElem h4]
  rw [h2]
  exact hpi

theorem sort_by_aux_eq (L : List element) :
    sort_by_aux L = L.insertionSort (fun x y => x.aux ≤ y.aux) := by
  induction L with
  | nil => rfl
  | cons e rest ih => simp only [sort_by_aux, List.insertionSort, ih]

theorem sort_by_aux_perm (L : List element) : (sort_by_aux L).Perm L := by
  rw [sort_by_aux_eq]
  exact List.perm_insertionSort _ _

theorem sort_by_aux_sorted (L : List element) :
    ((sort_by_aux L).map (fun e => e.aux)).Sorted (fun a b => a ≤ b) := by
  rw [sort_by_aux_eq]
  have hT : IsTotal element (fun x y => x.aux ≤ y.aux) := ⟨fun a b => Nat.le_total _ _⟩
  have hR : IsTrans element (fun x y => x.aux ≤ y.aux) := ⟨fun a b c => Nat.le_trans⟩
  have := List.sorted_insertionSort (fun (x y : element) => x.aux ≤ y.aux) L
  unfold List.Sorted at *
  rw [List.pairwise_map]
  exact this

theorem sorted_catchment (ms : melbshuffle) (X : List element) (g : Nat)
    (hbw : 0 < ms.bucket_width)
    (hpi : ms.pi.perm.Perm (List.range ms.size))
    (hX : (X.map (fun e => e.key)).Perm (List.range ms.size)) :
    ((sort_by_aux ((ms.catchment X g).map
      (fun e => { e with aux := ms.pi.place e }))).map (fun e => e.aux)) =
      List.range' (g * ms.bucket_width)
        (min ms.bucket_width (ms.size - g * ms.bucket_width)) := by
  apply List.eq_of_perm_of_sorted (r := fun a b => a ≤ b)
  · refine ((sort_by_aux_perm _).map _).trans ?_
    rw [List.map_map]
    have h1 : (ms.catchment X g).map ((fun e => e.aux) ∘ fun e =>
        ({ e with aux := ms.pi.place e } : element)) =
        (X.map (fun e => ms.pi.place e)).filter (fun v => decide (v / ms.bucket_width = g)) := by
      rw [List.filter_map]
      rfl
    rw [h1, ← filter_div_range ms.size ms.bucket_width g hbw]
    exact (place_map_perm ms.pi ms.size X hpi hX).filter _
  · exact sort_by_aux_sorted _
  · exact (List.pairwise_lt_range' _ _).imp (fun h => Nat.le_of_lt h)

theorem loop_inv_mono {σ : Type} (Inv : Nat → σ → Prop) (Q : σ → Prop)
    (body : Nat → σ → Except Fault σ) (n : Nat) (s : σ) (h0 : Inv 0 s)
    (hstep : ∀ k s, k < n → Inv k s → ∃ s1, body k s = .ok s1 ∧ Inv (k + 1) s1)
    (hQ : ∀ s, Inv n s → Q s) :
    ∃ s1, loop n body s = .ok s1 ∧ Q s1 := by
  obtain ⟨s1, h1, h2⟩ := loop_inv Inv body n s h0 hstep
  exact ⟨s1, h1, hQ s1 h2⟩

theorem foldlM_collect (step : List element → element → Except Fault (List element))
    (keep : element → Bool) (f : element → element) (L : List element)
    (hstep : ∀ acc e, e ∈ L → step acc e = if keep e then .ok (acc ++ [f e]) else .ok acc) :
    ∀ init : List element,
      L.foldlM step init = .ok (init ++ (L.filter keep).map f) := by
  induction L with
  | nil => intro init; simp [List.foldlM, pure, Except.pure]
  | cons e rest ih =>
    intro init
    simp only [List.foldlM]
    rw [hstep init e (List.mem_cons_self _ _)]
    have ih2 := ih (fun acc x hx => hstep acc x (List.mem_cons_of_mem _ hx))
    by_cases hk : keep e = true
    · rw [if_pos hk, ok_bind, ih2]
      simp [List.filter_cons, hk]
    · rw [if_neg hk, ok_bind, ih2]
      simp [List.filter_cons, hk]

theorem put_bucket_spec (ms : melbshuffle) (O off : Nat) (bucket : List element) (c : cloud)
    (r : Nat)
    (hr : (if (off + ms.bucket_width) % W32 < ms.size then ms.bucket_width
           else (ms.size + W32 - off) % W32) = r)
    (hlen : r ≤ bucket.length) (hov : off + r ≤ W32) (hO : c.has O) :
    ∃ c1, ms.put_bucket O off bucket c = .ok c1 ∧ c1.only c O ∧
      ∀ j, c1.peek O j = if off ≤ j ∧ j < off + r
        then some { key := (bucket.getD (j - off) dummy).key, aux := 0 } else c.peek O j := by
  unfold melbshuffle.put_bucket
  simp only [hr]
  exact loop_puts O off r _ (fun i => { key := (bucket.getD i dummy).key, aux := 0 })
    (fun k c hk => by
      have hk2 : k < bucket.length := by omega
      simp only [List.getElem?_eq_getElem hk2]
      rw [Nat.mod_eq_of_lt (by omega)]
      simp [List.getD_eq_getElem?_getD, List.getElem?_eq_getElem hk2]) c hO

theorem cleanup_spec (ms : melbshuffle) (T O : Nat) (X : List element) (c : cloud)
    (hg : ms.fits) (hTO : T ≠ O) (hpi : ms.pi.perm.Perm (List.range ms.size))
    (hXlen : X.length = ms.size)
    (hX : (X.map (fun e => e.key)).Perm (List.range ms.size))
    (h2 : ∀ cid j bid, cid < ms.num_chunks → j < ms.buckets_per_chunk →
      bid < ms.buckets_per_chunk →
      (ms.bin2 X cid j bid).length < ms.p2 * ms.num_chunks ∧
      c.seg T (((cid * ms.buckets_per_chunk + bid) * ms.buckets_per_chunk + j) *
        (ms.p2 * ms.num_chunks)) (pad (ms.p2 * ms.num_chunks) (ms.bin2 X cid j bid)))
    (hO : c.has O) :
    ∃ c1, ms.cleanup_phase T O c = .ok c1 ∧ c1.only c O ∧
      ∀ e, e ∈ X → c1.peek O (ms.pi.place e) = some { key := e.key, aux := 0 } := by
  have hW : W32 = 4294967296 := by decide
  have hI : INT32_MAX = 2147483647 := by decide
  have hdk : dummy.key = INT32_MAX := rfl
  have hsz := hg.size_lt
  have hbw := hg.bw_pos
  have hbpc := hg.bpc_pos
  have hncp := fits_nc_pos ms hg
  have hlen : ms.pi.perm.length = ms.size := by rw [hpi.length_eq, List.length_range]
  have hnd : ms.pi.perm.Nodup := hpi.nodup_iff.mpr (List.nodup_range _)
  have hkey : ∀ e, e ∈ X → e.key < ms.size := fun e he =>
    List.mem_range.mp (hX.mem_iff.mp (List.mem_map.mpr ⟨e, he, rfl⟩))
  have hplace : ∀ e, e ∈ X → ms.pi.place e < ms.size := fun e he =>
    place_lt ms.pi ms.size hpi e (hkey e he)
  have ht2 := hg.t2
  have hbs : ms.buckets_per_chunk * (ms.p2 * ms.num_chunks) % W32 =
      ms.buckets_per_chunk * (ms.p2 * ms.num_chunks) := by
    apply Nat.mod_eq_of_lt
    calc ms.buckets_per_chunk * (ms.p2 * ms.num_chunks)
        ≤ ms.num_chunks * ms.buckets_per_chunk *
          (ms.buckets_per_chunk * (ms.p2 * ms.num_chunks)) :=
          Nat.le_mul_of_pos_left _ (Nat.mul_pos hncp hbpc)
      _ = ms.num_chunks * ms.buckets_per_chunk * ms.buckets_per_chunk *
          (ms.p2 * ms.num_chunks) := by ring
      _ < W32 := ht2
  unfold melbshuffle.cleanup_phase
  simp only [fits_ml2 ms hg, hbs]
  refine loop_inv_mono (fun g (c1 : cloud) =>
      c1.only c O ∧ ∀ e, e ∈ X → ms.pi.place e / ms.bucket_width < g →
        c1.peek O (ms.pi.place e) = some { key := e.key, aux := 0 }) _ _ ms.num_buckets c
    ⟨only_refl c O, fun e _ h => absurd h (Nat.not_lt_zero _)⟩ (fun g s hgn hi => ?_)
    (fun c1 h => ?_)
  rotate_left
  · refine ⟨h.1, fun e he => h.2 e he ?_⟩
    apply Nat.div_lt_of_lt_mul
    rw [Nat.mul_comm]
    exact Nat.lt_of_lt_of_le (hplace e he) hg.cover
  obtain ⟨ho, hs⟩ := hi
  -- the block of bins read
  have hgc : g / ms.buckets_per_chunk < ms.num_chunks := by
    apply Nat.div_lt_of_lt_mul
    rw [Nat.mul_comm]
    exact Nat.lt_of_lt_of_le hgn hg.chunks
  have hgb : g % ms.buckets_per_chunk < ms.buckets_per_chunk := Nat.mod_lt _ hbpc
  have hgdm : g / ms.buckets_per_chunk * ms.buckets_per_chunk + g % ms.buckets_per_chunk = g :=
    Nat.div_add_mod' g _
  have hgle : (g + 1) * (ms.buckets_per_chunk * (ms.p2 * ms.num_chunks)) < W32 := by
    have e1 : (g + 1) * ms.buckets_per_chunk ≤ ms.num_chunks * ms.buckets_per_chunk *
        ms.buckets_per_chunk := by
      apply Nat.mul_le_mul_right
      exact Nat.le_trans (by omega) hg.chunks
    calc (g + 1) * (ms.buckets_per_chunk * (ms.p2 * ms.num_chunks))
        = (g + 1) * ms.buckets_per_chunk * (ms.p2 * ms.num_chunks) := by ring
      _ ≤ ms.num_chunks * ms.buckets_per_chunk * ms.buckets_per_chunk *
          (ms.p2 * ms.num_chunks) := Nat.mul_le_mul_right _ e1
      _ < W32 := ht2
  rw [Nat.add_mul, Nat.one_mul] at hgle
  have hm : g * (ms.buckets_per_chunk * (ms.p2 * ms.num_chunks)) % W32 =
      g * (ms.buckets_per_chunk * (ms.p2 * ms.num_chunks)) := Nat.mod_eq_of_lt (by omega)
  have hpl : ∀ j, j < ms.buckets_per_chunk →
      (pad (ms.p2 * ms.num_chunks) (ms.bin2 X (g / ms.buckets_per_chunk) j
        (g % ms.buckets_per_chunk))).length = ms.p2 * ms.num_chunks :=
    fun j hj => pad_length _ _ (Nat.le_of_lt (h2 _ j _ hgc hj hgb).1)
  have hLlen := flatten_length_const
    (fun j => pad (ms.p2 * ms.num_chunks) (ms.bin2 X (g / ms.buckets_per_chunk) j
      (g % ms.buckets_per_chunk))) _ ms.buckets_per_chunk hpl
  have hseg : s.seg T (g * (ms.buckets_per_chunk * (ms.p2 * ms.num_chunks)))
      ((List.range ms.buckets_per_chunk).map (fun j =>
        pad (ms.p2 * ms.num_chunks) (ms.bin2 X (g / ms.buckets_per_chunk) j
          (g % ms.buckets_per_chunk)))).flatten := by
    apply seg_flatten _ _ _ (ms.p2 * ms.num_chunks) _ _ hpl
    intro j hj
    have := seg_of_table s c T (ho.1 T hTO) _ _ (h2 _ j _ hgc hj hgb).2
    rw [hgdm] at this
    rw [show g * (ms.buckets_per_chunk * (ms.p2 * ms.num_chunks)) + j * (ms.p2 * ms.num_chunks)
      = (g * ms.buckets_per_chunk + j) * (ms.p2 * ms.num_chunks) by ring]
    exact this
  obtain ⟨c2, hgr, htab⟩ := get_range_spec T _ _ s hseg (by rw [hLlen]; omega)
  rw [hLlen] at hgr
  simp only [hm]
  rw [hgr, ok_bind]
  dsimp only
  have hmemL : ∀ e, e ∈ ((List.range ms.buckets_per_chunk).map (fun j =>
      pad (ms.p2 * ms.num_chunks) (ms.bin2 X (g / ms.buckets_per_chunk) j
        (g % ms.buckets_per_chunk)))).flatten → e ∈ X ∨ e = dummy := by
    intro e he
    obtain ⟨t, _, he2⟩ := mem_flatten_range _ _ _ he
    rcases mem_pad _ _ _ he2 with h | h
    · left
      unfold melbshuffle.bin2 melbshuffle.grp at h
      obtain ⟨t2, _, he3⟩ := mem_flatten_range _ _ _ (List.mem_of_mem_filter h)
      exact mem_bin1 ms X _ _ e he3
    · exact Or.inr h
  rw [map_mask_id _ (fun e he => by
    rcases hmemL e he with h | h
    · have := hkey e h; omega
    · rw [h, hdk, hI]; decide)]
  rw [foldlM_collect _ (fun e => decide (e.key ≠ INT32_MAX))
    (fun e => { e with aux := ms.pi.place e }) _ (fun acc e he => by
      by_cases hk : e.key = INT32_MAX
      · simp [hk]
        rfl
      · have hk2 : decide (e.key ≠ INT32_MAX) = true := by simp [hk]
        rw [if_pos hk, if_pos hk2]
        rcases hmemL e he with h | h
        · rw [eval_perm_place _ _ (by rw [hlen]; exact hkey e h), ok_bind]
          rfl
        · rw [h] at hk; exact absurd hdk hk), ok_bind]
  rw [filter_flatten_pad (fun j => ms.bin2 X (g / ms.buckets_per_chunk) j
    (g % ms.buckets_per_chunk)) _ _ _ (by simp [hdk]),
    bin2_flatten ms X g hg hXlen hkey, List.nil_append]
  have hfs : (ms.catchment X g).filter (fun e => decide (e.key ≠ INT32_MAX)) =
      ms.catchment X g := by
    rw [List.filter_eq_self]
    intro e he
    have := hkey e (List.mem_of_mem_filter he)
    simp only [decide_eq_true_eq]
    omega
  rw [hfs]
  have hS := sorted_catchment ms X g hbw hpi hX
  generalize hSdef : sort_by_aux ((ms.catchment X g).map
    (fun e => ({ e with aux := ms.pi.place e } : element))) = S at hS ⊢
  have hSlen : S.length = min ms.bucket_width (ms.size - g * ms.bucket_width) := by
    have := congrArg List.length hS
    simpa using this
  have hgw : g * ms.bucket_width ≤ (ms.num_buckets - 1) * ms.bucket_width :=
    Nat.mul_le_mul_right _ (by omega)
  have hlast := hg.last
  have hm2 : g * ms.bucket_width % W32 = g * ms.bucket_width := Nat.mod_eq_of_lt (by omega)
  rw [hm2]
  obtain ⟨c3, hpb, ho3, hp3⟩ := put_bucket_spec ms O (g * ms.bucket_width) S c2
    (min ms.bucket_width (ms.size - g * ms.bucket_width)) (by
      by_cases hc : g * ms.bucket_width + ms.bucket_width < ms.size
      · rw [Nat.mod_eq_of_lt (by omega), if_pos hc]
        omega
      · have hwd := hg.width
        have : (g + 1) * ms.bucket_width ≤ ms.num_buckets * ms.bucket_width :=
          Nat.mul_le_mul_right _ (by omega)
        rw [Nat.add_mul, Nat.one_mul] at this
        rw [Nat.mod_eq_of_lt (by omega), if_neg hc,
          show ms.size + W32 - g * ms.bucket_width = (ms.size - g * ms.bucket_width) + W32
            by omega, Nat.add_mod_right, Nat.mod_eq_of_lt (by omega)]
        omega) (by omega) (by omega)
    ((has_of_table c2 s O (by rw [htab])).mpr (ho.2 hO))
  refine ⟨c3, hpb, only_trans _ _ _ _ ho3 (only_trans _ _ _ _ (only_of_table c2 s O htab) ho),
    ?_⟩
  intro e he hlt
  rw [hp3]
  by_cases heq : ms.pi.place e / ms.bucket_width = g
  · obtain ⟨hv1, hv2⟩ := (div_eq_iff_block _ _ _ hbw).mp heq
    have hv3 := hplace e he
    rw [if_pos ⟨hv1, by omega⟩]
    have hi : ms.pi.place e - g * ms.bucket_width < S.length := by omega
    have hsi : (S.map (fun e => e.aux))[ms.pi.place e - g * ms.bucket_width]? =
        some (ms.pi.place e) := by
      rw [hS, List.getElem?_range' _ _ (by omega)]
      congr 1
      omega
    obtain ⟨s0, hs0⟩ : ∃ s0, S[ms.pi.place e - g * ms.bucket_width]? = some s0 :=
      ⟨_, List.getElem?_eq_getElem hi⟩
    rw [List.getElem?_map, hs0] at hsi
    simp only [Option.map_some', Option.some.injEq] at hsi
    have hmem : s0 ∈ S := List.getElem?_mem hs0
    rw [← hSdef] at hmem
    have hmem2 := (sort_by_aux_perm _).mem_iff.mp hmem
    rw [List.mem_map] at hmem2
    obtain ⟨e2, he2, he3⟩ := hmem2
    have he2X : e2 ∈ X := List.mem_of_mem_filter he2
    have hpe : ms.pi.place e2 = ms.pi.place e := by
      rw [← hsi, ← he3]
    have hkk := place_inj ms.pi hnd e2 e (by rw [hlen]; exact hkey e2 he2X)
      (by rw [hlen]; exact hkey e he) hpe
    rw [List.getD_eq_getElem?_getD, hs0, Option.getD_some, ← he3]
    simp only [hkk]
  · have hlt2 : ms.pi.place e / ms.bucket_width < g := by omega
    have hv : ms.pi.place e < g * ms.bucket_width := by
      have := (Nat.div_lt_iff_lt_mul hbw).mp hlt2
      exact this
    rw [if_neg (by omega), peek_of_table c2 s O (by rw [htab])]
    exact hs e he hlt2

theorem only_has (c1 c : cloud) (T U : Nat) (h : c1.only c T) (hU : c.has U) : c1.has U := by
  by_cases hUT : U = T
  · subst hUT; exact h.2 hU
  · exact (has_of_table c1 c U (h.1 U hUT)).mpr hU

theorem shuffle_pass_spec (ms : melbshuffle) (I T1 T2 O : Nat) (X : List element) (c : cloud)
    (hg : ms.fits) (hIT : I ≠ T1) (hT : T1 ≠ T2) (hTO : T2 ≠ O)
    (hpi : ms.pi.perm.Perm (List.range ms.size))
    (hXlen : X.length = ms.size)
    (hX : (X.map (fun e => e.key)).Perm (List.range ms.size))
    (hI : c.seg I 0 X) (hT1 : c.has T1) (hT2 : c.has T2) (hO : c.has O) :
    post (ms.shuffle_pass I T1 T2 O c) (fun c1 =>
      (∀ U, U ≠ T1 → U ≠ T2 → U ≠ O → c1.table U = c.table U) ∧
      (∀ U, c.has U → c1.has U) ∧
      ∀ e, e ∈ X → c1.peek O (ms.pi.place e) = some { key := e.key, aux := 0 }) := by
  have hsz := hg.size_lt
  have hlen : ms.pi.perm.length = ms.size := by rw [hpi.length_eq, List.length_range]
  have hkey : ∀ e, e ∈ X → e.key < ms.size := fun e he =>
    List.mem_range.mp (hX.mem_iff.mp (List.mem_map.mpr ⟨e, he, rfl⟩))
  unfold melbshuffle.shuffle_pass
  refine post_bind _ _ _ _ (phase_1_spec ms I T1 X c hg hIT hI hXlen (fun e he =>
    ⟨by rw [hlen]; exact hkey e he, by have := hkey e he; omega,
      place_lt ms.pi ms.size hpi e (hkey e he)⟩) hT1) (fun c1 h1 => ?_)
  obtain ⟨ho1, hs1⟩ := h1
  refine post_bind _ _ _ _ (phase_2_spec ms T1 T2 X c1 hg hT hlen hkey hs1
    (only_has c1 c T1 T2 ho1 hT2)) (fun c2 h2 => ?_)
  obtain ⟨ho2, hs2⟩ := h2
  obtain ⟨c3, hrun, ho3, hs3⟩ := cleanup_spec ms T2 O X c2 hg hTO hpi hXlen hX hs2
    (only_has c2 c1 T2 O ho2 (only_has c1 c T1 O ho1 hO))
  refine Or.inr ⟨c3, hrun, ?_, ?_, hs3⟩
  · intro U h1 h2 h3
    rw [ho3.1 U h3, ho2.1 U h2, ho1.1 U h1]
  · intro U hU
    exact only_has c3 c2 O U ho3 (only_has c2 c1 T2 U ho2 (only_has c1 c T1 U ho1 hU))

theorem least_from_spec (P : Nat → Bool) :
    ∀ fuel r, P (r + fuel) = true →
      P (least_from P fuel r) = true ∧ r ≤ least_from P fuel r ∧
      ∀ x, r ≤ x → x < least_from P fuel r → P x = false := by
  intro fuel
  induction fuel with
  | zero =>
    intro r h
    simp only [least_from]
    exact ⟨h, Nat.le_refl _, fun x h1 h2 => absurd h2 (by omega)⟩
  | succ fuel ih =>
    intro r h
    simp only [least_from]
    by_cases hp : P r = true
    · rw [if_pos hp]
      exact ⟨hp, Nat.le_refl _, fun x h1 h2 => absurd h2 (by omega)⟩
    · rw [if_neg hp]
      obtain ⟨h1, h2, h3⟩ := ih (r + 1) (by rw [show r + 1 + fuel = r + (fuel + 1) by omega]; exact h)
      refine ⟨h1, by omega, fun x hx1 hx2 => ?_⟩
      by_cases hxr : x = r
      · subst hxr; simpa using hp
      · exact h3 x (by omega) hx2

theorem ceil_root_spec (k n : Nat) (hk : 1 ≤ k) (hn : 1 ≤ n) :
    n ≤ ceil_root k n ^ k ∧ ∀ x, x < ceil_root k n → x ^ k < n := by
  have hP : (fun r => decide (n ≤ r ^ k)) (0 + n) = true := by
    simp only [Nat.zero_add, decide_eq_true_eq]
    calc n = n ^ 1 := (Nat.pow_one n).symm
      _ ≤ n ^ k := Nat.pow_le_pow_right hn hk
  obtain ⟨h1, _, h3⟩ := least_from_spec (fun r => decide (n ≤ r ^ k)) n 0 hP
  unfold ceil_root
  refine ⟨by simpa using h1, fun x hx => ?_⟩
  have := h3 x (Nat.zero_le _) hx
  simp only [decide_eq_false_iff_not, Nat.not_le] at this
  exact this

theorem pred_mul_add (a b : Nat) (ha : 1 ≤ a) : (a - 1) * b + b = a * b := by
  obtain ⟨k, rfl⟩ : ∃ k, a = k + 1 := ⟨a - 1, by omega⟩
  rw [Nat.add_sub_cancel, Nat.succ_mul]

theorem init_fits (pi : permutation) (n p1 p2 : Nat) (hn : 1 ≤ n) (hn2 : n < 2 ^ 31)
    (h1 : ceil_root 4 n * ceil_root 2 n * (p1 * ceil_root 4 n) < 2 ^ 32)
    (h2 : ceil_root 4 n * ceil_div (ceil_root 2 n) (ceil_root 4 n) *
      ceil_div (ceil_root 2 n) (ceil_root 4 n) * (p2 * ceil_root 4 n) < 2 ^ 32) :
    (melbshuffle.init pi n p1 p2).fits := by
  obtain ⟨A1, A2⟩ := ceil_root_spec 2 n (by omega) hn
  obtain ⟨B1, B2⟩ := ceil_root_spec 4 n (by omega) hn
  unfold melbshuffle.init
  simp only []
  generalize ceil_root 2 n = nb at *
  generalize ceil_root 4 n = nc at *
  have hW : W32 = 4294967296 := by decide
  norm_num at h1 h2
  simp only [hW]
  have hnb1 : 1 ≤ nb := by
    rcases Nat.eq_zero_or_pos nb with h | h
    · subst h; simp at A1; omega
    · exact h
  have hnc1 : 1 ≤ nc := by
    rcases Nat.eq_zero_or_pos nc with h | h
    · subst h; simp at B1; omega
    · exact h
  have hnbu : nb ≤ 46341 := by
    by_contra hc
    have := A2 46341 (by omega)
    norm_num at this
    omega
  have hsq : nb * nb ≤ 46341 * 46341 := Nat.mul_le_mul hnbu hnbu
  have hsq2 : nb ≤ nb * nb := Nat.le_mul_of_pos_left _ hnb1
  have hA1 : n ≤ nb * nb := by rw [← Nat.pow_two]; exact A1
  have hA2 : (nb - 1) * (nb - 1) < n := by
    rw [← Nat.pow_two]; exact A2 (nb - 1) (by omega)
  have hcond : (nb * nb % 4294967296 + 4294967296 - nb) % 4294967296 = nb * nb - nb := by
    have e1 : nb * nb % 4294967296 = nb * nb := Nat.mod_eq_of_lt (by omega)
    rw [e1, show nb * nb + 4294967296 - nb = (nb * nb - nb) + 4294967296 by omega,
      Nat.add_mod_right]
    exact Nat.mod_eq_of_lt (by omega)
  have hdec : (nb + 4294967296 - 1) % 4294967296 = nb - 1 := by
    rw [show nb + 4294967296 - 1 = (nb - 1) + 4294967296 by omega, Nat.add_mod_right]
    exact Nat.mod_eq_of_lt (by omega)
  have hmul : nb * nb - nb = nb * (nb - 1) := by
    rw [Nat.mul_sub, Nat.mul_one]
  have hmul2 : (nb - 1) * nb = nb * nb - nb := by
    rw [Nat.sub_mul, Nat.one_mul]
  simp only [hcond, hdec]
  generalize hbwdef : (if nb * nb - nb ≥ n then nb - 1 else nb) = bw
  have hbw1 : 1 ≤ bw := by
    rw [← hbwdef]
    split
    · rename_i hc
      rcases Nat.lt_or_ge nb 2 with h | h
      · have : nb = 1 := by omega
        subst this
        simp at hc
        omega
      · omega
    · exact hnb1
  have hbwle : bw ≤ nb := by
    rw [← hbwdef]; split <;> omega
  have hcover : n ≤ nb * bw := by
    rw [← hbwdef]
    split
    · rename_i hc; rw [← hmul]; exact hc
    · exact hA1
  have hlast : (nb - 1) * bw < n := by
    rw [← hbwdef]
    split
    · exact hA2
    · rename_i hc; rw [hmul2]; omega
  have hwidth : nb * bw < 4294967296 := by
    have : nb * bw ≤ nb * nb := Nat.mul_le_mul_left _ hbwle
    omega
  -- buckets per chunk
  have hbpc1 : 1 ≤ ceil_div nb nc := by
    unfold ceil_div
    rw [Nat.le_div_iff_mul_le (by omega)]
    omega
  have hbpcle : ceil_div nb nc ≤ nb := ceil_div_le nb nc (by omega)
  have hchunks : nb ≤ nc * ceil_div nb nc := ceil_div_mul_ge nb nc (by omega)
  have hnbnc : nb ≤ nc * nc := by
    by_contra hc
    have := A2 (nc * nc) (by omega)
    have e : (nc * nc) ^ 2 = nc ^ 4 := by ring
    rw [e] at this
    omega
  have hbpcnc : ceil_div nb nc ≤ nc := by
    unfold ceil_div
    apply Nat.le_of_lt_succ
    rw [Nat.div_lt_iff_lt_mul (by omega)]
    have : Nat.succ nc * nc = nc * nc + nc := by rw [Nat.succ_mul]
    omega
  have hbpcm : (ceil_div nb nc - 1) * nc < nb := by
    have h3 : ceil_div nb nc * nc ≤ nb + nc - 1 := by
      unfold ceil_div
      exact Nat.div_mul_le_self _ _
    have h4 := pred_mul_add (ceil_div nb nc) nc hbpc1
    omega
  generalize hbpcdef : ceil_div nb nc = bpc at *
  have hq1 : bpc - 1 ≤ ceil_div nb bpc := by
    unfold ceil_div
    rw [Nat.le_div_iff_mul_le (by omega)]
    have : (bpc - 1) * bpc ≤ (bpc - 1) * nc := Nat.mul_le_mul_left _ hbpcnc
    omega
  have hsegs : (bpc - 1) * ceil_div nb bpc ≤ nb := by
    have h3 : ceil_div nb bpc * bpc ≤ nb + bpc - 1 := by
      unfold ceil_div
      exact Nat.div_mul_le_self _ _
    have h4 := pred_mul_add bpc (ceil_div nb bpc) hbpc1
    rw [Nat.mul_comm bpc] at h4
    omega
  have hcw : bpc * bw % 4294967296 = bpc * bw := by
    apply Nat.mod_eq_of_lt
    have : bpc * bw ≤ nb * bw := Nat.mul_le_mul_right _ hbpcle
    omega
  exact {
    size_lt := hn2
    bw_pos := hbw1
    cover := hcover
    last := hlast
    width := hwidth
    cw_eq := hcw
    bpc_pos := hbpc1
    chunks := hchunks
    segs := hsegs
    t1 := by rw [hW]; exact h1
    t2 := by rw [hW]; exact h2 }

theorem perm_range_of_nodup (L : List Nat) (n : Nat) (hlen : L.length = n) (hnd : L.Nodup)
    (hlt : ∀ x, x ∈ L → x < n) : L.Perm (List.range n) := by
  have hsub : L ⊆ List.range n := fun x hx => List.mem_range.mpr (hlt x hx)
  exact (List.subperm_of_subset hnd hsub).perm_of_length_le (by simp [hlen])

theorem pass_output_list (p : permutation) (n : Nat) (X : List element) (c1 : cloud) (O : Nat)
    (hpi : p.perm.Perm (List.range n))
    (hX : (X.map (fun e => e.key)).Perm (List.range n))
    (h : ∀ e, e ∈ X → c1.peek O (p.place e) = some { key := e.key, aux := 0 }) :
    ∃ Y : List element, Y.length = n ∧ (Y.map (fun e => e.key)).Perm (List.range n) ∧
      c1.seg O 0 Y := by
  have hkey : ∀ e, e ∈ X → e.key < n := fun e he =>
    List.mem_range.mp (hX.mem_iff.mp (List.mem_map.mpr ⟨e, he, rfl⟩))
  have hex : ∀ v, v < n → ∃ e, e ∈ X ∧ p.place e = v := by
    intro v hv
    have := (place_map_perm p n X hpi hX).mem_iff.mpr (List.mem_range.mpr hv)
    rw [List.mem_map] at this
    exact this
  have hpk : ∀ v, v < n → ∃ e, e ∈ X ∧ p.place e = v ∧
      c1.peek O v = some { key := e.key, aux := 0 } := by
    intro v hv
    obtain ⟨e, he, hp⟩ := hex v hv
    exact ⟨e, he, hp, by rw [← hp]; exact h e he⟩
  refine ⟨(List.range n).map (fun v => (c1.peek O v).getD dummy), by simp, ?_, ?_⟩
  · rw [List.map_map]
    apply perm_range_of_nodup
    · simp
    · apply List.Nodup.map_on _ (List.nodup_range n)
      intro x hx y hy hxy
      obtain ⟨e1, _, hp1, hk1⟩ := hpk x (List.mem_range.mp hx)
      obtain ⟨e2, _, hp2, hk2⟩ := hpk y (List.mem_range.mp hy)
      simp only [Function.comp, hk1, hk2, Option.getD_some] at hxy
      rw [← hp1, ← hp2]
      simp only [permutation.place, hxy]
    · intro k hk
      rw [List.mem_map] at hk
      obtain ⟨v, hv, rfl⟩ := hk
      obtain ⟨e1, he1, _, hk1⟩ := hpk v (List.mem_range.mp hv)
      simp only [Function.comp, hk1, Option.getD_some]
      exact hkey e1 he1
  · intro i hi
    simp only [List.length_map, List.length_range] at hi
    obtain ⟨e1, _, _, hk1⟩ := hpk i hi
    rw [Nat.zero_add, List.getElem?_map, List.getElem?_range hi, hk1]
    simp [hk1]

theorem create_table (c : cloud) (nm len U : Nat) :
    (c.create_array nm len).table U =
      if U = nm then some { length := len, slots := fun _ => none } else c.table U := rfl

theorem create_has_self (c : cloud) (nm len : Nat) : (c.create_array nm len).has nm := by
  simp [cloud.has, create_table]

theorem create_has (c : cloud) (nm len U : Nat) (h : c.has U) :
    (c.create_array nm len).has U := by
  unfold cloud.has at *
  rw [create_table]
  split
  · rfl
  · exact h

theorem create_other (c : cloud) (nm len U : Nat) (h : U ≠ nm) :
    (c.create_array nm len).table U = c.table U := by
  rw [create_table, if_neg h]

theorem delete_spec (c : cloud) (i : Nat) (h : c.has i) :
    ∃ c1, c.delete_array i = .ok c1 ∧ (∀ U, U ≠ i → c1.table U = c.table U) := by
  unfold cloud.has at h
  unfold cloud.delete_array
  cases hT : c.table i with
  | none => rw [hT] at h; exact absurd h (by simp)
  | some A =>
    exact ⟨_, rfl, fun U hU => by simp [hU]⟩

theorem new_seed_spec (p : permutation) (shuffle : List Nat → List Nat)
    (h : (shuffle p.perm).Perm (List.range p.size)) :
    ∃ q, p.new_seed shuffle = .ok q ∧ q.perm = shuffle p.perm ∧ q.size = p.size := by
  obtain ⟨h1, _⟩ := inverse_ok_of_perm p.size _ h
  refine ⟨{ size := p.size, perm := shuffle p.perm,
             inv_perm := (List.range p.size).map (fun j => (shuffle p.perm).indexOf j) },
    ?_, rfl, rfl⟩
  simp only [permutation.new_seed, h1]
  rfl

theorem fits_with_pi (ms : melbshuffle) (q : permutation) (hg : ms.fits) :
    melbshuffle.fits { ms with pi := q } :=
  { size_lt := hg.size_lt
    bw_pos := hg.bw_pos
    cover := hg.cover
    last := hg.last
    width := hg.width
    cw_eq := hg.cw_eq
    bpc_pos := hg.bpc_pos
    chunks := hg.chunks
    segs := hg.segs
    t1 := hg.t1
    t2 := hg.t2 }

theorem holds_seg (c : cloud) (arr n : Nat) (f : Nat → element) (h : c.holds arr n f) :
    c.seg arr 0 ((List.range n).map f) ∧ c.has arr := by
  obtain ⟨A, hA, hs⟩ := h
  refine ⟨fun i hi => ?_, by simp [cloud.has, hA]⟩
  simp only [List.length_map, List.length_range] at hi
  rw [Nat.zero_add, List.getElem?_map, List.getElem?_range hi]
  simp only [cloud.peek, hA, hs i hi]
  rfl

theorem permute_spec (ms : melbshuffle) (shuffle : List Nat → List Nat) (input : Nat)
    (c : cloud) (f : Nat → element)
    (hg : ms.fits) (hpsz : ms.pi.size = ms.size)
    (hpi : ms.pi.perm.Perm (List.range ms.size)) (hs : ∀ l, (shuffle l).Perm l)
    (hnames : ∀ t, t ∈ [Ta, Tb, Tc, Td] →
      input ≠ t ∧ (input + 1) % W32 ≠ t ∧ (input + 2) % W32 ≠ t)
    (hc : c.holds input ms.size f)
    (hkeys : ((List.range ms.size).map (fun i => (f i).key)).Perm (List.range ms.size)) :
    post (ms.permute shuffle input c) (fun r =>
      r.1 = (input + 2) % W32 ∧ r.2.1.pi.perm = shuffle ms.pi.perm ∧
      ∀ i, i < ms.size →
        r.2.2.peek r.1 (r.2.1.pi.place (f i)) = some { key := (f i).key, aux := 0 }) := by
  have hW : W32 = 4294967296 := by decide
  have hTa : Ta = 0x10000000 := rfl
  have hTb : Tb = 0x10000001 := rfl
  have hTc : Tc = 0x10000002 := rfl
  have hTd : Td = 0x10000003 := rfl
  have hna := hnames Ta (by simp)
  have hnb := hnames Tb (by simp)
  have hnc := hnames Tc (by simp)
  have hnd := hnames Td (by simp)
  obtain ⟨hsegI, hhasI⟩ := holds_seg c input ms.size f hc
  have ho12 : ((input + 1) % W32 + 1) % W32 = (input + 2) % W32 := by rw [hW]; omega
  have hback : ((input + 2) % W32 + W32 - 1) % W32 = (input + 1) % W32 := by rw [hW]; omega
  have hio1 : input ≠ (input + 1) % W32 := by rw [hW]; omega
  have ho1o2 : (input + 1) % W32 ≠ (input + 2) % W32 := by rw [hW]; omega
  unfold melbshuffle.permute
  simp only [ho12, hback]
  have hXlen : ((List.range ms.size).map f).length = ms.size := by simp
  have hX : (((List.range ms.size).map f).map (fun e => e.key)).Perm (List.range ms.size) := by
    rw [List.map_map]
    exact hkeys
  -- first pass
  refine post_bind _ _ _ _ (shuffle_pass_spec ms input Ta Tb ((input + 1) % W32)
    ((List.range ms.size).map f) _ hg hna.1 (by decide) (Ne.symm hnb.2.1) hpi hXlen hX
    (seg_of_table _ c input (by
      rw [create_other _ _ _ _ hio1, create_other _ _ _ _ hnb.1, create_other _ _ _ _ hna.1])
      0 _ hsegI)
    (create_has _ _ _ _ (create_has _ _ _ _ (create_has_self _ _ _)))
    (create_has _ _ _ _ (create_has_self _ _ _))
    (create_has_self _ _ _)) (fun c1 h1 => ?_)
  obtain ⟨hf1, hh1, hp1⟩ := h1
  have hhasI1 : c1.has input :=
    hh1 input (create_has _ _ _ _ (create_has _ _ _ _ (create_has _ _ _ _ hhasI)))
  have hhasTa : c1.has Ta :=
    hh1 Ta (create_has _ _ _ _ (create_has _ _ _ _ (create_has_self _ _ _)))
  have hhasTb : c1.has Tb := hh1 Tb (create_has _ _ _ _ (create_has_self _ _ _))
  have hhasO1 : c1.has ((input + 1) % W32) := hh1 _ (create_has_self _ _ _)
  obtain ⟨c2, hd2, ht2⟩ := delete_spec c1 Ta hhasTa
  obtain ⟨c3, hd3, ht3⟩ := delete_spec c2 Tb
    ((has_of_table c2 c1 Tb (ht2 Tb (by decide))).mpr hhasTb)
  obtain ⟨c4, hd4, ht4⟩ := delete_spec c3 input
    ((has_of_table c3 c1 input ((ht3 input hnb.1).trans (ht2 input hna.1))).mpr hhasI1)
  rw [hd2, ok_bind, hd3, ok_bind, hd4, ok_bind]
  obtain ⟨q, hq, hqp, hqs⟩ := new_seed_spec ms.pi shuffle (by
    rw [hpsz]; exact (hs _).trans hpi)
  rw [hq, ok_bind]
  have hpi2 : q.perm.Perm (List.range ms.size) := by rw [hqp]; exact (hs _).trans hpi
  obtain ⟨Y, hYlen, hYk, hYseg⟩ := pass_output_list ms.pi ms.size _ c1 ((input + 1) % W32)
    hpi hX hp1
  have ht41 : c4.table ((input + 1) % W32) = c1.table ((input + 1) % W32) :=
    (ht4 _ (Ne.symm hio1)).trans ((ht3 _ hnb.2.1).trans (ht2 _ hna.2.1))
  have hhasO4 : c4.has ((input + 1) % W32) := (has_of_table _ _ _ ht41).mpr hhasO1
  -- second pass
  refine post_bind _ _ _ _ (shuffle_pass_spec { ms with pi := q } ((input + 1) % W32) Tc Td
    ((input + 2) % W32) Y _ (fits_with_pi ms q hg) hnc.2.1 (by decide) (Ne.symm hnd.2.2)
    hpi2 hYlen hYk
    (seg_of_table _ c1 _ (by
      rw [create_other _ _ _ _ ho1o2, create_other _ _ _ _ hnd.2.1,
        create_other _ _ _ _ hnc.2.1, ht41]) 0 _ hYseg)
    (create_has _ _ _ _ (create_has _ _ _ _ (create_has_self _ _ _)))
    (create_has _ _ _ _ (create_has_self _ _ _))
    (create_has_self _ _ _)) (fun c5 h5 => ?_)
  obtain ⟨hf5, hh5, hp5⟩ := h5
  have hhasTc : c5.has Tc :=
    hh5 Tc (create_has _ _ _ _ (create_has _ _ _ _ (create_has_self _ _ _)))
  have hhasTd : c5.has Td := hh5 Td (create_has _ _ _ _ (create_has_self _ _ _))
  have hhasO5 : c5.has ((input + 1) % W32) :=
    hh5 _ (create_has _ _ _ _ (create_has _ _ _ _ (create_has _ _ _ _ hhasO4)))
  obtain ⟨c6, hd6, ht6⟩ := delete_spec c5 Tc hhasTc
  obtain ⟨c7, hd7, ht7⟩ := delete_spec c6 Td
    ((has_of_table c6 c5 Td (ht6 Td (by decide))).mpr hhasTd)
  obtain ⟨c8, hd8, ht8⟩ := delete_spec c7 ((input + 1) % W32)
    ((has_of_table c7 c5 _ ((ht7 _ hnd.2.1).trans (ht6 _ hnc.2.1))).mpr hhasO5)
  rw [hd6, ok_bind, hd7, ok_bind, hd8, ok_bind]
  refine post_ok _ _ ⟨rfl, hqp, fun i hi => ?_⟩
  have hmem : (f i).key ∈ Y.map (fun e => e.key) := by
    rw [hYk.mem_iff]
    exact hkeys.mem_iff.mp (List.mem_map.mpr ⟨i, List.mem_range.mpr hi, rfl⟩)
  rw [List.mem_map] at hmem
  obtain ⟨e, he, hek⟩ := hmem
  have h8 : c8.table ((input + 2) % W32) = c5.table ((input + 2) % W32) :=
    (ht8 _ (Ne.symm ho1o2)).trans ((ht7 _ hnd.2.2).trans (ht6 _ hnc.2.2))
  show c8.peek ((input + 2) % W32) (q.place (f i)) = _
  rw [peek_of_table c8 c5 _ h8]
  have := hp5 e he
  simp only [permutation.place] at this ⊢
  rw [hek] at this
  exact this

/-- The slot view alone, with no bound on the byte offset of a slot.  For `1 ≤ n < 2 ^ 31`, `p1`, `p2` such that the slots used in the two temporary
arrays number less than `2 ^ 32` (so that no 32-bit index wraps), an oracle whose table is
a permutation of `[0, n)`, a `std::shuffle` that permutes its argument, an input name
such that `input`, `input + 1`, `input + 2` are none of `Ta`, `Tb`, `Tc`, `Td`, and an
input array holding elements whose keys are `0, ..., n - 1` in some order:
`melbshuffle::permute` either stops on the bin-overload `assert` or returns, and no other
fault occurs; and when it returns, the oracle of the object holds the reshuffled table and
every input element is at the index that this oracle gives its key in the returned array,
with `aux = 0`. -/
theorem melbourne_permute_slots (pi : permutation) (n p1 p2 : Nat)
    (shuffle : List Nat → List Nat) (input : Nat) (c : cloud) (f : Nat → element)
    (hn : 1 ≤ n) (hn2 : n < 2 ^ 31)
    (hfit1 : ceil_root 4 n * ceil_root 2 n * (p1 * ceil_root 4 n) < 2 ^ 32)
    (hfit2 : ceil_root 4 n * ceil_div (ceil_root 2 n) (ceil_root 4 n) *
      ceil_div (ceil_root 2 n) (ceil_root 4 n) * (p2 * ceil_root 4 n) < 2 ^ 32)
    (hpsz : pi.size = n) (hpi : pi.perm.Perm (List.range n))
    (hs : ∀ l, (shuffle l).Perm l)
    (hnames : ∀ t, t ∈ [Ta, Tb, Tc, Td] →
      input ≠ t ∧ (input + 1) % W32 ≠ t ∧ (input + 2) % W32 ≠ t)
    (hc : c.holds input n f)
    (hkeys : ((List.range n).map (fun i => (f i).key)).Perm (List.range n)) :
    ((melbshuffle.init pi n p1 p2).permute shuffle input c = .error .assertion ∨
      ∃ r, (melbshuffle.init pi n p1 p2).permute shuffle input c = .ok r) ∧
    ∀ out ms1 c1, (melbshuffle.init pi n p1 p2).permute shuffle input c = .ok (out, ms1, c1) →
      ms1.pi.perm = shuffle pi.perm ∧
      ∀ i, i < n → c1.peek out (ms1.pi.place (f i)) = some { key := (f i).key, aux := 0 } := by
  have hspec := permute_spec (melbshuffle.init pi n p1 p2) shuffle input c f
    (init_fits pi n p1 p2 hn hn2 hfit1 hfit2) hpsz hpi hs hnames hc hkeys
  rcases hspec with herr | ⟨r, hr, _, hr2, hr3⟩
  · refine ⟨Or.inl herr, fun out ms1 c1 h => ?_⟩
    rw [herr] at h
    cases h
  · refine ⟨Or.inr ⟨r, hr⟩, fun out ms1 c1 h => ?_⟩
    rw [hr] at h
    cases h
    exact ⟨hr2, hr3⟩

/-! ### The array service: `create_array` and `check` -/

/-- C11 (counterexample).  On a server where array `7` exists with declared length `5`,
`create_array(7, 9)` does not fail: the call binds `7` to a new array of length `9`, so
the existing array and its length are not left unchanged. -/
theorem create_array_replaces_existing :
    (((server.init 800).create_array 7 5).table 7).map (fun a => a.length) = some 5 ∧
    ((((server.init 800).create_array 7 5).create_array 7 9).table 7).map
      (fun a => a.length) = some 9 := by
  constructor <;> rfl

/-- C11 (amended).  `create_array(name, length)` never fails: it binds `name` to a new
empty array of the declared length, whether or not an array called `name` existed; the
arrays under all other names and the I/O counter are unchanged. -/
theorem create_array_binds (s : server) (name length : Nat) :
    (∀ nm, (s.create_array name length).table nm =
      if nm = name then some { bytes := fun _ => 0, eof := 0, length := length }
      else s.table nm) ∧
    server.num_IO (s.create_array name length) = server.num_IO s :=
  ⟨fun _ => rfl, rfl⟩

/-- C12 (failing input).  `check(5, 0)` on a server where no array `5` was ever created
has no result (the source dereferences the null pointer that `table[5]` yields) instead
of returning `false`.  Where the array exists the `int` index is compared as a
`uint32_t`: on an array of length `3`, index `2` gives `true`, index `3` gives `false`
and index `-1` gives `false`. -/
theorem check_missing_array :
    server.check (server.init 800) 5 0 = none ∧
    server.check ((server.init 800).create_array 5 3) 5 2 = some true ∧
    server.check ((server.init 800).create_array 5 3) 5 3 = some false ∧
    server.check ((server.init 800).create_array 5 3) 5 (-1) = some false := by
  refine ⟨rfl, ?_, ?_, ?_⟩ <;> decide

/-! ### Bucket permutation: the number of buckets and of levels -/

theorem msb_of_spec (fuel : Nat) :
    ∀ x, 0 < x → x < 2 ^ fuel →
      1 ≤ msb_of fuel x ∧ 2 ^ (msb_of fuel x - 1) ≤ x ∧ x < 2 ^ msb_of fuel x := by
  induction fuel with
  | zero => intro x h0 h1; simp at h1; omega
  | succ fuel ih =>
    intro x h0 h1
    rw [msb_of, if_neg (by omega)]
    by_cases hx : x / 2 = 0
    · have hx1 : x = 1 := by omega
      subst hx1
      have : msb_of fuel (1 / 2) = 0 := by
        cases fuel <;> simp [msb_of]
      rw [this]
      simp
    · have hlt : x / 2 < 2 ^ fuel := by
        rw [pow_succ] at h1
        omega
      obtain ⟨a, b, c⟩ := ih (x / 2) (by omega) hlt
      refine ⟨by omega, ?_, ?_⟩
      · have e : msb_of fuel (x / 2) + 1 - 1 = (msb_of fuel (x / 2) - 1) + 1 := by omega
        rw [e, pow_succ]
        omega
      · rw [pow_succ]
        omega

theorem and_pred_two_pow (k : Nat) : 2 ^ k &&& (2 ^ k - 1) = 0 := by
  rw [Nat.and_pow_two_sub_one_eq_mod]
  exact Nat.mod_self _

theorem and_pred_ne_zero (k x : Nat) (h1 : 2 ^ k < x) (h2 : x < 2 ^ (k + 1)) :
    x &&& (x - 1) ≠ 0 := by
  intro h
  have hb : (x &&& (x - 1)).testBit k = true := by
    rw [Nat.testBit_and]
    rw [pow_succ] at h2
    have e1 : x = 2 ^ k + (x - 2 ^ k) := by omega
    have e2 : x - 1 = 2 ^ k + (x - 2 ^ k - 1) := by omega
    have t1 : x.testBit k = true := by
      rw [e1, Nat.testBit_two_pow_add_eq, Nat.testBit_lt_two_pow (by omega)]
      rfl
    have t2 : (x - 1).testBit k = true := by
      rw [e2, Nat.testBit_two_pow_add_eq, Nat.testBit_lt_two_pow (by omega)]
      rfl
    rw [t1, t2]
    rfl
  rw [h] at hb
  simp at hb

/-- C13.  For `size ≥ 1` and `Z ≥ 1` such that `2 * size` fits in 32 bits and
`ceil(2 * size / Z)` is at most `2 ^ 31`: the field `B` that the first lines of
`bucket::butterfly` set is a power of two, it is at least `ceil(2 * size / Z)`, no smaller
power of two is, and it is the `B` of the object when `butterfly` returns. -/
theorem butterfly_bucket_count (bk : bucket) (hn : 1 ≤ bk.size) (hZ : 1 ≤ bk.Z)
    (hn2 : 2 * bk.size < 2 ^ 32) (hfit : ceil_div (2 * bk.size) bk.Z ≤ 2 ^ 31) :
    (∃ k, bk.set_B.1.B = 2 ^ k) ∧ ceil_div (2 * bk.size) bk.Z ≤ bk.set_B.1.B ∧
    (∀ k, ceil_div (2 * bk.size) bk.Z ≤ 2 ^ k → bk.set_B.1.B ≤ 2 ^ k) ∧
    ∀ (hash : Nat → Nat → Nat) (shuffle : Nat → List element → List element) (arr : Nat)
      (c : cloud) (r : Nat × bucket × cloud),
      bk.butterfly hash shuffle arr c = .ok r → r.2.1 = bk.set_B.1 := by
  have hW : W32 = 2 ^ 32 := rfl
  have hmod : 2 * bk.size % W32 = 2 * bk.size := Nat.mod_eq_of_lt (by rw [hW]; exact hn2)
  have hB0 : (2 * bk.size % W32 + bk.Z - 1) / bk.Z = ceil_div (2 * bk.size) bk.Z := by
    rw [hmod]; rfl
  have hpos : 0 < ceil_div (2 * bk.size) bk.Z := by
    unfold ceil_div
    exact Nat.div_pos (by omega) (by omega)
  obtain ⟨m1, mlo, mhi⟩ := msb_of_spec 32 (ceil_div (2 * bk.size) bk.Z) hpos
    (lt_of_le_of_lt hfit (by norm_num))
  have hB : bk.set_B.1.B =
      if ceil_div (2 * bk.size) bk.Z &&& (ceil_div (2 * bk.size) bk.Z - 1) ≠ 0
      then 2 ^ msb_of 32 (ceil_div (2 * bk.size) bk.Z) % W32
      else ceil_div (2 * bk.size) bk.Z := by
    simp only [bucket.set_B, hB0]
  refine ⟨?_, ?_, ?_, ?_⟩
  · rw [hB]
    by_cases hp : ceil_div (2 * bk.size) bk.Z = 2 ^ (msb_of 32 (ceil_div (2 * bk.size) bk.Z) - 1)
    · refine ⟨msb_of 32 (ceil_div (2 * bk.size) bk.Z) - 1, ?_⟩
      rw [if_neg]
      · exact hp
      · rw [hp, and_pred_two_pow]
        simp
    · refine ⟨msb_of 32 (ceil_div (2 * bk.size) bk.Z), ?_⟩
      have hlt : 2 ^ (msb_of 32 (ceil_div (2 * bk.size) bk.Z) - 1) <
          ceil_div (2 * bk.size) bk.Z := lt_of_le_of_ne mlo (Ne.symm hp)
      have hm31 : msb_of 32 (ceil_div (2 * bk.size) bk.Z) - 1 < 31 := by
        rw [← Nat.pow_lt_pow_iff_right (a := 2) (by norm_num)]
        exact lt_of_lt_of_le hlt hfit
      rw [if_pos]
      · rw [hW]
        exact Nat.mod_eq_of_lt (Nat.pow_lt_pow_right (by norm_num) (by omega))
      · apply and_pred_ne_zero (msb_of 32 (ceil_div (2 * bk.size) bk.Z) - 1) _ hlt
        have e : msb_of 32 (ceil_div (2 * bk.size) bk.Z) - 1 + 1 =
            msb_of 32 (ceil_div (2 * bk.size) bk.Z) := by omega
        rw [e]
        exact mhi
  · rw [hB]
    split
    · rename_i hne
      have hp : ceil_div (2 * bk.size) bk.Z ≠
          2 ^ (msb_of 32 (ceil_div (2 * bk.size) bk.Z) - 1) := by
        intro hp
        apply hne
        rw [hp, and_pred_two_pow]
      have hlt : 2 ^ (msb_of 32 (ceil_div (2 * bk.size) bk.Z) - 1) <
          ceil_div (2 * bk.size) bk.Z := lt_of_le_of_ne mlo (Ne.symm hp)
      have hm31 : msb_of 32 (ceil_div (2 * bk.size) bk.Z) - 1 < 31 := by
        rw [← Nat.pow_lt_pow_iff_right (a := 2) (by norm_num)]
        exact lt_of_lt_of_le hlt hfit
      rw [hW, Nat.mod_eq_of_lt (Nat.pow_lt_pow_right (by norm_num) (by omega))]
      exact le_of_lt mhi
    · exact le_refl _
  · intro k hk
    rw [hB]
    split
    · rename_i hne
      have hp : ceil_div (2 * bk.size) bk.Z ≠
          2 ^ (msb_of 32 (ceil_div (2 * bk.size) bk.Z) - 1) := by
        intro hp
        apply hne
        rw [hp, and_pred_two_pow]
      have hlt : 2 ^ (msb_of 32 (ceil_div (2 * bk.size) bk.Z) - 1) <
          ceil_div (2 * bk.size) bk.Z := lt_of_le_of_ne mlo (Ne.symm hp)
      have hk2 : msb_of 32 (ceil_div (2 * bk.size) bk.Z) - 1 < k := by
        rw [← Nat.pow_lt_pow_iff_right (a := 2) (by norm_num)]
        exact lt_of_lt_of_le hlt hk
      exact le_trans (Nat.mod_le _ _) (Nat.pow_le_pow_right (by norm_num) (by omega))
    · exact hk
  · intro hash shuffle arr c r h
    unfold bucket.butterfly at h
    simp only [bind, Except.bind] at h
    split at h
    · exact absurd h (by simp)
    · simp only [pure, Except.pure, Except.ok.injEq] at h
      rw [← h]
      rfl

theorem butterfly_bucket_count_witness :
    (∃ k, (bucket.set_B (bucket.mk (permutation.reversal 3) 3 2 0 0)).1.B = 2 ^ k) ∧
    ceil_div (2 * 3) 2 ≤ (bucket.set_B (bucket.mk (permutation.reversal 3) 3 2 0 0)).1.B ∧
    (∀ k, ceil_div (2 * 3) 2 ≤ 2 ^ k →
      (bucket.set_B (bucket.mk (permutation.reversal 3) 3 2 0 0)).1.B ≤ 2 ^ k) ∧
    ∀ (hash : Nat → Nat → Nat) (shuffle : Nat → List element → List element) (arr : Nat)
      (c : cloud) (r : Nat × bucket × cloud),
      bucket.butterfly (bucket.mk (permutation.reversal 3) 3 2 0 0) hash shuffle arr c = .ok r →
      r.2.1 = (bucket.set_B (bucket.mk (permutation.reversal 3) 3 2 0 0)).1 :=
  butterfly_bucket_count (bucket.mk (permutation.reversal 3) 3 2 0 0)
    (by decide) (by decide) (by decide) (by decide)

/-- C14 (failing input).  `size = 3`, `Z = 2`: `ceil(2 * 3 / 2) = 3` has `msb = 2`
significant bits and is not a power of two, so `B` is rounded up to `4 = 2 ^ 2`, but the
outer loop runs `msb - 1 = 1` times: `butterfly` returns the array named `1`, one level
after the input array `0`, with `B = 4`, whose `log2` is `2`. -/
theorem butterfly_one_level_short :
    (bucket.set_B (bucket.mk (permutation.reversal 3) 3 2 0 2)).2 - 1 = 1 ∧
    (bucket.butterfly (bucket.mk (permutation.reversal 3) 3 2 0 2)
        (fun key seed => key + seed) (fun _ l => l) 0 (cloud.driver 3)).map
      (fun r => (r.1, r.2.1.B)) = .ok (1, 2 ^ 2) := by
  constructor <;> rfl

/-! ### Bucket permutation: overflow, padding, the sentinel and the tags -/

/-- C15 (failing input).  `size = 4`, `Z = 2`, keys `0..3` whose tags agree modulo `B = 4`
(here `hash(key, seed) = 4 * key`): at level `1`, the last one, the two buckets read for
`j = 0` hold the four elements and `split_input_bucket` puts all four into `out_left`,
twice `Z`; `final_round` stores them without any check, and `butterfly` returns the array
`2` holding the four elements instead of aborting. -/
theorem final_round_stores_overfull_bucket :
    (bucket.butterfly (bucket.mk (permutation.reversal 4) 4 2 0 0)
        (fun key _ => 4 * key) (fun _ l => l) 0 (cloud.driver 4)).map
      (fun r => (r.1, (List.range 4).map (fun i => r.2.2.peek r.1 i)))
      = .ok (2, [some { key := 0, aux := 0 }, some { key := 1, aux := 0 },
                 some { key := 2, aux := 0 }, some { key := 3, aux := 0 }]) ∧
    (bucket.split_input_bucket (bucket.mk (permutation.reversal 4) 4 2 4 0)
        (fun key _ => 4 * key) [{ key := 2, aux := 0 }, { key := 3, aux := 0 }]
        (bucket.split_input_bucket (bucket.mk (permutation.reversal 4) 4 2 4 0)
          (fun key _ => 4 * key) [{ key := 0, aux := 0 }, { key := 1, aux := 0 }] [] [] 1).1
        (bucket.split_input_bucket (bucket.mk (permutation.reversal 4) 4 2 4 0)
          (fun key _ => 4 * key) [{ key := 0, aux := 0 }, { key := 1, aux := 0 }] [] [] 1).2
        1).2.length = 4 := by
  constructor <;> rfl

/-- C16.  For a bucket of `c ≤ Z` elements, an existing array `arr` and an offset with
`offset + Z ≤ 2 ^ 32`: `put_bucket(arr, offset, buck)` returns with the vector empty; it
issues exactly the `Z` writes `arr[offset], ..., arr[offset + Z - 1]` in this order; the
slots `offset, ..., offset + c - 1` hold the elements of the vector in their order, the
slots `offset + c, ..., offset + Z - 1` hold the dummy (key `INT32_MAX`, aux `0`), and no
other slot and no other array has changed. -/
theorem bucket_put_bucket_pads (bk : bucket) (arr offset : Nat) (buck : List element)
    (c : cloud) (hcard : buck.length ≤ bk.Z) (harr : c.has arr)
    (hoff : offset + bk.Z ≤ 2 ^ 32) :
    ∃ c1, bk.put_bucket_buck arr offset buck c = .ok ([], c1) ∧
      c1.trace = c.trace ++ (List.range bk.Z).map (fun i => access.put arr (offset + i)) ∧
      (∀ i, i < buck.length → c1.peek arr (offset + i) = buck[i]?) ∧
      (∀ i, buck.length ≤ i → i < bk.Z →
        c1.peek arr (offset + i) = some { key := INT32_MAX, aux := 0 }) ∧
      (∀ j, (j < offset ∨ offset + bk.Z ≤ j) → c1.peek arr j = c.peek arr j) ∧
      (∀ U, U ≠ arr → c1.table U = c.table U) := by
  have hW : W32 = 2 ^ 32 := rfl
  obtain ⟨c1, h1, ho1, hp1⟩ := loop_puts arr offset buck.length
    (fun i c =>
      match buck[i]? with
      | none => .error .out_of_bounds
      | some e => c.put arr ((offset + i) % W32) e) (fun k => buck.getD k dummy)
    (fun k c hk => by
      simp only [List.getElem?_eq_getElem hk, List.getD, Option.getD_some]
      rw [Nat.mod_eq_of_lt (by rw [hW]; omega)]
      simp [List.getElem?_eq_getElem hk]) c harr
  obtain ⟨c2, h2, ho2, hp2⟩ := loop_puts arr (offset + buck.length) (bk.Z - buck.length)
    (fun t c => c.put arr ((offset + (buck.length + t)) % W32) { key := INT32_MAX, aux := 0 })
    (fun _ => { key := INT32_MAX, aux := 0 })
    (fun k c hk => by
      simp only
      rw [Nat.mod_eq_of_lt (by rw [hW]; omega), Nat.add_assoc]) c1 (ho1.2 harr)
  have hrun : bk.put_bucket arr offset buck c = .ok c2 := by
    unfold bucket.put_bucket
    simp only
    rw [if_neg (by omega)]
    simp only [bind, Except.bind]
    split
    · rename_i err heq
      have e : Except.error err = Except.ok c1 := heq.symm.trans h1
      cases e
    · rename_i v heq
      have e : Except.ok v = Except.ok c1 := heq.symm.trans h1
      cases e
      exact h2
  refine ⟨c2, ?_, ?_, ?_, ?_, ?_, ?_⟩
  · unfold bucket.put_bucket_buck
    rw [hrun]
    rfl
  · rw [loop_put_const_trace arr (fun t => (offset + (buck.length + t)) % W32) _ _ c1 c2 h2,
      loop_put_some_trace arr (fun i => (offset + i) % W32) buck _ c c1 h1, List.append_assoc]
    congr 1
    have hsplit : bk.Z = buck.length + (bk.Z - buck.length) := by omega
    conv_rhs => rw [hsplit, List.range_add, List.map_append]
    congr 1
    · apply List.map_congr_left
      intro i hi
      rw [List.mem_range] at hi
      rw [Nat.mod_eq_of_lt (by rw [hW]; omega)]
    · rw [List.map_map]
      apply List.map_congr_left
      intro i hi
      rw [List.mem_range] at hi
      simp only [Function.comp]
      rw [Nat.mod_eq_of_lt (by rw [hW]; omega)]
  · intro i hi
    rw [hp2, hp1, if_neg (by omega), if_pos (by omega)]
    simp [List.getD_eq_getElem?_getD, List.getElem?_eq_getElem hi]
  · intro i h1 h2
    rw [hp2, if_pos (by omega)]
  · intro j hj
    rw [hp2, hp1, if_neg (by omega), if_neg (by omega)]
  · intro U hU
    rw [ho2.1 U hU, ho1.1 U hU]

theorem bucket_put_bucket_pads_witness :
    ∃ c1, bucket.put_bucket_buck (bucket.mk (permutation.reversal 4) 4 3 4 0) 0 1
        [{ key := 5, aux := 0 }, { key := 7, aux := 0 }] (cloud.driver 4) = .ok ([], c1) ∧
      c1.trace = (cloud.driver 4).trace ++
        (List.range 3).map (fun i => access.put 0 (1 + i)) ∧
      (∀ i, i < 2 → c1.peek 0 (1 + i) =
        [({ key := 5, aux := 0 } : element), { key := 7, aux := 0 }][i]?) ∧
      (∀ i, 2 ≤ i → i < 3 → c1.peek 0 (1 + i) = some { key := INT32_MAX, aux := 0 }) ∧
      (∀ j, (j < 1 ∨ 1 + 3 ≤ j) → c1.peek 0 j = (cloud.driver 4).peek 0 j) ∧
      (∀ U, U ≠ 0 → c1.table U = (cloud.driver 4).table U) :=
  bucket_put_bucket_pads (bucket.mk (permutation.reversal 4) 4 3 4 0) 0 1
    [{ key := 5, aux := 0 }, { key := 7, aux := 0 }] (cloud.driver 4) (by decide)
    (by simp [cloud.has, cloud.driver]) (by decide)

/-- C17 (failing input).  `put_bucket` pads with the key `INT32_MAX` and `get_bucket`
drops the key `INT32_MAX`, but `split_input_bucket` tests the key against `UINT32_MAX`, a
different value: on the array `1` of one slot, `put_bucket` of an empty bucket with
`Z = 1` writes the dummy with key `INT32_MAX`, `get_bucket` reads it back as an empty
bucket, and `split_input_bucket` handed that same dummy does not skip it but appends it
to an output bucket. -/
theorem split_keeps_written_dummy :
    INT32_MAX ≠ UINT32_MAX ∧
    (bucket.put_bucket (bucket.mk (permutation.reversal 1) 1 1 1 0) 1 0 []
        ((cloud.driver 1).create_array 1 1)).map (fun c => c.peek 1 0)
      = .ok (some { key := INT32_MAX, aux := 0 }) ∧
    ((bucket.put_bucket (bucket.mk (permutation.reversal 1) 1 1 1 0) 1 0 []
        ((cloud.driver 1).create_array 1 1)) >>= fun c =>
      bucket.get_bucket (bucket.mk (permutation.reversal 1) 1 1 1 0) 1 1 0 c).map
      (fun r => r.1) = .ok [] ∧
    ∀ (bk : bucket) (hash : Nat → Nat → Nat) (i : Nat),
      (bk.split_input_bucket hash [{ key := INT32_MAX, aux := 0 }] [] [] i).1 ++
        (bk.split_input_bucket hash [{ key := INT32_MAX, aux := 0 }] [] [] i).2 =
      [{ key := INT32_MAX, aux := 0 }] := by
  refine ⟨by decide, rfl, rfl, fun bk hash i => ?_⟩
  simp only [bucket.split_input_bucket, List.foldl]
  have h : INT32_MAX ≠ UINT32_MAX := by decide
  simp only [h, ne_eq, not_false_eq_true, if_true]
  split <;> rfl

theorem and_two_pow_ne_zero (tag i : Nat) (hi : i < 32) :
    (tag &&& (2 ^ i % W32) ≠ 0) ↔ tag.testBit i = true := by
  have hW : W32 = 2 ^ 32 := rfl
  rw [hW, Nat.mod_eq_of_lt (Nat.pow_lt_pow_right (by norm_num) hi), Nat.and_two_pow]
  cases h : tag.testBit i
  · simp
  · simp

theorem split_input_bucket_eq (bk : bucket) (hash : Nat → Nat → Nat) (i : Nat) (hi : i < 32) :
    ∀ (input out_right out_left : List element),
      bk.split_input_bucket hash input out_right out_left i =
        (out_right ++ input.filter (fun e =>
            decide (e.key ≠ UINT32_MAX) && (hash e.key bk.seed % bk.B).testBit i),
         out_left ++ input.filter (fun e =>
            decide (e.key ≠ UINT32_MAX) && !(hash e.key bk.seed % bk.B).testBit i)) := by
  intro input
  induction input with
  | nil => intro r l; simp [bucket.split_input_bucket]
  | cons e rest ih =>
    intro r l
    have hstep : bk.split_input_bucket hash (e :: rest) r l i =
        bk.split_input_bucket hash rest
          (if e.key ≠ UINT32_MAX then
            (if hash e.key bk.seed % bk.B &&& (2 ^ i % W32) ≠ 0 then r ++ [e] else r) else r)
          (if e.key ≠ UINT32_MAX then
            (if hash e.key bk.seed % bk.B &&& (2 ^ i % W32) ≠ 0 then l else l ++ [e]) else l)
          i := by
      simp only [bucket.split_input_bucket, List.foldl]
      congr 1
      split
      · split <;> rfl
      · rfl
    rw [hstep, ih]
    by_cases hk : e.key ≠ UINT32_MAX
    · by_cases hb : hash e.key bk.seed % bk.B &&& (2 ^ i % W32) ≠ 0
      · have ht := (and_two_pow_ne_zero _ i hi).mp hb
        simp [hk, hb, ht, List.filter_cons]
      · have ht : (hash e.key bk.seed % bk.B).testBit i = false := by
          cases h : (hash e.key bk.seed % bk.B).testBit i
          · rfl
          · exact absurd ((and_two_pow_ne_zero _ i hi).mpr h) hb
        simp [hk, hb, ht, List.filter_cons]
    · simp [hk, List.filter_cons]

/-! ### Melbourne shuffle: the `aux` field of the output and the arrays left behind -/

theorem loop_rel_gen {σ : Type} (R : σ → σ → Prop) (hrefl : ∀ s, R s s)
    (htrans : ∀ s s1 s2, R s s1 → R s1 s2 → R s s2) (body : Nat → σ → Except Fault σ)
    (hbody : ∀ k s s1, body k s = .ok s1 → R s s1) (n : Nat) :
    ∀ s s1, loop n body s = .ok s1 → R s s1 := by
  induction n with
  | zero =>
    intro s s1 h
    simp only [loop, Except.ok.injEq] at h
    rw [← h]
    exact hrefl s
  | succ n ih =>
    intro s s1 h
    simp only [loop, bind, Except.bind] at h
    cases h1 : loop n body s with
    | error e => rw [h1] at h; exact absurd h (by simp)
    | ok s2 =>
      rw [h1] at h
      exact htrans _ _ _ (ih s s2 h1) (hbody n s2 s1 h)

theorem keeps_refl (c : cloud) (P : Nat → Prop) : c.keeps c P :=
  ⟨fun _ => Iff.rfl, fun _ _ => rfl⟩

theorem keeps_trans (c2 c1 c : cloud) (P : Nat → Prop) (h1 : c1.keeps c P)
    (h2 : c2.keeps c1 P) : c2.keeps c P :=
  ⟨fun U => (h2.1 U).trans (h1.1 U), fun U hU => (h2.2 U hU).trans (h1.2 U hU)⟩

theorem keeps_mono (c1 c : cloud) (P Q : Nat → Prop) (hPQ : ∀ U, P U → Q U)
    (h : c1.keeps c P) : c1.keeps c Q :=
  ⟨h.1, fun U hU => h.2 U (fun hp => hU (hPQ U hp))⟩

theorem keeps_of_table (c1 c : cloud) (P : Nat → Prop) (h : c1.table = c.table) :
    c1.keeps c P :=
  ⟨fun U => by unfold cloud.has; rw [h], fun U _ => by rw [h]⟩

theorem get_ok_table (c c1 : cloud) (name index : Nat) (e : element)
    (h : c.get name index = .ok (e, c1)) : c1.table = c.table := by
  unfold cloud.get at h
  split at h
  · exact absurd h (by simp)
  · split at h
    · exact absurd h (by simp)
    · simp only [Except.ok.injEq, Prod.mk.injEq] at h
      rw [← h.2]

theorem put_ok_peek (c c1 : cloud) (name index : Nat) (x : element)
    (h : c.put name index x = .ok c1) :
    c1.keeps c (fun U => U = name) ∧
    ∀ U j, c1.peek U j = if U = name ∧ j = index then some x else c.peek U j := by
  unfold cloud.put at h
  split at h
  · exact absurd h (by simp)
  · rename_i a ha
    simp only [Except.ok.injEq] at h
    rw [← h]
    refine ⟨⟨fun U => ?_, fun U hU => ?_⟩, fun U j => ?_⟩
    · unfold cloud.has
      simp only
      by_cases hU : U = name
      · subst hU; simp [ha]
      · simp [hU]
    · simp only
      rw [if_neg hU]
    · unfold cloud.peek
      simp only
      by_cases hU : U = name
      · subst hU
        simp only [if_true, ha, true_and]
      · simp [hU]

theorem get_range_table (name offset range : Nat) (c c1 : cloud) (X : List element)
    (h : melbshuffle.get_range name offset range c = .ok (X, c1)) : c1.table = c.table :=
  loop_rel_gen (fun (s s1 : List element × cloud) => s1.2.table = s.2.table)
    (fun _ => rfl) (fun _ _ _ h1 h2 => h2.trans h1) _
    (fun k s s1 hb => by
      simp only [bind, Except.bind] at hb
      cases hg : s.2.get name ((offset + k) % W32) with
      | error e => rw [hg] at hb; exact absurd hb (by simp)
      | ok r =>
        rw [hg] at hb
        simp only [pure, Except.pure, Except.ok.injEq] at hb
        rw [← hb]
        exact get_ok_table _ _ _ _ _ hg) range _ _ h

theorem loop_put_some_keeps (T : Nat) (pos : Nat → Nat) (f : element → element)
    (bin : List element) (n : Nat) (c c1 : cloud)
    (h : loop n (fun count c =>
      match bin[count]? with
      | none => .error .out_of_bounds
      | some e => c.put T (pos count) (f e)) c = .ok c1) :
    c1.keeps c (fun U => U = T) :=
  loop_rel_gen (fun (s s1 : cloud) => s1.keeps s (fun U => U = T))
    (fun s => keeps_refl s _) (fun _ _ _ h1 h2 => keeps_trans _ _ _ _ h1 h2) _
    (fun k s s1 hb => by
      cases hg : bin[k]? with
      | none => rw [hg] at hb; exact absurd hb (by simp)
      | some e =>
        rw [hg] at hb
        exact (put_ok_peek _ _ _ _ _ hb).1) n _ _ h

theorem loop_put_const_keeps (T : Nat) (pos : Nat → Nat) (e : element) (n : Nat)
    (c c1 : cloud) (h : loop n (fun t c => c.put T (pos t) e) c = .ok c1) :
    c1.keeps c (fun U => U = T) :=
  loop_rel_gen (fun (s s1 : cloud) => s1.keeps s (fun U => U = T))
    (fun s => keeps_refl s _) (fun _ _ _ h1 h2 => keeps_trans _ _ _ _ h1 h2) _
    (fun _ _ _ hb => (put_ok_peek _ _ _ _ _ hb).1) n _ _ h

theorem put_bin_keeps (T idx : Nat) (bin : List element) (max_load : Nat) (c c1 : cloud)
    (h : melbshuffle.put_bin T idx bin max_load c = .ok c1) :
    c1.keeps c (fun U => U = T) := by
  unfold melbshuffle.put_bin at h
  simp only at h
  by_cases hlt : bin.length < max_load
  · rw [if_pos hlt] at h
    simp only [bind, Except.bind] at h
    split at h
    · exact absurd h (by simp)
    · rename_i c2 h1
      exact keeps_trans _ _ _ _
        (loop_put_some_keeps T (fun i => (idx + i) % W32) id bin _ _ _ h1)
        (loop_put_const_keeps T (fun t => (idx + (bin.length + t)) % W32) dummy _ _ _ h)
  · rw [if_neg hlt] at h
    exact absurd h (by simp)

theorem push_bins_keeps (T offset block_size max_load : Nat) (rev_bin : List (List element))
    (n : Nat) (c c1 : cloud)
    (h : melbshuffle.push_bins T offset block_size max_load rev_bin n c = .ok c1) :
    c1.keeps c (fun U => U = T) :=
  loop_rel_gen (fun (s s1 : cloud) => s1.keeps s (fun U => U = T))
    (fun s => keeps_refl s _) (fun _ _ _ h1 h2 => keeps_trans _ _ _ _ h1 h2) _
    (fun k s s1 hb => by
      cases hg : rev_bin[k]? with
      | none => rw [hg] at hb; exact absurd hb (by simp)
      | some vec =>
        rw [hg] at hb
        simp only at hb
        split at hb
        · exact put_bin_keeps _ _ _ _ _ _ hb
        · exact absurd hb (by simp)) n _ _ h

theorem phase_1_keeps (ms : melbshuffle) (I T : Nat) (c c1 : cloud)
    (h : ms.distribution_phase_1 I T c = .ok c1) : c1.keeps c (fun U => U = T) := by
  unfold melbshuffle.distribution_phase_1 at h
  exact loop_rel_gen (fun (s s1 : cloud) => s1.keeps s (fun U => U = T))
    (fun s => keeps_refl s _) (fun _ _ _ h1 h2 => keeps_trans _ _ _ _ h1 h2) _
    (fun id s s1 hb => by
      simp only [bind, Except.bind] at hb
      split at hb
      · exact absurd hb (by simp)
      · rename_i r hg
        obtain ⟨bucket, s2⟩ := r
        simp only at hb
        split at hb
        · exact absurd hb (by simp)
        · rename_i rev_bin hf
          exact keeps_trans _ _ _ _ (keeps_of_table _ _ _ (get_range_table _ _ _ _ _ _ hg))
            (push_bins_keeps _ _ _ _ _ _ _ _ hb)) ms.num_buckets _ _ h

theorem phase_2_body_keeps (ms : melbshuffle) (T1 T2 cid j : Nat) (c c1 : cloud)
    (h : ms.phase_2_body T1 T2 cid j c = .ok c1) : c1.keeps c (fun U => U = T2) := by
  unfold melbshuffle.phase_2_body at h
  simp only [bind, Except.bind] at h
  split at h
  · exact absurd h (by simp)
  · rename_i r hg
    obtain ⟨bucket, s2⟩ := r
    simp only at h
    split at h
    · exact absurd h (by simp)
    · rename_i rev_bin hf
      exact keeps_trans _ _ _ _ (keeps_of_table _ _ _ (get_range_table _ _ _ _ _ _ hg))
        (push_bins_keeps _ _ _ _ _ _ _ _ h)

theorem phase_2_keeps (ms : melbshuffle) (T1 T2 : Nat) (c c1 : cloud)
    (h : ms.distribution_phase_2 T1 T2 c = .ok c1) : c1.keeps c (fun U => U = T2) := by
  unfold melbshuffle.distribution_phase_2 at h
  exact loop_rel_gen (fun (s s1 : cloud) => s1.keeps s (fun U => U = T2))
    (fun s => keeps_refl s _) (fun _ _ _ h1 h2 => keeps_trans _ _ _ _ h1 h2) _
    (fun cid s s1 hb =>
      loop_rel_gen (fun (s s1 : cloud) => s1.keeps s (fun U => U = T2))
        (fun s => keeps_refl s _) (fun _ _ _ h1 h2 => keeps_trans _ _ _ _ h1 h2) _
        (fun j s s1 hb => phase_2_body_keeps ms T1 T2 cid j s s1 hb)
        ms.buckets_per_chunk _ _ hb) ms.num_chunks _ _ h

theorem melb_put_bucket_keeps (ms : melbshuffle) (O offset : Nat) (bucket : List element)
    (c c1 : cloud) (h : ms.put_bucket O offset bucket c = .ok c1) :
    c1.keeps c (fun U => U = O) := by
  unfold melbshuffle.put_bucket at h
  exact loop_put_some_keeps O (fun i => (offset + i) % W32) (fun e => { e with aux := 0 })
    bucket _ _ _ h

theorem cleanup_keeps (ms : melbshuffle) (T O : Nat) (c c1 : cloud)
    (h : ms.cleanup_phase T O c = .ok c1) : c1.keeps c (fun U => U = O) := by
  unfold melbshuffle.cleanup_phase at h
  exact loop_rel_gen (fun (s s1 : cloud) => s1.keeps s (fun U => U = O))
    (fun s => keeps_refl s _) (fun _ _ _ h1 h2 => keeps_trans _ _ _ _ h1 h2) _
    (fun id s s1 hb => by
      simp only [bind, Except.bind] at hb
      split at hb
      · exact absurd hb (by simp)
      · rename_i r hg
        obtain ⟨block, s2⟩ := r
        simp only at hb
        split at hb
        · exact absurd hb (by simp)
        · rename_i catchment hf
          exact keeps_trans _ _ _ _ (keeps_of_table _ _ _ (get_range_table _ _ _ _ _ _ hg))
            (melb_put_bucket_keeps _ _ _ _ _ _ hb)) ms.num_buckets _ _ h

theorem shuffle_pass_keeps (ms : melbshuffle) (I T1 T2 O : Nat) (c c1 : cloud)
    (h : ms.shuffle_pass I T1 T2 O c = .ok c1) :
    c1.keeps c (fun U => U = T1 ∨ U = T2 ∨ U = O) := by
  unfold melbshuffle.shuffle_pass at h
  simp only [bind, Except.bind] at h
  split at h
  · exact absurd h (by simp)
  · rename_i c2 h1
    split at h
    · exact absurd h (by simp)
    · rename_i c3 h2
      exact keeps_trans _ _ _ _
        (keeps_trans _ _ _ _
          (keeps_mono _ _ _ _ (fun U hU => Or.inl hU) (phase_1_keeps ms _ _ _ _ h1))
          (keeps_mono _ _ _ _ (fun U hU => Or.inr (Or.inl hU)) (phase_2_keeps ms _ _ _ _ h2)))
        (keeps_mono _ _ _ _ (fun U hU => Or.inr (Or.inr hU)) (cleanup_keeps ms _ _ _ _ h))

theorem delete_ok_table (c c1 : cloud) (i : Nat) (h : c.delete_array i = .ok c1) :
    ∀ U, c1.table U = if U = i then none else c.table U := by
  unfold cloud.delete_array at h
  split at h
  · exact absurd h (by simp)
  · simp only [Except.ok.injEq] at h
    rw [← h]
    intro U
    rfl

theorem melb_put_bucket_aux (ms : melbshuffle) (O offset : Nat) (bucket : List element)
    (c0 c1 : cloud) (h : ms.put_bucket O offset bucket c0 = .ok c1) :
    ∀ U j, c1.peek U j = c0.peek U j ∨ (U = O ∧ ∃ e, c1.peek U j = some e ∧ e.aux = 0) := by
  unfold melbshuffle.put_bucket at h
  exact loop_rel_gen
    (fun (s s1 : cloud) => ∀ U j, s1.peek U j = s.peek U j ∨
      (U = O ∧ ∃ e, s1.peek U j = some e ∧ e.aux = 0))
    (fun s U j => Or.inl rfl)
    (fun s s1 s2 h1 h2 U j => by
      rcases h2 U j with h2 | h2
      · rcases h1 U j with h1 | ⟨hU, e, he, ha⟩
        · exact Or.inl (h2.trans h1)
        · exact Or.inr ⟨hU, e, h2.trans he, ha⟩
      · exact Or.inr h2) _
    (fun k s s1 hb U j => by
      cases hg : bucket[k]? with
      | none => rw [hg] at hb; exact absurd hb (by simp)
      | some e =>
        rw [hg] at hb
        simp only at hb
        rw [(put_ok_peek _ _ _ _ _ hb).2 U j]
        by_cases hc : U = O ∧ j = (offset + k) % W32
        · rw [if_pos hc]
          exact Or.inr ⟨hc.1, _, rfl, rfl⟩
        · rw [if_neg hc]
          exact Or.inl rfl) _ _ _ h

/-- The slot view alone, with no bound on the byte offset of a slot.  Every slot that a returning call of `melbshuffle::put_bucket` changes holds an
element with `aux = 0` afterwards, whatever the `aux` of the elements of the bucket was.
And under the conditions of the correctness theorem of the Melbourne shuffle (`1 ≤ n <
2 ^ 31`, temporary arrays of less than `2 ^ 32` slots, an oracle and a `std::shuffle` that
permute, names apart from `Ta..Td`, an input holding the keys `0..n-1` in some order with
any `aux` values), when `melbshuffle::permute` returns, every slot `j < n` of the returned
array holds an element with `aux = 0`. -/
theorem melbourne_aux_slots (pi : permutation) (n p1 p2 : Nat)
    (shuffle : List Nat → List Nat) (input : Nat) (c : cloud) (f : Nat → element)
    (hn : 1 ≤ n) (hn2 : n < 2 ^ 31)
    (hfit1 : ceil_root 4 n * ceil_root 2 n * (p1 * ceil_root 4 n) < 2 ^ 32)
    (hfit2 : ceil_root 4 n * ceil_div (ceil_root 2 n) (ceil_root 4 n) *
      ceil_div (ceil_root 2 n) (ceil_root 4 n) * (p2 * ceil_root 4 n) < 2 ^ 32)
    (hpsz : pi.size = n) (hpi : pi.perm.Perm (List.range n))
    (hs : ∀ l, (shuffle l).Perm l)
    (hnames : ∀ t, t ∈ [Ta, Tb, Tc, Td] →
      input ≠ t ∧ (input + 1) % W32 ≠ t ∧ (input + 2) % W32 ≠ t)
    (hc : c.holds input n f)
    (hkeys : ((List.range n).map (fun i => (f i).key)).Perm (List.range n)) :
    (∀ (ms : melbshuffle) (O offset : Nat) (bucket : List element) (c0 c1 : cloud),
      ms.put_bucket O offset bucket c0 = .ok c1 →
      ∀ U j, c1.peek U j = c0.peek U j ∨ (U = O ∧ ∃ e, c1.peek U j = some e ∧ e.aux = 0)) ∧
    ∀ out ms1 c1, (melbshuffle.init pi n p1 p2).permute shuffle input c = .ok (out, ms1, c1) →
      ∀ j, j < n → ∃ e, c1.peek out j = some e ∧ e.aux = 0 := by
  refine ⟨melb_put_bucket_aux, fun out ms1 c1 h j hj => ?_⟩
  have hspec := permute_spec (melbshuffle.init pi n p1 p2) shuffle input c f
    (init_fits pi n p1 p2 hn hn2 hfit1 hfit2) hpsz hpi hs hnames hc hkeys
  rcases hspec with herr | ⟨r, hr, _, hr2, hr3⟩
  · rw [herr] at h
    cases h
  · rw [hr] at h
    cases h
    have hperm : ms1.pi.perm.Perm (List.range n) := by
      rw [hr2]
      exact (hs _).trans hpi
    have hjm : j ∈ ms1.pi.perm := hperm.mem_iff.mpr (List.mem_range.mpr hj)
    obtain ⟨k, hk⟩ := List.mem_iff_getElem?.mp hjm
    have hkn : k < n := by
      have hlen : ms1.pi.perm.length = n := by rw [hperm.length_eq, List.length_range]
      by_contra hge
      rw [List.getElem?_eq_none (by omega)] at hk
      cases hk
    have hkm : k ∈ (List.range n).map (fun i => (f i).key) :=
      hkeys.mem_iff.mpr (List.mem_range.mpr hkn)
    obtain ⟨i, hi, hik⟩ := List.mem_map.mp hkm
    have := hr3 i (List.mem_range.mp hi)
    have hplace : ms1.pi.place (f i) = j := by
      unfold permutation.place
      rw [hik, List.getD_eq_getElem?_getD, hk]
      rfl
    rw [hplace] at this
    exact ⟨_, this, rfl⟩

/-- C20.  For an input name such that `input`, `input + 1`, `input + 2` are none of `Ta`,
`Tb`, `Tc`, `Td`: when `melbshuffle::permute(input)` returns, the name it returns is
`input + 2` and this array exists; none of `input`, `input + 1`, `Ta`, `Tb`, `Tc`, `Td`
exists; and every array under another name is what it was before the call. -/
theorem melbourne_permute_arrays (ms : melbshuffle) (shuffle : List Nat → List Nat)
    (input : Nat) (c : cloud) (out : Nat) (ms1 : melbshuffle) (c1 : cloud)
    (hnames : ∀ t, t ∈ [Ta, Tb, Tc, Td] →
      input ≠ t ∧ (input + 1) % W32 ≠ t ∧ (input + 2) % W32 ≠ t)
    (h : ms.permute shuffle input c = .ok (out, ms1, c1)) :
    out = (input + 2) % W32 ∧ c1.has out ∧
    (∀ U, U ∈ [input, (input + 1) % W32, Ta, Tb, Tc, Td] → ¬ c1.has U) ∧
    ∀ U, U ∉ [input, (input + 1) % W32, (input + 2) % W32, Ta, Tb, Tc, Td] →
      c1.table U = c.table U := by
  have hW : W32 = 4294967296 := by decide
  have hTa : Ta = 0x10000000 := rfl
  have hTb : Tb = 0x10000001 := rfl
  have hTc : Tc = 0x10000002 := rfl
  have hTd : Td = 0x10000003 := rfl
  have hna := hnames Ta (by simp)
  have hnb := hnames Tb (by simp)
  have hnc := hnames Tc (by simp)
  have hnd := hnames Td (by simp)
  have ho12 : ((input + 1) % W32 + 1) % W32 = (input + 2) % W32 := by rw [hW]; omega
  have hback : ((input + 2) % W32 + W32 - 1) % W32 = (input + 1) % W32 := by rw [hW]; omega
  have hio1 : input ≠ (input + 1) % W32 := by rw [hW]; omega
  have hio2 : input ≠ (input + 2) % W32 := by rw [hW]; omega
  have ho1o2 : (input + 1) % W32 ≠ (input + 2) % W32 := by rw [hW]; omega
  unfold melbshuffle.permute at h
  simp only [ho12, hback, bind, Except.bind] at h
  split at h
  · exact absurd h (by simp)
  rename_i c1a hp1
  split at h
  · exact absurd h (by simp)
  rename_i c2 hd2
  split at h
  · exact absurd h (by simp)
  rename_i c3 hd3
  split at h
  · exact absurd h (by simp)
  rename_i c4 hd4
  split at h
  · exact absurd h (by simp)
  rename_i q hq
  split at h
  · exact absurd h (by simp)
  rename_i c5 hp5
  split at h
  · exact absurd h (by simp)
  rename_i c6 hd6
  split at h
  · exact absurd h (by simp)
  rename_i c7 hd7
  split at h
  · exact absurd h (by simp)
  rename_i c8 hd8
  simp only [pure, Except.pure, Except.ok.injEq, Prod.mk.injEq] at h
  obtain ⟨hout, _, hc8⟩ := h
  subst hc8
  have k1 := shuffle_pass_keeps _ _ _ _ _ _ _ hp1
  have k5 := shuffle_pass_keeps _ _ _ _ _ _ _ hp5
  have t2 := delete_ok_table _ _ _ hd2
  have t3 := delete_ok_table _ _ _ hd3
  have t4 := delete_ok_table _ _ _ hd4
  have t6 := delete_ok_table _ _ _ hd6
  have t7 := delete_ok_table _ _ _ hd7
  have t8 := delete_ok_table _ _ _ hd8
  -- the table after the first pass and its deletions
  have hc4 : ∀ U, U ≠ (input + 1) % W32 →
      c4.table U = if U = input ∨ U = Ta ∨ U = Tb then none else c.table U := by
    intro U hU
    rw [t4, t3, t2]
    by_cases h1 : U = input
    · simp [h1]
    · by_cases h2 : U = Tb
      · simp [h2]
      · by_cases h3 : U = Ta
        · simp [h3]
        · simp only [h1, h2, h3, if_false, false_or]
          rw [k1.2 U (by simp [h3, h2, hU]), create_other _ _ _ _ hU,
            create_other _ _ _ _ h2, create_other _ _ _ _ h3]
  have hnot : ∀ U, c8.has U ↔ (c8.table U).isSome = true := fun U => Iff.rfl
  refine ⟨hout.symm, ?_, ?_, ?_⟩
  · rw [← hout]
    have e8 : c8.table ((input + 2) % W32) = c5.table ((input + 2) % W32) := by
      rw [t8, t7, t6, if_neg (Ne.symm ho1o2), if_neg hnd.2.2, if_neg hnc.2.2]
    rw [has_of_table _ _ _ e8, k5.1]
    exact create_has_self _ _ _
  · intro U hU
    simp only [List.mem_cons, List.mem_singleton, List.not_mem_nil, or_false] at hU
    have hgen : ∀ V, V ≠ (input + 1) % W32 → V ≠ Tc → V ≠ Td → V ≠ (input + 2) % W32 →
        (V = input ∨ V = Ta ∨ V = Tb) → ¬ c8.has V := by
      intro V v1 v2 v3 v4 v5
      have e8 : c8.table V = c5.table V := by
        rw [t8, t7, t6, if_neg v1, if_neg v3, if_neg v2]
      rw [has_of_table _ _ _ e8, k5.1]
      unfold cloud.has
      rw [create_other _ _ _ _ v4, create_other _ _ _ _ v3, create_other _ _ _ _ v2,
        hc4 V v1, if_pos v5]
      simp
    rcases hU with hU | hU | hU | hU | hU | hU
    · subst hU
      exact hgen _ hio1 hnc.1 hnd.1 hio2 (Or.inl rfl)
    · subst hU
      unfold cloud.has
      rw [t8, if_pos rfl]
      simp
    · subst hU
      exact hgen _ (Ne.symm hna.2.1) (by decide) (by decide) (Ne.symm hna.2.2)
        (Or.inr (Or.inl rfl))
    · subst hU
      exact hgen _ (Ne.symm hnb.2.1) (by decide) (by decide) (Ne.symm hnb.2.2)
        (Or.inr (Or.inr rfl))
    · subst hU
      unfold cloud.has
      rw [t8, if_neg (Ne.symm hnc.2.1), t7, if_neg (by decide), t6, if_pos rfl]
      simp
    · subst hU
      unfold cloud.has
      rw [t8, if_neg (Ne.symm hnd.2.1), t7, if_pos rfl]
      simp
  · intro U hU
    simp only [List.mem_cons, List.mem_singleton, List.not_mem_nil, or_false, not_or] at hU
    obtain ⟨u1, u2, u3, u4, u5, u6, u7⟩ := hU
    rw [t8, t7, t6, if_neg u2, if_neg u7, if_neg u6, k5.2 U (by simp [u6, u7, u3]),
      create_other _ _ _ _ u3, create_other _ _ _ _ u7, create_other _ _ _ _ u6, hc4 U u2,
      if_neg (by simp [u1, u4, u5])]

theorem melbourne_permute_arrays_witness :
    ∃ out ms1 c1,
      (melbshuffle.init (permutation.reversal 4) 4 2 2).permute List.reverse 0
        (cloud.driver 4) = .ok (out, ms1, c1) ∧
      out = (0 + 2) % W32 ∧ c1.has out ∧
      (∀ U, U ∈ [0, (0 + 1) % W32, Ta, Tb, Tc, Td] → ¬ c1.has U) ∧
      ∀ U, U ∉ [0, (0 + 1) % W32, (0 + 2) % W32, Ta, Tb, Tc, Td] →
        c1.table U = (cloud.driver 4).table U := by
  obtain ⟨r, hr⟩ := ok_of_to_bool
    ((melbshuffle.init (permutation.reversal 4) 4 2 2).permute List.reverse 0
      (cloud.driver 4)) rfl
  obtain ⟨out, ms1, c1⟩ := r
  exact ⟨out, ms1, c1, hr, melbourne_permute_arrays _ List.reverse 0 (cloud.driver 4) out ms1 c1
    (by decide) hr⟩

/-! ### Waksman permutation: the local subpermutations and the switches of `set_exterior` -/

theorem goes_left_stage_wire (bv : List Bool) (left : Bool) (j : Nat) :
    goes_left bv (stage_wire bv left j) = left := by
  unfold goes_left stage_wire
  by_cases h : bv.getD j false = left
  · rw [if_pos h]
    have e1 : 2 * j / 2 = j := by omega
    have e2 : 2 * j % 2 = 0 := by omega
    rw [e1, e2, h]
    simp
  · rw [if_neg h]
    have e1 : (2 * j + 1) / 2 = j := by omega
    have e2 : ¬ (2 * j + 1) % 2 = 0 := by omega
    rw [e1]
    simp only [e2, decide_False]
    cases hb : bv.getD j false <;> cases left <;> simp_all

theorem stage_wire_half (bv : List Bool) (left : Bool) (j : Nat) :
    stage_wire bv left j / 2 = j := by
  unfold stage_wire
  split <;> omega

theorem stage_wire_of_goes_left (bv : List Bool) (left : Bool) (z : Nat)
    (h : goes_left bv z = left) : stage_wire bv left (z / 2) = z := by
  unfold goes_left at h
  unfold stage_wire
  by_cases hz : z % 2 = 0
  · simp only [hz, decide_True] at h
    have : bv.getD (z / 2) false = left := by
      cases hb : bv.getD (z / 2) false <;> cases left <;> simp_all
    rw [if_pos this]
    omega
  · simp only [hz, decide_False] at h
    have : ¬ bv.getD (z / 2) false = left := by
      cases hb : bv.getD (z / 2) false <;> cases left <;> simp_all
    rw [if_neg this]
    omega

theorem bv_at_getD (bv : List Bool) (i : Nat) (h : i < bv.length) :
    bv_at bv i = .ok (bv.getD i false) := by
  unfold bv_at
  simp [List.getElem?_eq_getElem h, List.getD_eq_getElem?_getD]

theorem eval_pi_child (w : waksman) (gp : perm_node) (pd : Nat) (pl : Bool) (po ps : Nat)
    (pe px : List Bool) (d : Nat) (left : Bool) (o s : Nat) (e x : List Bool) (key : Nat)
    (h : key < pe.length) :
    w.eval_pi (.node (.node gp pd pl po ps pe px) d left o s e x) key =
      (w.eval_pi (.node gp pd pl po ps pe px) (stage_wire pe left key)) >>=
        fun v => pure (v / 2) := by
  rw [waksman.eval_pi]
  simp only [bv_at_getD pe key h, ok_bind, stage_wire, PERSIST, SWAP]
  cases hb : pe.getD key false <;> cases left <;> simp

theorem eval_inv_pi_child (w : waksman) (gp : perm_node) (pd : Nat) (pl : Bool) (po ps : Nat)
    (pe px : List Bool) (d : Nat) (left : Bool) (o s : Nat) (e x : List Bool) (key : Nat)
    (h : key < px.length) :
    w.eval_inv_pi (.node (.node gp pd pl po ps pe px) d left o s e x) key =
      (w.eval_inv_pi (.node gp pd pl po ps pe px) (stage_wire px left key)) >>=
        fun v => pure (v / 2) := by
  rw [waksman.eval_inv_pi]
  simp only [bv_at_getD px key h, ok_bind, stage_wire, PERSIST, SWAP]
  cases hb : px.getD key false <;> cases left <;> simp

/-- A sequence of two steps that returns: the first step returned and the second step,
run on its result, returned the same value. -/
theorem bind_ok_inv {α β : Type} (step : Except Fault α) (next : α → Except Fault β)
    (res : β) (hrun : (step >>= next) = Except.ok res) :
    ∃ mid, step = Except.ok mid ∧ next mid = Except.ok res :=
  match step, hrun with
  | Except.ok mid, hrun => ⟨mid, rfl, hrun⟩
  | Except.error _, hrun => nomatch hrun

theorem getD_last_of_goes_left (bv : List Bool) (s : Nat) (hs : s % 2 = 1)
    (h : bv.getD (nsw s - 1) false = false) : goes_left bv (s - 1) = false := by
  unfold goes_left
  have e1 : (s - 1) / 2 = nsw s - 1 := by unfold nsw; omega
  have e2 : (s - 1) % 2 = 0 := by omega
  rw [e1, e2, h]
  rfl

theorem bij_child (w : waksman) (gp : perm_node) (pd : Nat) (pl : Bool) (po ps : Nat)
    (pe px : List Bool) (hv : w.valid (.node gp pd pl po ps pe px))
    (hb : w.bij (.node gp pd pl po ps pe px)) (left : Bool) (d o s : Nat) (e x : List Bool)
    (hs : s = if left then ps / 2 else ps / 2 + ps % 2) :
    w.bij (.node (.node gp pd pl po ps pe px) d left o s e x) := by
  obtain ⟨hle, hlx, hodd, _, hval⟩ := hv
  simp only [perm_node.entry, perm_node.exit, perm_node.size] at hle hlx hodd hval
  obtain ⟨hb1, hb2⟩ := hb
  simp only [perm_node.size] at hb1 hb2
  have hns : nsw ps = (ps + 1) / 2 := rfl
  constructor
  · intro j hj
    simp only [perm_node.size] at hj
    have hjl : j < pe.length := by rw [hle, hns]; subst hs; split at hj <;> omega
    -- the wire of the parent joined to input `j`
    have hx : stage_wire pe left j < ps := by
      unfold stage_wire
      by_cases hlt : j < ps / 2
      · split <;> omega
      · have hl : left = false := by
          cases left
          · rfl
          · subst hs; simp at hj; omega
        subst hl
        have hpo : ps % 2 = 1 := by subst hs; simp at hj; omega
        have hj2 : j = nsw ps - 1 := by subst hs; simp at hj; rw [hns]; omega
        rw [hj2, if_pos (hodd hpo).1, ← hj2]
        omega
    obtain ⟨y, hy, hylt, hyi⟩ := hb1 _ hx
    obtain ⟨y2, hy2, hgl⟩ := hval _ hx
    rw [hy] at hy2
    cases hy2
    rw [goes_left_stage_wire] at hgl
    have hyl : y / 2 < s := by
      subst hs
      cases left
      · simp only [Bool.false_eq_true, if_false]; omega
      · simp only [if_true]
        by_cases hpo : ps % 2 = 1
        · have hne : y ≠ ps - 1 := by
            intro he
            rw [he, getD_last_of_goes_left px ps hpo (hodd hpo).2] at hgl
            exact absurd hgl (by simp)
          omega
        · omega
    have hyx : y / 2 < px.length := by
      rw [hlx, hns]; omega
    refine ⟨y / 2, ?_, hyl, ?_⟩
    · rw [eval_pi_child w gp pd pl po ps pe px d left o s e x j hjl, hy]
      rfl
    · rw [eval_inv_pi_child w gp pd pl po ps pe px d left o s e x _ hyx,
        stage_wire_of_goes_left px left y hgl.symm, hyi, ok_bind, stage_wire_half]
      rfl
  · intro v hvs
    simp only [perm_node.size] at hvs
    have hvl : v < px.length := by rw [hlx, hns]; subst hs; split at hvs <;> omega
    have hy : stage_wire px left v < ps := by
      unfold stage_wire
      by_cases hlt : v < ps / 2
      · split <;> omega
      · have hl : left = false := by
          cases left
          · rfl
          · subst hs; simp at hvs; omega
        subst hl
        have hpo : ps % 2 = 1 := by subst hs; simp at hvs; omega
        have hj2 : v = nsw ps - 1 := by subst hs; simp at hvs; rw [hns]; omega
        rw [hj2, if_pos (hodd hpo).2, ← hj2]
        omega
    obtain ⟨i, hi, hilt, hii⟩ := hb2 _ hy
    obtain ⟨y2, hy2, hgl⟩ := hval _ hilt
    rw [hii] at hy2
    cases hy2
    rw [goes_left_stage_wire] at hgl
    have hil : i / 2 < s := by
      subst hs
      cases left
      · simp only [Bool.false_eq_true, if_false]; omega
      · simp only [if_true]
        by_cases hpo : ps % 2 = 1
        · have hne : i ≠ ps - 1 := by
            intro he
            rw [he, getD_last_of_goes_left pe ps hpo (hodd hpo).1] at hgl
            exact absurd hgl (by simp)
          omega
        · omega
    have hie : i / 2 < pe.length := by
      rw [hle, hns]; omega
    refine ⟨i / 2, ?_, hil, ?_⟩
    · rw [eval_inv_pi_child w gp pd pl po ps pe px d left o s e x v hvl, hi]
      rfl
    · rw [eval_pi_child w gp pd pl po ps pe px d left o s e x _ hie,
        stage_wire_of_goes_left pe left i hgl, hii, ok_bind, stage_wire_half]
      rfl

theorem bij_root (w : waksman) (hpi : w.good_pi) (d : Nat) (l : Bool) (o : Nat)
    (e x : List Bool) : w.bij (.node .null d l o w.length e x) := by
  obtain ⟨hsz, hperm, hinv⟩ := hpi
  have hlen : w.pi.perm.length = w.length := by rw [hperm.length_eq, List.length_range]
  constructor
  · intro i hi
    simp only [perm_node.size] at hi
    obtain ⟨h1, _⟩ := hinv i (by rw [hsz]; exact hi)
    obtain ⟨v, hv, hv2⟩ := bind_ok_inv _ _ _ h1
    refine ⟨v, by rw [waksman.eval_pi]; exact hv, ?_, by rw [waksman.eval_inv_pi]; exact hv2⟩
    simp only [perm_node.size]
    have hp := eval_perm_place w.pi ⟨i, 0⟩ (by rw [hlen]; exact hi)
    simp only at hp
    rw [hv] at hp
    cases hp
    exact place_lt w.pi w.length hperm ⟨i, 0⟩ hi
  · intro v hv
    simp only [perm_node.size] at hv
    obtain ⟨_, h2⟩ := hinv v (by rw [hsz]; exact hv)
    obtain ⟨i, hi, hi2⟩ := bind_ok_inv _ _ _ h2
    refine ⟨i, by rw [waksman.eval_inv_pi]; exact hi, ?_, by rw [waksman.eval_pi]; exact hi2⟩
    simp only [perm_node.size]
    unfold permutation.eval_perm at hi2
    by_cases hil : i < w.pi.perm.length
    · omega
    · rw [List.getElem?_eq_none (by omega)] at hi2
      exact absurd hi2 (by simp)

theorem bij_of_wf (w : waksman) (hpi : w.good_pi) (N : perm_node) (h : w.wf N) : w.bij N := by
  induction h with
  | root e x => exact bij_root w hpi _ _ _ e x
  | left P e x hwf hv hls ih =>
    cases P with
    | null => cases hwf
    | node gp pd pl po ps pe px =>
      exact bij_child w gp pd pl po ps pe px hv ih true _ _ _ e x (by simp [perm_node.size])
  | right P e x hwf hv hls ih =>
    cases P with
    | null => cases hwf
    | node gp pd pl po ps pe px =>
      exact bij_child w gp pd pl po ps pe px hv ih false _ _ _ e x (by simp [perm_node.size])

theorem getD_set (bv : List Bool) (i j : Nat) (b : Bool) :
    (bv.set i b).getD j false = if j = i ∧ i < bv.length then b else bv.getD j false := by
  simp only [List.getD_eq_getElem?_getD, List.getElem?_set]
  by_cases h : i = j
  · subst h
    by_cases hl : i < bv.length
    · simp [hl]
    · simp [hl, List.getElem?_eq_none (Nat.le_of_not_lt hl)]
  · have h2 : ¬ j = i := fun e => h e.symm
    simp [h, h2]

theorem bv_set_ok (bv : List Bool) (i : Nat) (b : Bool) (h : i < bv.length) :
    bv_set bv i b = .ok (bv.set i b) := by
  unfold bv_set
  rw [if_pos h]

theorem count_set_true (bv : List Bool) (i : Nat) (h : i < bv.length)
    (hf : bv.getD i false = false) :
    (bv.set i true).count true = bv.count true + 1 := by
  induction bv generalizing i with
  | nil => simp at h
  | cons a rest ih =>
    cases i with
    | zero =>
      simp only [List.getD_eq_getElem?_getD, List.getElem?_cons_zero, Option.getD_some] at hf
      subst hf
      simp
    | succ i =>
      simp only [List.getD_eq_getElem?_getD, List.getElem?_cons_succ] at hf
      simp only [List.length_cons, Nat.add_lt_add_iff_right] at h
      have := ih i h (by simpa [List.getD_eq_getElem?_getD] using hf)
      simp only [List.set_cons_succ, List.count_cons, this]
      omega

theorem exists_unset (bv : List Bool) (h : bv.count true < bv.length) :
    ∃ i, i < bv.length ∧ bv.getD i false = false := by
  induction bv with
  | nil => simp at h
  | cons a rest ih =>
    cases a with
    | false => exact ⟨0, by simp, by simp⟩
    | true =>
      simp only [List.count_cons_self, List.length_cons, Nat.add_lt_add_iff_right] at h
      obtain ⟨i, hi, hf⟩ := ih h
      exact ⟨i + 1, by simpa using hi, by simpa [List.getD_eq_getElem?_getD] using hf⟩

theorem all_set_of_count (bv : List Bool) (h : bv.length ≤ bv.count true) :
    ∀ i, i < bv.length → bv.getD i false = true := by
  induction bv with
  | nil => intro i hi; simp at hi
  | cons a rest ih =>
    cases a with
    | false =>
      simp only [List.length_cons] at h
      have := List.count_le_length true rest
      simp at h
      omega
    | true =>
      simp only [List.count_cons_self, List.length_cons, Nat.add_le_add_iff_right] at h
      intro i hi
      cases i with
      | zero => simp
      | succ i =>
        simp only [List.length_cons, Nat.add_lt_add_iff_right] at hi
        simpa [List.getD_eq_getElem?_getD] using ih h i hi

theorem next_null_scan_spec (l : List Bool) (index : Nat) :
    index ≤ next_null_scan l index ∧ next_null_scan l index ≤ index + l.length ∧
    (∀ t, index + t < next_null_scan l index → l.getD t false = true) ∧
    (next_null_scan l index < index + l.length →
      l.getD (next_null_scan l index - index) false = false) := by
  induction l generalizing index with
  | nil => simp [next_null_scan]
  | cons b rest ih =>
    unfold next_null_scan
    cases b with
    | false => simp
    | true =>
      simp only [if_true]
      obtain ⟨h1, h2, h3, h4⟩ := ih (index + 1)
      refine ⟨by omega, by simp only [List.length_cons]; omega, ?_, ?_⟩
      · intro t ht
        cases t with
        | zero => simp
        | succ t =>
          have := h3 t (by omega)
          simpa [List.getD_eq_getElem?_getD] using this
      · intro hlt
        simp only [List.length_cons] at hlt
        have := h4 (by omega)
        have e : next_null_scan rest (index + 1) - index =
            (next_null_scan rest (index + 1) - (index + 1)) + 1 := by omega
        rw [e]
        simpa [List.getD_eq_getElem?_getD] using this

theorem next_null_spec (bv : List Bool) (index : Nat) (h : index < bv.length) :
    index < waksman.next_null bv index ∧ waksman.next_null bv index ≤ bv.length ∧
    (∀ i, index < i → i < waksman.next_null bv index → bv.getD i false = true) ∧
    (waksman.next_null bv index < bv.length →
      bv.getD (waksman.next_null bv index) false = false) := by
  unfold waksman.next_null
  rw [if_neg (by omega)]
  obtain ⟨h1, h2, h3, h4⟩ := next_null_scan_spec (bv.drop (index + 1)) (index + 1)
  simp only [List.length_drop] at h2 h4
  refine ⟨by omega, by omega, ?_, ?_⟩
  · intro i hi1 hi2
    have := h3 (i - (index + 1)) (by omega)
    simp only [List.getD_eq_getElem?_getD, List.getElem?_drop] at this ⊢
    rw [show index + 1 + (i - (index + 1)) = i by omega] at this
    exact this
  · intro hlt
    have := h4 (by omega)
    simp only [List.getD_eq_getElem?_getD, List.getElem?_drop] at this ⊢
    rw [show index + 1 + (next_null_scan (List.drop (index + 1) bv) (index + 1) - (index + 1))
      = next_null_scan (List.drop (index + 1) bv) (index + 1) by omega] at this
    exact this

theorem twin_half (z : Nat) : twin z / 2 = z / 2 := by
  unfold twin; split <;> omega

theorem twin_ne (z : Nat) : twin z ≠ z := by
  unfold twin; split <;> omega

theorem twin_of_half (y z : Nat) (h : y / 2 = z / 2) : y = z ∨ y = twin z := by
  unfold twin; split <;> omega

theorem goes_left_twin (bv : List Bool) (z : Nat) :
    goes_left bv (twin z) = !goes_left bv z := by
  unfold goes_left
  rw [twin_half]
  have : decide (twin z % 2 = 0) = !decide (z % 2 = 0) := by
    unfold twin
    by_cases h : z % 2 = 0
    · have h2 : ¬ (z + 1) % 2 = 0 := by omega
      simp [h, h2]
    · have h2 : (z - 1) % 2 = 0 := by omega
      simp [h, h2]
  rw [this]
  cases bv.getD (z / 2) false <;> cases decide (z % 2 = 0) <;> rfl

theorem goes_left_set_ne (bv : List Bool) (i : Nat) (b : Bool) (z : Nat) (h : z / 2 ≠ i) :
    goes_left (bv.set i b) z = goes_left bv z := by
  unfold goes_left
  rw [getD_set, if_neg (fun e => h e.1)]

theorem goes_left_configure (A B : List Bool) (cur tar : Nat) (ht : tar / 2 < B.length) :
    goes_left (B.set (tar / 2)
      (decide (decide (cur % 2 = tar % 2) = A.getD (cur / 2) false))) tar = goes_left A cur := by
  unfold goes_left
  rw [getD_set, if_pos ⟨rfl, ht⟩]
  by_cases h1 : cur % 2 = 0 <;> by_cases h2 : tar % 2 = 0 <;>
    cases A.getD (cur / 2) false <;> simp [h1, h2] <;> omega

theorem set_switch_unset (cur tar : Nat) (cs : Bool) (res : Nat) (B setB : List Bool)
    (ht : tar / 2 < B.length) (ht2 : tar / 2 < setB.length)
    (hu : setB.getD (tar / 2) false = false) (hW : tar + 1 < W32) :
    waksman.set_switch { cur := cur, tar := tar, cur_setting := cs } res B setB =
      .ok ({ cur := twin tar, tar := tar,
             cur_setting := decide (decide (cur % 2 = tar % 2) = cs) },
        (if res = tar / 2 then waksman.next_null (setB.set (tar / 2) true) res else res),
        B.set (tar / 2) (decide (decide (cur % 2 = tar % 2) = cs)),
        setB.set (tar / 2) true) := by
  unfold waksman.set_switch
  simp only [bv_at_getD setB _ ht2, hu, ok_bind, ext_data.configure, ext_data.update_index,
    Bool.not_false, if_true]
  rw [bv_set_ok _ _ _ ht, ok_bind, bv_set_ok _ _ _ ht2, ok_bind]
  have hW32 : W32 = 4294967296 := by decide
  have htw : (if tar % 2 = 0 then (tar + 1) % W32 else (tar + W32 - 1) % W32) = twin tar := by
    unfold twin
    split
    · exact Nat.mod_eq_of_lt hW
    · rw [show tar + W32 - 1 = (tar - 1) + W32 by omega, Nat.add_mod_right]
      exact Nat.mod_eq_of_lt (by omega)
  simp only [htw]
  split <;> rfl

theorem set_switch_set (cur tar : Nat) (cs : Bool) (res : Nat) (B setB : List Bool)
    (ht2 : tar / 2 < setB.length) (hr : res < B.length) (hr2 : res < setB.length)
    (hu : setB.getD (tar / 2) false = true) (hW : 2 * res < W32) :
    waksman.set_switch { cur := cur, tar := tar, cur_setting := cs } res B setB =
      .ok ({ cur := 2 * res, tar := tar, cur_setting := true },
        waksman.next_null (setB.set res true) res, B.set res true, setB.set res true) := by
  unfold waksman.set_switch
  have e1 : 2 * res % W32 = 2 * res := Nat.mod_eq_of_lt hW
  have e2 : 2 * res / 2 = res := by omega
  simp only [bv_at_getD setB _ ht2, hu, ok_bind, Bool.not_true, Bool.false_eq_true, if_false,
    e1, e2, PERSIST]
  rw [bv_set_ok _ _ _ hr, ok_bind, bv_set_ok _ _ _ hr2, ok_bind]
  rfl

theorem res_ok_lt (bv : List Bool) (res : Nat) (h : res_ok bv res)
    (hc : bv.count true < bv.length) : res < bv.length := by
  obtain ⟨i, hi, hf⟩ := exists_unset bv hc
  by_contra hge
  have := h.1 i (by omega)
  rw [this] at hf
  exact absurd hf (by simp)

theorem res_ok_next (bv : List Bool) (res : Nat) (h : res_ok bv res) (hr : res < bv.length) :
    res_ok (bv.set res true) (waksman.next_null (bv.set res true) res) := by
  obtain ⟨h1, h2, h3, h4⟩ := next_null_spec (bv.set res true) res (by simpa using hr)
  simp only [List.length_set] at h2 h4 ⊢
  refine ⟨fun i hi => ?_, fun hlt => h4 (by simpa using hlt), by simpa using h2⟩
  rcases Nat.lt_trichotomy i res with hlt | heq | hgt
  · rw [getD_set, if_neg (by omega)]
    exact h.1 i hlt
  · rw [getD_set, if_pos ⟨heq, hr⟩]
  · exact h3 i hgt hi

theorem set_switch_step (s : Nat) (F G : Nat → Except Fault Nat) (hFG : inv_pair s F G)
    (A setA B setB : List Bool) (cur : Nat) (cs oA : Bool) (o tar resB : Nat)
    (hs2 : s < 2 ^ 31)
    (hinv : walk_inv s F G A setA B setB cur cs oA o)
    (hres : res_ok setB resB)
    (hcnt : setB.count true < nsw s)
    (hpseudo : s % 2 = 1 → setB.getD (nsw s - 1) false = true)
    (htar : F cur = .ok tar) :
    ∃ d r B1 setB1 oA1 o1,
      waksman.set_switch { cur := cur, tar := tar, cur_setting := cs } resB B setB =
        .ok (d, r, B1, setB1) ∧
      walk_inv s G F B1 setB1 A setA d.cur d.cur_setting oA1 o1 ∧ res_ok setB1 r ∧
      setB1.count true = setB.count true + 1 ∧
      (∀ i, setB.getD i false = true →
        setB1.getD i false = true ∧ B1.getD i false = B.getD i false) := by
  have hW32 : W32 = 4294967296 := by decide
  have hns : nsw s = (s + 1) / 2 := rfl
  obtain ⟨t2, ht2, htlt, hGt⟩ := hFG.1 cur hinv.cur_lt
  rw [htar] at ht2
  cases ht2
  have hth : tar / 2 < nsw s := by rw [hns]; omega
  by_cases hu : setB.getD (tar / 2) false = true
  · -- the target switch is set: the path is closed and a new one starts at the reserve
    have hclose : oA = false ∧ tar = o := by
      by_contra hc
      obtain ⟨x, hx, _, _, hne, _⟩ := hinv.bwd tar htlt hu hc
      rw [hGt] at hx
      cases hx
      exact hne rfl
    obtain ⟨hoA, hto⟩ := hclose
    subst hoA
    subst hto
    have hpar : goes_left A cur = goes_left B tar := by
      have := hinv.par
      simpa using this
    have hr : resB < setB.length := res_ok_lt setB resB hres (by rw [hinv.lenSB]; exact hcnt)
    have hru : setB.getD resB false = false := hres.2.1 hr
    rw [hinv.lenSB] at hr
    have hrne : resB ≠ nsw s - 1 ∨ s % 2 = 0 := by
      by_cases hodd : s % 2 = 1
      · left
        intro he
        rw [he, hpseudo hodd] at hru
        exact absurd hru (by simp)
      · right; omega
    have h2r : 2 * resB + 1 < s := by rw [hns] at hr hrne; omega
    refine ⟨_, _, _, _, true, 2 * resB + 1,
      set_switch_set cur tar cs resB B setB (by rw [hinv.lenSB]; exact hth)
        (by rw [hinv.lenB]; exact hr) (by rw [hinv.lenSB]; exact hr) hu (by omega), ?_,
      res_ok_next setB resB hres (by rw [hinv.lenSB]; exact hr),
      count_set_true setB resB (by rw [hinv.lenSB]; exact hr) hru, ?_⟩
    · have e1 : 2 * resB / 2 = resB := by omega
      have e2 : (2 * resB + 1) / 2 = resB := by omega
      have hset : ∀ y, y / 2 ≠ resB →
          (setB.set resB true).getD (y / 2) false = setB.getD (y / 2) false := by
        intro y hy
        rw [getD_set, if_neg (fun e => hy e.1)]
      have hsetr : (setB.set resB true).getD resB false = true := by
        rw [getD_set, if_pos ⟨rfl, by rw [hinv.lenSB]; exact hr⟩]
      have htr : tar / 2 ≠ resB := by
        intro e; rw [e, hru] at hu; exact absurd hu (by simp)
      exact {
        lenA := by simp [hinv.lenB]
        lenSA := by simp [hinv.lenSB]
        lenB := hinv.lenA
        lenSB := hinv.lenSA
        cur_lt := by show 2 * resB < s; omega
        cur_set := by show (setB.set resB true).getD (2 * resB / 2) false = true
                      rw [e1]; exact hsetr
        cur_cs := by show true = (B.set resB true).getD (2 * resB / 2) false
                     rw [e1, getD_set, if_pos ⟨rfl, by rw [hinv.lenB]; exact hr⟩]
        o_lt := h2r
        o_set := by
          rw [if_pos rfl, e2]
          exact ⟨hsetr, by show 2 * resB + 1 ≠ 2 * resB; omega⟩
        fwd := by
          intro y hy hys hyc hyo
          have hyc2 : y ≠ 2 * resB := hyc
          have hyr : y / 2 ≠ resB := by
            intro e
            have : y = 2 * resB + 1 := by omega
            exact hyo ⟨rfl, this⟩
          rw [hset y hyr] at hys
          by_cases hyt : y = tar
          · subst hyt
            refine ⟨cur, hGt, hinv.cur_lt, hinv.cur_set, by simp, ?_⟩
            rw [goes_left_set_ne _ _ _ _ hyr, hpar]
          · obtain ⟨x, hx, hxl, hxs, _, _, hgl⟩ := hinv.bwd y hy hys (fun h => hyt h.2)
            refine ⟨x, hx, hxl, hxs, by simp, ?_⟩
            rw [goes_left_set_ne _ _ _ _ hyr, hgl]
        bwd := by
          intro x hx hxs _
          by_cases hxc : x = cur
          · subst hxc
            refine ⟨tar, htar, htlt, by rw [hset tar htr]; exact hu, ?_, ?_, ?_⟩
            · show tar ≠ 2 * resB
              omega
            · intro h; have := h.2; omega
            · rw [goes_left_set_ne _ _ _ _ htr, hpar]
          · obtain ⟨y, hy, hyl, hys, _, hgl⟩ := hinv.fwd x hx hxs hxc (by simp)
            have hyr : y / 2 ≠ resB := by
              intro e; rw [e, hru] at hys; exact absurd hys (by simp)
            refine ⟨y, hy, hyl, by rw [hset y hyr]; exact hys, ?_, ?_, ?_⟩
            · show y ≠ 2 * resB
              omega
            · intro h; have := h.2; omega
            · rw [goes_left_set_ne _ _ _ _ hyr, hgl]
        par := by
          rw [if_pos rfl]
          show goes_left (B.set resB true) (2 * resB) ≠ goes_left (B.set resB true) (2 * resB + 1)
          have : 2 * resB + 1 = twin (2 * resB) := by unfold twin; rw [if_pos (by omega)]
          rw [this, goes_left_twin]
          cases goes_left (B.set resB true) (2 * resB) <;> simp }
    · intro i hi
      have hir : i ≠ resB := by
        intro e; rw [e, hru] at hi; exact absurd hi (by simp)
      rw [getD_set, if_neg (fun e => hir e.1), getD_set, if_neg (fun e => hir e.1)]
      exact ⟨hi, rfl⟩
  · -- the target switch is not set
    have hu2 : setB.getD (tar / 2) false = false := by
      cases h : setB.getD (tar / 2) false
      · rfl
      · exact absurd h hu
    have htne : s % 2 = 1 → tar ≠ s - 1 := by
      intro hodd he
      have e : tar / 2 = nsw s - 1 := by rw [he, hns]; omega
      rw [e, hpseudo hodd] at hu2
      exact absurd hu2 (by simp)
    have htw : twin tar < s := by
      unfold twin
      split
      · by_cases hodd : s % 2 = 1
        · have := htne hodd; omega
        · omega
      · omega
    have hset : ∀ y, y / 2 ≠ tar / 2 →
        (setB.set (tar / 2) true).getD (y / 2) false = setB.getD (y / 2) false := by
      intro y hy
      rw [getD_set, if_neg (fun e => hy e.1)]
    have hsett : (setB.set (tar / 2) true).getD (tar / 2) false = true := by
      rw [getD_set, if_pos ⟨rfl, by rw [hinv.lenSB]; exact hth⟩]
    have hcfg := goes_left_configure A B cur tar (by rw [hinv.lenB]; exact hth)
    rw [← hinv.cur_cs] at hcfg
    refine ⟨_, _, _, _, !oA, o,
      set_switch_unset cur tar cs resB B setB (by rw [hinv.lenB]; exact hth)
        (by rw [hinv.lenSB]; exact hth) hu2 (by omega), ?_, ?_,
      count_set_true setB _ (by rw [hinv.lenSB]; exact hth) hu2, ?_⟩
    · exact {
        lenA := by simp [hinv.lenB]
        lenSA := by simp [hinv.lenSB]
        lenB := hinv.lenA
        lenSB := hinv.lenSA
        cur_lt := htw
        cur_set := by show (setB.set (tar / 2) true).getD (twin tar / 2) false = true
                      rw [twin_half]; exact hsett
        cur_cs := by
          show _ = (B.set (tar / 2) _).getD (twin tar / 2) false
          rw [twin_half, getD_set, if_pos ⟨rfl, by rw [hinv.lenB]; exact hth⟩]
        o_lt := hinv.o_lt
        o_set := by
          have hos := hinv.o_set
          cases oA with
          | true =>
            simp only [if_true] at hos
            simp only [Bool.not_true, Bool.false_eq_true, if_false]
            exact hos.1
          | false =>
            simp only [Bool.false_eq_true, if_false] at hos
            simp only [Bool.not_false, if_true]
            have hne : o / 2 ≠ tar / 2 := by
              intro e; rw [e, hu2] at hos; exact absurd hos (by simp)
            refine ⟨by rw [hset o hne]; exact hos, ?_⟩
            show o ≠ twin tar
            intro e
            rw [e, twin_half] at hne
            exact hne rfl
        fwd := by
          intro y hy hys hyc hyo
          have hyc2 : y ≠ twin tar := hyc
          by_cases hyh : y / 2 = tar / 2
          · have hyt : y = tar := by
              rcases twin_of_half y tar hyh with h | h
              · exact h
              · exact absurd h hyc2
            subst hyt
            refine ⟨cur, hGt, hinv.cur_lt, hinv.cur_set, ?_, hcfg⟩
            intro h
            have hos := hinv.o_set
            have hoA : oA = true := by simpa using h.1
            rw [hoA] at hos
            simp only [if_true] at hos
            exact hos.2 h.2.symm
          · rw [hset y hyh] at hys
            obtain ⟨x, hx, hxl, hxs, _, hxo, hgl⟩ := hinv.bwd y hy hys (by
              intro h
              apply hyo
              exact ⟨by simp [h.1], h.2⟩)
            refine ⟨x, hx, hxl, hxs, ?_, ?_⟩
            · intro h
              apply hxo
              exact ⟨by simpa using h.1, h.2⟩
            · rw [goes_left_set_ne _ _ _ _ hyh, hgl]
        bwd := by
          intro x hx hxs hxo
          by_cases hxc : x = cur
          · subst hxc
            refine ⟨tar, htar, htlt, hsett, ?_, ?_, hcfg⟩
            · show tar ≠ twin tar
              exact fun e => twin_ne tar e.symm
            · intro h
              have hoA : oA = false := by simpa using h.1
              have hos := hinv.o_set
              rw [hoA] at hos
              simp only [Bool.false_eq_true, if_false] at hos
              rw [← h.2, hu2] at hos
              exact absurd hos (by simp)
          · obtain ⟨y, hy, hyl, hys, hyo, hgl⟩ := hinv.fwd x hx hxs hxc (by
              intro h
              apply hxo
              exact ⟨by simp [h.1], h.2⟩)
            have hyh : y / 2 ≠ tar / 2 := by
              intro e; rw [e, hu2] at hys; exact absurd hys (by simp)
            refine ⟨y, hy, hyl, by rw [hset y hyh]; exact hys, ?_, ?_, ?_⟩
            · show y ≠ twin tar
              intro e
              rw [e, twin_half] at hyh
              exact hyh rfl
            · intro h
              apply hyo
              exact ⟨by simpa using h.1, h.2⟩
            · rw [goes_left_set_ne _ _ _ _ hyh, hgl]
        par := by
          have hp := hinv.par
          have hos := hinv.o_set
          show if (!oA) = true then goes_left (B.set (tar / 2) _) (twin tar) ≠
              goes_left (B.set (tar / 2) _) o
            else goes_left (B.set (tar / 2) _) (twin tar) = goes_left A o
          rw [goes_left_twin, hcfg]
          cases oA with
          | true =>
            simp only [if_true] at hp
            simp only [Bool.not_true, Bool.false_eq_true, if_false]
            cases h1 : goes_left A cur <;> cases h2 : goes_left A o <;> simp_all
          | false =>
            simp only [Bool.false_eq_true, if_false] at hp hos
            simp only [Bool.not_false, if_true]
            have hne : o / 2 ≠ tar / 2 := by
              intro e; rw [e, hu2] at hos; exact absurd hos (by simp)
            rw [goes_left_set_ne _ _ _ _ hne, hp]
            cases goes_left B o <;> simp }
    · -- the reserve
      by_cases hrt : resB = tar / 2
      · rw [if_pos hrt, hrt]
        exact res_ok_next setB (tar / 2) (hrt ▸ hres) (by rw [hinv.lenSB]; exact hth)
      · rw [if_neg hrt]
        refine ⟨fun i hi => ?_, fun hlt => ?_, by simpa using hres.2.2⟩
        · have := hres.1 i hi
          rw [getD_set]
          split
          · rfl
          · exact this
        · rw [getD_set, if_neg (fun e => hrt e.1)]
          exact hres.2.1 (by simpa using hlt)
    · intro i hi
      have hir : i ≠ tar / 2 := by
        intro e; rw [e, hu2] at hi; exact absurd hi (by simp)
      rw [getD_set, if_neg (fun e => hir e.1), getD_set, if_neg (fun e => hir e.1)]
      exact ⟨hi, rfl⟩

theorem walk_inv_final (s : Nat) (F G : Nat → Except Fault Nat) (hFG : inv_pair s F G)
    (A setA B setB : List Bool) (cur : Nat) (cs oA : Bool) (o : Nat)
    (hinv : walk_inv s F G A setA B setB cur cs oA o)
    (hallA : ∀ i, i < nsw s → setA.getD i false = true)
    (hallB : ∀ i, i < nsw s → setB.getD i false = true) :
    ∀ x, x < s → ∃ y, F x = .ok y ∧ y < s ∧ goes_left A x = goes_left B y := by
  intro x hx
  have hns : nsw s = (s + 1) / 2 := rfl
  by_cases hsp : x ≠ cur ∧ ¬ (oA = true ∧ x = o)
  · obtain ⟨y, hy, hyl, _, _, hgl⟩ := hinv.fwd x hx (hallA _ (by rw [hns]; omega)) hsp.1 hsp.2
    exact ⟨y, hy, hyl, hgl⟩
  · obtain ⟨y, hy, hyl, hGy⟩ := hFG.1 x hx
    have hyo : oA = false ∧ y = o := by
      by_contra hc
      obtain ⟨x2, hx2, _, _, h1, h2, _⟩ := hinv.bwd y hyl (hallB _ (by rw [hns]; omega)) hc
      rw [hGy] at hx2
      cases hx2
      exact hsp ⟨h1, h2⟩
    obtain ⟨hoA, hyo2⟩ := hyo
    have hxc : x = cur := by
      by_contra hc
      exact hsp ⟨hc, fun h => by rw [hoA] at h; exact absurd h.1 (by simp)⟩
    refine ⟨y, hy, hyl, ?_⟩
    have hp := hinv.par
    rw [hoA] at hp
    simp only [Bool.false_eq_true, if_false] at hp
    rw [hxc, hyo2]
    exact hp

theorem eval_pi_with_switches (w : waksman) (N : perm_node) (e x : List Bool) (k : Nat) :
    w.eval_pi (N.with_switches e x) k = w.eval_pi N k := by
  cases N with
  | null => rfl
  | node p d l o s e0 x0 =>
    cases p with
    | null => simp [perm_node.with_switches, waksman.eval_pi]
    | node gp pd pl po ps pe px => simp [perm_node.with_switches, waksman.eval_pi]

theorem eval_inv_pi_with_switches (w : waksman) (N : perm_node) (e x : List Bool) (k : Nat) :
    w.eval_inv_pi (N.with_switches e x) k = w.eval_inv_pi N k := by
  cases N with
  | null => rfl
  | node p d l o s e0 x0 =>
    cases p with
    | null => simp [perm_node.with_switches, waksman.eval_inv_pi]
    | node gp pd pl po ps pe px => simp [perm_node.with_switches, waksman.eval_inv_pi]

theorem ext_step (w : waksman) (N : perm_node) (s c0 k : Nat) (st : ext_state)
    (hbij : inv_pair s (w.eval_pi N) (w.eval_inv_pi N)) (hs2 : s < 2 ^ 31)
    (hc0 : c0 = if s % 2 = 1 then 2 else 1)
    (hk : k < 2 * nsw s - c0) (hinv : ext_inv w N s c0 k st) :
    ∃ st1, w.set_exterior_step N st = .ok st1 ∧ ext_inv w N s c0 (k + 1) st1 := by
  obtain ⟨hi, ⟨oA, o, hw⟩, hre, hrx, hcnt, hbal, hodd, heven⟩ := hinv
  have hbij2 : inv_pair s (w.eval_inv_pi N) (w.eval_pi N) := ⟨hbij.2, hbij.1⟩
  unfold waksman.set_exterior_step
  by_cases hinvt : st.inv = true
  · rw [if_pos hinvt] at hw hbal
    simp only [hinvt, if_true]
    obtain ⟨tar, htar, _, _⟩ := hbij2.1 _ hw.cur_lt
    rw [htar, ok_bind]
    have hcn : st.switch_set_entry.count true < nsw s := by
      split at hc0 <;> omega
    obtain ⟨d, r, B1, setB1, oA1, o1, hss, hw1, hr1, hc1, hfr⟩ :=
      set_switch_step s _ _ hbij2 _ _ _ _ _ _ oA o tar st.res_entry hs2 hw hre hcn
        (fun h => (hodd h).1) htar
    have hss2 : waksman.set_switch
        { cur := st.data.cur, tar := tar, cur_setting := st.data.cur_setting }
        st.res_entry st.entry st.switch_set_entry = .ok (d, r, B1, setB1) := hss
    rw [hss2, ok_bind]
    refine ⟨_, rfl, ?_, ⟨oA1, o1, ?_⟩, hr1, hrx, ?_, ?_, ?_, ?_⟩
    · simp only [hinvt, Bool.not_true]
      rw [hinvt] at hi
      have : k % 2 = 0 := by simpa using hi.symm
      have h2 : ¬ (k + 1) % 2 = 0 := by omega
      simp [h2]
    · simp only [hinvt, Bool.not_true, Bool.false_eq_true, if_false]
      exact hw1
    · show setB1.count true + st.switch_set_exit.count true = c0 + (k + 1)
      omega
    · simp only [hinvt, Bool.not_true, Bool.false_eq_true, if_false]
      show setB1.count true + (2 - c0) = st.switch_set_exit.count true + 1
      omega
    · intro h
      obtain ⟨h1, h2, h3, h4⟩ := hodd h
      have := hfr _ h1
      exact ⟨this.1, h2, by show B1.getD _ false = false; rw [this.2]; exact h3, h4⟩
    · exact heven
  · have hinvf : st.inv = false := by
      cases h : st.inv
      · rfl
      · exact absurd h hinvt
    rw [if_neg hinvt] at hw hbal
    simp only [hinvf, Bool.false_eq_true, if_false]
    obtain ⟨tar, htar, _, _⟩ := hbij.1 _ hw.cur_lt
    rw [htar, ok_bind]
    have hcn : st.switch_set_exit.count true < nsw s := by
      split at hc0 <;> omega
    obtain ⟨d, r, B1, setB1, oA1, o1, hss, hw1, hr1, hc1, hfr⟩ :=
      set_switch_step s _ _ hbij _ _ _ _ _ _ oA o tar st.res_exit hs2 hw hrx hcn
        (fun h => (hodd h).2.1) htar
    have hss2 : waksman.set_switch
        { cur := st.data.cur, tar := tar, cur_setting := st.data.cur_setting }
        st.res_exit st.exit st.switch_set_exit = .ok (d, r, B1, setB1) := hss
    rw [hss2, ok_bind]
    refine ⟨_, rfl, ?_, ⟨oA1, o1, ?_⟩, hre, hr1, ?_, ?_, ?_, ?_⟩
    · simp only [hinvf, Bool.not_false]
      rw [hinvf] at hi
      have : ¬ k % 2 = 0 := by simpa using hi.symm
      have h2 : (k + 1) % 2 = 0 := by omega
      simp [h2]
    · simp only [hinvf, Bool.not_false, if_true]
      exact hw1
    · show st.switch_set_entry.count true + setB1.count true = c0 + (k + 1)
      omega
    · simp only [hinvf, Bool.not_false, if_true]
      show st.switch_set_entry.count true + (2 - c0) = setB1.count true
      omega
    · intro h
      obtain ⟨h1, h2, h3, h4⟩ := hodd h
      have := hfr _ h2
      exact ⟨h1, this.1, h3, by show B1.getD _ false = false; rw [this.2]; exact h4⟩
    · intro h
      obtain ⟨h1, h2⟩ := heven h
      have := hfr _ h1
      exact ⟨this.1, by show B1.getD _ false = true; rw [this.2]; exact h2⟩

theorem replicate_getD (n j : Nat) : (List.replicate n false).getD j false = false := by
  simp only [List.getD_eq_getElem?_getD, List.getElem?_replicate]
  split <;> rfl

theorem replicate_count (n : Nat) : (List.replicate n false).count true = 0 := by
  simp [List.count_replicate]

theorem ext_final (w : waksman) (p : perm_node) (d : Nat) (l : Bool) (o s : Nat)
    (e0 x0 : List Bool) (c0 : Nat) (st : ext_state)
    (hbij : inv_pair s (w.eval_pi (.node p d l o s e0 x0)) (w.eval_inv_pi (.node p d l o s e0 x0)))
    (hc0 : c0 ≤ 2 * nsw s)
    (hinv : ext_inv w (.node p d l o s e0 x0) s c0 (2 * nsw s - c0) st) :
    w.valid (.node p d l o s st.entry st.exit) := by
  obtain ⟨hi, ⟨oA, o1, hw⟩, hre, hrx, hcnt, hbal, hodd, heven⟩ := hinv
  have hbij2 : inv_pair s (w.eval_inv_pi (.node p d l o s e0 x0))
    (w.eval_pi (.node p d l o s e0 x0)) := ⟨hbij.2, hbij.1⟩
  have hlen : st.entry.length = nsw s ∧ st.exit.length = nsw s ∧
      st.switch_set_entry.length = nsw s ∧ st.switch_set_exit.length = nsw s := by
    split at hw
    · exact ⟨hw.lenB, hw.lenA, hw.lenSB, hw.lenSA⟩
    · exact ⟨hw.lenA, hw.lenB, hw.lenSA, hw.lenSB⟩
  obtain ⟨l1, l2, l3, l4⟩ := hlen
  have hc1 : st.switch_set_entry.count true ≤ nsw s := by
    rw [← l3]; exact List.count_le_length _ _
  have hc2 : st.switch_set_exit.count true ≤ nsw s := by
    rw [← l4]; exact List.count_le_length _ _
  have ha1 := all_set_of_count st.switch_set_entry (by rw [l3]; omega)
  have ha2 := all_set_of_count st.switch_set_exit (by rw [l4]; omega)
  rw [l3] at ha1
  rw [l4] at ha2
  have key : ∀ x, x < s → ∃ y, w.eval_pi (.node p d l o s e0 x0) x = .ok y ∧
      goes_left st.entry x = goes_left st.exit y := by
    intro x hx
    split at hw
    · obtain ⟨y, hy, hyl, hxy⟩ := hbij.1 x hx
      obtain ⟨x2, hx2, _, hg⟩ := walk_inv_final s _ _ hbij2 _ _ _ _ _ _ _ _ hw ha2 ha1 y hyl
      rw [hxy] at hx2
      cases hx2
      exact ⟨y, hy, hg.symm⟩
    · obtain ⟨y, hy, _, hg⟩ := walk_inv_final s _ _ hbij _ _ _ _ _ _ _ _ hw ha1 ha2 x hx
      exact ⟨y, hy, hg⟩
  refine ⟨l1, l2, fun h => ⟨(hodd h).2.2.1, (hodd h).2.2.2⟩, fun h => (heven h).2, ?_⟩
  intro x hx
  obtain ⟨y, hy, hg⟩ := key x hx
  refine ⟨y, ?_, hg⟩
  have := eval_pi_with_switches w (.node p d l o s e0 x0) st.entry st.exit x
  simp only [perm_node.with_switches] at this
  rw [this]
  exact hy

theorem set_exterior_spec (w : waksman) (p : perm_node) (d : Nat) (l : Bool) (o s : Nat)
    (e0 x0 : List Bool) (hbij : w.bij (.node p d l o s e0 x0)) (hs : 4 ≤ s) (hs2 : s < 2 ^ 31) :
    ∃ e x, w.set_exterior (.node p d l o s e0 x0) = .ok (.node p d l o s e x) ∧
      w.valid (.node p d l o s e x) := by
  have hW : W32 = 4294967296 := by decide
  have hcur : (s + W32 - 1) % W32 = s - 1 := by rw [hW]; omega
  have hns : nsw s = (s + 1) / 2 := rfl
  unfold waksman.set_exterior
  simp only [perm_node.size, hcur]
  by_cases hodd : s % 2 = 1
  · rw [if_pos hodd]
    have hb1 : ∀ b, bv_set (List.replicate ((s + 1) / 2) false) ((s + 1) / 2 - 1) b =
        .ok ((List.replicate ((s + 1) / 2) false).set ((s + 1) / 2 - 1) b) :=
      fun b => bv_set_ok _ _ _ (by simp; omega)
    simp only [hb1, ok_bind, pure_bind]
    refine Exists.elim (loop_inv (ext_inv w (.node p d l o s e0 x0) s 2)
      (fun _ st => w.set_exterior_step (.node p d l o s e0 x0) st) (2 * nsw s - 2)
      { data := { cur := s - 1, tar := 0, cur_setting := SWAP }, res_entry := 0, res_exit := 0,
        entry := (List.replicate ((s + 1) / 2) false).set ((s + 1) / 2 - 1) SWAP,
        exit := (List.replicate ((s + 1) / 2) false).set ((s + 1) / 2 - 1) SWAP,
        switch_set_entry := (List.replicate ((s + 1) / 2) false).set ((s + 1) / 2 - 1) true,
        switch_set_exit := (List.replicate ((s + 1) / 2) false).set ((s + 1) / 2 - 1) true,
        inv := true } ?_
      (fun k st hk hi => ext_step w _ s 2 k st hbij hs2 (by rw [if_pos hodd]) hk hi)) ?_
    rotate_left
    · rintro st ⟨hst, hI⟩
      refine ⟨st.entry, st.exit, ?_, ext_final w p d l o s e0 x0 2 st hbij (by rw [hns]; omega) hI⟩
      rw [hns] at hst
      rw [hst]
      rfl
    · have hget : ∀ (b : Bool) (j : Nat),
          ((List.replicate ((s + 1) / 2) false).set ((s + 1) / 2 - 1) b).getD j false =
            if j = (s + 1) / 2 - 1 then b else false := by
        intro b j
        rw [getD_set]
        by_cases hj : j = (s + 1) / 2 - 1
        · rw [if_pos ⟨hj, by simp; omega⟩, if_pos hj]
        · rw [if_neg (fun h => hj h.1), if_neg hj]
          exact replicate_getD _ _
      have hcount : ((List.replicate ((s + 1) / 2) false).set ((s + 1) / 2 - 1) true).count true
          = 1 := by
        rw [count_set_true _ _ (by simp; omega) (replicate_getD _ _), replicate_count]
      refine ⟨rfl, ⟨false, s - 1, ?_⟩, ?_, ?_, ?_, ?_, ?_, ?_⟩
      · simp only [if_true]
        refine ⟨by simp [hns], by simp [hns], by simp [hns], by simp [hns], by omega, ?_, ?_,
          by omega, ?_, ?_, ?_, ?_⟩
        · rw [hget, if_pos (by omega)]
        · rw [hget, if_pos (by omega)]
        · simp only [Bool.false_eq_true, if_false]
          rw [hget, if_pos (by omega)]
        · intro x hx hset hne _
          rw [hget] at hset
          split at hset
          · omega
          · exact absurd hset (by simp)
        · intro y hy hset hne
          rw [hget] at hset
          split at hset
          · exact absurd ⟨rfl, (by omega : y = s - 1)⟩ hne
          · exact absurd hset (by simp)
        · simp only [Bool.false_eq_true, if_false]
      · refine ⟨fun i hi => absurd hi (Nat.not_lt_zero _), fun _ => ?_, Nat.zero_le _⟩
        show List.getD _ 0 false = false
        rw [hget, if_neg (by omega)]
      · refine ⟨fun i hi => absurd hi (Nat.not_lt_zero _), fun _ => ?_, Nat.zero_le _⟩
        show List.getD _ 0 false = false
        rw [hget, if_neg (by omega)]
      · show List.count true _ + List.count true _ = 2 + 0
        rw [hcount]
      · simp only [if_true]
        show List.count true _ + (2 - 2) = List.count true _
        rfl
      · intro _
        refine ⟨?_, ?_, ?_, ?_⟩ <;> rw [hns, hget, if_pos rfl] <;> rfl
      · intro h
        omega
  · rw [if_neg hodd]
    have hb1 : ∀ b, bv_set (List.replicate ((s + 1) / 2) false) ((s + 1) / 2 - 1) b =
        .ok ((List.replicate ((s + 1) / 2) false).set ((s + 1) / 2 - 1) b) :=
      fun b => bv_set_ok _ _ _ (by simp; omega)
    simp only [hb1, ok_bind, pure_bind]
    refine Exists.elim (loop_inv (ext_inv w (.node p d l o s e0 x0) s 1)
      (fun _ st => w.set_exterior_step (.node p d l o s e0 x0) st) (2 * nsw s - 1)
      { data := { cur := s - 1, tar := 0, cur_setting := PERSIST }, res_entry := 0, res_exit := 0,
        entry := List.replicate ((s + 1) / 2) false,
        exit := (List.replicate ((s + 1) / 2) false).set ((s + 1) / 2 - 1) PERSIST,
        switch_set_entry := List.replicate ((s + 1) / 2) false,
        switch_set_exit := (List.replicate ((s + 1) / 2) false).set ((s + 1) / 2 - 1) true,
        inv := true } ?_
      (fun k st hk hi => ext_step w _ s 1 k st hbij hs2 (by rw [if_neg hodd]) hk hi)) ?_
    rotate_left
    · rintro st ⟨hst, hI⟩
      refine ⟨st.entry, st.exit, ?_, ext_final w p d l o s e0 x0 1 st hbij (by rw [hns]; omega) hI⟩
      rw [hns] at hst
      rw [hst]
      rfl
    · have hget : ∀ (b : Bool) (j : Nat),
          ((List.replicate ((s + 1) / 2) false).set ((s + 1) / 2 - 1) b).getD j false =
            if j = (s + 1) / 2 - 1 then b else false := by
        intro b j
        rw [getD_set]
        by_cases hj : j = (s + 1) / 2 - 1
        · rw [if_pos ⟨hj, by simp; omega⟩, if_pos hj]
        · rw [if_neg (fun h => hj h.1), if_neg hj]
          exact replicate_getD _ _
      have hget0 : ∀ j : Nat, (List.replicate ((s + 1) / 2) false).getD j false = false :=
        fun j => replicate_getD _ j
      have hcount : ((List.replicate ((s + 1) / 2) false).set ((s + 1) / 2 - 1) true).count true
          = 1 := by
        rw [count_set_true _ _ (by simp; omega) (hget0 _), replicate_count]
      refine ⟨rfl, ⟨true, s - 2, ?_⟩, ?_, ?_, ?_, ?_, ?_, ?_⟩
      · simp only [if_true]
        refine ⟨by simp [hns], by simp [hns], by simp [hns], by simp [hns], by omega, ?_, ?_,
          by omega, ?_, ?_, ?_, ?_⟩
        · rw [hget, if_pos (by omega)]
        · rw [hget, if_pos (by omega)]
        · simp only [if_true]
          refine ⟨?_, by omega⟩
          rw [hget, if_pos (by omega)]
        · intro x hx hset hne hno
          rw [hget] at hset
          split at hset
          · exact absurd ⟨rfl, (by omega : x = s - 2)⟩ hno
          · exact absurd hset (by simp)
        · intro y hy hset hne
          rw [hget0] at hset
          exact absurd hset (by simp)
        · simp only [if_true]
          unfold goes_left
          have e1 : (s - 1) / 2 = (s - 2) / 2 := by omega
          have e2 : ¬ (s - 1) % 2 = 0 := by omega
          have e3 : (s - 2) % 2 = 0 := by omega
          rw [e1]
          simp [e2, e3]
      · exact ⟨fun i hi => absurd hi (Nat.not_lt_zero _), fun _ => hget0 _, Nat.zero_le _⟩
      · refine ⟨fun i hi => absurd hi (Nat.not_lt_zero _), fun _ => ?_, Nat.zero_le _⟩
        show List.getD _ 0 false = false
        rw [hget, if_neg (by omega)]
      · show List.count true _ + List.count true _ = 1 + 0
        rw [hcount, replicate_count]
      · simp only [if_true]
        show List.count true _ + (2 - 1) = List.count true _
        rw [hcount, replicate_count]
      · intro h
        omega
      · intro _
        refine ⟨?_, ?_⟩ <;> rw [hns, hget, if_pos rfl] <;> rfl

theorem wf_switches (w : waksman) (p : perm_node) (d : Nat) (l : Bool) (o s : Nat)
    (e x e1 x1 : List Bool) (h : w.wf (.node p d l o s e x)) : w.wf (.node p d l o s e1 x1) := by
  cases h
  · exact .root e1 x1
  · rename_i h1 h2 h3
    exact .left _ e1 x1 h1 h2 h3
  · rename_i h1 h2 h3
    exact .right _ e1 x1 h1 h2 h3

theorem reach_wf (w : waksman) (hpi : w.good_pi) (hlen : w.length < 2 ^ 31)
    (hleaf : 3 ≤ w.leaf_size) (N : perm_node) (h : w.reach N) :
    w.wf N ∧ N.size ≤ w.length := by
  induction h with
  | root => exact ⟨.root [] [], le_refl _⟩
  | left P P1 hr hls hset ih =>
    obtain ⟨hwf, hsz⟩ := ih
    cases P with
    | null => cases hwf
    | node p d l o s e0 x0 =>
      simp only [perm_node.size] at hls hsz ⊢
      obtain ⟨e, x, h1, hv⟩ := set_exterior_spec w p d l o s e0 x0 (bij_of_wf w hpi _ hwf)
        (by omega) (by omega)
      rw [h1] at hset
      cases hset
      refine ⟨?_, by omega⟩
      exact waksman.wf.left (.node p d l o s e x) [] [] (wf_switches w p d l o s e0 x0 e x hwf)
        hv hls
  | right P P1 hr hls hset ih =>
    obtain ⟨hwf, hsz⟩ := ih
    cases P with
    | null => cases hwf
    | node p d l o s e0 x0 =>
      simp only [perm_node.size] at hls hsz ⊢
      obtain ⟨e, x, h1, hv⟩ := set_exterior_spec w p d l o s e0 x0 (bij_of_wf w hpi _ hwf)
        (by omega) (by omega)
      rw [h1] at hset
      cases hset
      refine ⟨?_, by omega⟩
      exact waksman.wf.right (.node p d l o s e x) [] [] (wf_switches w p d l o s e0 x0 e x hwf)
        hv hls

/-- C25.  For an oracle whose two tables are inverse permutations of `[0, length)`,
`length < 2 ^ 31` and a leaf size of at least `3`: at every node that
`configuration_phase` reaches (all its ancestors had their switches set by
`set_exterior`), `eval_pi` and `eval_inv_pi` return on `[0, node.size)`, stay inside that
range, and undo each other in both directions; so `eval_pi(node, .)` is a bijection on
`[0, node.size)`. -/
theorem waksman_local_round_trip (w : waksman) (hpi : w.good_pi) (hlen : w.length < 2 ^ 31)
    (hleaf : 3 ≤ w.leaf_size) (N : perm_node) (hN : w.reach N) :
    (∀ k, k < N.size →
      ∃ v, w.eval_pi N k = .ok v ∧ v < N.size ∧ w.eval_inv_pi N v = .ok k) ∧
    (∀ v, v < N.size →
      ∃ k, w.eval_inv_pi N v = .ok k ∧ k < N.size ∧ w.eval_pi N k = .ok v) :=
  bij_of_wf w hpi N (reach_wf w hpi hlen hleaf N hN).1

theorem good_pi_reversal (n leaf t1 t2 t3 sk : Nat) :
    waksman.good_pi { pi := permutation.reversal n, length := n, leaf_size := leaf,
                      temp1 := t1, temp2 := t2, temp3 := t3, skip_array := sk } := by
  refine ⟨rfl, List.reverse_perm _, ?_⟩
  intro k hk
  have hk2 : k < n := hk
  have e1 : ∀ j, j < n → (permutation.reversal n).eval_perm j = .ok (n - 1 - j) := by
    intro j hj
    simp only [permutation.eval_perm, permutation.reversal]
    rw [List.getElem?_reverse (by simpa using hj)]
    simp only [List.length_range]
    rw [List.getElem?_range (by omega)]
  have e2 : ∀ j, j < n → (permutation.reversal n).eval_inv_perm j = .ok (n - 1 - j) := by
    intro j hj
    simp only [permutation.eval_inv_perm, permutation.reversal]
    rw [List.getElem?_reverse (by simpa using hj)]
    simp only [List.length_range]
    rw [List.getElem?_range (by omega)]
  constructor
  · rw [e1 k hk2]
    show (permutation.reversal n).eval_inv_perm (n - 1 - k) = _
    rw [e2 _ (by omega)]
    congr 1
    omega
  · rw [e2 k hk2]
    show (permutation.reversal n).eval_perm (n - 1 - k) = _
    rw [e1 _ (by omega)]
    congr 1
    omega

theorem waksman_local_round_trip_witness :
    ∃ P1, waksman.set_exterior (waksman.mk (permutation.reversal 8) 8 3 0 1 2 3)
        (.node .null 1 true 0 8 [] []) = .ok P1 ∧
      ((∀ k, k < (perm_node.node P1 (P1.depth + 1) true P1.offset (8 / 2) [] []).size →
        ∃ v, waksman.eval_pi (waksman.mk (permutation.reversal 8) 8 3 0 1 2 3)
            (.node P1 (P1.depth + 1) true P1.offset (8 / 2) [] []) k = .ok v ∧
          v < (perm_node.node P1 (P1.depth + 1) true P1.offset (8 / 2) [] []).size ∧
          waksman.eval_inv_pi (waksman.mk (permutation.reversal 8) 8 3 0 1 2 3)
            (.node P1 (P1.depth + 1) true P1.offset (8 / 2) [] []) v = .ok k) ∧
      (∀ v, v < (perm_node.node P1 (P1.depth + 1) true P1.offset (8 / 2) [] []).size →
        ∃ k, waksman.eval_inv_pi (waksman.mk (permutation.reversal 8) 8 3 0 1 2 3)
            (.node P1 (P1.depth + 1) true P1.offset (8 / 2) [] []) v = .ok k ∧
          k < (perm_node.node P1 (P1.depth + 1) true P1.offset (8 / 2) [] []).size ∧
          waksman.eval_pi (waksman.mk (permutation.reversal 8) 8 3 0 1 2 3)
            (.node P1 (P1.depth + 1) true P1.offset (8 / 2) [] []) k = .ok v)) := by
  obtain ⟨P1, h⟩ := ok_of_to_bool
    (waksman.set_exterior (waksman.mk (permutation.reversal 8) 8 3 0 1 2 3)
      (.node .null 1 true 0 8 [] [])) rfl
  exact ⟨P1, h, waksman_local_round_trip (waksman.mk (permutation.reversal 8) 8 3 0 1 2 3)
    (good_pi_reversal 8 3 0 1 2 3) (by decide) (by decide) _
    (waksman.reach.left (.node .null 1 true 0 8 [] []) P1 waksman.reach.root (by decide) h)⟩

theorem goes_left_pair (bv : List Bool) (j : Nat) :
    goes_left bv (2 * j) ≠ goes_left bv (2 * j + 1) := by
  unfold goes_left
  have e1 : 2 * j / 2 = j := by omega
  have e2 : (2 * j + 1) / 2 = j := by omega
  have e3 : 2 * j % 2 = 0 := by omega
  have e4 : ¬ (2 * j + 1) % 2 = 0 := by omega
  rw [e1, e2]
  simp only [e3, e4, decide_True, decide_False]
  cases bv.getD j false <;> simp

/-- C26.  For a node of size `4 ≤ s < 2 ^ 31` on which `eval_pi` and `eval_inv_pi` are
inverse bijections of `[0, s)`: `set_exterior` returns the node with settings `e` (entry)
and `x` (exit) such that every input wire `i < s` is joined by its entry switch to the
subnetwork to which the exit switch of the output wire `eval_pi(node, i)` joins that
output wire; and the two wires of every entry switch, as of every exit switch, are joined
to different subnetworks. -/
theorem set_exterior_consistent (w : waksman) (p : perm_node) (d : Nat) (l : Bool) (o s : Nat)
    (e0 x0 : List Bool) (hbij : w.bij (.node p d l o s e0 x0)) (hs : 4 ≤ s)
    (hs2 : s < 2 ^ 31) :
    ∃ e x, w.set_exterior (.node p d l o s e0 x0) = .ok (.node p d l o s e x) ∧
      (∀ i, i < s → ∃ y, w.eval_pi (.node p d l o s e0 x0) i = .ok y ∧
        goes_left e i = goes_left x y) ∧
      (∀ j, goes_left e (2 * j) ≠ goes_left e (2 * j + 1)) ∧
      (∀ j, goes_left x (2 * j) ≠ goes_left x (2 * j + 1)) := by
  obtain ⟨e, x, h1, hv⟩ := set_exterior_spec w p d l o s e0 x0 hbij hs hs2
  refine ⟨e, x, h1, fun i hi => ?_, goes_left_pair e, goes_left_pair x⟩
  obtain ⟨y, hy, hg⟩ := hv.2.2.2.2 i hi
  have := eval_pi_with_switches w (.node p d l o s e0 x0) e x i
  simp only [perm_node.with_switches] at this
  rw [this] at hy
  exact ⟨y, hy, hg⟩

theorem set_exterior_consistent_witness :
    ∃ e x, waksman.set_exterior (waksman.mk (permutation.reversal 8) 8 3 0 1 2 3)
        (.node .null 1 true 0 8 [] []) = .ok (.node .null 1 true 0 8 e x) ∧
      (∀ i, i < 8 → ∃ y, waksman.eval_pi (waksman.mk (permutation.reversal 8) 8 3 0 1 2 3)
          (.node .null 1 true 0 8 [] []) i = .ok y ∧ goes_left e i = goes_left x y) ∧
      (∀ j, goes_left e (2 * j) ≠ goes_left e (2 * j + 1)) ∧
      (∀ j, goes_left x (2 * j) ≠ goes_left x (2 * j + 1)) :=
  set_exterior_consistent (waksman.mk (permutation.reversal 8) 8 3 0 1 2 3) .null 1 true 0 8
    [] [] (bij_root _ (good_pi_reversal 8 3 0 1 2 3) 1 true 0 [] []) (by decide) (by decide)

/-- C30.  For a node of size `4 ≤ s < 2 ^ 31` on which `eval_pi` and `eval_inv_pi` are
inverse bijections of `[0, s)`: `set_exterior` returns settings with one entry per switch
in which, for odd `s`, the last entry switch and the last exit switch (index
`ceil(s / 2) - 1`) are `SWAP`, and, for even `s`, the last exit switch is `PERSIST`. -/
theorem set_exterior_seeds (w : waksman) (p : perm_node) (d : Nat) (l : Bool) (o s : Nat)
    (e0 x0 : List Bool) (hbij : w.bij (.node p d l o s e0 x0)) (hs : 4 ≤ s)
    (hs2 : s < 2 ^ 31) :
    ∃ e x, w.set_exterior (.node p d l o s e0 x0) = .ok (.node p d l o s e x) ∧
      e.length = (s + 1) / 2 ∧ x.length = (s + 1) / 2 ∧
      (s % 2 = 1 → e[(s + 1) / 2 - 1]? = some SWAP ∧ x[(s + 1) / 2 - 1]? = some SWAP) ∧
      (s % 2 = 0 → x[(s + 1) / 2 - 1]? = some PERSIST) := by
  obtain ⟨e, x, h1, hle, hlx, hodd, heven, _⟩ := set_exterior_spec w p d l o s e0 x0 hbij hs hs2
  simp only [perm_node.entry, perm_node.exit, perm_node.size, nsw] at hle hlx hodd heven
  have hget : ∀ (bv : List Bool) (b : Bool), bv.length = (s + 1) / 2 →
      bv.getD ((s + 1) / 2 - 1) false = b → bv[(s + 1) / 2 - 1]? = some b := by
    intro bv b hl hb
    rw [List.getD_eq_getElem?_getD, List.getElem?_eq_getElem (by omega)] at hb
    rw [List.getElem?_eq_getElem (by omega)]
    simpa using hb
  exact ⟨e, x, h1, hle, hlx, fun h => ⟨hget e _ hle (hodd h).1, hget x _ hlx (hodd h).2⟩,
    fun h => hget x _ hlx (heven h)⟩

theorem set_exterior_seeds_witness :
    ∃ e x, waksman.set_exterior (waksman.mk (permutation.reversal 5) 5 3 0 1 2 3)
        (.node .null 1 true 0 5 [] []) = .ok (.node .null 1 true 0 5 e x) ∧
      e.length = (5 + 1) / 2 ∧ x.length = (5 + 1) / 2 ∧
      (5 % 2 = 1 → e[(5 + 1) / 2 - 1]? = some SWAP ∧ x[(5 + 1) / 2 - 1]? = some SWAP) ∧
      (5 % 2 = 0 → x[(5 + 1) / 2 - 1]? = some PERSIST) :=
  set_exterior_seeds (waksman.mk (permutation.reversal 5) 5 3 0 1 2 3) .null 1 true 0 5
    [] [] (bij_root _ (good_pi_reversal 5 3 0 1 2 3) 1 true 0 [] []) (by decide) (by decide)

/-! ### Melbourne shuffle: the bins, the geometry and a pass that fails -/

/-- C21.  For an existing array `T` and `idx + max_load ≤ 2 ^ 32`: `put_bin` stops on its
assertion exactly when the bin holds `max_load` elements or more; and when it holds
fewer, the call returns, it has issued exactly the `max_load` writes
`T[idx], ..., T[idx + max_load - 1]` in this order, these slots hold the elements of the
bin in their order followed by dummies (key `INT32_MAX`, aux `0`), and no other slot and
no other array has changed. -/
theorem put_bin_overload (T idx : Nat) (bin : List element) (max_load : Nat) (c : cloud)
    (hT : c.has T) (hov : idx + max_load ≤ 2 ^ 32) :
    (melbshuffle.put_bin T idx bin max_load c = .error .assertion ↔ max_load ≤ bin.length) ∧
    (bin.length < max_load →
      ∃ c1, melbshuffle.put_bin T idx bin max_load c = .ok c1 ∧
        c1.trace = c.trace ++ (List.range max_load).map (fun i => access.put T (idx + i)) ∧
        c1.seg T idx (bin ++ List.replicate (max_load - bin.length)
          { key := INT32_MAX, aux := 0 }) ∧
        (∀ j, (j < idx ∨ idx + max_load ≤ j) → c1.peek T j = c.peek T j) ∧
        ∀ U, U ≠ T → c1.table U = c.table U) := by
  have hW : W32 = 2 ^ 32 := rfl
  have hmain : bin.length < max_load →
      ∃ c1, melbshuffle.put_bin T idx bin max_load c = .ok c1 ∧
        c1.trace = c.trace ++ (List.range max_load).map (fun i => access.put T (idx + i)) ∧
        c1.seg T idx (bin ++ List.replicate (max_load - bin.length)
          { key := INT32_MAX, aux := 0 }) ∧
        (∀ j, (j < idx ∨ idx + max_load ≤ j) → c1.peek T j = c.peek T j) ∧
        ∀ U, U ≠ T → c1.table U = c.table U := by
    intro hlt
    have hsp := put_bin_spec T idx bin max_load c hT (by rw [hW]; exact hov)
    rcases hsp with herr | ⟨c1, h1, _, ho, hseg, hfr⟩
    · exfalso
      unfold melbshuffle.put_bin at herr
      simp only [if_pos hlt] at herr
      obtain ⟨c1, h1, ho1, hp1⟩ := loop_puts T idx bin.length
        (fun count c =>
          match bin[count]? with
          | none => .error .out_of_bounds
          | some e => c.put T ((idx + count) % W32) e) (fun k => bin.getD k dummy)
        (fun k c hk => by
          simp only [List.getElem?_eq_getElem hk, List.getD, Option.getD_some]
          rw [Nat.mod_eq_of_lt (by rw [hW]; omega)]
          simp [List.getElem?_eq_getElem hk]) c hT
      obtain ⟨c2, h2, ho2, hp2⟩ := loop_puts T (idx + bin.length) (max_load - bin.length)
        (fun t c => c.put T ((idx + (bin.length + t)) % W32) dummy) (fun _ => dummy)
        (fun k c hk => by
          simp only
          rw [Nat.mod_eq_of_lt (by rw [hW]; omega), Nat.add_assoc]) c1 (ho1.2 hT)
      simp only [bind, Except.bind] at herr
      split at herr
      · rename_i err heq
        have e : Except.error err = Except.ok c1 := heq.symm.trans h1
        cases e
      · rename_i v heq
        have e : Except.ok v = Except.ok c1 := heq.symm.trans h1
        cases e
        rw [h2] at herr
        cases herr
    · refine ⟨c1, h1, ?_, hseg, hfr, ho.1⟩
      rw [put_bin_trace T idx bin max_load c c1 h1]
      congr 1
      unfold trace_puts
      apply List.map_congr_left
      intro i hi
      rw [List.mem_range] at hi
      rw [Nat.mod_eq_of_lt (by rw [hW]; omega)]
  refine ⟨⟨fun h => ?_, fun h => ?_⟩, hmain⟩
  · by_contra hlt
    obtain ⟨c1, h1, _⟩ := hmain (by omega)
    rw [h1] at h
    cases h
  · unfold melbshuffle.put_bin
    simp only
    rw [if_neg (by omega)]

theorem put_bin_overload_witness :
    (melbshuffle.put_bin 0 1 [{ key := 5, aux := 0 }] 2 (cloud.driver 4) = .error .assertion ↔
      2 ≤ [({ key := 5, aux := 0 } : element)].length) ∧
    ([({ key := 5, aux := 0 } : element)].length < 2 →
      ∃ c1, melbshuffle.put_bin 0 1 [{ key := 5, aux := 0 }] 2 (cloud.driver 4) = .ok c1 ∧
        c1.trace = (cloud.driver 4).trace ++
          (List.range 2).map (fun i => access.put 0 (1 + i)) ∧
        c1.seg 0 1 ([({ key := 5, aux := 0 } : element)] ++
          List.replicate (2 - [({ key := 5, aux := 0 } : element)].length)
            { key := INT32_MAX, aux := 0 }) ∧
        (∀ j, (j < 1 ∨ 1 + 2 ≤ j) → c1.peek 0 j = (cloud.driver 4).peek 0 j) ∧
        ∀ U, U ≠ 0 → c1.table U = (cloud.driver 4).table U) :=
  put_bin_overload 0 1 [{ key := 5, aux := 0 }] 2 (cloud.driver 4)
    (by simp [cloud.has, cloud.driver]) (by decide)

theorem ceil_root_two_le (n : Nat) (hn : 1 ≤ n) (hn2 : n < 2 ^ 32) :
    1 ≤ ceil_root 2 n ∧ ceil_root 2 n ≤ 65536 ∧ (ceil_root 2 n - 1) ^ 2 < n ∧
    n ≤ ceil_root 2 n ^ 2 := by
  obtain ⟨h1, h2⟩ := ceil_root_spec 2 n (by omega) hn
  have hpos : 1 ≤ ceil_root 2 n := by
    by_contra h
    have : ceil_root 2 n = 0 := by omega
    rw [this] at h1
    simp at h1
    omega
  refine ⟨hpos, ?_, h2 _ (by omega), h1⟩
  by_contra hgt
  have := h2 65536 (by omega)
  norm_num at this
  omega

/-- C22.  For `1 ≤ n < 2 ^ 32`, with `ceil(sqrt n)` computed exactly (`r = ceil_root 2 n`
is the number with `(r - 1) ^ 2 < n ≤ r ^ 2`): the constructor sets `num_buckets = r` and
a `bucket_width` with `bucket_width * num_buckets ≥ n` and
`bucket_width * (num_buckets - 1) < n`. -/
theorem melbourne_geometry (pi : permutation) (n p1 p2 : Nat) (hn : 1 ≤ n)
    (hn2 : n < 2 ^ 32) :
    (melbshuffle.init pi n p1 p2).num_buckets = ceil_root 2 n ∧
    (ceil_root 2 n - 1) ^ 2 < n ∧ n ≤ ceil_root 2 n ^ 2 ∧
    n ≤ (melbshuffle.init pi n p1 p2).bucket_width * (melbshuffle.init pi n p1 p2).num_buckets ∧
    (melbshuffle.init pi n p1 p2).bucket_width *
      ((melbshuffle.init pi n p1 p2).num_buckets - 1) < n := by
  obtain ⟨hpos, hle, hlo, hhi⟩ := ceil_root_two_le n hn hn2
  have hW : W32 = 4294967296 := by decide
  generalize hr : ceil_root 2 n = r at hpos hle hlo hhi
  have hnb : (melbshuffle.init pi n p1 p2).num_buckets = r := by
    simp only [melbshuffle.init, hr]
  have hsq : r * r ≤ 4294967296 := by
    calc r * r ≤ 65536 * 65536 := Nat.mul_le_mul hle hle
      _ = 4294967296 := by norm_num
  obtain ⟨k, rfl⟩ : ∃ k, r = k + 1 := ⟨r - 1, by omega⟩
  have hmod : ((k + 1) * (k + 1) % W32 + W32 - (k + 1)) % W32 = (k + 1) * k := by
    have e : (k + 1) * (k + 1) = (k + 1) * k + (k + 1) := by ring
    rw [hW]
    by_cases hfull : (k + 1) * (k + 1) = 4294967296
    · rw [hfull]
      norm_num
      rw [hfull] at e
      omega
    · have hlt : (k + 1) * (k + 1) < 4294967296 := lt_of_le_of_ne hsq hfull
      rw [Nat.mod_eq_of_lt hlt]
      have e2 : (k + 1) * (k + 1) + 4294967296 - (k + 1) = (k + 1) * k + 4294967296 := by omega
      rw [e2, Nat.add_mod_right, Nat.mod_eq_of_lt (by omega)]
  have hbw : (melbshuffle.init pi n p1 p2).bucket_width =
      if (k + 1) * k ≥ n then k else k + 1 := by
    simp only [melbshuffle.init, hr, hmod]
    split
    · rw [hW]; omega
    · rfl
  have hlo2 : k * k < n := by
    simpa [pow_two] using hlo
  have hhi2 : n ≤ (k + 1) * (k + 1) := by
    simpa [pow_two] using hhi
  refine ⟨hnb, hlo, hhi, ?_, ?_⟩
  · rw [hnb, hbw]
    split
    · rename_i h
      rw [Nat.mul_comm]
      exact h
    · exact hhi2
  · rw [hnb, hbw]
    split
    · simpa using hlo2
    · rename_i h
      simp only [Nat.add_sub_cancel]
      omega

theorem melbourne_geometry_witness :
    (melbshuffle.init (permutation.identity 10) 10 2 2).num_buckets = ceil_root 2 10 ∧
    (ceil_root 2 10 - 1) ^ 2 < 10 ∧ 10 ≤ ceil_root 2 10 ^ 2 ∧
    10 ≤ (melbshuffle.init (permutation.identity 10) 10 2 2).bucket_width *
      (melbshuffle.init (permutation.identity 10) 10 2 2).num_buckets ∧
    (melbshuffle.init (permutation.identity 10) 10 2 2).bucket_width *
      ((melbshuffle.init (permutation.identity 10) 10 2 2).num_buckets - 1) < 10 :=
  melbourne_geometry (permutation.identity 10) 10 2 2 (by decide) (by decide)

theorem ceil_root_two_10000 : ceil_root 2 10000 = 100 := by decide

theorem ceil_root_four_10000 : ceil_root 4 10000 = 10 := by decide

theorem identity_place (n : Nat) (e : element) (h : e.key < n) :
    (permutation.identity n).place e = e.key := by
  unfold permutation.place permutation.identity
  simp only
  rw [List.getD_eq_getElem?_getD, List.getElem?_range h]
  rfl

/-- C23.  `n = 10000`, `p1 = p2 = 5`, `pi` the identity, the input array `0` holding the
keys `0..9999` and the arrays `Ta`, `Tb`, `1` created as `permute` creates them:
`distribution_phase_1` stops on the assertion of `put_bin` (the first input bucket sends
its `100` elements to the same chunk, and a bin may hold fewer than `max_load = 50`), and so
`shuffle_pass` does not complete. -/
theorem melbourne_single_pass_fails :
    (melbshuffle.init (permutation.identity 10000) 10000 5 5).distribution_phase_1 0 Ta
      ((((cloud.driver 10000).create_array Ta 50000).create_array Tb 50000).create_array 1
        10000) = .error .assertion ∧
    (melbshuffle.init (permutation.identity 10000) 10000 5 5).shuffle_pass 0 Ta Tb 1
      ((((cloud.driver 10000).create_array Ta 50000).create_array Tb 50000).create_array 1
        10000) = .error .assertion := by
  have hfits : (melbshuffle.init (permutation.identity 10000) 10000 5 5).fits :=
    init_fits _ 10000 5 5 (by decide) (by decide)
      (by rw [ceil_root_two_10000, ceil_root_four_10000]; decide)
      (by rw [ceil_root_two_10000, ceil_root_four_10000]; decide)
  have hbw : (melbshuffle.init (permutation.identity 10000) 10000 5 5).bucket_width = 100 := by
    simp only [melbshuffle.init, ceil_root_two_10000]
    decide
  have hcw : (melbshuffle.init (permutation.identity 10000) 10000 5 5).chunk_width = 1000 := by
    simp only [melbshuffle.init, ceil_root_two_10000, ceil_root_four_10000]
    decide
  have hnc : (melbshuffle.init (permutation.identity 10000) 10000 5 5).num_chunks = 10 := by
    simp only [melbshuffle.init, ceil_root_four_10000]
  have hnb : (melbshuffle.init (permutation.identity 10000) 10000 5 5).num_buckets = 100 := by
    simp only [melbshuffle.init, ceil_root_two_10000]
  have hseg := (holds_seg _ 0 10000 _ (driver_holds 10000)).1
  have h1 : (melbshuffle.init (permutation.identity 10000) 10000 5 5).distribution_phase_1 0 Ta
      ((((cloud.driver 10000).create_array Ta 50000).create_array Tb 50000).create_array 1
        10000) = .error .assertion := by
    have hsp := phase_1_spec (melbshuffle.init (permutation.identity 10000) 10000 5 5) 0 Ta
      ((List.range 10000).map (fun x => ({ key := x, aux := 0 } : element)))
      ((((cloud.driver 10000).create_array Ta 50000).create_array Tb 50000).create_array 1
        10000) hfits (by decide)
      (seg_of_table _ (cloud.driver 10000) 0 (by
        rw [create_other _ _ _ _ (by decide), create_other _ _ _ _ (by decide),
          create_other _ _ _ _ (by decide)]) 0 _ hseg)
      (by simp [melbshuffle.init])
      (fun e he => by
        obtain ⟨x, hx, rfl⟩ := List.mem_map.mp he
        rw [List.mem_range] at hx
        refine ⟨by simpa [melbshuffle.init, permutation.identity] using hx, by simp only; omega, ?_⟩
        show (permutation.identity 10000).place _ < 10000
        rw [identity_place 10000 _ hx]
        exact hx)
      (create_has _ _ _ _ (create_has _ _ _ _ (create_has_self _ _ _)))
    rcases hsp with herr | ⟨c1, _, _, hb⟩
    · exact herr
    · exfalso
      have h0 := (hb 0 0 (by rw [hnc]; decide) (by rw [hnb]; decide)).1
      have hlen : ((melbshuffle.init (permutation.identity 10000) 10000 5 5).bin1
          ((List.range 10000).map (fun x => ({ key := x, aux := 0 } : element))) 0 0).length
          = 100 := by
        unfold melbshuffle.bin1
        rw [hbw, hcw]
        simp only [Nat.zero_mul, List.drop_zero]
        rw [← List.map_take, List.take_range]
        have hall : ∀ e, e ∈ (List.range (min 100 10000)).map
            (fun x => ({ key := x, aux := 0 } : element)) →
            decide ((melbshuffle.init (permutation.identity 10000) 10000 5 5).pi.place e / 1000
              = 0) = true := by
          intro e he
          obtain ⟨x, hx, rfl⟩ := List.mem_map.mp he
          rw [List.mem_range] at hx
          have hx2 : x < 100 := by simpa using hx
          show decide ((permutation.identity 10000).place _ / 1000 = 0) = true
          rw [identity_place 10000 _ (by simp only; omega)]
          simp only [decide_eq_true_eq]
          omega
        rw [List.filter_eq_self.mpr hall]
        simp
      rw [hlen] at h0
      have hp1 : (melbshuffle.init (permutation.identity 10000) 10000 5 5).p1 = 5 := rfl
      rw [hp1, hnc] at h0
      omega
  refine ⟨h1, ?_⟩
  unfold melbshuffle.shuffle_pass
  rw [h1]
  rfl

/-! ### Bitonic permutation: the number of storage operations -/

theorem io_refl (c : cloud) : c.io_adv c 0 := ⟨rfl, rfl⟩

theorem io_trans (c2 c1 c : cloud) (k1 k2 : Nat) (h1 : c1.io_adv c k1) (h2 : c2.io_adv c1 k2) :
    c2.io_adv c (k1 + k2) := by
  obtain ⟨a1, b1⟩ := h1
  obtain ⟨a2, b2⟩ := h2
  refine ⟨by omega, ?_⟩
  rw [b2, Nat.add_mod, b1, ← Nat.add_mod, Nat.add_assoc]

theorem io_get (c c1 : cloud) (name index : Nat) (e : element)
    (h : c.get name index = .ok (e, c1)) : c1.io_adv c 1 := by
  unfold cloud.get at h
  split at h
  · exact absurd h (by simp)
  · split at h
    · exact absurd h (by simp)
    · simp only [Except.ok.injEq, Prod.mk.injEq] at h
      rw [← h.2]
      exact ⟨by simp, by simp⟩

theorem io_put (c c1 : cloud) (name index : Nat) (x : element)
    (h : c.put name index x = .ok c1) : c1.io_adv c 1 := by
  unfold cloud.put at h
  split at h
  · exact absurd h (by simp)
  · simp only [Except.ok.injEq] at h
    rw [← h]
    exact ⟨by simp, by simp⟩

theorem io_loop (T : Nat → Nat) (body : Nat → cloud → Except Fault cloud)
    (hbody : ∀ k c c1, body k c = .ok c1 → c1.io_adv c (T k)) (n : Nat) :
    ∀ c c1, loop n body c = .ok c1 → c1.io_adv c ((List.range n).map T).sum := by
  induction n with
  | zero =>
    intro c c1 h
    simp only [loop, Except.ok.injEq] at h
    rw [← h]
    exact io_refl c
  | succ n ih =>
    intro c c1 h
    simp only [loop, bind, Except.bind] at h
    split at h
    · exact absurd h (by simp)
    · rename_i c2 h1
      have := io_trans _ _ _ _ _ (ih c c2 h1) (hbody n c2 c1 h)
      rw [List.range_succ, List.map_append, List.sum_append]
      simpa using this

theorem io_body (b : bitonic) (arr i j k : Nat) (c c1 : cloud)
    (h : b.body arr i j k c = .ok c1) : c1.io_adv c (bitonic.body_trace arr j k).length := by
  unfold bitonic.body at h
  unfold bitonic.body_trace
  by_cases hgt : k ^^^ j > k
  · simp only [if_pos hgt] at h ⊢
    simp only [bind, Except.bind] at h
    split at h
    · exact absurd h (by simp)
    rename_i r1 h1
    obtain ⟨ek, ca⟩ := r1
    simp only at h
    split at h
    · exact absurd h (by simp)
    rename_i r2 h2
    obtain ⟨el, cb⟩ := r2
    simp only at h
    split at h
    · exact absurd h (by simp)
    rename_i randk h3
    split at h
    · exact absurd h (by simp)
    rename_i randl h4
    have g1 := io_get _ _ _ _ _ h1
    have g2 := io_get _ _ _ _ _ h2
    split at h
    · split at h
      · exact absurd h (by simp)
      rename_i cc h5
      have := io_trans _ _ _ _ _ (io_trans _ _ _ _ _ (io_trans _ _ _ _ _ g1 g2)
        (io_put _ _ _ _ _ h5)) (io_put _ _ _ _ _ h)
      simpa using this
    · split at h
      · exact absurd h (by simp)
      rename_i cc h5
      have := io_trans _ _ _ _ _ (io_trans _ _ _ _ _ (io_trans _ _ _ _ _ g1 g2)
        (io_put _ _ _ _ _ h5)) (io_put _ _ _ _ _ h)
      simpa using this
  · simp only [if_neg hgt] at h ⊢
    simp only [pure, Except.pure, Except.ok.injEq] at h
    rw [← h]
    exact io_refl c

theorem body_trace_length (arr q k : Nat) :
    (bitonic.body_trace arr (2 ^ q) k).length = if k / 2 ^ q % 2 = 0 then 4 else 0 := by
  unfold bitonic.body_trace
  rw [xor_two_pow]
  have hpos : 0 < 2 ^ q := by positivity
  by_cases hb : k / 2 ^ q % 2 = 0
  · rw [if_pos hb, if_pos hb, if_pos (by omega)]
    rfl
  · rw [if_neg hb, if_neg hb, if_neg (by omega)]
    rfl

theorem sum_range_add (g : Nat → Nat) (a b : Nat) :
    ((List.range (a + b)).map g).sum =
      ((List.range a).map g).sum + ((List.range b).map (fun x => g (a + x))).sum := by
  rw [List.range_add, List.map_append, List.sum_append, List.map_map]
  rfl

theorem stage_count (q : Nat) (d : Nat) :
    ((List.range (2 ^ (q + 1 + d))).map (fun k => if k / 2 ^ q % 2 = 0 then 4 else 0)).sum
      = 2 * 2 ^ (q + 1 + d) := by
  have hpos : 0 < 2 ^ q := by positivity
  induction d with
  | zero =>
    have e : 2 ^ (q + 1 + 0) = 2 ^ q + 2 ^ q := by rw [Nat.add_zero, pow_succ]; omega
    rw [e, sum_range_add]
    have h1 : (List.range (2 ^ q)).map (fun k => if k / 2 ^ q % 2 = 0 then 4 else 0) =
        (List.range (2 ^ q)).map (fun _ => 4) := by
      apply List.map_congr_left
      intro k hk
      rw [List.mem_range] at hk
      rw [Nat.div_eq_of_lt hk]
      rfl
    have h2 : (List.range (2 ^ q)).map
        (fun x => if (2 ^ q + x) / 2 ^ q % 2 = 0 then 4 else 0) =
        (List.range (2 ^ q)).map (fun _ => 0) := by
      apply List.map_congr_left
      intro k hk
      rw [List.mem_range] at hk
      have : (2 ^ q + k) / 2 ^ q = 1 := by
        rw [Nat.add_comm, div_add_pow, Nat.div_eq_of_lt hk]
      rw [this]
      rfl
    rw [h1, h2]
    simp
    omega
  | succ d ih =>
    have e : 2 ^ (q + 1 + (d + 1)) = 2 ^ (q + 1 + d) + 2 ^ (q + 1 + d) := by
      rw [← Nat.add_assoc, pow_succ]; omega
    rw [e, sum_range_add, ih]
    have h2 : (List.range (2 ^ (q + 1 + d))).map
        (fun x => if (2 ^ (q + 1 + d) + x) / 2 ^ q % 2 = 0 then 4 else 0) =
        (List.range (2 ^ (q + 1 + d))).map (fun k => if k / 2 ^ q % 2 = 0 then 4 else 0) := by
      apply List.map_congr_left
      intro k _
      have e2 : 2 ^ (q + 1 + d) = 2 ^ q * (2 * 2 ^ d) := by
        rw [pow_add, pow_succ]; ring
      rw [e2, Nat.mul_add_div hpos]
      have : (2 * 2 ^ d + k / 2 ^ q) % 2 = k / 2 ^ q % 2 := by omega
      rw [this]
    rw [h2, ih]
    omega

theorem io_stage (b : bitonic) (arr i q m : Nat) (hsize : b.size = 2 ^ m) (hq : q < m)
    (c c1 : cloud) (h : loop b.size (fun k c => b.body arr i (2 ^ q) k c) c = .ok c1) :
    c1.io_adv c (2 * 2 ^ m) := by
  have := io_loop (fun k => (bitonic.body_trace arr (2 ^ q) k).length) _
    (fun k s s1 hb => io_body b arr i (2 ^ q) k s s1 hb) b.size c c1 h
  obtain ⟨d, rfl⟩ : ∃ d, m = q + 1 + d := ⟨m - (q + 1), by omega⟩
  have e : (List.range b.size).map (fun k => (bitonic.body_trace arr (2 ^ q) k).length) =
      (List.range (2 ^ (q + 1 + d))).map (fun k => if k / 2 ^ q % 2 = 0 then 4 else 0) := by
    rw [hsize]
    apply List.map_congr_left
    intro k _
    exact body_trace_length arr q k
  rw [e, stage_count] at this
  exact this

theorem io_j_loop (b : bitonic) (arr i m : Nat) (hsize : b.size = 2 ^ m) (fuel : Nat) :
    ∀ (q : Nat) (c d : cloud), q < m → b.j_loop arr i fuel (2 ^ q) c = .ok d →
      d.io_adv c (2 * 2 ^ m * (q + 1)) := by
  induction fuel with
  | zero => intro q c d _ h; exact absurd h (by simp [bitonic.j_loop])
  | succ fuel ih =>
    intro q c d hq h
    have hpos : 0 < 2 ^ q := by positivity
    simp only [bitonic.j_loop, gt_iff_lt, hpos, if_true, bind, Except.bind] at h
    split at h
    · exact absurd h (by simp)
    rename_i c2 h1
    have s1 := io_stage b arr i q m hsize hq c c2 h1
    cases q with
    | zero =>
      have e : 2 ^ 0 / 2 = 0 := by norm_num
      rw [e] at h
      cases fuel with
      | zero => exact absurd h (by simp [bitonic.j_loop])
      | succ fuel =>
        simp only [bitonic.j_loop, gt_iff_lt, Nat.lt_irrefl, if_false, pure, Except.pure,
          Except.ok.injEq] at h
        rw [← h]
        simpa using s1
    | succ q =>
      have e : 2 ^ (q + 1) / 2 = 2 ^ q := by rw [pow_succ]; omega
      rw [e] at h
      have s2 := ih q c2 d (by omega) h
      have := io_trans _ _ _ _ _ s1 s2
      have e2 : 2 * 2 ^ m + 2 * 2 ^ m * (q + 1) = 2 * 2 ^ m * (q + 1 + 1) := by ring
      rw [e2] at this
      exact this

theorem io_i_loop (b : bitonic) (arr m : Nat) (hsize : b.size = 2 ^ m) (hm : m ≤ 30)
    (fuel : Nat) :
    ∀ (p : Nat) (c d : cloud), p ≤ m → b.i_loop arr fuel (2 ^ (p + 1)) c = .ok d →
      d.io_adv c (2 ^ m * (m * (m + 1) - p * (p + 1))) := by
  induction fuel with
  | zero => intro p c d _ h; exact absurd h (by simp [bitonic.i_loop])
  | succ fuel ih =>
    intro p c d hp h
    simp only [bitonic.i_loop] at h
    by_cases hle : 2 ^ (p + 1) ≤ b.size
    · have hpm : p + 1 ≤ m := by
        rw [hsize] at hle
        exact (Nat.pow_le_pow_iff_right (by norm_num)).mp hle
      simp only [if_pos hle, bind, Except.bind] at h
      split at h
      · exact absurd h (by simp)
      rename_i c2 h1
      have e : 2 ^ (p + 1) / 2 = 2 ^ p := by rw [pow_succ]; omega
      rw [e] at h1
      have s1 := io_j_loop b arr (2 ^ (p + 1)) m hsize (fuel + 1) p c c2 (by omega) h1
      have hW : W32 = 2 ^ 32 := rfl
      have e2 : 2 ^ (p + 1) * 2 % W32 = 2 ^ (p + 1 + 1) := by
        rw [← pow_succ, hW]
        exact Nat.mod_eq_of_lt (Nat.pow_lt_pow_right (by norm_num) (by omega))
      rw [e2] at h
      have s2 := ih (p + 1) c2 d hpm h
      have := io_trans _ _ _ _ _ s1 s2
      have hq : (p + 1) * (p + 1 + 1) ≤ m * (m + 1) := Nat.mul_le_mul hpm (by omega)
      have hq2 : (p + 1) * (p + 1 + 1) = p * (p + 1) + 2 * (p + 1) := by ring
      have e3 : m * (m + 1) - p * (p + 1) =
          (m * (m + 1) - (p + 1) * (p + 1 + 1)) + 2 * (p + 1) := by omega
      rw [e3, Nat.mul_add]
      have e4 : 2 * 2 ^ m * (p + 1) = 2 ^ m * (2 * (p + 1)) := by ring
      rw [e4, Nat.add_comm] at this
      exact this
    · have hpm : p = m := by
        rw [hsize] at hle
        have : ¬ p + 1 ≤ m := fun h2 => hle (Nat.pow_le_pow_right (by norm_num) h2)
        omega
      simp only [if_neg hle, pure, Except.pure, Except.ok.injEq] at h
      rw [← h, hpm]
      simpa using io_refl c

/-- The slot view alone, with no bound on the byte offset of a slot.  For `size = 2 ^ m` (`m ≤ 30`), any oracle table of at least `size` entries and
any array whose first `size` slots hold elements with keys below `size`:
`bitonic::permute` returns, and between the call and the return exactly
`2 ^ m * (m * (m + 1))` storage operations were issued: the trace has grown by that many
`get`/`put` entries and the 32-bit counter `num_IO` has advanced by that number. -/
theorem bitonic_count_slots (m : Nat) (hm : m ≤ 30) (b : bitonic) (hsize : b.size = 2 ^ m)
    (hlen : 2 ^ m ≤ b.pi.perm.length) (arr : Nat) (c : cloud) (f : Nat → element)
    (hc : c.holds arr (2 ^ m) f) (hv : ∀ x, x < 2 ^ m → (f x).key < 2 ^ m)
    (fuel : Nat) (hfuel : 2 * m + 1 ≤ fuel) :
    ∃ c1, b.permute fuel arr c = .ok (arr, c1) ∧
      c1.trace.length = c.trace.length + 2 ^ m * (m * (m + 1)) ∧
      cloud.num_IO c1 % W32 = (cloud.num_IO c + 2 ^ m * (m * (m + 1))) % W32 := by
  rw [← hsize] at hc hv hlen
  obtain ⟨c1, run1, -⟩ := bitonic_permute_run b arr m hsize hm hlen f hv fuel hfuel c hc
  refine ⟨c1, run1, ?_⟩
  simp only [bitonic.permute, bind, Except.bind] at run1
  split at run1
  · exact absurd run1 (by simp)
  rename_i c2 h1
  simp only [pure, Except.pure, Except.ok.injEq, Prod.mk.injEq, true_and] at run1
  subst run1
  have := io_i_loop b arr m hsize hm fuel 0 c c2 (Nat.zero_le _) (by simpa using h1)
  simpa using this

/-! ### Waksman permutation: the leaf size and the height of the tree -/

theorem permute_eq_run (pi : permutation) (length name : Nat) (c : cloud) :
    waksman.permute pi length name c = (waksman.init pi length name).run c := rfl

theorem uni_three (h : Nat) : ∀ s, 2 * 2 ^ h ≤ s → s ≤ 3 * 2 ^ h → uni 3 h s := by
  induction h with
  | zero => intro s h1 h2; exact ⟨by simpa using h1, by simpa using h2⟩
  | succ h ih =>
    intro s h1 h2
    have hpos : 0 < 2 ^ h := by positivity
    rw [pow_succ] at h1 h2
    exact ⟨by omega, ih _ (by omega) (by omega), ih _ (by omega) (by omega)⟩

theorem uni_four (h : Nat) : ∀ s, 3 * 2 ^ h ≤ s → s ≤ 4 * 2 ^ h → uni 4 h s := by
  induction h with
  | zero => intro s h1 h2; exact ⟨by simp at h1; omega, by simpa using h2⟩
  | succ h ih =>
    intro s h1 h2
    have hpos : 0 < 2 ^ h := by positivity
    rw [pow_succ] at h1 h2
    exact ⟨by omega, ih _ (by omega) (by omega), ih _ (by omega) (by omega)⟩

theorem tree_height_of_uni (ls : Nat) (h : Nat) :
    ∀ (fuel s : Nat), uni ls h s → h < fuel → waksman.tree_height ls fuel s = h := by
  induction h with
  | zero =>
    intro fuel s hu hf
    obtain ⟨F, rfl⟩ : ∃ F, fuel = F + 1 := ⟨fuel - 1, by omega⟩
    rw [waksman.tree_height, if_neg (by have := hu.2; omega)]
  | succ h ih =>
    intro fuel s hu hf
    obtain ⟨F, rfl⟩ : ∃ F, fuel = F + 1 := ⟨fuel - 1, by omega⟩
    rw [waksman.tree_height, if_pos hu.1, ih F _ hu.2.1 (by omega)]

theorem msb_of_eq (x m : Nat) (h1 : 2 ^ m ≤ x) (h2 : x < 2 ^ (m + 1)) (hm : m + 1 ≤ 32) :
    msb_of 32 x = m + 1 := by
  have hpos : 0 < 2 ^ m := by positivity
  obtain ⟨a, b, c⟩ := msb_of_spec 32 x (by omega)
    (lt_of_lt_of_le h2 (Nat.pow_le_pow_right (by norm_num) hm))
  have k1 : msb_of 32 x - 1 < m + 1 :=
    (Nat.pow_lt_pow_iff_right (a := 2) (by norm_num)).mp (lt_of_le_of_lt b h2)
  have k2 : m < msb_of 32 x :=
    (Nat.pow_lt_pow_iff_right (a := 2) (by norm_num)).mp (lt_of_le_of_lt h1 c)
  omega

theorem le_or_left (n k : Nat) : n ≤ n ||| k := by
  have h : n &&& (n ||| k) = n := by
    apply Nat.eq_of_testBit_eq
    intro i
    rw [Nat.testBit_and, Nat.testBit_or]
    cases n.testBit i <;> simp
  calc n = n &&& (n ||| k) := h.symm
    _ ≤ n ||| k := Nat.and_le_right

theorem leaf_mask (m : Nat) (h1 : 1 ≤ m) (h2 : m ≤ 31) :
    (2 ^ (m + 1 - 1) % W32) ||| (2 ^ (m + 1 - 2) % W32) = 3 * 2 ^ (m - 1) := by
  interval_cases m <;> decide

/-- C24.  For `4 ≤ n < 2 ^ 32` with `2 ^ m ≤ n < 2 ^ (m + 1)`: the leaf size that
`permute` sets is `3` when `n ≤ 3 * 2 ^ (m - 1)` and `4` otherwise; in the tree that splits
a node of size `s > leaf_size` into children of sizes `floor(s / 2)` and `ceil(s / 2)`,
every leaf under the root of size `n` lies exactly `tree_height` levels below the root,
where `tree_height` is the value that `empty_road_phase` computes by halving `n`; this
height is `m - 1`.  (`permute` is `run` on the object with these fields.) -/
theorem waksman_leaf_size_uniform (pi : permutation) (n name m : Nat) (hn : 4 ≤ n)
    (hn32 : n < 2 ^ 32) (hlo : 2 ^ m ≤ n) (hhi : n < 2 ^ (m + 1)) :
    (waksman.init pi n name).leaf_size = (if n ≤ 3 * 2 ^ (m - 1) then 3 else 4) ∧
    uni (waksman.init pi n name).leaf_size
      (waksman.tree_height (waksman.init pi n name).leaf_size 33 n) n ∧
    waksman.tree_height (waksman.init pi n name).leaf_size 33 n = m - 1 ∧
    ∀ c, waksman.permute pi n name c = (waksman.init pi n name).run c := by
  have hm2 : 2 ≤ m := by
    by_contra h
    have : m + 1 ≤ 2 := by omega
    have := Nat.pow_le_pow_right (n := 2) (by norm_num) this
    omega
  have hm31 : m ≤ 31 := by
    have := (Nat.pow_lt_pow_iff_right (a := 2) (by norm_num)).mp (lt_of_le_of_lt hlo hn32)
    omega
  have hor1 : 2 ^ m ≤ n ||| 1 := le_trans hlo (le_or_left n 1)
  have hor2 : n ||| 1 < 2 ^ (m + 1) :=
    Nat.or_lt_two_pow hhi (Nat.one_lt_two_pow (by omega))
  have hmsb := msb_of_eq (n ||| 1) m hor1 hor2 (by omega)
  have hleaf : (waksman.init pi n name).leaf_size = (if n ≤ 3 * 2 ^ (m - 1) then 3 else 4) := by
    simp only [waksman.init, hmsb, leaf_mask m (by omega) hm31]
    by_cases h : n ≤ 3 * 2 ^ (m - 1)
    · rw [if_pos h, if_neg (by omega)]
    · rw [if_neg h, if_pos (by omega)]
  have hpow : 2 ^ m = 2 * 2 ^ (m - 1) := by
    obtain ⟨k, rfl⟩ : ∃ k, m = k + 1 := ⟨m - 1, by omega⟩
    rw [Nat.add_sub_cancel, pow_succ]
    omega
  have hpow2 : 2 ^ (m + 1) = 4 * 2 ^ (m - 1) := by
    rw [pow_succ, hpow]
    omega
  have huni : uni (waksman.init pi n name).leaf_size (m - 1) n := by
    rw [hleaf]
    by_cases h : n ≤ 3 * 2 ^ (m - 1)
    · rw [if_pos h]
      exact uni_three _ _ (by omega) h
    · rw [if_neg h]
      exact uni_four _ _ (by omega) (by omega)
  have hth := tree_height_of_uni _ (m - 1) 33 n huni (by omega)
  exact ⟨hleaf, by rw [hth]; exact huni, hth, fun c => rfl⟩

theorem waksman_leaf_size_uniform_witness :
    (waksman.init (permutation.reversal 13) 13 0).leaf_size =
      (if 13 ≤ 3 * 2 ^ (3 - 1) then 3 else 4) ∧
    uni (waksman.init (permutation.reversal 13) 13 0).leaf_size
      (waksman.tree_height (waksman.init (permutation.reversal 13) 13 0).leaf_size 33 13) 13 ∧
    waksman.tree_height (waksman.init (permutation.reversal 13) 13 0).leaf_size 33 13 = 3 - 1 ∧
    ∀ c, waksman.permute (permutation.reversal 13) 13 0 c =
      (waksman.init (permutation.reversal 13) 13 0).run c :=
  waksman_leaf_size_uniform (permutation.reversal 13) 13 0 3 (by decide) (by decide)
    (by decide) (by decide)

/-! ### Waksman permutation: the arrays left behind -/

theorem sa_refl (c : cloud) : c.same_arrays c := fun _ => Iff.rfl

theorem sa_trans (c c1 c2 : cloud) (h1 : c.same_arrays c1) (h2 : c1.same_arrays c2) :
    c.same_arrays c2 := fun U => (h2 U).trans (h1 U)

theorem sa_get (c c1 : cloud) (name index : Nat) (e : element)
    (h : c.get name index = .ok (e, c1)) : c.same_arrays c1 := by
  intro U
  unfold cloud.has
  rw [get_ok_table c c1 name index e h]

theorem sa_put (c c1 : cloud) (name index : Nat) (x : element)
    (h : c.put name index x = .ok c1) : c.same_arrays c1 :=
  (put_ok_peek c c1 name index x h).1.1

theorem sa_loop {σ : Type} (pr : σ → cloud) (body : Nat → σ → Except Fault σ)
    (hbody : ∀ k s s1, body k s = .ok s1 → (pr s).same_arrays (pr s1)) (n : Nat) :
    ∀ s s1, loop n body s = .ok s1 → (pr s).same_arrays (pr s1) :=
  loop_rel_gen (fun s s1 => (pr s).same_arrays (pr s1)) (fun s => sa_refl _)
    (fun _ _ _ h1 h2 => sa_trans _ _ _ h1 h2) body hbody n

theorem sa_route_wire (w : waksman) (fuel : Nat) :
    ∀ (e : element) (size pv index dest : Nat) (c c1 : cloud),
      w.route_wire fuel e size pv index dest c = .ok c1 → c.same_arrays c1 := by
  induction fuel with
  | zero => intro e size pv index dest c c1 h; exact absurd h (by simp [waksman.route_wire])
  | succ fuel ih =>
    intro e size pv index dest c c1 h
    rw [waksman.route_wire] at h
    split at h
    · exact sa_put _ _ _ _ _ h
    · exact ih _ _ _ _ _ _ _ h

theorem sa_get_update_elem (w : waksman) (node : perm_node) (source index : Nat)
    (c c1 : cloud) (e : element) (h : w.get_update_elem node source index c = .ok (e, c1)) :
    c.same_arrays c1 := by
  unfold waksman.get_update_elem at h
  simp only [bind, Except.bind, pure, Except.pure] at h
  split at h
  · exact absurd h (by simp)
  rename_i r h1
  obtain ⟨el, c2⟩ := r
  simp only at h
  split at h
  · exact absurd h (by simp)
  split at h
  · exact absurd h (by simp)
  simp only [Except.ok.injEq, Prod.mk.injEq] at h
  rw [← h.2]
  exact sa_get _ _ _ _ _ h1

theorem sa_route_switch_cp (w : waksman) (node : perm_node) (source dest index : Nat)
    (c c1 : cloud) (h : w.route_switch_cp node source dest index c = .ok c1) :
    c.same_arrays c1 := by
  unfold waksman.route_switch_cp at h
  simp only [bind, Except.bind, pure, Except.pure] at h
  split at h
  · exact absurd h (by simp)
  rename_i r1 h1
  obtain ⟨u1, c2⟩ := r1
  simp only at h
  split at h
  · exact absurd h (by simp)
  rename_i r2 h2
  obtain ⟨u2, c3⟩ := r2
  simp only at h
  have s12 := sa_trans _ _ _ (sa_get_update_elem _ _ _ _ _ _ _ h1)
    (sa_get_update_elem _ _ _ _ _ _ _ h2)
  split at h
  · exact absurd h (by simp)
  split at h
  · split at h
    · exact absurd h (by simp)
    rename_i c4 h3
    exact sa_trans _ _ _ s12 (sa_trans _ _ _ (sa_put _ _ _ _ _ h3) (sa_put _ _ _ _ _ h))
  · split at h
    · exact absurd h (by simp)
    rename_i c4 h3
    exact sa_trans _ _ _ s12 (sa_trans _ _ _ (sa_put _ _ _ _ _ h3) (sa_put _ _ _ _ _ h))

theorem sa_last_wire (w : waksman) (node : perm_node) (source dest : Nat) (y c1 : cloud)
    (h : (if node.parent.is_null = true then do
        let r ← w.get_update_elem node source ((node.size + W32 - 1) % W32) y
        match r with
          | (e1, c) => do
            let v1 ← w.eval_pi node ((node.size + W32 - 1) % W32)
            w.route_wire 33 e1 ((node.size + 1) / 2) (v1 / 2)
              ((node.offset + node.size + W32 - 1) % W32) dest c
      else pure y) = Except.ok c1) :
    y.same_arrays c1 := by
  by_cases hp : node.parent.is_null = true
  · rw [if_pos hp] at h
    obtain ⟨r1, h3, h⟩ := bind_ok_inv _ _ _ h
    obtain ⟨e1, c4⟩ := r1
    dsimp only at h
    obtain ⟨v1, _, h⟩ := bind_ok_inv _ _ _ h
    exact sa_trans _ _ _ (sa_get_update_elem _ _ _ _ _ _ _ h3)
      (sa_route_wire _ _ _ _ _ _ _ _ _ h)
  · rw [if_neg hp] at h
    have e : y = c1 := by
      simpa only [pure, Except.pure, Except.ok.injEq] using h
    rw [← e]
    exact sa_refl _

theorem sa_route_internal_node_cp (w : waksman) (node : perm_node) (source dest : Nat)
    (c c1 : cloud) (h : w.route_internal_node_cp node source dest c = .ok c1) :
    c.same_arrays c1 := by
  unfold waksman.route_internal_node_cp at h
  obtain ⟨c2, h1, h⟩ := bind_ok_inv _ _ _ h
  dsimp only at h
  have s1 : c.same_arrays c2 :=
    sa_loop id _ (fun k s s1 hb => sa_route_switch_cp w node source dest k s s1 hb) _ _ _ h1
  refine sa_trans _ _ _ s1 ?_
  by_cases hev : node.size % 2 = 0
  · -- node is even
    rw [if_pos hev] at h
    obtain ⟨c3, h2, h⟩ := bind_ok_inv _ _ _ h
    refine sa_trans _ _ _ (sa_route_switch_cp _ _ _ _ _ _ _ h2) ?_
    by_cases hch : node.size / 2 % 2 = 1
    · rw [if_pos hch] at h
      obtain ⟨r1, h3, h⟩ := bind_ok_inv _ _ _ h
      obtain ⟨e1, c4⟩ := r1
      dsimp only at h
      obtain ⟨r2, h4, h⟩ := bind_ok_inv _ _ _ h
      obtain ⟨e2, c5⟩ := r2
      dsimp only at h
      refine sa_trans _ _ _ (sa_trans _ _ _ (sa_get_update_elem _ _ _ _ _ _ _ h3)
        (sa_get_update_elem _ _ _ _ _ _ _ h4)) ?_
      obtain ⟨v1, _, h⟩ := bind_ok_inv _ _ _ h
      obtain ⟨v2, _, h⟩ := bind_ok_inv _ _ _ h
      obtain ⟨b, _, h⟩ := bind_ok_inv _ _ _ h
      by_cases hb : b = PERSIST
      · rw [if_pos hb] at h
        obtain ⟨c6, h5, h⟩ := bind_ok_inv _ _ _ h
        exact sa_trans _ _ _ (sa_route_wire _ _ _ _ _ _ _ _ _ h5)
          (sa_route_wire _ _ _ _ _ _ _ _ _ h)
      · rw [if_neg hb] at h
        obtain ⟨c6, h5, h⟩ := bind_ok_inv _ _ _ h
        exact sa_trans _ _ _ (sa_route_wire _ _ _ _ _ _ _ _ _ h5)
          (sa_route_wire _ _ _ _ _ _ _ _ _ h)
    · rw [if_neg hch] at h
      exact sa_route_switch_cp _ _ _ _ _ _ _ h
  · -- node is odd
    rw [if_neg hev] at h
    by_cases hch : node.size / 2 % 2 = 1
    · rw [if_pos hch] at h
      obtain ⟨r1, h3, h⟩ := bind_ok_inv _ _ _ h
      obtain ⟨e1, c4⟩ := r1
      dsimp only at h
      obtain ⟨r2, h4, h⟩ := bind_ok_inv _ _ _ h
      obtain ⟨e2, c5⟩ := r2
      dsimp only at h
      refine sa_trans _ _ _ (sa_trans _ _ _ (sa_get_update_elem _ _ _ _ _ _ _ h3)
        (sa_get_update_elem _ _ _ _ _ _ _ h4)) ?_
      obtain ⟨b, _, h⟩ := bind_ok_inv _ _ _ h
      by_cases hb : b = PERSIST
      · rw [if_pos hb] at h
        obtain ⟨v1, _, h⟩ := bind_ok_inv _ _ _ h
        obtain ⟨c6, h5, h⟩ := bind_ok_inv _ _ _ h
        obtain ⟨c7, h6, h⟩ := bind_ok_inv _ _ _ h
        exact sa_trans _ _ _ (sa_route_wire _ _ _ _ _ _ _ _ _ h5)
          (sa_trans _ _ _ (sa_put _ _ _ _ _ h6) (sa_last_wire _ _ _ _ _ _ h))
      · rw [if_neg hb] at h
        obtain ⟨c6, h5, h⟩ := bind_ok_inv _ _ _ h
        obtain ⟨v2, _, h⟩ := bind_ok_inv _ _ _ h
        obtain ⟨c7, h6, h⟩ := bind_ok_inv _ _ _ h
        exact sa_trans _ _ _ (sa_put _ _ _ _ _ h5)
          (sa_trans _ _ _ (sa_route_wire _ _ _ _ _ _ _ _ _ h6) (sa_last_wire _ _ _ _ _ _ h))
    · rw [if_neg hch] at h
      obtain ⟨c3, h2, h⟩ := bind_ok_inv _ _ _ h
      exact sa_trans _ _ _ (sa_route_switch_cp _ _ _ _ _ _ _ h2) (sa_last_wire _ _ _ _ _ _ h)

theorem sa_skip_put (w : waksman) (e : element) (offset index : Nat)
    (s s1 : List Nat × cloud) (h : w.skip_put e offset index s = .ok s1) :
    s.2.same_arrays s1.2 := by
  unfold waksman.skip_put at h
  obtain ⟨r, _, h⟩ := bind_ok_inv _ _ _ h
  obtain ⟨v, sk⟩ := r
  dsimp only at h
  obtain ⟨c2, h2, h⟩ := bind_ok_inv _ _ _ h
  have e1 : (sk, c2) = s1 := by
    simpa only [pure, Except.pure, Except.ok.injEq] using h
  rw [← e1]
  exact sa_put _ _ _ _ _ h2

theorem sa_skip_fn (w : waksman) (node : perm_node) :
    ∀ (e : element) (offset index : Nat) (s s1 : List Nat × cloud),
      w.skip_fn node e offset index s = .ok s1 → s.2.same_arrays s1.2 := by
  induction node with
  | null => intro e offset index s s1 h; exact absurd h (by simp [waksman.skip_fn])
  | node parent d l o sz en ex ih =>
    intro e offset index s s1 h
    cases parent with
    | null => exact absurd h (by simp [waksman.skip_fn])
    | node grand pd pl po ps pen pex =>
      rw [waksman.skip_fn] at h
      split at h
      · split at h
        · split at h
          · exact ih _ _ _ _ _ h
          · split at h
            · exact sa_skip_put _ _ _ _ _ _ h
            · exact ih _ _ _ _ _ h
        · split at h
          · exact sa_skip_put _ _ _ _ _ _ h
          · exact ih _ _ _ _ _ h
      · exact sa_skip_put _ _ _ _ _ _ h

theorem sa_route_element (w : waksman) (node : perm_node) (e : element) (offset value : Nat)
    (s s1 : List Nat × cloud) (h : w.route_element node e offset value s = .ok s1) :
    s.2.same_arrays s1.2 := by
  unfold waksman.route_element at h
  split at h
  · exact absurd h (by simp)
  dsimp only at h
  split at h
  · exact sa_skip_fn _ _ _ _ _ _ _ h
  · obtain ⟨c2, h2, h⟩ := bind_ok_inv _ _ _ h
    have e1 : (s.1, c2) = s1 := by
      simpa only [pure, Except.pure, Except.ok.injEq] using h
    rw [← e1]
    exact sa_put _ _ _ _ _ h2

theorem sa_route_leaf (w : waksman) (node : perm_node) (source : Nat)
    (s s1 : List Nat × cloud) (h : w.route_leaf node source s = .ok s1) :
    s.2.same_arrays s1.2 := by
  unfold waksman.route_leaf at h
  split at h
  · exact absurd h (by simp)
  dsimp only at h
  refine sa_loop (fun s : List Nat × cloud => s.2) _ ?_ _ _ _ h
  intro k t t1 hb
  obtain ⟨r, h1, hb⟩ := bind_ok_inv _ _ _ hb
  obtain ⟨el, c2⟩ := r
  dsimp only at hb
  obtain ⟨v, _, hb⟩ := bind_ok_inv _ _ _ hb
  exact sa_trans _ _ _ (sa_get _ _ _ _ _ h1) (sa_route_element _ _ _ _ _ _ _ hb)

theorem sa_configuration_phase (w : waksman) (fuel : Nat) :
    ∀ (node : perm_node) (source : Nat) (s s1 : List Nat × cloud),
      w.configuration_phase fuel node source s = .ok s1 → s.2.same_arrays s1.2 := by
  induction fuel with
  | zero => intro node source s s1 h; exact absurd h (by simp [waksman.configuration_phase])
  | succ fuel ih =>
    intro node source s s1 h
    rw [waksman.configuration_phase] at h
    dsimp only at h
    split at h
    · exact sa_route_leaf _ _ _ _ _ h
    · obtain ⟨nd, _, h⟩ := bind_ok_inv _ _ _ h
      obtain ⟨c2, h2, h⟩ := bind_ok_inv _ _ _ h
      obtain ⟨s2, h3, h⟩ := bind_ok_inv _ _ _ h
      exact sa_trans _ _ _ (sa_route_internal_node_cp _ _ _ _ _ _ h2)
        (sa_trans _ _ _ (ih _ _ _ _ h3) (ih _ _ _ _ h))

theorem sa_apply_switch (v_top v_bottom : element) (dest : Nat) (node : perm_node)
    (switch_num : Nat) (c c1 : cloud)
    (h : waksman.apply_switch v_top v_bottom dest node switch_num c = .ok c1) :
    c.same_arrays c1 := by
  unfold waksman.apply_switch at h
  dsimp only at h
  split at h
  · obtain ⟨c2, h2, h⟩ := bind_ok_inv _ _ _ h
    exact sa_trans _ _ _ (sa_put _ _ _ _ _ h2) (sa_put _ _ _ _ _ h)
  · obtain ⟨c2, h2, h⟩ := bind_ok_inv _ _ _ h
    exact sa_trans _ _ _ (sa_put _ _ _ _ _ h2) (sa_put _ _ _ _ _ h)

theorem sa_route_switch_erp (source dest index : Nat) (node : perm_node) (switch_num : Nat)
    (c c1 : cloud) (h : waksman.route_switch_erp source dest index node switch_num c = .ok c1) :
    c.same_arrays c1 := by
  unfold waksman.route_switch_erp at h
  obtain ⟨r1, h1, h⟩ := bind_ok_inv _ _ _ h
  obtain ⟨a, c2⟩ := r1
  dsimp only at h
  obtain ⟨r2, h2, h⟩ := bind_ok_inv _ _ _ h
  obtain ⟨b, c3⟩ := r2
  dsimp only at h
  exact sa_trans _ _ _ (sa_get _ _ _ _ _ h1)
    (sa_trans _ _ _ (sa_get _ _ _ _ _ h2) (sa_apply_switch _ _ _ _ _ _ _ h))

theorem sa_route_switch_erp_skip (w : waksman) (source dest source_i skip_i : Nat)
    (node : perm_node) (switch_num : Nat) (c c1 : cloud)
    (h : w.route_switch_erp_skip source dest source_i skip_i node switch_num c = .ok c1) :
    c.same_arrays c1 := by
  unfold waksman.route_switch_erp_skip at h
  obtain ⟨r1, h1, h⟩ := bind_ok_inv _ _ _ h
  obtain ⟨a, c2⟩ := r1
  dsimp only at h
  obtain ⟨r2, h2, h⟩ := bind_ok_inv _ _ _ h
  obtain ⟨b, c3⟩ := r2
  dsimp only at h
  exact sa_trans _ _ _ (sa_get _ _ _ _ _ h1)
    (sa_trans _ _ _ (sa_get _ _ _ _ _ h2) (sa_apply_switch _ _ _ _ _ _ _ h))

theorem sa_complete_bottom_wires (w : waksman) (dest skip_index : Nat) (c c1 : cloud)
    (h : w.complete_bottom_wires dest skip_index c = .ok c1) : c.same_arrays c1 := by
  unfold waksman.complete_bottom_wires at h
  obtain ⟨r1, h1, h⟩ := bind_ok_inv _ _ _ h
  obtain ⟨a, c2⟩ := r1
  dsimp only at h
  refine sa_trans _ _ _ (sa_get _ _ _ _ _ h1) ?_
  split at h
  · exact sa_put _ _ _ _ _ h
  · obtain ⟨r2, h2, h⟩ := bind_ok_inv _ _ _ h
    obtain ⟨b, c3⟩ := r2
    dsimp only at h
    obtain ⟨c4, h3, h⟩ := bind_ok_inv _ _ _ h
    exact sa_trans _ _ _ (sa_get _ _ _ _ _ h2)
      (sa_trans _ _ _ (sa_put _ _ _ _ _ h3) (sa_put _ _ _ _ _ h))

theorem sa_pure_pair (k : Nat) (c2 : cloud) (r : Nat × cloud)
    (h : (pure (k, c2) : Except Fault (Nat × cloud)) = .ok r) : r.2 = c2 := by
  have e1 : (k, c2) = r := by
    simpa only [pure, Except.pure, Except.ok.injEq] using h
  rw [← e1]

theorem sa_route_internal_node_erp (w : waksman) (node : perm_node)
    (source dest skip_index : Nat) (c : cloud) (r : Nat × cloud)
    (h : w.route_internal_node_erp node source dest skip_index c = .ok r) :
    c.same_arrays r.2 := by
  unfold waksman.route_internal_node_erp at h
  dsimp only at h
  have hl : ∀ (n : Nat) (a b : cloud),
      loop n (fun i c => waksman.route_switch_erp source dest ((node.offset + 2 * i) % W32)
        node i c) a = .ok b → a.same_arrays b := fun n a b hb =>
    sa_loop id _ (fun k s s1 hk => sa_route_switch_erp _ _ _ _ _ _ _ hk) n a b hb
  split at h
  · obtain ⟨c2, h1, h⟩ := bind_ok_inv _ _ _ h
    refine sa_trans _ _ _ (sa_complete_bottom_wires _ _ _ _ _ h1) ?_
    split at h
    · obtain ⟨c3, h2, h⟩ := bind_ok_inv _ _ _ h
      rw [sa_pure_pair _ _ _ h]
      exact hl _ _ _ h2
    · obtain ⟨c3, h2, h⟩ := bind_ok_inv _ _ _ h
      refine sa_trans _ _ _ (hl _ _ _ h2) ?_
      split at h
      · obtain ⟨c4, h3, h⟩ := bind_ok_inv _ _ _ h
        refine sa_trans _ _ _ (sa_route_switch_erp _ _ _ _ _ _ _ h3) ?_
        split at h
        · obtain ⟨c5, h4, h⟩ := bind_ok_inv _ _ _ h
          rw [sa_pure_pair _ _ _ h]
          exact sa_route_switch_erp _ _ _ _ _ _ _ h4
        · obtain ⟨c5, h4, h⟩ := bind_ok_inv _ _ _ h
          rw [sa_pure_pair _ _ _ h]
          exact sa_route_switch_erp _ _ _ _ _ _ _ h4
      · split at h
        · obtain ⟨c4, h3, h⟩ := bind_ok_inv _ _ _ h
          obtain ⟨c5, h4, h⟩ := bind_ok_inv _ _ _ h
          rw [sa_pure_pair _ _ _ h]
          exact sa_trans _ _ _ (sa_route_switch_erp _ _ _ _ _ _ _ h3)
            (sa_route_switch_erp _ _ _ _ _ _ _ h4)
        · obtain ⟨c4, h3, h⟩ := bind_ok_inv _ _ _ h
          obtain ⟨c5, h4, h⟩ := bind_ok_inv _ _ _ h
          rw [sa_pure_pair _ _ _ h]
          exact sa_trans _ _ _ (sa_route_switch_erp_skip _ _ _ _ _ _ _ _ _ h3)
            (sa_route_switch_erp_skip _ _ _ _ _ _ _ _ _ h4)
  · obtain ⟨c2, h1, h⟩ := bind_ok_inv _ _ _ h
    have e1 : c = c2 := by
      simpa only [pure, Except.pure, Except.ok.injEq] using h1
    rw [e1]
    split at h
    · obtain ⟨c3, h2, h⟩ := bind_ok_inv _ _ _ h
      rw [sa_pure_pair _ _ _ h]
      exact hl _ _ _ h2
    · obtain ⟨c3, h2, h⟩ := bind_ok_inv _ _ _ h
      refine sa_trans _ _ _ (hl _ _ _ h2) ?_
      split at h
      · obtain ⟨c4, h3, h⟩ := bind_ok_inv _ _ _ h
        refine sa_trans _ _ _ (sa_route_switch_erp _ _ _ _ _ _ _ h3) ?_
        split at h
        · obtain ⟨c5, h4, h⟩ := bind_ok_inv _ _ _ h
          rw [sa_pure_pair _ _ _ h]
          exact sa_route_switch_erp _ _ _ _ _ _ _ h4
        · obtain ⟨c5, h4, h⟩ := bind_ok_inv _ _ _ h
          rw [sa_pure_pair _ _ _ h]
          exact sa_route_switch_erp _ _ _ _ _ _ _ h4
      · split at h
        · obtain ⟨c4, h3, h⟩ := bind_ok_inv _ _ _ h
          obtain ⟨c5, h4, h⟩ := bind_ok_inv _ _ _ h
          rw [sa_pure_pair _ _ _ h]
          exact sa_trans _ _ _ (sa_route_switch_erp _ _ _ _ _ _ _ h3)
            (sa_route_switch_erp _ _ _ _ _ _ _ h4)
        · obtain ⟨c4, h3, h⟩ := bind_ok_inv _ _ _ h
          obtain ⟨c5, h4, h⟩ := bind_ok_inv _ _ _ h
          rw [sa_pure_pair _ _ _ h]
          exact sa_trans _ _ _ (sa_route_switch_erp_skip _ _ _ _ _ _ _ _ _ h3)
            (sa_route_switch_erp_skip _ _ _ _ _ _ _ _ _ h4)

theorem sa_preorder_trav (w : waksman) (fuel : Nat) :
    ∀ (node : perm_node) (depth source dest skip_index : Nat) (c : cloud) (r : Nat × cloud),
      w.preorder_trav fuel node depth source dest skip_index c = .ok r →
      c.same_arrays r.2 := by
  induction fuel with
  | zero =>
    intro node depth source dest skip_index c r h
    exact absurd h (by simp [waksman.preorder_trav])
  | succ fuel ih =>
    intro node depth source dest skip_index c r h
    rw [waksman.preorder_trav] at h
    split at h
    · exact sa_route_internal_node_erp _ _ _ _ _ _ _ h
    · dsimp only at h
      obtain ⟨r1, h1, h⟩ := bind_ok_inv _ _ _ h
      obtain ⟨k, c2⟩ := r1
      dsimp only at h
      exact sa_trans _ _ _ (ih _ _ _ _ _ _ _ h1) (ih _ _ _ _ _ _ _ h)

/-- The array that `empty_road_phase` hands back after `i` levels, starting from
`source`. -/
theorem sa_erp_loop (w : waksman) (root : perm_node) (h13 : w.temp1 ≠ w.temp3) (i : Nat) :
    ∀ (source dest skip_index : Nat) (c : cloud) (r : Nat × cloud),
      (source = w.temp3 ∧ dest = w.temp1 ∨ source = w.temp1 ∧ dest = w.temp3) →
      w.erp_loop root i source dest skip_index c = .ok r →
      c.same_arrays r.2 ∧ r.1 = if i % 2 = 0 then source else dest := by
  induction i with
  | zero =>
    intro source dest skip_index c r _ h
    rw [waksman.erp_loop] at h
    simp only [Except.ok.injEq] at h
    rw [← h]
    exact ⟨sa_refl _, rfl⟩
  | succ i ih =>
    intro source dest skip_index c r hsd h
    rw [waksman.erp_loop] at h
    obtain ⟨r1, h1, h⟩ := bind_ok_inv _ _ _ h
    obtain ⟨k, c2⟩ := r1
    dsimp only at h
    have hsd1 : ((if source = w.temp1 then w.temp3 else w.temp1) = w.temp3 ∧ source = w.temp1 ∨
        (if source = w.temp1 then w.temp3 else w.temp1) = w.temp1 ∧ source = w.temp3) := by
      rcases hsd with ⟨hs, _⟩ | ⟨hs, _⟩
      · right
        rw [hs, if_neg (Ne.symm h13)]
        exact ⟨rfl, rfl⟩
      · left
        rw [hs, if_pos rfl]
        exact ⟨rfl, rfl⟩
    obtain ⟨g1, g2⟩ := ih _ _ _ _ _ hsd1 h
    refine ⟨sa_trans _ _ _ (sa_preorder_trav _ _ _ _ _ _ _ _ _ h1) g1, ?_⟩
    rw [g2]
    rcases hsd with ⟨hs, hd⟩ | ⟨hs, hd⟩
    · rw [hs, hd, if_neg (Ne.symm h13)]
      by_cases hi : i % 2 = 0
      · rw [if_pos hi, if_neg (by omega)]
      · rw [if_neg hi, if_pos (by omega)]
    · rw [hs, hd, if_pos rfl]
      by_cases hi : i % 2 = 0
      · rw [if_pos hi, if_neg (by omega)]
      · rw [if_neg hi, if_pos (by omega)]

theorem has_create (c : cloud) (name length U : Nat) :
    (c.create_array name length).has U ↔ (U = name ∨ c.has U) := by
  unfold cloud.has cloud.create_array
  by_cases h : U = name
  · simp [h]
  · simp [h]

theorem has_delete (c c1 : cloud) (i : Nat) (h : c.delete_array i = .ok c1) (U : Nat) :
    c1.has U ↔ (U ≠ i ∧ c.has U) := by
  unfold cloud.has
  rw [delete_ok_table c c1 i h U]
  by_cases hU : U = i
  · simp [hU]
  · simp [hU]

/-- The arrays at the server when `run` returns: the returned name alternates with the
height of the tree, and of the arrays of the object only the returned one is left. -/
theorem run_arrays (w : waksman) (c c1 : cloud) (out : Nat) (h13 : w.temp1 ≠ w.temp3)
    (h : w.run c = .ok (out, c1)) :
    out = (if waksman.tree_height w.leaf_size 33 w.length % 2 = 1 then w.temp1 else w.temp3) ∧
    ∀ U, c1.has U ↔
      ((U ≠ w.skip_array ∧ U ≠ w.temp2 ∧ U ≠ (if out = w.temp1 then w.temp3 else w.temp1)) ∧
        (U = w.skip_array ∨ U = w.temp3 ∨ U = w.temp2 ∨ c.has U)) := by
  unfold waksman.run at h
  dsimp only at h
  obtain ⟨r1, h1, h⟩ := bind_ok_inv _ _ _ h
  obtain ⟨sk, c2⟩ := r1
  dsimp only at h
  obtain ⟨r2, h2, h⟩ := bind_ok_inv _ _ _ h
  obtain ⟨o, c3⟩ := r2
  dsimp only at h
  obtain ⟨c4, h3, h⟩ := bind_ok_inv _ _ _ h
  obtain ⟨c5, h4, h⟩ := bind_ok_inv _ _ _ h
  have s1 := sa_configuration_phase w _ _ _ _ _ h1
  unfold waksman.empty_road_phase at h2
  have s2 := sa_erp_loop w _ h13 _ _ _ _ _ _ (Or.inl ⟨rfl, rfl⟩) h2
  have hd : o = out ∧ ∀ U, c1.has U ↔
      (U ≠ (if o = w.temp1 then w.temp3 else w.temp1) ∧ c5.has U) := by
    by_cases ho : o = w.temp1
    · rw [if_pos ho] at h ⊢
      obtain ⟨c6, h5, h⟩ := bind_ok_inv _ _ _ h
      have e1 : (o, c6) = (out, c1) := by
        simpa only [pure, Except.pure, Except.ok.injEq] using h
      have e2 : c6 = c1 := congrArg Prod.snd e1
      rw [← e2]
      exact ⟨congrArg Prod.fst e1, fun U => has_delete _ _ _ h5 U⟩
    · rw [if_neg ho] at h ⊢
      obtain ⟨c6, h5, h⟩ := bind_ok_inv _ _ _ h
      have e1 : (o, c6) = (out, c1) := by
        simpa only [pure, Except.pure, Except.ok.injEq] using h
      have e2 : c6 = c1 := congrArg Prod.snd e1
      rw [← e2]
      exact ⟨congrArg Prod.fst e1, fun U => has_delete _ _ _ h5 U⟩
  obtain ⟨eo, hd⟩ := hd
  subst eo
  refine ⟨?_, ?_⟩
  · have := s2.2
    dsimp only at this
    rw [this]
    by_cases ht : waksman.tree_height w.leaf_size 33 w.length % 2 = 0
    · rw [if_pos ht, if_neg (by omega)]
    · rw [if_neg ht, if_pos (by omega)]
  · intro U
    rw [hd U, has_delete _ _ _ h4 U, has_delete _ _ _ h3 U, s2.1 U, s1 U]
    dsimp only
    rw [has_create, has_create, has_create]
    tauto

theorem names_distinct (name : Nat) :
    name ≠ (name + 2) % W32 ∧ (name + 1) % W32 ≠ (name + 2) % W32 ∧
    (name + 1) % W32 ≠ (name + 3) % W32 ∧ (name + 2) % W32 ≠ (name + 3) % W32 ∧
    name ≠ (name + 1) % W32 ∧ name ≠ (name + 3) % W32 := by
  unfold W32
  omega

/-! ### Waksman permutation: the elements on the wires of the network -/

theorem ret_bind {α β : Type} (x : Except Fault α) (f : α → Except Fault β) (Q : α → Prop)
    (R : β → Prop) (hx : ret x Q) (hf : ∀ a, Q a → ret (f a) R) : ret (x >>= f) R := by
  obtain ⟨a, hx, hq⟩ := hx
  rw [hx]
  exact hf a hq

theorem ret_ok {α : Type} (a : α) (Q : α → Prop) (h : Q a) :
    ret (Except.ok a : Except Fault α) Q := ⟨a, rfl, h⟩

theorem ret_pure {α : Type} (a : α) (Q : α → Prop) (h : Q a) :
    ret (pure a : Except Fault α) Q := ⟨a, rfl, h⟩

theorem ret_mono {α : Type} (x : Except Fault α) (Q R : α → Prop) (hx : ret x Q)
    (h : ∀ a, Q a → R a) : ret x R := by
  obtain ⟨a, hx, hq⟩ := hx
  exact ⟨a, hx, h a hq⟩

theorem ret_loop {σ : Type} (Inv : Nat → σ → Prop) (body : Nat → σ → Except Fault σ) (n : Nat)
    (s : σ) (h0 : Inv 0 s)
    (hstep : ∀ k s, k < n → Inv k s → ret (body k s) (Inv (k + 1))) :
    ret (loop n body s) (Inv n) :=
  loop_inv Inv body n s h0 hstep

theorem chg_refl (c : cloud) (W : Nat → Nat → Prop) : c.chg c W :=
  ⟨fun _ => Iff.rfl, fun _ _ _ => rfl⟩

theorem chg_trans (c c1 c2 : cloud) (W1 W2 W : Nat → Nat → Prop) (h1 : c.chg c1 W1)
    (h2 : c1.chg c2 W2) (hW1 : ∀ U j, W1 U j → W U j) (hW2 : ∀ U j, W2 U j → W U j) :
    c.chg c2 W :=
  ⟨fun U => (h2.has U).trans (h1.has U), fun U j hn => by
    rw [h2.peek U j (fun h => hn (hW2 U j h)), h1.peek U j (fun h => hn (hW1 U j h))]⟩

theorem chg_mono (c c1 : cloud) (W1 W : Nat → Nat → Prop) (h1 : c.chg c1 W1)
    (hW : ∀ U j, W1 U j → W U j) : c.chg c1 W :=
  ⟨h1.has, fun U j hn => h1.peek U j (fun h => hn (hW U j h))⟩

theorem live_chg (w : waksman) (c c1 : cloud) (W : Nat → Nat → Prop) (h : c.chg c1 W)
    (hl : w.live c) : w.live c1 :=
  ⟨(h.has _).2 hl.1, (h.has _).2 hl.2.1, (h.has _).2 hl.2.2.1, (h.has _).2 hl.2.2.2⟩

/-- A `get` of a written slot returns the stored element with its key masked and changes
no slot. -/
theorem get_ret (c : cloud) (T i : Nat) (e : element) (h : c.peek T i = some e) :
    ret (c.get T i) (fun r => r.1 = mask_key e ∧ c.chg r.2 (fun _ _ => False)) := by
  obtain ⟨c1, h1, h2⟩ := cloud_get_peek c T i e h
  refine ⟨_, h1, rfl, ?_, ?_⟩
  · intro U
    exact has_of_table _ _ U (by rw [h2])
  · intro U j _
    exact peek_of_table _ _ U (by rw [h2]) j

/-- A `put` into an existing array returns and changes the one slot. -/
theorem put_ret (c : cloud) (T i : Nat) (x : element) (h : c.has T) :
    ret (c.put T i x) (fun c1 => c.chg c1 (fun U j => U = T ∧ j = i) ∧
      c1.peek T i = some x) := by
  obtain ⟨c1, h1, -, -⟩ := cloud_put_peek c T i x h
  obtain ⟨h2, h3⟩ := put_ok_peek c c1 T i x h1
  refine ⟨c1, h1, ⟨h2.1, ?_⟩, ?_⟩
  · intro U j hn
    rw [h3 U j, if_neg hn]
  · rw [h3 T i, if_pos ⟨rfl, rfl⟩]

theorem wf_node (w : waksman) (N : perm_node) (h : w.wf N) :
    ∃ p d l o s e x, N = .node p d l o s e x := by
  cases h <;> exact ⟨_, _, _, _, _, _, _, rfl⟩

theorem wf_depth_pos (w : waksman) (N : perm_node) (h : w.wf N) : 1 ≤ N.depth := by
  cases h <;> simp [perm_node.depth]

theorem uni_ge_two (ls : Nat) (h s : Nat) (hu : uni ls h s) (hls : 3 ≤ ls) : 2 ≤ s := by
  cases h with
  | zero => exact hu.1
  | succ h => have := hu.1; omega

theorem sw_spec (w : waksman) (henv : w.env) (H : Nat) (p : perm_node) (d : Nat) (l : Bool)
    (o s : Nat) (e0 x0 : List Bool) (h : Nat) (hN : w.node_ok H (.node p d l o s e0 x0) (h + 1)) :
    ∃ e x, w.set_exterior (.node p d l o s e0 x0) = .ok (.node p d l o s e x) ∧
      w.sw (.node p d l o s e0 x0) = .node p d l o s e x ∧
      w.valid (.node p d l o s e x) ∧ w.wf (.node p d l o s e x) ∧
      w.bij (.node p d l o s e x) := by
  have hs : w.leaf_size < s := hN.uni.1
  have hfit := hN.fit
  simp only [perm_node.size, perm_node.offset] at hfit
  have hlt := henv.len_lt
  have hlf := henv.leaf_ge
  obtain ⟨e, x, h1, h2⟩ := set_exterior_spec w p d l o s e0 x0
    (bij_of_wf w henv.pi_ok _ hN.wf) (by omega) (by omega)
  refine ⟨e, x, h1, ?_, h2, wf_switches w p d l o s e0 x0 e x hN.wf, ?_⟩
  · unfold waksman.sw
    rw [h1]
  · exact bij_of_wf w henv.pi_ok _ (wf_switches w p d l o s e0 x0 e x hN.wf)

theorem children_ok (w : waksman) (henv : w.env) (H : Nat) (N : perm_node) (h : Nat)
    (hN : w.node_ok H N (h + 1)) :
    w.node_ok H (w.lch N) h ∧ w.node_ok H (w.rch N) h := by
  obtain ⟨p, d, l, o, s, e0, x0, rfl⟩ := wf_node w N hN.wf
  obtain ⟨e, x, _, hsw, hval, hwf, _⟩ := sw_spec w henv H p d l o s e0 x0 h hN
  have hfit := hN.fit
  have hdep := hN.dep
  have hlt := henv.len_lt
  have hW : W32 = 4294967296 := by decide
  simp only [perm_node.size, perm_node.offset, perm_node.depth] at hfit hdep
  unfold waksman.lch waksman.rch
  rw [hsw]
  simp only [perm_node.size, perm_node.offset, perm_node.depth]
  constructor
  · refine ⟨?_, hN.uni.2.1, ?_, ?_⟩
    · exact waksman.wf.left (.node p d l o s e x) [] [] hwf hval hN.uni.1
    · simp only [perm_node.size, perm_node.offset]; omega
    · simp only [perm_node.depth]; omega
  · refine ⟨?_, hN.uni.2.2, ?_, ?_⟩
    · exact waksman.wf.right (.node p d l o s e x) [] [] hwf hval hN.uni.1
    · simp only [perm_node.size, perm_node.offset]
      rw [hW]
      omega
    · simp only [perm_node.depth]; omega

theorem ev_spec (w : waksman) (N : perm_node) (hb : w.bij N) (x : Nat) (hx : x < N.size) :
    w.eval_pi N x = .ok (w.ev N x) ∧ w.ev N x < N.size ∧ w.evi N (w.ev N x) = x := by
  obtain ⟨v, h1, h2, h3⟩ := hb.1 x hx
  have e1 : w.ev N x = v := by unfold waksman.ev; rw [h1]
  rw [e1]
  refine ⟨h1, h2, ?_⟩
  unfold waksman.evi
  rw [h3]

theorem evi_spec (w : waksman) (N : perm_node) (hb : w.bij N) (y : Nat) (hy : y < N.size) :
    w.eval_inv_pi N y = .ok (w.evi N y) ∧ w.evi N y < N.size ∧ w.ev N (w.evi N y) = y := by
  obtain ⟨v, h1, h2, h3⟩ := hb.2 y hy
  have e1 : w.evi N y = v := by unfold waksman.evi; rw [h1]
  rw [e1]
  refine ⟨h1, h2, ?_⟩
  unfold waksman.ev
  rw [h3]

theorem ev_child (w : waksman) (gp : perm_node) (pd : Nat) (pl : Bool) (po ps : Nat)
    (pe px : List Bool) (hb : w.bij (.node gp pd pl po ps pe px)) (d : Nat) (left : Bool)
    (o s : Nat) (e x : List Bool) (j : Nat) (hj : j < pe.length)
    (hx : stage_wire pe left j < ps) :
    w.ev (.node (.node gp pd pl po ps pe px) d left o s e x) j =
      w.ev (.node gp pd pl po ps pe px) (stage_wire pe left j) / 2 := by
  have h1 := eval_pi_child w gp pd pl po ps pe px d left o s e x j hj
  obtain ⟨h2, _, _⟩ := ev_spec w _ hb _ hx
  rw [h2] at h1
  unfold waksman.ev at *
  rw [h1]
  rfl

theorem evi_child (w : waksman) (gp : perm_node) (pd : Nat) (pl : Bool) (po ps : Nat)
    (pe px : List Bool) (hb : w.bij (.node gp pd pl po ps pe px)) (d : Nat) (left : Bool)
    (o s : Nat) (e x : List Bool) (j : Nat) (hj : j < px.length)
    (hx : stage_wire px left j < ps) :
    w.evi (.node (.node gp pd pl po ps pe px) d left o s e x) j =
      w.evi (.node gp pd pl po ps pe px) (stage_wire px left j) / 2 := by
  have h1 := eval_inv_pi_child w gp pd pl po ps pe px d left o s e x j hj
  obtain ⟨h2, _, _⟩ := evi_spec w _ hb _ hx
  rw [h2] at h1
  unfold waksman.evi at *
  rw [h1]
  rfl

theorem inE_child (w : waksman) (key0 : Nat → Nat) (gp : perm_node) (pd : Nat) (pl : Bool)
    (po ps : Nat) (pe px : List Bool) (d : Nat) (left : Bool) (o s : Nat) (e x : List Bool)
    (j : Nat) :
    w.inE key0 (.node (.node gp pd pl po ps pe px) d left o s e x) j =
      { key := (w.inE key0 (.node gp pd pl po ps pe px) (stage_wire pe left j)).key,
        aux := 2 * (w.inE key0 (.node gp pd pl po ps pe px) (stage_wire pe left j)).aux +
          (px.getD (w.ev (.node gp pd pl po ps pe px) (stage_wire pe left j) / 2) false).toNat } := by
  simp only [waksman.inE, src, waksman.auxv]

theorem auxv_lt (w : waksman) (N : perm_node) (h : w.wf N) :
    ∀ j, w.auxv N j < 2 ^ (N.depth - 1) := by
  induction h with
  | root e x => intro j; simp [waksman.auxv, perm_node.depth]
  | left P e x hwf _ _ ih =>
    intro j
    obtain ⟨gp, pd, pl, po, ps, pe, px, rfl⟩ := wf_node w P hwf
    have hd := wf_depth_pos w _ hwf
    simp only [waksman.auxv, perm_node.depth] at *
    have := ih (stage_wire pe true j)
    have hb : (px.getD (w.ev (.node gp pd pl po ps pe px) (stage_wire pe true j) / 2)
      false).toNat ≤ 1 := Bool.toNat_le _
    have e1 : pd + 1 - 1 = (pd - 1) + 1 := by omega
    rw [e1, pow_succ]
    omega
  | right P e x hwf _ _ ih =>
    intro j
    obtain ⟨gp, pd, pl, po, ps, pe, px, rfl⟩ := wf_node w P hwf
    have hd := wf_depth_pos w _ hwf
    simp only [waksman.auxv, perm_node.depth] at *
    have := ih (stage_wire pe false j)
    have hb : (px.getD (w.ev (.node gp pd pl po ps pe px) (stage_wire pe false j) / 2)
      false).toNat ≤ 1 := Bool.toNat_le _
    have e1 : pd + 1 - 1 = (pd - 1) + 1 := by omega
    rw [e1, pow_succ]
    omega

/-- The relation between an output wire `y1` of a child and the output wire of the parent
on the same path: the element is the same, the child still carries the exit setting of
the parent. -/
theorem outE_child (w : waksman) (key0 : Nat → Nat) (gp : perm_node) (pd : Nat) (pl : Bool)
    (po ps : Nat) (pe px : List Bool) (hv : w.valid (.node gp pd pl po ps pe px))
    (hb : w.bij (.node gp pd pl po ps pe px)) (d : Nat) (left : Bool) (o s : Nat)
    (e x : List Bool) (y1 : Nat) (hy1 : y1 < nsw ps) (hy : stage_wire px left y1 < ps) :
    w.outE key0 (.node (.node gp pd pl po ps pe px) d left o s e x) y1 =
      { key := (w.outE key0 (.node gp pd pl po ps pe px) (stage_wire px left y1)).key,
        aux := 2 * (w.outE key0 (.node gp pd pl po ps pe px) (stage_wire px left y1)).aux +
          (px.getD y1 false).toNat } := by
  obtain ⟨hle, hlx, _, _, hval⟩ := hv
  simp only [perm_node.entry, perm_node.exit, perm_node.size] at hle hlx hval
  obtain ⟨h1, h2, h3⟩ := evi_spec w _ hb _ hy
  simp only [perm_node.size] at h2
  obtain ⟨y2, hy2, hg⟩ := hval _ h2
  obtain ⟨h4, _, _⟩ := ev_spec w _ hb _ h2
  rw [h4] at hy2
  cases hy2
  rw [h3, goes_left_stage_wire] at hg
  have hsw := stage_wire_of_goes_left pe left _ hg
  unfold waksman.outE
  rw [evi_child w gp pd pl po ps pe px hb d left o s e x y1 (by rw [hlx]; exact hy1) hy,
    inE_child, hsw, h3, stage_wire_half]

/-! ### Waksman permutation: the steps of the configuration phase at one node -/

theorem push_aux (a : Nat) (b : Bool) (h : a < 2 ^ 31) :
    (a * 2 % W32) ||| b.toNat = 2 * a + b.toNat := by
  have hW : W32 = 4294967296 := by decide
  have e1 : a * 2 % W32 = 2 ^ 1 * a := by
    rw [hW]
    omega
  rw [e1]
  have hb : b.toNat < 2 ^ 1 := by
    have := Bool.toNat_le b
    omega
  have := Nat.mul_add_lt_is_or hb a
  rw [← this]

theorem mask_of_key (e : element) (h : e.key &&& INT32_MAX = e.key) : mask_key e = e := by
  unfold mask_key
  rw [h]

theorem mask_inE (w : waksman) (key0 : Nat → Nat)
    (hk : ∀ i, key0 i &&& INT32_MAX = key0 i) (N : perm_node) (j : Nat) :
    mask_key (w.inE key0 N j) = w.inE key0 N j :=
  mask_of_key _ (hk _)

theorem mask_outE (w : waksman) (key0 : Nat → Nat)
    (hk : ∀ i, key0 i &&& INT32_MAX = key0 i) (N : perm_node) (y : Nat) :
    mask_key (w.outE key0 N y) = w.outE key0 N y :=
  mask_of_key _ (hk _)

theorem arr_cases (w : waksman) (d : Nat) : w.arr d = w.temp1 ∨ w.arr d = w.temp2 := by
  unfold waksman.arr
  split
  · exact Or.inl rfl
  · exact Or.inr rfl

theorem flip_arr (w : waksman) (henv : w.env) (d : Nat) : w.flip (w.arr d) = w.arr (d + 1) := by
  unfold waksman.flip waksman.arr
  have := henv.t12
  by_cases h : d % 2 = 1
  · rw [if_pos h, if_pos rfl, if_neg (by omega)]
  · rw [if_neg h, if_neg (Ne.symm this), if_pos (by omega)]

theorem arr_succ_ne (w : waksman) (henv : w.env) (d : Nat) : w.arr d ≠ w.arr (d + 1) := by
  unfold waksman.arr
  have := henv.t12
  by_cases h : d % 2 = 1
  · rw [if_pos h, if_neg (by omega)]
    exact this
  · rw [if_neg h, if_pos (by omega)]
    exact Ne.symm this

theorem live_arr (w : waksman) (c : cloud) (hl : w.live c) (d : Nat) : c.has (w.arr d) := by
  rcases arr_cases w d with h | h
  · rw [h]; exact hl.1
  · rw [h]; exact hl.2.1

theorem ev_own (w : waksman) (p : perm_node) (d : Nat) (l : Bool) (o s : Nat)
    (e x e1 x1 : List Bool) (k : Nat) :
    w.ev (.node p d l o s e x) k = w.ev (.node p d l o s e1 x1) k := by
  have h1 := eval_pi_with_switches w (.node p d l o s e x) e1 x1 k
  simp only [perm_node.with_switches] at h1
  unfold waksman.ev
  rw [h1]

theorem evi_own (w : waksman) (p : perm_node) (d : Nat) (l : Bool) (o s : Nat)
    (e x e1 x1 : List Bool) (k : Nat) :
    w.evi (.node p d l o s e x) k = w.evi (.node p d l o s e1 x1) k := by
  have h1 := eval_inv_pi_with_switches w (.node p d l o s e x) e1 x1 k
  simp only [perm_node.with_switches] at h1
  unfold waksman.evi
  rw [h1]

theorem inE_own (w : waksman) (key0 : Nat → Nat) (p : perm_node) (d : Nat) (l : Bool)
    (o s : Nat) (e x e1 x1 : List Bool) (k : Nat) :
    w.inE key0 (.node p d l o s e x) k = w.inE key0 (.node p d l o s e1 x1) k := by
  cases p <;> rfl

theorem outE_own (w : waksman) (key0 : Nat → Nat) (p : perm_node) (d : Nat) (l : Bool)
    (o s : Nat) (e x e1 x1 : List Bool) (k : Nat) :
    w.outE key0 (.node p d l o s e x) k = w.outE key0 (.node p d l o s e1 x1) k := by
  unfold waksman.outE
  rw [evi_own w p d l o s e x e1 x1, inE_own w key0 p d l o s e x e1 x1]

/-- The element on input wire `j` of a child is the element that `get_update_elem` returns
for the wire of the parent that the entry switch joins to it. -/
theorem inE_child_gu (w : waksman) (key0 : Nat → Nat) (gp : perm_node) (pd : Nat) (pl : Bool)
    (po ps : Nat) (pe px : List Bool) (hwf : w.wf (.node gp pd pl po ps pe px))
    (hd : pd ≤ 31) (d : Nat) (left : Bool) (o s : Nat) (e x : List Bool) (j : Nat) :
    w.inE key0 (.node (.node gp pd pl po ps pe px) d left o s e x) j =
      w.gu key0 (.node gp pd pl po ps pe px) (stage_wire pe left j) := by
  rw [inE_child]
  unfold waksman.gu pushE
  have h1 := auxv_lt w _ hwf (stage_wire pe left j)
  simp only [perm_node.depth] at h1
  have h2 : (w.inE key0 (.node gp pd pl po ps pe px) (stage_wire pe left j)).aux < 2 ^ 31 := by
    have : (2 : Nat) ^ (pd - 1) ≤ 2 ^ 31 := Nat.pow_le_pow_right (by norm_num) (by omega)
    exact lt_of_lt_of_le h1 this
  simp only [perm_node.exit]
  rw [push_aux _ _ h2]

theorem inp_chg (w : waksman) (key0 : Nat → Nat) (N : perm_node) (j : Nat) (c c1 : cloud)
    (W : Nat → Nat → Prop) (h : c.chg c1 W) (hn : ¬ W (w.arr N.depth) (N.offset + j))
    (hi : w.inp key0 N j c) : w.inp key0 N j c1 := by
  obtain ⟨e, h1, h2⟩ := hi
  exact ⟨e, by rw [h.peek _ _ hn]; exact h1, h2⟩

/-- The result of `get_update_elem` on an input wire that is stored in its place. -/
theorem gue_ret (w : waksman) (key0 : Nat → Nat) (P : perm_node) (hb : w.bij P)
    (hv : w.valid P) (x idx : Nat) (hx : x < P.size) (hidx : (P.offset + idx) % W32 = P.offset + x)
    (hidx2 : idx = x) (c : cloud) (hi : w.inp key0 P x c) :
    ret (w.get_update_elem P (w.arr P.depth) idx c)
      (fun r => r.1 = w.gu key0 P x ∧ c.chg r.2 (fun _ _ => False)) := by
  obtain ⟨e, h1, h2⟩ := hi
  obtain ⟨h3, h4, _⟩ := ev_spec w P hb x hx
  unfold waksman.get_update_elem
  rw [hidx]
  refine ret_bind _ _ _ _ (get_ret c _ _ e h1) ?_
  rintro ⟨el, c1⟩ ⟨h5, h6⟩
  simp only at h5 h6 ⊢
  subst hidx2
  rw [h3, ok_bind]
  have h7 : w.ev P idx / 2 < P.exit.length := by
    rw [hv.2.1]
    unfold nsw
    omega
  rw [bv_at_getD _ _ h7, ok_bind]
  refine ret_pure _ _ ⟨?_, h6⟩
  simp only
  rw [h5, h2]
  rfl

theorem inp_own (w : waksman) (key0 : Nat → Nat) (p : perm_node) (d : Nat) (l : Bool)
    (o s : Nat) (e x e1 x1 : List Bool) (j : Nat) (c : cloud) :
    w.inp key0 (.node p d l o s e x) j c ↔ w.inp key0 (.node p d l o s e1 x1) j c := by
  unfold waksman.inp
  rw [inE_own w key0 p d l o s e x e1 x1]
  rfl

/-- The setting that `route_wire` shifts in for the last wire of a node of odd size is the
setting of the exit switch of that wire. -/
theorem parity_bit (w : waksman) (P : perm_node) (hb : w.bij P) (hv : w.valid P)
    (hs : P.size % 2 = 1) :
    (if w.ev P (P.size - 1) % 2 = 1 then PERSIST else SWAP) =
      P.exit.getD (w.ev P (P.size - 1) / 2) false := by
  obtain ⟨_, _, hodd, _, hval⟩ := hv
  have hlt : P.size - 1 < P.size := by omega
  obtain ⟨y, hy, hg⟩ := hval _ hlt
  obtain ⟨h1, _, _⟩ := ev_spec w P hb _ hlt
  rw [h1] at hy
  cases hy
  rw [getD_last_of_goes_left _ _ hs (hodd hs).1] at hg
  unfold goes_left at hg
  by_cases hp : w.ev P (P.size - 1) % 2 = 1
  · rw [if_pos hp]
    have : decide (w.ev P (P.size - 1) % 2 = 0) = false := by simp [hp]
    rw [this] at hg
    cases hx : P.exit.getD (w.ev P (P.size - 1) / 2) false
    · rw [hx] at hg
      simp at hg
    · rfl
  · rw [if_neg hp]
    have : decide (w.ev P (P.size - 1) % 2 = 0) = true := by simp; omega
    rw [this] at hg
    cases hx : P.exit.getD (w.ev P (P.size - 1) / 2) false
    · rfl
    · rw [hx] at hg
      simp at hg

/-- Facts about the right child of a node of odd size: its last input wire is the last
input wire of the node. -/
theorem rch_last (w : waksman) (henv : w.env) (key0 : Nat → Nat) (H : Nat) (hH : H ≤ 31)
    (h : Nat) (C : perm_node) (hC : w.node_ok H C (h + 1)) (hodd : C.size % 2 = 1) :
    (w.rch C).size = (C.size + 1) / 2 ∧
    (w.rch C).offset + (w.rch C).size - 1 = C.offset + C.size - 1 ∧
    (w.rch C).depth = C.depth + 1 ∧
    w.ev (w.rch C) ((w.rch C).size - 1) = w.ev C (C.size - 1) / 2 ∧
    w.inE key0 (w.rch C) ((w.rch C).size - 1) =
      pushE (w.inE key0 C (C.size - 1))
        (if w.ev C (C.size - 1) % 2 = 1 then PERSIST else SWAP) := by
  obtain ⟨p, d, l, o, s, e0, x0, rfl⟩ := wf_node w C hC.wf
  obtain ⟨e, x, _, hsw, hval, hwf, hbij⟩ := sw_spec w henv H p d l o s e0 x0 h hC
  have hfit := hC.fit
  have hdep := hC.dep
  have hlt := henv.len_lt
  have hls := henv.leaf_ge
  have hs : w.leaf_size < s := hC.uni.1
  have hW : W32 = 4294967296 := by decide
  simp only [perm_node.size, perm_node.offset, perm_node.depth] at hfit hdep hodd ⊢
  unfold waksman.rch
  rw [hsw]
  simp only [perm_node.size, perm_node.offset, perm_node.depth]
  have hsz : s / 2 + s % 2 - 1 = nsw s - 1 := by unfold nsw; omega
  have hent : e.getD (s / 2 + s % 2 - 1) false = false := by
    rw [hsz]
    exact (hval.2.2.1 hodd).1
  have hst : stage_wire e false (s / 2 + s % 2 - 1) = s - 1 := by
    unfold stage_wire
    rw [hent, if_pos rfl]
    omega
  refine ⟨by omega, by rw [hW]; omega, trivial, ?_, ?_⟩
  · have hel : e.length = nsw s := hval.1
    rw [ev_child w p d l o s e x hbij _ _ _ _ _ _ _ (by rw [hel]; unfold nsw; omega)
      (by rw [hst]; omega), hst]
    rw [ev_own w p d l o s e x e0 x0]
  · rw [inE_child_gu w key0 p d l o s e x hwf (by omega), hst]
    unfold waksman.gu
    have hpar := parity_bit w (.node p d l o s e x) hbij hval hodd
    simp only [perm_node.size, perm_node.exit] at hpar ⊢
    have e1 : w.ev (.node p d l o s e0 x0) (s - 1) = w.ev (.node p d l o s e x) (s - 1) :=
      ev_own w p d l o s e0 x0 e x _
    rw [inE_own w key0 p d l o s e0 x0 e x]
    simp only [e1, hpar]

/-- On the last input wire of a node, `route_wire` returns and leaves the element where the
configuration phase of the subtree expects it; one slot index is written. -/
theorem wire_spec (w : waksman) (henv : w.env) (key0 : Nat → Nat)
    (hk : ∀ i, key0 i &&& INT32_MAX = key0 i) (H : Nat) (hH : H ≤ 31) :
    ∀ (h : Nat) (C : perm_node), w.node_ok H C h → ∀ (fuel : Nat), h < fuel →
      ∀ (c : cloud), w.live c → ∀ (el : element) (sz pv idx dst : Nat),
      el = w.inE key0 C (C.size - 1) → sz = C.size → pv = w.ev C (C.size - 1) →
      idx = C.offset + C.size - 1 → dst = w.arr C.depth →
      ret (w.route_wire fuel el sz pv idx dst c)
        (fun c1 =>
          c.chg c1 (fun U j => (U = w.temp1 ∨ U = w.temp2) ∧ j = C.offset + C.size - 1) ∧
          w.fwdP key0 c1 h C) := by
  have hput : ∀ (C : perm_node) (c : cloud), w.live c → 1 ≤ C.size →
      ret (c.put (w.arr C.depth) (C.offset + C.size - 1) (w.inE key0 C (C.size - 1)))
        (fun c1 =>
          c.chg c1 (fun U j => (U = w.temp1 ∨ U = w.temp2) ∧ j = C.offset + C.size - 1) ∧
          w.inp key0 C (C.size - 1) c1) := by
    intro C c hl hpos
    refine ret_mono _ _ _ (put_ret c _ _ _ (live_arr w c hl _)) ?_
    rintro c1 ⟨h1, h2⟩
    refine ⟨chg_mono _ _ _ _ h1 ?_, ?_⟩
    · rintro U j ⟨rfl, rfl⟩
      exact ⟨arr_cases w _, rfl⟩
    · have hs : C.offset + (C.size - 1) = C.offset + C.size - 1 := by omega
      exact ⟨_, by rw [hs]; exact h2, mask_inE w key0 hk _ _⟩
  intro h
  induction h with
  | zero =>
    intro C hC fuel hf c hl el sz pv idx dst hel hsz hpv hidx hdst
    obtain ⟨f, rfl⟩ : ∃ f, fuel = f + 1 := ⟨fuel - 1, by omega⟩
    have hu := hC.uni
    have hle := henv.leaf_le
    rw [waksman.route_wire, if_pos (by rw [hsz]; unfold uni at hu; omega)]
    subst hel hidx hdst
    refine ret_mono _ _ _ (hput C c hl (by unfold uni at hu; omega)) ?_
    rintro c1 ⟨h1, h2⟩
    exact ⟨h1, h2⟩
  | succ h ih =>
    intro C hC fuel hf c hl el sz pv idx dst hel hsz hpv hidx hdst
    obtain ⟨f, rfl⟩ : ∃ f, fuel = f + 1 := ⟨fuel - 1, by omega⟩
    have hu := hC.uni.1
    have hge := henv.leaf_ge
    rw [waksman.route_wire]
    by_cases hev : C.size % 2 = 0
    · rw [if_pos (by rw [hsz]; exact Or.inl hev)]
      subst hel hidx hdst
      refine ret_mono _ _ _ (hput C c hl (by omega)) ?_
      rintro c1 ⟨h1, h2⟩
      refine ⟨h1, ?_⟩
      unfold waksman.fwdP
      rw [if_pos hev]
      exact h2
    · rw [if_neg (by rw [hsz]; omega)]
      obtain ⟨r1, r2, r3, r4, r5⟩ := rch_last w henv key0 H hH h C hC (by omega)
      have hR := (children_ok w henv H C h hC).2
      have := ih (w.rch C) hR f (by omega) c hl
        { el with aux := (el.aux * 2 % W32) ||| (if pv % 2 = 1 then PERSIST else SWAP).toNat }
        ((sz + 1) / 2) (pv / 2) idx (w.flip dst)
        (by rw [r5, hel, hpv]; rfl) (by rw [r1, hsz]) (by rw [r4, hpv]) (by rw [r2, hidx])
        (by rw [r3, hdst, flip_arr w henv])
      refine ret_mono _ _ _ this ?_
      rintro c1 ⟨h1, h2⟩
      rw [r2] at h1
      refine ⟨h1, ?_⟩
      unfold waksman.fwdP
      rw [if_neg hev]
      exact h2

theorem mask_gu (w : waksman) (key0 : Nat → Nat)
    (hk : ∀ i, key0 i &&& INT32_MAX = key0 i) (P : perm_node) (x : Nat) :
    mask_key (w.gu key0 P x) = w.gu key0 P x :=
  mask_of_key _ (hk _)

theorem fwdP_of_inp (w : waksman) (key0 : Nat → Nat) (c : cloud) (h : Nat) (C : perm_node)
    (hc : h = 0 ∨ C.size % 2 = 0) (hi : w.inp key0 C (C.size - 1) c) : w.fwdP key0 c h C := by
  cases h with
  | zero => exact hi
  | succ h =>
    unfold waksman.fwdP
    rw [if_pos (by omega)]
    exact hi

/-- Where the last input wire of a node was left is not disturbed by writes to other slot
indices. -/
theorem fwdP_chg (w : waksman) (henv : w.env) (key0 : Nat → Nat) (H : Nat) (hH : H ≤ 31)
    (c c1 : cloud) (W : Nat → Nat → Prop) (hc : c.chg c1 W) :
    ∀ (h : Nat) (C : perm_node), w.node_ok H C h →
      (∀ U, (U = w.temp1 ∨ U = w.temp2) → ¬ W U (C.offset + C.size - 1)) →
      w.fwdP key0 c h C → w.fwdP key0 c1 h C := by
  have hin : ∀ (h : Nat) (C : perm_node), w.node_ok H C h →
      (∀ U, (U = w.temp1 ∨ U = w.temp2) → ¬ W U (C.offset + C.size - 1)) →
      w.inp key0 C (C.size - 1) c → w.inp key0 C (C.size - 1) c1 := by
    intro h C hC hW hi
    have h2 := uni_ge_two _ _ _ hC.uni henv.leaf_ge
    refine inp_chg w key0 C _ c c1 W hc ?_ hi
    have e1 : C.offset + (C.size - 1) = C.offset + C.size - 1 := by omega
    rw [e1]
    exact hW _ (arr_cases w _)
  intro h
  induction h with
  | zero =>
    intro C hC hW hf
    exact hin 0 C hC hW hf
  | succ h ih =>
    intro C hC hW hf
    unfold waksman.fwdP at hf ⊢
    by_cases hev : C.size % 2 = 0
    · rw [if_pos hev] at hf ⊢
      exact hin (h + 1) C hC hW hf
    · rw [if_neg hev] at hf ⊢
      obtain ⟨_, r2, _, _, _⟩ := rch_last w henv key0 H hH h C hC (by omega)
      refine ih (w.rch C) (children_ok w henv H C h hC).2 ?_ hf
      rw [r2]
      exact hW

/-- One switch of the entry stage: `route_switch_cp` returns, input wire `i` of each child
is then stored in its place, and only these two slots are written. -/
theorem switch_step (w : waksman) (henv : w.env) (key0 : Nat → Nat)
    (hk : ∀ i, key0 i &&& INT32_MAX = key0 i) (p : perm_node) (d : Nat) (l : Bool)
    (o s : Nat) (e x : List Bool) (hwf : w.wf (.node p d l o s e x))
    (hv : w.valid (.node p d l o s e x)) (hd : d ≤ 30) (hfit : o + s ≤ w.length)
    (i idx : Nat) (hidx : idx = i) (hi : 2 * i + 1 < s) (c : cloud) (hl : w.live c)
    (h0 : w.inp key0 (.node p d l o s e x) (2 * i) c)
    (h1 : w.inp key0 (.node p d l o s e x) (2 * i + 1) c) :
    ret (w.route_switch_cp (.node p d l o s e x) (w.arr d) (w.arr (d + 1)) idx c)
      (fun c1 =>
        c.chg c1 (fun U j => U = w.arr (d + 1) ∧ (j = o + i ∨ j = o + s / 2 + i)) ∧
        w.inp key0 (.node (.node p d l o s e x) (d + 1) true o (s / 2) [] []) i c1 ∧
        w.inp key0 (.node (.node p d l o s e x) (d + 1) false ((o + s / 2) % W32)
          (s / 2 + s % 2) [] []) i c1) := by
  subst hidx
  have hb := bij_of_wf w henv.pi_ok _ hwf
  have hlt := henv.len_lt
  have hW : W32 = 4294967296 := by decide
  have hel : e.length = nsw s := hv.1
  unfold waksman.route_switch_cp
  refine ret_bind _ _ _ _ (gue_ret w key0 _ hb hv (2 * idx) (2 * idx % W32)
    (by simp only [perm_node.size]; omega) (by simp only [perm_node.offset]; rw [hW]; omega)
    (by rw [hW]; omega) c h0) ?_
  rintro ⟨u0, c1⟩ ⟨g1, g2⟩
  simp only at g1 g2 ⊢
  refine ret_bind _ _ _ _ (gue_ret w key0 _ hb hv (2 * idx + 1) ((2 * idx + 1) % W32)
    (by simp only [perm_node.size]; omega) (by simp only [perm_node.offset]; rw [hW]; omega)
    (by rw [hW]; omega) c1 (inp_chg w key0 _ _ c c1 _ g2 (fun h => h) h1)) ?_
  rintro ⟨u1, c2⟩ ⟨g3, g4⟩
  simp only at g3 g4 ⊢
  simp only [perm_node.entry, perm_node.offset, perm_node.size]
  rw [bv_at_getD _ _ (by rw [hel]; unfold nsw; omega), ok_bind]
  have hl2 : w.live c2 := live_chg w _ _ _ g4 (live_chg w _ _ _ g2 hl)
  have hB := live_arr w c2 hl2 (d + 1)
  have e1 : (o + idx) % W32 = o + idx := by rw [hW]; omega
  have e2 : (o + s / 2 + idx) % W32 = o + s / 2 + idx := by rw [hW]; omega
  have e3 : (o + s / 2) % W32 = o + s / 2 := by rw [hW]; omega
  rw [e1, e2, e3]
  have hfin : ∀ (a b : element), a = w.inE key0
        (.node (.node p d l o s e x) (d + 1) true o (s / 2) [] []) idx →
      b = w.inE key0 (.node (.node p d l o s e x) (d + 1) false (o + s / 2)
        (s / 2 + s % 2) [] []) idx →
      ret (c2.put (w.arr (d + 1)) (o + idx) a >>= fun c3 =>
          c3.put (w.arr (d + 1)) (o + s / 2 + idx) b)
        (fun c1 =>
          c.chg c1 (fun U j => U = w.arr (d + 1) ∧ (j = o + idx ∨ j = o + s / 2 + idx)) ∧
          w.inp key0 (.node (.node p d l o s e x) (d + 1) true o (s / 2) [] []) idx c1 ∧
          w.inp key0 (.node (.node p d l o s e x) (d + 1) false (o + s / 2)
            (s / 2 + s % 2) [] []) idx c1) := by
    intro a b ha hb2
    refine ret_bind _ _ _ _ (put_ret c2 _ _ a hB) ?_
    rintro c3 ⟨k1, k2⟩
    refine ret_mono _ _ _ (put_ret c3 _ _ b ((k1.has _).2 hB)) ?_
    rintro c4 ⟨k3, k4⟩
    refine ⟨?_, ?_, ?_⟩
    · refine chg_trans _ _ _ _ _ _ (chg_trans _ _ _ _ _ _ g2 g4 (fun _ _ h => h)
        (fun _ _ h => h)) (chg_trans _ _ _ _ _ _ k1 k3 (fun _ _ h => ⟨h.1, Or.inl h.2⟩)
        (fun _ _ h => ⟨h.1, Or.inr h.2⟩)) (fun _ _ h => h.elim) (fun _ _ h => h)
    · refine ⟨a, ?_, by rw [ha]; exact mask_inE w key0 hk _ _⟩
      simp only [perm_node.depth, perm_node.offset]
      rw [k3.peek _ _ (by rintro ⟨-, h⟩; omega)]
      exact k2
    · refine ⟨b, ?_, by rw [hb2]; exact mask_inE w key0 hk _ _⟩
      simp only [perm_node.depth, perm_node.offset]
      exact k4
  by_cases hp : e.getD idx false = PERSIST
  · rw [if_pos hp]
    have hp : e.getD idx false = true := hp
    refine hfin u0 u1 ?_ ?_
    · rw [g1, inE_child_gu w key0 p d l o s e x hwf (by omega)]
      unfold stage_wire
      rw [hp, if_pos rfl]
    · rw [g3, inE_child_gu w key0 p d l o s e x hwf (by omega)]
      unfold stage_wire
      rw [hp, if_neg (by decide)]
  · rw [if_neg hp]
    have hp2 : e.getD idx false = false := by
      cases h : e.getD idx false
      · rfl
      · exact absurd h hp
    refine hfin u1 u0 ?_ ?_
    · rw [g3, inE_child_gu w key0 p d l o s e x hwf (by omega)]
      unfold stage_wire
      rw [hp2, if_neg (by decide)]
    · rw [g1, inE_child_gu w key0 p d l o s e x hwf (by omega)]
      unfold stage_wire
      rw [hp2, if_pos rfl]

/-! ### Waksman permutation: the entry stage of one node -/

theorem lch_eq (w : waksman) (henv : w.env) (H : Nat) (N : perm_node) (h : Nat)
    (hN : w.node_ok H N (h + 1)) : w.lch N = lc (w.sw N) ∧ w.rch N = rc (w.sw N) := by
  obtain ⟨p, d, l, o, s, e0, x0, rfl⟩ := wf_node w N hN.wf
  obtain ⟨e, x, _, hsw, _⟩ := sw_spec w henv H p d l o s e0 x0 h hN
  unfold waksman.lch waksman.rch lc rc
  rw [hsw]
  exact ⟨rfl, rfl⟩

theorem done_zero (w : waksman) (key0 : Nat → Nat) (P : perm_node) (c : cloud) :
    w.done key0 P c c 0 :=
  ⟨chg_refl c _, fun i hi => absurd hi (Nat.not_lt_zero i)⟩

/-- One more switch of the entry stage. -/
theorem done_step (w : waksman) (henv : w.env) (key0 : Nat → Nat)
    (hk : ∀ i, key0 i &&& INT32_MAX = key0 i) (p : perm_node) (d : Nat) (l : Bool)
    (o s : Nat) (e x : List Bool) (hwf : w.wf (.node p d l o s e x))
    (hv : w.valid (.node p d l o s e x)) (hd : d ≤ 30) (hfit : o + s ≤ w.length)
    (c : cloud) (hl : w.live c)
    (hin : ∀ j, j + 1 < s → w.inp key0 (.node p d l o s e x) j c)
    (k idx : Nat) (hidx : idx = k) (hk2 : 2 * k + 2 < s ∨ (2 * k + 2 = s))
    (c1 : cloud) (hdone : w.done key0 (.node p d l o s e x) c c1 k)
    (hlast : w.inp key0 (.node p d l o s e x) (2 * k + 1) c) :
    ret (w.route_switch_cp (.node p d l o s e x) (w.arr d) (w.arr (d + 1)) idx c1)
      (fun c2 => w.done key0 (.node p d l o s e x) c c2 (k + 1)) := by
  obtain ⟨h1, h2⟩ := hdone
  have hne := arr_succ_ne w henv d
  simp only [perm_node.depth, perm_node.offset, perm_node.size] at h1
  have hsrc : ∀ j, j < s → w.inp key0 (.node p d l o s e x) j c →
      w.inp key0 (.node p d l o s e x) j c1 := by
    intro j _ hj
    refine inp_chg w key0 _ _ c c1 _ h1 ?_ hj
    simp only [perm_node.depth]
    rintro ⟨hh, -⟩
    exact hne hh
  refine ret_mono _ _ _ (switch_step w henv key0 hk p d l o s e x hwf hv hd hfit k idx hidx
    (by omega) c1 (live_chg w _ _ _ h1 hl) (hsrc _ (by omega) (hin _ (by omega)))
    (hsrc _ (by omega) hlast)) ?_
  rintro c2 ⟨g1, g2, g3⟩
  have hW : W32 = 4294967296 := by decide
  have hlt := henv.len_lt
  refine ⟨?_, ?_⟩
  · simp only [perm_node.depth, perm_node.offset, perm_node.size]
    refine chg_trans _ _ _ _ _ _ h1 g1 ?_ ?_
    · rintro U j ⟨hU, hj⟩
      exact ⟨hU, by omega⟩
    · rintro U j ⟨hU, hj⟩
      exact ⟨hU, by omega⟩
  · intro i hi
    by_cases hik : i = k
    · subst hik
      exact ⟨g2, g3⟩
    · obtain ⟨a1, a2⟩ := h2 i (by omega)
      refine ⟨inp_chg w key0 _ _ c1 c2 _ g1 ?_ a1, inp_chg w key0 _ _ c1 c2 _ g1 ?_ a2⟩
      · simp only [lc, perm_node.depth, perm_node.offset, perm_node.size]
        rintro ⟨-, hj⟩
        omega
      · simp only [rc, perm_node.depth, perm_node.offset, perm_node.size]
        rw [hW]
        rintro ⟨-, hj⟩
        omega

/-- The element read from the parent is sent along `route_wire` to the last input wire of
a child. -/
theorem wire_child (w : waksman) (henv : w.env) (key0 : Nat → Nat)
    (hk : ∀ i, key0 i &&& INT32_MAX = key0 i) (H : Nat) (hH : H ≤ 31) (h : Nat)
    (p : perm_node) (d : Nat) (l : Bool) (o s : Nat) (e x : List Bool)
    (hwf : w.wf (.node p d l o s e x)) (hv : w.valid (.node p d l o s e x))
    (left : Bool) (oC sC : Nat)
    (hC : w.node_ok H (.node (.node p d l o s e x) (d + 1) left oC sC [] []) h)
    (hsC : sC = if left then s / 2 else s / 2 + s % 2) (hpos : 1 ≤ sC)
    (c : cloud) (hl : w.live c) (el : element) (xin sz pv idx : Nat)
    (hxin : xin = stage_wire e left (sC - 1)) (hlt : xin < s)
    (hel : el = w.gu key0 (.node p d l o s e x) xin) (hsz : sz = sC)
    (hpv : pv = w.ev (.node p d l o s e x) xin / 2) (hidx : idx = oC + sC - 1) :
    ret (w.route_wire 33 el sz pv idx (w.arr (d + 1)) c)
      (fun c1 =>
        c.chg c1 (fun U j => (U = w.temp1 ∨ U = w.temp2) ∧ j = oC + sC - 1) ∧
        w.fwdP key0 c1 h (.node (.node p d l o s e x) (d + 1) left oC sC [] [])) := by
  have hb := bij_of_wf w henv.pi_ok _ hwf
  have hdep := hC.dep
  simp only [perm_node.depth] at hdep
  have hlen : e.length = nsw s := hv.1
  have h1 : sC - 1 < e.length := by
    rw [hlen, hsC]
    unfold nsw
    cases left
    · simp only [Bool.false_eq_true, if_false]; omega
    · simp only [if_true]; omega
  refine wire_spec w henv key0 hk H hH h _ hC 33 (by omega) c hl el sz pv idx _ ?_ hsz ?_ hidx rfl
  · simp only [perm_node.size]
    rw [inE_child_gu w key0 p d l o s e x hwf (by omega), hel, hxin]
  · simp only [perm_node.size]
    rw [ev_child w p d l o s e x hb _ _ _ _ _ _ _ h1 (by rw [← hxin]; exact hlt), hpv, hxin]

/-- The inputs of a node of even size are all stored in their places. -/
theorem pre_even_all (w : waksman) (key0 : Nat → Nat) (c : cloud) (h : Nat) (p : perm_node)
    (d : Nat) (l : Bool) (o s : Nat) (e0 x0 e x : List Bool)
    (hpre : w.pre key0 c (h + 1) (.node p d l o s e0 x0)) (hev : s % 2 = 0) (hs : 1 ≤ s) :
    ∀ j, j < s → w.inp key0 (.node p d l o s e x) j c := by
  obtain ⟨hin0, hlast0⟩ := hpre
  simp only [perm_node.size, perm_node.parent] at hin0 hlast0
  intro j hj
  refine (inp_own w key0 p d l o s e0 x0 e x _ c).1 ?_
  by_cases hj2 : j + 1 < s
  · exact hin0 j hj2
  · have : j = s - 1 := by omega
    rw [this]
    by_cases hp : p.is_null = true
    · rw [if_pos hp] at hlast0
      exact hlast0
    · rw [if_neg hp] at hlast0
      unfold waksman.fwdP at hlast0
      simp only [perm_node.size] at hlast0
      rw [if_pos hev] at hlast0
      exact hlast0

/-- Even node with even children: the last switch is routed like the others. -/
theorem cp_ee (w : waksman) (henv : w.env) (key0 : Nat → Nat)
    (hk : ∀ i, key0 i &&& INT32_MAX = key0 i) (h : Nat) (p : perm_node) (d : Nat) (l : Bool)
    (o s : Nat) (e x : List Bool) (hwf : w.wf (.node p d l o s e x))
    (hv : w.valid (.node p d l o s e x)) (hd : d ≤ 30) (hfit : o + s ≤ w.length)
    (hs : 4 ≤ s) (hev : s % 2 = 0) (hch : ¬ s / 2 % 2 = 1) (c : cloud) (hl : w.live c)
    (hin : ∀ j, j < s → w.inp key0 (.node p d l o s e x) j c)
    (c2 : cloud) (hd2 : w.done key0 (.node p d l o s e x) c c2 ((s + 1) / 2 - 1)) :
    ret (w.route_switch_cp (.node p d l o s e x) (w.arr d) (w.arr (d + 1))
        (((s + 1) / 2 + W32 - 1) % W32) c2)
      (fun c3 => w.cp_post key0 h (.node p d l o s e x) c c3) := by
  have hW : W32 = 4294967296 := by decide
  have hlt := henv.len_lt
  have hB12 := arr_cases w (d + 1)
  have := done_step w henv key0 hk p d l o s e x hwf hv hd hfit c hl (fun j hj => hin j (by omega))
    ((s + 1) / 2 - 1) (((s + 1) / 2 + W32 - 1) % W32) (by rw [hW]; omega) (by omega) c2 hd2
    (hin _ (by omega))
  refine ret_mono _ _ _ this ?_
  rintro c3 ⟨g1, g2⟩
  simp only [perm_node.size, perm_node.offset, perm_node.depth] at g1
  refine ⟨chg_mono _ _ _ _ g1 ?_, ⟨?_, ?_⟩, ⟨?_, ?_⟩⟩
  · simp only [perm_node.size, perm_node.offset]
    rintro U j ⟨rfl, hj⟩
    exact ⟨hB12, by omega, by omega, by omega⟩
  · intro j hj
    simp only [lc, perm_node.size] at hj
    exact (g2 j (by omega)).1
  · simp only [lc, perm_node.parent, perm_node.is_null]
    refine fwdP_of_inp w key0 c3 h _ (Or.inr ?_) ?_
    · simp only [perm_node.size]; omega
    · simp only [perm_node.size]
      exact (g2 _ (by omega)).1
  · intro j hj
    simp only [rc, perm_node.size] at hj
    exact (g2 j (by omega)).2
  · simp only [rc, perm_node.parent, perm_node.is_null]
    refine fwdP_of_inp w key0 c3 h _ (Or.inr ?_) ?_
    · simp only [perm_node.size]; omega
    · simp only [perm_node.size]
      have := (g2 (s / 2 - 1) (by omega)).2
      have e1 : s / 2 + s % 2 - 1 = s / 2 - 1 := by omega
      rw [e1]
      exact this

/-- The result of the entry stage, put together from the first `k` switches and the
deliveries that followed them. -/
theorem cp_post_intro (w : waksman) (henv : w.env) (key0 : Nat → Nat) (h : Nat)
    (p : perm_node) (d : Nat) (l : Bool) (o s : Nat) (e x : List Bool)
    (hfit : o + s ≤ w.length) (c c2 c3 : cloud) (k : Nat) (hk : k ≤ s / 2)
    (hd : w.done key0 (.node p d l o s e x) c c2 k) (W : Nat → Nat → Prop)
    (hc : c2.chg c3 W)
    (hW : ∀ U j, W U j → (U = w.temp1 ∨ U = w.temp2) ∧
      (o + k ≤ j ∧ j < o + s / 2 ∨ o + s / 2 + k ≤ j ∧ j < o + s) ∧
      (p.is_null = false → s % 2 = 1 → j ≠ o + s - 1))
    (hLr : ∀ j, k ≤ j → j + 1 < s / 2 → w.inp key0 (lc (.node p d l o s e x)) j c3)
    (hLf : w.fwdP key0 c3 h (lc (.node p d l o s e x)))
    (hRr : ∀ j, k ≤ j → j + 1 < s / 2 + s % 2 → w.inp key0 (rc (.node p d l o s e x)) j c3)
    (hRf : w.fwdP key0 c3 h (rc (.node p d l o s e x))) :
    w.cp_post key0 h (.node p d l o s e x) c c3 := by
  have hW32 : W32 = 4294967296 := by decide
  have hlt := henv.len_lt
  have hB12 := arr_cases w (d + 1)
  obtain ⟨g1, g2⟩ := hd
  simp only [perm_node.size, perm_node.offset, perm_node.depth] at g1
  refine ⟨chg_trans _ _ _ _ _ _ g1 hc ?_ ?_, ⟨?_, ?_⟩, ⟨?_, ?_⟩⟩
  · simp only [perm_node.size, perm_node.offset, perm_node.parent]
    rintro U j ⟨rfl, hj⟩
    exact ⟨hB12, by omega, by omega, by omega⟩
  · simp only [perm_node.size, perm_node.offset, perm_node.parent]
    intro U j hj
    obtain ⟨a1, a2, a3⟩ := hW U j hj
    exact ⟨a1, by omega, by omega, a3⟩
  · intro j hj
    simp only [lc, perm_node.size] at hj
    by_cases hjk : j < k
    · refine inp_chg w key0 _ _ c2 c3 W hc ?_ (g2 j hjk).1
      simp only [lc, perm_node.depth, perm_node.offset]
      intro hj2
      obtain ⟨-, a2, -⟩ := hW _ _ hj2
      omega
    · exact hLr j (by omega) hj
  · simp only [lc, perm_node.parent, perm_node.is_null]
    exact hLf
  · intro j hj
    simp only [rc, perm_node.size] at hj
    by_cases hjk : j < k
    · refine inp_chg w key0 _ _ c2 c3 W hc ?_ (g2 j hjk).2
      simp only [rc, perm_node.depth, perm_node.offset, perm_node.size]
      rw [hW32]
      intro hj2
      obtain ⟨-, a2, -⟩ := hW _ _ hj2
      omega
    · exact hRr j (by omega) hj
  · simp only [rc, perm_node.parent, perm_node.is_null]
    exact hRf

/-- Even node with odd children: the two wires of the last switch are sent along
`route_wire`. -/
theorem cp_eo (w : waksman) (henv : w.env) (key0 : Nat → Nat)
    (hk : ∀ i, key0 i &&& INT32_MAX = key0 i) (H : Nat) (hH : H ≤ 31) (h : Nat)
    (p : perm_node) (d : Nat) (l : Bool)
    (o s : Nat) (e x : List Bool) (hwf : w.wf (.node p d l o s e x))
    (hv : w.valid (.node p d l o s e x)) (hfit : o + s ≤ w.length)
    (hL : w.node_ok H (lc (.node p d l o s e x)) h)
    (hR : w.node_ok H (rc (.node p d l o s e x)) h)
    (hs : 4 ≤ s) (hev : s % 2 = 0) (c : cloud) (hl : w.live c)
    (hin : ∀ j, j < s → w.inp key0 (.node p d l o s e x) j c)
    (c2 : cloud) (hd2 : w.done key0 (.node p d l o s e x) c c2 ((s + 1) / 2 - 1)) :
    ret ((w.get_update_elem (.node p d l o s e x) (w.arr d) ((s + W32 - 2) % W32) c2) >>=
        fun r1 =>
      (w.get_update_elem (.node p d l o s e x) (w.arr d) ((s + W32 - 1) % W32) r1.2) >>=
        fun r2 =>
      (w.eval_pi (.node p d l o s e x) ((s + W32 - 2) % W32)) >>= fun v1 =>
      (w.eval_pi (.node p d l o s e x) ((s + W32 - 1) % W32)) >>= fun v2 =>
      (bv_at e (((s + 1) / 2 + W32 - 1) % W32)) >>= fun b =>
      if b = PERSIST then
        (w.route_wire 33 r1.1 (s / 2) (v1 / 2) ((o + (s + 1) / 2 + W32 - 1) % W32)
          (w.arr (d + 1)) r2.2) >>= fun c3 =>
        w.route_wire 33 r2.1 (s / 2) (v2 / 2) ((o + s + W32 - 1) % W32) (w.arr (d + 1)) c3
      else
        (w.route_wire 33 r2.1 (s / 2) (v2 / 2) ((o + (s + 1) / 2 + W32 - 1) % W32)
          (w.arr (d + 1)) r2.2) >>= fun c3 =>
        w.route_wire 33 r1.1 (s / 2) (v1 / 2) ((o + s + W32 - 1) % W32) (w.arr (d + 1)) c3)
      (fun c3 => w.cp_post key0 h (.node p d l o s e x) c c3) := by
  have hW : W32 = 4294967296 := by decide
  have hlt := henv.len_lt
  have hb := bij_of_wf w henv.pi_ok _ hwf
  have hBA := arr_succ_ne w henv d
  have hlen : e.length = nsw s := hv.1
  have ei1 : (s + W32 - 1) % W32 = s - 1 := by rw [hW]; omega
  have ei2 : (s + W32 - 2) % W32 = s - 2 := by rw [hW]; omega
  have eb1 : ((s + 1) / 2 + W32 - 1) % W32 = (s + 1) / 2 - 1 := by rw [hW]; omega
  have eo1 : (o + (s + 1) / 2 + W32 - 1) % W32 = o + s / 2 - 1 := by rw [hW]; omega
  have eo3 : (o + s + W32 - 1) % W32 = o + s - 1 := by rw [hW]; omega
  have eor : (o + s / 2) % W32 = o + s / 2 := by rw [hW]; omega
  rw [ei1, ei2, eb1, eo1, eo3]
  have hsrc : ∀ j, j < s → w.inp key0 (.node p d l o s e x) j c2 := by
    intro j hj
    refine inp_chg w key0 _ _ c c2 _ hd2.1 ?_ (hin j hj)
    simp only [perm_node.depth]
    rintro ⟨hh, -⟩
    exact hBA hh
  refine ret_bind _ _ _ _ (gue_ret w key0 _ hb hv (s - 2) (s - 2)
    (by simp only [perm_node.size]; omega) (by simp only [perm_node.offset]; rw [hW]; omega)
    rfl c2 (hsrc _ (by omega))) ?_
  rintro ⟨u1, c3⟩ ⟨g1, g2⟩
  simp only at g1 g2 ⊢
  refine ret_bind _ _ _ _ (gue_ret w key0 _ hb hv (s - 1) (s - 1)
    (by simp only [perm_node.size]; omega) (by simp only [perm_node.offset]; rw [hW]; omega)
    rfl c3 (inp_chg w key0 _ _ c2 c3 _ g2 (fun h => h) (hsrc _ (by omega)))) ?_
  rintro ⟨u2, c4⟩ ⟨g3, g4⟩
  simp only at g3 g4 ⊢
  rw [(ev_spec w _ hb (s - 2) (by simp only [perm_node.size]; omega)).1, ok_bind,
    (ev_spec w _ hb (s - 1) (by simp only [perm_node.size]; omega)).1, ok_bind,
    bv_at_getD _ _ (by rw [hlen]; unfold nsw; omega), ok_bind]
  have hl4 : w.live c4 :=
    live_chg w _ _ _ g4 (live_chg w _ _ _ g2 (live_chg w _ _ _ hd2.1 hl))
  have hfin : ∀ c5 c6 : cloud,
      c4.chg c5 (fun U j => (U = w.temp1 ∨ U = w.temp2) ∧ j = o + s / 2 - 1) →
      w.fwdP key0 c5 h (lc (.node p d l o s e x)) →
      c5.chg c6 (fun U j => (U = w.temp1 ∨ U = w.temp2) ∧
        j = (o + s / 2) % W32 + (s / 2 + s % 2) - 1) →
      w.fwdP key0 c6 h (rc (.node p d l o s e x)) →
      w.cp_post key0 h (.node p d l o s e x) c c6 := by
    intro c5 c6 k1 k2 k3 k4
    refine cp_post_intro w henv key0 h p d l o s e x hfit c c2 c6 ((s + 1) / 2 - 1) (by omega)
      hd2 (fun U j => (U = w.temp1 ∨ U = w.temp2) ∧ (j = o + s / 2 - 1 ∨ j = o + s - 1))
      ?_ ?_ ?_ ?_ ?_ k4
    · refine chg_trans _ _ _ _ _ _ (chg_trans _ _ _ _ _ _ g2 g4 (fun _ _ h => h)
        (fun _ _ h => h)) (chg_trans _ _ _ _ _ _ k1 k3 (fun _ _ h => ⟨h.1, Or.inl h.2⟩)
        (fun _ _ h => ⟨h.1, Or.inr (by rw [h.2, eor]; omega)⟩)) (fun _ _ h => h.elim)
        (fun _ _ h => h)
    · rintro U j ⟨a1, a2⟩
      exact ⟨a1, by omega, by omega⟩
    · intro j h1 h2
      omega
    · refine fwdP_chg w henv key0 H hH c5 c6 _ k3 h _ hL ?_ k2
      intro U _
      simp only [lc, perm_node.offset, perm_node.size]
      rw [eor]
      rintro ⟨-, hj⟩
      omega
    · intro j h1 h2
      omega
  have hwl : ∀ (c' : cloud) (u : element) (xin : Nat), w.live c' →
      xin = stage_wire e true (s / 2 - 1) → xin < s → u = w.gu key0 (.node p d l o s e x) xin →
      ret (w.route_wire 33 u (s / 2) (w.ev (.node p d l o s e x) xin / 2) (o + s / 2 - 1)
          (w.arr (d + 1)) c')
        (fun c1 => c'.chg c1 (fun U j => (U = w.temp1 ∨ U = w.temp2) ∧ j = o + s / 2 - 1) ∧
          w.fwdP key0 c1 h (lc (.node p d l o s e x))) := by
    intro c' u xin hl' hx1 hx2 hu
    exact wire_child w henv key0 hk H hH h p d l o s e x hwf hv true o (s / 2) hL rfl
      (by omega) c' hl' u xin (s / 2) _ _ hx1 hx2 hu rfl rfl rfl
  have hwr : ∀ (c' : cloud) (u : element) (xin : Nat), w.live c' →
      xin = stage_wire e false (s / 2 + s % 2 - 1) → xin < s →
      u = w.gu key0 (.node p d l o s e x) xin →
      ret (w.route_wire 33 u (s / 2) (w.ev (.node p d l o s e x) xin / 2) (o + s - 1)
          (w.arr (d + 1)) c')
        (fun c1 => c'.chg c1 (fun U j => (U = w.temp1 ∨ U = w.temp2) ∧
            j = (o + s / 2) % W32 + (s / 2 + s % 2) - 1) ∧
          w.fwdP key0 c1 h (rc (.node p d l o s e x))) := by
    intro c' u xin hl' hx1 hx2 hu
    exact wire_child w henv key0 hk H hH h p d l o s e x hwf hv false ((o + s / 2) % W32)
      (s / 2 + s % 2) hR rfl (by omega) c' hl' u xin (s / 2) _ _ hx1 hx2 hu (by omega) rfl
      (by rw [eor]; omega)
  have hs1 : s / 2 + s % 2 - 1 = (s + 1) / 2 - 1 := by omega
  have hs2 : s / 2 - 1 = (s + 1) / 2 - 1 := by omega
  by_cases hp : e.getD ((s + 1) / 2 - 1) false = PERSIST
  · rw [if_pos hp]
    have hp : e.getD ((s + 1) / 2 - 1) false = true := hp
    refine ret_bind _ _ _ _ (hwl c4 u1 (s - 2) hl4 ?_ (by omega) g1) ?_
    · unfold stage_wire
      rw [hs2, hp, if_pos rfl]
      omega
    rintro c5 ⟨k1, k2⟩
    refine ret_mono _ _ _ (hwr c5 u2 (s - 1) (live_chg w _ _ _ k1 hl4) ?_ (by omega) g3) ?_
    · unfold stage_wire
      rw [hs1, hp, if_neg (by decide)]
      omega
    rintro c6 ⟨k3, k4⟩
    exact hfin c5 c6 k1 k2 k3 k4
  · rw [if_neg hp]
    have hp2 : e.getD ((s + 1) / 2 - 1) false = false := by
      cases hh : e.getD ((s + 1) / 2 - 1) false
      · rfl
      · exact absurd hh hp
    refine ret_bind _ _ _ _ (hwl c4 u2 (s - 1) hl4 ?_ (by omega) g3) ?_
    · unfold stage_wire
      rw [hs2, hp2, if_neg (by decide)]
      omega
    rintro c5 ⟨k1, k2⟩
    refine ret_mono _ _ _ (hwr c5 u1 (s - 2) (live_chg w _ _ _ k1 hl4) ?_ (by omega) g1) ?_
    · unfold stage_wire
      rw [hs1, hp2, if_pos rfl]
      omega
    rintro c6 ⟨k3, k4⟩
    exact hfin c5 c6 k1 k2 k3 k4

theorem cp_mid_intro (w : waksman) (henv : w.env) (key0 : Nat → Nat) (h : Nat)
    (p : perm_node) (d : Nat) (l : Bool) (o s : Nat) (e x : List Bool)
    (hfit : o + s ≤ w.length) (hodd : s % 2 = 1) (c c2 c3 : cloud) (k : Nat) (hk : k ≤ s / 2)
    (hd : w.done key0 (.node p d l o s e x) c c2 k) (W : Nat → Nat → Prop)
    (hc : c2.chg c3 W)
    (hW : ∀ U j, W U j → (U = w.temp1 ∨ U = w.temp2) ∧
      (o + k ≤ j ∧ j < o + s / 2 ∨ o + s / 2 + k ≤ j ∧ j + 1 < o + s))
    (hLr : ∀ j, k ≤ j → j + 1 < s / 2 → w.inp key0 (lc (.node p d l o s e x)) j c3)
    (hLf : w.fwdP key0 c3 h (lc (.node p d l o s e x)))
    (hRr : ∀ j, k ≤ j → j + 1 < s / 2 + s % 2 → w.inp key0 (rc (.node p d l o s e x)) j c3) :
    w.cp_mid key0 h (.node p d l o s e x) c c3 := by
  have hW32 : W32 = 4294967296 := by decide
  have hlt := henv.len_lt
  have hB12 := arr_cases w (d + 1)
  obtain ⟨g1, g2⟩ := hd
  simp only [perm_node.size, perm_node.offset, perm_node.depth] at g1
  refine ⟨chg_trans _ _ _ _ _ _ g1 hc ?_ ?_, ?_, hLf, ?_⟩
  · simp only [perm_node.size, perm_node.offset]
    rintro U j ⟨rfl, hj⟩
    exact ⟨hB12, by omega, by omega⟩
  · simp only [perm_node.size, perm_node.offset]
    intro U j hj
    obtain ⟨a1, a2⟩ := hW U j hj
    exact ⟨a1, by omega, by omega⟩
  · intro j hj
    simp only [perm_node.size] at hj
    by_cases hjk : j < k
    · refine inp_chg w key0 _ _ c2 c3 W hc ?_ (g2 j hjk).1
      simp only [lc, perm_node.depth, perm_node.offset]
      intro hj2
      obtain ⟨-, a2⟩ := hW _ _ hj2
      omega
    · exact hLr j (by omega) hj
  · intro j hj
    simp only [perm_node.size] at hj
    by_cases hjk : j < k
    · refine inp_chg w key0 _ _ c2 c3 W hc ?_ (g2 j hjk).2
      simp only [rc, perm_node.depth, perm_node.offset, perm_node.size]
      rw [hW32]
      intro hj2
      obtain ⟨-, a2⟩ := hW _ _ hj2
      omega
    · exact hRr j (by omega) hj

/-- The last input wire of a node of odd size: at the root it is read and sent along
`route_wire`; elsewhere it was sent before. -/
theorem cp_last (w : waksman) (henv : w.env) (key0 : Nat → Nat)
    (hk : ∀ i, key0 i &&& INT32_MAX = key0 i) (H : Nat) (hH : H ≤ 31) (h : Nat)
    (p : perm_node) (d : Nat) (l : Bool)
    (o s : Nat) (e x : List Bool) (hwf : w.wf (.node p d l o s e x))
    (hv : w.valid (.node p d l o s e x)) (hfit : o + s ≤ w.length)
    (hL : w.node_ok H (lc (.node p d l o s e x)) h)
    (hR : w.node_ok H (rc (.node p d l o s e x)) h)
    (hs : 4 ≤ s) (hodd : s % 2 = 1) (c : cloud) (hl : w.live c)
    (hlast : if p.is_null = true then w.inp key0 (.node p d l o s e x) (s - 1) c
      else w.fwdP key0 c h (rc (.node p d l o s e x)))
    (cm : cloud) (hm : w.cp_mid key0 h (.node p d l o s e x) c cm) :
    ret (if p.is_null = true then
        (w.get_update_elem (.node p d l o s e x) (w.arr d) ((s + W32 - 1) % W32) cm) >>=
          fun r =>
        (w.eval_pi (.node p d l o s e x) ((s + W32 - 1) % W32)) >>= fun v1 =>
        w.route_wire 33 r.1 ((s + 1) / 2) (v1 / 2) ((o + s + W32 - 1) % W32) (w.arr (d + 1))
          r.2
      else pure cm)
      (fun c3 => w.cp_post key0 h (.node p d l o s e x) c c3) := by
  have hW : W32 = 4294967296 := by decide
  have hlt := henv.len_lt
  have hb := bij_of_wf w henv.pi_ok _ hwf
  have hlen : e.length = nsw s := hv.1
  have ei1 : (s + W32 - 1) % W32 = s - 1 := by rw [hW]; omega
  have eo3 : (o + s + W32 - 1) % W32 = o + s - 1 := by rw [hW]; omega
  have eor : (o + s / 2) % W32 = o + s / 2 := by rw [hW]; omega
  obtain ⟨m1, m2, m3, m4⟩ := hm
  simp only [perm_node.size, perm_node.offset] at m1 m2 m4
  have hA12 := arr_cases w d
  by_cases hp : p.is_null = true
  · rw [if_pos hp] at hlast ⊢
    rw [ei1, eo3]
    have hi : w.inp key0 (.node p d l o s e x) (s - 1) cm := by
      refine inp_chg w key0 _ _ c cm _ m1 ?_ hlast
      simp only [perm_node.depth, perm_node.offset]
      rintro ⟨-, -, hj⟩
      omega
    refine ret_bind _ _ _ _ (gue_ret w key0 _ hb hv (s - 1) (s - 1)
      (by simp only [perm_node.size]; omega) (by simp only [perm_node.offset]; rw [hW]; omega)
      rfl cm hi) ?_
    rintro ⟨u1, c3⟩ ⟨g1, g2⟩
    simp only at g1 g2 ⊢
    rw [(ev_spec w _ hb (s - 1) (by simp only [perm_node.size]; omega)).1, ok_bind]
    have hl3 : w.live c3 := live_chg w _ _ _ g2 (live_chg w _ _ _ m1 hl)
    have hent : e.getD (s / 2 + s % 2 - 1) false = false := by
      have := (hv.2.2.1 hodd).1
      simp only [perm_node.entry, perm_node.size, nsw] at this
      have e1 : s / 2 + s % 2 - 1 = (s + 1) / 2 - 1 := by omega
      rw [e1]
      exact this
    have := wire_child w henv key0 hk H hH h p d l o s e x hwf hv false ((o + s / 2) % W32)
      (s / 2 + s % 2) hR rfl (by omega) c3 hl3 u1 (s - 1) ((s + 1) / 2)
      (w.ev (.node p d l o s e x) (s - 1) / 2) (o + s - 1)
      (by unfold stage_wire; rw [hent, if_pos rfl]; omega) (by omega) g1 (by omega) rfl
      (by rw [eor]; omega)
    refine ret_mono _ _ _ this ?_
    rintro c4 ⟨k1, k2⟩
    have k1' : cm.chg c4 (fun U j => (U = w.temp1 ∨ U = w.temp2) ∧ j = o + s - 1) := by
      refine chg_trans _ _ _ _ _ _ g2 k1 (fun _ _ h => h.elim) ?_
      rintro U j ⟨a1, a2⟩
      exact ⟨a1, by rw [a2, eor]; omega⟩
    refine ⟨chg_trans _ _ _ _ _ _ m1 k1' ?_ ?_, ⟨?_, ?_⟩, ⟨?_, ?_⟩⟩
    · simp only [perm_node.size, perm_node.offset, perm_node.parent]
      rintro U j ⟨a1, a2, a3⟩
      exact ⟨a1, a2, by omega, by omega⟩
    · simp only [perm_node.size, perm_node.offset, perm_node.parent]
      rintro U j ⟨a1, a2⟩
      refine ⟨a1, by omega, by omega, ?_⟩
      intro hnn
      rw [hp] at hnn
      exact absurd hnn (by decide)
    · intro j hj
      simp only [lc, perm_node.size] at hj
      refine inp_chg w key0 _ _ cm c4 _ k1' ?_ (m2 j hj)
      simp only [lc, perm_node.depth, perm_node.offset]
      rintro ⟨-, a2⟩
      omega
    · simp only [lc, perm_node.parent, perm_node.is_null]
      refine fwdP_chg w henv key0 H hH cm c4 _ k1' h _ hL ?_ m3
      intro U _
      simp only [lc, perm_node.offset, perm_node.size]
      rintro ⟨-, a2⟩
      omega
    · intro j hj
      simp only [rc, perm_node.size] at hj
      refine inp_chg w key0 _ _ cm c4 _ k1' ?_ (m4 j hj)
      simp only [rc, perm_node.depth, perm_node.offset, perm_node.size]
      rw [eor]
      rintro ⟨-, a2⟩
      omega
    · simp only [rc, perm_node.parent, perm_node.is_null]
      exact k2
  · rw [if_neg hp] at hlast ⊢
    refine ret_pure _ _ ⟨chg_mono _ _ _ _ m1 ?_, ⟨?_, ?_⟩, ⟨?_, ?_⟩⟩
    · simp only [perm_node.size, perm_node.offset, perm_node.parent]
      rintro U j ⟨a1, a2, a3⟩
      exact ⟨a1, a2, by omega, fun _ _ => by omega⟩
    · intro j hj
      simp only [lc, perm_node.size] at hj
      exact m2 j hj
    · simp only [lc, perm_node.parent, perm_node.is_null]
      exact m3
    · intro j hj
      simp only [rc, perm_node.size] at hj
      exact m4 j hj
    · simp only [rc, perm_node.parent, perm_node.is_null]
      refine fwdP_chg w henv key0 H hH c cm _ m1 h _ hR ?_ hlast
      intro U _
      simp only [rc, perm_node.offset, perm_node.size]
      rw [eor]
      rintro ⟨-, -, a2⟩
      omega

/-- Odd node whose left child is even: the last switch is routed like the others. -/
theorem cp_oe (w : waksman) (henv : w.env) (key0 : Nat → Nat)
    (hk : ∀ i, key0 i &&& INT32_MAX = key0 i) (H : Nat) (hH : H ≤ 31) (h : Nat)
    (p : perm_node) (d : Nat) (l : Bool)
    (o s : Nat) (e x : List Bool) (hwf : w.wf (.node p d l o s e x))
    (hv : w.valid (.node p d l o s e x)) (hd : d ≤ 30) (hfit : o + s ≤ w.length)
    (hL : w.node_ok H (lc (.node p d l o s e x)) h)
    (hR : w.node_ok H (rc (.node p d l o s e x)) h)
    (hs : 4 ≤ s) (hodd : s % 2 = 1) (hch : ¬ s / 2 % 2 = 1) (c : cloud) (hl : w.live c)
    (hin : ∀ j, j + 1 < s → w.inp key0 (.node p d l o s e x) j c)
    (hlast : if p.is_null = true then w.inp key0 (.node p d l o s e x) (s - 1) c
      else w.fwdP key0 c h (rc (.node p d l o s e x)))
    (c1 : cloud) (hd1 : w.done key0 (.node p d l o s e x) c c1 ((s + 1) / 2 - 2)) :
    ret ((w.route_switch_cp (.node p d l o s e x) (w.arr d) (w.arr (d + 1))
        (((s + 1) / 2 + W32 - 2) % W32) c1) >>= fun y =>
      if p.is_null = true then
        (w.get_update_elem (.node p d l o s e x) (w.arr d) ((s + W32 - 1) % W32) y) >>=
          fun r =>
        (w.eval_pi (.node p d l o s e x) ((s + W32 - 1) % W32)) >>= fun v1 =>
        w.route_wire 33 r.1 ((s + 1) / 2) (v1 / 2) ((o + s + W32 - 1) % W32) (w.arr (d + 1))
          r.2
      else pure y)
      (fun c3 => w.cp_post key0 h (.node p d l o s e x) c c3) := by
  have hW : W32 = 4294967296 := by decide
  have hlt := henv.len_lt
  have := done_step w henv key0 hk p d l o s e x hwf hv hd hfit c hl hin
    ((s + 1) / 2 - 2) (((s + 1) / 2 + W32 - 2) % W32) (by rw [hW]; omega) (by omega) c1 hd1
    (hin _ (by omega))
  refine ret_bind _ _ _ _ this ?_
  intro c2 hd2
  refine cp_last w henv key0 hk H hH h p d l o s e x hwf hv hfit hL hR hs hodd c hl hlast c2 ?_
  refine cp_mid_intro w henv key0 h p d l o s e x hfit hodd c c2 c2 ((s + 1) / 2 - 2 + 1)
    (by omega) hd2 (fun _ _ => False) (chg_refl c2 _) (fun _ _ hh => hh.elim) ?_ ?_ ?_
  · intro j h1 h2
    omega
  · refine fwdP_of_inp w key0 c2 h _ (Or.inr ?_) ?_
    · simp only [lc, perm_node.size]; omega
    · simp only [lc, perm_node.size]
      have := (hd2.2 (s / 2 - 1) (by omega)).1
      simp only [lc, perm_node.size, perm_node.depth, perm_node.offset] at this
      exact this
  · intro j h1 h2
    omega

/-- Odd node whose left child is odd: of the two wires of the last switch one is sent along
`route_wire` to the left child, the other is stored for the right child. -/
theorem cp_ol (w : waksman) (henv : w.env) (key0 : Nat → Nat)
    (hk : ∀ i, key0 i &&& INT32_MAX = key0 i) (H : Nat) (hH : H ≤ 31) (h : Nat)
    (p : perm_node) (d : Nat) (l : Bool)
    (o s : Nat) (e x : List Bool) (hwf : w.wf (.node p d l o s e x))
    (hv : w.valid (.node p d l o s e x)) (hd : d ≤ 30) (hfit : o + s ≤ w.length)
    (hL : w.node_ok H (lc (.node p d l o s e x)) h)
    (hR : w.node_ok H (rc (.node p d l o s e x)) h)
    (hs : 4 ≤ s) (hodd : s % 2 = 1) (c : cloud) (hl : w.live c)
    (hin : ∀ j, j + 1 < s → w.inp key0 (.node p d l o s e x) j c)
    (hlast : if p.is_null = true then w.inp key0 (.node p d l o s e x) (s - 1) c
      else w.fwdP key0 c h (rc (.node p d l o s e x)))
    (c1 : cloud) (hd1 : w.done key0 (.node p d l o s e x) c c1 ((s + 1) / 2 - 2)) :
    ret ((w.get_update_elem (.node p d l o s e x) (w.arr d) ((s + W32 - 3) % W32) c1) >>=
        fun r1 =>
      (w.get_update_elem (.node p d l o s e x) (w.arr d) ((s + W32 - 2) % W32) r1.2) >>=
        fun r2 =>
      (bv_at e (((s + 1) / 2 + W32 - 2) % W32)) >>= fun b =>
      if b = PERSIST then
        (w.eval_pi (.node p d l o s e x) ((s + W32 - 3) % W32)) >>= fun v1 =>
        (w.route_wire 33 r1.1 (s / 2) (v1 / 2) ((o + (s + 1) / 2 + W32 - 2) % W32)
          (w.arr (d + 1)) r2.2) >>= fun c3 =>
        (c3.put (w.arr (d + 1)) ((o + s + W32 - 2) % W32) r2.1) >>= fun y =>
        if p.is_null = true then
          (w.get_update_elem (.node p d l o s e x) (w.arr d) ((s + W32 - 1) % W32) y) >>=
            fun r =>
          (w.eval_pi (.node p d l o s e x) ((s + W32 - 1) % W32)) >>= fun v1 =>
          w.route_wire 33 r.1 ((s + 1) / 2) (v1 / 2) ((o + s + W32 - 1) % W32)
            (w.arr (d + 1)) r.2
        else pure y
      else
        (r2.2.put (w.arr (d + 1)) ((o + s + W32 - 2) % W32) r1.1) >>= fun c3 =>
        (w.eval_pi (.node p d l o s e x) ((s + W32 - 2) % W32)) >>= fun v2 =>
        (w.route_wire 33 r2.1 (s / 2) (v2 / 2) ((o + (s + 1) / 2 + W32 - 2) % W32)
          (w.arr (d + 1)) c3) >>= fun y =>
        if p.is_null = true then
          (w.get_update_elem (.node p d l o s e x) (w.arr d) ((s + W32 - 1) % W32) y) >>=
            fun r =>
          (w.eval_pi (.node p d l o s e x) ((s + W32 - 1) % W32)) >>= fun v1 =>
          w.route_wire 33 r.1 ((s + 1) / 2) (v1 / 2) ((o + s + W32 - 1) % W32)
            (w.arr (d + 1)) r.2
        else pure y)
      (fun c3 => w.cp_post key0 h (.node p d l o s e x) c c3) := by
  have hW : W32 = 4294967296 := by decide
  have hlt := henv.len_lt
  have hb := bij_of_wf w henv.pi_ok _ hwf
  have hBA := arr_succ_ne w henv d
  have hlen : e.length = nsw s := hv.1
  have ei2 : (s + W32 - 2) % W32 = s - 2 := by rw [hW]; omega
  have ei3 : (s + W32 - 3) % W32 = s - 3 := by rw [hW]; omega
  have eb2 : ((s + 1) / 2 + W32 - 2) % W32 = s / 2 - 1 := by rw [hW]; omega
  have eo2 : (o + (s + 1) / 2 + W32 - 2) % W32 = o + s / 2 - 1 := by rw [hW]; omega
  have eo4 : (o + s + W32 - 2) % W32 = o + s - 2 := by rw [hW]; omega
  have eor : (o + s / 2) % W32 = o + s / 2 := by rw [hW]; omega
  have ek : (s + 1) / 2 - 2 = s / 2 - 1 := by omega
  rw [ek] at hd1
  rw [ei2, ei3, eb2, eo2, eo4]
  have hsrc : ∀ j, j + 1 < s → w.inp key0 (.node p d l o s e x) j c1 := by
    intro j hj
    refine inp_chg w key0 _ _ c c1 _ hd1.1 ?_ (hin j hj)
    simp only [perm_node.depth]
    rintro ⟨hh, -⟩
    exact hBA hh
  refine ret_bind _ _ _ _ (gue_ret w key0 _ hb hv (s - 3) (s - 3)
    (by simp only [perm_node.size]; omega) (by simp only [perm_node.offset]; rw [hW]; omega)
    rfl c1 (hsrc _ (by omega))) ?_
  rintro ⟨u1, c2⟩ ⟨g1, g2⟩
  simp only at g1 g2 ⊢
  refine ret_bind _ _ _ _ (gue_ret w key0 _ hb hv (s - 2) (s - 2)
    (by simp only [perm_node.size]; omega) (by simp only [perm_node.offset]; rw [hW]; omega)
    rfl c2 (inp_chg w key0 _ _ c1 c2 _ g2 (fun h => h) (hsrc _ (by omega)))) ?_
  rintro ⟨u2, c3⟩ ⟨g3, g4⟩
  simp only at g3 g4 ⊢
  rw [bv_at_getD _ _ (by rw [hlen]; unfold nsw; omega), ok_bind]
  have hl3 : w.live c3 :=
    live_chg w _ _ _ g4 (live_chg w _ _ _ g2 (live_chg w _ _ _ hd1.1 hl))
  have g13 : c1.chg c3 (fun _ _ => False) :=
    chg_trans _ _ _ _ _ _ g2 g4 (fun _ _ h => h) (fun _ _ h => h)
  -- what is left to do once both wires are delivered
  have hfin : ∀ cm : cloud,
      c3.chg cm (fun U j => (U = w.temp1 ∨ U = w.temp2) ∧
        (j = o + s / 2 - 1 ∨ j = o + s - 2)) →
      w.fwdP key0 cm h (lc (.node p d l o s e x)) →
      w.inp key0 (rc (.node p d l o s e x)) (s / 2 - 1) cm →
      w.cp_mid key0 h (.node p d l o s e x) c cm := by
    intro cm k1 k2 k3
    refine cp_mid_intro w henv key0 h p d l o s e x hfit hodd c c1 cm (s / 2 - 1) (by omega)
      hd1 _ (chg_trans _ _ _ _ _ _ g13 k1 (fun _ _ h => h.elim) (fun _ _ h => h)) ?_ ?_ k2 ?_
    · rintro U j ⟨a1, a2⟩
      exact ⟨a1, by omega⟩
    · intro j h1 h2
      omega
    · intro j h1 h2
      have : j = s / 2 - 1 := by omega
      rw [this]
      exact k3
  have hwl : ∀ (c' : cloud) (u : element) (xin : Nat), w.live c' →
      xin = stage_wire e true (s / 2 - 1) → xin < s → u = w.gu key0 (.node p d l o s e x) xin →
      ret (w.route_wire 33 u (s / 2) (w.ev (.node p d l o s e x) xin / 2) (o + s / 2 - 1)
          (w.arr (d + 1)) c')
        (fun c1 => c'.chg c1 (fun U j => (U = w.temp1 ∨ U = w.temp2) ∧ j = o + s / 2 - 1) ∧
          w.fwdP key0 c1 h (lc (.node p d l o s e x))) := by
    intro c' u xin hl' hx1 hx2 hu
    exact wire_child w henv key0 hk H hH h p d l o s e x hwf hv true o (s / 2) hL rfl
      (by omega) c' hl' u xin (s / 2) _ _ hx1 hx2 hu rfl rfl rfl
  have hpr : ∀ (c' : cloud) (u : element) (xin : Nat), w.live c' →
      xin = stage_wire e false (s / 2 - 1) → u = w.gu key0 (.node p d l o s e x) xin →
      ret (c'.put (w.arr (d + 1)) (o + s - 2) u)
        (fun c1 => c'.chg c1 (fun U j => (U = w.temp1 ∨ U = w.temp2) ∧ j = o + s - 2) ∧
          w.inp key0 (rc (.node p d l o s e x)) (s / 2 - 1) c1) := by
    intro c' u xin hl' hx1 hu
    refine ret_mono _ _ _ (put_ret c' _ _ u (live_arr w c' hl' _)) ?_
    rintro c'' ⟨k1, k2⟩
    refine ⟨chg_mono _ _ _ _ k1 ?_, u, ?_, ?_⟩
    · rintro U j ⟨rfl, rfl⟩
      exact ⟨arr_cases w _, rfl⟩
    · simp only [rc, perm_node.depth, perm_node.offset, perm_node.size]
      rw [eor]
      have : o + s / 2 + (s / 2 - 1) = o + s - 2 := by omega
      rw [this]
      exact k2
    · rw [hu]
      simp only [rc, perm_node.depth, perm_node.offset, perm_node.size]
      rw [inE_child_gu w key0 p d l o s e x hwf (by omega), ← hx1]
      exact mask_gu w key0 hk _ _
  by_cases hp : e.getD (s / 2 - 1) false = PERSIST
  · rw [if_pos hp]
    have hp : e.getD (s / 2 - 1) false = true := hp
    rw [(ev_spec w _ hb (s - 3) (by simp only [perm_node.size]; omega)).1, ok_bind]
    refine ret_bind _ _ _ _ (hwl c3 u1 (s - 3) hl3 ?_ (by omega) g1) ?_
    · unfold stage_wire
      rw [hp, if_pos rfl]
      omega
    rintro c4 ⟨k1, k2⟩
    have hl4 := live_chg w _ _ _ k1 hl3
    refine ret_bind _ _ _ _ (hpr c4 u2 (s - 2) hl4 ?_ g3) ?_
    · unfold stage_wire
      rw [hp, if_neg (by decide)]
      omega
    rintro c5 ⟨k3, k4⟩
    refine cp_last w henv key0 hk H hH h p d l o s e x hwf hv hfit hL hR hs hodd c hl hlast c5
      (hfin c5 ?_ ?_ k4)
    · exact chg_trans _ _ _ _ _ _ k1 k3 (fun _ _ h => ⟨h.1, Or.inl h.2⟩)
        (fun _ _ h => ⟨h.1, Or.inr h.2⟩)
    · refine fwdP_chg w henv key0 H hH c4 c5 _ k3 h _ hL ?_ k2
      intro U _
      simp only [lc, perm_node.offset, perm_node.size]
      rintro ⟨-, hj⟩
      omega
  · rw [if_neg hp]
    have hp2 : e.getD (s / 2 - 1) false = false := by
      cases hh : e.getD (s / 2 - 1) false
      · rfl
      · exact absurd hh hp
    refine ret_bind _ _ _ _ (hpr c3 u1 (s - 3) hl3 ?_ g1) ?_
    · unfold stage_wire
      rw [hp2, if_pos rfl]
      omega
    rintro c4 ⟨k1, k2⟩
    have hl4 := live_chg w _ _ _ k1 hl3
    rw [(ev_spec w _ hb (s - 2) (by simp only [perm_node.size]; omega)).1, ok_bind]
    refine ret_bind _ _ _ _ (hwl c4 u2 (s - 2) hl4 ?_ (by omega) g3) ?_
    · unfold stage_wire
      rw [hp2, if_neg (by decide)]
      omega
    rintro c5 ⟨k3, k4⟩
    refine cp_last w henv key0 hk H hH h p d l o s e x hwf hv hfit hL hR hs hodd c hl hlast c5
      (hfin c5 ?_ k4 ?_)
    · exact chg_trans _ _ _ _ _ _ k1 k3 (fun _ _ h => ⟨h.1, Or.inr h.2⟩)
        (fun _ _ h => ⟨h.1, Or.inl h.2⟩)
    · refine inp_chg w key0 _ _ c4 c5 _ k3 ?_ k2
      simp only [rc, perm_node.depth, perm_node.offset, perm_node.size]
      rw [eor]
      rintro ⟨-, hj⟩
      omega

/-- The entry stage of a node: `route_internal_node_cp` returns, the inputs of both
children are then where the configuration phase expects them, and only slots of the node
in `temp1` and `temp2` were written. -/
theorem cp_node (w : waksman) (henv : w.env) (key0 : Nat → Nat)
    (hk : ∀ i, key0 i &&& INT32_MAX = key0 i) (H : Nat) (hH : H ≤ 31) (h : Nat)
    (N : perm_node) (hN : w.node_ok H N (h + 1)) (c : cloud) (hl : w.live c)
    (hpre : w.pre key0 c (h + 1) N) :
    ret (w.route_internal_node_cp (w.sw N) (w.arr N.depth) (w.arr (N.depth + 1)) c)
      (fun c1 =>
        c.chg c1 (fun U j => (U = w.temp1 ∨ U = w.temp2) ∧ N.offset ≤ j ∧
          j < N.offset + N.size ∧
          (N.parent.is_null = false → N.size % 2 = 1 → j ≠ N.offset + N.size - 1)) ∧
        w.pre key0 c1 h (w.lch N) ∧ w.pre key0 c1 h (w.rch N)) := by
  obtain ⟨hL, hR⟩ := children_ok w henv H N h hN
  obtain ⟨eL, eR⟩ := lch_eq w henv H N h hN
  rw [eL] at hL ⊢
  rw [eR] at hR ⊢
  obtain ⟨p, d, l, o, s, e0, x0, rfl⟩ := wf_node w N hN.wf
  obtain ⟨e, x, _, hsw, hv, hwf, hb⟩ := sw_spec w henv H p d l o s e0 x0 h hN
  rw [hsw] at hL hR ⊢
  have hfit := hN.fit
  have hdep := hN.dep
  have hs : w.leaf_size < s := hN.uni.1
  have hlt := henv.len_lt
  have hge := henv.leaf_ge
  have hW : W32 = 4294967296 := by decide
  simp only [perm_node.size, perm_node.offset, perm_node.depth, perm_node.parent] at hfit hdep ⊢
  obtain ⟨hin0, hlast0⟩ := hpre
  simp only [perm_node.size, perm_node.parent] at hin0 hlast0
  have hin : ∀ j, j + 1 < s → w.inp key0 (.node p d l o s e x) j c := fun j hj =>
    (inp_own w key0 p d l o s e0 x0 e x j c).1 (hin0 j hj)
  have hdB : d ≤ 30 := by omega
  suffices hmain : ret (w.route_internal_node_cp (.node p d l o s e x) (w.arr d)
      (w.arr (d + 1)) c) (fun c1 => w.cp_post key0 h (.node p d l o s e x) c c1) by
    refine ret_mono _ _ _ hmain ?_
    rintro c1 ⟨a1, a2, a3⟩
    exact ⟨a1, a2, a3⟩
  unfold waksman.route_internal_node_cp
  simp only [perm_node.size, perm_node.offset, perm_node.depth, perm_node.parent,
    perm_node.entry]
  have en : ((s + 1) / 2 + W32 - 2) % W32 = (s + 1) / 2 - 2 := by rw [hW]; omega
  refine ret_bind _ _ (fun c1 => w.done key0 (.node p d l o s e x) c c1 ((s + 1) / 2 - 2)) _
    ?_ ?_
  · rw [en]
    refine ret_loop (fun k c1 => w.done key0 (.node p d l o s e x) c c1 k) _ _ _
      (done_zero w key0 _ c) ?_
    intro k c1 hk1 hdone
    exact done_step w henv key0 hk p d l o s e x hwf hv (by omega) hfit c hl hin k k rfl
      (by omega) c1 hdone (hin _ (by omega))
  intro c1 hd1
  by_cases hev : s % 2 = 0
  · rw [if_pos hev]
    have hinall := pre_even_all w key0 c h p d l o s e0 x0 e x ⟨hin0, hlast0⟩ hev (by omega)
    refine ret_bind _ _ (fun c2 => w.done key0 (.node p d l o s e x) c c2 ((s + 1) / 2 - 1)) _
      ?_ ?_
    · have := done_step w henv key0 hk p d l o s e x hwf hv hdB hfit c hl hin
        ((s + 1) / 2 - 2) (((s + 1) / 2 + W32 - 2) % W32) en (by omega) c1 hd1
        (hin _ (by omega))
      have e1 : (s + 1) / 2 - 2 + 1 = (s + 1) / 2 - 1 := by omega
      rw [e1] at this
      exact this
    intro c2 hd2
    by_cases hch : s / 2 % 2 = 1
    · rw [if_pos hch]
      exact cp_eo w henv key0 hk H hH h p d l o s e x hwf hv hfit hL hR (by omega) hev c hl
        hinall c2 hd2
    · rw [if_neg hch]
      exact cp_ee w henv key0 hk h p d l o s e x hwf hv hdB hfit (by omega) hev hch c hl
        hinall c2 hd2
  · rw [if_neg hev]
    have hlast : if p.is_null = true then w.inp key0 (.node p d l o s e x) (s - 1) c
        else w.fwdP key0 c h (rc (.node p d l o s e x)) := by
      by_cases hp : p.is_null = true
      · rw [if_pos hp] at hlast0 ⊢
        exact (inp_own w key0 p d l o s e0 x0 e x _ c).1 hlast0
      · rw [if_neg hp] at hlast0 ⊢
        unfold waksman.fwdP at hlast0
        simp only [perm_node.size] at hlast0
        rw [if_neg hev, eR, hsw] at hlast0
        exact hlast0
    by_cases hch : s / 2 % 2 = 1
    · rw [if_pos hch]
      exact cp_ol w henv key0 hk H hH h p d l o s e x hwf hv hdB hfit hL hR (by omega)
        (by omega) c hl hin hlast c1 hd1
    · rw [if_neg hch]
      exact cp_oe w henv key0 hk H hH h p d l o s e x hwf hv hdB hfit hL hR (by omega)
        (by omega) hch c hl hin hlast c1 hd1

/-! ### Waksman permutation: the leaves and the skip array -/

/-- `skip_fn` stores the element after `rise` calls of itself. -/
theorem skip_fn_rise (w : waksman) (N : perm_node) :
    ∀ (e : element) (off idx : Nat) (s : List Nat × cloud), N.parent.is_null = false →
      w.skip_fn N e off idx s = w.skip_put e (off / 2 ^ rise N) (idx + rise N) s := by
  induction N with
  | null => intro e off idx s h; simp [perm_node.parent, perm_node.is_null] at h
  | node parent d l o sz en ex ih =>
    intro e off idx s h
    cases parent with
    | null => simp [perm_node.parent, perm_node.is_null] at h
    | node grand pd pl po ps pen pex =>
      rw [waksman.skip_fn, rise]
      have hrec : grand.is_null = false →
          w.skip_fn (.node grand pd pl po ps pen pex) e (off / 2) (idx + 1) s =
            w.skip_put e (off / 2 ^ (rise (.node grand pd pl po ps pen pex) + 1))
              (idx + (rise (.node grand pd pl po ps pen pex) + 1)) s := by
        intro hg
        rw [ih e (off / 2) (idx + 1) s (by simpa [perm_node.parent] using hg),
          Nat.div_div_eq_div_mul, pow_succ, Nat.mul_comm]
        congr 1
        omega
      cases hg : grand.is_null
      · simp only [Bool.not_false, if_true]
        split
        · split
          · exact hrec hg
          · split
            · simp
            · exact hrec hg
        · split
          · simp
          · exact hrec hg
      · simp

/-- `skip_put` appends the element, with its used settings shifted out, to a segment of the
skip array. -/
theorem skip_put_ret (w : waksman) (e : element) (off idx : Nat) (sk : List Nat) (c : cloud)
    (hidx : idx < sk.length) (hc : c.has w.skip_array) (hlt : off + sk.getD idx 0 < W32) :
    ret (w.skip_put e off idx (sk, c))
      (fun r => r.1 = sk.set idx ((sk.getD idx 0 + 1) % W32) ∧
        c.chg r.2 (fun U j => U = w.skip_array ∧ j = off + sk.getD idx 0) ∧
        r.2.peek w.skip_array (off + sk.getD idx 0) = some (shiftE e (idx + 1))) := by
  unfold waksman.skip_put skip_take
  simp only
  have h1 : sk[idx]? = some (sk.getD idx 0) := by
    rw [List.getD_eq_getElem?_getD, List.getElem?_eq_getElem hidx]
    rfl
  rw [h1]
  simp only [ok_bind]
  rw [Nat.mod_eq_of_lt hlt]
  refine ret_bind _ _ _ _ (put_ret c _ _ _ hc) ?_
  rintro c1 ⟨g1, g2⟩
  exact ret_pure _ _ ⟨rfl, g1, g2⟩

theorem nreg_leaf (N : perm_node) (h : N.parent.is_null = false) :
    nreg 0 N = if skipcond N then N.size - 1 else N.size := by
  unfold nreg
  rw [if_neg (by rw [h]; decide), if_pos rfl]

theorem arr_ne_temp3 (w : waksman) (henv : w.env) (d : Nat) :
    w.arr d ≠ w.temp3 ∧ w.arr d ≠ w.skip_array := by
  rcases arr_cases w d with h | h
  · rw [h]; exact ⟨henv.t13, henv.t1s⟩
  · rw [h]; exact ⟨henv.t23, henv.t2s⟩

/-- One input of a leaf: `route_leaf` reads it and `route_element` stores it in `temp3` or
appends it to the skip array. -/
theorem leaf_step (w : waksman) (henv : w.env) (key0 : Nat → Nat)
    (hk : ∀ i, key0 i &&& INT32_MAX = key0 i) (H : Nat) (N : perm_node)
    (hN : w.node_ok H N 0) (hnr : N.parent.is_null = false)
    (hpo : N.parent.offset + 2 * N.size + 1 < 2 ^ 32) (sk : List Nat) (c : cloud)
    (hl : w.live c) (hin : ∀ j, j < N.size → w.inp key0 N j c)
    (hroom : skipcond N → rise N < sk.length ∧
      w.seg_base (rise N) + sk.getD (rise N) 0 + 1 < 2 ^ 31)
    (k : Nat) (hk1 : k < N.size) (r : List Nat × cloud) (hr : w.leaf_inv key0 N sk c k r) :
    ret ((r.2.get (w.arr N.depth) ((N.offset + k) % W32)) >>= fun g =>
        (w.eval_pi N k) >>= fun v =>
        w.route_element N g.1
          (if N.is_left_child = true then N.parent.offset else (N.parent.offset + 1) % W32)
          v (r.1, g.2))
      (w.leaf_inv key0 N sk c (k + 1)) := by
  obtain ⟨sk1, c1⟩ := r
  obtain ⟨h1, h2, h3, h4⟩ := hr
  simp only at h1 h2 h3 h4 ⊢
  have hW : W32 = 4294967296 := by decide
  have hlt := henv.len_lt
  have hfit := hN.fit
  have hb := bij_of_wf w henv.pi_ok N hN.wf
  have hs2 := uni_ge_two _ _ _ hN.uni henv.leaf_ge
  obtain ⟨hA3, hAs⟩ := arr_ne_temp3 w henv N.depth
  obtain ⟨e1, e2, e3⟩ := ev_spec w N hb k hk1
  obtain ⟨f1, f2, f3⟩ := evi_spec w N hb (N.size - 1) (by omega)
  have hik : w.evi N (N.size - 1) = k ↔ w.ev N k = N.size - 1 := by
    constructor
    · intro hh
      rw [← hh, f3]
    · intro hh
      rw [← hh, e3]
  have hinj : ∀ i, i < N.size → w.ev N i = w.ev N k → i = k := by
    intro i hi hh
    have := (ev_spec w N hb i hi).2.2
    rw [hh, e3] at this
    exact this.symm
  -- read the input
  obtain ⟨el, p1, p2⟩ := inp_chg w key0 N k c c1 _ h1 (by
    rintro (⟨hh, -⟩ | ⟨hh, -⟩)
    · exact hA3 hh
    · exact hAs hh) (hin k hk1)
  rw [Nat.mod_eq_of_lt (by rw [hW]; omega)]
  refine ret_bind _ _ _ _ (get_ret c1 _ _ el p1) ?_
  rintro ⟨g, c2⟩ ⟨q1, q2⟩
  simp only at q1 q2 ⊢
  rw [e1, ok_bind]
  rw [p2] at q1
  subst q1
  have hl2 : w.live c2 := live_chg w _ _ _ q2 (live_chg w _ _ _ h1 hl)
  have h12 : c.chg c2 (fun U j =>
      (U = w.temp3 ∧ ∃ i, i < k ∧ w.ev N i < nreg 0 N ∧ j = pos N (w.ev N i)) ∨
      (U = w.skip_array ∧ skipcond N ∧ w.evi N (N.size - 1) < k ∧
        j = w.seg_base (rise N) + sk.getD (rise N) 0)) :=
    chg_trans _ _ _ _ _ _ h1 q2 (fun _ _ h => h) (fun _ _ h => h.elim)
  have hnn : ¬ N.parent.is_null = true := by rw [hnr]; decide
  unfold waksman.route_element
  rw [if_neg hnn]
  simp only
  have em1 : (N.size + W32 - 1) % W32 = N.size - 1 := by rw [hW]; omega
  rw [em1]
  have hnreg := nreg_leaf N hnr
  by_cases hskip : w.ev N k = N.size - 1 ∧ skipcond N
  · -- the element skips levels
    have hsk : w.ev N k = N.size - 1 ∧ (N.parent.size % 2 = 0 ∨ N.is_left_child = false) :=
      hskip
    rw [if_pos hsk]
    obtain ⟨hv1, hc⟩ := hskip
    obtain ⟨hr1, hr2⟩ := hroom hc
    have hiS : w.evi N (N.size - 1) = k := hik.2 hv1
    have hsk1 : sk1 = sk := by
      rw [h3, if_neg]
      rintro ⟨-, hh⟩
      omega
    rw [hsk1, skip_fn_rise w N _ _ _ _ hnr, Nat.zero_add]
    have hbase : w.length / 2 / 2 ^ rise N = w.seg_base (rise N) := by
      unfold waksman.seg_base
      rw [Nat.div_div_eq_div_mul, pow_succ, Nat.mul_comm]
    rw [hbase]
    refine ret_mono _ _ _ (skip_put_ret w _ _ _ sk c2 hr1 hl2.2.2.2 (by rw [hW]; omega)) ?_
    rintro ⟨sk3, c3⟩ ⟨u1, u2, u3⟩
    simp only at u1 u2 u3
    refine ⟨?_, ?_, ?_, ?_⟩
    · refine chg_trans _ _ _ _ _ _ h12 u2 ?_ ?_
      · rintro U j (⟨a1, i, a2, a3⟩ | ⟨a1, a2, a3, a4⟩)
        · exact Or.inl ⟨a1, i, by omega, a3⟩
        · exact Or.inr ⟨a1, a2, by omega, a4⟩
      · rintro U j ⟨a1, a2⟩
        exact Or.inr ⟨a1, hc, by omega, a2⟩
    · intro i hi hreg
      have hne : i ≠ k := by
        intro hh
        rw [hh, hv1, hnreg, if_pos hc] at hreg
        omega
      simp only
      rw [u2.peek _ _ (by rintro ⟨hh, -⟩; exact henv.t3s hh), q2.peek _ _ (fun h => h)]
      exact h2 i (by omega) hreg
    · simp only
      rw [u1, if_pos ⟨hc, by omega⟩]
    · intro _ _
      simp only
      rw [u3]
      unfold waksman.outE
      rw [hiS]
  · -- the element goes to the next level
    have hsk : ¬ (w.ev N k = N.size - 1 ∧ (N.parent.size % 2 = 0 ∨ N.is_left_child = false)) :=
      hskip
    rw [if_neg hsk]
    have hreg : w.ev N k < nreg 0 N := by
      rw [hnreg]
      by_cases hc : skipcond N
      · rw [if_pos hc]
        have : w.ev N k ≠ N.size - 1 := fun hh => hskip ⟨hh, hc⟩
        omega
      · rw [if_neg hc]
        exact e2
    have hpos : ((if N.is_left_child = true then N.parent.offset
        else (N.parent.offset + 1) % W32) + w.ev N k * 2) % W32 = pos N (w.ev N k) := by
      unfold pos
      rw [if_neg hnn]
      cases N.is_left_child
      · simp only [Bool.false_eq_true, if_false]
        rw [hW]
        omega
      · simp only [if_true]
        rw [hW]
        omega
    rw [hpos]
    refine ret_bind _ _ _ _ (put_ret c2 _ _ _ hl2.2.2.1) ?_
    rintro c3 ⟨u1, u2⟩
    refine ret_pure _ _ ⟨?_, ?_, ?_, ?_⟩
    · refine chg_trans _ _ _ _ _ _ h12 u1 ?_ ?_
      · rintro U j (⟨a1, i, a2, a3⟩ | ⟨a1, a2, a3, a4⟩)
        · exact Or.inl ⟨a1, i, by omega, a3⟩
        · exact Or.inr ⟨a1, a2, by omega, a4⟩
      · rintro U j ⟨a1, a2⟩
        exact Or.inl ⟨a1, k, by omega, hreg, a2⟩
    · intro i hi hregi
      simp only
      by_cases hik2 : i = k
      · rw [hik2]
        exact u2
      · have hne : pos N (w.ev N i) ≠ pos N (w.ev N k) := by
          intro hh
          unfold pos at hh
          rw [if_neg hnn, if_neg hnn] at hh
          exact hik2 (hinj i (by omega) (by omega))
        rw [u1.peek _ _ (by rintro ⟨-, hh⟩; exact hne hh), q2.peek _ _ (fun h => h)]
        exact h2 i (by omega) hregi
    · simp only
      rw [h3]
      by_cases hc : skipcond N
      · have hne : w.evi N (N.size - 1) ≠ k := fun hh => hskip ⟨hik.1 hh, hc⟩
        by_cases hlt2 : w.evi N (N.size - 1) < k
        · rw [if_pos ⟨hc, hlt2⟩, if_pos ⟨hc, by omega⟩]
        · rw [if_neg (fun hh => hlt2 hh.2), if_neg (fun hh => hlt2 (by omega))]
      · rw [if_neg (fun hh => hc hh.1), if_neg (fun hh => hc hh.1)]
    · intro hc hlt2
      have hne : w.evi N (N.size - 1) ≠ k := fun hh => hskip ⟨hik.1 hh, hc⟩
      simp only
      rw [u1.peek _ _ (by rintro ⟨hh, -⟩; exact henv.t3s hh.symm),
        q2.peek _ _ (fun h => h)]
      exact h4 hc (by omega)

theorem getD_set_nat (l : List Nat) (i j v : Nat) :
    (l.set i v).getD j 0 = if j = i ∧ i < l.length then v else l.getD j 0 := by
  simp only [List.getD_eq_getElem?_getD, List.getElem?_set]
  by_cases h : i = j
  · subst h
    by_cases hl : i < l.length
    · simp [hl]
    · simp [hl, List.getElem?_eq_none (Nat.le_of_not_lt hl)]
  · have h2 : ¬ j = i := fun e => h e.symm
    simp [h, h2]

theorem em_leaf (w : waksman) (key0 : Nat → Nat) (N : perm_node) (k : Nat) :
    w.em key0 0 N k =
      if skipcond N ∧ rise N = k then [shiftE (w.outE key0 N (N.size - 1)) (k + 1)] else [] := by
  unfold waksman.em
  rfl

/-- The configuration phase at a leaf: `route_leaf` returns, and the outputs of the leaf are
in `temp3`, the last one possibly in the skip array. -/
theorem cp_leaf (w : waksman) (henv : w.env) (key0 : Nat → Nat)
    (hk : ∀ i, key0 i &&& INT32_MAX = key0 i) (H : Nat) (N : perm_node)
    (hN : w.node_ok H N 0) (hnr : N.parent.is_null = false)
    (hpo : N.parent.offset + 2 * N.size + 1 < 2 ^ 32) (sk : List Nat) (c : cloud)
    (hl : w.live c) (hpre : w.pre key0 c 0 N) (hroom : w.room key0 0 N sk) :
    ret (w.route_leaf N (w.arr N.depth) (sk, c)) (w.cps key0 0 N sk c) := by
  have hnn : ¬ N.parent.is_null = true := by rw [hnr]; decide
  have hW : W32 = 4294967296 := by decide
  have hlt := henv.len_lt
  have hb := bij_of_wf w henv.pi_ok N hN.wf
  have hs2 := uni_ge_two _ _ _ hN.uni henv.leaf_ge
  have hin : ∀ j, j < N.size → w.inp key0 N j c := by
    intro j hj
    by_cases hj2 : j + 1 < N.size
    · exact hpre.1 j hj2
    · have := hpre.2
      rw [if_neg hnn] at this
      unfold waksman.fwdP at this
      have e1 : j = N.size - 1 := by omega
      rw [e1]
      exact this
  have hroom2 : skipcond N → rise N < sk.length ∧
      w.seg_base (rise N) + sk.getD (rise N) 0 + 1 < 2 ^ 31 := by
    intro hc
    have := hroom (rise N) (by rw [em_leaf, if_pos ⟨hc, rfl⟩]; simp)
    rw [em_leaf, if_pos ⟨hc, rfl⟩] at this
    simp only [List.length_singleton] at this
    refine ⟨this.1, ?_⟩
    have h2 : w.length / 2 ^ rise N ≤ w.length := Nat.div_le_self _ _
    omega
  unfold waksman.route_leaf
  rw [if_neg hnn]
  simp only
  have hloop := ret_loop (fun k r => w.leaf_inv key0 N sk c k r)
    (fun i s => (s.2.get (w.arr N.depth) ((N.offset + i) % W32)) >>= fun g =>
        (w.eval_pi N i) >>= fun v =>
        w.route_element N g.1
          (if N.is_left_child = true then N.parent.offset else (N.parent.offset + 1) % W32)
          v (s.1, g.2)) N.size (sk, c)
    ⟨chg_refl c _, fun i hi => absurd hi (Nat.not_lt_zero i),
      by simp, fun _ hh => absurd hh (Nat.not_lt_zero _)⟩
    (fun k r hk1 hr => leaf_step w henv key0 hk H N hN hnr hpo sk c hl hin hroom2 k hk1 r hr)
  refine ret_mono _ _ _ hloop ?_
  rintro ⟨sk1, c1⟩ ⟨h1, h2, h3, h4⟩
  simp only at h1 h2 h3 h4
  obtain ⟨f1, f2, f3⟩ := evi_spec w N hb (N.size - 1) (by omega)
  have hnreg := nreg_leaf N hnr
  refine ⟨?_, ?_, ?_, ?_, ?_⟩
  · refine chg_mono _ _ _ _ h1 ?_
    rintro U j (⟨a1, i, a2, a3, a4⟩ | ⟨a1, a2, a3, a4⟩)
    · exact Or.inr (Or.inl ⟨a1, w.ev N i, a3, a4⟩)
    · refine Or.inr (Or.inr ⟨a1, rise N, 0, ?_, by rw [a4, Nat.add_zero]⟩)
      rw [em_leaf, if_pos ⟨a2, rfl⟩]
      simp
  · intro y hy
    have hy2 : y < N.size := by
      rw [hnreg] at hy
      split at hy <;> omega
    obtain ⟨g1, g2, g3⟩ := evi_spec w N hb y hy2
    have := h2 (w.evi N y) g2 (by rw [g3]; exact hy)
    rw [g3] at this
    exact this
  · simp only
    rw [h3]
    split
    · rw [List.length_set]
    · rfl
  · intro k
    simp only
    rw [h3, em_leaf]
    by_cases hc : skipcond N
    · rw [if_pos ⟨hc, f2⟩, getD_set_nat]
      obtain ⟨r1, r2⟩ := hroom2 hc
      by_cases hk2 : k = rise N
      · rw [if_pos ⟨hk2, r1⟩, if_pos ⟨hc, hk2.symm⟩, hk2]
        simp only [List.length_singleton]
        rw [hW]
        omega
      · rw [if_neg (fun hh => hk2 hh.1), if_neg (fun hh => hk2 hh.2.symm)]
        simp
    · rw [if_neg (fun hh => hc hh.1), if_neg (fun hh => hc hh.1)]
      simp
  · intro k t ht
    rw [em_leaf] at ht ⊢
    by_cases hc : skipcond N ∧ rise N = k
    · rw [if_pos hc] at ht ⊢
      simp only [List.length_singleton] at ht
      have ht0 : t = 0 := by omega
      subst ht0
      obtain ⟨hc1, hc2⟩ := hc
      subst hc2
      simp only [Nat.add_zero, List.getElem?_cons_zero]
      exact h4 hc1 f2
    · rw [if_neg hc] at ht
      simp at ht

/-! ### Waksman permutation: the configuration phase of a subtree -/

/-- Offsets, sizes and depths of the two children of an inner node. -/
theorem child_geom (w : waksman) (henv : w.env) (H : Nat) (N : perm_node) (h : Nat)
    (hN : w.node_ok H N (h + 1)) :
    (w.lch N).offset = N.offset ∧ (w.lch N).size = N.size / 2 ∧
    (w.rch N).offset = N.offset + N.size / 2 ∧ (w.rch N).size = N.size / 2 + N.size % 2 ∧
    (w.lch N).depth = N.depth + 1 ∧ (w.rch N).depth = N.depth + 1 ∧
    (w.lch N).parent.is_null = false ∧ (w.rch N).parent.is_null = false ∧
    (w.lch N).parent.offset = N.offset ∧ (w.rch N).parent.offset = N.offset ∧
    (w.lch N).parent.size = N.size ∧ (w.rch N).parent.size = N.size ∧
    (w.lch N).is_left_child = true ∧ (w.rch N).is_left_child = false := by
  obtain ⟨p, d, l, o, s, e0, x0, rfl⟩ := wf_node w N hN.wf
  obtain ⟨e, x, _, hsw, _⟩ := sw_spec w henv H p d l o s e0 x0 h hN
  have hfit := hN.fit
  have hlt := henv.len_lt
  have hW : W32 = 4294967296 := by decide
  simp only [perm_node.size, perm_node.offset] at hfit
  unfold waksman.lch waksman.rch
  rw [hsw]
  simp only [perm_node.size, perm_node.offset, perm_node.depth, perm_node.parent,
    perm_node.is_null, perm_node.is_left_child]
  refine ⟨trivial, trivial, ?_, trivial, trivial, trivial, trivial, trivial, trivial, trivial,
    trivial, trivial, trivial, trivial⟩
  rw [hW]
  omega

/-- The slots of the outputs of the children lie among the slots of the node, those of the
left child at even and those of the right child at odd distance from its offset. -/
theorem pos_child (w : waksman) (henv : w.env) (H : Nat) (N : perm_node) (h : Nat)
    (hN : w.node_ok H N (h + 1)) :
    (∀ y, y < nreg h (w.lch N) → pos (w.lch N) y = N.offset + 2 * y ∧ 2 * y < N.size) ∧
    (∀ y, y < nreg h (w.rch N) →
      pos (w.rch N) y = N.offset + 2 * y + 1 ∧ 2 * y + 1 < N.size) := by
  obtain ⟨g1, g2, g3, g4, g5, g6, g7, g8, g9, g10, g11, g12, g13, g14⟩ :=
    child_geom w henv H N h hN
  have hs : w.leaf_size < N.size := hN.uni.1
  have hge := henv.leaf_ge
  constructor
  · intro y hy
    unfold pos
    unfold nreg at hy
    rw [g7] at hy ⊢
    simp only [Bool.false_eq_true, if_false] at hy ⊢
    rw [g9, g13]
    simp only [if_true, Nat.add_zero, true_and]
    unfold skipcond at hy
    simp only [g2, g11, g13, Bool.true_eq_false, or_false] at hy
    split at hy
    · split at hy <;> omega
    · split at hy <;> omega
  · intro y hy
    unfold pos
    unfold nreg at hy
    rw [g8] at hy ⊢
    simp only [Bool.false_eq_true, if_false] at hy ⊢
    rw [g10, g14]
    simp only [Bool.false_eq_true, if_false, true_and]
    unfold skipcond at hy
    simp only [g4, g12, g14, or_true, if_true] at hy
    split at hy
    · omega
    · split at hy <;> omega

/-- The outputs of the nodes `g + 1` levels below a node are stored among the slots of the
node. -/
theorem wrg_region (w : waksman) (henv : w.env) (H : Nat) (j : Nat) :
    ∀ (g h : Nat) (M : perm_node), w.node_ok H M (h + g + 1) →
      w.wrg (g + 1) (h + g + 1) M j → M.offset ≤ j ∧ j < M.offset + M.size := by
  intro g
  induction g with
  | zero =>
    intro h M hM hw
    obtain ⟨p1, p2⟩ := pos_child w henv H M h hM
    unfold waksman.wrg at hw
    simp only [Nat.add_zero, Nat.add_sub_cancel] at hw
    unfold waksman.wrg at hw
    rcases hw with ⟨y, hy, rfl⟩ | ⟨y, hy, rfl⟩
    · obtain ⟨a1, a2⟩ := p1 y hy
      rw [a1]
      omega
    · obtain ⟨a1, a2⟩ := p2 y hy
      rw [a1]
      omega
  | succ g ih =>
    intro h M hM hw
    have hM2 : w.node_ok H M ((h + g + 1) + 1) := hM
    obtain ⟨hL, hR⟩ := children_ok w henv H M _ hM2
    obtain ⟨g1, g2, g3, g4, _⟩ := child_geom w henv H M _ hM2
    unfold waksman.wrg at hw
    have e1 : h + (g + 1) + 1 - 1 = h + g + 1 := by omega
    rw [e1] at hw
    rcases hw with hw | hw
    · have := ih h _ hL hw
      rw [g1, g2] at this
      omega
    · have := ih h _ hR hw
      rw [g3, g4] at this
      omega

theorem outs_chg (w : waksman) (key0 : Nat → Nat) (A : Nat) (c c1 : cloud)
    (W : Nat → Nat → Prop) (hc : c.chg c1 W) :
    ∀ (g h : Nat) (M : perm_node), (∀ j, w.wrg g h M j → ¬ W A j) →
      w.outs key0 A c g h M → w.outs key0 A c1 g h M := by
  intro g
  induction g with
  | zero =>
    intro h M hW ho
    unfold waksman.outs at ho ⊢
    intro y hy
    rw [hc.peek _ _ (hW _ (by unfold waksman.wrg; exact ⟨y, hy, rfl⟩))]
    exact ho y hy
  | succ g ih =>
    intro h M hW ho
    unfold waksman.outs at ho ⊢
    refine ⟨ih _ _ (fun j hj => hW j ?_) ho.1, ih _ _ (fun j hj => hW j ?_) ho.2⟩
    · unfold waksman.wrg
      exact Or.inl hj
    · unfold waksman.wrg
      exact Or.inr hj

/-- The inputs of a node are not disturbed by writes outside its slots. -/
theorem pre_chg (w : waksman) (henv : w.env) (key0 : Nat → Nat) (H : Nat) (hH : H ≤ 31)
    (h : Nat) (N : perm_node) (hN : w.node_ok H N h) (c c1 : cloud) (W : Nat → Nat → Prop)
    (hc : c.chg c1 W)
    (hW : ∀ U j, (U = w.temp1 ∨ U = w.temp2) → N.offset ≤ j → j < N.offset + N.size → ¬ W U j)
    (hp : w.pre key0 c h N) : w.pre key0 c1 h N := by
  have hs2 := uni_ge_two _ _ _ hN.uni henv.leaf_ge
  obtain ⟨p1, p2⟩ := hp
  refine ⟨fun j hj => inp_chg w key0 N j c c1 W hc
    (hW _ _ (arr_cases w _) (by omega) (by omega)) (p1 j hj), ?_⟩
  split
  · rename_i hn
    rw [if_pos hn] at p2
    exact inp_chg w key0 N _ c c1 W hc (hW _ _ (arr_cases w _) (by omega) (by omega)) p2
  · rename_i hn
    rw [if_neg hn] at p2
    exact fwdP_chg w henv key0 H hH c c1 W hc h N hN
      (fun U hU => hW U _ hU (by omega) (by omega)) p2

theorem em_succ (w : waksman) (key0 : Nat → Nat) (h : Nat) (N : perm_node) (k : Nat) :
    w.em key0 (h + 1) N k = w.em key0 h (w.lch N) k ++ w.em key0 h (w.rch N) k := by
  rw [waksman.em]

theorem wrg_succ (w : waksman) (h : Nat) (N : perm_node) (j : Nat) :
    w.wrg (h + 1) (h + 1) N j ↔ (w.wrg h h (w.lch N) j ∨ w.wrg h h (w.rch N) j) := by
  rw [waksman.wrg]
  rfl

theorem outs_succ (w : waksman) (key0 : Nat → Nat) (A : Nat) (c : cloud) (h : Nat)
    (N : perm_node) :
    w.outs key0 A c (h + 1) (h + 1) N ↔
      (w.outs key0 A c h h (w.lch N) ∧ w.outs key0 A c h h (w.rch N)) := by
  rw [waksman.outs]
  rfl

/-- The outputs of the leaves below the two children are stored in different slots. -/
theorem wrg_disj (w : waksman) (henv : w.env) (H : Nat) (N : perm_node) (h : Nat)
    (hN : w.node_ok H N (h + 1)) (j : Nat) (h1 : w.wrg h h (w.lch N) j)
    (h2 : w.wrg h h (w.rch N) j) : False := by
  obtain ⟨hL, hR⟩ := children_ok w henv H N h hN
  obtain ⟨g1, g2, g3, g4, _⟩ := child_geom w henv H N h hN
  cases h with
  | zero =>
    obtain ⟨p1, p2⟩ := pos_child w henv H N 0 hN
    unfold waksman.wrg at h1 h2
    obtain ⟨y1, hy1, e1⟩ := h1
    obtain ⟨y2, hy2, e2⟩ := h2
    rw [(p1 y1 hy1).1] at e1
    rw [(p2 y2 hy2).1] at e2
    omega
  | succ g =>
    have r1 := wrg_region w henv H j g 0 _ (by rw [Nat.zero_add]; exact hL)
      (by rw [Nat.zero_add]; exact h1)
    have r2 := wrg_region w henv H j g 0 _ (by rw [Nat.zero_add]; exact hR)
      (by rw [Nat.zero_add]; exact h2)
    rw [g1, g2] at r1
    rw [g3, g4] at r2
    omega

theorem seg_disj (w : waksman) (k k1 : Nat) (h : k < k1) : w.length / 2 ^ k1 ≤ w.seg_base k := by
  unfold waksman.seg_base
  exact Nat.div_le_div_left (Nat.pow_le_pow_right (by norm_num) h) (by positivity)

theorem room_left (w : waksman) (key0 : Nat → Nat) (h : Nat) (N : perm_node) (sk : List Nat)
    (hr : w.room key0 (h + 1) N sk) : w.room key0 h (w.lch N) sk := by
  intro k hk
  have hne : w.em key0 (h + 1) N k ≠ [] := by
    rw [em_succ]
    intro hh
    exact hk (List.append_eq_nil.mp hh).1
  obtain ⟨r1, r2⟩ := hr k hne
  rw [em_succ, List.length_append] at r2
  exact ⟨r1, by omega⟩

theorem room_right (w : waksman) (key0 : Nat → Nat) (h : Nat) (N : perm_node)
    (sk sk1 : List Nat) (hr : w.room key0 (h + 1) N sk) (hl : sk1.length = sk.length)
    (hg : ∀ k, sk1.getD k 0 = sk.getD k 0 + (w.em key0 h (w.lch N) k).length) :
    w.room key0 h (w.rch N) sk1 := by
  intro k hk
  have hne : w.em key0 (h + 1) N k ≠ [] := by
    rw [em_succ]
    intro hh
    exact hk (List.append_eq_nil.mp hh).2
  obtain ⟨r1, r2⟩ := hr k hne
  rw [em_succ, List.length_append] at r2
  rw [hl, hg k]
  exact ⟨r1, by omega⟩

/-- The results of the configuration phase at a node and in the subtrees of its two
children, put together. -/
theorem cps_combine (w : waksman) (henv : w.env) (key0 : Nat → Nat) (H : Nat) (h : Nat)
    (N : perm_node) (hN : w.node_ok H N (h + 1)) (sk sk1 sk2 : List Nat)
    (c c1 c2 c3 : cloud) (hroom : w.room key0 (h + 1) N sk)
    (h1 : c.chg c1 (fun U j => (U = w.temp1 ∨ U = w.temp2) ∧ N.offset ≤ j ∧
      j < N.offset + N.size))
    (h2 : w.cps key0 h (w.lch N) sk c1 (sk1, c2))
    (h3 : w.cps key0 h (w.rch N) sk1 c2 (sk2, c3)) :
    w.cps key0 (h + 1) N sk c (sk2, c3) := by
  obtain ⟨a1, a2, a3, a4, a5⟩ := h2
  obtain ⟨b1, b2, b3, b4, b5⟩ := h3
  simp only at a1 a2 a3 a4 a5 b1 b2 b3 b4 b5
  obtain ⟨g1, g2, g3, g4, _⟩ := child_geom w henv H N h hN
  rw [g1, g2] at a1
  rw [g3, g4] at b1
  have t3 := henv.t3s
  have t13 := henv.t13
  have t23 := henv.t23
  have t1s := henv.t1s
  have t2s := henv.t2s
  refine ⟨?_, ?_, ?_, ?_, ?_⟩
  · refine chg_trans _ _ _ _ _ _ (chg_trans _ _ _ _ _ _ h1 a1 ?_ ?_) b1 (fun _ _ hh => hh) ?_
    · rintro U j ⟨u1, u2, u3⟩
      exact Or.inl ⟨u1, u2, u3⟩
    · rintro U j (⟨u1, u2, u3⟩ | ⟨u1, u2⟩ | ⟨u1, k, t, u2, u3⟩)
      · exact Or.inl ⟨u1, by omega, by omega⟩
      · exact Or.inr (Or.inl ⟨u1, (wrg_succ w h N j).2 (Or.inl u2)⟩)
      · refine Or.inr (Or.inr ⟨u1, k, t, ?_, u3⟩)
        rw [em_succ, List.length_append]
        omega
    · rintro U j (⟨u1, u2, u3⟩ | ⟨u1, u2⟩ | ⟨u1, k, t, u2, u3⟩)
      · exact Or.inl ⟨u1, by omega, by omega⟩
      · exact Or.inr (Or.inl ⟨u1, (wrg_succ w h N j).2 (Or.inr u2)⟩)
      · refine Or.inr (Or.inr ⟨u1, k, (w.em key0 h (w.lch N) k).length + t, ?_, ?_⟩)
        · rw [em_succ, List.length_append]
          omega
        · rw [u3, a4 k]
          omega
  · simp only
    rw [outs_succ]
    refine ⟨outs_chg w key0 _ c2 c3 _ b1 h h _ ?_ a2, b2⟩
    rintro j hj (⟨u1 | u1, -⟩ | ⟨-, u2⟩ | ⟨u1, -⟩)
    · exact t13 u1.symm
    · exact t23 u1.symm
    · exact wrg_disj w henv H N h hN j hj u2
    · exact t3 u1
  · exact b3.trans a3
  · intro k
    simp only
    rw [b4 k, a4 k, em_succ, List.length_append]
    omega
  · intro k t ht
    simp only
    rw [em_succ] at ht ⊢
    rw [List.length_append] at ht
    by_cases hlt : t < (w.em key0 h (w.lch N) k).length
    · rw [List.getElem?_append_left hlt, ← a5 k t hlt]
      refine b1.peek _ _ ?_
      rintro (⟨u1 | u1, -⟩ | ⟨u1, -⟩ | ⟨-, k1, t1, u2, u3⟩)
      · exact t1s u1.symm
      · exact t2s u1.symm
      · exact t3 u1.symm
      · rw [a4 k1] at u3
        have hne : w.em key0 (h + 1) N k ≠ [] := by
          rw [em_succ]
          intro hh
          rw [(List.append_eq_nil.mp hh).1] at hlt
          simp at hlt
        have hne1 : w.em key0 (h + 1) N k1 ≠ [] := by
          rw [em_succ]
          intro hh
          rw [(List.append_eq_nil.mp hh).2] at u2
          simp at u2
        obtain ⟨-, r2⟩ := hroom k hne
        obtain ⟨-, r3⟩ := hroom k1 hne1
        rw [em_succ, List.length_append] at r2 r3
        rcases Nat.lt_trichotomy k k1 with hk | hk | hk
        · have := seg_disj w k k1 hk
          omega
        · subst hk
          omega
        · have := seg_disj w k1 k hk
          omega
    · rw [List.getElem?_append_right (by omega)]
      have := b5 k (t - (w.em key0 h (w.lch N) k).length) (by omega)
      rw [a4 k] at this
      rw [← this]
      congr 1
      omega

/-- The configuration phase of a subtree returns: the outputs of its leaves are in `temp3`
or appended to the skip array. -/
theorem cp_sub (w : waksman) (henv : w.env) (key0 : Nat → Nat)
    (hk : ∀ i, key0 i &&& INT32_MAX = key0 i) (H : Nat) (hH : H ≤ 31) :
    ∀ (h : Nat) (N : perm_node), w.node_ok H N h →
      (h = 0 → N.parent.is_null = false ∧ N.parent.offset + 2 * N.size + 1 < 2 ^ 32) →
      ∀ (fuel : Nat), h < fuel → ∀ (sk : List Nat) (c : cloud), w.live c →
      w.pre key0 c h N → w.room key0 h N sk →
      ret (w.configuration_phase fuel N (w.arr N.depth) (sk, c)) (w.cps key0 h N sk c) := by
  intro h
  induction h with
  | zero =>
    intro N hN hz fuel hf sk c hl hpre hroom
    obtain ⟨f, rfl⟩ : ∃ f, fuel = f + 1 := ⟨fuel - 1, by omega⟩
    rw [waksman.configuration_phase]
    simp only
    rw [if_pos hN.uni.2]
    exact cp_leaf w henv key0 hk H N hN (hz rfl).1 (hz rfl).2 sk c hl hpre hroom
  | succ h ih =>
    intro N hN _ fuel hf sk c hl hpre hroom
    obtain ⟨f, rfl⟩ : ∃ f, fuel = f + 1 := ⟨fuel - 1, by omega⟩
    obtain ⟨hL, hR⟩ := children_ok w henv H N h hN
    obtain ⟨g1, g2, g3, g4, g5, g6, g7, g8, g9, g10, g11, g12, g13, g14⟩ :=
      child_geom w henv H N h hN
    have hlt := henv.len_lt
    have hfit := hN.fit
    have hnode := cp_node w henv key0 hk H hH h N hN c hl hpre
    have hcL := fun (c1 : cloud) (hl1 : w.live c1) (hp : w.pre key0 c1 h (w.lch N)) =>
      ih (w.lch N) hL (fun _ => ⟨g7, by rw [g9, g2]; omega⟩) f (by omega) sk c1 hl1 hp
        (room_left w key0 h N sk hroom)
    have hcR := fun (sk1 : List Nat) (c2 : cloud) (hl2 : w.live c2)
        (hp : w.pre key0 c2 h (w.rch N)) (hr : w.room key0 h (w.rch N) sk1) =>
      ih (w.rch N) hR (fun _ => ⟨g8, by rw [g10, g4]; omega⟩) f (by omega) sk1 c2 hl2 hp hr
    rw [g5] at hcL
    rw [g6] at hcR
    clear ih
    obtain ⟨p, d, l, o, s, e0, x0, rfl⟩ := wf_node w N hN.wf
    obtain ⟨e, x, hset, hsw, _⟩ := sw_spec w henv H p d l o s e0 x0 h hN
    have hLe : w.lch (.node p d l o s e0 x0) =
        .node (.node p d l o s e x) (d + 1) true o (s / 2) [] [] := by
      unfold waksman.lch
      rw [hsw]
      rfl
    have hRe : w.rch (.node p d l o s e0 x0) =
        .node (.node p d l o s e x) (d + 1) false ((o + s / 2) % W32) (s / 2 + s % 2) [] [] := by
      unfold waksman.rch
      rw [hsw]
      rfl
    rw [waksman.configuration_phase]
    simp only [perm_node.size, perm_node.depth, perm_node.offset] at hnode hcL hcR ⊢
    have hs : w.leaf_size < s := hN.uni.1
    rw [if_neg (not_le.mpr hs), hset, ok_bind, flip_arr w henv d]
    simp only [perm_node.size, perm_node.depth, perm_node.offset]
    rw [← hLe, ← hRe]
    rw [hsw] at hnode
    refine ret_bind _ _ _ _ hnode ?_
    rintro c1 ⟨k1, k2, k3⟩
    have hl1 := live_chg w _ _ _ k1 hl
    refine ret_bind _ _ _ _ (hcL c1 hl1 k2) ?_
    rintro ⟨sk1, c2⟩ hc2
    have hl2 := live_chg w _ _ _ hc2.1 hl1
    have hpR : w.pre key0 c2 h (w.rch (.node p d l o s e0 x0)) := by
      refine pre_chg w henv key0 H hH h _ hR c1 c2 _ hc2.1 ?_ k3
      intro U j hU hj1 hj2 hW
      rw [g3] at hj1
      rw [g3, g4] at hj2
      rcases hW with ⟨-, u2, u3⟩ | ⟨u1, -⟩ | ⟨u1, -⟩
      · rw [g1, g2] at u3
        omega
      · rcases hU with hU | hU
        · exact henv.t13 (hU.symm.trans u1)
        · exact henv.t23 (hU.symm.trans u1)
      · rcases hU with hU | hU
        · exact henv.t1s (hU.symm.trans u1)
        · exact henv.t2s (hU.symm.trans u1)
    refine ret_mono _ _ _ (hcR sk1 c2 hl2 hpR
      (room_right w key0 h _ sk sk1 hroom hc2.2.2.1 hc2.2.2.2.1)) ?_
    rintro ⟨sk2, c3⟩ hc3
    exact cps_combine w henv key0 H h _ hN sk sk1 sk2 c c1 c2 c3 hroom
      (chg_mono _ _ _ _ k1 (fun U j hh => ⟨hh.1, hh.2.1, hh.2.2.1⟩)) hc2 hc3

/-! ### Waksman permutation: what the skip array holds -/

theorem shiftE_zero (e : element) : shiftE e 0 = e := by
  unfold shiftE
  simp

theorem shiftE_add (e : element) (a b : Nat) : shiftE (shiftE e a) b = shiftE e (a + b) := by
  unfold shiftE
  simp only [Nat.div_div_eq_div_mul, pow_add]

/-- The last output of a child, with the setting of the exit switch of the parent shifted
out, is an output of the parent: the last but one for the left child of a node of even
size, the last for the right child. -/
theorem pop_last (w : waksman) (henv : w.env) (key0 : Nat → Nat) (H : Nat) (M : perm_node)
    (h : Nat) (hM : w.node_ok H M (h + 1)) :
    (M.size % 2 = 0 →
      shiftE (w.outE key0 (w.lch M) ((w.lch M).size - 1)) 1 = w.outE key0 M (M.size - 2)) ∧
    shiftE (w.outE key0 (w.rch M) ((w.rch M).size - 1)) 1 = w.outE key0 M (M.size - 1) := by
  obtain ⟨p, d, l, o, s, e0, x0, rfl⟩ := wf_node w M hM.wf
  obtain ⟨e, x, _, hsw, hv, hwf, hb⟩ := sw_spec w henv H p d l o s e0 x0 h hM
  have hs : w.leaf_size < s := hM.uni.1
  have hge := henv.leaf_ge
  have hlx : x.length = nsw s := hv.2.1
  simp only [perm_node.size]
  have hpop : ∀ (left : Bool) (sC oC y : Nat), sC - 1 < nsw s →
      stage_wire x left (sC - 1) = y → y < s →
      shiftE (w.outE key0 (.node (.node p d l o s e x) (d + 1) left oC sC [] []) (sC - 1)) 1 =
        w.outE key0 (.node p d l o s e0 x0) y := by
    intro left sC oC y h1 h2 h3
    rw [outE_child w key0 p d l o s e x hv hb _ left _ _ _ _ _ h1 (by rw [h2]; exact h3), h2,
      outE_own w key0 p d l o s e x e0 x0]
    unfold shiftE
    simp only [pow_one]
    have hdiv : (2 * (w.outE key0 (.node p d l o s e0 x0) y).aux +
        (x.getD (sC - 1) false).toNat) / 2 = (w.outE key0 (.node p d l o s e0 x0) y).aux := by
      have := Bool.toNat_le (x.getD (sC - 1) false)
      omega
    rw [hdiv]
  unfold waksman.lch waksman.rch
  rw [hsw]
  simp only [perm_node.size, perm_node.depth, perm_node.offset]
  constructor
  · intro hev
    have hx := hv.2.2.2.1 hev
    simp only [perm_node.size, perm_node.exit, nsw] at hx
    refine hpop true (s / 2) o (s - 2) (by unfold nsw; omega) ?_ (by omega)
    unfold stage_wire
    have e1 : s / 2 - 1 = (s + 1) / 2 - 1 := by omega
    rw [e1, hx, if_pos rfl]
    omega
  · refine hpop false (s / 2 + s % 2) _ (s - 1) (by unfold nsw; omega) ?_ (by omega)
    unfold stage_wire
    have e1 : s / 2 + s % 2 - 1 = (s + 1) / 2 - 1 := by omega
    rw [e1]
    by_cases hev : s % 2 = 0
    · have hx := hv.2.2.2.1 hev
      simp only [perm_node.size, perm_node.exit, nsw] at hx
      rw [hx, if_neg (by decide)]
      omega
    · have hodd : (perm_node.node p d l o s e x).size % 2 = 1 := by
        simp only [perm_node.size]
        omega
      have hx := (hv.2.2.1 hodd).2
      simp only [perm_node.size, perm_node.exit, nsw] at hx
      rw [hx, if_pos rfl]
      omega

theorem rise_own (p : perm_node) (d : Nat) (l : Bool) (o s : Nat) (e x e1 x1 : List Bool) :
    rise (.node p d l o s e x) = rise (.node p d l o s e1 x1) := by
  cases p <;> rfl

/-- How far the last output of the children of a node rises. -/
theorem rise_child (w : waksman) (henv : w.env) (H : Nat) (M : perm_node) (h : Nat)
    (hM : w.node_ok H M (h + 1)) :
    (M.size % 2 = 0 → rise (w.lch M) = 0) ∧
    (M.parent.is_null = true → rise (w.rch M) = 0) ∧
    (M.parent.is_null = false →
      rise (w.rch M) = if skipcond M then rise M + 1 else 0) := by
  obtain ⟨p, d, l, o, s, e0, x0, rfl⟩ := wf_node w M hM.wf
  obtain ⟨e, x, _, hsw, _⟩ := sw_spec w henv H p d l o s e0 x0 h hM
  unfold waksman.lch waksman.rch
  rw [hsw]
  have hr := rise_own p d l o s e x e0 x0
  cases p with
  | null =>
    refine ⟨fun _ => ?_, fun _ => ?_, fun hp => ?_⟩
    · simp [rise, perm_node.is_null]
    · simp [rise, perm_node.is_null]
    · simp [perm_node.parent, perm_node.is_null] at hp
  | node gp pd pl po ps pe px =>
    refine ⟨fun hev => ?_, fun hp => ?_, fun _ => ?_⟩
    · simp only [perm_node.size] at hev
      rw [rise]
      simp only [perm_node.is_null, Bool.not_false, if_true, perm_node.size]
      split <;> first | rfl | (simp; try omega)
    · simp [perm_node.parent, perm_node.is_null] at hp
    · rw [rise]
      simp only [perm_node.is_null, Bool.not_false, if_true, perm_node.size, skipcond,
        perm_node.parent, perm_node.is_left_child, Bool.or_false, Bool.false_eq_true, if_false]
      rw [hr]
      by_cases hq : ps % 2 = 0
      · rw [if_pos hq, if_pos (Or.inl hq)]
        split <;> rfl
      · rw [if_neg hq]
        cases l
        · simp
        · simp [hq]

theorem skipcond_child (w : waksman) (henv : w.env) (H : Nat) (M : perm_node) (h : Nat)
    (hM : w.node_ok H M (h + 1)) :
    (skipcond (w.lch M) ↔ M.size % 2 = 0) ∧ skipcond (w.rch M) := by
  obtain ⟨g1, g2, g3, g4, g5, g6, g7, g8, g9, g10, g11, g12, g13, g14⟩ :=
    child_geom w henv H M h hM
  unfold skipcond
  rw [g11, g13, g14]
  simp

/-- What the subtree of a node that is not the root appends to the segments of the levels
above the node: the last but one output of a node of even size goes to the segment of the
parent, and the last output to the segment that `last_seg` names. -/
theorem em_up (w : waksman) (henv : w.env) (key0 : Nat → Nat) (H : Nat) :
    ∀ (h : Nat) (M : perm_node), w.node_ok H M h → M.parent.is_null = false →
      ∀ k, h ≤ k + 1 →
      w.em key0 h M k =
        (if 1 ≤ h ∧ M.size % 2 = 0 ∧ k + 1 = h then [w.outE key0 M (M.size - 2)] else []) ++
        (if last_seg h M = some k then [shiftE (w.outE key0 M (M.size - 1)) (k + 1 - h)]
          else []) := by
  intro h
  induction h with
  | zero =>
    intro M hM hp k hk
    have hn : ¬ (1 ≤ 0 ∧ M.size % 2 = 0 ∧ k + 1 = 0) := by omega
    rw [em_leaf, if_neg hn, List.nil_append]
    unfold last_seg
    by_cases hs : skipcond M
    · simp only [hs, true_and, if_true, Option.some.injEq, Nat.zero_add, Nat.sub_zero]
    · simp [hs]
  | succ h ih =>
    intro M hM hp k hk
    obtain ⟨hL, hR⟩ := children_ok w henv H M h hM
    obtain ⟨g1, g2, g3, g4, g5, g6, g7, g8, g9, g10, g11, g12, g13, g14⟩ :=
      child_geom w henv H M h hM
    obtain ⟨p1, p2⟩ := pop_last w henv key0 H M h hM
    obtain ⟨r1, r2, r3⟩ := rise_child w henv H M h hM
    obtain ⟨hsl, hsr⟩ := skipcond_child w henv H M h hM
    rw [em_succ, ih _ hL g7 k (by omega), ih _ hR g8 k (by omega)]
    have hn1 : ¬ (1 ≤ h ∧ (w.lch M).size % 2 = 0 ∧ k + 1 = h) := by omega
    have hn2 : ¬ (1 ≤ h ∧ (w.rch M).size % 2 = 0 ∧ k + 1 = h) := by omega
    rw [if_neg hn1, if_neg hn2, List.nil_append, List.nil_append]
    have eL : (if last_seg h (w.lch M) = some k then
          [shiftE (w.outE key0 (w.lch M) ((w.lch M).size - 1)) (k + 1 - h)] else []) =
        (if 1 ≤ h + 1 ∧ M.size % 2 = 0 ∧ k + 1 = h + 1 then
          [w.outE key0 M (M.size - 2)] else []) := by
      unfold last_seg
      by_cases hev : M.size % 2 = 0
      · rw [if_pos (hsl.mpr hev), r1 hev]
        by_cases hkk : k = h
        · subst hkk
          have e1 : k + 1 - k = 1 := by omega
          have e0 : some (k + 0) = some k := rfl
          have e3 : 1 ≤ k + 1 ∧ M.size % 2 = 0 ∧ k + 1 = k + 1 := ⟨by omega, hev, rfl⟩
          rw [if_pos e0, if_pos e3, e1, p1 hev]
        · have hn : ¬ some (h + 0) = some k := by
            intro hh
            injection hh with hh
            omega
          have hn3 : ¬ (1 ≤ h + 1 ∧ M.size % 2 = 0 ∧ k + 1 = h + 1) := by omega
          rw [if_neg hn, if_neg hn3]
      · have hn3 : ¬ (1 ≤ h + 1 ∧ M.size % 2 = 0 ∧ k + 1 = h + 1) := by omega
        rw [if_neg (fun hh => hev (hsl.mp hh)), if_neg hn3]
        by_cases h0 : h = 0
        · have hn4 : ¬ (none : Option Nat) = some k := by simp
          rw [if_pos h0, if_neg hn4]
        · have hn : ¬ some (h - 1) = some k := by
            intro hh
            injection hh with hh
            omega
          rw [if_neg h0, if_neg hn]
    have eR : (if last_seg h (w.rch M) = some k then
          [shiftE (w.outE key0 (w.rch M) ((w.rch M).size - 1)) (k + 1 - h)] else []) =
        (if last_seg (h + 1) M = some k then
          [shiftE (w.outE key0 M (M.size - 1)) (k + 1 - (h + 1))] else []) := by
      unfold last_seg
      rw [if_pos hsr, r3 hp]
      by_cases hsm : skipcond M
      · rw [if_pos hsm, if_pos hsm]
        by_cases hkk : k = h + (rise M + 1)
        · have e1 : some (h + 1 + rise M) = some k := by
            rw [hkk]
            congr 1
            omega
          have e2 : k + 1 - h = 1 + (k + 1 - (h + 1)) := by omega
          have e0 : some (h + (rise M + 1)) = some k := by rw [hkk]
          rw [if_pos e0, if_pos e1, ← p2, shiftE_add, e2]
        · have hn1 : ¬ some (h + (rise M + 1)) = some k := by
            intro hh
            injection hh with hh
            omega
          have hn2 : ¬ some (h + 1 + rise M) = some k := by
            intro hh
            injection hh with hh
            omega
          rw [if_neg hn1, if_neg hn2]
      · have hn0 : ¬ h + 1 = 0 := by omega
        rw [if_neg hsm, if_neg hsm, if_neg hn0]
        by_cases hkk : k = h
        · subst hkk
          have e2 : k + 1 - k = 1 + (k + 1 - (k + 1)) := by omega
          have e0 : some (k + 0) = some k := rfl
          have e1 : some (k + 1 - 1) = some k := rfl
          rw [if_pos e0, if_pos e1, ← p2, shiftE_add, e2]
        · have hn1 : ¬ some (h + 0) = some k := by
            intro hh
            injection hh with hh
            omega
          have hn2 : ¬ some (h + 1 - 1) = some k := by
            intro hh
            injection hh with hh
            omega
          rw [if_neg hn1, if_neg hn2]
    rw [eL, eR]

theorem last_seg_succ (h : Nat) (M : perm_node) :
    last_seg (h + 1) M = some (if skipcond M then h + 1 + rise M else h) := by
  unfold last_seg
  by_cases hs : skipcond M
  · rw [if_pos hs, if_pos hs]
  · have hn : ¬ h + 1 = 0 := by omega
    rw [if_neg hs, if_neg hs, if_neg hn]
    rfl

/-- The elements that a node two or more levels above the leaves takes from the skip
array: they are last outputs of its children, in the order in which
`route_internal_node_erp` reads them. -/
theorem em_want (w : waksman) (henv : w.env) (key0 : Nat → Nat) (H : Nat) (h : Nat)
    (N : perm_node) (hN : w.node_ok H N (h + 2)) :
    w.em key0 (h + 2) N h =
      if N.size % 2 = 0 then
        (if (N.size / 2) % 2 = 1 then []
         else [w.outE key0 (w.lch N) ((w.lch N).size - 2),
               w.outE key0 (w.rch N) ((w.rch N).size - 2)])
      else
        (if (N.size / 2) % 2 = 1 then
          [w.outE key0 (w.lch N) ((w.lch N).size - 1),
           w.outE key0 (w.rch N) ((w.rch N).size - 2)]
         else [w.outE key0 (w.lch N) ((w.lch N).size - 2),
               w.outE key0 (w.lch N) ((w.lch N).size - 1)]) := by
  obtain ⟨hL, hR⟩ := children_ok w henv H N (h + 1) hN
  obtain ⟨g1, g2, g3, g4, g5, g6, g7, g8, g9, g10, g11, g12, g13, g14⟩ :=
    child_geom w henv H N (h + 1) hN
  obtain ⟨hsl, hsr⟩ := skipcond_child w henv H N (h + 1) hN
  have e0 : h + 1 - (h + 1) = 0 := by omega
  rw [em_succ, em_up w henv key0 H _ _ hL g7 h (by omega),
    em_up w henv key0 H _ _ hR g8 h (by omega), last_seg_succ, last_seg_succ, e0,
    shiftE_zero, shiftE_zero, if_pos hsr]
  have hnR : ¬ some (h + 1 + rise (w.rch N)) = some h := by
    intro hh
    injection hh with hh
    omega
  rw [if_neg hnR, List.append_nil, g2, g4]
  by_cases hev : N.size % 2 = 0
  · have hnL : ¬ some (if skipcond (w.lch N) then h + 1 + rise (w.lch N) else h) = some h := by
      rw [if_pos (hsl.mpr hev)]
      intro hh
      injection hh with hh
      omega
    rw [if_neg hnL, List.append_nil, if_pos hev, hev]
    simp only [Nat.add_zero]
    by_cases hm : (N.size / 2) % 2 = 1
    · simp [hm]
    · have hm0 : N.size / 2 % 2 = 0 := by omega
      simp [hm0]
  · have hpL : some (if skipcond (w.lch N) then h + 1 + rise (w.lch N) else h) = some h := by
      rw [if_neg (fun hh => hev (hsl.mp hh))]
    have ho : N.size % 2 = 1 := by omega
    rw [if_pos hpL, if_neg hev, ho]
    by_cases hm : (N.size / 2) % 2 = 1
    · have hn1 : ¬ (1 ≤ h + 1 ∧ N.size / 2 % 2 = 0 ∧ h + 1 = h + 1) := by omega
      have hp2 : 1 ≤ h + 1 ∧ (N.size / 2 + 1) % 2 = 0 ∧ h + 1 = h + 1 :=
        ⟨by omega, by omega, rfl⟩
      rw [if_pos hm, if_neg hn1, if_pos hp2]
      rfl
    · have hp1 : 1 ≤ h + 1 ∧ N.size / 2 % 2 = 0 ∧ h + 1 = h + 1 := ⟨by omega, by omega, rfl⟩
      have hn2 : ¬ (1 ≤ h + 1 ∧ (N.size / 2 + 1) % 2 = 0 ∧ h + 1 = h + 1) := by omega
      rw [if_neg hm, if_pos hp1, if_neg hn2]
      rfl

/-- The segments that the subtree of the root fills for the root: the last outputs of the
network, which `complete_bottom_wires` copies; nothing is stored for levels that do not
exist. -/
theorem em_sink (w : waksman) (henv : w.env) (key0 : Nat → Nat) (H : Nat) (h : Nat)
    (N : perm_node) (hN : w.node_ok H N (h + 1)) (hp : N.parent.is_null = true) :
    w.em key0 (h + 1) N h =
      (if N.size % 2 = 0 then [w.outE key0 N (N.size - 2)] else []) ++
        [w.outE key0 N (N.size - 1)] ∧
    ∀ k, h < k → w.em key0 (h + 1) N k = [] := by
  obtain ⟨hL, hR⟩ := children_ok w henv H N h hN
  obtain ⟨g1, g2, g3, g4, g5, g6, g7, g8, g9, g10, g11, g12, g13, g14⟩ :=
    child_geom w henv H N h hN
  obtain ⟨hsl, hsr⟩ := skipcond_child w henv H N h hN
  obtain ⟨p1, p2⟩ := pop_last w henv key0 H N h hN
  obtain ⟨r1, r2, r3⟩ := rise_child w henv H N h hN
  have hlr : last_seg h (w.rch N) = some h := by
    unfold last_seg
    rw [if_pos hsr, r2 hp]
    rfl
  have hll : ∀ k, h ≤ k → (last_seg h (w.lch N) = some k ↔ (N.size % 2 = 0 ∧ k = h)) := by
    intro k hk
    unfold last_seg
    by_cases hev : N.size % 2 = 0
    · rw [if_pos (hsl.mpr hev), r1 hev]
      constructor
      · intro hh
        injection hh with hh
        exact ⟨hev, by omega⟩
      · intro hh
        rw [hh.2]
        rfl
    · rw [if_neg (fun hh => hev (hsl.mp hh))]
      constructor
      · intro hh
        exfalso
        by_cases h0 : h = 0
        · rw [if_pos h0] at hh
          cases hh
        · rw [if_neg h0] at hh
          injection hh with hh
          omega
      · intro hh
        exact absurd hh.1 hev
  have hn1 : ∀ k, h ≤ k → ¬ (1 ≤ h ∧ (w.lch N).size % 2 = 0 ∧ k + 1 = h) := by
    intro k hk
    omega
  have hn2 : ∀ k, h ≤ k → ¬ (1 ≤ h ∧ (w.rch N).size % 2 = 0 ∧ k + 1 = h) := by
    intro k hk
    omega
  have e1 : h + 1 - h = 1 := by omega
  constructor
  · rw [em_succ, em_up w henv key0 H _ _ hL g7 h (by omega),
      em_up w henv key0 H _ _ hR g8 h (by omega), if_neg (hn1 h (le_refl _)),
      if_neg (hn2 h (le_refl _)), List.nil_append, List.nil_append, if_pos hlr, e1, p2]
    by_cases hev : N.size % 2 = 0
    · rw [if_pos ((hll h (le_refl _)).mpr ⟨hev, rfl⟩), if_pos hev, p1 hev]
    · rw [if_neg (fun hh => hev ((hll h (le_refl _)).mp hh).1), if_neg hev]
  · intro k hk
    have hnr : ¬ last_seg h (w.rch N) = some k := by
      rw [hlr]
      intro hh
      injection hh with hh
      omega
    have hnl : ¬ last_seg h (w.lch N) = some k := by
      intro hh
      have := ((hll k (by omega)).mp hh).2
      omega
    rw [em_succ, em_up w henv key0 H _ _ hL g7 k (by omega),
      em_up w henv key0 H _ _ hR g8 k (by omega), if_neg (hn1 k (by omega)),
      if_neg (hn2 k (by omega)), if_neg hnr, if_neg hnl]
    rfl

/-- A node `h` levels above the leaves has at least `2 ^ (h + 1)` wires. -/
theorem uni_size (ls : Nat) : ∀ (h s : Nat), uni ls h s → 2 ^ (h + 1) ≤ s := by
  intro h
  induction h with
  | zero =>
    intro s hu
    exact hu.1
  | succ h ih =>
    intro s hu
    have := ih _ hu.2.1
    rw [pow_succ]
    omega

/-- The number of elements that the subtree of a node stores for a level inside the
subtree: at most two for every node of that level. -/
theorem em_len (w : waksman) (henv : w.env) (key0 : Nat → Nat) (H : Nat) (k : Nat) :
    ∀ (g : Nat) (M : perm_node), w.node_ok H M (k + 2 + g) →
      (w.em key0 (k + 2 + g) M k).length ≤ 2 ^ (g + 1) := by
  intro g
  induction g with
  | zero =>
    intro M hM
    rw [Nat.add_zero, em_want w henv key0 H k M hM]
    split <;> split <;> simp
  | succ g ih =>
    intro M hM
    obtain ⟨hL, hR⟩ := children_ok w henv H M (k + 2 + g) hM
    have e1 : k + 2 + (g + 1) = (k + 2 + g) + 1 := by omega
    rw [e1, em_succ, List.length_append, pow_succ]
    have := ih _ hL
    have := ih _ hR
    omega

/-- The skip array has room for everything that the configuration phase appends to it. -/
theorem room_root (w : waksman) (henv : w.env) (key0 : Nat → Nat) (h : Nat) (N : perm_node)
    (hN : w.node_ok (h + 2) N (h + 1)) (hp : N.parent.is_null = true)
    (hs : N.size = w.length) :
    w.room key0 (h + 1) N (List.replicate (h + 1) 0) := by
  intro k hk
  obtain ⟨s1, s2⟩ := em_sink w henv key0 (h + 2) h N hN hp
  have hsz := uni_size w.leaf_size _ _ hN.uni
  rw [hs] at hsz
  have hkh : k ≤ h := by
    by_contra hh
    exact hk (s2 k (by omega))
  have hg : (List.replicate (h + 1) 0).getD k 0 = 0 := by
    rw [List.getD_eq_getElem?_getD, List.getElem?_replicate]
    split <;> rfl
  have hpow : 2 ^ (h + 2) = 2 ^ (h + 1 - k) * 2 ^ (k + 1) := by
    rw [← pow_add]
    congr 1
    omega
  have hq : 2 ^ (h + 1 - k) ≤ w.length / 2 ^ (k + 1) := by
    rw [Nat.le_div_iff_mul_le (by positivity), ← hpow]
    exact hsz
  have hhalf : w.length / 2 ^ (k + 1) = w.length / 2 ^ k / 2 := by
    rw [Nat.div_div_eq_div_mul, pow_succ]
  have hlen : (w.em key0 (h + 1) N k).length ≤ 2 ^ (h + 1 - k) := by
    by_cases hkk : k = h
    · subst hkk
      rw [s1]
      have e1 : k + 1 - k = 1 := by omega
      rw [e1]
      split <;> simp
    · have e1 : h + 1 = k + 2 + (h - 1 - k) := by omega
      have e2 : h + 1 - k = (h - 1 - k) + 1 + 1 := by omega
      have hN1 : w.node_ok (h + 2) N (k + 2 + (h - 1 - k)) := by
        rw [← e1]
        exact hN
      have := em_len w henv key0 (h + 2) k (h - 1 - k) N hN1
      rw [← e1] at this
      rw [e2, pow_succ]
      omega
  refine ⟨by rw [List.length_replicate]; omega, ?_⟩
  unfold waksman.seg_base
  rw [hg]
  rw [hhalf] at hq ⊢
  omega

/-! ### Waksman permutation: the exit switches of one node in the empty-road phase -/

/-- The fields that the empty-road phase reads are those of the node of the configuration
phase. -/
theorem bare_geo (N : perm_node) :
    (bare N).size = N.size ∧ (bare N).offset = N.offset ∧ (bare N).depth = N.depth ∧
    (bare N).is_left_child = N.is_left_child ∧
    (bare N).parent.is_null = N.parent.is_null ∧
    (bare N).parent.offset = N.parent.offset := by
  cases N with
  | null => exact ⟨rfl, rfl, rfl, rfl, rfl, rfl⟩
  | node p d l o s e x =>
    cases p with
    | null => exact ⟨rfl, rfl, rfl, rfl, rfl, rfl⟩
    | node gp pd pl po ps pe px => exact ⟨rfl, rfl, rfl, rfl, rfl, rfl⟩

/-- The two elements that meet in exit switch `k` of a node: output `k` of the left child
carries the setting of the switch in its lowest bit, and with this bit shifted out the two
elements are the outputs `2k` and `2k + 1` of the node, straight or crossed. -/
theorem out_pair (w : waksman) (henv : w.env) (key0 : Nat → Nat) (H : Nat) (M : perm_node)
    (h : Nat) (hM : w.node_ok H M (h + 1)) (k : Nat) (hk : 2 * k + 1 < M.size) :
    ∃ b : Bool, (w.outE key0 (w.lch M) k).aux % 2 = b.toNat ∧
      shiftE (w.outE key0 (w.lch M) k) 1 = w.outE key0 M (if b then 2 * k else 2 * k + 1) ∧
      shiftE (w.outE key0 (w.rch M) k) 1 = w.outE key0 M (if b then 2 * k + 1 else 2 * k) := by
  obtain ⟨p, d, l, o, s, e0, x0, rfl⟩ := wf_node w M hM.wf
  obtain ⟨e, x, _, hsw, hv, hwf, hb⟩ := sw_spec w henv H p d l o s e0 x0 h hM
  simp only [perm_node.size] at hk
  have hpop : ∀ (left : Bool) (sC oC : Nat),
      w.outE key0 (.node (.node p d l o s e x) (d + 1) left oC sC [] []) k =
        { key := (w.outE key0 (.node p d l o s e0 x0) (stage_wire x left k)).key,
          aux := 2 * (w.outE key0 (.node p d l o s e0 x0) (stage_wire x left k)).aux +
            (x.getD k false).toNat } := by
    intro left sC oC
    have h1 : stage_wire x left k < s := by
      unfold stage_wire
      split <;> omega
    rw [outE_child w key0 p d l o s e x hv hb _ left _ _ _ _ _ (by unfold nsw; omega) h1,
      outE_own w key0 p d l o s e x e0 x0]
  have hdiv : ∀ a : Nat, (2 * a + (x.getD k false).toNat) / 2 = a := by
    intro a
    have := Bool.toNat_le (x.getD k false)
    omega
  unfold waksman.lch waksman.rch
  rw [hsw]
  simp only [perm_node.size, perm_node.depth, perm_node.offset]
  refine ⟨x.getD k false, ?_, ?_, ?_⟩
  · rw [hpop]
    simp only
    have := Bool.toNat_le (x.getD k false)
    omega
  · rw [hpop]
    unfold shiftE
    simp only [pow_one, hdiv]
    unfold stage_wire
    cases x.getD k false <;> rfl
  · rw [hpop]
    unfold shiftE
    simp only [pow_one, hdiv]
    unfold stage_wire
    cases x.getD k false <;> rfl

theorem pos_bare (N : perm_node) (hpo : N.parent.offset + 2 * N.size + 1 < 2 ^ 32) (k : Nat)
    (hk : 2 * k + 1 < N.size) :
    (if (bare N).parent.is_null then 2 * k % W32
      else if (bare N).is_left_child then ((bare N).parent.offset + 4 * k) % W32
      else ((bare N).parent.offset + 4 * k + 1) % W32) = pos N (2 * k) ∧
    (if (bare N).parent.is_null then (pos N (2 * k) + 1) % W32
      else (pos N (2 * k) + 2) % W32) = pos N (2 * k + 1) := by
  obtain ⟨b1, b2, b3, b4, b5, b6⟩ := bare_geo N
  have hW : W32 = 4294967296 := by decide
  rw [b4, b5, b6]
  unfold pos
  cases hn : N.parent.is_null
  · cases hl : N.is_left_child
    · simp only [Bool.false_eq_true, if_false]
      rw [Nat.mod_eq_of_lt (by omega), Nat.mod_eq_of_lt (by omega)]
      omega
    · simp only [Bool.false_eq_true, if_false, if_true]
      rw [Nat.mod_eq_of_lt (by omega), Nat.mod_eq_of_lt (by omega)]
      omega
  · simp only [if_true]
    rw [Nat.mod_eq_of_lt (by omega), Nat.mod_eq_of_lt (by omega)]
    omega

theorem pos_lt (N : perm_node) (y1 y2 : Nat) (h : y1 < y2) : pos N y1 < pos N y2 := by
  unfold pos
  split <;> omega

/-- The exit switch `k` of a node applied to the outputs `k` of its two children: the
outputs `2k` and `2k + 1` of the node are written to their slots of `dest`. -/
theorem erp_apply (w : waksman) (henv : w.env) (key0 : Nat → Nat) (H : Nat) (N : perm_node)
    (h : Nat) (hN : w.node_ok H N (h + 1)) (hpo : N.parent.offset + 2 * N.size + 1 < 2 ^ 32)
    (dest : Nat) (c : cloud) (hd : c.has dest) (k : Nat) (hk : 2 * k + 1 < N.size) :
    ret (waksman.apply_switch (w.outE key0 (w.lch N) k) (w.outE key0 (w.rch N) k) dest
        (bare N) k c)
      (fun c1 => c.chg c1 (fun U j => U = dest ∧ (j = pos N (2 * k) ∨ j = pos N (2 * k + 1))) ∧
        c1.peek dest (pos N (2 * k)) = some (w.outE key0 N (2 * k)) ∧
        c1.peek dest (pos N (2 * k + 1)) = some (w.outE key0 N (2 * k + 1))) := by
  obtain ⟨b, hb, h1, h2⟩ := out_pair w henv key0 H N h hN k hk
  obtain ⟨q1, q2⟩ := pos_bare N hpo k hk
  have hne := pos_lt N (2 * k) (2 * k + 1) (by omega)
  unfold shiftE at h1 h2
  simp only [pow_one] at h1 h2
  unfold waksman.apply_switch
  simp only
  rw [q1, q2, h1, h2, hb]
  cases b
  · simp only [Bool.toNat_false, Nat.zero_ne_one, if_false, Bool.false_eq_true]
    refine ret_bind _ _ _ _ (put_ret c _ _ _ hd) ?_
    rintro c1 ⟨g1, g2⟩
    refine ret_mono _ _ _ (put_ret c1 _ _ _ ((g1.has _).2 hd)) ?_
    rintro c2 ⟨g3, g4⟩
    refine ⟨chg_trans _ _ _ _ _ _ g1 g3 (fun _ _ hh => ⟨hh.1, Or.inl hh.2⟩)
      (fun _ _ hh => ⟨hh.1, Or.inr hh.2⟩), ?_, g4⟩
    rw [g3.peek _ _ (by intro hh; omega), g2]
  · simp only [Bool.toNat_true, if_true]
    refine ret_bind _ _ _ _ (put_ret c _ _ _ hd) ?_
    rintro c1 ⟨g1, g2⟩
    refine ret_mono _ _ _ (put_ret c1 _ _ _ ((g1.has _).2 hd)) ?_
    rintro c2 ⟨g3, g4⟩
    refine ⟨chg_trans _ _ _ _ _ _ g1 g3 (fun _ _ hh => ⟨hh.1, Or.inl hh.2⟩)
      (fun _ _ hh => ⟨hh.1, Or.inr hh.2⟩), ?_, g4⟩
    rw [g3.peek _ _ (by intro hh; omega), g2]

theorem erp_inv_zero (w : waksman) (key0 : Nat → Nat) (dest : Nat) (N : perm_node) (c : cloud) :
    w.erp_inv key0 dest N c 0 c :=
  ⟨chg_refl _ _, fun _ hy => absurd hy (Nat.not_lt_zero _)⟩

theorem erp_inv_step (w : waksman) (key0 : Nat → Nat) (dest : Nat) (N : perm_node)
    (c0 c c2 : cloud) (k : Nat) (hinv : w.erp_inv key0 dest N c0 (2 * k) c)
    (hc : c.chg c2 (fun U j => U = dest ∧ (j = pos N (2 * k) ∨ j = pos N (2 * k + 1))))
    (h1 : c2.peek dest (pos N (2 * k)) = some (w.outE key0 N (2 * k)))
    (h2 : c2.peek dest (pos N (2 * k + 1)) = some (w.outE key0 N (2 * k + 1))) :
    w.erp_inv key0 dest N c0 (2 * k + 2) c2 := by
  obtain ⟨i1, i2⟩ := hinv
  refine ⟨chg_trans _ _ _ _ _ _ i1 hc ?_ ?_, ?_⟩
  · rintro U j ⟨hU, y, hy, hj⟩
    exact ⟨hU, y, by omega, hj⟩
  · rintro U j ⟨hU, hj | hj⟩
    · exact ⟨hU, 2 * k, by omega, hj⟩
    · exact ⟨hU, 2 * k + 1, by omega, hj⟩
  · intro y hy
    by_cases hy1 : y < 2 * k
    · have l1 := pos_lt N y (2 * k) hy1
      have l2 := pos_lt N y (2 * k + 1) (by omega)
      rw [hc.peek _ _ (by intro hh; omega)]
      exact i2 y hy1
    · by_cases hy2 : y = 2 * k
      · rw [hy2]
        exact h1
      · have hy3 : y = 2 * k + 1 := by omega
        rw [hy3]
        exact h2

/-- A call of `route_switch_erp` that finds output `k` of the left child in slot `i1` of an
array and output `k` of the right child in the next slot. -/
theorem erp_switch (w : waksman) (henv : w.env) (key0 : Nat → Nat)
    (hk0 : ∀ i, key0 i &&& INT32_MAX = key0 i) (H : Nat) (N : perm_node)
    (h : Nat) (hN : w.node_ok H N (h + 1)) (hpo : N.parent.offset + 2 * N.size + 1 < 2 ^ 32)
    (dest : Nat) (c0 c : cloud) (hd : c.has dest) (k : Nat) (hk : 2 * k + 1 < N.size)
    (hinv : w.erp_inv key0 dest N c0 (2 * k) c) (A i1 : Nat)
    (ht : c.peek A i1 = some (w.outE key0 (w.lch N) k))
    (hbt : c.peek A ((i1 + 1) % W32) = some (w.outE key0 (w.rch N) k)) :
    ret (waksman.route_switch_erp A dest i1 (bare N) k c)
      (w.erp_inv key0 dest N c0 (2 * k + 2)) := by
  unfold waksman.route_switch_erp
  refine ret_bind _ _ _ _ (get_ret c _ _ _ ht) ?_
  rintro ⟨v1, c1⟩ ⟨g1, g2⟩
  simp only at g1 g2 ⊢
  rw [mask_outE w key0 hk0] at g1
  have hbt1 : c1.peek A ((i1 + 1) % W32) = some (w.outE key0 (w.rch N) k) := by
    rw [g2.peek _ _ (fun hh => hh)]
    exact hbt
  refine ret_bind _ _ _ _ (get_ret c1 _ _ _ hbt1) ?_
  rintro ⟨v2, c2⟩ ⟨g3, g4⟩
  simp only at g3 g4 ⊢
  rw [mask_outE w key0 hk0] at g3
  rw [g1, g3]
  have hcc := chg_trans _ _ _ _ _ (fun _ _ => False) g2 g4 (fun _ _ hh => hh) (fun _ _ hh => hh)
  refine ret_mono _ _ _ (erp_apply w henv key0 H N h hN hpo dest c2 ((hcc.has _).2 hd) k hk) ?_
  rintro c3 ⟨a1, a2, a3⟩
  have hinv2 : w.erp_inv key0 dest N c0 (2 * k) c2 :=
    ⟨chg_trans _ _ _ _ _ _ hinv.1 hcc (fun _ _ hh => hh) (fun _ _ hh => False.elim hh),
      fun y hy => by rw [hcc.peek _ _ (fun hh => hh)]; exact hinv.2 y hy⟩
  exact erp_inv_step w key0 dest N c0 c2 c3 k hinv2 a1 a2 a3

/-- A call of `route_switch_erp` that takes output `k` of the left child from the skip array
and output `k` of the right child from `source`. -/
theorem erp_switch_skip (w : waksman) (henv : w.env) (key0 : Nat → Nat)
    (hk0 : ∀ i, key0 i &&& INT32_MAX = key0 i) (H : Nat) (N : perm_node)
    (h : Nat) (hN : w.node_ok H N (h + 1)) (hpo : N.parent.offset + 2 * N.size + 1 < 2 ^ 32)
    (dest : Nat) (c0 c : cloud) (hd : c.has dest) (k : Nat) (hk : 2 * k + 1 < N.size)
    (hinv : w.erp_inv key0 dest N c0 (2 * k) c) (source i1 i2 : Nat)
    (ht : c.peek w.skip_array i2 = some (w.outE key0 (w.lch N) k))
    (hbt : c.peek source i1 = some (w.outE key0 (w.rch N) k)) :
    ret (w.route_switch_erp_skip source dest i1 i2 (bare N) k c)
      (w.erp_inv key0 dest N c0 (2 * k + 2)) := by
  unfold waksman.route_switch_erp_skip
  refine ret_bind _ _ _ _ (get_ret c _ _ _ ht) ?_
  rintro ⟨v1, c1⟩ ⟨g1, g2⟩
  simp only at g1 g2 ⊢
  rw [mask_outE w key0 hk0] at g1
  have hbt1 : c1.peek source i1 = some (w.outE key0 (w.rch N) k) := by
    rw [g2.peek _ _ (fun hh => hh)]
    exact hbt
  refine ret_bind _ _ _ _ (get_ret c1 _ _ _ hbt1) ?_
  rintro ⟨v2, c2⟩ ⟨g3, g4⟩
  simp only at g3 g4 ⊢
  rw [mask_outE w key0 hk0] at g3
  rw [g1, g3]
  have hcc := chg_trans _ _ _ _ _ (fun _ _ => False) g2 g4 (fun _ _ hh => hh) (fun _ _ hh => hh)
  refine ret_mono _ _ _ (erp_apply w henv key0 H N h hN hpo dest c2 ((hcc.has _).2 hd) k hk) ?_
  rintro c3 ⟨a1, a2, a3⟩
  have hinv2 : w.erp_inv key0 dest N c0 (2 * k) c2 :=
    ⟨chg_trans _ _ _ _ _ _ hinv.1 hcc (fun _ _ hh => hh) (fun _ _ hh => False.elim hh),
      fun y hy => by rw [hcc.peek _ _ (fun hh => hh)]; exact hinv.2 y hy⟩
  exact erp_inv_step w key0 dest N c0 c2 c3 k hinv2 a1 a2 a3

/-- The number of outputs of the children of a node that the level below stored in
`source`. -/
theorem nreg_child (w : waksman) (henv : w.env) (H : Nat) (N : perm_node) (h : Nat)
    (hN : w.node_ok H N (h + 1)) :
    nreg h (w.lch N) = (if h = 0 then (if N.size % 2 = 0 then N.size / 2 - 1 else N.size / 2)
      else (if (N.size / 2) % 2 = 0 then N.size / 2 - 2 else N.size / 2 - 1)) ∧
    nreg h (w.rch N) = (if h = 0 then N.size / 2 + N.size % 2 - 1
      else (if (N.size / 2 + N.size % 2) % 2 = 0 then N.size / 2 + N.size % 2 - 2
        else N.size / 2 + N.size % 2 - 1)) := by
  obtain ⟨g1, g2, g3, g4, g5, g6, g7, g8, g9, g10, g11, g12, g13, g14⟩ :=
    child_geom w henv H N h hN
  obtain ⟨hsl, hsr⟩ := skipcond_child w henv H N h hN
  unfold nreg
  rw [g7, g8, g2, g4]
  simp only [Bool.false_eq_true, if_false]
  by_cases h0 : h = 0
  · rw [if_pos h0, if_pos h0, if_pos h0, if_pos h0, if_pos hsr]
    by_cases hev : N.size % 2 = 0
    · rw [if_pos (hsl.mpr hev), if_pos hev]
      exact ⟨rfl, rfl⟩
    · rw [if_neg (fun hh => hev (hsl.mp hh)), if_neg hev]
      exact ⟨rfl, rfl⟩
  · rw [if_neg h0, if_neg h0, if_neg h0, if_neg h0]
    exact ⟨rfl, rfl⟩

/-- A call of `route_switch_erp` for a switch whose two inputs the level below stored in
`source`. -/
theorem erp_src_one (w : waksman) (henv : w.env) (key0 : Nat → Nat)
    (hk0 : ∀ i, key0 i &&& INT32_MAX = key0 i) (H : Nat) (N : perm_node)
    (h : Nat) (hN : w.node_ok H N (h + 1)) (hpo : N.parent.offset + 2 * N.size + 1 < 2 ^ 32)
    (source dest : Nat) (hsd : source ≠ dest) (c0 c : cloud) (hd : c0.has dest)
    (ho : w.outs key0 source c0 1 (h + 1) N) (k : Nat) (hkl : k < nreg h (w.lch N))
    (hkr : k < nreg h (w.rch N)) (hinv : w.erp_inv key0 dest N c0 (2 * k) c) (i1 : Nat)
    (hi : i1 = N.offset + 2 * k) :
    ret (waksman.route_switch_erp source dest i1 (bare N) k c)
      (w.erp_inv key0 dest N c0 (2 * k + 2)) := by
  obtain ⟨p1, p2⟩ := pos_child w henv H N h hN
  obtain ⟨a1, a2⟩ := p1 k hkl
  obtain ⟨a3, a4⟩ := p2 k hkr
  have hfit := hN.fit
  have hlt := henv.len_lt
  have hW : W32 = 4294967296 := by decide
  unfold waksman.outs at ho
  simp only [Nat.add_sub_cancel] at ho
  unfold waksman.outs at ho
  have hns : ∀ j, ¬ (source = dest ∧ ∃ y, y < 2 * k ∧ j = pos N y) := fun j hh => hsd hh.1
  refine erp_switch w henv key0 hk0 H N h hN hpo dest c0 c ((hinv.1.has _).2 hd) k a4 hinv
    source i1 ?_ ?_
  · rw [hinv.1.peek _ _ (hns _), hi, ← a1]
    exact ho.1 k hkl
  · rw [hinv.1.peek _ _ (hns _), hi, Nat.mod_eq_of_lt (by omega), ← a3]
    exact ho.2 k hkr

/-- The loop of `route_internal_node_erp` over the switches whose inputs are in
`source`. -/
theorem erp_src (w : waksman) (henv : w.env) (key0 : Nat → Nat)
    (hk0 : ∀ i, key0 i &&& INT32_MAX = key0 i) (H : Nat) (N : perm_node)
    (h : Nat) (hN : w.node_ok H N (h + 1)) (hpo : N.parent.offset + 2 * N.size + 1 < 2 ^ 32)
    (source dest : Nat) (hsd : source ≠ dest) (c : cloud) (hd : c.has dest)
    (ho : w.outs key0 source c 1 (h + 1) N) (n : Nat) (hnl : n ≤ nreg h (w.lch N))
    (hnr : n ≤ nreg h (w.rch N)) :
    ret (loop n (fun i c1 =>
        waksman.route_switch_erp source dest ((N.offset + 2 * i) % W32) (bare N) i c1) c)
      (w.erp_inv key0 dest N c (2 * n)) := by
  obtain ⟨p1, p2⟩ := pos_child w henv H N h hN
  have hfit := hN.fit
  have hlt := henv.len_lt
  have hW : W32 = 4294967296 := by decide
  refine ret_loop (fun i c1 => w.erp_inv key0 dest N c (2 * i) c1) _ n c
    (erp_inv_zero w key0 dest N c) ?_
  intro k c1 hk hinv
  have a1 := (p2 k (by omega)).2
  exact erp_src_one w henv key0 hk0 H N h hN hpo source dest hsd c c1 hd ho k (by omega)
    (by omega) hinv _ (Nat.mod_eq_of_lt (by omega))

/-- The root takes the last outputs of the network from the skip array:
`complete_bottom_wires` copies them to the end of `dest`. -/
theorem erp_cbw (w : waksman) (henv : w.env) (key0 : Nat → Nat)
    (hk0 : ∀ i, key0 i &&& INT32_MAX = key0 i) (H : Nat) (N : perm_node)
    (h : Nat) (hN : w.node_ok H N (h + 1)) (hp : N.parent.is_null = true)
    (hsz : N.size = w.length) (dest : Nat) (si : Nat)
    (hsi : si + 1 < 2 ^ 32) (c : cloud) (hd : c.has dest)
    (hs : ∀ i, i < (w.em key0 (h + 1) N h).length →
      c.peek w.skip_array (si + i) = (w.em key0 (h + 1) N h)[i]?) :
    ret (w.complete_bottom_wires dest si c)
      (fun c1 => c.chg c1 (fun U j => U = dest ∧ 2 * (nsw N.size - 1) ≤ j ∧ j < N.size) ∧
        ∀ y, 2 * (nsw N.size - 1) ≤ y → y < N.size →
          c1.peek dest y = some (w.outE key0 N y)) := by
  obtain ⟨s1, _⟩ := em_sink w henv key0 H h N hN hp
  have hs3 : w.leaf_size < N.size := hN.uni.1
  have hge := henv.leaf_ge
  have hlt := henv.len_lt
  have hW : W32 = 4294967296 := by decide
  rw [s1] at hs
  unfold waksman.complete_bottom_wires
  rw [← hsz] at hlt ⊢
  unfold nsw
  by_cases hev : N.size % 2 = 0
  · rw [if_pos hev] at hs
    have t0 := hs 0 (by simp)
    have t1 := hs 1 (by simp)
    simp only [Nat.add_zero, List.singleton_append, List.getElem?_cons_zero,
      List.getElem?_cons_succ] at t0 t1
    have hodd : ¬ N.size % 2 = 1 := by omega
    refine ret_bind _ _ _ _ (get_ret c _ _ _ t0) ?_
    rintro ⟨v1, c1⟩ ⟨g1, g2⟩
    simp only at g1 g2 ⊢
    rw [mask_outE w key0 hk0] at g1
    rw [if_neg hodd]
    have t1' : c1.peek w.skip_array ((si + 1) % W32) = some (w.outE key0 N (N.size - 1)) := by
      rw [g2.peek _ _ (fun hh => hh), Nat.mod_eq_of_lt (by omega)]
      exact t1
    refine ret_bind _ _ _ _ (get_ret c1 _ _ _ t1') ?_
    rintro ⟨v2, c2⟩ ⟨g3, g4⟩
    simp only at g3 g4 ⊢
    rw [mask_outE w key0 hk0] at g3
    have e1 : (N.size + W32 - 2) % W32 = N.size - 2 := by
      rw [hW]
      omega
    have e2 : (N.size + W32 - 1) % W32 = N.size - 1 := by
      rw [hW]
      omega
    rw [e1, e2, g1, g3]
    have hd2 : c2.has dest := (g4.has _).2 ((g2.has _).2 hd)
    refine ret_bind _ _ _ _ (put_ret c2 _ _ _ hd2) ?_
    rintro c3 ⟨g5, g6⟩
    refine ret_mono _ _ _ (put_ret c3 _ _ _ ((g5.has _).2 hd2)) ?_
    rintro c4 ⟨g7, g8⟩
    have hc02 := chg_trans _ _ _ _ _ (fun U j => U = dest ∧ 2 * ((N.size + 1) / 2 - 1) ≤ j ∧
      j < N.size) g2 g4 (fun _ _ hh => False.elim hh) (fun _ _ hh => False.elim hh)
    have hc24 := chg_trans _ _ _ _ _ (fun U j => U = dest ∧ 2 * ((N.size + 1) / 2 - 1) ≤ j ∧
      j < N.size) g5 g7 (fun _ _ hh => ⟨hh.1, by omega⟩) (fun _ _ hh => ⟨hh.1, by omega⟩)
    refine ⟨chg_trans _ _ _ _ _ _ hc02 hc24 (fun _ _ hh => hh) (fun _ _ hh => hh), ?_⟩
    intro y hy1 hy2
    by_cases hy : y = N.size - 1
    · rw [hy]
      exact g8
    · have hy3 : y = N.size - 2 := by omega
      rw [hy3, g7.peek _ _ (by intro hh; omega)]
      exact g6
  · rw [if_neg hev] at hs
    have t0 := hs 0 (by simp)
    simp only [Nat.add_zero, List.nil_append, List.getElem?_cons_zero] at t0
    have hodd : N.size % 2 = 1 := by omega
    refine ret_bind _ _ _ _ (get_ret c _ _ _ t0) ?_
    rintro ⟨v1, c1⟩ ⟨g1, g2⟩
    simp only at g1 g2 ⊢
    rw [mask_outE w key0 hk0] at g1
    rw [if_pos hodd]
    have e2 : (N.size + W32 - 1) % W32 = N.size - 1 := by
      rw [hW]
      omega
    rw [e2, g1]
    refine ret_mono _ _ _ (put_ret c1 _ _ _ ((g2.has _).2 hd)) ?_
    rintro c2 ⟨g3, g4⟩
    refine ⟨chg_trans _ _ _ _ _ _ g2 g3 (fun _ _ hh => False.elim hh)
      (fun _ _ hh => ⟨hh.1, by omega⟩), ?_⟩
    intro y hy1 hy2
    have hy3 : y = N.size - 1 := by omega
    rw [hy3]
    exact g4

theorem ret_join {α β : Type} (p : Prop) [Decidable p] (x : Except Fault α) (a : α)
    (jp : α → Except Fault β) (Q0 : α → Prop) (R : β → Prop) (hx : p → ret x Q0)
    (ha : ¬ p → Q0 a) (hjp : ∀ a1, Q0 a1 → ret (jp a1) R) :
    ret (if p then x >>= jp else pure a >>= jp) R := by
  by_cases hp : p
  · rw [if_pos hp]
    exact ret_bind _ _ _ _ (hx hp) hjp
  · rw [if_neg hp]
    exact hjp a (ha hp)

theorem skl_leaf_parent (w : waksman) (key0 : Nat → Nat) (hM : Nat) (M : perm_node) :
    w.skl key0 1 hM M = [] := by
  unfold waksman.skl
  rw [if_neg (by omega)]

theorem skl_inner (w : waksman) (key0 : Nat → Nat) (h hM : Nat) (M : perm_node) :
    w.skl key0 (h + 2) hM M = w.em key0 hM M h := by
  unfold waksman.skl
  rw [if_pos (by omega)]
  rfl

/-- The switches of a node that is the parent of two leaves: all inputs are in `source`. -/
theorem erp_leaf_parent (w : waksman) (henv : w.env) (key0 : Nat → Nat)
    (hk0 : ∀ i, key0 i &&& INT32_MAX = key0 i) (H : Nat) (N : perm_node)
    (hN : w.node_ok H N 1) (hpo : N.parent.offset + 2 * N.size + 1 < 2 ^ 32)
    (source dest : Nat) (hsd : source ≠ dest) (si : Nat) (c : cloud) (hd : c.has dest)
    (ho : w.outs key0 source c 1 1 N) :
    ret (do
        let c2 ← loop (((N.size + 1) / 2 + W32 - 1) % W32) (fun i c1 =>
          waksman.route_switch_erp source dest ((N.offset + 2 * i) % W32) (bare N) i c1) c
        pure (si, c2))
      (fun r => r.1 = si ∧ w.erp_inv key0 dest N c (2 * (nsw N.size - 1)) r.2) := by
  obtain ⟨n1, n2⟩ := nreg_child w henv H N 0 hN
  have hs3 : w.leaf_size < N.size := hN.uni.1
  have hge := henv.leaf_ge
  have hfit := hN.fit
  have hlt := henv.len_lt
  have hW : W32 = 4294967296 := by decide
  have e1 : ((N.size + 1) / 2 + W32 - 1) % W32 = nsw N.size - 1 := by
    unfold nsw
    rw [hW]
    omega
  rw [if_pos rfl] at n1 n2
  rw [e1]
  refine ret_bind _ _ _ _ (erp_src w henv key0 hk0 H N 0 hN hpo source dest hsd c hd ho
    (nsw N.size - 1) ?_ ?_) ?_
  · rw [n1]
    unfold nsw
    split <;> omega
  · rw [n2]
    unfold nsw
    omega
  · intro c2 hinv
    exact ret_pure _ _ ⟨rfl, hinv⟩

/-- The numbers of `route_internal_node_erp` at a node that is not the parent of leaves. -/
theorem inner_arith (s o len ls nl nr n3 n2 i3 si : Nat) (hs3 : ls < s / 2) (hge : 3 ≤ ls)
    (hfit : o + s ≤ len) (hlt : len < 2 ^ 31) (hsi : si + 2 < 2 ^ 32)
    (hn3 : n3 = (s + 1) / 2 - 3) (hn2 : n2 = (s + 1) / 2 - 2) (hi3 : i3 = o + 2 * n3)
    (hnl : nl = if (s / 2) % 2 = 0 then s / 2 - 2 else s / 2 - 1)
    (hnr : nr = if (s / 2 + s % 2) % 2 = 0 then s / 2 + s % 2 - 2 else s / 2 + s % 2 - 1) :
    (n3 ≤ nl ∧ n3 ≤ nr ∧ 2 * n3 + 2 = 2 * n2 ∧ 2 * n2 + 2 = 2 * ((s + 1) / 2 - 1) ∧
      2 * n3 + 1 < s ∧ 2 * n2 + 1 < s) ∧
    ((si + 1) % 4294967296 = si + 1 ∧ (si + 2) % 4294967296 = si + 2 ∧
      (i3 + 1) % 4294967296 = o + 2 * n3 + 1 ∧ (i3 + 2) % 4294967296 = o + 2 * n2 ∧
      (i3 + 3) % 4294967296 = o + 2 * n2 + 1) ∧
    (s % 2 = 0 → n3 < nl ∧ n3 < nr) ∧
    (s % 2 = 0 → (s / 2) % 2 = 1 → n2 < nl ∧ n2 < nr) ∧
    (s % 2 = 0 → ¬ (s / 2) % 2 = 1 → s / 2 - 2 = n2) ∧
    (¬ s % 2 = 0 → (s / 2) % 2 = 1 →
      n3 < nl ∧ n3 < nr ∧ s / 2 - 1 = n2 ∧ s / 2 + 1 - 2 = n2) ∧
    (¬ s % 2 = 0 → ¬ (s / 2) % 2 = 1 →
      n3 < nr ∧ n2 < nr ∧ s / 2 - 2 = n3 ∧ s / 2 - 1 = n2) := by
  subst hn3 hn2 hi3
  by_cases hev : s % 2 = 0
  · by_cases hm : (s / 2) % 2 = 1
    · have hm0 : ¬ (s / 2) % 2 = 0 := by omega
      have hm1 : ¬ (s / 2 + s % 2) % 2 = 0 := by omega
      rw [if_neg hm0] at hnl
      rw [if_neg hm1] at hnr
      subst hnl hnr
      refine ⟨by omega, by omega, by omega, by omega, by omega, by omega, by omega⟩
    · have hm0 : (s / 2) % 2 = 0 := by omega
      have hm1 : (s / 2 + s % 2) % 2 = 0 := by omega
      rw [if_pos hm0] at hnl
      rw [if_pos hm1] at hnr
      subst hnl hnr
      refine ⟨by omega, by omega, by omega, by omega, by omega, by omega, by omega⟩
  · by_cases hm : (s / 2) % 2 = 1
    · have hm0 : ¬ (s / 2) % 2 = 0 := by omega
      have hm1 : (s / 2 + s % 2) % 2 = 0 := by omega
      rw [if_neg hm0] at hnl
      rw [if_pos hm1] at hnr
      subst hnl hnr
      refine ⟨by omega, by omega, by omega, by omega, by omega, by omega, by omega⟩
    · have hm0 : (s / 2) % 2 = 0 := by omega
      have hm1 : ¬ (s / 2 + s % 2) % 2 = 0 := by omega
      rw [if_pos hm0] at hnl
      rw [if_neg hm1] at hnr
      subst hnl hnr
      refine ⟨by omega, by omega, by omega, by omega, by omega, by omega, by omega⟩

/-- The switches of a node that is not the parent of leaves: the inputs of the last two
switches that the node routes are in `source` or in the skip array, as the sizes of the
node and of its left child tell. -/
theorem erp_inner (w : waksman) (henv : w.env) (key0 : Nat → Nat)
    (hk0 : ∀ i, key0 i &&& INT32_MAX = key0 i) (H : Nat) (N : perm_node) (h : Nat)
    (hN : w.node_ok H N (h + 2)) (hpo : N.parent.offset + 2 * N.size + 1 < 2 ^ 32)
    (source dest : Nat) (hsd : source ≠ dest) (hds : dest ≠ w.skip_array) (si : Nat)
    (hsi : si + 2 < 2 ^ 32) (c : cloud) (hd : c.has dest)
    (ho : w.outs key0 source c 1 (h + 2) N)
    (hs : ∀ i, i < (w.em key0 (h + 2) N h).length →
      c.peek w.skip_array (si + i) = (w.em key0 (h + 2) N h)[i]?)
    (n3 n2 i3 : Nat) (hn3 : n3 = nsw N.size - 3) (hn2 : n2 = nsw N.size - 2)
    (hi3 : i3 = N.offset + 2 * n3) :
    ret (do
        let c2 ← loop n3 (fun i c1 =>
          waksman.route_switch_erp source dest ((N.offset + 2 * i) % W32) (bare N) i c1) c
        if N.size % 2 = 0 then do
          let c3 ← waksman.route_switch_erp source dest i3 (bare N) n3 c2
          if N.size / 2 % 2 = 1 then do
            let c4 ← waksman.route_switch_erp source dest ((i3 + 2) % W32) (bare N) n2 c3
            pure (si, c4)
          else do
            let c4 ← waksman.route_switch_erp w.skip_array dest si (bare N) n2 c3
            pure ((si + 2) % W32, c4)
        else
          if N.size / 2 % 2 = 1 then do
            let c3 ← waksman.route_switch_erp source dest i3 (bare N) n3 c2
            let c4 ← waksman.route_switch_erp w.skip_array dest si (bare N) n2 c3
            pure ((si + 2) % W32, c4)
          else do
            let c3 ← w.route_switch_erp_skip source dest ((i3 + 1) % W32) si (bare N) n3 c2
            let c4 ← w.route_switch_erp_skip source dest ((i3 + 3) % W32) ((si + 1) % W32)
              (bare N) n2 c3
            pure ((si + 2) % W32, c4))
      (fun r => r.1 = si + (w.em key0 (h + 2) N h).length ∧
        w.erp_inv key0 dest N c (2 * (nsw N.size - 1)) r.2) := by
  obtain ⟨n1, n2'⟩ := nreg_child w henv H N (h + 1) hN
  have hh : ¬ h + 1 = 0 := Nat.succ_ne_zero h
  rw [if_neg hh] at n1 n2'
  obtain ⟨_, g2, _, g4, _⟩ := child_geom w henv H N (h + 1) hN
  obtain ⟨_, p2⟩ := pos_child w henv H N (h + 1) hN
  have hW : W32 = 4294967296 := by decide
  have hw := em_want w henv key0 H h N hN
  rw [g2, g4] at hw
  unfold nsw at hn3 hn2 ⊢
  obtain ⟨⟨a1, a2, e32, efin, a5, a6⟩, ⟨m1, m2, m3, m4, m5⟩, q1, q2, q3, q4, q5⟩ :=
    inner_arith N.size N.offset w.length w.leaf_size _ _ n3 n2 i3 si hN.uni.2.1.1 henv.leaf_ge
      hN.fit henv.len_lt hsi hn3 hn2 hi3 n1 n2'
  have hsk : ∀ cx n j, w.erp_inv key0 dest N c n cx →
      cx.peek w.skip_array j = c.peek w.skip_array j :=
    fun cx n j hi => hi.1.peek _ _ (fun hh => hds hh.1.symm)
  have hsr : ∀ cx n y, w.erp_inv key0 dest N c n cx → y < nreg (h + 1) (w.rch N) →
      cx.peek source (N.offset + 2 * y + 1) = some (w.outE key0 (w.rch N) y) := by
    intro cx n y hi hy
    rw [hi.1.peek _ _ (fun hh => hsd hh.1), ← (p2 y hy).1]
    unfold waksman.outs at ho
    simp only [Nat.add_sub_cancel] at ho
    unfold waksman.outs at ho
    exact ho.2 y hy
  have hdx : ∀ cx n, w.erp_inv key0 dest N c n cx → cx.has dest :=
    fun cx n hi => (hi.1.has _).2 hd
  clear n1 n2' p2 g2 g4 hn3 hn2 hh
  rw [hW]
  refine ret_bind _ _ _ _ (erp_src w henv key0 hk0 H N (h + 1) hN hpo source dest hsd c hd ho
    n3 a1 a2) ?_
  intro c2 hi2
  by_cases hev : N.size % 2 = 0
  · rw [if_pos hev]
    rw [if_pos hev] at hw
    obtain ⟨b1, b2⟩ := q1 hev
    refine ret_bind _ _ _ _ (erp_src_one w henv key0 hk0 H N (h + 1) hN hpo source dest hsd c c2
      hd ho n3 b1 b2 hi2 i3 hi3) ?_
    intro c3 hi3'
    rw [e32] at hi3'
    by_cases hm : N.size / 2 % 2 = 1
    · rw [if_pos hm]
      rw [if_pos hm] at hw
      obtain ⟨b3, b4⟩ := q2 hev hm
      refine ret_bind _ _ _ _ (erp_src_one w henv key0 hk0 H N (h + 1) hN hpo source dest hsd c
        c3 hd ho n2 b3 b4 hi3' _ m4) ?_
      intro c4 hi4
      rw [efin] at hi4
      refine ret_pure _ _ ⟨?_, hi4⟩
      rw [hw]
      rfl
    · rw [if_neg hm]
      rw [if_neg hm] at hw
      have ek := q3 hev hm
      rw [hw] at hs ⊢
      have t0 := hs 0 (Nat.zero_lt_succ _)
      have t1 := hs 1 (Nat.succ_lt_succ (Nat.zero_lt_succ _))
      simp only [Nat.add_zero, List.getElem?_cons_zero, List.getElem?_cons_succ, hev, ek]
        at t0 t1
      refine ret_bind _ _ _ _ (erp_switch w henv key0 hk0 H N (h + 1) hN hpo dest c c3
        (hdx _ _ hi3') n2 a6 hi3' w.skip_array si ?_ ?_) ?_
      · rw [hsk _ _ _ hi3']
        exact t0
      · rw [hsk _ _ _ hi3', hW, m1]
        exact t1
      intro c4 hi4
      rw [efin] at hi4
      refine ret_pure _ _ ⟨?_, hi4⟩
      simp only [List.length_cons, List.length_nil]
      exact m2
  · rw [if_neg hev]
    rw [if_neg hev] at hw
    have hz : N.size % 2 = 1 := by
      rcases Nat.mod_two_eq_zero_or_one N.size with hh | hh
      · exact absurd hh hev
      · exact hh
    by_cases hm : N.size / 2 % 2 = 1
    · rw [if_pos hm]
      rw [if_pos hm] at hw
      obtain ⟨b1, b2, ek, ek1⟩ := q4 hev hm
      refine ret_bind _ _ _ _ (erp_src_one w henv key0 hk0 H N (h + 1) hN hpo source dest hsd c
        c2 hd ho n3 b1 b2 hi2 i3 hi3) ?_
      intro c3 hi3'
      rw [e32] at hi3'
      rw [hw] at hs ⊢
      have t0 := hs 0 (Nat.zero_lt_succ _)
      have t1 := hs 1 (Nat.succ_lt_succ (Nat.zero_lt_succ _))
      simp only [Nat.add_zero, List.getElem?_cons_zero, List.getElem?_cons_succ, hz, ek, ek1]
        at t0 t1
      refine ret_bind _ _ _ _ (erp_switch w henv key0 hk0 H N (h + 1) hN hpo dest c c3
        (hdx _ _ hi3') n2 a6 hi3' w.skip_array si ?_ ?_) ?_
      · rw [hsk _ _ _ hi3']
        exact t0
      · rw [hsk _ _ _ hi3', hW, m1]
        exact t1
      intro c4 hi4
      rw [efin] at hi4
      refine ret_pure _ _ ⟨?_, hi4⟩
      simp only [List.length_cons, List.length_nil]
      exact m2
    · rw [if_neg hm]
      rw [if_neg hm] at hw
      obtain ⟨b1, b2, ek, ek1⟩ := q5 hev hm
      rw [hw] at hs ⊢
      have t0 := hs 0 (Nat.zero_lt_succ _)
      have t1 := hs 1 (Nat.succ_lt_succ (Nat.zero_lt_succ _))
      simp only [Nat.add_zero, List.getElem?_cons_zero, List.getElem?_cons_succ, ek, ek1]
        at t0 t1
      refine ret_bind _ _ _ _ (erp_switch_skip w henv key0 hk0 H N (h + 1) hN hpo dest c c2
        (hdx _ _ hi2) n3 a5 hi2 source _ si ?_ ?_) ?_
      · rw [hsk _ _ _ hi2]
        exact t0
      · rw [m3]
        exact hsr _ _ n3 hi2 b1
      intro c3 hi3'
      rw [e32] at hi3'
      refine ret_bind _ _ _ _ (erp_switch_skip w henv key0 hk0 H N (h + 1) hN hpo dest c c3
        (hdx _ _ hi3') n2 a6 hi3' source _ _ ?_ ?_) ?_
      · rw [hsk _ _ _ hi3', m1]
        exact t1
      · rw [m5]
        exact hsr _ _ n2 hi3' b2
      intro c4 hi4
      rw [efin] at hi4
      refine ret_pure _ _ ⟨?_, hi4⟩
      simp only [List.length_cons, List.length_nil]
      exact m2

theorem nreg_inner (N : perm_node) (h : Nat) :
    nreg (h + 1) N = if N.parent.is_null then N.size else 2 * (nsw N.size - 1) := by
  unfold nreg nsw
  have hh : ¬ h + 1 = 0 := Nat.succ_ne_zero h
  rw [if_neg hh]
  split
  · rfl
  · split <;> omega

/-- What `route_internal_node_erp` achieves at a node: its outputs, apart from those of the
last switch unless the node is the root, are stored in `dest`, and the skip index has
passed the elements that the node took from the skip array. -/
theorem erp_node (w : waksman) (henv : w.env) (key0 : Nat → Nat)
    (hk0 : ∀ i, key0 i &&& INT32_MAX = key0 i) (H : Nat) (N : perm_node) (h : Nat)
    (hN : w.node_ok H N (h + 1)) (hpo : N.parent.offset + 2 * N.size + 1 < 2 ^ 32)
    (source dest : Nat) (hsd : source ≠ dest) (hds : dest ≠ w.skip_array) (si : Nat)
    (hsi : si + 2 < 2 ^ 32) (c : cloud) (hd : c.has dest)
    (ho : w.outs key0 source c 1 (h + 1) N)
    (hs : ∀ i, i < (w.skl key0 (h + 1) (h + 1) N).length →
      c.peek w.skip_array (si + i) = (w.skl key0 (h + 1) (h + 1) N)[i]?)
    (hroot : N.parent.is_null = true → N.size = w.length ∧
      ∀ i, i < (w.em key0 (h + 1) N h).length →
        c.peek w.skip_array (si / 2 + i) = (w.em key0 (h + 1) N h)[i]?) :
    ret (w.route_internal_node_erp (bare N) source dest si c)
      (fun r => r.1 = si + (w.skl key0 (h + 1) (h + 1) N).length ∧
        c.chg r.2 (fun U j => U = dest ∧ w.wrg 0 (h + 1) N j) ∧
        w.outs key0 dest r.2 0 (h + 1) N) := by
  obtain ⟨b1, b2, b3, b4, b5, b6⟩ := bare_geo N
  have hW : W32 = 4294967296 := by decide
  have hge := henv.leaf_ge
  have hle := henv.leaf_le
  have hl2 : w.leaf_size * 2 % W32 = w.leaf_size * 2 := by
    rw [hW]
    omega
  unfold waksman.route_internal_node_erp
  refine ret_join _ _ _ _ (fun c1 => c.chg c1 (fun U j => U = dest ∧ N.parent.is_null = true ∧
      2 * (nsw N.size - 1) ≤ j ∧ j < N.size) ∧
    (N.parent.is_null = true → ∀ y, 2 * (nsw N.size - 1) ≤ y → y < N.size →
      c1.peek dest y = some (w.outE key0 N y))) _ ?_ ?_ ?_
  · intro hp
    rw [b5] at hp
    obtain ⟨r1, r2⟩ := hroot hp
    refine ret_mono _ _ _ (erp_cbw w henv key0 hk0 H N h hN hp r1 dest (si / 2) (by omega) c hd
      r2) ?_
    rintro c1 ⟨u1, u2⟩
    exact ⟨chg_mono _ _ _ _ u1 (fun _ _ hh => ⟨hh.1, hp, hh.2⟩), fun _ => u2⟩
  · intro hp
    rw [b5] at hp
    exact ⟨chg_mono _ _ _ _ (chg_refl c (fun _ _ => False)) (fun _ _ hh => False.elim hh),
      fun hh => absurd hh hp⟩
  · rintro c1 ⟨hc1, hr1⟩
    have ho1 : w.outs key0 source c1 1 (h + 1) N :=
      outs_chg w key0 source c c1 _ hc1 1 (h + 1) N (fun j _ hh => hsd hh.1) ho
    have hd1 : c1.has dest := (hc1.has _).2 hd
    have hfin : ∀ (r : Nat × cloud), (r.1 = si + (w.skl key0 (h + 1) (h + 1) N).length ∧
        w.erp_inv key0 dest N c1 (2 * (nsw N.size - 1)) r.2) →
        r.1 = si + (w.skl key0 (h + 1) (h + 1) N).length ∧
        c.chg r.2 (fun U j => U = dest ∧ w.wrg 0 (h + 1) N j) ∧
        w.outs key0 dest r.2 0 (h + 1) N := by
      rintro r ⟨f1, f2, f3⟩
      have hnr := nreg_inner N h
      refine ⟨f1, chg_trans _ _ _ _ _ _ hc1 f2 ?_ ?_, ?_⟩
      · rintro U j ⟨hU, hp, hj1, hj2⟩
        refine ⟨hU, ?_⟩
        unfold waksman.wrg
        rw [hnr, if_pos hp]
        refine ⟨j, hj2, ?_⟩
        unfold pos
        rw [if_pos hp]
      · rintro U j ⟨hU, y, hy, hj⟩
        refine ⟨hU, ?_⟩
        unfold waksman.wrg
        refine ⟨y, ?_, hj⟩
        rw [hnr]
        split
        · unfold nsw at hy
          omega
        · exact hy
      · unfold waksman.outs
        intro y hy
        by_cases hy1 : y < 2 * (nsw N.size - 1)
        · exact f3 y hy1
        · rw [hnr] at hy
          by_cases hp : N.parent.is_null = true
          · rw [if_pos hp] at hy
            have hpy : pos N y = y := by
              unfold pos
              rw [if_pos hp]
            rw [f2.peek _ _ ?_, hpy]
            · exact hr1 hp y (by omega) hy
            · rintro ⟨_, y1, hy1', hj⟩
              have := pos_lt N y1 y (by omega)
              omega
          · rw [if_neg hp] at hy
            exact absurd hy hy1
    simp only [b1, b2]
    cases h with
    | zero =>
      have hs2 : N.size ≤ w.leaf_size * 2 := by
        have u1 := hN.uni.2.2.2
        omega
      rw [hl2, if_pos hs2]
      refine ret_mono _ _ _ (erp_leaf_parent w henv key0 hk0 H N hN hpo source dest hsd si c1
        hd1 ho1) ?_
      intro r hr
      refine hfin r ⟨?_, hr.2⟩
      rw [hr.1, skl_leaf_parent]
      rfl
    | succ h =>
      have hs2 : ¬ N.size ≤ w.leaf_size * 2 := by
        have u1 := hN.uni.2.1.1
        omega
      have hs1 : ∀ i, i < (w.em key0 (h + 2) N h).length →
          c1.peek w.skip_array (si + i) = (w.em key0 (h + 2) N h)[i]? := by
        intro i hi
        rw [hc1.peek _ _ (fun hh => hds hh.1.symm)]
        rw [skl_inner] at hs
        exact hs i hi
      rw [hl2, if_neg hs2]
      rw [skl_inner] at hfin ⊢
      have hn : 3 ≤ nsw N.size := by
        have u1 := hN.uni.2.1.1
        unfold nsw
        omega
      refine ret_mono _ _ _ (erp_inner w henv key0 hk0 H N h hN hpo source dest hsd hds si hsi
        c1 hd1 ho1 hs1 _ _ _ ?_ ?_ ?_) hfin
      · rw [hW]
        unfold nsw at hn ⊢
        omega
      · rw [hW]
        unfold nsw at hn ⊢
        omega
      · have hfit := hN.fit
        have hlt := henv.len_lt
        rw [hW]
        unfold nsw at hn
        omega

/-! ### Waksman permutation: the levels of the empty-road phase -/

/-- The children that `preorder_trav` creates are the children of the configuration phase
without their settings. -/
theorem bare_child (w : waksman) (henv : w.env) (H : Nat) (M : perm_node) (h : Nat)
    (hM : w.node_ok H M (h + 1)) :
    perm_node.node (bare M) ((bare M).depth + 1) true (bare M).offset ((bare M).size / 2) [] [] =
      bare (w.lch M) ∧
    perm_node.node (bare M) ((bare M).depth + 1) false
        (((bare M).offset + (bare M).size / 2) % W32)
        ((bare M).size / 2 + (bare M).size % 2) [] [] = bare (w.rch M) := by
  obtain ⟨p, d, l, o, s, e0, x0, rfl⟩ := wf_node w M hM.wf
  obtain ⟨e, x, _, hsw, _⟩ := sw_spec w henv H p d l o s e0 x0 h hM
  unfold waksman.lch waksman.rch
  rw [hsw]
  exact ⟨rfl, rfl⟩

theorem skl_succ (w : waksman) (key0 : Nat → Nat) (t h : Nat) (M : perm_node) :
    w.skl key0 t (h + 1) M = w.skl key0 t h (w.lch M) ++ w.skl key0 t h (w.rch M) := by
  unfold waksman.skl
  split
  · rw [em_succ]
  · rfl

/-- The outputs of the nodes of one level below the two children of a node are stored in
different slots. -/
theorem wrg_disj_level (w : waksman) (henv : w.env) (H : Nat) (t g : Nat) (M : perm_node)
    (hM : w.node_ok H M (t + g + 1)) (j : Nat) (h1 : w.wrg g (t + g) (w.lch M) j)
    (h2 : w.wrg g (t + g) (w.rch M) j) : False := by
  obtain ⟨hL, hR⟩ := children_ok w henv H M (t + g) hM
  obtain ⟨g1, g2, g3, g4, _⟩ := child_geom w henv H M (t + g) hM
  cases g with
  | zero =>
    obtain ⟨p1, p2⟩ := pos_child w henv H M t hM
    unfold waksman.wrg at h1 h2
    obtain ⟨y1, hy1, e1⟩ := h1
    obtain ⟨y2, hy2, e2⟩ := h2
    rw [(p1 y1 hy1).1] at e1
    rw [(p2 y2 hy2).1] at e2
    omega
  | succ g =>
    have r1 := wrg_region w henv H j g t _ hL h1
    have r2 := wrg_region w henv H j g t _ hR h2
    rw [g1, g2] at r1
    rw [g3, g4] at r2
    omega

/-- One traversal of the empty-road phase below a node: all nodes of the level route their
switches, from left to right, and take their elements of the skip array in this order. -/
theorem erp_level (w : waksman) (henv : w.env) (key0 : Nat → Nat)
    (hk0 : ∀ i, key0 i &&& INT32_MAX = key0 i) (H : Nat) (t : Nat)
    (source dest : Nat) (hsd : source ≠ dest) (hds : dest ≠ w.skip_array) :
    ∀ (g : Nat) (M : perm_node), w.node_ok H M (t + 1 + g) →
      M.parent.offset + 2 * M.size + 1 < 2 ^ 32 →
      ∀ (fuel : Nat), g < fuel → ∀ (si : Nat) (c : cloud),
      si + (w.skl key0 (t + 1) (t + 1 + g) M).length + 2 < 2 ^ 32 → c.has dest →
      w.outs key0 source c (g + 1) (t + 1 + g) M →
      (∀ i, i < (w.skl key0 (t + 1) (t + 1 + g) M).length →
        c.peek w.skip_array (si + i) = (w.skl key0 (t + 1) (t + 1 + g) M)[i]?) →
      (g = 0 → M.parent.is_null = true → M.size = w.length ∧
        ∀ i, i < (w.em key0 (t + 1) M t).length →
          c.peek w.skip_array (si / 2 + i) = (w.em key0 (t + 1) M t)[i]?) →
      ret (w.preorder_trav fuel (bare M) (M.depth + g) source dest si c)
        (fun r => r.1 = si + (w.skl key0 (t + 1) (t + 1 + g) M).length ∧
          c.chg r.2 (fun U j => U = dest ∧ w.wrg g (t + 1 + g) M j) ∧
          w.outs key0 dest r.2 g (t + 1 + g) M) := by
  intro g
  induction g with
  | zero =>
    intro M hM hpo fuel hf si c hsi hd ho hs hroot
    obtain ⟨f, rfl⟩ : ∃ f, fuel = f + 1 := ⟨fuel - 1, by omega⟩
    unfold waksman.preorder_trav
    rw [if_pos (by rw [(bare_geo M).2.2.1]; rfl)]
    exact erp_node w henv key0 hk0 H M t hM hpo source dest hsd hds si (by omega) c hd ho hs
      (hroot rfl)
  | succ g ih =>
    intro M hM hpo fuel hf si c hsi hd ho hs hroot
    obtain ⟨f, rfl⟩ : ∃ f, fuel = f + 1 := ⟨fuel - 1, by omega⟩
    obtain ⟨hL, hR⟩ := children_ok w henv H M (t + 1 + g) hM
    obtain ⟨g1, g2, g3, g4, g5, g6, g7, g8, g9, g10, g11, g12, g13, g14⟩ :=
      child_geom w henv H M (t + 1 + g) hM
    obtain ⟨bl, br⟩ := bare_child w henv H M (t + 1 + g) hM
    have hfit := hM.fit
    have hlt := henv.len_lt
    have hsk := skl_succ w key0 (t + 1) (t + 1 + g) M
    have hsk' : w.skl key0 (t + 1) (t + 1 + (g + 1)) M =
        w.skl key0 (t + 1) (t + 1 + g) (w.lch M) ++ w.skl key0 (t + 1) (t + 1 + g) (w.rch M) :=
      hsk
    rw [hsk'] at hsi hs ⊢
    rw [List.length_append] at hsi hs ⊢
    unfold waksman.outs at ho
    have ho' : w.outs key0 source c (g + 1) (t + 1 + g) (w.lch M) ∧
        w.outs key0 source c (g + 1) (t + 1 + g) (w.rch M) := ho
    unfold waksman.preorder_trav
    rw [if_neg (by rw [(bare_geo M).2.2.1]; omega)]
    dsimp only
    rw [bl, br]
    have hdL : (w.lch M).depth + g = M.depth + (g + 1) := by omega
    have hdR : (w.rch M).depth + g = M.depth + (g + 1) := by omega
    rw [← hdL]
    refine ret_bind _ _ _ _ (ih (w.lch M) hL (by omega) f (by omega) si c (by omega) hd ho'.1
      ?_ ?_) ?_
    · intro i hi
      rw [hs i (by omega), List.getElem?_append_left hi]
    · intro _ hp
      rw [g7] at hp
      cases hp
    rintro ⟨s1, c1⟩ ⟨u1, u2, u3⟩
    simp only at u1 u2 u3 ⊢
    rw [hdL, ← hdR]
    refine ret_mono _ _ _ (ih (w.rch M) hR (by omega) f (by omega) s1 c1 (by omega)
      ((u2.has _).2 hd) ?_ ?_ ?_) ?_
    · exact outs_chg w key0 source c c1 _ u2 (g + 1) (t + 1 + g) (w.rch M)
        (fun j _ hh => hsd hh.1) ho'.2
    · intro i hi
      rw [u2.peek _ _ (fun hh => hds hh.1.symm), u1, Nat.add_assoc, hs _ (by omega),
        List.getElem?_append_right (by omega), Nat.add_sub_cancel_left]
    · intro _ hp
      rw [g8] at hp
      cases hp
    rintro ⟨s2, c2⟩ ⟨v1, v2, v3⟩
    simp only at v1 v2 v3 ⊢
    refine ⟨by omega, ?_, ?_⟩
    · refine chg_trans _ _ _ _ _ _ u2 v2 ?_ ?_
      · rintro U j ⟨hU, hj⟩
        refine ⟨hU, ?_⟩
        unfold waksman.wrg
        exact Or.inl hj
      · rintro U j ⟨hU, hj⟩
        refine ⟨hU, ?_⟩
        unfold waksman.wrg
        exact Or.inr hj
    · unfold waksman.outs
      refine ⟨?_, v3⟩
      exact outs_chg w key0 dest c1 c2 _ v2 g (t + 1 + g) (w.lch M)
        (fun j hj hh => wrg_disj_level w henv H (t + 1) g M hM j hj hh.2) u3

theorem seg_base_half (w : waksman) (t : Nat) :
    w.length / 2 ^ t / 2 = w.seg_base t ∧ w.length / 2 ^ (t + 1) = w.seg_base t := by
  unfold waksman.seg_base
  rw [Nat.div_div_eq_div_mul, pow_succ]
  exact ⟨rfl, rfl⟩

/-- The slots in which the outputs of a level of the tree are stored lie below `length`. -/
theorem wrg_root_lt (w : waksman) (henv : w.env) (i t : Nat)
    (hN : w.node_ok (t + 1 + i + 1) w.root (t + 1 + i)) (j : Nat)
    (hw : w.wrg i (t + 1 + i) w.root j) : j < w.length := by
  have hp : w.root.parent.is_null = true := rfl
  have hs : w.root.size = w.length := rfl
  have ho : w.root.offset = 0 := rfl
  cases i with
  | zero =>
    unfold waksman.wrg at hw
    obtain ⟨y, hy, hj⟩ := hw
    unfold nreg at hy
    rw [if_pos hp, hs] at hy
    unfold pos at hj
    rw [if_pos hp] at hj
    rw [hj]
    exact hy
  | succ g =>
    have := (wrg_region w henv (t + 1 + (g + 1) + 1) j g (t + 1) w.root hN hw).2
    rw [ho, hs] at this
    omega

/-- The loop of `empty_road_phase` over the levels, from the parents of the leaves to the
root: afterwards the outputs of the root are stored in the array that is returned, and only
slots below `length` of `temp1` and `temp3` were written. -/
theorem erp_levels (w : waksman) (henv : w.env) (key0 : Nat → Nat)
    (hk0 : ∀ i, key0 i &&& INT32_MAX = key0 i) (T : Nat)
    (hN : w.node_ok (T + 1) w.root T)
    (hlen : ∀ k, w.seg_base k + (w.em key0 T w.root k).length ≤ w.length) :
    ∀ (i t : Nat), t + i = T → ∀ (source dest : Nat) (c : cloud),
      ((source = w.temp3 ∧ dest = w.temp1) ∨ (source = w.temp1 ∧ dest = w.temp3)) →
      c.has w.temp1 → c.has w.temp3 → w.outs key0 source c i T w.root →
      (∀ k j, j < (w.em key0 T w.root k).length →
        c.peek w.skip_array (w.seg_base k + j) = (w.em key0 T w.root k)[j]?) →
      ret (w.erp_loop w.root i source dest (w.length / 2 ^ t) c)
        (fun r => r.1 = (if i % 2 = 0 then source else dest) ∧
          c.chg r.2 (fun U j => (U = w.temp1 ∨ U = w.temp3) ∧ j < w.length) ∧
          w.outs key0 r.1 r.2 0 T w.root) := by
  intro i
  induction i with
  | zero =>
    intro t _ source dest c _ _ _ ho _
    unfold waksman.erp_loop
    exact ret_ok _ _ ⟨rfl, chg_refl _ _, ho⟩
  | succ i ih =>
    intro t hT source dest c hsd h1 h3 ho hsk
    have hT' : T = t + 1 + i := by omega
    subst hT'
    have hlt := henv.len_lt
    have hle : w.length / 2 ^ t ≤ w.length := Nat.div_le_self _ _
    have hne : source ≠ dest := by
      have := henv.t13
      rcases hsd with ⟨a, b⟩ | ⟨a, b⟩
      · rw [a, b]
        exact fun hh => this hh.symm
      · rw [a, b]
        exact this
    have hds : dest ≠ w.skip_array := by
      rcases hsd with ⟨_, b⟩ | ⟨_, b⟩
      · rw [b]
        exact henv.t1s
      · rw [b]
        exact henv.t3s
    have hd : c.has dest := by
      rcases hsd with ⟨_, b⟩ | ⟨_, b⟩
      · rw [b]
        exact h1
      · rw [b]
        exact h3
    have hdep : w.root.depth + i = i + 1 := by
      unfold waksman.root
      simp only [perm_node.depth]
      omega
    have hskl : ∀ j, j < (w.skl key0 (t + 1) (t + 1 + i) w.root).length →
        c.peek w.skip_array (w.length / 2 ^ t + j) =
          (w.skl key0 (t + 1) (t + 1 + i) w.root)[j]? := by
      intro j hj
      unfold waksman.skl at hj ⊢
      by_cases ht : 2 ≤ t + 1
      · rw [if_pos ht] at hj ⊢
        have e1 : w.length / 2 ^ t = w.seg_base (t + 1 - 2) := by
          rw [← (seg_base_half w (t + 1 - 2)).2]
          congr 2
          omega
        rw [e1]
        exact hsk _ j hj
      · rw [if_neg ht] at hj
        exact absurd hj (Nat.not_lt_zero _)
    have hlv := erp_level w henv key0 hk0 (t + 1 + i + 1) t source dest hne hds i w.root hN
      (by unfold waksman.root; simp only [perm_node.parent, perm_node.offset, perm_node.size];
          omega)
      (i + 2) (by omega) (w.length / 2 ^ t) c
      (by
        have : w.length / 2 ^ t + (w.skl key0 (t + 1) (t + 1 + i) w.root).length ≤
            w.length := by
          unfold waksman.skl
          by_cases ht : 2 ≤ t + 1
          · rw [if_pos ht]
            have e1 : w.length / 2 ^ t = w.seg_base (t + 1 - 2) := by
              rw [← (seg_base_half w (t + 1 - 2)).2]
              congr 2
              omega
            rw [e1]
            exact hlen _
          · rw [if_neg ht]
            exact hle
        omega)
      hd ho hskl
      (by
        intro hi _
        subst hi
        refine ⟨rfl, ?_⟩
        intro j hj
        rw [(seg_base_half w t).1]
        exact hsk t j hj)
    rw [hdep] at hlv
    have hb : bare w.root = w.root := rfl
    rw [hb] at hlv
    unfold waksman.erp_loop
    refine ret_bind _ _ _ _ hlv ?_
    rintro ⟨s1, c1⟩ ⟨_, u2, u3⟩
    simp only at u2 u3 ⊢
    have hs1 : (if source = w.temp1 then w.temp3 else w.temp1) = dest := by
      have := henv.t13
      rcases hsd with ⟨a, b⟩ | ⟨a, b⟩
      · rw [a, b, if_neg (fun hh => this hh.symm)]
      · rw [a, b, if_pos rfl]
    rw [hs1, (seg_base_half w t).1, ← (seg_base_half w t).2]
    have hcc : c.chg c1 (fun U j => (U = w.temp1 ∨ U = w.temp3) ∧ j < w.length) := by
      refine chg_mono _ _ _ _ u2 ?_
      rintro U j ⟨hU, hw⟩
      refine ⟨?_, wrg_root_lt w henv i t hN j hw⟩
      rcases hsd with ⟨_, b⟩ | ⟨_, b⟩
      · exact Or.inl (hU.trans b)
      · exact Or.inr (hU.trans b)
    refine ret_mono _ _ _ (ih (t + 1) rfl dest source c1 ?_ ((u2.has _).2 h1)
      ((u2.has _).2 h3) u3 ?_) ?_
    · rcases hsd with ⟨a, b⟩ | ⟨a, b⟩
      · exact Or.inr ⟨b, a⟩
      · exact Or.inl ⟨b, a⟩
    · intro k j hj
      rw [u2.peek _ _ (fun hh => hds hh.1.symm)]
      exact hsk k j hj
    · rintro r ⟨v1, v2, v3⟩
      refine ⟨?_, chg_trans _ _ _ _ _ _ hcc v2 (fun _ _ hh => hh) (fun _ _ hh => hh), v3⟩
      rw [v1]
      rcases Nat.mod_two_eq_zero_or_one i with hi | hi
      · rw [if_pos hi, if_neg (by omega)]
      · rw [if_neg (by omega), if_pos (by omega)]

/-! ### Waksman permutation: the whole call -/

theorem peek_create (c : cloud) (name length U j : Nat) (h : U ≠ name) :
    (c.create_array name length).peek U j = c.peek U j := by
  unfold cloud.peek cloud.create_array
  simp only [if_neg h]

/-- Deleting an array that exists returns; the other arrays keep what they hold. -/
theorem delete_ret (c : cloud) (i : Nat) (h : c.has i) :
    ret (c.delete_array i) (fun c1 => (∀ U, c1.has U ↔ (U ≠ i ∧ c.has U)) ∧
      ∀ U j, U ≠ i → c1.peek U j = c.peek U j) := by
  unfold cloud.has at h
  cases ht : c.table i with
  | none =>
    rw [ht] at h
    exact absurd h (by simp)
  | some a =>
    have hd : c.delete_array i =
        .ok { c with table := fun nm => if nm = i then none else c.table nm } := by
      unfold cloud.delete_array
      rw [ht]
    refine ⟨_, hd, fun U => has_delete c _ i hd U, ?_⟩
    intro U j hU
    exact peek_of_table _ _ U (by rw [delete_ok_table c _ i hd U, if_neg hU]) j

theorem root_ok (w : waksman) (T : Nat) (hu : uni w.leaf_size T w.length) :
    w.node_ok (T + 1) w.root T :=
  ⟨waksman.wf.root [] [], hu, by
    unfold waksman.root
    simp only [perm_node.offset, perm_node.size]
    omega, by
    unfold waksman.root
    simp only [perm_node.depth]
    omega⟩

theorem outE_root (w : waksman) (key0 : Nat → Nat) (y : Nat) :
    w.outE key0 w.root y = { key := key0 (w.evi w.root y), aux := 0 } := rfl

theorem inE_root (w : waksman) (key0 : Nat → Nat) (j : Nat) :
    w.inE key0 w.root j = { key := key0 j, aux := 0 } := rfl

/-- The call on an object whose fields satisfy `env`, on an input array whose slots hold
elements with `aux = 0`: both phases return, the returned array alternates with the height
of the tree, and slot `y` of the returned array holds the element of the input slot that
the oracle sends to `y`. -/
theorem run_total (w : waksman) (henv : w.env) (T : Nat)
    (hu : uni w.leaf_size (T + 1) w.length)
    (hmsb : 2 * (msb_of 32 (w.length / 2) - 1) / 2 = T + 1) (key0 : Nat → Nat)
    (hk0 : ∀ i, key0 i &&& INT32_MAX = key0 i) (c : cloud) (h1 : c.has w.temp1)
    (hin : ∀ j, j < w.length → ∃ e, c.peek w.temp1 j = some e ∧
      mask_key e = { key := key0 j, aux := 0 }) :
    ret (w.run c) (fun r => r.1 = (if (T + 1) % 2 = 1 then w.temp1 else w.temp3) ∧
      ∀ y, y < w.length →
        r.2.peek r.1 y = some { key := key0 (w.evi w.root y), aux := 0 }) := by
  have hN := root_ok w (T + 1) hu
  have hsz := uni_size w.leaf_size _ _ hu
  have hlt := henv.len_lt
  have h4 : 4 ≤ w.length := by
    have := hu.1
    have := henv.leaf_ge
    omega
  have hT : T + 2 < 31 := by
    by_contra hh
    have : 2 ^ 31 ≤ 2 ^ (T + 1 + 1) := Nat.pow_le_pow_right (by norm_num) (by omega)
    omega
  have hroom := room_root w henv key0 T w.root hN rfl rfl
  have hth := tree_height_of_uni w.leaf_size (T + 1) 33 w.length hu (by omega)
  have hg : ∀ k, (List.replicate (T + 1) 0).getD k 0 = 0 := by
    intro k
    rw [List.getD_eq_getElem?_getD, List.getElem?_replicate]
    split <;> rfl
  have hlen : ∀ k, w.seg_base k + (w.em key0 (T + 1) w.root k).length ≤ w.length := by
    intro k
    by_cases hk : w.em key0 (T + 1) w.root k = []
    · rw [hk]
      unfold waksman.seg_base
      exact Nat.div_le_self _ _
    · have := (hroom k hk).2
      rw [hg] at this
      have := Nat.div_le_self w.length (2 ^ k)
      omega
  unfold waksman.run
  dsimp only
  rw [hmsb]
  have hl0 : w.live (((c.create_array w.temp2 w.length).create_array w.temp3
      w.length).create_array w.skip_array w.length) := by
    unfold waksman.live
    simp only [has_create]
    exact ⟨Or.inr (Or.inr (Or.inr h1)), Or.inr (Or.inr (Or.inl trivial)),
      Or.inr (Or.inl trivial), Or.inl trivial⟩
  have hpre : w.pre key0 (((c.create_array w.temp2 w.length).create_array w.temp3
      w.length).create_array w.skip_array w.length) (T + 1) w.root := by
    have hI : ∀ j, j < w.length → w.inp key0 w.root j
        (((c.create_array w.temp2 w.length).create_array w.temp3
          w.length).create_array w.skip_array w.length) := by
      intro j hj
      obtain ⟨e, he1, he2⟩ := hin j hj
      refine ⟨e, ?_, ?_⟩
      · have ha : w.arr w.root.depth = w.temp1 := rfl
        have ho : w.root.offset + j = j := Nat.zero_add j
        rw [ha, ho, peek_create _ _ _ _ _ henv.t1s, peek_create _ _ _ _ _ henv.t13,
          peek_create _ _ _ _ _ henv.t12]
        exact he1
      · rw [inE_root]
        exact he2
    constructor
    · intro j hj
      exact hI j (by
        have : w.root.size = w.length := rfl
        omega)
    · have hp : w.root.parent.is_null = true := rfl
      rw [if_pos hp]
      exact hI _ (by
        have : w.root.size = w.length := rfl
        omega)
  have hcp := cp_sub w henv key0 hk0 (T + 2) (by omega) (T + 1) w.root hN
    (fun hh => absurd hh (Nat.succ_ne_zero T)) 34 (by omega) (List.replicate (T + 1) 0) _ hl0
    hpre hroom
  refine ret_bind _ _ _ _ hcp ?_
  rintro ⟨sk1, c1⟩ ⟨q1, q2, _, _, q5⟩
  simp only at q1 q2 q5 ⊢
  have hl1 := live_chg w _ _ _ q1 hl0
  unfold waksman.empty_road_phase
  dsimp only
  rw [hth]
  have hdiv : w.length = w.length / 2 ^ 0 := by
    rw [pow_zero, Nat.div_one]
  have herp := erp_levels w henv key0 hk0 (T + 1) hN hlen (T + 1) 0 (Nat.zero_add _) w.temp3
    w.temp1 c1 (Or.inl ⟨rfl, rfl⟩) hl1.1 hl1.2.2.1 q2 (by
      intro k j hj
      have := q5 k j hj
      rw [hg, Nat.add_zero] at this
      exact this)
  rw [← hdiv] at herp
  refine ret_bind _ _ _ _ herp ?_
  rintro ⟨out, c2⟩ ⟨v1, v2, v3⟩
  simp only at v1 v2 v3 ⊢
  have hl2 := live_chg w _ _ _ v2 hl1
  have hout : ∀ y, y < w.length →
      c2.peek out y = some { key := key0 (w.evi w.root y), aux := 0 } := by
    intro y hy
    unfold waksman.outs at v3
    have hnr : nreg (T + 1) w.root = w.length := by
      rw [nreg_inner]
      rfl
    have hp : pos w.root y = y := rfl
    have := v3 y (by rw [hnr]; exact hy)
    rw [hp, outE_root] at this
    exact this
  have hon : out = (if (T + 1) % 2 = 1 then w.temp1 else w.temp3) := by
    rw [v1]
    rcases Nat.mod_two_eq_zero_or_one (T + 1) with hh | hh
    · rw [if_pos hh, if_neg (by omega)]
    · rw [if_neg (by omega), if_pos hh]
  have hos : out ≠ w.skip_array := by
    rw [hon]
    split
    · exact henv.t1s
    · exact henv.t3s
  have ho2 : out ≠ w.temp2 := by
    rw [hon]
    split
    · exact henv.t12
    · exact fun hh => henv.t23 hh.symm
  refine ret_bind _ _ _ _ (delete_ret c2 w.skip_array hl2.2.2.2) ?_
  rintro c3 ⟨d1, d2⟩
  refine ret_bind _ _ _ _ (delete_ret c3 w.temp2 ((d1 _).2 ⟨henv.t2s, hl2.2.1⟩)) ?_
  rintro c4 ⟨d3, d4⟩
  by_cases ho1 : out = w.temp1
  · rw [if_pos ho1]
    refine ret_bind _ _ _ _ (delete_ret c4 w.temp3
      ((d3 _).2 ⟨fun hh => henv.t23 hh.symm, (d1 _).2 ⟨henv.t3s, hl2.2.2.1⟩⟩)) ?_
    rintro c5 ⟨_, d6⟩
    refine ret_pure _ _ ⟨hon, ?_⟩
    intro y hy
    simp only
    rw [d6 _ _ (by rw [ho1]; exact henv.t13), d4 _ _ ho2, d2 _ _ hos]
    exact hout y hy
  · rw [if_neg ho1]
    refine ret_bind _ _ _ _ (delete_ret c4 w.temp1
      ((d3 _).2 ⟨henv.t12, (d1 _).2 ⟨henv.t1s, hl2.1⟩⟩)) ?_
    rintro c5 ⟨_, d6⟩
    refine ret_pure _ _ ⟨hon, ?_⟩
    intro y hy
    simp only
    rw [d6 _ _ ho1, d4 _ _ ho2, d2 _ _ hos]
    exact hout y hy

/-- The shape of the tree for a call with `4 ≤ n < 2 ^ 31`: the leaves lie `T + 1` levels
below the root, and the skip indices have one entry per level. -/
theorem init_shape (pi : permutation) (n name : Nat) (hn : 4 ≤ n) (hn31 : n < 2 ^ 31) :
    ∃ T, uni (waksman.init pi n name).leaf_size (T + 1) n ∧
      2 * (msb_of 32 (n / 2) - 1) / 2 = T + 1 ∧
      3 ≤ (waksman.init pi n name).leaf_size ∧ (waksman.init pi n name).leaf_size ≤ 4 := by
  have hlo : 2 ^ Nat.log 2 n ≤ n := Nat.pow_log_le_self 2 (by omega)
  have hhi : n < 2 ^ (Nat.log 2 n + 1) := Nat.lt_pow_succ_log_self (by norm_num) n
  generalize Nat.log 2 n = m at hlo hhi
  have hm2 : 2 ≤ m := by
    by_contra h
    have : m + 1 ≤ 2 := by omega
    have := Nat.pow_le_pow_right (n := 2) (by norm_num) this
    omega
  have hm31 : m ≤ 30 := by
    have := (Nat.pow_lt_pow_iff_right (a := 2) (by norm_num)).mp (lt_of_le_of_lt hlo hn31)
    omega
  obtain ⟨T, rfl⟩ : ∃ T, m = T + 2 := ⟨m - 2, by omega⟩
  have hor1 : 2 ^ (T + 2) ≤ n ||| 1 := le_trans hlo (le_or_left n 1)
  have hor2 : n ||| 1 < 2 ^ (T + 2 + 1) :=
    Nat.or_lt_two_pow hhi (Nat.one_lt_two_pow (by omega))
  have hmsb := msb_of_eq (n ||| 1) (T + 2) hor1 hor2 (by omega)
  have hleaf : (waksman.init pi n name).leaf_size = (if n ≤ 3 * 2 ^ (T + 1) then 3 else 4) := by
    have hmask := leaf_mask (T + 2) (by omega) (by omega)
    simp only [waksman.init, hmsb, hmask]
    have e1 : T + 2 - 1 = T + 1 := by omega
    rw [e1]
    by_cases h : n ≤ 3 * 2 ^ (T + 1)
    · rw [if_pos h, if_neg (by omega)]
    · rw [if_neg h, if_pos (by omega)]
  have hpow : 2 ^ (T + 2) = 2 * 2 ^ (T + 1) := by
    rw [pow_succ]
    omega
  have hpow2 : 2 ^ (T + 2 + 1) = 4 * 2 ^ (T + 1) := by
    rw [pow_succ, hpow]
    omega
  have hmsb2 : msb_of 32 (n / 2) = T + 2 :=
    msb_of_eq (n / 2) (T + 1) (by omega) (by omega) (by omega)
  refine ⟨T, ?_, by rw [hmsb2]; omega, ?_, ?_⟩
  · rw [hleaf]
    by_cases h : n ≤ 3 * 2 ^ (T + 1)
    · rw [if_pos h]
      exact uni_three _ _ (by omega) h
    · rw [if_neg h]
      exact uni_four _ _ (by omega) (by omega)
  · rw [hleaf]
    split <;> omega
  · rw [hleaf]
    split <;> omega

/-- The fields that `permute` sets satisfy the conditions under which the call is
analysed. -/
theorem init_env (pi : permutation) (n name : Nat) (hn : 4 ≤ n) (hn31 : n < 2 ^ 31)
    (hpi : (waksman.init pi n name).good_pi) : (waksman.init pi n name).env := by
  obtain ⟨T, _, _, h3, h4⟩ := init_shape pi n name hn hn31
  obtain ⟨d13, d23, d2s, d3s, d12, d1s⟩ := names_distinct name
  exact ⟨hpi, hn31, h3, h4, d12, d13, d23, d1s, d2s, d3s⟩

theorem mask_mask (x : Nat) : (x &&& INT32_MAX) &&& INT32_MAX = x &&& INT32_MAX := by
  rw [Nat.and_assoc, Nat.and_self]

/-- The whole call for `4 ≤ n < 2 ^ 31`, a bijection `pi` and an input array `name` whose
first `n` slots are written with `aux = 0`: `permute` returns, the name it returns is
`name` for an odd height of the tree and `name + 2` for an even one, and the element of
input slot `k`, with its key as `get` hands it out, is stored in slot `pi(k)` of the
returned array. -/
theorem permute_total (pi : permutation) (n name : Nat) (c : cloud) (hn : 4 ≤ n)
    (hn31 : n < 2 ^ 31) (hpi : (waksman.init pi n name).good_pi) (hname : c.has name)
    (f : Nat → element) (hin : ∀ j, j < n → c.peek name j = some (f j))
    (haux : ∀ j, j < n → (f j).aux = 0) :
    ret (waksman.permute pi n name c) (fun r =>
      r.1 = (if waksman.tree_height (waksman.init pi n name).leaf_size 33 n % 2 = 1 then name
        else (name + 2) % W32) ∧
      (∀ k, k < n → ∃ v, pi.eval_perm k = .ok v ∧ v < n ∧
        r.2.peek r.1 v = some (mask_key (f k))) ∧
      ∀ y, y < n → ∃ k, k < n ∧ r.2.peek r.1 y = some (mask_key (f k))) := by
  have henv := init_env pi n name hn hn31 hpi
  obtain ⟨T, hu, hmsb, _, _⟩ := init_shape pi n name hn hn31
  have hth := tree_height_of_uni (waksman.init pi n name).leaf_size (T + 1) 33 n hu
    (by
      have := uni_size _ _ _ hu
      by_contra hh
      have : 2 ^ 31 ≤ 2 ^ (T + 1 + 1) := Nat.pow_le_pow_right (by norm_num) (by omega)
      omega)
  have hrun := run_total (waksman.init pi n name) henv T hu hmsb
    (fun j => (f j).key &&& INT32_MAX) (fun i => mask_mask _) c hname
    (by
      intro j hj
      refine ⟨f j, hin j hj, ?_⟩
      unfold mask_key
      rw [haux j hj])
  rw [permute_eq_run, hth]
  refine ret_mono _ _ _ hrun ?_
  rintro r ⟨r1, r2⟩
  have hb := bij_root (waksman.init pi n name) hpi 1 true 0 [] []
  refine ⟨r1, ?_, ?_⟩
  · intro k hk
    obtain ⟨e1, e2, e3⟩ := ev_spec (waksman.init pi n name) _ hb k hk
    refine ⟨(waksman.init pi n name).ev (waksman.init pi n name).root k, e1, e2, ?_⟩
    have := r2 _ e2
    unfold waksman.root at this ⊢
    rw [e3] at this
    rw [this]
    unfold mask_key
    rw [haux k hk]
  · intro y hy
    obtain ⟨_, e2, _⟩ := evi_spec (waksman.init pi n name) _ hb y hy
    refine ⟨_, e2, ?_⟩
    rw [r2 y hy]
    unfold mask_key
    rw [haux _ e2]
    rfl

/-! ### Waksman permutation: the contract of `permute` -/

/-- C1 (failing input).  `n = 4`, `pi` the identity, and an input array that holds the keys
`0..3` one per slot in the order `1, 0, 2, 3`: `permute` returns array `0` with the key `1`
in slot `0` and the key `0` in slot `1`, although `pi(1) = 1`.  The network moves the
element of slot `i` to slot `pi(i)` and never reads a key. -/
theorem waksman_keys_out_of_place :
    (permutation.identity 4).eval_perm 1 = .ok 1 ∧
    (waksman.permute (permutation.identity 4) 4 0 (cloud.of_keys [1, 0, 2, 3])).map
      (fun r => (r.1, r.2.peek r.1 0, r.2.peek r.1 1))
      = .ok (0, some { key := 1, aux := 0 }, some { key := 0, aux := 0 }) := by
  constructor <;> rfl

/-- The slot view alone, with no bound on the byte offset of a slot.  For `4 ≤ n < 2 ^ 31`, an oracle that holds a bijection `pi` of `[0, n)`
with its inverse, and an input array whose slot `i` holds an element with the key
`key0 i < 2 ^ 31` and `aux = 0` for every `i < n`: `permute` returns an array name `O`, and
for every `k < n` the element of input slot `k` is stored at `O[pi(k)]`.  When slot `k`
holds the key `k`, the element with key `k` is therefore stored at `O[pi(k)]`. -/
theorem waksman_positions_slots (pi : permutation) (n name : Nat) (c : cloud) (hn : 4 ≤ n)
    (hn31 : n < 2 ^ 31) (hpi : (waksman.init pi n name).good_pi) (hname : c.has name)
    (key0 : Nat → Nat) (hkey : ∀ i, i < n → key0 i < 2 ^ 31)
    (hin : ∀ i, i < n → c.peek name i = some { key := key0 i, aux := 0 }) :
    ∃ O c1, waksman.permute pi n name c = .ok (O, c1) ∧
      ∀ k, k < n → ∃ v, pi.eval_perm k = .ok v ∧ v < n ∧
        c1.peek O v = some { key := key0 k, aux := 0 } := by
  obtain ⟨r, h1, _, h2, _⟩ := permute_total pi n name c hn hn31 hpi hname
    (fun i => { key := key0 i, aux := 0 }) hin (fun _ _ => rfl)
  refine ⟨r.1, r.2, h1, ?_⟩
  intro k hk
  obtain ⟨v, a1, a2, a3⟩ := h2 k hk
  refine ⟨v, a1, a2, ?_⟩
  rw [a3]
  unfold mask_key
  have hm : INT32_MAX = 2 ^ 31 - 1 := by decide
  simp only [hm, Nat.and_pow_two_sub_one_eq_mod, Nat.mod_eq_of_lt (hkey k hk)]

theorem driver_peek (n i : Nat) (h : i < n) :
    (cloud.driver n).peek 0 i = some { key := i, aux := 0 } := by
  unfold cloud.peek cloud.driver
  simp only [if_true, if_pos h]

/-- C27.  For `4 ≤ n < 2 ^ 31`, an oracle that holds a bijection of `[0, n)` with its
inverse, and an input array `name` whose first `n` slots are written with `aux = 0`:
`permute` returns; the name it returns is `name` when the height of the tree is odd and
`name + 2` when it is even; on return the returned array exists, the other three of the
arrays `name`, `name + 1`, `name + 2`, `name + 3` do not, and every other array exists
exactly if it did before the call. -/
theorem waksman_array_hygiene (pi : permutation) (n name : Nat) (c : cloud) (hn : 4 ≤ n)
    (hn31 : n < 2 ^ 31) (hpi : (waksman.init pi n name).good_pi) (hname : c.has name)
    (f : Nat → element) (hin : ∀ i, i < n → c.peek name i = some (f i))
    (haux : ∀ i, i < n → (f i).aux = 0) :
    ∃ O c1, waksman.permute pi n name c = .ok (O, c1) ∧
      O = (if waksman.tree_height (waksman.init pi n name).leaf_size 33 n % 2 = 1 then name
        else (name + 2) % W32) ∧
      c1.has O ∧
      (∀ U, (U = name ∨ U = (name + 1) % W32 ∨ U = (name + 2) % W32 ∨ U = (name + 3) % W32) →
        U ≠ O → ¬ c1.has U) ∧
      ∀ U, U ≠ name → U ≠ (name + 1) % W32 → U ≠ (name + 2) % W32 → U ≠ (name + 3) % W32 →
        (c1.has U ↔ c.has U) := by
  obtain ⟨r, h1, h2, _⟩ := permute_total pi n name c hn hn31 hpi hname f hin haux
  obtain ⟨d13, d23, d2s, d3s, d12, d1s⟩ := names_distinct name
  obtain ⟨O, c1⟩ := r
  simp only at h2
  have hr : (waksman.init pi n name).run c = .ok (O, c1) := by
    rw [← permute_eq_run]
    exact h1
  obtain ⟨_, a2⟩ := run_arrays (waksman.init pi n name) c c1 O d13 hr
  have t1 : (waksman.init pi n name).temp1 = name := rfl
  have t2 : (waksman.init pi n name).temp2 = (name + 1) % W32 := rfl
  have t3 : (waksman.init pi n name).temp3 = (name + 2) % W32 := rfl
  have t4 : (waksman.init pi n name).skip_array = (name + 3) % W32 := rfl
  rw [t1, t2, t3, t4] at a2
  refine ⟨O, c1, h1, h2, ?_, ?_, ?_⟩
  · rw [a2]
    by_cases ho : O = name
    · rw [if_pos ho, ho]
      exact ⟨⟨d1s, d12, d13⟩, Or.inr (Or.inr (Or.inr hname))⟩
    · rw [if_neg ho]
      have ho3 : O = (name + 2) % W32 := by
        rw [h2]
        split
        · rename_i hh
          rw [h2, if_pos hh] at ho
          exact absurd rfl ho
        · rfl
      rw [ho3]
      exact ⟨⟨d3s, fun hh => d23 hh.symm, fun hh => d13 hh.symm⟩, Or.inr (Or.inl rfl)⟩
  · intro U hU hne hh
    rw [a2] at hh
    obtain ⟨⟨b1, b2, b3⟩, _⟩ := hh
    by_cases ho : O = name
    · rw [if_pos ho] at b3
      rcases hU with hU | hU | hU | hU
      · exact hne (hU.trans ho.symm)
      · exact b2 hU
      · exact b3 hU
      · exact b1 hU
    · rw [if_neg ho] at b3
      have ho3 : O = (name + 2) % W32 := by
        rw [h2]
        split
        · rename_i hh
          rw [h2, if_pos hh] at ho
          exact absurd rfl ho
        · rfl
      rcases hU with hU | hU | hU | hU
      · exact b3 hU
      · exact b2 hU
      · exact hne (hU.trans ho3.symm)
      · exact b1 hU
  · intro U u1 u2 u3 u4
    rw [a2]
    constructor
    · rintro ⟨_, hh | hh | hh | hh⟩
      · exact absurd hh u4
      · exact absurd hh u3
      · exact absurd hh u2
      · exact hh
    · intro hh
      refine ⟨⟨u4, u2, ?_⟩, Or.inr (Or.inr (Or.inr hh))⟩
      split
      · exact u3
      · exact u1

theorem waksman_array_hygiene_witness :
    ∃ O c1, waksman.permute (permutation.reversal 8) 8 0 (cloud.driver 8) = .ok (O, c1) ∧
      O = (if waksman.tree_height (waksman.init (permutation.reversal 8) 8 0).leaf_size 33 8
          % 2 = 1 then 0 else (0 + 2) % W32) ∧
      c1.has O ∧
      (∀ U, (U = 0 ∨ U = (0 + 1) % W32 ∨ U = (0 + 2) % W32 ∨ U = (0 + 3) % W32) →
        U ≠ O → ¬ c1.has U) ∧
      ∀ U, U ≠ 0 → U ≠ (0 + 1) % W32 → U ≠ (0 + 2) % W32 → U ≠ (0 + 3) % W32 →
        (c1.has U ↔ (cloud.driver 8).has U) :=
  waksman_array_hygiene (permutation.reversal 8) 8 0 (cloud.driver 8) (by decide)
    (by decide) (good_pi_reversal 8 _ _ _ _ _) rfl (fun i => { key := i, aux := 0 })
    (fun i hi => driver_peek 8 i hi) (fun _ _ => rfl)

/-! ### Waksman permutation: the passes of the loop of `set_exterior` -/

/-- `set_exterior` is its first lines followed by the loop, which makes
`2 * num_switch - count` passes. -/
theorem set_exterior_eq (w : waksman) (node : perm_node) :
    w.set_exterior node = (do
      let (s0, count) ← waksman.set_exterior_start node
      let s ← loop (2 * ((node.size + 1) / 2) - count)
        (fun _ s => w.set_exterior_step node s) s0
      pure (node.with_switches s.entry s.exit)) := by
  unfold waksman.set_exterior waksman.set_exterior_start
  simp only [bind_assoc, pure_bind]
  split
  · simp only [bind_assoc, pure_bind]
  · simp only [bind_assoc, pure_bind]

/-- The state in which the traversal of `set_exterior` starts: two switches are set when the
size is odd and one when it is even, and the invariant of the loop holds. -/
theorem ext_init (w : waksman) (p : perm_node) (d : Nat) (l : Bool) (o s : Nat)
    (e0 x0 : List Bool) (hs : 4 ≤ s) (hs2 : s < 2 ^ 31) :
    ∃ s0, waksman.set_exterior_start (.node p d l o s e0 x0) =
        .ok (s0, if s % 2 = 1 then 2 else 1) ∧
      ext_inv w (.node p d l o s e0 x0) s (if s % 2 = 1 then 2 else 1) 0 s0 := by
  have hW : W32 = 4294967296 := by decide
  have hcur : (s + W32 - 1) % W32 = s - 1 := by rw [hW]; omega
  have hns : nsw s = (s + 1) / 2 := rfl
  unfold waksman.set_exterior_start
  simp only [perm_node.size, hcur]
  have hb1 : ∀ b, bv_set (List.replicate ((s + 1) / 2) false) ((s + 1) / 2 - 1) b =
      .ok ((List.replicate ((s + 1) / 2) false).set ((s + 1) / 2 - 1) b) :=
    fun b => bv_set_ok _ _ _ (by simp; omega)
  have hget : ∀ (b : Bool) (j : Nat),
      ((List.replicate ((s + 1) / 2) false).set ((s + 1) / 2 - 1) b).getD j false =
        if j = (s + 1) / 2 - 1 then b else false := by
    intro b j
    rw [getD_set]
    by_cases hj : j = (s + 1) / 2 - 1
    · rw [if_pos ⟨hj, by simp; omega⟩, if_pos hj]
    · rw [if_neg (fun h => hj h.1), if_neg hj]
      exact replicate_getD _ _
  have hget0 : ∀ j : Nat, (List.replicate ((s + 1) / 2) false).getD j false = false :=
    fun j => replicate_getD _ j
  have hcount : ((List.replicate ((s + 1) / 2) false).set ((s + 1) / 2 - 1) true).count true
      = 1 := by
    rw [count_set_true _ _ (by simp; omega) (hget0 _), replicate_count]
  by_cases hodd : s % 2 = 1
  · rw [if_pos hodd, if_pos hodd]
    simp only [hb1, ok_bind, pure_bind]
    refine ⟨_, rfl, ?_⟩
    refine ⟨rfl, ⟨false, s - 1, ?_⟩, ?_, ?_, ?_, ?_, ?_, ?_⟩
    · simp only [if_true]
      refine ⟨by simp [hns], by simp [hns], by simp [hns], by simp [hns], by omega, ?_, ?_,
        by omega, ?_, ?_, ?_, ?_⟩
      · rw [hget, if_pos (by omega)]
      · rw [hget, if_pos (by omega)]
      · simp only [Bool.false_eq_true, if_false]
        rw [hget, if_pos (by omega)]
      · intro x hx hset hne _
        rw [hget] at hset
        split at hset
        · omega
        · exact absurd hset (by simp)
      · intro y hy hset hne
        rw [hget] at hset
        split at hset
        · exact absurd ⟨rfl, (by omega : y = s - 1)⟩ hne
        · exact absurd hset (by simp)
      · simp only [Bool.false_eq_true, if_false]
    · refine ⟨fun i hi => absurd hi (Nat.not_lt_zero _), fun _ => ?_, Nat.zero_le _⟩
      show List.getD _ 0 false = false
      rw [hget, if_neg (by omega)]
    · refine ⟨fun i hi => absurd hi (Nat.not_lt_zero _), fun _ => ?_, Nat.zero_le _⟩
      show List.getD _ 0 false = false
      rw [hget, if_neg (by omega)]
    · show List.count true _ + List.count true _ = 2 + 0
      rw [hcount]
    · simp only [if_true]
      show List.count true _ + (2 - 2) = List.count true _
      rfl
    · intro _
      refine ⟨?_, ?_, ?_, ?_⟩ <;> rw [hns, hget, if_pos rfl] <;> rfl
    · intro h
      omega
  · rw [if_neg hodd, if_neg hodd]
    simp only [hb1, ok_bind, pure_bind]
    refine ⟨_, rfl, ?_⟩
    refine ⟨rfl, ⟨true, s - 2, ?_⟩, ?_, ?_, ?_, ?_, ?_, ?_⟩
    · simp only [if_true]
      refine ⟨by simp [hns], by simp [hns], by simp [hns], by simp [hns], by omega, ?_, ?_,
        by omega, ?_, ?_, ?_, ?_⟩
      · rw [hget, if_pos (by omega)]
      · rw [hget, if_pos (by omega)]
      · simp only [if_true]
        refine ⟨?_, by omega⟩
        rw [hget, if_pos (by omega)]
      · intro x hx hset hne hno
        rw [hget] at hset
        split at hset
        · exact absurd ⟨rfl, (by omega : x = s - 2)⟩ hno
        · exact absurd hset (by simp)
      · intro y hy hset hne
        rw [hget0] at hset
        exact absurd hset (by simp)
      · simp only [if_true]
        unfold goes_left
        have e1 : (s - 1) / 2 = (s - 2) / 2 := by omega
        have e2 : ¬ (s - 1) % 2 = 0 := by omega
        have e3 : (s - 2) % 2 = 0 := by omega
        rw [e1]
        simp [e2, e3]
    · exact ⟨fun i hi => absurd hi (Nat.not_lt_zero _), fun _ => hget0 _, Nat.zero_le _⟩
    · refine ⟨fun i hi => absurd hi (Nat.not_lt_zero _), fun _ => ?_, Nat.zero_le _⟩
      show List.getD _ 0 false = false
      rw [hget, if_neg (by omega)]
    · show List.count true _ + List.count true _ = 1 + 0
      rw [hcount, replicate_count]
    · simp only [if_true]
      show List.count true _ + (2 - 1) = List.count true _
      rw [hcount, replicate_count]
    · intro h
      omega
    · intro _
      refine ⟨?_, ?_⟩ <;> rw [hns, hget, if_pos rfl] <;> rfl

theorem bv_set_inv (bv : List Bool) (i : Nat) (b : Bool) (r : List Bool)
    (h : bv_set bv i b = .ok r) : r = bv.set i b := by
  unfold bv_set at h
  split at h
  · cases h
    rfl
  · cases h

theorem set_true_mono (bv : List Bool) (j i : Nat) (h : bv.getD i false = true) :
    (bv.set j true).getD i false = true := by
  rw [getD_set]
  split
  · rfl
  · exact h

/-- A call of `set_switch` clears no bit of `is_set`. -/
theorem set_switch_mono (data : ext_data) (res : Nat) (settings is_set : List Bool)
    (d : ext_data) (r : Nat) (B1 S1 : List Bool)
    (h : waksman.set_switch data res settings is_set = .ok (d, r, B1, S1)) :
    ∀ i, is_set.getD i false = true → S1.getD i false = true := by
  unfold waksman.set_switch at h
  obtain ⟨b, _, h⟩ := bind_ok_inv _ _ _ h
  dsimp only at h
  split at h
  · obtain ⟨B2, _, h⟩ := bind_ok_inv _ _ _ h
    obtain ⟨S2, h2, h⟩ := bind_ok_inv _ _ _ h
    have e2 := bv_set_inv _ _ _ _ h2
    split at h
    · cases h
      intro i hi
      rw [e2]
      exact set_true_mono _ _ _ hi
    · cases h
      intro i hi
      rw [e2]
      exact set_true_mono _ _ _ hi
  · obtain ⟨B2, _, h⟩ := bind_ok_inv _ _ _ h
    obtain ⟨S2, h2, h⟩ := bind_ok_inv _ _ _ h
    have e2 := bv_set_inv _ _ _ _ h2
    cases h
    intro i hi
    rw [e2]
    exact set_true_mono _ _ _ hi

/-- A pass of the loop of `set_exterior` clears no bit of the two `is_set` bitvectors. -/
theorem set_exterior_step_mono (w : waksman) (N : perm_node) (st st1 : ext_state)
    (h : w.set_exterior_step N st = .ok st1) :
    (∀ i, st.switch_set_entry.getD i false = true →
      st1.switch_set_entry.getD i false = true) ∧
    (∀ i, st.switch_set_exit.getD i false = true →
      st1.switch_set_exit.getD i false = true) := by
  unfold waksman.set_exterior_step at h
  split at h
  · obtain ⟨tar, _, h⟩ := bind_ok_inv _ _ _ h
    obtain ⟨⟨d, r, B1, S1⟩, h2, h⟩ := bind_ok_inv _ _ _ h
    cases h
    exact ⟨set_switch_mono _ _ _ _ _ _ _ _ h2, fun i hi => hi⟩
  · obtain ⟨tar, _, h⟩ := bind_ok_inv _ _ _ h
    obtain ⟨⟨d, r, B1, S1⟩, h2, h⟩ := bind_ok_inv _ _ _ h
    cases h
    exact ⟨fun i hi => hi, set_switch_mono _ _ _ _ _ _ _ _ h2⟩

theorem loop_succ {σ : Type} (n : Nat) (body : Nat → σ → Except Fault σ) (s : σ) :
    loop (n + 1) body s = loop n body s >>= body n := rfl

/-- C31 (counterexample).  A node of even size `s = 4` (the root for `n = 4`, `pi` the
reversal): `count` is `1` when the loop starts, so the loop makes `2 * 2 - 1 = 3 = s - 1`
passes; after `s - 2 = 2` passes only three of the four switches are set, and the third
pass sets the fourth. -/
theorem set_exterior_even_passes :
    (waksman.set_exterior_start (.node .null 1 true 0 4 [] [])).map
      (fun r => (r.1.num_set, 2 * ((4 + 1) / 2) - r.2)) = .ok (1, 3) ∧
    ((waksman.set_exterior_start (.node .null 1 true 0 4 [] [])) >>= fun r =>
      loop 2 (fun _ st => (waksman.mk (permutation.reversal 4) 4 3 0 1 2 3).set_exterior_step
        (.node .null 1 true 0 4 [] []) st) r.1).map (fun st => st.num_set) = .ok 3 ∧
    ((waksman.set_exterior_start (.node .null 1 true 0 4 [] [])) >>= fun r =>
      loop 3 (fun _ st => (waksman.mk (permutation.reversal 4) 4 3 0 1 2 3).set_exterior_step
        (.node .null 1 true 0 4 [] []) st) r.1).map (fun st => st.num_set) = .ok 4 := by
  refine ⟨?_, ?_, ?_⟩ <;> rfl

/-- C31 (amended).  For a node of size `4 ≤ s < 2 ^ 31` on which `eval_pi` and `eval_inv_pi`
are inverse bijections: when the loop of `set_exterior` starts, `c0` switches are set
(`2` for odd `s`, `1` for even `s`) and the loop makes `2 * ceil(s / 2) - c0 = s - 1`
passes, for odd and for even `s`; every pass is one call of `set_switch`, which returns,
raises the number of set switches by exactly one and clears no bit, so it sets one switch
that was not set before; after the last pass all `2 * ceil(s / 2)` entry and exit switches
are set, and `set_exterior` returns the node with the settings of that state. -/
theorem set_exterior_passes (w : waksman) (p : perm_node) (d : Nat) (l : Bool) (o s : Nat)
    (e0 x0 : List Bool) (hbij : w.bij (.node p d l o s e0 x0)) (hs : 4 ≤ s)
    (hs2 : s < 2 ^ 31) :
    ∃ s0 c0, waksman.set_exterior_start (.node p d l o s e0 x0) = .ok (s0, c0) ∧
      c0 = (if s % 2 = 1 then 2 else 1) ∧ s0.num_set = c0 ∧
      2 * ((s + 1) / 2) - c0 = s - 1 ∧
      (∀ k, k < s - 1 → ∃ st st1,
        loop k (fun _ st => w.set_exterior_step (.node p d l o s e0 x0) st) s0 = .ok st ∧
        w.set_exterior_step (.node p d l o s e0 x0) st = .ok st1 ∧
        st.num_set = c0 + k ∧ st1.num_set = st.num_set + 1 ∧
        (∀ i, st.switch_set_entry.getD i false = true →
          st1.switch_set_entry.getD i false = true) ∧
        (∀ i, st.switch_set_exit.getD i false = true →
          st1.switch_set_exit.getD i false = true)) ∧
      ∃ st, loop (s - 1) (fun _ st => w.set_exterior_step (.node p d l o s e0 x0) st) s0 =
          .ok st ∧
        st.num_set = 2 * ((s + 1) / 2) ∧
        (∀ i, i < (s + 1) / 2 → st.switch_set_entry.getD i false = true ∧
          st.switch_set_exit.getD i false = true) ∧
        w.set_exterior (.node p d l o s e0 x0) = .ok (.node p d l o s st.entry st.exit) := by
  obtain ⟨s0, h0, hi0⟩ := ext_init w p d l o s e0 x0 hs hs2
  generalize hc : (if s % 2 = 1 then 2 else 1) = c0 at h0 hi0
  have hns : nsw s = (s + 1) / 2 := rfl
  have hcnt : 2 * ((s + 1) / 2) - c0 = s - 1 := by
    rw [← hc]
    split <;> omega
  have hrun : ∀ k, k ≤ s - 1 → ∃ st,
      loop k (fun _ st => w.set_exterior_step (.node p d l o s e0 x0) st) s0 = .ok st ∧
      ext_inv w (.node p d l o s e0 x0) s c0 k st := by
    intro k hk
    exact loop_inv (ext_inv w (.node p d l o s e0 x0) s c0)
      (fun _ st => w.set_exterior_step (.node p d l o s e0 x0) st) k s0 hi0
      (fun j st hj hi => ext_step w _ s c0 j st hbij hs2 hc.symm (by rw [hns]; omega) hi)
  refine ⟨s0, c0, h0, rfl, ?_, hcnt, ?_, ?_⟩
  · have := hi0.2.2.2.2.1
    unfold ext_state.num_set
    omega
  · intro k hk
    obtain ⟨st, h1, i1⟩ := hrun k (by omega)
    obtain ⟨st1, h2, i2⟩ := ext_step w _ s c0 k st hbij hs2 hc.symm (by rw [hns]; omega) i1
    obtain ⟨m1, m2⟩ := set_exterior_step_mono w _ st st1 h2
    refine ⟨st, st1, h1, h2, ?_, ?_, m1, m2⟩
    · exact i1.2.2.2.2.1
    · have a1 := i1.2.2.2.2.1
      have a2 := i2.2.2.2.2.1
      unfold ext_state.num_set
      omega
  · obtain ⟨st, h1, i1⟩ := hrun (s - 1) (le_refl _)
    have hsum := i1.2.2.2.2.1
    have hl : st.switch_set_entry.length = nsw s ∧ st.switch_set_exit.length = nsw s := by
      obtain ⟨_, ⟨oA, o1, hw⟩, _⟩ := i1
      split at hw
      · exact ⟨hw.lenSB, hw.lenSA⟩
      · exact ⟨hw.lenSA, hw.lenSB⟩
    have hc1 : st.switch_set_entry.count true ≤ nsw s := by
      rw [← hl.1]
      exact List.count_le_length _ _
    have hc2 : st.switch_set_exit.count true ≤ nsw s := by
      rw [← hl.2]
      exact List.count_le_length _ _
    have hc0le : c0 ≤ 2 := by
      rw [← hc]
      split <;> omega
    have htot : c0 + (s - 1) = 2 * nsw s := by
      rw [hns]
      omega
    have ha1 := all_set_of_count st.switch_set_entry (by rw [hl.1]; omega)
    have ha2 := all_set_of_count st.switch_set_exit (by rw [hl.2]; omega)
    rw [hl.1] at ha1
    rw [hl.2] at ha2
    refine ⟨st, h1, ?_, fun i hi => ⟨ha1 i hi, ha2 i hi⟩, ?_⟩
    · unfold ext_state.num_set
      rw [hsum, htot]
      rfl
    · rw [set_exterior_eq, h0]
      simp only [ok_bind, perm_node.size]
      rw [hcnt, h1]
      rfl

theorem set_exterior_passes_witness :
    ∃ s0 c0, waksman.set_exterior_start (.node .null 1 true 0 8 [] []) = .ok (s0, c0) ∧
      c0 = (if 8 % 2 = 1 then 2 else 1) ∧ s0.num_set = c0 ∧
      2 * ((8 + 1) / 2) - c0 = 8 - 1 ∧
      (∀ k, k < 8 - 1 → ∃ st st1,
        loop k (fun _ st => (waksman.mk (permutation.reversal 8) 8 3 0 1 2 3).set_exterior_step
          (.node .null 1 true 0 8 [] []) st) s0 = .ok st ∧
        (waksman.mk (permutation.reversal 8) 8 3 0 1 2 3).set_exterior_step
          (.node .null 1 true 0 8 [] []) st = .ok st1 ∧
        st.num_set = c0 + k ∧ st1.num_set = st.num_set + 1 ∧
        (∀ i, st.switch_set_entry.getD i false = true →
          st1.switch_set_entry.getD i false = true) ∧
        (∀ i, st.switch_set_exit.getD i false = true →
          st1.switch_set_exit.getD i false = true)) ∧
      ∃ st, loop (8 - 1) (fun _ st =>
          (waksman.mk (permutation.reversal 8) 8 3 0 1 2 3).set_exterior_step
            (.node .null 1 true 0 8 [] []) st) s0 = .ok st ∧
        st.num_set = 2 * ((8 + 1) / 2) ∧
        (∀ i, i < (8 + 1) / 2 → st.switch_set_entry.getD i false = true ∧
          st.switch_set_exit.getD i false = true) ∧
        (waksman.mk (permutation.reversal 8) 8 3 0 1 2 3).set_exterior
          (.node .null 1 true 0 8 [] []) = .ok (.node .null 1 true 0 8 st.entry st.exit) :=
  set_exterior_passes (waksman.mk (permutation.reversal 8) 8 3 0 1 2 3) .null 1 true 0 8
    [] [] (bij_root _ (good_pi_reversal 8 3 0 1 2 3) 1 true 0 [] []) (by decide) (by decide)

/-! ### Waksman permutation: how `set_exterior` walks from switch to switch -/

theorem xor_one (t : Nat) : t ^^^ 1 = if t % 2 = 0 then t + 1 else t - 1 := by
  have h1 : (1 : Nat) = Nat.bit true 0 := rfl
  have h2 : t = Nat.bit (t.bodd) (t / 2) := by
    rw [← Nat.div2_val]
    exact (Nat.bit_decomp t).symm
  have h3 : t ^^^ 1 = Nat.bit (!t.bodd) (t / 2) := by
    conv_lhs => rw [h2, h1, Nat.xor_bit, Nat.xor_zero]
    simp
  rw [h3]
  have h4 := Nat.mod_two_of_bodd t
  cases hb : t.bodd
  · rw [hb] at h4
    simp only [Bool.not_false, Nat.bit_true, cond_false] at h4 ⊢
    have : t % 2 = 0 := h4
    rw [if_pos this]
    omega
  · rw [hb] at h4
    simp only [Bool.not_true, Nat.bit_false, cond_true] at h4 ⊢
    have : t % 2 = 1 := h4
    rw [if_neg (by omega)]
    omega

/-- C32.  `ext_data::configure` leaves `cur_setting` unchanged when `cur` and `tar` have the
same parity and flips it (`PERSIST` to `SWAP`, `SWAP` to `PERSIST`) when their parities
differ, and changes neither `cur` nor `tar`; `ext_data::update_index` then sets `cur` to the
other wire of the switch of `tar`, `cur = tar XOR 1`, so that `floor(cur / 2) =
floor(tar / 2)` and `cur ≠ tar` (for a 32-bit `tar`), and changes neither `tar` nor the
setting. -/
theorem ext_data_propagation (d : ext_data) (ht : d.tar < W32) :
    d.configure.cur_setting = (if d.cur % 2 = d.tar % 2 then d.cur_setting
      else !d.cur_setting) ∧
    d.configure.cur = d.cur ∧ d.configure.tar = d.tar ∧
    d.configure.update_index.cur = d.tar ^^^ 1 ∧
    d.configure.update_index.cur / 2 = d.tar / 2 ∧
    d.configure.update_index.cur ≠ d.tar ∧
    d.configure.update_index.tar = d.tar ∧
    d.configure.update_index.cur_setting = d.configure.cur_setting := by
  have hW : W32 = 4294967296 := by decide
  have hc : d.configure.update_index.cur = d.tar ^^^ 1 := by
    rw [xor_one]
    unfold ext_data.update_index ext_data.configure
    simp only
    split
    · rw [Nat.mod_eq_of_lt (by omega)]
    · rw [hW]
      omega
  refine ⟨?_, rfl, rfl, hc, ?_, ?_, rfl, rfl⟩
  · unfold ext_data.configure
    simp only
    by_cases h : d.cur % 2 = d.tar % 2
    · rw [if_pos h]
      cases d.cur_setting <;> simp [h]
    · rw [if_neg h]
      cases d.cur_setting <;> simp [h]
  · rw [hc, xor_one]
    split <;> omega
  · rw [hc, xor_one]
    split <;> omega

theorem ext_data_propagation_witness :
    (ext_data.mk 5 2 SWAP).configure.cur_setting = (if (ext_data.mk 5 2 SWAP).cur % 2 =
      (ext_data.mk 5 2 SWAP).tar % 2 then (ext_data.mk 5 2 SWAP).cur_setting
      else !(ext_data.mk 5 2 SWAP).cur_setting) ∧
    (ext_data.mk 5 2 SWAP).configure.cur = (ext_data.mk 5 2 SWAP).cur ∧
    (ext_data.mk 5 2 SWAP).configure.tar = (ext_data.mk 5 2 SWAP).tar ∧
    (ext_data.mk 5 2 SWAP).configure.update_index.cur = (ext_data.mk 5 2 SWAP).tar ^^^ 1 ∧
    (ext_data.mk 5 2 SWAP).configure.update_index.cur / 2 = (ext_data.mk 5 2 SWAP).tar / 2 ∧
    (ext_data.mk 5 2 SWAP).configure.update_index.cur ≠ (ext_data.mk 5 2 SWAP).tar ∧
    (ext_data.mk 5 2 SWAP).configure.update_index.tar = (ext_data.mk 5 2 SWAP).tar ∧
    (ext_data.mk 5 2 SWAP).configure.update_index.cur_setting =
      (ext_data.mk 5 2 SWAP).configure.cur_setting :=
  ext_data_propagation (ext_data.mk 5 2 SWAP) (by decide)

/-- C33.  For a bitvector of length `L` and `index ≤ L`, the result `r` of `next_null`
satisfies `index < r ≤ L` or `r = L`; every position `j` with `index < j < r` holds `true`;
and `r = L` or the bit at `r` is `false`.  Hence, when all positions up to `index` hold
`true` (`index` was the lowest `false` position and has just been set), `r` is the lowest
position that holds `false`, or `L` if there is none. -/
theorem next_null_lowest (bv : List Bool) (index : Nat) (h : index ≤ bv.length) :
    ((index < waksman.next_null bv index ∧ waksman.next_null bv index ≤ bv.length) ∨
      waksman.next_null bv index = bv.length) ∧
    (∀ j, index < j → j < waksman.next_null bv index → bv.getD j false = true) ∧
    (waksman.next_null bv index = bv.length ∨
      bv.getD (waksman.next_null bv index) false = false) ∧
    ((∀ i, i ≤ index → i < bv.length → bv.getD i false = true) →
      (∀ j, j < waksman.next_null bv index → bv.getD j false = true) ∧
      (waksman.next_null bv index < bv.length →
        bv.getD (waksman.next_null bv index) false = false) ∧
      waksman.next_null bv index ≤ bv.length) := by
  by_cases he : index = bv.length
  · have hr : waksman.next_null bv index = bv.length := by
      unfold waksman.next_null
      rw [if_pos he]
    rw [hr]
    refine ⟨Or.inr rfl, fun j h1 h2 => by omega, Or.inl rfl, fun hall => ⟨?_, ?_, le_refl _⟩⟩
    · intro j hj
      exact hall j (by omega) hj
    · intro hh
      exact absurd hh (lt_irrefl _)
  · obtain ⟨h1, h2, h3, h4⟩ := next_null_spec bv index (by omega)
    refine ⟨Or.inl ⟨h1, h2⟩, h3, ?_, fun hall => ⟨?_, h4, h2⟩⟩
    · rcases Nat.lt_or_ge (waksman.next_null bv index) bv.length with hlt | hge
      · exact Or.inr (h4 hlt)
      · exact Or.inl (by omega)
    · intro j hj
      rcases Nat.lt_or_ge index j with hlt | hge
      · exact h3 j hlt hj
      · exact hall j hge (by omega)

theorem next_null_lowest_witness :
    ((1 < waksman.next_null [true, true, true, false, true] 1 ∧
        waksman.next_null [true, true, true, false, true] 1 ≤
          [true, true, true, false, true].length) ∨
      waksman.next_null [true, true, true, false, true] 1 =
        [true, true, true, false, true].length) ∧
    (∀ j, 1 < j → j < waksman.next_null [true, true, true, false, true] 1 →
      [true, true, true, false, true].getD j false = true) ∧
    (waksman.next_null [true, true, true, false, true] 1 =
        [true, true, true, false, true].length ∨
      [true, true, true, false, true].getD
        (waksman.next_null [true, true, true, false, true] 1) false = false) ∧
    ((∀ i, i ≤ 1 → i < [true, true, true, false, true].length →
        [true, true, true, false, true].getD i false = true) →
      (∀ j, j < waksman.next_null [true, true, true, false, true] 1 →
        [true, true, true, false, true].getD j false = true) ∧
      (waksman.next_null [true, true, true, false, true] 1 <
          [true, true, true, false, true].length →
        [true, true, true, false, true].getD
          (waksman.next_null [true, true, true, false, true] 1) false = false) ∧
      waksman.next_null [true, true, true, false, true] 1 ≤
        [true, true, true, false, true].length) :=
  next_null_lowest [true, true, true, false, true] 1 (by decide)

/-! ### Waksman permutation: `route_wire` -/

theorem wire_bits_lt (t : Nat) : ∀ value, wire_bits value t < 2 ^ t := by
  induction t with
  | zero =>
    intro value
    simp [wire_bits]
  | succ t ih =>
    intro value
    have := ih (value / 2)
    have h2 : value % 2 < 2 := Nat.mod_lt _ (by norm_num)
    unfold wire_bits
    rw [pow_succ]
    have : value % 2 * 2 ^ t ≤ 1 * 2 ^ t := Nat.mul_le_mul_right _ (by omega)
    omega

/-- The bit that step `j` pushed is the parity of `floor(value / 2 ^ j)`; it stands `t - 1 - j`
places from the right. -/
theorem wire_bits_bit (t : Nat) : ∀ value j, j < t →
    wire_bits value t / 2 ^ (t - 1 - j) % 2 = value / 2 ^ j % 2 := by
  induction t with
  | zero =>
    intro value j hj
    omega
  | succ t ih =>
    intro value j hj
    unfold wire_bits
    have hlt := wire_bits_lt t (value / 2)
    cases j with
    | zero =>
      simp only [Nat.add_sub_cancel, Nat.sub_zero, pow_zero, Nat.div_one]
      rw [Nat.add_div (by positivity), Nat.mul_div_cancel _ (by positivity),
        Nat.div_eq_of_lt hlt, Nat.mul_mod_left, Nat.zero_add, Nat.mod_eq_of_lt hlt,
        if_neg (by omega)]
      have h2 : value % 2 < 2 := Nat.mod_lt _ (by norm_num)
      omega
    | succ j =>
      have e1 : t + 1 - 1 - (j + 1) = t - 1 - j := by omega
      have e2 : t = (t - 1 - j) + (j + 1) := by omega
      have e3 : value % 2 * 2 ^ t = 2 ^ (t - 1 - j) * (value % 2 * 2 ^ (j + 1)) := by
        conv_lhs => rw [e2, pow_add]
        ring
      rw [e1, e3, Nat.mul_add_div (by positivity), Nat.add_mod, ih (value / 2) j (by omega)]
      have e4 : value % 2 * 2 ^ (j + 1) % 2 = 0 := by
        rw [pow_succ, ← Nat.mul_assoc]
        exact Nat.mul_mod_left _ _
      rw [e4, Nat.zero_add, Nat.mod_mod, Nat.div_div_eq_div_mul, pow_succ, Nat.mul_comm 2]

theorem flip_flip (w : waksman) (dest : Nat) (h : dest = w.temp1 ∨ dest = w.temp2) :
    w.flip (w.flip dest) = dest ∧ (w.flip dest = w.temp1 ∨ w.flip dest = w.temp2) := by
  unfold waksman.flip
  rcases h with h | h
  · rw [h, if_pos rfl]
    by_cases h12 : w.temp2 = w.temp1
    · rw [if_pos h12]
      exact ⟨h12, Or.inr rfl⟩
    · rw [if_neg h12]
      exact ⟨rfl, Or.inr rfl⟩
  · rw [h]
    by_cases h12 : w.temp2 = w.temp1
    · rw [if_pos h12, if_pos h12]
      exact ⟨rfl, Or.inr rfl⟩
    · rw [if_neg h12, if_pos rfl]
      exact ⟨rfl, Or.inl rfl⟩

theorem push_mod (a b p q : Nat) (hb : b ≤ 1) :
    (((a * 2 % W32) ||| b) * 2 ^ p + q) % W32 = (a * 2 ^ (p + 1) + (b * 2 ^ p + q)) % W32 := by
  have hor : (a * 2 % W32) ||| b = a * 2 % W32 + b := by
    have hb2 : b < 2 ^ 1 := by omega
    have e1 : a * 2 % W32 = 2 ^ 1 * (a % 2147483648) := by
      have hW : W32 = 4294967296 := by decide
      rw [hW]
      omega
    rw [e1, ← Nat.mul_add_lt_is_or hb2]
  rw [hor]
  have e2 : (a * 2 % W32 + b) * 2 ^ p + q = (a * 2 % W32) * 2 ^ p + (b * 2 ^ p + q) := by ring
  have e3 : a * 2 ^ (p + 1) = (a * 2) * 2 ^ p := by
    rw [pow_succ]
    ring
  rw [e2, e3, Nat.add_mod, Nat.mul_mod, Nat.mod_mod, ← Nat.mul_mod, ← Nat.add_mod]

/-- The run of `route_wire` on a size of at most `k + 1` bits: the number of recursive
steps is `odd_run`, which is at most `k`; with that much fuel or less the embedding runs out
of fuel, with more it is one `put`. -/
theorem route_wire_run (w : waksman) (index : Nat) (c : cloud) :
    ∀ (k size : Nat), 2 ≤ size → size ≤ 2 ^ (k + 1) → ∀ (fuel : Nat), k < fuel →
      ∀ (e : element) (value dest : Nat), e.aux < W32 → (dest = w.temp1 ∨ dest = w.temp2) →
      odd_run fuel size ≤ k ∧
      (∀ F, odd_run fuel size < F → w.route_wire F e size value index dest c =
        c.put (if odd_run fuel size % 2 = 0 then dest else w.flip dest) index
          { e with aux := (e.aux * 2 ^ odd_run fuel size +
              wire_bits value (odd_run fuel size)) % W32 }) ∧
      (∀ F, F ≤ odd_run fuel size →
        w.route_wire F e size value index dest c = .error .fuel) := by
  intro k
  induction k with
  | zero =>
    intro size h2 hle fuel hf e value dest he hd
    obtain ⟨f, rfl⟩ : ∃ f, fuel = f + 1 := ⟨fuel - 1, by omega⟩
    have hs : size = 2 := by
      simp only [Nat.zero_add, pow_one] at hle
      omega
    have hstop : size % 2 = 0 ∨ size = 3 := Or.inl (by omega)
    have ht : odd_run (f + 1) size = 0 := by
      unfold odd_run
      rw [if_pos hstop]
    rw [ht]
    refine ⟨le_refl _, ?_, ?_⟩
    · intro F hF
      obtain ⟨F1, rfl⟩ : ∃ F1, F = F1 + 1 := ⟨F - 1, by omega⟩
      rw [waksman.route_wire, if_pos hstop]
      simp only [Nat.zero_mod, if_true, pow_zero, Nat.mul_one, wire_bits, Nat.add_zero,
        Nat.mod_eq_of_lt he]
    · intro F hF
      have : F = 0 := by omega
      rw [this]
      rfl
  | succ k ih =>
    intro size h2 hle fuel hf e value dest he hd
    obtain ⟨f, rfl⟩ : ∃ f, fuel = f + 1 := ⟨fuel - 1, by omega⟩
    by_cases hstop : size % 2 = 0 ∨ size = 3
    · have ht : odd_run (f + 1) size = 0 := by
        unfold odd_run
        rw [if_pos hstop]
      rw [ht]
      refine ⟨Nat.zero_le _, ?_, ?_⟩
      · intro F hF
        obtain ⟨F1, rfl⟩ : ∃ F1, F = F1 + 1 := ⟨F - 1, by omega⟩
        rw [waksman.route_wire, if_pos hstop]
        simp only [Nat.zero_mod, if_true, pow_zero, Nat.mul_one, wire_bits, Nat.add_zero,
          Nat.mod_eq_of_lt he]
      · intro F hF
        have : F = 0 := by omega
        rw [this]
        rfl
    · have ht : odd_run (f + 1) size = odd_run f ((size + 1) / 2) + 1 := by
        rw [odd_run, if_neg hstop]
      have hpow : 2 ^ (k + 1 + 1) = 2 * 2 ^ (k + 1) := by
        rw [pow_succ]
        omega
      have hb : (if value % 2 = 1 then PERSIST else SWAP).toNat = value % 2 := by
        rcases Nat.mod_two_eq_zero_or_one value with hv | hv
        · rw [hv, if_neg (by omega)]
          rfl
        · rw [hv, if_pos rfl]
          rfl
      have hb1 : value % 2 ≤ 1 := by omega
      have hW : W32 = 4294967296 := by decide
      obtain ⟨f1, f2⟩ := flip_flip w dest hd
      obtain ⟨i1, i2, i3⟩ := ih ((size + 1) / 2) (by omega) (by omega) f (by omega)
        { e with aux := (e.aux * 2 % W32) ||| value % 2 } (value / 2) (w.flip dest)
        (by
          show (e.aux * 2 % W32) ||| value % 2 < W32
          have h1 : e.aux * 2 % W32 < 2 ^ 32 := by
            rw [hW]
            omega
          have h3 : value % 2 < 2 ^ 32 := by omega
          have hW2 : W32 = 2 ^ 32 := rfl
          rw [hW2]
          exact Nat.or_lt_two_pow h1 h3) f2
      rw [ht]
      refine ⟨by omega, ?_, ?_⟩
      · intro F hF
        obtain ⟨F1, rfl⟩ : ∃ F1, F = F1 + 1 := ⟨F - 1, by omega⟩
        rw [waksman.route_wire, if_neg hstop]
        simp only [hb]
        rw [i2 F1 (by omega)]
        simp only
        rw [push_mod _ _ _ _ hb1, f1]
        have e1 : wire_bits value (odd_run f ((size + 1) / 2) + 1) =
            value % 2 * 2 ^ odd_run f ((size + 1) / 2) +
              wire_bits (value / 2) (odd_run f ((size + 1) / 2)) := by
          rw [wire_bits]
        rw [e1]
        rcases Nat.mod_two_eq_zero_or_one (odd_run f ((size + 1) / 2)) with hp | hp
        · rw [if_pos hp, if_neg (by omega)]
        · rw [if_neg (by omega), if_pos (by omega)]
      · intro F hF
        cases F with
        | zero => rfl
        | succ F1 =>
          rw [waksman.route_wire, if_neg hstop]
          simp only [hb]
          exact i3 F1 (by omega)

theorem odd_run_stable : ∀ (k size : Nat), 2 ≤ size → size ≤ 2 ^ (k + 1) →
    ∀ (f1 f2 : Nat), k < f1 → k < f2 → odd_run f1 size = odd_run f2 size := by
  intro k
  induction k with
  | zero =>
    intro size h2 hle f1 f2 h1 h3
    obtain ⟨g1, rfl⟩ : ∃ g, f1 = g + 1 := ⟨f1 - 1, by omega⟩
    obtain ⟨g2, rfl⟩ : ∃ g, f2 = g + 1 := ⟨f2 - 1, by omega⟩
    simp only [Nat.zero_add, pow_one] at hle
    have hstop : size % 2 = 0 ∨ size = 3 := Or.inl (by omega)
    rw [odd_run, odd_run, if_pos hstop, if_pos hstop]
  | succ k ih =>
    intro size h2 hle f1 f2 h1 h3
    obtain ⟨g1, rfl⟩ : ∃ g, f1 = g + 1 := ⟨f1 - 1, by omega⟩
    obtain ⟨g2, rfl⟩ : ∃ g, f2 = g + 1 := ⟨f2 - 1, by omega⟩
    rw [odd_run, odd_run]
    by_cases hstop : size % 2 = 0 ∨ size = 3
    · rw [if_pos hstop, if_pos hstop]
    · have hpow : 2 ^ (k + 1 + 1) = 2 * 2 ^ (k + 1) := by
        rw [pow_succ]
        omega
      rw [if_neg hstop, if_neg hstop,
        ih ((size + 1) / 2) (by omega) (by omega) g1 g2 (by omega) (by omega)]

/-- C34.  For a 32-bit `size ≥ 2`, a 32-bit `aux` and `dest` one of `temp1`, `temp2`: let
`t` be the number of consecutive odd sizes other than `3` at the start of the sequence
`size, ceil(size / 2), ...` (the same for every bound above `31` on the length looked at).
Then `t ≤ 31`, and `route_wire(elem, size, value, index, dest)` makes exactly `t` recursive
steps (the embedding runs out of fuel with `t` or less and returns the same with any more)
and then is one `put` and nothing else: of `elem` with `aux` shifted left by `t` bits (in
32 bits) and the pushed bits in the low places, the bit of step `j` being the parity of
`floor(value / 2 ^ j)`, at position `index` of `dest` if `t` is even and of the other of
`temp1`, `temp2` if `t` is odd.  When that array exists the call returns, with this one
write appended to the trace. -/
theorem route_wire_effect (w : waksman) (e : element) (size value index dest : Nat) (c : cloud)
    (hs : 2 ≤ size) (hs32 : size < 2 ^ 32) (he : e.aux < W32)
    (hd : dest = w.temp1 ∨ dest = w.temp2) :
    odd_run 32 size ≤ 31 ∧
    (∀ fuel, 31 < fuel → odd_run fuel size = odd_run 32 size) ∧
    (∀ fuel, fuel ≤ odd_run 32 size →
      w.route_wire fuel e size value index dest c = .error .fuel) ∧
    (∀ fuel, odd_run 32 size < fuel → w.route_wire fuel e size value index dest c =
      c.put (if odd_run 32 size % 2 = 0 then dest else w.flip dest) index
        { e with aux := (e.aux * 2 ^ odd_run 32 size +
            wire_bits value (odd_run 32 size)) % W32 }) ∧
    wire_bits value (odd_run 32 size) < 2 ^ odd_run 32 size ∧
    (∀ j, j < odd_run 32 size →
      wire_bits value (odd_run 32 size) / 2 ^ (odd_run 32 size - 1 - j) % 2 =
        value / 2 ^ j % 2) ∧
    (c.has (if odd_run 32 size % 2 = 0 then dest else w.flip dest) →
      ∃ c1, w.route_wire 33 e size value index dest c = .ok c1 ∧
        c1.trace = c.trace ++
          [access.put (if odd_run 32 size % 2 = 0 then dest else w.flip dest) index] ∧
        c1.peek (if odd_run 32 size % 2 = 0 then dest else w.flip dest) index =
          some { e with aux := (e.aux * 2 ^ odd_run 32 size +
            wire_bits value (odd_run 32 size)) % W32 }) := by
  obtain ⟨r1, r2, r3⟩ := route_wire_run w index c 31 size hs (by omega) 32 (by omega) e value
    dest he hd
  refine ⟨r1, fun fuel hf => odd_run_stable 31 size hs (by omega) fuel 32 hf (by omega),
    r3, r2, wire_bits_lt _ _, wire_bits_bit _ _, ?_⟩
  intro hc
  obtain ⟨c1, h1, _, h3⟩ := put_ret c _ index
    { e with aux := (e.aux * 2 ^ odd_run 32 size + wire_bits value (odd_run 32 size)) % W32 } hc
  refine ⟨c1, ?_, ?_, h3⟩
  · rw [r2 33 (by omega)]
    exact h1
  · exact cloud_put_trace c c1 _ _ _ h1

theorem route_wire_effect_witness :
    odd_run 32 9 ≤ 31 ∧
    (∀ fuel, 31 < fuel → odd_run fuel 9 = odd_run 32 9) ∧
    (∀ fuel, fuel ≤ odd_run 32 9 →
      (waksman.mk (permutation.reversal 8) 8 3 0 1 2 3).route_wire fuel
        { key := 7, aux := 1 } 9 5 8 0 (cloud.driver 9) = .error .fuel) ∧
    (∀ fuel, odd_run 32 9 < fuel →
      (waksman.mk (permutation.reversal 8) 8 3 0 1 2 3).route_wire fuel
        { key := 7, aux := 1 } 9 5 8 0 (cloud.driver 9) =
      (cloud.driver 9).put (if odd_run 32 9 % 2 = 0 then 0
          else (waksman.mk (permutation.reversal 8) 8 3 0 1 2 3).flip 0) 8
        { ({ key := 7, aux := 1 } : element) with
          aux := (({ key := 7, aux := 1 } : element).aux * 2 ^ odd_run 32 9 +
            wire_bits 5 (odd_run 32 9)) % W32 }) ∧
    wire_bits 5 (odd_run 32 9) < 2 ^ odd_run 32 9 ∧
    (∀ j, j < odd_run 32 9 →
      wire_bits 5 (odd_run 32 9) / 2 ^ (odd_run 32 9 - 1 - j) % 2 = 5 / 2 ^ j % 2) ∧
    ((cloud.driver 9).has (if odd_run 32 9 % 2 = 0 then 0
        else (waksman.mk (permutation.reversal 8) 8 3 0 1 2 3).flip 0) →
      ∃ c1, (waksman.mk (permutation.reversal 8) 8 3 0 1 2 3).route_wire 33
          { key := 7, aux := 1 } 9 5 8 0 (cloud.driver 9) = .ok c1 ∧
        c1.trace = (cloud.driver 9).trace ++
          [access.put (if odd_run 32 9 % 2 = 0 then 0
            else (waksman.mk (permutation.reversal 8) 8 3 0 1 2 3).flip 0) 8] ∧
        c1.peek (if odd_run 32 9 % 2 = 0 then 0
            else (waksman.mk (permutation.reversal 8) 8 3 0 1 2 3).flip 0) 8 =
          some { ({ key := 7, aux := 1 } : element) with
            aux := (({ key := 7, aux := 1 } : element).aux * 2 ^ odd_run 32 9 +
              wire_bits 5 (odd_run 32 9)) % W32 }) :=
  route_wire_effect (waksman.mk (permutation.reversal 8) 8 3 0 1 2 3) { key := 7, aux := 1 }
    9 5 8 0 (cloud.driver 9) (by decide) (by decide) (by decide) (Or.inl rfl)

/-! ### Waksman permutation: `apply_switch` -/

/-- C35.  For every pair `(v_top, v_bottom)`, node and switch number `k` whose indices fit
in 32 bits, on a server where `dest` exists: `apply_switch` returns; it shifts `aux` right
by one bit on both elements and writes both to `dest`, first at index `t` and then at index
`b`, where `(t, b) = (2k, 2k + 1)` for the root and `(p + 4k + r, p + 4k + r + 2)` otherwise
(`p` the offset of the parent, `r = 0` for a left child and `1` for a right child);
`v_top` goes to `t` and `v_bottom` to `b` if the low bit of `v_top.aux` was `1`
(`PERSIST`), and the other way round if it was `0`; no other slot changes. -/
theorem apply_switch_effect (v_top v_bottom : element) (dest : Nat) (node : perm_node)
    (k : Nat) (c : cloud) (hd : c.has dest)
    (hfit : if node.parent.is_null then 2 * k + 1 < W32
      else node.parent.offset + 4 * k + 3 < W32)
    (t b : Nat)
    (ht : t = if node.parent.is_null then 2 * k
      else node.parent.offset + 4 * k + (if node.is_left_child then 0 else 1))
    (hb : b = if node.parent.is_null then t + 1 else t + 2) :
    ∃ c1, waksman.apply_switch v_top v_bottom dest node k c = .ok c1 ∧
      c1.peek dest t = some (if v_top.aux % 2 = 1 then { v_top with aux := v_top.aux / 2 }
        else { v_bottom with aux := v_bottom.aux / 2 }) ∧
      c1.peek dest b = some (if v_top.aux % 2 = 1 then { v_bottom with aux := v_bottom.aux / 2 }
        else { v_top with aux := v_top.aux / 2 }) ∧
      c1.trace = c.trace ++ [access.put dest t, access.put dest b] ∧
      ∀ U j, ¬ (U = dest ∧ (j = t ∨ j = b)) → c1.peek U j = c.peek U j := by
  have hW : W32 = 4294967296 := by decide
  have htop : (if node.parent.is_null then 2 * k % W32
      else if node.is_left_child then (node.parent.offset + 4 * k) % W32
      else (node.parent.offset + 4 * k + 1) % W32) = t := by
    rw [ht]
    cases hn : node.parent.is_null
    · rw [hn] at hfit
      simp only [Bool.false_eq_true, if_false] at hfit ⊢
      cases node.is_left_child
      · simp only [Bool.false_eq_true, if_false]
        exact Nat.mod_eq_of_lt (by omega)
      · simp only [if_true]
        rw [Nat.add_zero]
        exact Nat.mod_eq_of_lt (by omega)
    · rw [hn] at hfit
      simp only [if_true] at hfit ⊢
      exact Nat.mod_eq_of_lt (by omega)
  have hbot : (if node.parent.is_null then (t + 1) % W32 else (t + 2) % W32) = b := by
    rw [hb]
    cases hn : node.parent.is_null
    · rw [hn] at hfit ht
      simp only [Bool.false_eq_true, if_false] at hfit ht ⊢
      refine Nat.mod_eq_of_lt ?_
      rw [ht]
      split <;> omega
    · rw [hn] at hfit ht
      simp only [if_true] at hfit ht ⊢
      exact Nat.mod_eq_of_lt (by omega)
  have hne : t ≠ b := by
    rw [hb]
    split <;> omega
  unfold waksman.apply_switch
  simp only
  rw [htop, hbot]
  by_cases hp : v_top.aux % 2 = 1
  · rw [if_pos hp, if_pos hp, if_pos hp]
    obtain ⟨c1, h1, g1, g2⟩ := put_ret c dest t { v_top with aux := v_top.aux / 2 } hd
    obtain ⟨c2, h2, g3, g4⟩ := put_ret c1 dest b { v_bottom with aux := v_bottom.aux / 2 }
      ((g1.has _).2 hd)
    refine ⟨c2, ?_, ?_, g4, ?_, ?_⟩
    · rw [h1, ok_bind, h2]
    · rw [g3.peek _ _ (fun hh => hne hh.2), g2]
    · rw [cloud_put_trace _ _ _ _ _ h2, cloud_put_trace _ _ _ _ _ h1, List.append_assoc]
      rfl
    · intro U j hn
      rw [g3.peek _ _ (fun hh => hn ⟨hh.1, Or.inr hh.2⟩),
        g1.peek _ _ (fun hh => hn ⟨hh.1, Or.inl hh.2⟩)]
  · rw [if_neg hp, if_neg hp, if_neg hp]
    obtain ⟨c1, h1, g1, g2⟩ := put_ret c dest t { v_bottom with aux := v_bottom.aux / 2 } hd
    obtain ⟨c2, h2, g3, g4⟩ := put_ret c1 dest b { v_top with aux := v_top.aux / 2 }
      ((g1.has _).2 hd)
    refine ⟨c2, ?_, ?_, g4, ?_, ?_⟩
    · rw [h1, ok_bind, h2]
    · rw [g3.peek _ _ (fun hh => hne hh.2), g2]
    · rw [cloud_put_trace _ _ _ _ _ h2, cloud_put_trace _ _ _ _ _ h1, List.append_assoc]
      rfl
    · intro U j hn
      rw [g3.peek _ _ (fun hh => hn ⟨hh.1, Or.inr hh.2⟩),
        g1.peek _ _ (fun hh => hn ⟨hh.1, Or.inl hh.2⟩)]

theorem apply_switch_effect_witness :
    ∃ c1, waksman.apply_switch { key := 4, aux := 3 } { key := 6, aux := 2 } 0
        (.node (.node .null 1 true 0 8 [] []) 2 false 4 4 [] []) 1 (cloud.driver 8) = .ok c1 ∧
      c1.peek 0 5 = some (if ({ key := 4, aux := 3 } : element).aux % 2 = 1 then
          { ({ key := 4, aux := 3 } : element) with
            aux := ({ key := 4, aux := 3 } : element).aux / 2 }
        else { ({ key := 6, aux := 2 } : element) with
          aux := ({ key := 6, aux := 2 } : element).aux / 2 }) ∧
      c1.peek 0 7 = some (if ({ key := 4, aux := 3 } : element).aux % 2 = 1 then
          { ({ key := 6, aux := 2 } : element) with
            aux := ({ key := 6, aux := 2 } : element).aux / 2 }
        else { ({ key := 4, aux := 3 } : element) with
          aux := ({ key := 4, aux := 3 } : element).aux / 2 }) ∧
      c1.trace = (cloud.driver 8).trace ++ [access.put 0 5, access.put 0 7] ∧
      ∀ U j, ¬ (U = 0 ∧ (j = 5 ∨ j = 7)) → c1.peek U j = (cloud.driver 8).peek U j :=
  apply_switch_effect { key := 4, aux := 3 } { key := 6, aux := 2 } 0
    (.node (.node .null 1 true 0 8 [] []) 2 false 4 4 [] []) 1 (cloud.driver 8) rfl
    (by decide) 5 7 rfl rfl

/-! ### Bucket permutation: the pairing of the buckets in a level of the butterfly -/

/-- The offsets of the two calls of `get_bucket` in `butterfly_body` are the bucket numbers
`butterfly_left` and `butterfly_right` times the width, and the offsets of the two calls of
`put_bucket` are `2j` and `2j + 1` times `Z`. -/
theorem butterfly_body_eq (bk : bucket) (hash : Nat → Nat → Nat)
    (shuffle : Nat → List element → List element) (arr msb i j : Nat) (s : Nat × cloud) :
    bk.butterfly_body hash shuffle arr msb i j s = (do
      let width := if i = 0 then bk.Z / 2 else bk.Z
      let (in_left, c) ← bk.get_bucket arr width (butterfly_left i j * width % W32) s.2
      let (in_right, c) ← bk.get_bucket arr width (butterfly_right i j * width % W32) c
      let (out_right, out_left) := bk.split_input_bucket hash in_left [] [] i
      let (out_right, out_left) := bk.split_input_bucket hash in_right out_right out_left i
      if i = (msb + W32 - 2) % W32 then
        bucket.final_round (shuffle (2 * j)) (shuffle (2 * j + 1)) out_left out_right
          ((arr + 1) % W32) s.1 c
      else do
        let c ← bk.put_bucket ((arr + 1) % W32) (2 * j * bk.Z % W32) out_left c
        let c ← bk.put_bucket ((arr + 1) % W32) ((2 * j + 1) * bk.Z % W32) out_right c
        pure (s.1, c)) := rfl

/-- The pairing `j ↦ (j + floor(j / P) * P, j + floor(j / P) * P + P)` on `[0, P * Q)`. -/
theorem pairing_core (P Q : Nat) (hP : 0 < P) :
    (∀ j, j < P * Q → j + j / P * P + P < 2 * P * Q ∧
      (j + j / P * P) / (2 * P) = j / P ∧ (j + j / P * P) % (2 * P) = j % P ∧
      (j + j / P * P + P) / (2 * P) = j / P ∧ (j + j / P * P + P) % (2 * P) = P + j % P) ∧
    (∀ b, b < 2 * P * Q → ∃ j, j < P * Q ∧ (j + j / P * P = b ∨ j + j / P * P + P = b)) := by
  have hdm : ∀ (q r : Nat), r < P → (P * q + r) / P = q ∧ (P * q + r) % P = r := by
    intro q r hr
    exact (Nat.div_mod_unique hP).mpr ⟨by rw [Nat.add_comm], hr⟩
  constructor
  · intro j hj
    have hq : j / P < Q := (Nat.div_lt_iff_lt_mul hP).mpr (by rw [Nat.mul_comm]; exact hj)
    have hr : j % P < P := Nat.mod_lt _ hP
    have hjd : P * (j / P) + j % P = j := Nat.div_add_mod j P
    have hQ : P * (j / P) + P ≤ P * Q := by
      have := Nat.mul_le_mul_left P (Nat.succ_le_of_lt hq)
      rw [Nat.mul_succ] at this
      exact this
    have hc : j / P * P = P * (j / P) := Nat.mul_comm _ _
    have h2 : 2 * P * Q = 2 * (P * Q) := Nat.mul_assoc _ _ _
    have e1 : j + j / P * P = j % P + 2 * P * (j / P) := by
      rw [Nat.mul_assoc, hc]
      omega
    have e2 : j + j / P * P + P = (P + j % P) + 2 * P * (j / P) := by
      rw [Nat.mul_assoc, hc]
      omega
    have u1 := (Nat.div_mod_unique (show 0 < 2 * P by omega)).mpr
      ⟨e1.symm, (by omega : j % P < 2 * P)⟩
    have u2 := (Nat.div_mod_unique (show 0 < 2 * P by omega)).mpr
      ⟨e2.symm, (by omega : P + j % P < 2 * P)⟩
    refine ⟨?_, u1.1, u1.2, u2.1, u2.2⟩
    rw [hc, h2]
    omega
  · intro b hb
    have hq : b / (2 * P) < Q :=
      (Nat.div_lt_iff_lt_mul (by omega)).mpr (by rw [Nat.mul_comm]; exact hb)
    have hr : b % (2 * P) < 2 * P := Nat.mod_lt _ (by omega)
    have hbd : 2 * P * (b / (2 * P)) + b % (2 * P) = b := Nat.div_add_mod b (2 * P)
    have hQ : P * (b / (2 * P)) + P ≤ P * Q := by
      have := Nat.mul_le_mul_left P (Nat.succ_le_of_lt hq)
      rw [Nat.mul_succ] at this
      exact this
    have h3 : 2 * P * (b / (2 * P)) = 2 * (P * (b / (2 * P))) := Nat.mul_assoc _ _ _
    by_cases hs : b % (2 * P) < P
    · obtain ⟨d1, d2⟩ := hdm (b / (2 * P)) (b % (2 * P)) hs
      refine ⟨P * (b / (2 * P)) + b % (2 * P), by omega, Or.inl ?_⟩
      rw [d1, Nat.mul_comm (b / (2 * P)) P]
      omega
    · obtain ⟨d1, d2⟩ := hdm (b / (2 * P)) (b % (2 * P) - P) (by omega)
      refine ⟨P * (b / (2 * P)) + (b % (2 * P) - P), by omega, Or.inr ?_⟩
      rw [d1, Nat.mul_comm (b / (2 * P)) P]
      omega

/-- C36.  For a power of two `2 ≤ B < 2 ^ 32` and a level `i` with `2 ^ (i + 1) ≤ B`: as `j`
ranges over `[0, B / 2)`, the numbers `j + j'` and `j + j' + 2 ^ i` of the two buckets that
pass `j` reads (`j' = floor(j / 2 ^ i) * 2 ^ i`) are below `B`, every bucket of `[0, B)` is
read by some pass, and no bucket is read twice; the numbers `2j` and `2j + 1` of the two
buckets that pass `j` writes likewise cover `[0, B)` without repetition. -/
theorem butterfly_pairing (B m i : Nat) (hB : B = 2 ^ m) (hm32 : m ≤ 31) (hi : i + 1 ≤ m) :
    (∀ j, j < B / 2 → butterfly_left i j = j + j / 2 ^ i * 2 ^ i ∧
      butterfly_right i j = j + j / 2 ^ i * 2 ^ i + 2 ^ i ∧
      butterfly_left i j < B ∧ butterfly_right i j < B) ∧
    (∀ b, b < B → ∃ j, j < B / 2 ∧ (butterfly_left i j = b ∨ butterfly_right i j = b)) ∧
    (∀ j1 j2, j1 < B / 2 → j2 < B / 2 →
      (butterfly_left i j1 = butterfly_left i j2 → j1 = j2) ∧
      (butterfly_right i j1 = butterfly_right i j2 → j1 = j2) ∧
      butterfly_left i j1 ≠ butterfly_right i j2) ∧
    (∀ j, j < B / 2 → 2 * j < B ∧ 2 * j + 1 < B) ∧
    (∀ b, b < B → ∃ j, j < B / 2 ∧ (2 * j = b ∨ 2 * j + 1 = b)) ∧
    (∀ j1 j2 : Nat, (2 * j1 = 2 * j2 → j1 = j2) ∧ (2 * j1 + 1 = 2 * j2 + 1 → j1 = j2) ∧
      2 * j1 ≠ 2 * j2 + 1) := by
  have hW : W32 = 4294967296 := by decide
  have hP : 0 < 2 ^ i := by positivity
  have hsplit : 2 ^ m = 2 * 2 ^ i * 2 ^ (m - i - 1) := by
    have e : m = 1 + i + (m - i - 1) := by omega
    conv_lhs => rw [e, pow_add, pow_add, pow_one]
  have hB2 : B / 2 = 2 ^ i * 2 ^ (m - i - 1) := by
    rw [hB, hsplit, Nat.mul_assoc, Nat.mul_div_cancel_left _ (by norm_num)]
  have hB32 : B < 4294967296 := by
    rw [hB]
    have : 2 ^ m ≤ 2 ^ 31 := Nat.pow_le_pow_right (by norm_num) hm32
    omega
  have hBP : B = 2 * 2 ^ i * 2 ^ (m - i - 1) := by rw [hB, hsplit]
  have hPlt : 2 ^ i < 4294967296 := by
    have : 2 ^ i ≤ 2 ^ 31 := Nat.pow_le_pow_right (by norm_num) (by omega)
    omega
  have hPm : 2 ^ i % W32 = 2 ^ i := by
    rw [hW]
    exact Nat.mod_eq_of_lt hPlt
  obtain ⟨c1, c2⟩ := pairing_core (2 ^ i) (2 ^ (m - i - 1)) hP
  have hform : ∀ j, j < B / 2 → butterfly_left i j = j + j / 2 ^ i * 2 ^ i ∧
      butterfly_right i j = j + j / 2 ^ i * 2 ^ i + 2 ^ i ∧
      butterfly_left i j < B ∧ butterfly_right i j < B := by
    intro j hj
    rw [hB2] at hj
    obtain ⟨a1, _⟩ := c1 j hj
    rw [← hBP] at a1
    have hjp : butterfly_jprime i j = j / 2 ^ i * 2 ^ i := by
      unfold butterfly_jprime
      rw [hPm, hW]
      exact Nat.mod_eq_of_lt (by omega)
    have hl : butterfly_left i j = j + j / 2 ^ i * 2 ^ i := by
      unfold butterfly_left
      rw [hjp, hW]
      exact Nat.mod_eq_of_lt (by omega)
    have hr : butterfly_right i j = j + j / 2 ^ i * 2 ^ i + 2 ^ i := by
      unfold butterfly_right
      rw [hjp, hPm, hW]
      exact Nat.mod_eq_of_lt (by omega)
    exact ⟨hl, hr, by rw [hl]; omega, by rw [hr]; omega⟩
  have hjrec : ∀ j, j = 2 ^ i * (j / 2 ^ i) + j % 2 ^ i := fun j => (Nat.div_add_mod j _).symm
  refine ⟨hform, ?_, ?_, ?_, ?_, ?_⟩
  · intro b hb
    rw [hBP] at hb
    obtain ⟨j, hj, hjb⟩ := c2 b hb
    rw [← hB2] at hj
    obtain ⟨f1, f2, _, _⟩ := hform j hj
    refine ⟨j, hj, ?_⟩
    rw [f1, f2]
    exact hjb
  · intro j1 j2 h1 h2
    obtain ⟨f1, f2, _, _⟩ := hform j1 h1
    obtain ⟨g1, g2, _, _⟩ := hform j2 h2
    rw [hB2] at h1 h2
    obtain ⟨_, a2, a3, a4, a5⟩ := c1 j1 h1
    obtain ⟨_, b2, b3, b4, b5⟩ := c1 j2 h2
    rw [f1, f2, g1, g2]
    refine ⟨?_, ?_, ?_⟩
    · intro he
      rw [he] at a2 a3
      rw [hjrec j1, hjrec j2, ← a2, ← a3, b2, b3]
    · intro he
      rw [he] at a4 a5
      have e1 : j1 / 2 ^ i = j2 / 2 ^ i := by rw [← a4, b4]
      have e2 : j1 % 2 ^ i = j2 % 2 ^ i := by
        have : 2 ^ i + j1 % 2 ^ i = 2 ^ i + j2 % 2 ^ i := by rw [← a5, b5]
        omega
      rw [hjrec j1, hjrec j2, e1, e2]
    · intro he
      rw [he] at a3
      have hr1 : j1 % 2 ^ i < 2 ^ i := Nat.mod_lt _ hP
      rw [b5] at a3
      omega
  · intro j hj
    have hBe : B = 2 * (2 ^ i * 2 ^ (m - i - 1)) := by rw [hBP, Nat.mul_assoc]
    omega
  · intro b hb
    have hBe : B = 2 * (2 ^ i * 2 ^ (m - i - 1)) := by rw [hBP, Nat.mul_assoc]
    refine ⟨b / 2, by omega, by omega⟩
  · intro j1 j2
    exact ⟨fun h => by omega, fun h => by omega, by omega⟩

theorem butterfly_pairing_witness :
    (∀ j, j < 8 / 2 → butterfly_left 1 j = j + j / 2 ^ 1 * 2 ^ 1 ∧
      butterfly_right 1 j = j + j / 2 ^ 1 * 2 ^ 1 + 2 ^ 1 ∧
      butterfly_left 1 j < 8 ∧ butterfly_right 1 j < 8) ∧
    (∀ b, b < 8 → ∃ j, j < 8 / 2 ∧ (butterfly_left 1 j = b ∨ butterfly_right 1 j = b)) ∧
    (∀ j1 j2, j1 < 8 / 2 → j2 < 8 / 2 →
      (butterfly_left 1 j1 = butterfly_left 1 j2 → j1 = j2) ∧
      (butterfly_right 1 j1 = butterfly_right 1 j2 → j1 = j2) ∧
      butterfly_left 1 j1 ≠ butterfly_right 1 j2) ∧
    (∀ j, j < 8 / 2 → 2 * j < 8 ∧ 2 * j + 1 < 8) ∧
    (∀ b, b < 8 → ∃ j, j < 8 / 2 ∧ (2 * j = b ∨ 2 * j + 1 = b)) ∧
    (∀ j1 j2 : Nat, (2 * j1 = 2 * j2 → j1 = j2) ∧ (2 * j1 + 1 = 2 * j2 + 1 → j1 = j2) ∧
      2 * j1 ≠ 2 * j2 + 1) :=
  butterfly_pairing 8 3 1 (by decide) (by decide) (by decide)

/-! ### Melbourne shuffle: the slots of the temporary arrays that are written -/

/-- C37, evaluated on the code.  `n = 5`, `p1 = p2 = 4`, `pi` the identity and the input
array `0` holding the keys `0..4`: the constructor gives `num_chunks = 2`,
`num_buckets = 3` and `chunk_width = 4`, so `permute` creates `Ta` and `Tb` with the declared
length `2 * 4 * 4 = 32`.  On the server with the arrays created as in `permute`,
`distribution_phase_1` returns, `Ta` still has the declared length `32`, and slot `47` of `Ta`
has been written (with a dummy); `distribution_phase_2` after it returns, `Tb` still has the
declared length `32`, and slot `63` of `Tb` has been written.  The whole call of `permute`
returns, with the output name `2`. -/
theorem melbourne_temporaries_overrun :
    (melbshuffle.init (permutation.identity 5) 5 4 4).num_chunks *
      (melbshuffle.init (permutation.identity 5) 5 4 4).chunk_width *
      (melbshuffle.init (permutation.identity 5) 5 4 4).p1 % W32 = 32 ∧
    (melbshuffle.init (permutation.identity 5) 5 4 4).num_chunks *
      (melbshuffle.init (permutation.identity 5) 5 4 4).chunk_width *
      (melbshuffle.init (permutation.identity 5) 5 4 4).p2 % W32 = 32 ∧
    ((melbshuffle.init (permutation.identity 5) 5 4 4).distribution_phase_1 0 Ta
      ((((cloud.driver 5).create_array Ta 32).create_array Tb 32).create_array 1 5)).map
      (fun c => ((c.table Ta).map ext_array.length, c.peek Ta 47)) =
        .ok (some 32, some dummy) ∧
    (((melbshuffle.init (permutation.identity 5) 5 4 4).distribution_phase_1 0 Ta
      ((((cloud.driver 5).create_array Ta 32).create_array Tb 32).create_array 1 5)).bind
      ((melbshuffle.init (permutation.identity 5) 5 4 4).distribution_phase_2 Ta Tb)).map
      (fun c => ((c.table Tb).map ext_array.length, c.peek Tb 63)) =
        .ok (some 32, some dummy) ∧
    ((melbshuffle.init (permutation.identity 5) 5 4 4).permute id 0 (cloud.driver 5)).map
      (fun r => r.1) = .ok 2 := by
  refine ⟨?_, ?_, ?_, ?_, ?_⟩ <;> rfl

/-! ### Melbourne shuffle: the sub-segments of a chunk in the second distribution phase -/

/-- The segment that pass `j` of `distribution_phase_2` reads from chunk `cid` starts at bin
`offset_bins j` of the chunk and has `seg_bins j` bins of `max_load1` slots. -/
theorem phase_2_body_reads (ms : melbshuffle) (T1 T2 cid j : Nat) (c : cloud) :
    ms.phase_2_body T1 T2 cid j c = (do
      let (bucket, c) ← melbshuffle.get_range T1
        ((cid * (ms.num_buckets * (ms.p1 * ms.num_chunks % W32) % W32) +
          ms.offset_bins j * (ms.p1 * ms.num_chunks % W32)) % W32)
        (ms.seg_bins j * (ms.p1 * ms.num_chunks % W32) % W32) c
      let rev_bin ← bucket.foldlM (fun rev_bin e =>
        if e.key ≠ INT32_MAX then do
          let bid := (← ms.pi.eval_perm e.key) / ms.bucket_width % ms.buckets_per_chunk
          push_bin rev_bin bid e
        else pure rev_bin) (List.replicate ms.buckets_per_chunk [])
      melbshuffle.push_bins T2
        ((cid * (ms.p2 * ms.num_chunks % W32) * ms.buckets_per_chunk * ms.buckets_per_chunk +
          j * (ms.p2 * ms.num_chunks % W32)) % W32)
        ((ms.p2 * ms.num_chunks % W32) * ms.buckets_per_chunk % W32)
        (ms.p2 * ms.num_chunks % W32) rev_bin ms.buckets_per_chunk c) := rfl

/-- The numbers of the constructor that the segmentation depends on, for `1 ≤ n < 2 ^ 32`. -/
theorem phase_2_geom (n : Nat) (hn : 1 ≤ n) (hn32 : n < 2 ^ 32) :
    1 ≤ ceil_root 2 n ∧ ceil_root 2 n ≤ 65536 ∧
    1 ≤ ceil_div (ceil_root 2 n) (ceil_root 4 n) ∧
    (ceil_div (ceil_root 2 n) (ceil_root 4 n) - 1) *
      ceil_div (ceil_root 2 n) (ceil_div (ceil_root 2 n) (ceil_root 4 n)) ≤ ceil_root 2 n ∧
    ceil_root 2 n ≤ ceil_div (ceil_root 2 n) (ceil_root 4 n) *
      ceil_div (ceil_root 2 n) (ceil_div (ceil_root 2 n) (ceil_root 4 n)) := by
  obtain ⟨hnb1, hnbu, _, _⟩ := ceil_root_two_le n hn hn32
  obtain ⟨A1, A2⟩ := ceil_root_spec 2 n (by omega) hn
  obtain ⟨B1, B2⟩ := ceil_root_spec 4 n (by omega) hn
  generalize ceil_root 2 n = nb at *
  generalize ceil_root 4 n = nc at *
  have hnc1 : 1 ≤ nc := by
    rcases Nat.eq_zero_or_pos nc with h | h
    · subst h; simp at B1; omega
    · exact h
  have hbpc1 : 1 ≤ ceil_div nb nc := by
    unfold ceil_div
    rw [Nat.le_div_iff_mul_le (by omega)]
    omega
  have hnbnc : nb ≤ nc * nc := by
    by_contra hc
    have := A2 (nc * nc) (by omega)
    have e : (nc * nc) ^ 2 = nc ^ 4 := by ring
    rw [e] at this
    omega
  have hbpcnc : ceil_div nb nc ≤ nc := by
    unfold ceil_div
    apply Nat.le_of_lt_succ
    rw [Nat.div_lt_iff_lt_mul (by omega)]
    have : Nat.succ nc * nc = nc * nc + nc := by rw [Nat.succ_mul]
    omega
  have hbpcm : (ceil_div nb nc - 1) * nc < nb := by
    have h3 : ceil_div nb nc * nc ≤ nb + nc - 1 := by
      unfold ceil_div
      exact Nat.div_mul_le_self _ _
    have h4 := pred_mul_add (ceil_div nb nc) nc hbpc1
    omega
  generalize hbpcdef : ceil_div nb nc = bpc at *
  have hq1 : bpc - 1 ≤ ceil_div nb bpc := by
    unfold ceil_div
    rw [Nat.le_div_iff_mul_le (by omega)]
    have : (bpc - 1) * bpc ≤ (bpc - 1) * nc := Nat.mul_le_mul_left _ hbpcnc
    omega
  have hsegs : (bpc - 1) * ceil_div nb bpc ≤ nb := by
    have h3 : ceil_div nb bpc * bpc ≤ nb + bpc - 1 := by
      unfold ceil_div
      exact Nat.div_mul_le_self _ _
    have h4 := pred_mul_add bpc (ceil_div nb bpc) hbpc1
    rw [Nat.mul_comm bpc] at h4
    omega
  exact ⟨hnb1, hnbu, hbpc1, hsegs, ceil_div_mul_ge nb bpc (by omega)⟩

/-- Segments of `q` bins each, the last one cut at `nb`: when the first `bpc - 1` of them
fit and `bpc` of them cover, they are consecutive, end at `nb`, and every bin lies in exactly
one of them. -/
theorem segments_partition (nb bpc q : Nat) (F G : Nat → Nat) (hbpc : 1 ≤ bpc)
    (hfit : (bpc - 1) * q ≤ nb) (hcov : nb ≤ bpc * q)
    (hF : ∀ j, j < bpc → F j = j * q)
    (hG : ∀ j, j < bpc → G j = if j * q + q < nb then q else nb - j * q) :
    (∀ j, j < bpc → F j ≤ nb ∧ F j + G j = if j + 1 < bpc then F (j + 1) else nb) ∧
    ((List.range bpc).map G).sum = nb ∧
    ∀ b, b < nb → ∃! j, j < bpc ∧ F j ≤ b ∧ b < F j + G j := by
  have hmono : ∀ j, j < bpc → j * q ≤ (bpc - 1) * q := fun j hj =>
    Nat.mul_le_mul_right _ (by omega)
  have hstep : ∀ j, j < bpc → F j ≤ nb ∧
      F j + G j = if j + 1 < bpc then F (j + 1) else nb := by
    intro j hj
    have h1 := hmono j hj
    rw [hF j hj, hG j hj]
    refine ⟨by omega, ?_⟩
    by_cases hj1 : j + 1 < bpc
    · rw [if_pos hj1, hF (j + 1) hj1]
      have h2 := hmono (j + 1) hj1
      have e : (j + 1) * q = j * q + q := Nat.succ_mul j q
      split <;> omega
    · rw [if_neg hj1]
      have e : j = bpc - 1 := by omega
      have e2 := pred_mul_add bpc q hbpc
      rw [← e] at e2
      split <;> omega
  have hend : ∀ j, j < bpc → F j + G j = if j + 1 < bpc then (j + 1) * q else nb := by
    intro j hj
    rw [(hstep j hj).2]
    by_cases hj1 : j + 1 < bpc
    · rw [if_pos hj1, if_pos hj1, hF (j + 1) hj1]
    · rw [if_neg hj1, if_neg hj1]
  refine ⟨hstep, ?_, ?_⟩
  · have hsum : ∀ k, k ≤ bpc →
        ((List.range k).map G).sum = if k < bpc then k * q else nb := by
      intro k
      induction k with
      | zero =>
        intro _
        rw [if_pos (by omega)]
        simp
      | succ k ih =>
        intro hk
        rw [List.range_succ, List.map_append, List.sum_append, ih (by omega),
          if_pos (by omega)]
        simp only [List.map_cons, List.map_nil, List.sum_cons, List.sum_nil, Nat.add_zero]
        rw [← hF k (by omega), hend k (by omega)]
    rw [hsum bpc (le_refl _), if_neg (by omega)]
  · intro b hb
    by_cases hlow : b < (bpc - 1) * q
    · have hq : 0 < q := by
        rcases Nat.eq_zero_or_pos q with h | h
        · subst h; simp at hlow
        · exact h
      have hj : b / q < bpc - 1 := (Nat.div_lt_iff_lt_mul hq).mpr hlow
      refine ⟨b / q, ⟨by omega, ?_, ?_⟩, ?_⟩
      · rw [hF _ (by omega)]
        exact Nat.div_mul_le_self b q
      · rw [hend _ (by omega), if_pos (by omega)]
        have := Nat.lt_mul_div_succ b hq
        rw [Nat.mul_comm] at this
        exact this
      · rintro j ⟨h1, h2, h3⟩
        rw [hF j h1] at h2
        rw [hend j h1] at h3
        by_cases hj1 : j + 1 < bpc
        · rw [if_pos hj1] at h3
          exact (Nat.div_eq_of_lt_le h2 h3).symm
        · have e : j = bpc - 1 := by omega
          rw [e] at h2
          omega
    · refine ⟨bpc - 1, ⟨by omega, ?_, ?_⟩, ?_⟩
      · rw [hF _ (by omega)]
        omega
      · rw [hend _ (by omega), if_neg (by omega)]
        exact hb
      · rintro j ⟨h1, h2, h3⟩
        rw [hend j h1] at h3
        by_cases hj1 : j + 1 < bpc
        · rw [if_pos hj1] at h3
          have := hmono (j + 1) hj1
          omega
        · omega

/-- C38.  For `1 ≤ n < 2 ^ 32` and the object `ms` that the constructor builds, in every
chunk the `buckets_per_chunk` passes of `distribution_phase_2` read consecutive segments of
bins: in pass `j` the value of `offset_bins` is `j * num_bins` without wrapping and is at most
`num_buckets` (so `num_buckets - offset_bins` does not underflow), the segment of `seg_bins j`
bins ends where the next one starts and the last one ends at `num_buckets`; the bin counts
sum to `num_buckets`, and every bin `b < num_buckets` lies in the segment of exactly one
pass. -/
theorem phase_2_segmentation (pi : permutation) (n p1 p2 : Nat) (ms : melbshuffle)
    (hms : ms = melbshuffle.init pi n p1 p2) (hn : 1 ≤ n) (hn32 : n < 2 ^ 32) :
    (∀ j, j < ms.buckets_per_chunk →
      ms.offset_bins j = j * ceil_div ms.num_buckets ms.buckets_per_chunk ∧
      ms.offset_bins j ≤ ms.num_buckets ∧
      ms.seg_bins j = (if ms.offset_bins j + ceil_div ms.num_buckets ms.buckets_per_chunk
          < ms.num_buckets then ceil_div ms.num_buckets ms.buckets_per_chunk
        else ms.num_buckets - ms.offset_bins j) ∧
      ms.offset_bins j + ms.seg_bins j =
        if j + 1 < ms.buckets_per_chunk then ms.offset_bins (j + 1) else ms.num_buckets) ∧
    ((List.range ms.buckets_per_chunk).map ms.seg_bins).sum = ms.num_buckets ∧
    ∀ b, b < ms.num_buckets →
      ∃! j, j < ms.buckets_per_chunk ∧ ms.offset_bins j ≤ b ∧
        b < ms.offset_bins j + ms.seg_bins j := by
  obtain ⟨hnb1, hnbu, hbpc1, hsegs, hcov⟩ := phase_2_geom n hn hn32
  have hnb : ms.num_buckets = ceil_root 2 n := by rw [hms]; rfl
  have hbpc : ms.buckets_per_chunk = ceil_div (ceil_root 2 n) (ceil_root 4 n) := by
    rw [hms]; rfl
  rw [← hbpc] at hbpc1 hsegs hcov
  rw [← hnb] at hnb1 hnbu hsegs hcov
  have hW : W32 = 4294967296 := by decide
  have hq : ceil_div ms.num_buckets ms.buckets_per_chunk ≤ ms.num_buckets :=
    ceil_div_le _ _ (by omega)
  generalize hqdef : ceil_div ms.num_buckets ms.buckets_per_chunk = q at *
  have hmono : ∀ j, j < ms.buckets_per_chunk → j * q ≤ (ms.buckets_per_chunk - 1) * q :=
    fun j hj => Nat.mul_le_mul_right _ (by omega)
  have hF : ∀ j, j < ms.buckets_per_chunk → ms.offset_bins j = j * q := by
    intro j hj
    have := hmono j hj
    unfold melbshuffle.offset_bins
    rw [hqdef, hW]
    exact Nat.mod_eq_of_lt (by omega)
  have hG : ∀ j, j < ms.buckets_per_chunk →
      ms.seg_bins j = if j * q + q < ms.num_buckets then q else ms.num_buckets - j * q := by
    intro j hj
    have := hmono j hj
    unfold melbshuffle.seg_bins
    rw [hF j hj, hqdef, hW, Nat.mod_eq_of_lt (by omega)]
    have e : (ms.num_buckets + 4294967296 - j * q) % 4294967296 = ms.num_buckets - j * q := by
      rw [show ms.num_buckets + 4294967296 - j * q = (ms.num_buckets - j * q) + 4294967296 by
        omega, Nat.add_mod_right]
      exact Nat.mod_eq_of_lt (by omega)
    rw [e]
  obtain ⟨g1, g2, g3⟩ := segments_partition ms.num_buckets ms.buckets_per_chunk q
    ms.offset_bins ms.seg_bins hbpc1 hsegs hcov hF hG
  refine ⟨fun j hj => ⟨hF j hj, (g1 j hj).1, ?_, (g1 j hj).2⟩, g2, g3⟩
  rw [hG j hj, hF j hj]

theorem phase_2_segmentation_witness :
    (∀ j, j < (melbshuffle.init (permutation.identity 10) 10 2 2).buckets_per_chunk →
      (melbshuffle.init (permutation.identity 10) 10 2 2).offset_bins j =
        j * ceil_div (melbshuffle.init (permutation.identity 10) 10 2 2).num_buckets
          (melbshuffle.init (permutation.identity 10) 10 2 2).buckets_per_chunk ∧
      (melbshuffle.init (permutation.identity 10) 10 2 2).offset_bins j ≤
        (melbshuffle.init (permutation.identity 10) 10 2 2).num_buckets ∧
      (melbshuffle.init (permutation.identity 10) 10 2 2).seg_bins j =
        (if (melbshuffle.init (permutation.identity 10) 10 2 2).offset_bins j +
            ceil_div (melbshuffle.init (permutation.identity 10) 10 2 2).num_buckets
              (melbshuffle.init (permutation.identity 10) 10 2 2).buckets_per_chunk
          < (melbshuffle.init (permutation.identity 10) 10 2 2).num_buckets
        then ceil_div (melbshuffle.init (permutation.identity 10) 10 2 2).num_buckets
          (melbshuffle.init (permutation.identity 10) 10 2 2).buckets_per_chunk
        else (melbshuffle.init (permutation.identity 10) 10 2 2).num_buckets -
          (melbshuffle.init (permutation.identity 10) 10 2 2).offset_bins j) ∧
      (melbshuffle.init (permutation.identity 10) 10 2 2).offset_bins j +
          (melbshuffle.init (permutation.identity 10) 10 2 2).seg_bins j =
        if j + 1 < (melbshuffle.init (permutation.identity 10) 10 2 2).buckets_per_chunk
        then (melbshuffle.init (permutation.identity 10) 10 2 2).offset_bins (j + 1)
        else (melbshuffle.init (permutation.identity 10) 10 2 2).num_buckets) ∧
    ((List.range (melbshuffle.init (permutation.identity 10) 10 2 2).buckets_per_chunk).map
      (melbshuffle.init (permutation.identity 10) 10 2 2).seg_bins).sum =
      (melbshuffle.init (permutation.identity 10) 10 2 2).num_buckets ∧
    ∀ b, b < (melbshuffle.init (permutation.identity 10) 10 2 2).num_buckets →
      ∃! j, j < (melbshuffle.init (permutation.identity 10) 10 2 2).buckets_per_chunk ∧
        (melbshuffle.init (permutation.identity 10) 10 2 2).offset_bins j ≤ b ∧
        b < (melbshuffle.init (permutation.identity 10) 10 2 2).offset_bins j +
          (melbshuffle.init (permutation.identity 10) 10 2 2).seg_bins j :=
  phase_2_segmentation (permutation.identity 10) 10 2 2 _ rfl (by decide) (by decide)

/-! ### Waksman permutation: where the skip routine stores an element -/

theorem halve_iterate (k off : Nat) : (fun x => x / 2)^[k] off = off / 2 ^ k := by
  induction k with
  | zero => simp
  | succ k ih =>
    rw [Function.iterate_succ_apply', ih, Nat.div_div_eq_div_mul, pow_succ]

/-- C39.  A node `N` with a parent, on which `route_element` calls
`skip_fn(node, elem, length / 2, 0)` for the last output when the parent is even or the node
is a right child.  `skip_fn` calls itself `rise N` times, each time with `offset / 2` and
`index + 1`, and then runs its stop point with `index = rise N`.  With `skip_indices[index]`
allocated, the skip array existing and no 32-bit wrap in the position or the counter, the
call returns: the element, with `aux` shifted right by `index + 1` bits, is written by one
`put` to the skip array at `base + skip_indices[index]`, where `base` is `length / 2` halved
`index` more times; `skip_indices[index]` is one more than before, and the list of counters
has the same length and the same values everywhere else. -/
theorem skip_fn_placement (w : waksman) (N : perm_node) (e : element) (sk : List Nat)
    (c : cloud) (hN : N.parent.is_null = false) (hidx : rise N < sk.length)
    (hc : c.has w.skip_array)
    (hlt : (fun x => x / 2)^[rise N] (w.length / 2) + sk.getD (rise N) 0 < W32)
    (hv : sk.getD (rise N) 0 + 1 < W32) :
    (∀ offset value, value = (N.size + W32 - 1) % W32 → skipcond N →
      w.route_element N e offset value (sk, c) = w.skip_fn N e (w.length / 2) 0 (sk, c)) ∧
    (∀ off idx s, w.skip_fn N e off idx s =
      w.skip_put e ((fun x => x / 2)^[rise N] off) (idx + rise N) s) ∧
    ∃ sk1 c1, w.skip_fn N e (w.length / 2) 0 (sk, c) = .ok (sk1, c1) ∧
      c.put w.skip_array ((fun x => x / 2)^[rise N] (w.length / 2) + sk.getD (rise N) 0)
        { e with aux := e.aux >>> (rise N + 1) } = .ok c1 ∧
      c1.peek w.skip_array ((fun x => x / 2)^[rise N] (w.length / 2) + sk.getD (rise N) 0) =
        some { e with aux := e.aux >>> (rise N + 1) } ∧
      sk1.length = sk.length ∧
      sk1.getD (rise N) 0 = sk.getD (rise N) 0 + 1 ∧
      ∀ i, i ≠ rise N → sk1.getD i 0 = sk.getD i 0 := by
  have hwalk : ∀ off idx s, w.skip_fn N e off idx s =
      w.skip_put e ((fun x => x / 2)^[rise N] off) (idx + rise N) s := by
    intro off idx s
    rw [skip_fn_rise w N e off idx s hN, halve_iterate]
  refine ⟨?_, hwalk, ?_⟩
  · intro offset value hval hskip
    unfold waksman.route_element
    unfold skipcond at hskip
    simp only [hN, hval]
    simp [hskip]
  · obtain ⟨c1, hput, -, hpeek⟩ := put_ret c w.skip_array
      ((fun x => x / 2)^[rise N] (w.length / 2) + sk.getD (rise N) 0)
      { e with aux := e.aux >>> (rise N + 1) } hc
    have h1 : sk[0 + rise N]? = some (sk.getD (rise N) 0) := by
      rw [Nat.zero_add, List.getD_eq_getElem?_getD, List.getElem?_eq_getElem hidx]
      rfl
    refine ⟨sk.set (rise N) (sk.getD (rise N) 0 + 1), c1, ?_, hput, hpeek, ?_, ?_, ?_⟩
    · rw [hwalk]
      unfold waksman.skip_put skip_take
      simp only [h1, ok_bind]
      rw [Nat.mod_eq_of_lt hlt, Nat.mod_eq_of_lt hv, Nat.zero_add,
        ← Nat.shiftRight_eq_div_pow, hput]
      rfl
    · exact List.length_set _ _ _
    · rw [List.getD_eq_getElem?_getD, List.getElem?_set_self hidx]
      rfl
    · intro i hi
      rw [List.getD_eq_getElem?_getD, List.getElem?_set_ne (Ne.symm hi),
        ← List.getD_eq_getElem?_getD]

theorem skip_fn_placement_witness :
    rise (.node (.node (.node .null 1 true 0 10 [] []) 2 true 0 5 [] []) 3 false 2 3 [] []) = 1 ∧
    ∃ sk1 c1, (waksman.init (permutation.identity 10) 10 0).skip_fn
        (.node (.node (.node .null 1 true 0 10 [] []) 2 true 0 5 [] []) 3 false 2 3 [] [])
        { key := 7, aux := 5 } (10 / 2) 0 ([0, 0], (cloud.driver 10).create_array 3 10) =
          .ok (sk1, c1) ∧
      ((cloud.driver 10).create_array 3 10).put 3 2 { key := 7, aux := 1 } = .ok c1 ∧
      c1.peek 3 2 = some { key := 7, aux := 1 } ∧
      sk1.length = 2 ∧ sk1.getD 1 0 = 1 ∧ ∀ i, i ≠ 1 → sk1.getD i 0 = [0, 0].getD i 0 :=
  ⟨rfl, (skip_fn_placement (waksman.init (permutation.identity 10) 10 0)
    (.node (.node (.node .null 1 true 0 10 [] []) 2 true 0 5 [] []) 3 false 2 3 [] [])
    { key := 7, aux := 5 } [0, 0] ((cloud.driver 10).create_array 3 10) rfl (by decide) rfl
    (by decide) (by decide)).2.2⟩

/-! ### Waksman permutation: the root and the leaves -/

theorem leaf_size_lt (pi : permutation) (n name : Nat) (hn : 4 ≤ n) :
    (waksman.init pi n name).leaf_size < n := by
  rcases Nat.eq_or_lt_of_le hn with h | h
  · subst h
    have e : (waksman.init pi 4 name).leaf_size = 3 := rfl
    rw [e]
    decide
  · simp only [waksman.init]
    split <;> omega

theorem leaf_size_ge (pi : permutation) (n name : Nat) :
    3 ≤ (waksman.init pi n name).leaf_size := by
  simp only [waksman.init]
  split <;> omega

theorem set_exterior_node (w : waksman) (P P1 : perm_node) (h : w.set_exterior P = .ok P1) :
    ∃ e x, P1 = P.with_switches e x := by
  rw [set_exterior_eq] at h
  obtain ⟨a, _, h⟩ := bind_ok_inv _ _ _ h
  obtain ⟨st, _, h⟩ := bind_ok_inv _ _ _ h
  cases h
  exact ⟨_, _, rfl⟩

theorem reach_node (w : waksman) (N : perm_node) (h : w.reach N) : N.is_null = false := by
  cases h <;> rfl

/-- A node that `configuration_phase` visits is the root or has a parent. -/
theorem reach_parent (w : waksman) (N : perm_node) (h : w.reach N) :
    N = w.root ∨ N.parent.is_null = false := by
  have key : ∀ P P1 : perm_node, w.reach P → w.set_exterior P = .ok P1 →
      P1.is_null = false := by
    intro P P1 hP hset
    obtain ⟨e, x, rfl⟩ := set_exterior_node w P P1 hset
    have := reach_node w P hP
    cases P with
    | null => cases this
    | node p d l o s e0 x0 => rfl
  cases h with
  | root => exact Or.inl rfl
  | left P P1 hr _ hset => exact Or.inr (key P P1 hr hset)
  | right P P1 hr _ hset => exact Or.inr (key P P1 hr hset)

/-- Every call of `skip_fn` that follows a call on a node with a parent is on a node with a
parent. -/
theorem skip_chain_parent (N : perm_node) :
    N.parent.is_null = false → ∀ M, M ∈ skip_chain N → M.parent.is_null = false := by
  induction N with
  | null => intro h; cases h
  | node parent d l o sz en ex ih =>
    intro h M hM
    cases parent with
    | null => cases h
    | node grand pd pl po ps pen pex =>
      rw [skip_chain] at hM
      rcases List.mem_cons.mp hM with rfl | hM
      · rfl
      · cases hg : grand.is_null with
        | true =>
          rw [hg] at hM
          simp at hM
        | false =>
          have hrec : M ∈ skip_chain (.node grand pd pl po ps pen pex) →
              M.parent.is_null = false := fun hm => ih hg M hm
          rw [hg] at hM
          simp only [Bool.not_false, if_true] at hM
          split at hM
          · split at hM
            · exact hrec hM
            · split at hM
              · cases hM
              · exact hrec hM
          · split at hM
            · cases hM
            · exact hrec hM

theorem route_leaf_root (w : waksman) (src : Nat) (s : List Nat × cloud) :
    w.route_leaf w.root src s = .error .no_array := by
  unfold waksman.route_leaf waksman.root
  rfl

/-- C40.  The object `w` with the fields that `permute` sets for length `n`, and the root
node that it creates.  For `n ≥ 4` the leaf size is less than `n`, `configuration_phase` on
the root takes the branch of an internal node, and every node that `configuration_phase`
visits and treats as a leaf has a parent, as has every node on which `skip_fn` is called
from there; so `route_leaf`, `route_element` and `skip_fn` read `node->parent` of nodes that
have one.  For `n ≤ 3` the root is at most the leaf size and has no parent,
`configuration_phase` calls `route_leaf` on it, which dereferences the missing parent, and
`permute` stops with that fault. -/
theorem waksman_root_not_leaf (pi : permutation) (n name : Nat) (w : waksman)
    (hw : w = waksman.init pi n name) :
    (4 ≤ n →
      w.leaf_size < n ∧ w.root.size = n ∧
      (∀ fuel src s, w.configuration_phase (fuel + 1) w.root src s = (do
        let node ← w.set_exterior w.root
        let c ← w.route_internal_node_cp node src (w.flip src) s.2
        let left := perm_node.node node (node.depth + 1) true node.offset (n / 2) [] []
        let s ← w.configuration_phase fuel left (w.flip src) (s.1, c)
        let right := perm_node.node node (node.depth + 1) false ((node.offset + n / 2) % W32)
          (n / 2 + n % 2) [] []
        w.configuration_phase fuel right (w.flip src) s)) ∧
      ∀ N, w.reach N → N.size ≤ w.leaf_size →
        N.parent.is_null = false ∧ ∀ M, M ∈ skip_chain N → M.parent.is_null = false) ∧
    (n ≤ 3 →
      w.root.size ≤ w.leaf_size ∧ w.root.parent.is_null = true ∧
      (∀ fuel src s, w.configuration_phase (fuel + 1) w.root src s =
        w.route_leaf w.root src s) ∧
      (∀ src s, w.route_leaf w.root src s = .error .no_array) ∧
      ∀ c, waksman.permute pi n name c = .error .no_array) := by
  have hlen : w.length = n := by rw [hw]; rfl
  have hroot : w.root.size = n := by
    unfold waksman.root
    exact hlen
  have hge : 3 ≤ w.leaf_size := by rw [hw]; exact leaf_size_ge pi n name
  constructor
  · intro hn
    have hls : w.leaf_size < n := by rw [hw]; exact leaf_size_lt pi n name hn
    refine ⟨hls, hroot, ?_, ?_⟩
    · intro fuel src s
      rw [waksman.configuration_phase]
      simp only [hroot]
      rw [if_neg (by omega)]
    · intro N hN hsz
      have hp : N.parent.is_null = false := by
        rcases reach_parent w N hN with h | h
        · rw [h, hroot] at hsz
          omega
        · exact h
      exact ⟨hp, skip_chain_parent N hp⟩
  · intro hn
    have hcp : ∀ fuel src s, w.configuration_phase (fuel + 1) w.root src s =
        w.route_leaf w.root src s := by
      intro fuel src s
      rw [waksman.configuration_phase]
      simp only [hroot]
      rw [if_pos (by omega)]
    refine ⟨by rw [hroot]; omega, rfl, hcp, route_leaf_root w, ?_⟩
    intro c
    rw [permute_eq_run, ← hw]
    unfold waksman.run
    simp only []
    have h1 := hcp 33 w.temp1
    have h2 := route_leaf_root w w.temp1
    unfold waksman.root at h1 h2
    rw [h1, h2]
    rfl

theorem waksman_root_not_leaf_witness :
    ((waksman.init (permutation.identity 8) 8 0).leaf_size < 8 ∧
      ∀ N, (waksman.init (permutation.identity 8) 8 0).reach N →
        N.size ≤ (waksman.init (permutation.identity 8) 8 0).leaf_size →
        N.parent.is_null = false ∧ ∀ M, M ∈ skip_chain N → M.parent.is_null = false) ∧
    ∀ c, waksman.permute (permutation.identity 3) 3 0 c = .error .no_array :=
  ⟨⟨((waksman_root_not_leaf (permutation.identity 8) 8 0 _ rfl).1 (by decide)).1,
    ((waksman_root_not_leaf (permutation.identity 8) 8 0 _ rfl).1 (by decide)).2.2.2⟩,
   ((waksman_root_not_leaf (permutation.identity 3) 3 0 _ rfl).2 (by decide)).2.2.2.2⟩

/-! ### The slot view of the server and the bytes of its files -/

theorem le_word_congr (f g : Nat → Nat) (pos : Nat)
    (h : ∀ k, k < 8 → f (pos + k) = g (pos + k)) : le_word f pos = le_word g pos := by
  unfold le_word
  congr 1
  apply List.map_congr_left
  intro k hk
  rw [h k (List.mem_range.mp hk)]

theorem packet_eq (x : element) (hk : x.key < 2 ^ 32) (ha : x.aux < 2 ^ 32) :
    x.packet = 2 ^ 32 * x.aux + x.key ∧ x.packet < 2 ^ 64 := by
  have hpk : x.aux * 2 ^ 32 % 2 ^ 64 ||| x.key = 2 ^ 32 * x.aux + x.key := by
    rw [Nat.mod_eq_of_lt (by omega), Nat.mul_comm]
    exact (Nat.mul_add_lt_is_or hk x.aux).symm
  unfold element.packet
  rw [hpk]
  exact ⟨rfl, by omega⟩

/-- The server without arrays and its slot view. -/
theorem views_init (block_size : Nat) :
    cloud.views { num_IO := 0, table := fun _ => none, trace := [] } (server.init block_size) :=
  ⟨rfl, fun _ => ⟨⟨fun _ => rfl, fun _ => rfl⟩, fun a d h => by cases h⟩⟩

/-- `create_array` on the slot view is `server::create_array`. -/
theorem views_create (c : cloud) (s : server) (name length : Nat) (h : c.views s) :
    (c.create_array name length).views (s.create_array name length) := by
  refine ⟨h.1, fun nm => ?_⟩
  unfold cloud.create_array server.create_array
  simp only
  by_cases hn : nm = name
  · rw [if_pos hn, if_pos hn]
    refine ⟨by simp, fun a d ha hd => ?_⟩
    cases ha
    cases hd
    exact ⟨rfl, fun i e _ he => by cases he⟩
  · rw [if_neg hn, if_neg hn]
    exact h.2 nm

/-- `delete_array` on the slot view is `server::delete_array`: both fail on a missing
array, otherwise both succeed and the results correspond. -/
theorem views_delete (c : cloud) (s : server) (i : Nat) (h : c.views s) :
    (c.delete_array i = .error .no_array ∧ s.delete_array i = none) ∨
    ∃ c1 s1, c.delete_array i = .ok c1 ∧ s.delete_array i = some s1 ∧ c1.views s1 := by
  unfold cloud.delete_array server.delete_array
  cases hc : c.table i with
  | none =>
    have hs := (h.2 i).1.mp hc
    rw [hs]
    exact Or.inl ⟨rfl, rfl⟩
  | some a =>
    cases hs : s.table i with
    | none => rw [(h.2 i).1.mpr hs] at hc; cases hc
    | some d =>
      refine Or.inr ⟨_, _, rfl, rfl, h.1, fun nm => ?_⟩
      simp only
      by_cases hn : nm = i
      · rw [if_pos hn, if_pos hn]
        exact ⟨⟨fun _ => rfl, fun _ => rfl⟩, fun a d ha => by cases ha⟩
      · rw [if_neg hn, if_neg hn]
        exact h.2 nm

/-- `put` on the slot view is `server::put` for an index whose byte offset fits in 32 bits
and an element with 32-bit fields: both fail on a missing array, otherwise both succeed and
the results correspond. -/
theorem views_put (c : cloud) (s : server) (name index : Nat) (x : element) (h : c.views s)
    (hi : index * BYTESPERELEM < W32) (hk : x.key < 2 ^ 32) (ha : x.aux < 2 ^ 32) :
    (c.put name index x = .error .no_array ∧ s.put name index x = none) ∨
    ∃ c1 s1, c.put name index x = .ok c1 ∧ s.put name index x = some s1 ∧ c1.views s1 := by
  have hB : BYTESPERELEM = 9 := rfl
  have hW : W32 = 4294967296 := by decide
  unfold cloud.put server.put
  cases hc : c.table name with
  | none =>
    rw [(h.2 name).1.mp hc]
    exact Or.inl ⟨rfl, rfl⟩
  | some a =>
    cases hs : s.table name with
    | none => rw [(h.2 name).1.mpr hs] at hc; cases hc
    | some d =>
      obtain ⟨hlen, hsl⟩ := (h.2 name).2 a d hc hs
      obtain ⟨hp1, hp2⟩ := packet_eq x hk ha
      refine Or.inr ⟨_, _, rfl, rfl, ?_, fun nm => ?_⟩
      · show (cloud.num_IO c + 1) % W32 = (server.num_IO s + 1) % W32
        rw [h.1]
      · simp only
        by_cases hn : nm = name
        · rw [if_pos hn, if_pos hn]
          refine ⟨by simp, fun a1 d1 ha1 hd1 => ?_⟩
          cases ha1
          cases hd1
          refine ⟨hlen, fun i e hir he => ?_⟩
          simp only at he
          rw [Nat.mod_eq_of_lt hi]
          simp only [file_write, List.length_append, le_bytes_length, List.length_singleton]
          by_cases hii : i = index
          · subst hii
            rw [if_pos rfl] at he
            cases he
            refine ⟨hk, ha, by omega, ?_⟩
            apply le_word_le_bytes _ _ _ hp2
            intro k hk8
            rw [if_pos (by omega)]
            have : i * BYTESPERELEM + k - i * BYTESPERELEM = k := by omega
            rw [this]
            simp only [List.getD_eq_getElem?_getD]
            rw [List.getElem?_append_left (by rw [le_bytes_length]; exact hk8)]
            rfl
          · rw [if_neg hii] at he
            obtain ⟨g1, g2, g3, g4⟩ := hsl i e hir he
            refine ⟨g1, g2, by omega, ?_⟩
            rw [← g4]
            apply le_word_congr
            intro k hk8
            rw [if_neg]
            rw [hB]
            omega
        · rw [if_neg hn, if_neg hn]
          exact h.2 nm

/-- `get` on the slot view is `server::get` for an index whose byte offset fits in 32 bits:
when the slot view returns an element, the server returns the same element, and the results
correspond; and the slot view reports a missing array exactly when the server has none. -/
theorem views_get (c : cloud) (s : server) (name index : Nat) (h : c.views s)
    (hi : index * BYTESPERELEM < W32) :
    (c.get name index = .error .no_array ↔ s.table name = none) ∧
    ∀ e c1, c.get name index = .ok (e, c1) →
      (s.get name index).2 = some e ∧ c1.views (s.get name index).1 := by
  have hW : W32 = 4294967296 := by decide
  unfold cloud.get server.get
  cases hc : c.table name with
  | none =>
    have hs := (h.2 name).1.mp hc
    rw [hs]
    exact ⟨⟨fun _ => rfl, fun _ => rfl⟩, fun e c1 hh => by cases hh⟩
  | some a =>
    cases hs : s.table name with
    | none => rw [(h.2 name).1.mpr hs] at hc; cases hc
    | some d =>
      obtain ⟨hlen, hsl⟩ := (h.2 name).2 a d hc hs
      simp only
      cases he0 : a.slots index with
      | none =>
        refine ⟨?_, fun e c1 hh => by cases hh⟩
        exact ⟨fun hh => (by cases hh), fun hh => (by cases hh)⟩
      | some e0 =>
        obtain ⟨g1, g2, g3, g4⟩ := hsl index e0 hi he0
        obtain ⟨hp1, hp2⟩ := packet_eq e0 g1 g2
        refine ⟨⟨fun hh => (by cases hh), fun hh => (by cases hh)⟩, fun e c1 hh => ?_⟩
        simp only [Except.ok.injEq, Prod.mk.injEq] at hh
        obtain ⟨hh1, hh2⟩ := hh
        rw [Nat.mod_eq_of_lt hi, if_pos g3, g4, hp1]
        have hm : INT32_MAX = 2 ^ 31 - 1 := by decide
        refine ⟨?_, ?_⟩
        · rw [← hh1]
          simp only [Option.some.injEq, element.mk.injEq]
          rw [hm, Nat.and_pow_two_sub_one_eq_mod, Nat.and_pow_two_sub_one_eq_mod, hW]
          constructor <;> omega
        · rw [← hh2]
          refine ⟨?_, fun nm => ?_⟩
          · show (cloud.num_IO c + 1) % W32 = (server.num_IO s + 1) % W32
            rw [h.1]
          · exact h.2 nm

/-- `check` on the slot view is `server::check`. -/
theorem views_check (c : cloud) (s : server) (name : Nat) (index : Int) (h : c.views s) :
    (c.check name index = .error .no_array ∧ s.check name index = none) ∨
    ∃ b, c.check name index = .ok b ∧ s.check name index = some b := by
  unfold cloud.check server.check
  cases hc : c.table name with
  | none =>
    rw [(h.2 name).1.mp hc]
    exact Or.inl ⟨rfl, rfl⟩
  | some a =>
    cases hs : s.table name with
    | none => rw [(h.2 name).1.mpr hs] at hc; cases hc
    | some d =>
      obtain ⟨hlen, -⟩ := (h.2 name).2 a d hc hs
      exact Or.inr ⟨_, rfl, by rw [hlen]⟩

/-- Outside that range the byte offset wraps: `477218589 * 9 = 2 ^ 32 + 5`, so
`put(0, 477218589, x)` writes at byte `5` of the file, over the upper bytes of slot `0`.
After `put(0, 0, (7, 1))` and `put(0, 477218589, (5, 0))` the read of slot `0` returns the
key `7` with the aux `1281`, not the aux `1` that was stored. -/
theorem server_put_wraps :
    477218589 * BYTESPERELEM % W32 = 5 ∧
    ((((server.init 800).create_array 0 1).put 0 0 { key := 7, aux := 1 }).bind
      (fun s1 => s1.put 0 477218589 { key := 5, aux := 0 })).map
      (fun s2 => (s2.get 0 0).2) = some (some { key := 7, aux := 1281 }) := by
  decide

/-! ### Bitonic permutation: the indices of the storage operations -/

theorem fits_of_lt (a : access) (n : Nat) (h : a.index < n) (hn : n * BYTESPERELEM ≤ W32) :
    a.fits := by
  unfold access.fits
  have hB : BYTESPERELEM = 9 := rfl
  rw [hB] at hn ⊢
  omega

theorem body_trace_lt (arr j k m : Nat) (hk : k < 2 ^ m) (hj : j < 2 ^ m) :
    ∀ a, a ∈ bitonic.body_trace arr j k → a.name = arr ∧ a.index < 2 ^ m := by
  intro a ha
  have hx : k ^^^ j < 2 ^ m := Nat.xor_lt_two_pow hk hj
  unfold bitonic.body_trace at ha
  split at ha
  · simp only [List.mem_cons, List.mem_singleton, List.not_mem_nil, or_false] at ha
    rcases ha with rfl | rfl | rfl | rfl
    · exact ⟨rfl, hk⟩
    · exact ⟨rfl, hx⟩
    · exact ⟨rfl, hk⟩
    · exact ⟨rfl, hx⟩
  · cases ha

theorem bitonic_j_loop_lt (b : bitonic) (arr i m : Nat) (hs : b.size = 2 ^ m) (fuel : Nat) :
    ∀ (j : Nat) (c c1 : cloud), j < 2 ^ m → b.j_loop arr i fuel j c = .ok c1 →
      ∃ t, c1.trace = c.trace ++ t ∧ ∀ a, a ∈ t → a.name = arr ∧ a.index < 2 ^ m := by
  induction fuel with
  | zero => intro j c c1 _ h; exact absurd h (by simp [bitonic.j_loop])
  | succ fuel ih =>
    intro j c c1 hj h
    simp only [bitonic.j_loop] at h
    by_cases hj0 : j > 0
    · rw [if_pos hj0] at h
      obtain ⟨c2, h1, h2⟩ := bind_ok_inv _ _ _ h
      have t1 := loop_trace (bitonic.body_trace arr j) _
        (fun k c c1 h => bitonic_body_trace b arr i j k c c1 h) _ _ _ h1
      obtain ⟨t, r1, r2⟩ := ih (j / 2) c2 c1 (lt_of_le_of_lt (Nat.div_le_self _ _) hj) h2
      refine ⟨((List.range b.size).map (bitonic.body_trace arr j)).flatten ++ t, ?_, ?_⟩
      · rw [r1, t1, List.append_assoc]
      · intro a ha
        rcases List.mem_append.mp ha with ha | ha
        · obtain ⟨l, hl, hal⟩ := List.mem_flatten.mp ha
          obtain ⟨k, hk, rfl⟩ := List.mem_map.mp hl
          rw [hs] at hk
          exact body_trace_lt arr j k m (List.mem_range.mp hk) hj a hal
        · exact r2 a ha
    · rw [if_neg hj0] at h
      simp only [pure, Except.pure, Except.ok.injEq] at h
      exact ⟨[], by simp [h], fun a ha => by cases ha⟩

theorem bitonic_i_loop_lt (b : bitonic) (arr m : Nat) (hs : b.size = 2 ^ m) (fuel : Nat) :
    ∀ (i : Nat) (c c1 : cloud), b.i_loop arr fuel i c = .ok c1 →
      ∃ t, c1.trace = c.trace ++ t ∧ ∀ a, a ∈ t → a.name = arr ∧ a.index < 2 ^ m := by
  induction fuel with
  | zero => intro i c c1 h; exact absurd h (by simp [bitonic.i_loop])
  | succ fuel ih =>
    intro i c c1 h
    simp only [bitonic.i_loop] at h
    by_cases hi : i ≤ b.size
    · rw [if_pos hi] at h
      obtain ⟨c2, h1, h2⟩ := bind_ok_inv _ _ _ h
      have hpos : 0 < 2 ^ m := by positivity
      have hj : i / 2 < 2 ^ m := by
        rw [hs] at hi
        omega
      obtain ⟨t, r1, r2⟩ := bitonic_j_loop_lt b arr i m hs _ _ _ _ hj h1
      obtain ⟨u, s1, s2⟩ := ih _ c2 c1 h2
      refine ⟨t ++ u, by rw [s1, r1, List.append_assoc], fun a ha => ?_⟩
      rcases List.mem_append.mp ha with ha | ha
      · exact r2 a ha
      · exact s2 a ha
    · rw [if_neg hi] at h
      simp only [pure, Except.pure, Except.ok.injEq] at h
      exact ⟨[], by simp [h], fun a ha => by cases ha⟩

/-- Every storage operation of a returning run of `bitonic::permute` on `size = 2 ^ m`
elements names the array it was given and an index below `size`. -/
theorem bitonic_permute_lt (b : bitonic) (arr m : Nat) (hs : b.size = 2 ^ m) (fuel : Nat)
    (c c1 : cloud) (o : Nat) (h : b.permute fuel arr c = .ok (o, c1)) :
    ∃ t, c1.trace = c.trace ++ t ∧ ∀ a, a ∈ t → a.name = arr ∧ a.index < 2 ^ m := by
  unfold bitonic.permute at h
  obtain ⟨c2, h1, h2⟩ := bind_ok_inv _ _ _ h
  simp only [pure, Except.pure, Except.ok.injEq, Prod.mk.injEq] at h2
  rw [← h2.2]
  exact bitonic_i_loop_lt b arr m hs fuel 2 c c2 h1

theorem two_pow_fits (m : Nat) (hm : m ≤ 28) : 2 ^ m * BYTESPERELEM ≤ W32 := by
  have h : 2 ^ m ≤ 2 ^ 28 := Nat.pow_le_pow_right (by norm_num) hm
  have hB : BYTESPERELEM = 9 := rfl
  have hW : W32 = 4294967296 := by decide
  rw [hB, hW]
  omega

/-- C3.  For `size = 2 ^ m` with `m ≤ 28` (so that the byte offset `index * 9` of every
slot of the array fits in 32 bits, where `server::get` and `server::put` address the slot
they are given; keys then pass `get` unmasked and `i *= 2` does not wrap), an oracle whose
table is a permutation of `[0, size)`, and an array whose first `size` slots hold elements
with distinct keys in `[0, size)`: `bitonic::permute` returns (any fuel from `2 m + 1` on),
it returns the name it was given, afterwards every input element is at the index `pi` gives
its key, and every slot `t < size` holds an element whose key `pi` sends to `t`; and every
storage operation of the run names that array and an index below `size`, whose byte offset
fits in 32 bits. -/
theorem bitonic_permute_correct (m : Nat) (hm : m ≤ 28) (b : bitonic)
    (hsize : b.size = 2 ^ m) (hpi : b.pi.perm.Perm (List.range (2 ^ m)))
    (arr : Nat) (c : cloud) (f : Nat → element) (hc : c.holds arr (2 ^ m) f)
    (hrange : ∀ x, x < 2 ^ m → (f x).key < 2 ^ m)
    (hdist : ∀ x y, x < 2 ^ m → y < 2 ^ m → (f x).key = (f y).key → x = y)
    (fuel : Nat) (hfuel : 2 * m + 1 ≤ fuel) :
    ∃ c1, b.permute fuel arr c = .ok (arr, c1) ∧
      (∀ x, x < 2 ^ m → ∃ t, b.pi.eval_perm (f x).key = .ok t ∧ t < 2 ^ m ∧
        c1.peek arr t = some (f x)) ∧
      (∀ t, t < 2 ^ m → ∃ e, c1.peek arr t = some e ∧ b.pi.eval_perm e.key = .ok t) ∧
      ∃ ops, c1.trace = c.trace ++ ops ∧
        ∀ a, a ∈ ops → a.name = arr ∧ a.index < 2 ^ m ∧ a.fits := by
  obtain ⟨c1, h1, h2, h3⟩ := bitonic_sorts_slots m (by omega) b hsize hpi arr c f hc
    hrange hdist fuel hfuel
  obtain ⟨ops, g1, g2⟩ := bitonic_permute_lt b arr m hsize fuel c c1 arr h1
  exact ⟨c1, h1, h2, h3, ops, g1, fun a ha =>
    ⟨(g2 a ha).1, (g2 a ha).2, fits_of_lt a _ (g2 a ha).2 (two_pow_fits m hm)⟩⟩

theorem bitonic_permute_correct_witness :
    ∃ c1, bitonic.permute { pi := permutation.reversal 4, size := 4 } 5 0 (cloud.driver 4)
        = .ok (0, c1) ∧
      (∀ x, x < 2 ^ 2 → ∃ t, (permutation.reversal 4).eval_perm (element.mk x 0).key = .ok t ∧
        t < 2 ^ 2 ∧ c1.peek 0 t = some (element.mk x 0)) ∧
      (∀ t, t < 2 ^ 2 → ∃ e, c1.peek 0 t = some e ∧
        (permutation.reversal 4).eval_perm e.key = .ok t) ∧
      ∃ ops, c1.trace = (cloud.driver 4).trace ++ ops ∧
        ∀ a, a ∈ ops → a.name = 0 ∧ a.index < 2 ^ 2 ∧ a.fits :=
  bitonic_permute_correct 2 (by decide) { pi := permutation.reversal 4, size := 4 } rfl
    (by decide) 0 (cloud.driver 4) (fun x => { key := x, aux := 0 }) (driver_holds 4)
    (fun x hx => hx) (fun x y _ _ h => h) 5 (by decide)

/-- C7.  For `size = 2 ^ m` with `m ≤ 28` (the byte offset of every slot of the array fits
in 32 bits) and an array name there is one sequence `t` of storage operations, each on that
array at an index below `size`, such that every run of `bitonic::permute` on an array whose
first `size` slots hold elements with keys below `size`, with any oracle table of at least
`size` entries, returns and has appended exactly `t` to the trace: the operations depend
neither on the permutation nor on the stored elements. -/
theorem bitonic_oblivious (m : Nat) (hm : m ≤ 28) (arr : Nat) :
    ∃ t : List access, (∀ a, a ∈ t → a.name = arr ∧ a.index < 2 ^ m ∧ a.fits) ∧
      ∀ (b : bitonic) (c : cloud) (f : Nat → element) (fuel : Nat),
        b.size = 2 ^ m → 2 ^ m ≤ b.pi.perm.length → c.holds arr (2 ^ m) f →
        (∀ x, x < 2 ^ m → (f x).key < 2 ^ m) → 2 * m + 1 ≤ fuel →
        ∃ c1, b.permute fuel arr c = .ok (arr, c1) ∧ c1.trace = c.trace ++ t := by
  obtain ⟨t, ht⟩ := bitonic_trace_slots m (by omega) arr
  refine ⟨t, ?_, ht⟩
  have hpos : 0 < 2 ^ m := by positivity
  obtain ⟨c1, run, htr⟩ := ht
    { pi := { size := 2 ^ m, perm := List.range (2 ^ m), inv_perm := [] }, size := 2 ^ m }
    { num_IO := 0
      table := fun _ => some { length := 2 ^ m, slots := fun _ => some { key := 0, aux := 0 } }
      trace := [] }
    (fun _ => { key := 0, aux := 0 }) (2 * m + 1) rfl (by simp) ⟨_, rfl, fun _ _ => rfl⟩
    (fun _ _ => hpos) (le_refl _)
  obtain ⟨ops, g1, g2⟩ := bitonic_permute_lt _ arr m rfl _ _ c1 arr run
  have e : t = ops := by
    have := htr.symm.trans g1
    simpa using this
  intro a ha
  rw [e] at ha
  exact ⟨(g2 a ha).1, (g2 a ha).2, fits_of_lt a _ (g2 a ha).2 (two_pow_fits m hm)⟩

theorem bitonic_oblivious_witness :
    ∃ t : List access, (∀ a, a ∈ t → a.name = 0 ∧ a.index < 2 ^ 1 ∧ a.fits) ∧
      ∀ (b : bitonic) (c : cloud) (f : Nat → element) (fuel : Nat),
        b.size = 2 ^ 1 → 2 ^ 1 ≤ b.pi.perm.length → c.holds 0 (2 ^ 1) f →
        (∀ x, x < 2 ^ 1 → (f x).key < 2 ^ 1) → 2 * 1 + 1 ≤ fuel →
        ∃ c1, b.permute fuel 0 c = .ok (0, c1) ∧ c1.trace = c.trace ++ t :=
  bitonic_oblivious 1 (by decide) 0

/-- C29.  For `size = 2 ^ m` with `m ≤ 28` (the byte offset of every slot of the array fits
in 32 bits), any oracle table of at least `size` entries and any array whose first `size`
slots hold elements with keys below `size`: `bitonic::permute` returns, and between the call
and the return exactly `2 ^ m * (m * (m + 1))` storage operations were issued: the trace has
grown by that many `get`/`put` entries, each on that array at an index below `size`, and the
32-bit counter `num_IO` has advanced by that number. -/
theorem bitonic_io_count (m : Nat) (hm : m ≤ 28) (b : bitonic) (hsize : b.size = 2 ^ m)
    (hlen : 2 ^ m ≤ b.pi.perm.length) (arr : Nat) (c : cloud) (f : Nat → element)
    (hc : c.holds arr (2 ^ m) f) (hv : ∀ x, x < 2 ^ m → (f x).key < 2 ^ m)
    (fuel : Nat) (hfuel : 2 * m + 1 ≤ fuel) :
    ∃ c1 ops, b.permute fuel arr c = .ok (arr, c1) ∧
      c1.trace = c.trace ++ ops ∧ ops.length = 2 ^ m * (m * (m + 1)) ∧
      (∀ a, a ∈ ops → a.name = arr ∧ a.index < 2 ^ m ∧ a.fits) ∧
      cloud.num_IO c1 % W32 = (cloud.num_IO c + 2 ^ m * (m * (m + 1))) % W32 := by
  obtain ⟨c1, h1, h2, h3⟩ := bitonic_count_slots m (by omega) b hsize hlen arr c f hc hv fuel
    hfuel
  obtain ⟨ops, g1, g2⟩ := bitonic_permute_lt b arr m hsize fuel c c1 arr h1
  refine ⟨c1, ops, h1, g1, ?_, fun a ha =>
    ⟨(g2 a ha).1, (g2 a ha).2, fits_of_lt a _ (g2 a ha).2 (two_pow_fits m hm)⟩, h3⟩
  rw [g1, List.length_append] at h2
  omega

theorem bitonic_io_count_witness :
    ∃ c1 ops, bitonic.permute { pi := permutation.reversal 4, size := 4 } 5 0 (cloud.driver 4)
        = .ok (0, c1) ∧
      c1.trace = (cloud.driver 4).trace ++ ops ∧ ops.length = 2 ^ 2 * (2 * (2 + 1)) ∧
      (∀ a, a ∈ ops → a.name = 0 ∧ a.index < 2 ^ 2 ∧ a.fits) ∧
      cloud.num_IO c1 % W32 = (cloud.num_IO (cloud.driver 4) + 2 ^ 2 * (2 * (2 + 1))) % W32 :=
  bitonic_io_count 2 (by decide) { pi := permutation.reversal 4, size := 4 } rfl
    (by decide) 0 (cloud.driver 4) (fun x => { key := x, aux := 0 }) (driver_holds 4)
    (fun x hx => hx) 5 (by decide)

/-! ### Bucket permutation: the rearrange pass on slots in range, and the odd `Z` -/

/-- C6.  For an array `arr` whose first `size` slots hold elements with distinct keys
in `[0, size)`, with `size * 9 ≤ 2 ^ 32` (the byte offset `index * 9` of every slot of the
two arrays fits in 32 bits, where `server::get` and `server::put` address the slot they are
given), and an oracle whose table is a permutation of `[0, size)`: `bucket::rearrange`
returns the name `arr + 1` (modulo `2 ^ 32`); that array has declared length `size` and
holds every input element `e` at index `pi(e.key)`; `arr` is deleted; the operations issued
are, for `i = 0, 1, ...`, a read of `arr[i]` followed by a write to `(arr + 1)[pi(key_i)]`,
all at indices below `size`; and the indices written are a permutation of `[0, size)`, so
every slot is written exactly once. -/
theorem bucket_rearrange_correct (bk : bucket) (arr : Nat) (c : cloud) (f : Nat → element)
    (hpi : bk.pi.perm.Perm (List.range bk.size)) (hn : bk.size * BYTESPERELEM ≤ W32)
    (hc : c.holds arr bk.size f)
    (hrange : ∀ x, x < bk.size → (f x).key < bk.size)
    (hdist : ∀ x y, x < bk.size → y < bk.size → (f x).key = (f y).key → x = y) :
    ∃ c1 A, bk.rearrange arr c = .ok ((arr + 1) % W32, c1) ∧
      c1.table ((arr + 1) % W32) = some A ∧ A.length = bk.size ∧
      (∀ x, x < bk.size → ∃ t, bk.pi.eval_perm (f x).key = .ok t ∧ t < bk.size ∧
        A.slots t = some (f x)) ∧
      c1.table arr = none ∧
      c1.trace = c.trace ++ ((List.range bk.size).map (fun i =>
        [access.get arr i, access.put ((arr + 1) % W32) (bk.pi.place (f i))])).flatten ∧
      (∀ a, a ∈ ((List.range bk.size).map (fun i =>
        [access.get arr i, access.put ((arr + 1) % W32) (bk.pi.place (f i))])).flatten →
        a.index < bk.size ∧ a.fits) ∧
      ((List.range bk.size).map (fun i => bk.pi.place (f i))).Perm (List.range bk.size) := by
  have hW : W32 = 4294967296 := by decide
  have hB : BYTESPERELEM = 9 := rfl
  obtain ⟨c1, A, h1, h2, h3, h4, h5, h6, h7⟩ := rearrange_slots bk arr c f hpi
    (by rw [hW, hB] at hn; omega) hc hrange hdist
  refine ⟨c1, A, h1, h2, h3, h4, h5, h6, fun a ha => ?_, h7⟩
  obtain ⟨l, hl, hal⟩ := List.mem_flatten.mp ha
  obtain ⟨i, hi, rfl⟩ := List.mem_map.mp hl
  have hi2 := List.mem_range.mp hi
  have hlt : a.index < bk.size := by
    simp only [List.mem_cons, List.mem_singleton, List.not_mem_nil, or_false] at hal
    rcases hal with rfl | rfl
    · exact hi2
    · exact place_lt bk.pi bk.size hpi _ (hrange i hi2)
  exact ⟨hlt, fits_of_lt a _ hlt hn⟩

theorem bucket_rearrange_correct_witness :
    ∃ c1 A, bucket.rearrange
        { pi := permutation.reversal 2, size := 2, Z := 2, B := 0, seed := 0 } 0
        (cloud.driver 2) = .ok ((0 + 1) % W32, c1) ∧
      c1.table ((0 + 1) % W32) = some A ∧ A.length = 2 ∧
      (∀ x, x < 2 → ∃ t, (permutation.reversal 2).eval_perm (element.mk x 0).key = .ok t ∧
        t < 2 ∧ A.slots t = some (element.mk x 0)) ∧
      c1.table 0 = none ∧
      c1.trace = (cloud.driver 2).trace ++ ((List.range 2).map (fun i =>
        [access.get 0 i,
         access.put ((0 + 1) % W32) ((permutation.reversal 2).place (element.mk i 0))])).flatten ∧
      (∀ a, a ∈ ((List.range 2).map (fun i =>
        [access.get 0 i,
         access.put ((0 + 1) % W32)
           ((permutation.reversal 2).place (element.mk i 0))])).flatten →
        a.index < 2 ∧ a.fits) ∧
      ((List.range 2).map (fun i => (permutation.reversal 2).place (element.mk i 0))).Perm
        (List.range 2) :=
  bucket_rearrange_correct
    { pi := permutation.reversal 2, size := 2, Z := 2, B := 0, seed := 0 } 0 (cloud.driver 2)
    (fun x => { key := x, aux := 0 }) (by decide) (by decide) (driver_holds 2)
    (fun x hx => hx) (fun x y _ _ h => h)

/-- C5 (failing input).  `size = 3`, `Z = 3`, input keys `0, 1, 2` in the array `0`, and the
butterfly as `permute` calls it (with `seed + 2`): `B` is `2`, and the one level of the
butterfly reads two buckets of width `Z / 2 = 1`.  The call returns the array `1`; the only
storage operations it has issued are the reads of the slots `0` and `1` of the input and two
writes to the array `1`, so the element with key `2` in slot `2` was never read; the input
array is deleted; and the six slots of the array `1` hold the keys `0` and `1` and nothing
else.  The element with key `2` is on the server no more when `rearrange` starts. -/
theorem bucket_drops_element :
    (bucket.butterfly { pi := permutation.reversal 3, size := 3, Z := 3, B := 0, seed := 2 }
        (fun key seed => key + seed) (fun _ l => l) 0 (cloud.driver 3)).map
      (fun r => (r.1, r.2.1.B, r.2.2.trace, (r.2.2.table 0).isNone,
        (List.range 6).map (fun i => r.2.2.peek r.1 i)))
      = .ok (1, 2, [access.get 0 0, access.get 0 1, access.put 1 0, access.put 1 1], true,
          [some { key := 0, aux := 0 }, some { key := 1, aux := 0 }, none, none, none, none]) := by
  rfl

/-- C18 (failing input).  At level `0`, with `B = 4` and the tag `hash(key, seed) = key +
seed`, on the input bucket that holds the element with key `1`, the dummy that `put_bucket`
writes (key `INT32_MAX`, aux `0`) and the element with key `2`: `split_input_bucket` appends
the element with key `1` to `out_right` and the element with key `2` to `out_left`, and it
appends the dummy to `out_right` as well, because the key it skips is `UINT32_MAX`. -/
theorem split_appends_written_dummy :
    bucket.split_input_bucket (bucket.mk (permutation.reversal 4) 4 2 4 0)
        (fun key seed => key + seed)
        [{ key := 1, aux := 0 }, { key := INT32_MAX, aux := 0 }, { key := 2, aux := 0 }]
        [] [] 0 =
      ([{ key := 1, aux := 0 }, { key := INT32_MAX, aux := 0 }], [{ key := 2, aux := 0 }]) := by
  decide

/-! ### Melbourne shuffle: the indices of the storage operations -/

theorem idx_lt (a b n m : Nat) (ha : a < n) (hb : b < m) : a * m + b < n * m := by
  have h : (a + 1) * m ≤ n * m := Nat.mul_le_mul_right _ ha
  rw [Nat.add_mul, Nat.one_mul] at h
  omega

theorem gets_lt (name off range B : Nat) (h : ∀ i, i < range → (off + i) % W32 < B) :
    ∀ a, a ∈ trace_gets name off range → a.index < B := by
  intro a ha
  unfold trace_gets at ha
  obtain ⟨i, hi, rfl⟩ := List.mem_map.mp ha
  exact h i (List.mem_range.mp hi)

theorem puts_lt (name off range B : Nat) (h : ∀ i, i < range → (off + i) % W32 < B) :
    ∀ a, a ∈ trace_puts name off range → a.index < B := by
  intro a ha
  unfold trace_puts at ha
  obtain ⟨i, hi, rfl⟩ := List.mem_map.mp ha
  exact h i (List.mem_range.mp hi)

theorem push_bins_lt (T off bs ml n B : Nat)
    (h : ∀ i, i < n → ∀ t, t < ml → ((off + i * bs) % W32 + t) % W32 < B) :
    ∀ a, a ∈ trace_push_bins T off bs ml n → a.index < B := by
  intro a ha
  unfold trace_push_bins at ha
  obtain ⟨l, hl, hal⟩ := List.mem_flatten.mp ha
  obtain ⟨i, hi, rfl⟩ := List.mem_map.mp hl
  exact puts_lt T _ ml B (h i (List.mem_range.mp hi)) a hal

/-- The slots of a bucket of the input or of the output: below `size`. -/
theorem bucket_slot_lt (ms : melbshuffle) (hg : ms.fits) (id : Nat) (hid : id < ms.num_buckets)
    (i : Nat)
    (hi : i < (if (id * ms.bucket_width % W32 + ms.bucket_width) % W32 < ms.size
      then ms.bucket_width else (ms.size + W32 - id * ms.bucket_width % W32) % W32)) :
    (id * ms.bucket_width % W32 + i) % W32 < ms.size := by
  have hW : W32 = 4294967296 := by decide
  have h1 := hg.width
  have h2 := hg.last
  have h3 : id * ms.bucket_width + ms.bucket_width ≤ ms.num_buckets * ms.bucket_width := by
    have := Nat.mul_le_mul_right ms.bucket_width hid
    rw [Nat.succ_mul] at this
    exact this
  have h4 : id * ms.bucket_width ≤ (ms.num_buckets - 1) * ms.bucket_width :=
    Nat.mul_le_mul_right _ (by omega)
  rw [hW] at h1 hi ⊢
  generalize id * ms.bucket_width = A at *
  generalize ms.num_buckets * ms.bucket_width = N at *
  generalize (ms.num_buckets - 1) * ms.bucket_width = L at *
  split at hi <;> omega

theorem phase_1_lt (ms : melbshuffle) (hg : ms.fits) (I T : Nat) :
    ∀ a, a ∈ ms.trace_phase_1 I T →
      a.index < ms.size ∨
      a.index < ms.num_chunks * ms.num_buckets * (ms.p1 * ms.num_chunks) := by
  intro a ha
  unfold melbshuffle.trace_phase_1 at ha
  obtain ⟨l, hl, hal⟩ := List.mem_flatten.mp ha
  obtain ⟨id, hid, rfl⟩ := List.mem_map.mp hl
  have hid2 := List.mem_range.mp hid
  rcases List.mem_append.mp hal with h | h
  · exact Or.inl (gets_lt I _ _ ms.size (fun i hi => bucket_slot_lt ms hg id hid2 i hi) a h)
  · refine Or.inr (push_bins_lt T _ _ _ _ _ (fun i hi t ht => ?_) a h)
    rw [fits_ml1 ms hg] at ht ⊢
    have hW : W32 = 4294967296 := by decide
    have e1 : i * ms.num_buckets + id < ms.num_chunks * ms.num_buckets :=
      idx_lt i id _ _ hi hid2
    have e2 := idx_lt _ t _ (ms.p1 * ms.num_chunks) e1 ht
    have e3 : (i * ms.num_buckets + id) * (ms.p1 * ms.num_chunks) =
        id * (ms.p1 * ms.num_chunks) + i * (ms.num_buckets * (ms.p1 * ms.num_chunks)) := by
      ring
    rw [e3] at e2
    rw [hW]
    generalize id * (ms.p1 * ms.num_chunks) = A at *
    generalize ms.num_buckets * (ms.p1 * ms.num_chunks) = Bk at *
    have e4 : i * (Bk % 4294967296) ≤ i * Bk := Nat.mul_le_mul_left _ (Nat.mod_le _ _)
    generalize i * (Bk % 4294967296) = C at *
    generalize i * Bk = D at *
    generalize ms.num_chunks * ms.num_buckets * (ms.p1 * ms.num_chunks) = N at *
    omega

theorem phase_2_lt (ms : melbshuffle) (hg : ms.fits) (T1 T2 : Nat) :
    ∀ a, a ∈ ms.trace_phase_2 T1 T2 →
      a.index < ms.num_chunks * ms.num_buckets * (ms.p1 * ms.num_chunks) ∨
      a.index < ms.num_chunks * ms.buckets_per_chunk * ms.buckets_per_chunk *
        (ms.p2 * ms.num_chunks) := by
  intro a ha
  have hW : W32 = 4294967296 := by decide
  unfold melbshuffle.trace_phase_2 at ha
  obtain ⟨l, hl, hal⟩ := List.mem_flatten.mp ha
  obtain ⟨cid, hcid, rfl⟩ := List.mem_map.mp hl
  have hcid2 := List.mem_range.mp hcid
  obtain ⟨l2, hl2, hal2⟩ := List.mem_flatten.mp hal
  obtain ⟨j, hj, rfl⟩ := List.mem_map.mp hl2
  have hj2 := List.mem_range.mp hj
  unfold melbshuffle.trace_phase_2_body at hal2
  simp only at hal2
  rw [fits_ml1 ms hg, fits_ml2 ms hg] at hal2
  rcases List.mem_append.mp hal2 with h | h
  · refine Or.inl (gets_lt T1 _ _ _ (fun i hi => ?_) a h)
    -- the bins of the segment lie in the chunk
    have hq : ceil_div ms.num_buckets ms.buckets_per_chunk ≤ ms.num_buckets :=
      ceil_div_le _ _ hg.bpc_pos
    have hnb := fits_nb_lt ms hg
    have hjq : j * ceil_div ms.num_buckets ms.buckets_per_chunk ≤ ms.num_buckets :=
      le_trans (Nat.mul_le_mul_right _ (by omega : j ≤ ms.buckets_per_chunk - 1)) hg.segs
    generalize hqd : ceil_div ms.num_buckets ms.buckets_per_chunk = q at *
    generalize hml : ms.p1 * ms.num_chunks = ml at *
    have hob : j * q % W32 = j * q := Nat.mod_eq_of_lt (by rw [hW]; omega)
    rw [hob] at hi ⊢
    generalize hr : (if (j * q + q) % W32 < ms.num_buckets then q
      else (ms.num_buckets + W32 - j * q) % W32) = r at *
    have hrle : j * q + r ≤ ms.num_buckets := by
      rw [← hr, hW]
      generalize j * q = A at *
      split <;> omega
    have hi2 : i < r * ml := lt_of_lt_of_le hi (Nat.mod_le _ _)
    have e1 : (cid * ms.num_buckets + j * q) * ml + i <
        (cid * ms.num_buckets + j * q + r) * ml := by
      rw [Nat.add_mul _ r ml]
      omega
    have e2 : (cid * ms.num_buckets + j * q + r) * ml ≤
        (ms.num_chunks * ms.num_buckets) * ml := by
      apply Nat.mul_le_mul_right
      have := Nat.mul_le_mul_right ms.num_buckets hcid2
      rw [Nat.succ_mul] at this
      omega
    have e3 : (cid * ms.num_buckets + j * q) * ml = cid * (ms.num_buckets * ml) + j * q * ml := by
      ring
    rw [e3] at e1
    have e4 : cid * (ms.num_buckets * ml % W32) ≤ cid * (ms.num_buckets * ml) :=
      Nat.mul_le_mul_left _ (Nat.mod_le _ _)
    rw [hW] at e4 ⊢
    generalize cid * (ms.num_buckets * ml % 4294967296) = C at *
    generalize cid * (ms.num_buckets * ml) = D at *
    generalize j * q * ml = E at *
    generalize (cid * ms.num_buckets + j * q + r) * ml = F at *
    generalize ms.num_chunks * ms.num_buckets * ml = N at *
    omega
  · refine Or.inr (push_bins_lt T2 _ _ _ _ _ (fun bid hbid t ht => ?_) a h)
    generalize hml : ms.p2 * ms.num_chunks = ml at *
    have e1 : cid * ms.buckets_per_chunk + bid < ms.num_chunks * ms.buckets_per_chunk :=
      idx_lt cid bid _ _ hcid2 hbid
    have e2 := idx_lt _ j _ ms.buckets_per_chunk e1 hj2
    have e3 := idx_lt _ t _ ml e2 ht
    have e4 : ((cid * ms.buckets_per_chunk + bid) * ms.buckets_per_chunk + j) * ml =
        cid * ml * ms.buckets_per_chunk * ms.buckets_per_chunk + j * ml +
          bid * (ml * ms.buckets_per_chunk) := by
      ring
    rw [e4] at e3
    have e5 : bid * (ml * ms.buckets_per_chunk % W32) ≤ bid * (ml * ms.buckets_per_chunk) :=
      Nat.mul_le_mul_left _ (Nat.mod_le _ _)
    rw [hW] at e5 ⊢
    generalize cid * ml * ms.buckets_per_chunk * ms.buckets_per_chunk = A at *
    generalize j * ml = Bj at *
    generalize bid * (ml * ms.buckets_per_chunk % 4294967296) = C at *
    generalize bid * (ml * ms.buckets_per_chunk) = D at *
    generalize ms.num_chunks * ms.buckets_per_chunk * ms.buckets_per_chunk * ml = N at *
    omega

theorem cleanup_lt (ms : melbshuffle) (hg : ms.fits) (T O : Nat) :
    ∀ a, a ∈ ms.trace_cleanup T O →
      a.index < ms.size ∨
      a.index < ms.num_chunks * ms.buckets_per_chunk * ms.buckets_per_chunk *
        (ms.p2 * ms.num_chunks) := by
  intro a ha
  have hW : W32 = 4294967296 := by decide
  unfold melbshuffle.trace_cleanup at ha
  obtain ⟨l, hl, hal⟩ := List.mem_flatten.mp ha
  obtain ⟨id, hid, rfl⟩ := List.mem_map.mp hl
  have hid2 := List.mem_range.mp hid
  rw [fits_ml2 ms hg] at hal
  rcases List.mem_append.mp hal with h | h
  · refine Or.inr (gets_lt T _ _ _ (fun i hi => ?_) a h)
    generalize hml : ms.p2 * ms.num_chunks = ml at *
    have hi2 : i < ms.buckets_per_chunk * ml := lt_of_lt_of_le hi (Nat.mod_le _ _)
    have e1 := idx_lt id i _ _ hid2 hi2
    have e2 : ms.num_buckets * (ms.buckets_per_chunk * ml) ≤
        ms.num_chunks * ms.buckets_per_chunk * ms.buckets_per_chunk * ml := by
      have := Nat.mul_le_mul_right (ms.buckets_per_chunk * ml) hg.chunks
      calc ms.num_buckets * (ms.buckets_per_chunk * ml)
          ≤ ms.num_chunks * ms.buckets_per_chunk * (ms.buckets_per_chunk * ml) := this
        _ = ms.num_chunks * ms.buckets_per_chunk * ms.buckets_per_chunk * ml := by ring
    have e3 : id * (ms.buckets_per_chunk * ml % W32) ≤ id * (ms.buckets_per_chunk * ml) :=
      Nat.mul_le_mul_left _ (Nat.mod_le _ _)
    rw [hW] at e3 ⊢
    generalize id * (ms.buckets_per_chunk * ml % 4294967296) = C at *
    generalize id * (ms.buckets_per_chunk * ml) = D at *
    generalize ms.num_buckets * (ms.buckets_per_chunk * ml) = E at *
    generalize ms.num_chunks * ms.buckets_per_chunk * ms.buckets_per_chunk * ml = N at *
    omega
  · exact Or.inl (puts_lt O _ _ ms.size (fun i hi => bucket_slot_lt ms hg id hid2 i hi) a h)

/-- Every storage operation of a pass of the shuffle has an index below the size of the
array or below the number of slots used in one of the temporary arrays. -/
theorem trace_pass_fits (ms : melbshuffle) (hg : ms.fits) (I T1 T2 O : Nat)
    (h0 : ms.size * BYTESPERELEM ≤ W32)
    (h1 : ms.num_chunks * ms.num_buckets * (ms.p1 * ms.num_chunks) * BYTESPERELEM ≤ W32)
    (h2 : ms.num_chunks * ms.buckets_per_chunk * ms.buckets_per_chunk *
      (ms.p2 * ms.num_chunks) * BYTESPERELEM ≤ W32) :
    ∀ a, a ∈ ms.trace_pass I T1 T2 O → a.fits := by
  intro a ha
  unfold melbshuffle.trace_pass at ha
  rcases List.mem_append.mp ha with h | h
  · rcases List.mem_append.mp h with h | h
    · rcases phase_1_lt ms hg I T1 a h with g | g
      · exact fits_of_lt a _ g h0
      · exact fits_of_lt a _ g h1
    · rcases phase_2_lt ms hg T1 T2 a h with g | g
      · exact fits_of_lt a _ g h1
      · exact fits_of_lt a _ g h2
  · rcases cleanup_lt ms hg T2 O a h with g | g
    · exact fits_of_lt a _ g h0
    · exact fits_of_lt a _ g h2

/-! ### Melbourne shuffle: the call on slots in range -/

theorem delete_trace (c c1 : cloud) (i : Nat) (h : c.delete_array i = .ok c1) :
    c1.trace = c.trace := by
  unfold cloud.delete_array at h
  split at h
  · exact absurd h (by simp)
  · simp only [Except.ok.injEq] at h
    rw [← h]

/-- The storage operations of a returning call of `melbshuffle::permute`: those of the two
passes. -/
theorem permute_trace (ms : melbshuffle) (shuffle : List Nat → List Nat) (input : Nat)
    (c : cloud) (out : Nat) (ms1 : melbshuffle) (c1 : cloud)
    (h : ms.permute shuffle input c = .ok (out, ms1, c1)) :
    c1.trace = c.trace ++ (ms.trace_pass input Ta Tb ((input + 1) % W32) ++
      ms.trace_pass ((((input + 1) % W32 + 1) % W32 + W32 - 1) % W32) Tc Td
        (((input + 1) % W32 + 1) % W32)) := by
  unfold melbshuffle.permute at h
  simp only [bind, Except.bind] at h
  split at h
  · exact absurd h (by simp)
  rename_i c1a hp1
  split at h
  · exact absurd h (by simp)
  rename_i c2 hd2
  split at h
  · exact absurd h (by simp)
  rename_i c3 hd3
  split at h
  · exact absurd h (by simp)
  rename_i c4 hd4
  split at h
  · exact absurd h (by simp)
  rename_i q hq
  split at h
  · exact absurd h (by simp)
  rename_i c5 hp5
  split at h
  · exact absurd h (by simp)
  rename_i c6 hd6
  split at h
  · exact absurd h (by simp)
  rename_i c7 hd7
  split at h
  · exact absurd h (by simp)
  rename_i c8 hd8
  simp only [pure, Except.pure, Except.ok.injEq, Prod.mk.injEq] at h
  obtain ⟨_, _, hc8⟩ := h
  subst hc8
  have k1 := shuffle_pass_trace _ _ _ _ _ _ _ hp1
  have k5 := shuffle_pass_trace _ _ _ _ _ _ _ hp5
  rw [delete_trace _ _ _ hd8, delete_trace _ _ _ hd7, delete_trace _ _ _ hd6, k5]
  have e : (((c4.create_array Tc (ms.num_chunks * ms.chunk_width * ms.p1 % W32)).create_array Td
      (ms.num_chunks * ms.chunk_width * ms.p2 % W32)).create_array
      (((input + 1) % W32 + 1) % W32) ms.size).trace = c4.trace := rfl
  rw [e, delete_trace _ _ _ hd4, delete_trace _ _ _ hd3, delete_trace _ _ _ hd2, k1]
  have e2 : (((c.create_array Ta (ms.num_chunks * ms.chunk_width * ms.p1 % W32)).create_array Tb
      (ms.num_chunks * ms.chunk_width * ms.p2 % W32)).create_array
      ((input + 1) % W32) ms.size).trace = c.trace := rfl
  rw [e2, List.append_assoc]
  rfl

theorem nine_lt (x : Nat) (h : x * BYTESPERELEM ≤ W32) : x < 2 ^ 31 ∧ x < 2 ^ 32 := by
  have hB : BYTESPERELEM = 9 := rfl
  have hW : W32 = 4294967296 := by decide
  rw [hB, hW] at h
  constructor <;> omega

/-- C4.  For `n ≥ 1` and `p1`, `p2` such that `n` and the numbers of slots used in the two
temporary arrays, times `9`, are at most `2 ^ 32` (so that the byte offset `index * 9` of
every slot used fits in 32 bits, where `server::get` and `server::put` address the slot they
are given), an oracle whose table is a permutation of `[0, n)`, a `std::shuffle` that
permutes its argument, an input name such that `input`, `input + 1`, `input + 2` are none of
`Ta`, `Tb`, `Tc`, `Td`, and an input array holding elements whose keys are `0, ..., n - 1` in
some order: `melbshuffle::permute` either stops on the bin-overload `assert` or returns, and
no other fault occurs; and when it returns, the oracle of the object holds the reshuffled
table, every input element is at the index that this oracle gives its key in the returned
array, with `aux = 0`, and the byte offset of every storage operation of the call fits in 32
bits. -/
theorem melbourne_permute_correct (pi : permutation) (n p1 p2 : Nat)
    (shuffle : List Nat → List Nat) (input : Nat) (c : cloud) (f : Nat → element)
    (hn : 1 ≤ n) (hn9 : n * BYTESPERELEM ≤ W32)
    (hfit1 : ceil_root 4 n * ceil_root 2 n * (p1 * ceil_root 4 n) * BYTESPERELEM ≤ W32)
    (hfit2 : ceil_root 4 n * ceil_div (ceil_root 2 n) (ceil_root 4 n) *
      ceil_div (ceil_root 2 n) (ceil_root 4 n) * (p2 * ceil_root 4 n) * BYTESPERELEM ≤ W32)
    (hpsz : pi.size = n) (hpi : pi.perm.Perm (List.range n))
    (hs : ∀ l, (shuffle l).Perm l)
    (hnames : ∀ t, t ∈ [Ta, Tb, Tc, Td] →
      input ≠ t ∧ (input + 1) % W32 ≠ t ∧ (input + 2) % W32 ≠ t)
    (hc : c.holds input n f)
    (hkeys : ((List.range n).map (fun i => (f i).key)).Perm (List.range n)) :
    ((melbshuffle.init pi n p1 p2).permute shuffle input c = .error .assertion ∨
      ∃ r, (melbshuffle.init pi n p1 p2).permute shuffle input c = .ok r) ∧
    ∀ out ms1 c1, (melbshuffle.init pi n p1 p2).permute shuffle input c = .ok (out, ms1, c1) →
      ms1.pi.perm = shuffle pi.perm ∧
      (∀ i, i < n → c1.peek out (ms1.pi.place (f i)) = some { key := (f i).key, aux := 0 }) ∧
      ∃ ops, c1.trace = c.trace ++ ops ∧ ∀ a, a ∈ ops → a.fits := by
  have hg := init_fits pi n p1 p2 hn (nine_lt n hn9).1 (nine_lt _ hfit1).2 (nine_lt _ hfit2).2
  obtain ⟨g1, g2⟩ := melbourne_permute_slots pi n p1 p2 shuffle input c f hn
    (nine_lt n hn9).1 (nine_lt _ hfit1).2 (nine_lt _ hfit2).2 hpsz hpi hs hnames hc hkeys
  refine ⟨g1, fun out ms1 c1 h => ⟨(g2 out ms1 c1 h).1, (g2 out ms1 c1 h).2, _,
    permute_trace _ _ _ _ _ _ _ h, fun a ha => ?_⟩⟩
  rcases List.mem_append.mp ha with h1 | h1
  · exact trace_pass_fits _ hg _ _ _ _ hn9 hfit1 hfit2 a h1
  · exact trace_pass_fits _ hg _ _ _ _ hn9 hfit1 hfit2 a h1

theorem melbourne_permute_correct_witness :
    (((melbshuffle.init (permutation.reversal 4) 4 2 2).permute List.reverse 0
        (cloud.driver 4) = .error .assertion ∨
      ∃ r, (melbshuffle.init (permutation.reversal 4) 4 2 2).permute List.reverse 0
        (cloud.driver 4) = .ok r) ∧
    ∀ out ms1 c1, (melbshuffle.init (permutation.reversal 4) 4 2 2).permute List.reverse 0
        (cloud.driver 4) = .ok (out, ms1, c1) →
      ms1.pi.perm = List.reverse (permutation.reversal 4).perm ∧
      (∀ i, i < 4 → c1.peek out (ms1.pi.place (element.mk i 0)) =
        some { key := (element.mk i 0).key, aux := 0 }) ∧
      ∃ ops, c1.trace = (cloud.driver 4).trace ++ ops ∧ ∀ a, a ∈ ops → a.fits) ∧
    ∃ r, (melbshuffle.init (permutation.reversal 4) 4 2 2).permute List.reverse 0
      (cloud.driver 4) = .ok r :=
  ⟨melbourne_permute_correct (permutation.reversal 4) 4 2 2 List.reverse 0 (cloud.driver 4)
    (fun x => { key := x, aux := 0 }) (by decide) (by decide) (by decide) (by decide) rfl
    (List.reverse_perm _) (fun l => List.reverse_perm l) (by decide) (driver_holds 4)
    (by decide), ok_of_to_bool _ rfl⟩

/-- C19.  A returning call of `melbshuffle::put_bucket` whose writes are at indices with a
byte offset that fits in 32 bits: the operations of the call are these writes to the output
array, and every slot that the call changes holds an element with `aux = 0` afterwards,
whatever the `aux` of the elements of the bucket was.  And under the conditions of the
correctness theorem of the Melbourne shuffle (`n ≥ 1`, `n` and the numbers of slots used in
the temporary arrays times `9` at most `2 ^ 32`, an oracle and a `std::shuffle` that
permute, names apart from `Ta..Td`, an input holding the keys `0..n-1` in some order with any
`aux` values), when `melbshuffle::permute` returns, every slot `j < n` of the returned array
holds an element with `aux = 0`, and the byte offset of every storage operation of the call
fits in 32 bits. -/
theorem melbourne_output_aux (pi : permutation) (n p1 p2 : Nat)
    (shuffle : List Nat → List Nat) (input : Nat) (c : cloud) (f : Nat → element)
    (hn : 1 ≤ n) (hn9 : n * BYTESPERELEM ≤ W32)
    (hfit1 : ceil_root 4 n * ceil_root 2 n * (p1 * ceil_root 4 n) * BYTESPERELEM ≤ W32)
    (hfit2 : ceil_root 4 n * ceil_div (ceil_root 2 n) (ceil_root 4 n) *
      ceil_div (ceil_root 2 n) (ceil_root 4 n) * (p2 * ceil_root 4 n) * BYTESPERELEM ≤ W32)
    (hpsz : pi.size = n) (hpi : pi.perm.Perm (List.range n))
    (hs : ∀ l, (shuffle l).Perm l)
    (hnames : ∀ t, t ∈ [Ta, Tb, Tc, Td] →
      input ≠ t ∧ (input + 1) % W32 ≠ t ∧ (input + 2) % W32 ≠ t)
    (hc : c.holds input n f)
    (hkeys : ((List.range n).map (fun i => (f i).key)).Perm (List.range n)) :
    (∀ (ms : melbshuffle) (O offset : Nat) (bucket : List element) (c0 c1 : cloud),
      ms.put_bucket O offset bucket c0 = .ok c1 →
      (∀ i, i < (if (offset + ms.bucket_width) % W32 < ms.size then ms.bucket_width
          else (ms.size + W32 - offset) % W32) →
        (offset + i) % W32 * BYTESPERELEM < W32) →
      (∃ ops, c1.trace = c0.trace ++ ops ∧
        ∀ a, a ∈ ops → a = access.put O a.index ∧ a.fits) ∧
      ∀ U j, c1.peek U j = c0.peek U j ∨ (U = O ∧ ∃ e, c1.peek U j = some e ∧ e.aux = 0)) ∧
    ∀ out ms1 c1, (melbshuffle.init pi n p1 p2).permute shuffle input c = .ok (out, ms1, c1) →
      (∀ j, j < n → ∃ e, c1.peek out j = some e ∧ e.aux = 0) ∧
      ∃ ops, c1.trace = c.trace ++ ops ∧ ∀ a, a ∈ ops → a.fits := by
  have hg := init_fits pi n p1 p2 hn (nine_lt n hn9).1 (nine_lt _ hfit1).2 (nine_lt _ hfit2).2
  obtain ⟨g1, g2⟩ := melbourne_aux_slots pi n p1 p2 shuffle input c f hn
    (nine_lt n hn9).1 (nine_lt _ hfit1).2 (nine_lt _ hfit2).2 hpsz hpi hs hnames hc hkeys
  refine ⟨fun ms O offset bucket c0 c1 h hidx =>
    ⟨⟨_, melb_put_bucket_trace ms O offset bucket c0 c1 h, fun a ha => ?_⟩,
      g1 ms O offset bucket c0 c1 h⟩,
    fun out ms1 c1 h => ⟨g2 out ms1 c1 h, _, permute_trace _ _ _ _ _ _ _ h, fun a ha => ?_⟩⟩
  · unfold trace_puts at ha
    obtain ⟨i, hi, rfl⟩ := List.mem_map.mp ha
    exact ⟨rfl, hidx i (List.mem_range.mp hi)⟩
  · rcases List.mem_append.mp ha with h1 | h1
    · exact trace_pass_fits _ hg _ _ _ _ hn9 hfit1 hfit2 a h1
    · exact trace_pass_fits _ hg _ _ _ _ hn9 hfit1 hfit2 a h1

theorem melbourne_output_aux_witness :
    ((∀ (ms : melbshuffle) (O offset : Nat) (bucket : List element) (c0 c1 : cloud),
      ms.put_bucket O offset bucket c0 = .ok c1 →
      (∀ i, i < (if (offset + ms.bucket_width) % W32 < ms.size then ms.bucket_width
          else (ms.size + W32 - offset) % W32) →
        (offset + i) % W32 * BYTESPERELEM < W32) →
      (∃ ops, c1.trace = c0.trace ++ ops ∧
        ∀ a, a ∈ ops → a = access.put O a.index ∧ a.fits) ∧
      ∀ U j, c1.peek U j = c0.peek U j ∨ (U = O ∧ ∃ e, c1.peek U j = some e ∧ e.aux = 0)) ∧
    ∀ out ms1 c1, (melbshuffle.init (permutation.reversal 4) 4 2 2).permute List.reverse 0
        (cloud.driver 4) = .ok (out, ms1, c1) →
      (∀ j, j < 4 → ∃ e, c1.peek out j = some e ∧ e.aux = 0) ∧
      ∃ ops, c1.trace = (cloud.driver 4).trace ++ ops ∧ ∀ a, a ∈ ops → a.fits) ∧
    ∃ r, (melbshuffle.init (permutation.reversal 4) 4 2 2).permute List.reverse 0
      (cloud.driver 4) = .ok r :=
  ⟨melbourne_output_aux (permutation.reversal 4) 4 2 2 List.reverse 0 (cloud.driver 4)
    (fun x => { key := x, aux := 0 }) (by decide) (by decide) (by decide) (by decide) rfl
    (List.reverse_perm _) (fun l => List.reverse_perm l) (by decide) (driver_holds 4)
    (by decide), ok_of_to_bool _ rfl⟩

/-! ### Waksman permutation: what holds across every storage operation holds across a run -/

theorem gr_loop (R : cloud → cloud → Prop) (hR : storage_rel R) {σ : Type} (pr : σ → cloud) (body : Nat → σ → Except Fault σ)
    (hbody : ∀ k s s1, body k s = .ok s1 → R (pr s) (pr s1)) (n : Nat) :
    ∀ s s1, loop n body s = .ok s1 → R (pr s) (pr s1) :=
  loop_rel_gen (fun s s1 => R (pr s) (pr s1)) (fun s => hR.refl _)
    (fun _ _ _ h1 h2 => hR.trans _ _ _ h1 h2) body hbody n

theorem gr_route_wire (R : cloud → cloud → Prop) (hR : storage_rel R) (w : waksman) (fuel : Nat) :
    ∀ (e : element) (size pv index dest : Nat) (c c1 : cloud),
      w.route_wire fuel e size pv index dest c = .ok c1 → R c c1 := by
  induction fuel with
  | zero => intro e size pv index dest c c1 h; exact absurd h (by simp [waksman.route_wire])
  | succ fuel ih =>
    intro e size pv index dest c c1 h
    rw [waksman.route_wire] at h
    split at h
    · exact hR.put _ _ _ _ _ h
    · exact ih _ _ _ _ _ _ _ h

theorem gr_get_update_elem (R : cloud → cloud → Prop) (hR : storage_rel R) (w : waksman) (node : perm_node) (source index : Nat)
    (c c1 : cloud) (e : element) (h : w.get_update_elem node source index c = .ok (e, c1)) :
    R c c1 := by
  unfold waksman.get_update_elem at h
  simp only [bind, Except.bind, pure, Except.pure] at h
  split at h
  · exact absurd h (by simp)
  rename_i r h1
  obtain ⟨el, c2⟩ := r
  simp only at h
  split at h
  · exact absurd h (by simp)
  split at h
  · exact absurd h (by simp)
  simp only [Except.ok.injEq, Prod.mk.injEq] at h
  rw [← h.2]
  exact hR.get _ _ _ _ _ h1

theorem gr_route_switch_cp (R : cloud → cloud → Prop) (hR : storage_rel R) (w : waksman) (node : perm_node) (source dest index : Nat)
    (c c1 : cloud) (h : w.route_switch_cp node source dest index c = .ok c1) :
    R c c1 := by
  unfold waksman.route_switch_cp at h
  simp only [bind, Except.bind, pure, Except.pure] at h
  split at h
  · exact absurd h (by simp)
  rename_i r1 h1
  obtain ⟨u1, c2⟩ := r1
  simp only at h
  split at h
  · exact absurd h (by simp)
  rename_i r2 h2
  obtain ⟨u2, c3⟩ := r2
  simp only at h
  have s12 := hR.trans _ _ _ (gr_get_update_elem R hR _ _ _ _ _ _ _ h1)
    (gr_get_update_elem R hR _ _ _ _ _ _ _ h2)
  split at h
  · exact absurd h (by simp)
  split at h
  · split at h
    · exact absurd h (by simp)
    rename_i c4 h3
    exact hR.trans _ _ _ s12 (hR.trans _ _ _ (hR.put _ _ _ _ _ h3) (hR.put _ _ _ _ _ h))
  · split at h
    · exact absurd h (by simp)
    rename_i c4 h3
    exact hR.trans _ _ _ s12 (hR.trans _ _ _ (hR.put _ _ _ _ _ h3) (hR.put _ _ _ _ _ h))

theorem gr_last_wire (R : cloud → cloud → Prop) (hR : storage_rel R) (w : waksman) (node : perm_node) (source dest : Nat) (y c1 : cloud)
    (h : (if node.parent.is_null = true then do
        let r ← w.get_update_elem node source ((node.size + W32 - 1) % W32) y
        match r with
          | (e1, c) => do
            let v1 ← w.eval_pi node ((node.size + W32 - 1) % W32)
            w.route_wire 33 e1 ((node.size + 1) / 2) (v1 / 2)
              ((node.offset + node.size + W32 - 1) % W32) dest c
      else pure y) = Except.ok c1) :
    R y c1 := by
  by_cases hp : node.parent.is_null = true
  · rw [if_pos hp] at h
    obtain ⟨r1, h3, h⟩ := bind_ok_inv _ _ _ h
    obtain ⟨e1, c4⟩ := r1
    dsimp only at h
    obtain ⟨v1, _, h⟩ := bind_ok_inv _ _ _ h
    exact hR.trans _ _ _ (gr_get_update_elem R hR _ _ _ _ _ _ _ h3)
      (gr_route_wire R hR _ _ _ _ _ _ _ _ _ h)
  · rw [if_neg hp] at h
    have e : y = c1 := by
      simpa only [pure, Except.pure, Except.ok.injEq] using h
    rw [← e]
    exact hR.refl _

theorem gr_route_internal_node_cp (R : cloud → cloud → Prop) (hR : storage_rel R) (w : waksman) (node : perm_node) (source dest : Nat)
    (c c1 : cloud) (h : w.route_internal_node_cp node source dest c = .ok c1) :
    R c c1 := by
  unfold waksman.route_internal_node_cp at h
  obtain ⟨c2, h1, h⟩ := bind_ok_inv _ _ _ h
  dsimp only at h
  have s1 : R c c2 :=
    gr_loop R hR id _ (fun k s s1 hb => gr_route_switch_cp R hR w node source dest k s s1 hb) _ _ _ h1
  refine hR.trans _ _ _ s1 ?_
  by_cases hev : node.size % 2 = 0
  · -- node is even
    rw [if_pos hev] at h
    obtain ⟨c3, h2, h⟩ := bind_ok_inv _ _ _ h
    refine hR.trans _ _ _ (gr_route_switch_cp R hR _ _ _ _ _ _ _ h2) ?_
    by_cases hch : node.size / 2 % 2 = 1
    · rw [if_pos hch] at h
      obtain ⟨r1, h3, h⟩ := bind_ok_inv _ _ _ h
      obtain ⟨e1, c4⟩ := r1
      dsimp only at h
      obtain ⟨r2, h4, h⟩ := bind_ok_inv _ _ _ h
      obtain ⟨e2, c5⟩ := r2
      dsimp only at h
      refine hR.trans _ _ _ (hR.trans _ _ _ (gr_get_update_elem R hR _ _ _ _ _ _ _ h3)
        (gr_get_update_elem R hR _ _ _ _ _ _ _ h4)) ?_
      obtain ⟨v1, _, h⟩ := bind_ok_inv _ _ _ h
      obtain ⟨v2, _, h⟩ := bind_ok_inv _ _ _ h
      obtain ⟨b, _, h⟩ := bind_ok_inv _ _ _ h
      by_cases hb : b = PERSIST
      · rw [if_pos hb] at h
        obtain ⟨c6, h5, h⟩ := bind_ok_inv _ _ _ h
        exact hR.trans _ _ _ (gr_route_wire R hR _ _ _ _ _ _ _ _ _ h5)
          (gr_route_wire R hR _ _ _ _ _ _ _ _ _ h)
      · rw [if_neg hb] at h
        obtain ⟨c6, h5, h⟩ := bind_ok_inv _ _ _ h
        exact hR.trans _ _ _ (gr_route_wire R hR _ _ _ _ _ _ _ _ _ h5)
          (gr_route_wire R hR _ _ _ _ _ _ _ _ _ h)
    · rw [if_neg hch] at h
      exact gr_route_switch_cp R hR _ _ _ _ _ _ _ h
  · -- node is odd
    rw [if_neg hev] at h
    by_cases hch : node.size / 2 % 2 = 1
    · rw [if_pos hch] at h
      obtain ⟨r1, h3, h⟩ := bind_ok_inv _ _ _ h
      obtain ⟨e1, c4⟩ := r1
      dsimp only at h
      obtain ⟨r2, h4, h⟩ := bind_ok_inv _ _ _ h
      obtain ⟨e2, c5⟩ := r2
      dsimp only at h
      refine hR.trans _ _ _ (hR.trans _ _ _ (gr_get_update_elem R hR _ _ _ _ _ _ _ h3)
        (gr_get_update_elem R hR _ _ _ _ _ _ _ h4)) ?_
      obtain ⟨b, _, h⟩ := bind_ok_inv _ _ _ h
      by_cases hb : b = PERSIST
      · rw [if_pos hb] at h
        obtain ⟨v1, _, h⟩ := bind_ok_inv _ _ _ h
        obtain ⟨c6, h5, h⟩ := bind_ok_inv _ _ _ h
        obtain ⟨c7, h6, h⟩ := bind_ok_inv _ _ _ h
        exact hR.trans _ _ _ (gr_route_wire R hR _ _ _ _ _ _ _ _ _ h5)
          (hR.trans _ _ _ (hR.put _ _ _ _ _ h6) (gr_last_wire R hR _ _ _ _ _ _ h))
      · rw [if_neg hb] at h
        obtain ⟨c6, h5, h⟩ := bind_ok_inv _ _ _ h
        obtain ⟨v2, _, h⟩ := bind_ok_inv _ _ _ h
        obtain ⟨c7, h6, h⟩ := bind_ok_inv _ _ _ h
        exact hR.trans _ _ _ (hR.put _ _ _ _ _ h5)
          (hR.trans _ _ _ (gr_route_wire R hR _ _ _ _ _ _ _ _ _ h6) (gr_last_wire R hR _ _ _ _ _ _ h))
    · rw [if_neg hch] at h
      obtain ⟨c3, h2, h⟩ := bind_ok_inv _ _ _ h
      exact hR.trans _ _ _ (gr_route_switch_cp R hR _ _ _ _ _ _ _ h2) (gr_last_wire R hR _ _ _ _ _ _ h)

theorem gr_skip_put (R : cloud → cloud → Prop) (hR : storage_rel R) (w : waksman) (e : element) (offset index : Nat)
    (s s1 : List Nat × cloud) (h : w.skip_put e offset index s = .ok s1) :
    R s.2 s1.2 := by
  unfold waksman.skip_put at h
  obtain ⟨r, _, h⟩ := bind_ok_inv _ _ _ h
  obtain ⟨v, sk⟩ := r
  dsimp only at h
  obtain ⟨c2, h2, h⟩ := bind_ok_inv _ _ _ h
  have e1 : (sk, c2) = s1 := by
    simpa only [pure, Except.pure, Except.ok.injEq] using h
  rw [← e1]
  exact hR.put _ _ _ _ _ h2

theorem gr_skip_fn (R : cloud → cloud → Prop) (hR : storage_rel R) (w : waksman) (node : perm_node) :
    ∀ (e : element) (offset index : Nat) (s s1 : List Nat × cloud),
      w.skip_fn node e offset index s = .ok s1 → R s.2 s1.2 := by
  induction node with
  | null => intro e offset index s s1 h; exact absurd h (by simp [waksman.skip_fn])
  | node parent d l o sz en ex ih =>
    intro e offset index s s1 h
    cases parent with
    | null => exact absurd h (by simp [waksman.skip_fn])
    | node grand pd pl po ps pen pex =>
      rw [waksman.skip_fn] at h
      split at h
      · split at h
        · split at h
          · exact ih _ _ _ _ _ h
          · split at h
            · exact gr_skip_put R hR _ _ _ _ _ _ h
            · exact ih _ _ _ _ _ h
        · split at h
          · exact gr_skip_put R hR _ _ _ _ _ _ h
          · exact ih _ _ _ _ _ h
      · exact gr_skip_put R hR _ _ _ _ _ _ h

theorem gr_route_element (R : cloud → cloud → Prop) (hR : storage_rel R) (w : waksman) (node : perm_node) (e : element) (offset value : Nat)
    (s s1 : List Nat × cloud) (h : w.route_element node e offset value s = .ok s1) :
    R s.2 s1.2 := by
  unfold waksman.route_element at h
  split at h
  · exact absurd h (by simp)
  dsimp only at h
  split at h
  · exact gr_skip_fn R hR _ _ _ _ _ _ _ h
  · obtain ⟨c2, h2, h⟩ := bind_ok_inv _ _ _ h
    have e1 : (s.1, c2) = s1 := by
      simpa only [pure, Except.pure, Except.ok.injEq] using h
    rw [← e1]
    exact hR.put _ _ _ _ _ h2

theorem gr_route_leaf (R : cloud → cloud → Prop) (hR : storage_rel R) (w : waksman) (node : perm_node) (source : Nat)
    (s s1 : List Nat × cloud) (h : w.route_leaf node source s = .ok s1) :
    R s.2 s1.2 := by
  unfold waksman.route_leaf at h
  split at h
  · exact absurd h (by simp)
  dsimp only at h
  refine gr_loop R hR (fun s : List Nat × cloud => s.2) _ ?_ _ _ _ h
  intro k t t1 hb
  obtain ⟨r, h1, hb⟩ := bind_ok_inv _ _ _ hb
  obtain ⟨el, c2⟩ := r
  dsimp only at hb
  obtain ⟨v, _, hb⟩ := bind_ok_inv _ _ _ hb
  exact hR.trans _ _ _ (hR.get _ _ _ _ _ h1) (gr_route_element R hR _ _ _ _ _ _ _ hb)

theorem gr_configuration_phase (R : cloud → cloud → Prop) (hR : storage_rel R) (w : waksman) (fuel : Nat) :
    ∀ (node : perm_node) (source : Nat) (s s1 : List Nat × cloud),
      w.configuration_phase fuel node source s = .ok s1 → R s.2 s1.2 := by
  induction fuel with
  | zero => intro node source s s1 h; exact absurd h (by simp [waksman.configuration_phase])
  | succ fuel ih =>
    intro node source s s1 h
    rw [waksman.configuration_phase] at h
    dsimp only at h
    split at h
    · exact gr_route_leaf R hR _ _ _ _ _ h
    · obtain ⟨nd, _, h⟩ := bind_ok_inv _ _ _ h
      obtain ⟨c2, h2, h⟩ := bind_ok_inv _ _ _ h
      obtain ⟨s2, h3, h⟩ := bind_ok_inv _ _ _ h
      exact hR.trans _ _ _ (gr_route_internal_node_cp R hR _ _ _ _ _ _ h2)
        (hR.trans _ _ _ (ih _ _ _ _ h3) (ih _ _ _ _ h))

theorem gr_apply_switch (R : cloud → cloud → Prop) (hR : storage_rel R) (v_top v_bottom : element) (dest : Nat) (node : perm_node)
    (switch_num : Nat) (c c1 : cloud)
    (h : waksman.apply_switch v_top v_bottom dest node switch_num c = .ok c1) :
    R c c1 := by
  unfold waksman.apply_switch at h
  dsimp only at h
  split at h
  · obtain ⟨c2, h2, h⟩ := bind_ok_inv _ _ _ h
    exact hR.trans _ _ _ (hR.put _ _ _ _ _ h2) (hR.put _ _ _ _ _ h)
  · obtain ⟨c2, h2, h⟩ := bind_ok_inv _ _ _ h
    exact hR.trans _ _ _ (hR.put _ _ _ _ _ h2) (hR.put _ _ _ _ _ h)

theorem gr_route_switch_erp (R : cloud → cloud → Prop) (hR : storage_rel R) (source dest index : Nat) (node : perm_node) (switch_num : Nat)
    (c c1 : cloud) (h : waksman.route_switch_erp source dest index node switch_num c = .ok c1) :
    R c c1 := by
  unfold waksman.route_switch_erp at h
  obtain ⟨r1, h1, h⟩ := bind_ok_inv _ _ _ h
  obtain ⟨a, c2⟩ := r1
  dsimp only at h
  obtain ⟨r2, h2, h⟩ := bind_ok_inv _ _ _ h
  obtain ⟨b, c3⟩ := r2
  dsimp only at h
  exact hR.trans _ _ _ (hR.get _ _ _ _ _ h1)
    (hR.trans _ _ _ (hR.get _ _ _ _ _ h2) (gr_apply_switch R hR _ _ _ _ _ _ _ h))

theorem gr_route_switch_erp_skip (R : cloud → cloud → Prop) (hR : storage_rel R) (w : waksman) (source dest source_i skip_i : Nat)
    (node : perm_node) (switch_num : Nat) (c c1 : cloud)
    (h : w.route_switch_erp_skip source dest source_i skip_i node switch_num c = .ok c1) :
    R c c1 := by
  unfold waksman.route_switch_erp_skip at h
  obtain ⟨r1, h1, h⟩ := bind_ok_inv _ _ _ h
  obtain ⟨a, c2⟩ := r1
  dsimp only at h
  obtain ⟨r2, h2, h⟩ := bind_ok_inv _ _ _ h
  obtain ⟨b, c3⟩ := r2
  dsimp only at h
  exact hR.trans _ _ _ (hR.get _ _ _ _ _ h1)
    (hR.trans _ _ _ (hR.get _ _ _ _ _ h2) (gr_apply_switch R hR _ _ _ _ _ _ _ h))

theorem gr_complete_bottom_wires (R : cloud → cloud → Prop) (hR : storage_rel R) (w : waksman) (dest skip_index : Nat) (c c1 : cloud)
    (h : w.complete_bottom_wires dest skip_index c = .ok c1) : R c c1 := by
  unfold waksman.complete_bottom_wires at h
  obtain ⟨r1, h1, h⟩ := bind_ok_inv _ _ _ h
  obtain ⟨a, c2⟩ := r1
  dsimp only at h
  refine hR.trans _ _ _ (hR.get _ _ _ _ _ h1) ?_
  split at h
  · exact hR.put _ _ _ _ _ h
  · obtain ⟨r2, h2, h⟩ := bind_ok_inv _ _ _ h
    obtain ⟨b, c3⟩ := r2
    dsimp only at h
    obtain ⟨c4, h3, h⟩ := bind_ok_inv _ _ _ h
    exact hR.trans _ _ _ (hR.get _ _ _ _ _ h2)
      (hR.trans _ _ _ (hR.put _ _ _ _ _ h3) (hR.put _ _ _ _ _ h))

theorem gr_route_internal_node_erp (R : cloud → cloud → Prop) (hR : storage_rel R) (w : waksman) (node : perm_node)
    (source dest skip_index : Nat) (c : cloud) (r : Nat × cloud)
    (h : w.route_internal_node_erp node source dest skip_index c = .ok r) :
    R c r.2 := by
  unfold waksman.route_internal_node_erp at h
  dsimp only at h
  have hl : ∀ (n : Nat) (a b : cloud),
      loop n (fun i c => waksman.route_switch_erp source dest ((node.offset + 2 * i) % W32)
        node i c) a = .ok b → R a b := fun n a b hb =>
    gr_loop R hR id _ (fun k s s1 hk => gr_route_switch_erp R hR _ _ _ _ _ _ _ hk) n a b hb
  split at h
  · obtain ⟨c2, h1, h⟩ := bind_ok_inv _ _ _ h
    refine hR.trans _ _ _ (gr_complete_bottom_wires R hR _ _ _ _ _ h1) ?_
    split at h
    · obtain ⟨c3, h2, h⟩ := bind_ok_inv _ _ _ h
      rw [sa_pure_pair _ _ _ h]
      exact hl _ _ _ h2
    · obtain ⟨c3, h2, h⟩ := bind_ok_inv _ _ _ h
      refine hR.trans _ _ _ (hl _ _ _ h2) ?_
      split at h
      · obtain ⟨c4, h3, h⟩ := bind_ok_inv _ _ _ h
        refine hR.trans _ _ _ (gr_route_switch_erp R hR _ _ _ _ _ _ _ h3) ?_
        split at h
        · obtain ⟨c5, h4, h⟩ := bind_ok_inv _ _ _ h
          rw [sa_pure_pair _ _ _ h]
          exact gr_route_switch_erp R hR _ _ _ _ _ _ _ h4
        · obtain ⟨c5, h4, h⟩ := bind_ok_inv _ _ _ h
          rw [sa_pure_pair _ _ _ h]
          exact gr_route_switch_erp R hR _ _ _ _ _ _ _ h4
      · split at h
        · obtain ⟨c4, h3, h⟩ := bind_ok_inv _ _ _ h
          obtain ⟨c5, h4, h⟩ := bind_ok_inv _ _ _ h
          rw [sa_pure_pair _ _ _ h]
          exact hR.trans _ _ _ (gr_route_switch_erp R hR _ _ _ _ _ _ _ h3)
            (gr_route_switch_erp R hR _ _ _ _ _ _ _ h4)
        · obtain ⟨c4, h3, h⟩ := bind_ok_inv _ _ _ h
          obtain ⟨c5, h4, h⟩ := bind_ok_inv _ _ _ h
          rw [sa_pure_pair _ _ _ h]
          exact hR.trans _ _ _ (gr_route_switch_erp_skip R hR _ _ _ _ _ _ _ _ _ h3)
            (gr_route_switch_erp_skip R hR _ _ _ _ _ _ _ _ _ h4)
  · obtain ⟨c2, h1, h⟩ := bind_ok_inv _ _ _ h
    have e1 : c = c2 := by
      simpa only [pure, Except.pure, Except.ok.injEq] using h1
    rw [e1]
    split at h
    · obtain ⟨c3, h2, h⟩ := bind_ok_inv _ _ _ h
      rw [sa_pure_pair _ _ _ h]
      exact hl _ _ _ h2
    · obtain ⟨c3, h2, h⟩ := bind_ok_inv _ _ _ h
      refine hR.trans _ _ _ (hl _ _ _ h2) ?_
      split at h
      · obtain ⟨c4, h3, h⟩ := bind_ok_inv _ _ _ h
        refine hR.trans _ _ _ (gr_route_switch_erp R hR _ _ _ _ _ _ _ h3) ?_
        split at h
        · obtain ⟨c5, h4, h⟩ := bind_ok_inv _ _ _ h
          rw [sa_pure_pair _ _ _ h]
          exact gr_route_switch_erp R hR _ _ _ _ _ _ _ h4
        · obtain ⟨c5, h4, h⟩ := bind_ok_inv _ _ _ h
          rw [sa_pure_pair _ _ _ h]
          exact gr_route_switch_erp R hR _ _ _ _ _ _ _ h4
      · split at h
        · obtain ⟨c4, h3, h⟩ := bind_ok_inv _ _ _ h
          obtain ⟨c5, h4, h⟩ := bind_ok_inv _ _ _ h
          rw [sa_pure_pair _ _ _ h]
          exact hR.trans _ _ _ (gr_route_switch_erp R hR _ _ _ _ _ _ _ h3)
            (gr_route_switch_erp R hR _ _ _ _ _ _ _ h4)
        · obtain ⟨c4, h3, h⟩ := bind_ok_inv _ _ _ h
          obtain ⟨c5, h4, h⟩ := bind_ok_inv _ _ _ h
          rw [sa_pure_pair _ _ _ h]
          exact hR.trans _ _ _ (gr_route_switch_erp_skip R hR _ _ _ _ _ _ _ _ _ h3)
            (gr_route_switch_erp_skip R hR _ _ _ _ _ _ _ _ _ h4)

theorem gr_preorder_trav (R : cloud → cloud → Prop) (hR : storage_rel R) (w : waksman) (fuel : Nat) :
    ∀ (node : perm_node) (depth source dest skip_index : Nat) (c : cloud) (r : Nat × cloud),
      w.preorder_trav fuel node depth source dest skip_index c = .ok r →
      R c r.2 := by
  induction fuel with
  | zero =>
    intro node depth source dest skip_index c r h
    exact absurd h (by simp [waksman.preorder_trav])
  | succ fuel ih =>
    intro node depth source dest skip_index c r h
    rw [waksman.preorder_trav] at h
    split at h
    · exact gr_route_internal_node_erp R hR _ _ _ _ _ _ _ h
    · dsimp only at h
      obtain ⟨r1, h1, h⟩ := bind_ok_inv _ _ _ h
      obtain ⟨k, c2⟩ := r1
      dsimp only at h
      exact hR.trans _ _ _ (ih _ _ _ _ _ _ _ h1) (ih _ _ _ _ _ _ _ h)

theorem gr_erp_loop (R : cloud → cloud → Prop) (hR : storage_rel R) (w : waksman) (root : perm_node) (h13 : w.temp1 ≠ w.temp3) (i : Nat) :
    ∀ (source dest skip_index : Nat) (c : cloud) (r : Nat × cloud),
      (source = w.temp3 ∧ dest = w.temp1 ∨ source = w.temp1 ∧ dest = w.temp3) →
      w.erp_loop root i source dest skip_index c = .ok r →
      R c r.2 ∧ r.1 = if i % 2 = 0 then source else dest := by
  induction i with
  | zero =>
    intro source dest skip_index c r _ h
    rw [waksman.erp_loop] at h
    simp only [Except.ok.injEq] at h
    rw [← h]
    exact ⟨hR.refl _, rfl⟩
  | succ i ih =>
    intro source dest skip_index c r hsd h
    rw [waksman.erp_loop] at h
    obtain ⟨r1, h1, h⟩ := bind_ok_inv _ _ _ h
    obtain ⟨k, c2⟩ := r1
    dsimp only at h
    have hsd1 : ((if source = w.temp1 then w.temp3 else w.temp1) = w.temp3 ∧ source = w.temp1 ∨
        (if source = w.temp1 then w.temp3 else w.temp1) = w.temp1 ∧ source = w.temp3) := by
      rcases hsd with ⟨hs, _⟩ | ⟨hs, _⟩
      · right
        rw [hs, if_neg (Ne.symm h13)]
        exact ⟨rfl, rfl⟩
      · left
        rw [hs, if_pos rfl]
        exact ⟨rfl, rfl⟩
    obtain ⟨g1, g2⟩ := ih _ _ _ _ _ hsd1 h
    refine ⟨hR.trans _ _ _ (gr_preorder_trav R hR _ _ _ _ _ _ _ _ _ h1) g1, ?_⟩
    rw [g2]
    rcases hsd with ⟨hs, hd⟩ | ⟨hs, hd⟩
    · rw [hs, hd, if_neg (Ne.symm h13)]
      by_cases hi : i % 2 = 0
      · rw [if_pos hi, if_neg (by omega)]
      · rw [if_neg hi, if_pos (by omega)]
    · rw [hs, hd, if_pos rfl]
      by_cases hi : i % 2 = 0
      · rw [if_pos hi, if_neg (by omega)]
      · rw [if_neg hi, if_pos (by omega)]

/-! ### Waksman permutation: the range of the storage operations -/

/-- The relation `marks` holds across every `get` and `put` and composes. -/
theorem marks_rel : storage_rel cloud.marks := by
  refine ⟨?_, ?_, ?_, ?_⟩
  · intro c
    exact ⟨fun _ _ h => h, [], by rw [List.append_nil], fun a ha => by cases ha⟩
  · rintro c c1 c2 ⟨k1, ops1, t1, w1⟩ ⟨k2, ops2, t2, w2⟩
    refine ⟨fun U j h => k2 U j (k1 U j h), ops1 ++ ops2, ?_, ?_⟩
    · rw [t2, t1, List.append_assoc]
    · intro a ha
      rcases List.mem_append.mp ha with ha | ha
      · exact k2 _ _ (w1 a ha)
      · exact w2 a ha
  · intro c c1 name index e h
    have ht := get_ok_table c c1 name index e h
    have hp : ∀ U j, c1.peek U j = c.peek U j := by
      intro U j
      unfold cloud.peek
      rw [ht]
    refine ⟨fun U j hh => by rw [hp]; exact hh, [access.get name index],
      cloud_get_trace c c1 name index e h, ?_⟩
    intro a ha
    rw [List.mem_singleton] at ha
    rw [ha, hp]
    unfold access.name access.index
    simp only
    unfold cloud.get at h
    unfold cloud.peek
    split at h
    · exact absurd h (by simp)
    · rename_i A hA
      split at h
      · exact absurd h (by simp)
      · rename_i x hx
        simp only [hx, Option.isSome_some]
  · intro c c1 name index x h
    have hp := (put_ok_peek c c1 name index x h).2
    refine ⟨fun U j hh => ?_, [access.put name index],
      cloud_put_trace c c1 name index x h, ?_⟩
    · rw [hp]
      split
      · rfl
      · exact hh
    · intro a ha
      rw [List.mem_singleton] at ha
      rw [ha, hp]
      unfold access.name access.index
      simp only [and_self, if_true, Option.isSome_some]

theorem peek_create_some (c : cloud) (name length U j : Nat)
    (h : ((c.create_array name length).peek U j).isSome = true) :
    (c.peek U j).isSome = true := by
  by_cases hU : U = name
  · subst hU
    unfold cloud.peek cloud.create_array at h
    simp only [if_true] at h
    exact absurd h (by simp)
  · rw [peek_create _ _ _ _ _ hU] at h
    exact h

/-- The storage operations of a returning run of the network: every one of them is on a
slot below `length`, or on a slot that was written before the call. -/
theorem run_ops (w : waksman) (henv : w.env) (T : Nat)
    (hu : uni w.leaf_size (T + 1) w.length)
    (hmsb : 2 * (msb_of 32 (w.length / 2) - 1) / 2 = T + 1) (key0 : Nat → Nat)
    (hk0 : ∀ i, key0 i &&& INT32_MAX = key0 i) (c : cloud) (h1 : c.has w.temp1)
    (hin : ∀ j, j < w.length → ∃ e, c.peek w.temp1 j = some e ∧
      mask_key e = { key := key0 j, aux := 0 }) (O : Nat) (c5 : cloud)
    (hr : w.run c = .ok (O, c5)) :
    ∃ ops, c5.trace = c.trace ++ ops ∧
      ∀ a, a ∈ ops → a.index < w.length ∨ (c.peek a.name a.index).isSome = true := by
  have hN := root_ok w (T + 1) hu
  have hsz := uni_size w.leaf_size _ _ hu
  have hlt := henv.len_lt
  have h4 : 4 ≤ w.length := by
    have := hu.1
    have := henv.leaf_ge
    omega
  have hT : T + 2 < 31 := by
    by_contra hh
    have : 2 ^ 31 ≤ 2 ^ (T + 1 + 1) := Nat.pow_le_pow_right (by norm_num) (by omega)
    omega
  have hroom := room_root w henv key0 T w.root hN rfl rfl
  have hth := tree_height_of_uni w.leaf_size (T + 1) 33 w.length hu (by omega)
  have hg : ∀ k, (List.replicate (T + 1) 0).getD k 0 = 0 := by
    intro k
    rw [List.getD_eq_getElem?_getD, List.getElem?_replicate]
    split <;> rfl
  have hlen : ∀ k, w.seg_base k + (w.em key0 (T + 1) w.root k).length ≤ w.length := by
    intro k
    by_cases hk : w.em key0 (T + 1) w.root k = []
    · rw [hk]
      unfold waksman.seg_base
      exact Nat.div_le_self _ _
    · have := (hroom k hk).2
      rw [hg] at this
      have := Nat.div_le_self w.length (2 ^ k)
      omega
  have hl0 : w.live (((c.create_array w.temp2 w.length).create_array w.temp3
      w.length).create_array w.skip_array w.length) := by
    unfold waksman.live
    simp only [has_create]
    exact ⟨Or.inr (Or.inr (Or.inr h1)), Or.inr (Or.inr (Or.inl trivial)),
      Or.inr (Or.inl trivial), Or.inl trivial⟩
  have hpre : w.pre key0 (((c.create_array w.temp2 w.length).create_array w.temp3
      w.length).create_array w.skip_array w.length) (T + 1) w.root := by
    have hI : ∀ j, j < w.length → w.inp key0 w.root j
        (((c.create_array w.temp2 w.length).create_array w.temp3
          w.length).create_array w.skip_array w.length) := by
      intro j hj
      obtain ⟨e, he1, he2⟩ := hin j hj
      refine ⟨e, ?_, ?_⟩
      · have ha : w.arr w.root.depth = w.temp1 := rfl
        have ho : w.root.offset + j = j := Nat.zero_add j
        rw [ha, ho, peek_create _ _ _ _ _ henv.t1s, peek_create _ _ _ _ _ henv.t13,
          peek_create _ _ _ _ _ henv.t12]
        exact he1
      · rw [inE_root]
        exact he2
    constructor
    · intro j hj
      exact hI j (by
        have : w.root.size = w.length := rfl
        omega)
    · have hp : w.root.parent.is_null = true := rfl
      rw [if_pos hp]
      exact hI _ (by
        have : w.root.size = w.length := rfl
        omega)
  have hcp := cp_sub w henv key0 hk0 (T + 2) (by omega) (T + 1) w.root hN
    (fun hh => absurd hh (Nat.succ_ne_zero T)) 34 (by omega) (List.replicate (T + 1) 0) _ hl0
    hpre hroom
  unfold waksman.run at hr
  dsimp only at hr
  rw [hmsb] at hr
  obtain ⟨r1, e1, hr⟩ := bind_ok_inv _ _ _ hr
  obtain ⟨sk1, c1⟩ := r1
  dsimp only at hr
  obtain ⟨r1b, e1b, q1, q2, _, _, q5⟩ := hcp
  have er1 : r1b = (sk1, c1) := by
    have e1c : w.configuration_phase 34 w.root w.temp1 (List.replicate (T + 1) 0,
        ((c.create_array w.temp2 w.length).create_array w.temp3
          w.length).create_array w.skip_array w.length) = .ok (sk1, c1) := e1
    have e1d : w.configuration_phase 34 w.root w.temp1 (List.replicate (T + 1) 0,
        ((c.create_array w.temp2 w.length).create_array w.temp3
          w.length).create_array w.skip_array w.length) = .ok r1b := e1b
    rw [e1c] at e1d
    exact (Except.ok.inj e1d).symm
  subst er1
  simp only at q1 q2 q5
  have hl1 := live_chg w _ _ _ q1 hl0
  obtain ⟨r2, e2, hr⟩ := bind_ok_inv _ _ _ hr
  obtain ⟨out, c2⟩ := r2
  dsimp only at hr
  have m1 := gr_configuration_phase cloud.marks marks_rel w _ _ _ _ _ e1
  unfold waksman.empty_road_phase at e2
  dsimp only at e2
  have m2 := (gr_erp_loop cloud.marks marks_rel w _ henv.t13 _ _ _ _ _ _
    (Or.inl ⟨rfl, rfl⟩) e2).1
  rw [hth] at e2
  have hdiv : w.length = w.length / 2 ^ 0 := by
    rw [pow_zero, Nat.div_one]
  have herp := erp_levels w henv key0 hk0 (T + 1) hN hlen (T + 1) 0 (Nat.zero_add _) w.temp3
    w.temp1 c1 (Or.inl ⟨rfl, rfl⟩) hl1.1 hl1.2.2.1 q2 (by
      intro k j hj
      have := q5 k j hj
      rw [hg, Nat.add_zero] at this
      exact this)
  rw [← hdiv] at herp
  obtain ⟨r2b, e2b, _, v2, _⟩ := herp
  have er2 : r2b = (out, c2) := by
    have e2c : w.erp_loop w.root (T + 1) w.temp3 w.temp1 w.length c1 = .ok (out, c2) := e2
    rw [e2c] at e2b
    exact (Except.ok.inj e2b).symm
  subst er2
  simp only at v2
  obtain ⟨c3, d1, hr⟩ := bind_ok_inv _ _ _ hr
  obtain ⟨c4, d2, hr⟩ := bind_ok_inv _ _ _ hr
  have hlast : c5.trace = c4.trace := by
    by_cases ho : out = w.temp1
    · rw [if_pos ho] at hr
      obtain ⟨c6, d3, hr⟩ := bind_ok_inv _ _ _ hr
      have e : (out, c6) = (O, c5) := by
        simpa only [pure, Except.pure, Except.ok.injEq] using hr
      have e2 : c6 = c5 := congrArg Prod.snd e
      rw [← e2]
      exact delete_trace _ _ _ d3
    · rw [if_neg ho] at hr
      obtain ⟨c6, d3, hr⟩ := bind_ok_inv _ _ _ hr
      have e : (out, c6) = (O, c5) := by
        simpa only [pure, Except.pure, Except.ok.injEq] using hr
      have e2 : c6 = c5 := congrArg Prod.snd e
      rw [← e2]
      exact delete_trace _ _ _ d3
  obtain ⟨_, ops, ht, hw⟩ := marks_rel.trans _ _ _ m1 m2
  refine ⟨ops, ?_, ?_⟩
  · rw [hlast, delete_trace _ _ _ d2, delete_trace _ _ _ d1]
    exact ht
  · intro a ha
    have hs := hw a ha
    by_cases hj : a.index < w.length
    · exact Or.inl hj
    · right
      simp only at hs
      rw [v2.peek _ _ (fun hh => hj hh.2)] at hs
      rw [q1.peek _ _ (by
        rintro (⟨_, _, hh⟩ | ⟨_, hh⟩ | ⟨_, k, t, ht1, ht2⟩)
        · have ho : w.root.offset = 0 := rfl
          have hz : w.root.size = w.length := rfl
          omega
        · have hN2 : w.node_ok (T + 2) w.root (0 + T + 1) := by
            rw [Nat.zero_add]
            exact hN
          have hh2 : w.wrg (T + 1) (0 + T + 1) w.root a.index := by
            rw [Nat.zero_add]
            exact hh
          have := (wrg_region w henv (T + 2) a.index T 0 w.root hN2 hh2).2
          have ho : w.root.offset = 0 := rfl
          have hz : w.root.size = w.length := rfl
          omega
        · have := hlen k
          rw [hg] at ht2
          omega)] at hs
      exact peek_create_some _ _ _ _ _ (peek_create_some _ _ _ _ _
        (peek_create_some _ _ _ _ _ hs))

/-- The storage operations of a returning call of `permute`, for `4 ≤ n` with
`n * BYTESPERELEM ≤ 2 ^ 32` and a server that holds no element beyond the slots whose
byte offset `server::put` computes without a wrap: every operation is on a slot whose byte
offset `index * BYTESPERELEM` is below `2 ^ 32`. -/
theorem permute_ops_fit (pi : permutation) (n name : Nat) (c : cloud) (hn : 4 ≤ n)
    (hn9 : n * BYTESPERELEM ≤ W32) (hpi : (waksman.init pi n name).good_pi)
    (hname : c.has name) (f : Nat → element) (hin : ∀ j, j < n → c.peek name j = some (f j))
    (haux : ∀ j, j < n → (f j).aux = 0)
    (hsmall : ∀ U j, (c.peek U j).isSome = true → j * BYTESPERELEM < W32)
    (O : Nat) (c1 : cloud) (hr : waksman.permute pi n name c = .ok (O, c1)) :
    ∃ ops, c1.trace = c.trace ++ ops ∧ ∀ a, a ∈ ops → a.fits := by
  have hn31 : n < 2 ^ 31 := by
    unfold BYTESPERELEM W32 at hn9
    omega
  have henv := init_env pi n name hn hn31 hpi
  obtain ⟨T, hu, hmsb, _, _⟩ := init_shape pi n name hn hn31
  rw [permute_eq_run] at hr
  obtain ⟨ops, h1, h2⟩ := run_ops (waksman.init pi n name) henv T hu hmsb
    (fun j => (f j).key &&& INT32_MAX) (fun i => mask_mask _) c hname
    (by
      intro j hj
      refine ⟨f j, hin j hj, ?_⟩
      unfold mask_key
      rw [haux j hj]) O c1 hr
  refine ⟨ops, h1, ?_⟩
  intro a ha
  rcases h2 a ha with hh | hh
  · have hl : (waksman.init pi n name).length = n := rfl
    rw [hl] at hh
    exact fits_of_lt a n hh hn9
  · exact hsmall _ _ hh

theorem driver_small (n : Nat) (hn : n * BYTESPERELEM ≤ W32) (U j : Nat)
    (h : ((cloud.driver n).peek U j).isSome = true) : j * BYTESPERELEM < W32 := by
  unfold cloud.peek cloud.driver at h
  simp only at h
  split at h
  · exact absurd h (by simp)
  · rename_i A hA
    split at hA
    · simp only [Option.some.injEq] at hA
      rw [← hA] at h
      simp only at h
      split at h
      · rename_i hj
        unfold BYTESPERELEM W32 at hn ⊢
        omega
      · exact absurd h (by simp)
    · exact absurd hA (by simp)

/-- C28.  For `4 ≤ n` with `n * BYTESPERELEM ≤ 2 ^ 32` (so that the byte offset
`index * BYTESPERELEM` of `server::put` and `server::get` does not wrap on a slot below
`n`), an oracle that holds a bijection of `[0, n)` with its inverse, a server on which no
slot with a wrapping byte offset is written, and an input array whose first `n` slots hold
elements with `aux = 0`: `permute` returns, every one of the `n` slots of the returned array
holds an element with `aux = 0`, and every storage operation of the call is on a slot whose
byte offset is below `2 ^ 32`. -/
theorem waksman_clean_aux (pi : permutation) (n name : Nat) (c : cloud) (hn : 4 ≤ n)
    (hn9 : n * BYTESPERELEM ≤ W32) (hpi : (waksman.init pi n name).good_pi)
    (hname : c.has name) (f : Nat → element) (hin : ∀ i, i < n → c.peek name i = some (f i))
    (haux : ∀ i, i < n → (f i).aux = 0)
    (hsmall : ∀ U j, (c.peek U j).isSome = true → j * BYTESPERELEM < W32) :
    ∃ O c1, waksman.permute pi n name c = .ok (O, c1) ∧
      (∀ y, y < n → ∃ e, c1.peek O y = some e ∧ e.aux = 0) ∧
      ∃ ops, c1.trace = c.trace ++ ops ∧ ∀ a, a ∈ ops → a.fits := by
  have hn31 : n < 2 ^ 31 := by
    unfold BYTESPERELEM W32 at hn9
    omega
  obtain ⟨r, h1, _, _, h3⟩ := permute_total pi n name c hn hn31 hpi hname f hin haux
  refine ⟨r.1, r.2, h1, ?_, permute_ops_fit pi n name c hn hn9 hpi hname f hin haux hsmall
    r.1 r.2 h1⟩
  intro y hy
  obtain ⟨k, hk, hp⟩ := h3 y hy
  exact ⟨_, hp, haux k hk⟩

theorem waksman_clean_aux_witness :
    ∃ O c1, waksman.permute (permutation.reversal 8) 8 0 (cloud.driver 8) = .ok (O, c1) ∧
      (∀ y, y < 8 → ∃ e, c1.peek O y = some e ∧ e.aux = 0) ∧
      ∃ ops, c1.trace = (cloud.driver 8).trace ++ ops ∧ ∀ a, a ∈ ops → a.fits :=
  waksman_clean_aux (permutation.reversal 8) 8 0 (cloud.driver 8) (by decide)
    (by decide) (good_pi_reversal 8 _ _ _ _ _) rfl (fun i => { key := i, aux := 0 })
    (fun i hi => driver_peek 8 i hi) (fun _ _ => rfl) (driver_small 8 (by decide))

/-- The network routes by position.  For `4 ≤ n` with `n * BYTESPERELEM ≤ 2 ^ 32`, an
oracle that holds a bijection `pi` of `[0, n)` with its inverse, a server on which no slot
with a wrapping byte offset is written, and an input array whose slot `i` holds an element
with the key `key0 i < 2 ^ 31` and `aux = 0` for every `i < n`: `permute` returns an array
name `O`, for every `k < n` the element of input slot `k` is stored at `O[pi(k)]`, whatever
key it carries, and every storage operation of the call is on a slot whose byte offset is
below `2 ^ 32`. -/
theorem waksman_permute_positions (pi : permutation) (n name : Nat) (c : cloud)
    (hn : 4 ≤ n) (hn9 : n * BYTESPERELEM ≤ W32) (hpi : (waksman.init pi n name).good_pi)
    (hname : c.has name) (key0 : Nat → Nat) (hkey : ∀ i, i < n → key0 i < 2 ^ 31)
    (hin : ∀ i, i < n → c.peek name i = some { key := key0 i, aux := 0 })
    (hsmall : ∀ U j, (c.peek U j).isSome = true → j * BYTESPERELEM < W32) :
    ∃ O c1, waksman.permute pi n name c = .ok (O, c1) ∧
      (∀ k, k < n → ∃ v, pi.eval_perm k = .ok v ∧ v < n ∧
        c1.peek O v = some { key := key0 k, aux := 0 }) ∧
      ∃ ops, c1.trace = c.trace ++ ops ∧ ∀ a, a ∈ ops → a.fits := by
  have hn31 : n < 2 ^ 31 := by
    unfold BYTESPERELEM W32 at hn9
    omega
  obtain ⟨O, c1, h1, h2⟩ := waksman_positions_slots pi n name c hn hn31 hpi hname key0
    hkey hin
  exact ⟨O, c1, h1, h2, permute_ops_fit pi n name c hn hn9 hpi hname
    (fun i => { key := key0 i, aux := 0 }) hin (fun _ _ => rfl) hsmall O c1 h1⟩

theorem waksman_permute_positions_witness :
    ∃ O c1, waksman.permute (permutation.reversal 8) 8 0 (cloud.driver 8) = .ok (O, c1) ∧
      (∀ k, k < 8 → ∃ v, (permutation.reversal 8).eval_perm k = .ok v ∧ v < 8 ∧
        c1.peek O v = some { key := k, aux := 0 }) ∧
      ∃ ops, c1.trace = (cloud.driver 8).trace ++ ops ∧ ∀ a, a ∈ ops → a.fits :=
  waksman_permute_positions (permutation.reversal 8) 8 0 (cloud.driver 8) (by decide)
    (by decide) (good_pi_reversal 8 _ _ _ _ _) rfl (fun i => i)
    (fun i hi => lt_trans hi (by decide)) (fun i hi => driver_peek 8 i hi)
    (driver_small 8 (by decide))

end ORP
